import Mathlib

/-!
# Decision tree training and inference (`decision_tree.cpp`)

A shallow embedding of `da_decision_forest::decision_tree<T>`:

* `da_int` is `Int`; the floating type `T` is an arbitrary linearly ordered
  field, so every statement about scores and thresholds is a statement in
  exact arithmetic;
* `std::vector` is `List`, indexed by `Int` through `vec_get` / `vec_set`;
  the node array `tree` is bounds-checked (`tree_at`), an access outside its
  current size being undefined behaviour in the source and `out_of_bounds`
  here;
* the caller's arrays `X`, `y` (raw pointers in the source) are total
  functions of the flat index;
* loops whose trip count is known are `for_range`; the other loops carry a
  fuel argument, with `out_of_fuel` distinct from every result of the source;
* what the source takes from libraries or from files that are not part of
  this development (sorting routines, the random engine, `std::log2`, array
  validation helpers) is gathered in the record `externals`.
-/

set_option autoImplicit false
set_option linter.unusedSectionVars false

namespace da_decision_forest

/-! ## Vectors and loops -/

/-- Read `v[i]`; `d` stands for the indeterminate value of a read outside the vector. -/
def vec_get {α : Type} (v : List α) (i : Int) (d : α) : α :=
  if i < 0 then d else v.getD i.toNat d

/-- Write `v[i] = a`; a write outside the vector leaves it as it is. -/
def vec_set {α : Type} (v : List α) (i : Int) (a : α) : List α :=
  if i < 0 then v else v.set i.toNat a

/-- The loop `for (da_int i = lo; i < hi; i++) s = body(i, s)`. -/
def for_range {σ : Type} (lo hi : Int) (body : Int → σ → σ) (s : σ) : σ :=
  (List.range (hi - lo).toNat).foldl (fun acc (k : Nat) => body (lo + (k : Int)) acc) s

/-- The call `v.resize(n)` of `std::vector`, new elements being copies of `d`. -/
def vec_resize {α : Type} (v : List α) (n : Nat) (d : α) : List α :=
  v.take n ++ List.replicate (n - v.length) d

/-- The call `std::fill(v.begin(), v.end(), a)`. -/
def vec_fill {α : Type} (v : List α) (a : α) : List α :=
  List.replicate v.length a

/-- The call `std::copy(src.begin(), src.end(), dst.begin())`. -/
def vec_copy {α : Type} (src dst : List α) : List α :=
  src ++ dst.drop src.length

/-- The call `da_std::iota(v.begin(), v.end(), 0)`. -/
def vec_iota (v : List Int) : List Int :=
  (List.range v.length).map (fun (k : Nat) => (k : Int))

/-- The value `std::distance(v.begin(), std::max_element(v.begin(), v.end()))`:
the position of the first largest element, `0` for an empty vector. -/
def max_element_idx (v : List Int) : Int :=
  for_range 1 v.length (fun i best => if vec_get v best 0 < vec_get v i 0 then i else best) 0

/-- The content of the positions `a`, ..., `b` (both included) of a vector. -/
def seg {α : Type} (v : List α) (a b : Int) : List α :=
  (v.take (b + 1).toNat).drop a.toNat

/-- The vector `w` is `v` with the content of the positions `a`, ..., `b` rearranged and
every other position as it was. -/
def perm_within {α : Type} (v w : List α) (a b : Int) : Prop :=
  w.Perm v ∧ w.take a.toNat = v.take a.toNat ∧ w.drop (b + 1).toNat = v.drop (b + 1).toNat

/-! ## Results of a run -/

/-- Modelled from the spec: the status codes of `aoclda.h` (not part of the sources at hand)
that `decision_tree.cpp` returns. -/
inductive da_status where
  | da_status_success
  | da_status_invalid_pointer
  | da_status_invalid_input
  | da_status_out_of_date
  | da_status_memory_error
  | da_status_internal_error
  | da_status_unknown_query
  | da_status_invalid_leading_dimension
  | da_status_invalid_array_dimension
  deriving DecidableEq, Repr

/-- How a run of a member function ends: with a value, with an access outside the node
array (undefined behaviour in the source), or with the fuel of a loop used up. -/
inductive outcome (α : Type) where
  | done (a : α)
  | out_of_bounds
  | out_of_fuel
  deriving DecidableEq, Repr

/-! ## Score functions -/

/-- The function `gini_score`. -/
def gini_score {T : Type} [LinearOrderedField T] (n_samples n_class : Int)
    (count_classes : List Int) : T :=
  let score : T := for_range 0 n_class
    (fun c score =>
      score + ((vec_get count_classes c 0 : Int) : T) * ((vec_get count_classes c 0 : Int) : T))
    0
  1 - score / ((n_samples : T) * (n_samples : T))

/-- The function `entropy_score`; `log2` stands for `std::log2`. -/
def entropy_score {T : Type} [LinearOrderedField T] (log2 : T → T) (n_samples n_class : Int)
    (count_classes : List Int) : T :=
  for_range 0 n_class
    (fun c score =>
      let prob_c : T := ((vec_get count_classes c 0 : Int) : T) / (n_samples : T)
      if prob_c > (1 : T) / 100000 then score - prob_c * log2 prob_c else score) 0

/-- The function `misclassification_score`. -/
def misclassification_score {T : Type} [LinearOrderedField T] (n_samples _n_class : Int)
    (count_classes : List Int) : T :=
  1 - ((vec_get count_classes (max_element_idx count_classes) 0 : Int) : T) / (n_samples : T)

/-! ## Data model -/

/-- Modelled from the spec: the enumerators of `decision_tree_types.hpp` (not part of the
sources at hand) that `fit` switches on; only their being distinct matters. -/
def gini : Int := 0

/-- Modelled from the spec: enumerator of the scoring functions, see `gini`. -/
def cross_entropy : Int := 1

/-- Modelled from the spec: enumerator of the scoring functions, see `gini`. -/
def misclassification : Int := 2

/-- Modelled from the spec: enumerator of the build orders (LIFO), see `gini`. -/
def depth_first : Int := 0

/-- Modelled from the spec: enumerator of the build orders (FIFO), see `gini`. -/
def breadth_first : Int := 1

/-- Modelled from the spec: enumerator of the sorting methods, see `gini`. -/
def stl_sort : Int := 0

/-- Modelled from the spec: enumerator of the sorting methods, see `gini`. -/
def boost_sort : Int := 1

/-- The struct `node<T>`; the class-probability vector lives in `class_props`. -/
structure node (T : Type) where
  start_idx : Int
  end_idx : Int
  depth : Int
  n_samples : Int
  score : T
  is_leaf : Bool
  feature : Int
  x_threshold : T
  left_child_idx : Int
  right_child_idx : Int
  y_pred : Int

/-- Modelled from the spec: the value of a node that `tree.resize` creates; the struct
declaration is not part of the sources at hand, the spec has a node be a leaf until `fit`
marks it internal. -/
def fresh_node {T : Type} [LinearOrderedField T] : node T :=
  { start_idx := 0, end_idx := 0, depth := 0, n_samples := 0, score := 0, is_leaf := true,
    feature := 0, x_threshold := 0, left_child_idx := -1, right_child_idx := -1, y_pred := 0 }

/-- The struct `split<T>`. -/
structure split (T : Type) where
  feat_idx : Int
  samp_idx : Int
  score : T
  threshold : T
  left_score : T
  right_score : T

/-- The member `split<T>::copy`. -/
def split.copy {T : Type} (_self sp : split T) : split T :=
  { feat_idx := sp.feat_idx, samp_idx := sp.samp_idx, score := sp.score,
    threshold := sp.threshold, left_score := sp.left_score, right_score := sp.right_score }

/-- The values that `fit` reads from the options registry when `read_public_options` is set. -/
structure tree_options (T : Type) where
  predict_proba_opt : Bool
  max_depth : Int
  method : Int
  min_node_sample : Int
  min_split_score : T
  build_order : Int
  nfeat_split : Int
  seed : Int
  feat_thresh : T
  min_improvement : T
  prn_times : Int
  sort_method : Int

/-- The data members of `decision_tree<T>`. `opts` is the options registry as `fit` sees
it (`none`: some `opts.get` fails); `mt_engine` is an encoding of the state of the
Mersenne twister. -/
structure decision_tree (T : Type) where
  max_depth : Int
  min_node_sample : Int
  method : Int
  prn_times : Int
  build_order : Int
  nfeat_split : Int
  seed : Int
  sort_method : Int
  min_split_score : T
  feat_thresh : T
  min_improvement : T
  bootstrap : Bool
  predict_proba_opt : Bool
  read_public_options : Bool
  opts : Option (tree_options T)
  X : Int → T
  ldx : Int
  y : Int → Int
  n_samples : Int
  n_features : Int
  n_class : Int
  n_obs : Int
  samples_subset : Option (Int → Int)
  samples_idx : List Int
  count_classes : List Int
  feature_values : List T
  count_left_classes : List Int
  count_right_classes : List Int
  features_idx : List Int
  model_trained : Bool
  tree : List (node T)
  class_props : List T
  n_nodes : Int
  n_leaves : Int
  depth : Int
  nodes_to_treat : List Int
  score_function : Int → Int → List Int → T
  mt_engine : Nat

/-- What `decision_tree.cpp` takes from outside: the C++ standard library, Boost, and the
helpers of `basic_handle` (none of them part of the sources at hand). -/
structure externals (T : Type) where
  /-- the function `std::log2` -/
  log2 : T → T
  /-- the call `std::sort(start, stop, less)` on the content of the iterator range -/
  std_sort : (Int → Int → Bool) → List Int → List Int
  /-- the call `spreadsort::float_sort(start, stop, rightshift, less)` -/
  float_sort : (Int → Int → Bool) → List Int → List Int
  /-- the value `(da_int)r()` drawn from `std::random_device` -/
  random_device : Int
  /-- the engine state after `mt_engine.seed(seed)` -/
  mt_seed : Int → Nat
  /-- the call `std::shuffle(first, last, mt_engine)`: shuffled range and new engine state -/
  shuffle : List Int → Nat → List Int × Nat
  /-- one draw of `std::uniform_int_distribution<da_int>(a, b)`: value and new engine state -/
  uniform_int : Int → Int → Nat → Int × Nat
  /-- the helper `store_2D_array(n_rows, n_cols, X, ldx, ..., mode)`: status, the array in
  the working (column-major) layout and its leading dimension -/
  store_2D_array : Int → Int → Option (Int → T) → Int → Int → da_status × (Int → T) × Int
  /-- the helper `check_1D_array(n, y, ...)` -/
  check_1D_array : Int → Option (Int → Int) → da_status
  /-- the indeterminate initial content of the locals `sp` and `best_split` of `fit` -/
  uninit_split : split T

/-- Bounds-checked access to the node array: `none` outside `[0, tree.size())`. -/
def tree_at {T : Type} (tree : List (node T)) (i : Int) : Option (node T) :=
  if i < 0 then none else tree.get? i.toNat

/-- Apply `f` to `tree[i]` in place (used under a bounds check). -/
def tree_upd {T : Type} (tree : List (node T)) (i : Int) (f : node T → node T) :
    List (node T) :=
  match tree_at tree i with
  | some nd => tree.set i.toNat (f nd)
  | none => tree

/-! ## Member functions used by `fit` -/

section members

variable {T : Type} [LinearOrderedField T]

/-- The member `refresh`. -/
def refresh (st : decision_tree T) : decision_tree T :=
  { st with model_trained := false, tree := [] }

/-- The member `resize_tree` (allocation is taken to succeed). -/
def resize_tree (st : decision_tree T) (new_size : Nat) : decision_tree T :=
  { st with tree := vec_resize st.tree new_size fresh_node,
            class_props := vec_resize st.class_props (new_size * st.n_class.toNat) 0 }

/-- The member `count_class_occurences`, returning the new content of `class_occ`. -/
def count_class_occurences (st : decision_tree T) (class_occ : List Int)
    (start_idx end_idx : Int) : List Int :=
  for_range start_idx (end_idx + 1)
    (fun i occ =>
      let idx := vec_get st.samples_idx i 0
      let c := st.y idx
      vec_set occ c (vec_get occ c 0 + 1))
    (vec_fill class_occ 0)

/-- The member `add_node`. The two elements `tree[parent_idx]` and `tree[n_nodes]` that it
works on are read, updated and written back (`parent_idx` is smaller than `n_nodes` at
every call). -/
def add_node (st : decision_tree T) (parent_idx : Int) (is_left : Bool) (score : T)
    (split_idx : Int) : outcome (decision_tree T) :=
  let st : decision_tree T :=
    if (st.tree.length : Int) ≤ st.n_nodes then
      if st.predict_proba_opt then resize_tree st (2 * st.tree.length + 1) else st
    else st
  match tree_at st.tree parent_idx, tree_at st.tree st.n_nodes with
  | some parent, some nd =>
    let n := st.n_nodes
    let parent : node T :=
      if is_left then { parent with left_child_idx := n }
      else { parent with right_child_idx := n }
    let nd : node T :=
      if is_left then { nd with start_idx := parent.start_idx, end_idx := split_idx }
      else { nd with start_idx := split_idx + 1, end_idx := parent.end_idx }
    let nd : node T := { nd with depth := parent.depth + 1 }
    let depth := if nd.depth > st.depth then nd.depth else st.depth
    let nd : node T :=
      { nd with score := score, n_samples := nd.end_idx - nd.start_idx + 1 }
    let count_classes := count_class_occurences st st.count_classes nd.start_idx nd.end_idx
    let nd : node T := { nd with y_pred := max_element_idx count_classes }
    let class_props :=
      if st.predict_proba_opt then
        for_range 0 st.n_class
          (fun i cp => vec_set cp (n * st.n_class + i)
            (((vec_get count_classes i 0 : Int) : T) / (nd.n_samples : T)))
          st.class_props
      else st.class_props
    outcome.done
      { st with tree := tree_upd (tree_upd st.tree parent_idx (fun _ => parent)) n (fun _ => nd),
                depth := depth, count_classes := count_classes, class_props := class_props,
                n_nodes := n + 1 }
  | _, _ => outcome.out_of_bounds

/-- The loop of `partition_samples`: one unit of fuel per iteration, `tail_idx - head_idx`
of them being enough. -/
def partition_loop (X : Int → T) (start_col : Int) (x_threshold : T) :
    Nat → List Int → Int → Int → List Int
  | 0, samples_idx, _, _ => samples_idx
  | fuel + 1, samples_idx, head_idx, tail_idx =>
    if head_idx < tail_idx then
      let idx := vec_get samples_idx head_idx 0
      let val := X (start_col + idx)
      if val < x_threshold then
        partition_loop X start_col x_threshold fuel samples_idx (head_idx + 1) tail_idx
      else
        let aux := vec_get samples_idx head_idx 0
        let samples_idx := vec_set samples_idx head_idx (vec_get samples_idx tail_idx 0)
        let samples_idx := vec_set samples_idx tail_idx aux
        partition_loop X start_col x_threshold fuel samples_idx head_idx (tail_idx - 1)
    else samples_idx

/-- The member `partition_samples`, returning the new content of `samples_idx`. -/
def partition_samples (st : decision_tree T) (nd : node T) : List Int :=
  partition_loop st.X (st.ldx * nd.feature) nd.x_threshold
    (nd.end_idx - nd.start_idx).toNat st.samples_idx nd.start_idx nd.end_idx

/-- The function `std_sort_samples` on the content of `[start, stop)`. -/
def std_sort_samples (E : externals T) (X : Int → T) (ldx feat_idx : Int)
    (range : List Int) : List Int :=
  E.std_sort (fun i1 i2 => decide (X (ldx * feat_idx + i1) < X (ldx * feat_idx + i2))) range

/-- The function `boost_sort_samples` on the content of `[start, stop)`. -/
def boost_sort_samples (E : externals T) (X : Int → T) (ldx feat_idx : Int)
    (range : List Int) : List Int :=
  E.float_sort (fun i1 i2 => decide (X (ldx * feat_idx + i1) < X (ldx * feat_idx + i2))) range

/-- The member `sort_samples`: new `samples_idx` and `feature_values`. -/
def sort_samples (E : externals T) (st : decision_tree T) (nd : node T) (feat_idx : Int) :
    decision_tree T :=
  let start := nd.start_idx.toNat
  let stop := (nd.start_idx + nd.n_samples).toNat
  let range := (st.samples_idx.take stop).drop start
  let sorted :=
    if st.sort_method = stl_sort then std_sort_samples E st.X st.ldx feat_idx range
    else if st.sort_method = boost_sort then boost_sort_samples E st.X st.ldx feat_idx range
    else range
  let samples_idx := st.samples_idx.take start ++ sorted ++ st.samples_idx.drop stop
  let feature_values :=
    for_range nd.start_idx (nd.end_idx + 1)
      (fun i fv => vec_set fv i (st.X (st.ldx * feat_idx + vec_get samples_idx i 0)))
      st.feature_values
  { st with samples_idx := samples_idx, feature_values := feature_values }

/-- The member `get_next_node_idx`: the index returned and the new `nodes_to_treat`. -/
def get_next_node_idx (st : decision_tree T) (build_order : Int) : Int × List Int :=
  if build_order = depth_first then
    (st.nodes_to_treat.getLastD (-1), st.nodes_to_treat.dropLast)
  else if build_order = breadth_first then
    (st.nodes_to_treat.headD (-1), st.nodes_to_treat.tail)
  else (-1, st.nodes_to_treat)

/-- The local variables of `find_best_split` that its loops update. -/
structure sweep (T : Type) where
  sidx : Int
  count_left_classes : List Int
  count_right_classes : List Int
  ns_left : Int
  ns_right : Int
  left_score : T
  right_score : T
  sp : split T

/-- Move the sample at position `pos` from the right histogram to the left one. -/
def sweep.move (st : decision_tree T) (s : sweep T) (pos : Int) : sweep T :=
  let c := st.y (vec_get st.samples_idx pos 0)
  { s with
    count_left_classes := vec_set s.count_left_classes c (vec_get s.count_left_classes c 0 + 1),
    count_right_classes :=
      vec_set s.count_right_classes c (vec_get s.count_right_classes c 0 - 1),
    ns_left := s.ns_left + 1,
    ns_right := s.ns_right - 1 }

/-- The inner loop of `find_best_split`, which skips the positions whose feature values
are too close; one unit of fuel per iteration. -/
def skip_close (st : decision_tree T) (end_idx : Int) (feat_thresh : T) :
    Nat → sweep T → sweep T
  | 0, s => s
  | fuel + 1, s =>
    if s.sidx + 1 ≤ end_idx ∧
        |vec_get st.feature_values (s.sidx + 1) 0 - vec_get st.feature_values s.sidx 0|
          < feat_thresh then
      skip_close st end_idx feat_thresh fuel
        { sweep.move st s (s.sidx + 1) with sidx := s.sidx + 1 }
    else s

/-- First half of an iteration of the outer loop of `find_best_split`: the sample at `sidx`
moves to the left child, then the inner loop absorbs the positions that are too close. -/
def sweep_advance (st : decision_tree T) (current_node : node T) (feat_thresh : T)
    (s : sweep T) : sweep T :=
  let s := sweep.move st s s.sidx
  skip_close st current_node.end_idx feat_thresh (current_node.end_idx - s.sidx).toNat s

/-- Second half of an iteration of the outer loop of `find_best_split`: the split after
position `sidx` is scored and recorded when it improves, and `sidx` is incremented. -/
def sweep_eval (st : decision_tree T) (current_node : node T) (maximum_split_score : T)
    (s : sweep T) : sweep T :=
  let left_score := st.score_function s.ns_left st.n_class s.count_left_classes
  let right_score := st.score_function s.ns_right st.n_class s.count_right_classes
  let split_score :=
    (left_score * (s.ns_left : T) + right_score * (s.ns_right : T))
      / (current_node.n_samples : T)
  let sp :=
    if split_score < s.sp.score ∧ split_score < maximum_split_score then
      { s.sp with
        score := split_score, samp_idx := s.sidx,
        threshold := (vec_get st.feature_values s.sidx 0
          + vec_get st.feature_values (s.sidx + 1) 0) / 2,
        right_score := right_score, left_score := left_score }
    else s.sp
  { s with left_score := left_score, right_score := right_score, sp := sp,
           sidx := s.sidx + 1 }

/-- The outer loop of `find_best_split`; one unit of fuel per iteration. -/
def sweep_loop (st : decision_tree T) (current_node : node T) (feat_thresh : T)
    (maximum_split_score : T) : Nat → sweep T → sweep T
  | 0, s => s
  | fuel + 1, s =>
    if s.sidx ≤ current_node.end_idx - 1 then
      let s := sweep_advance st current_node feat_thresh s
      if s.sidx = current_node.end_idx then s
      else
        sweep_loop st current_node feat_thresh maximum_split_score fuel
          (sweep_eval st current_node maximum_split_score s)
    else s

/-- The member `find_best_split`: the state of its locals on return, which holds the new
`count_left_classes`, `count_right_classes` and `sp`. -/
def find_best_split_sweep (st : decision_tree T) (current_node : node T) (feat_thresh : T)
    (maximum_split_score : T) (sp : split T) : sweep T :=
  sweep_loop st current_node feat_thresh maximum_split_score
    (current_node.end_idx - current_node.start_idx).toNat
    { sidx := current_node.start_idx,
      count_left_classes := vec_fill st.count_left_classes 0,
      count_right_classes := vec_copy st.count_classes st.count_right_classes,
      ns_left := 0,
      ns_right := current_node.n_samples,
      left_score := 0,
      right_score := current_node.score,
      sp := { sp with score := current_node.score, samp_idx := -1 } }

/-- The member `find_best_split`: the instance and `sp` on return. -/
def find_best_split (st : decision_tree T) (current_node : node T) (feat_thresh : T)
    (maximum_split_score : T) (sp : split T) : decision_tree T × split T :=
  let s := find_best_split_sweep st current_node feat_thresh maximum_split_score sp
  ({ st with count_left_classes := s.count_left_classes,
             count_right_classes := s.count_right_classes }, s.sp)

/-! ## The member `fit` -/

/-- The instance together with the locals `sp` and `best_split` of `fit`, which live
across the iterations of its loops. -/
structure fit_frame (T : Type) where
  st : decision_tree T
  sp : split T
  best_split : split T

/-- The body of the loop of `fit` over the candidate features of `current_node`. -/
def feature_loop_body (E : externals T) (current_node : node T) (maximum_split_score : T)
    (j : Int) (fr : fit_frame T) : fit_frame T :=
  let feat_idx := vec_get fr.st.features_idx j 0
  let st := sort_samples E fr.st current_node feat_idx
  let sp := { fr.sp with feat_idx := feat_idx }
  let r := find_best_split st current_node st.feat_thresh maximum_split_score sp
  let best_split := if r.2.score < fr.best_split.score then fr.best_split.copy r.2
    else fr.best_split
  { st := r.1, sp := r.2, best_split := best_split }

/-- After `add_node`: push the new node `n_nodes - 1` into the queue when it may still be
split, count it as a leaf otherwise. -/
def enqueue_or_leaf (st : decision_tree T) (child_score : T) : outcome (decision_tree T) :=
  match tree_at st.tree (st.n_nodes - 1) with
  | some child =>
    if child_score > st.min_split_score ∧ child.n_samples ≥ st.min_node_sample
        ∧ child.depth < st.max_depth then
      outcome.done { st with nodes_to_treat := st.nodes_to_treat ++ [st.n_nodes - 1] }
    else outcome.done { st with n_leaves := st.n_leaves + 1 }
  | none => outcome.out_of_bounds

/-- Sequencing of two steps of a run. -/
def outcome.and_then {α β : Type} (x : outcome α) (f : α → outcome β) : outcome β :=
  match x with
  | outcome.done a => f a
  | outcome.out_of_bounds => outcome.out_of_bounds
  | outcome.out_of_fuel => outcome.out_of_fuel

/-- One iteration of the loop `while (!nodes_to_treat.empty())` of `fit`. -/
def fit_step (E : externals T) (fr : fit_frame T) : outcome (fit_frame T) :=
  let next := get_next_node_idx fr.st fr.st.build_order
  let node_idx := next.1
  let st : decision_tree T := { fr.st with nodes_to_treat := next.2 }
  match tree_at st.tree node_idx with
  | none => outcome.out_of_bounds
  | some current_node =>
    let maximum_split_score := current_node.score - st.min_improvement
    let st : decision_tree T :=
      if st.nfeat_split < st.n_features then
        { st with features_idx := (E.shuffle st.features_idx st.mt_engine).1,
                  mt_engine := (E.shuffle st.features_idx st.mt_engine).2 }
      else st
    let best_split : split T :=
      { fr.best_split with score := current_node.score, feat_idx := -1 }
    let st : decision_tree T :=
      { st with count_classes :=
          (count_class_occurences st st.count_classes current_node.start_idx
            current_node.end_idx) }
    let fr := for_range 0 st.nfeat_split
      (feature_loop_body E current_node maximum_split_score)
      { st := st, sp := fr.sp, best_split := best_split }
    let best_split := fr.best_split
    let st := fr.st
    if best_split.feat_idx ≠ -1 then
      let current_node : node T :=
        { current_node with is_leaf := false, feature := best_split.feat_idx,
                            x_threshold := best_split.threshold }
      let st : decision_tree T :=
        { st with tree := tree_upd st.tree node_idx (fun _ => current_node) }
      let st : decision_tree T := { st with samples_idx := partition_samples st current_node }
      ((((add_node st node_idx false best_split.right_score best_split.samp_idx).and_then
        (fun st => enqueue_or_leaf st best_split.right_score)).and_then
        (fun st => add_node st node_idx true best_split.left_score best_split.samp_idx)).and_then
        (fun st => enqueue_or_leaf st best_split.left_score)).and_then
        (fun st => outcome.done { st := st, sp := fr.sp, best_split := best_split })
    else
      outcome.done { st := { st with n_leaves := st.n_leaves + 1 }, sp := fr.sp,
                     best_split := best_split }

/-- The loop `while (!nodes_to_treat.empty())` of `fit`; one unit of fuel per iteration. -/
def fit_loop (E : externals T) : Nat → fit_frame T → outcome (fit_frame T)
  | 0, fr => if fr.st.nodes_to_treat = [] then outcome.done fr else outcome.out_of_fuel
  | fuel + 1, fr =>
    if fr.st.nodes_to_treat = [] then outcome.done fr
    else (fit_step E fr).and_then (fit_loop E fuel)

/-- The block of `fit` that extracts the options: `none` when some `opts.get` fails. -/
def read_options (st : decision_tree T) : Option (decision_tree T) :=
  if st.read_public_options then
    match st.opts with
    | some o =>
      some { st with
        predict_proba_opt := o.predict_proba_opt, max_depth := o.max_depth,
        method := o.method, min_node_sample := o.min_node_sample,
        min_split_score := o.min_split_score, build_order := o.build_order,
        nfeat_split := o.nfeat_split, seed := o.seed, feat_thresh := o.feat_thresh,
        min_improvement := o.min_improvement, prn_times := o.prn_times,
        sort_method := o.sort_method }
    | none => none
  else some st

/-- The block of `fit` that fills `samples_idx`. -/
def init_samples (E : externals T) (st : decision_tree T) : decision_tree T :=
  if ¬ st.bootstrap then { st with samples_idx := vec_iota st.samples_idx }
  else
    match st.samples_subset with
    | none =>
      let r := for_range 0 st.samples_idx.length
        (fun i (acc : List Int × Nat) =>
          let d := E.uniform_int 0 (st.n_samples - 1) acc.2
          (vec_set acc.1 i d.1, d.2))
        (st.samples_idx, st.mt_engine)
      { st with samples_idx := r.1, mt_engine := r.2 }
    | some samples_subset =>
      { st with samples_idx :=
          for_range 0 st.n_obs (fun i v => vec_set v i (samples_subset i)) st.samples_idx }

/-- The block of `fit` that initialises the root node, under the bounds check of
`tree[0]`. -/
def init_root (st : decision_tree T) : outcome (decision_tree T) :=
  let st : decision_tree T := { st with n_leaves := 0, n_nodes := 1 }
  match tree_at st.tree 0 with
  | none => outcome.out_of_bounds
  | some _ =>
    let count_classes := count_class_occurences st st.count_classes 0 (st.n_obs - 1)
    let tree := tree_upd st.tree 0 (fun nd =>
      { nd with start_idx := 0, end_idx := st.n_obs - 1, depth := 0, n_samples := st.n_obs,
                score := st.score_function st.n_obs st.n_class count_classes,
                y_pred := max_element_idx count_classes })
    let class_props :=
      if st.predict_proba_opt then
        for_range 0 st.n_class
          (fun i cp => vec_set cp i (((vec_get count_classes i 0 : Int) : T) / (st.n_obs : T)))
          st.class_props
      else st.class_props
    outcome.done { st with tree := tree, count_classes := count_classes,
                           class_props := class_props }

/-- The member `fit`. The shift `1 << std::min(max_depth, 9)` is taken with a shift count
of `0` for a negative `max_depth`; when an option cannot be read the instance is returned
as it was. -/
def fit (E : externals T) (st : decision_tree T) : outcome (da_status × decision_tree T) :=
  if st.model_trained then outcome.done (da_status.da_status_success, st)
  else
    match read_options st with
    | none => outcome.done (da_status.da_status_internal_error, st)
    | some st =>
      let st : decision_tree T :=
        if st.method = gini then { st with score_function := gini_score }
        else if st.method = cross_entropy then
          { st with score_function := entropy_score E.log2 }
        else if st.method = misclassification then
          { st with score_function := misclassification_score }
        else st
      let st : decision_tree T :=
        if st.nfeat_split = 0 ∨ st.nfeat_split > st.n_features then
          { st with nfeat_split := st.n_features }
        else st
      let st : decision_tree T :=
        if st.seed = -1 then { st with seed := |E.random_device| } else st
      let st : decision_tree T := { st with mt_engine := E.mt_seed st.seed }
      let init_capacity : Nat := 2 ^ (min st.max_depth 9).toNat + 1
      let st : decision_tree T :=
        if st.predict_proba_opt then resize_tree st init_capacity else st
      let st := init_samples E st
      (init_root st).and_then (fun st =>
        let st : decision_tree T :=
          if st.max_depth > 0 then { st with nodes_to_treat := st.nodes_to_treat ++ [0] }
          else st
        (fit_loop E (2 * st.n_obs.toNat + 1)
            { st := st, sp := E.uninit_split, best_split := E.uninit_split }).and_then
          (fun fr =>
            outcome.done (da_status.da_status_success, { fr.st with model_trained := true })))

/-! ## Construction and training data -/

/-- The constructor of `decision_tree<T>` that bypasses the options registry (the
values are not checked). The members that the constructor does not mention get the
values of a new instance: empty vectors, a model that is not trained;
`predict_proba_opt`, whose initial value is fixed in the class declaration (not part of
the sources at hand), is an argument. -/
def decision_tree.mk_internal (max_depth min_node_sample method prn_times build_order
    nfeat_split seed sort_method : Int) (min_split_score feat_thresh min_improvement : T)
    (bootstrap : Bool) (predict_proba_opt : Bool) : decision_tree T :=
  { max_depth := max_depth, min_node_sample := min_node_sample, method := method,
    prn_times := prn_times, build_order := build_order, nfeat_split := nfeat_split,
    seed := seed, sort_method := sort_method, min_split_score := min_split_score,
    feat_thresh := feat_thresh, min_improvement := min_improvement, bootstrap := bootstrap,
    predict_proba_opt := predict_proba_opt, read_public_options := false, opts := none,
    X := fun _ => 0, ldx := 0, y := fun _ => 0, n_samples := 0, n_features := 0,
    n_class := 0, n_obs := 0, samples_subset := none, samples_idx := [],
    count_classes := [], feature_values := [], count_left_classes := [],
    count_right_classes := [], features_idx := [], model_trained := false, tree := [],
    class_props := [], n_nodes := 0, n_leaves := 0, depth := 0, nodes_to_treat := [],
    score_function := fun _ _ _ => 0, mt_engine := 0 }

/-- The member `set_training_data`. A null `y` that `check_1D_array` lets through is
read as an array of zeros. -/
def set_training_data (E : externals T) (st : decision_tree T) (n_samples n_features : Int)
    (X : Option (Int → T)) (ldx : Int) (y : Option (Int → Int)) (n_class n_obs : Int)
    (samples_subset : Option (Int → Int)) : da_status × decision_tree T :=
  let r := E.store_2D_array n_samples n_features X ldx 0
  if r.1 ≠ da_status.da_status_success then (r.1, st)
  else
    let st : decision_tree T := { st with X := r.2.1, ldx := r.2.2 }
    let status := E.check_1D_array n_samples y
    if status ≠ da_status.da_status_success then (status, st)
    else if n_obs > n_samples ∨ n_obs < 0 then (da_status.da_status_invalid_input, st)
    else
      let st := refresh st
      let y := y.getD (fun _ => 0)
      let st : decision_tree T :=
        { st with y := y, n_samples := n_samples, n_features := n_features,
                  n_class := n_class }
      let st : decision_tree T :=
        if n_class ≤ 0 then
          { st with n_class :=
              for_range 1 n_samples (fun i m => if m < y i then y i else m) (y 0) + 1 }
        else st
      let st : decision_tree T := { st with n_obs := n_obs }
      let st : decision_tree T :=
        if st.n_obs = 0 then { st with n_obs := st.n_samples } else st
      let st : decision_tree T := { st with samples_subset := samples_subset }
      let st : decision_tree T :=
        { st with
          samples_idx := vec_resize st.samples_idx st.n_obs.toNat 0,
          count_classes := vec_resize st.count_classes st.n_class.toNat 0,
          feature_values := vec_resize st.feature_values st.n_obs.toNat 0,
          count_left_classes := vec_resize st.count_left_classes st.n_class.toNat 0,
          count_right_classes := vec_resize st.count_right_classes st.n_class.toNat 0,
          features_idx := vec_resize st.features_idx st.n_features.toNat 0 }
      (da_status.da_status_success, { st with features_idx := vec_iota st.features_idx })

/-! ## Inference -/

/-- The loop `while (!current_node->is_leaf)` of `predict`, `predict_proba` and `score`
for the row `i`, started at node `idx`: the index of the leaf reached. One unit of fuel per
step of the descent. -/
def descend (tree : List (node T)) (X_test_temp : Int → T) (ldx_test_temp : Int) (i : Int) :
    Nat → Int → outcome Int
  | 0, idx =>
    match tree_at tree idx with
    | none => outcome.out_of_bounds
    | some current_node =>
      if current_node.is_leaf then outcome.done idx else outcome.out_of_fuel
  | fuel + 1, idx =>
    match tree_at tree idx with
    | none => outcome.out_of_bounds
    | some current_node =>
      if current_node.is_leaf then outcome.done idx
      else
        let feat_val := X_test_temp (ldx_test_temp * current_node.feature + i)
        if feat_val < current_node.x_threshold then
          descend tree X_test_temp ldx_test_temp i fuel current_node.left_child_idx
        else
          descend tree X_test_temp ldx_test_temp i fuel current_node.right_child_idx

/-- A counted loop whose body may end the run. -/
def for_range_run {σ : Type} (lo hi : Int) (body : Int → σ → outcome σ) (s : σ) :
    outcome σ :=
  (List.range (hi - lo).toNat).foldl
    (fun acc (k : Nat) => outcome.and_then acc (body (lo + (k : Int)))) (outcome.done s)

/-- The member `predict`: status and content of `y_pred` (`none`: a null pointer). The
descent is given as much fuel as the node array has elements. -/
def predict (E : externals T) (st : decision_tree T) (nsamp nfeat : Int)
    (X_test : Option (Int → T)) (ldx_test : Int) (y_pred : Option (List Int)) (mode : Int) :
    outcome (da_status × Option (List Int)) :=
  match y_pred with
  | none => outcome.done (da_status.da_status_invalid_pointer, none)
  | some buf =>
    if nfeat ≠ st.n_features then outcome.done (da_status.da_status_invalid_input, some buf)
    else if ¬ st.model_trained then
      outcome.done (da_status.da_status_out_of_date, some buf)
    else
      let r := E.store_2D_array nsamp nfeat X_test ldx_test mode
      if r.1 ≠ da_status.da_status_success then outcome.done (r.1, some buf)
      else
        (for_range_run 0 nsamp
          (fun i buf =>
            (descend st.tree r.2.1 r.2.2 i st.tree.length 0).and_then (fun leaf =>
              match tree_at st.tree leaf with
              | some current_node => outcome.done (vec_set buf i current_node.y_pred)
              | none => outcome.out_of_bounds))
          buf).and_then
          (fun buf => outcome.done (da_status.da_status_success, some buf))

/-- The member `predict_proba`: status and content of the output matrix in the working
(column-major) layout, entry `(i, j)` at `ldy * j + i`, with its leading dimension; the
final copy into a row-major output is not modelled. -/
def predict_proba (E : externals T) (st : decision_tree T) (nsamp nfeat : Int)
    (X_test : Option (Int → T)) (ldx_test : Int) (y_proba_pred : Option (Int → T))
    (nclass ldy : Int) (mode : Int) : outcome (da_status × Option (Int → T) × Int) :=
  if ¬ st.predict_proba_opt then
    outcome.done (da_status.da_status_invalid_input, y_proba_pred, ldy)
  else if nfeat ≠ st.n_features then
    outcome.done (da_status.da_status_invalid_input, y_proba_pred, ldy)
  else if nclass ≠ st.n_class then
    outcome.done (da_status.da_status_invalid_input, y_proba_pred, ldy)
  else if ¬ st.model_trained then
    outcome.done (da_status.da_status_out_of_date, y_proba_pred, ldy)
  else
    let r := E.store_2D_array nsamp nfeat X_test ldx_test mode
    if r.1 ≠ da_status.da_status_success then outcome.done (r.1, y_proba_pred, ldy)
    else
      let mode_output := if mode = 0 then 1 else mode
      let ry := E.store_2D_array nsamp nclass y_proba_pred ldy mode_output
      if ry.1 ≠ da_status.da_status_success then outcome.done (ry.1, y_proba_pred, ldy)
      else
        (for_range_run 0 nsamp
          (fun i (out : Int → T) =>
            (descend st.tree r.2.1 r.2.2 i st.tree.length 0).and_then
              (fun current_node_idx =>
                outcome.done
                  (for_range 0 st.n_class
                    (fun j (out : Int → T) =>
                      Function.update out (ry.2.2 * j + i)
                        (vec_get st.class_props (st.n_class * current_node_idx + j) 0))
                    out)))
          ry.2.1).and_then
          (fun out => outcome.done (da_status.da_status_success, some out, ry.2.2))

/-- The member `score`: status and content of `*accuracy` (`none`: a null pointer). -/
def score (E : externals T) (st : decision_tree T) (nsamp nfeat : Int)
    (X_test : Option (Int → T)) (ldx_test : Int) (y_test : Option (Int → Int))
    (accuracy : Option T) : outcome (da_status × Option T) :=
  match accuracy with
  | none => outcome.done (da_status.da_status_invalid_pointer, none)
  | some acc =>
    if nfeat ≠ st.n_features then outcome.done (da_status.da_status_invalid_input, some acc)
    else if ¬ st.model_trained then
      outcome.done (da_status.da_status_out_of_date, some acc)
    else
      let r := E.store_2D_array nsamp nfeat X_test ldx_test 0
      if r.1 ≠ da_status.da_status_success then outcome.done (r.1, some acc)
      else
        let status := E.check_1D_array nsamp y_test
        if status ≠ da_status.da_status_success then outcome.done (status, some acc)
        else
          let y_test := y_test.getD (fun _ => 0)
          (for_range_run 0 nsamp
            (fun i (acc : T) =>
              (descend st.tree r.2.1 r.2.2 i st.tree.length 0).and_then (fun leaf =>
                match tree_at st.tree leaf with
                | some current_node =>
                  outcome.done (if current_node.y_pred = y_test i then acc + 1 else acc)
                | none => outcome.out_of_bounds))
            0).and_then
            (fun acc =>
              outcome.done (da_status.da_status_success, some (acc / (nsamp : T))))

/-- The member `predict_log_proba` on an instance in column-major order: status, content
of `y_log_proba` and its leading dimension; `ln` stands for `log`. The call of
`predict_proba` passes the member `n_class` in the place of the class count and leaves
`mode` to its default, whose value is fixed in the class declaration (not part of the
sources at hand) and is an argument here; the loops over the output run to the argument
`nclass`. -/
def predict_log_proba (E : externals T) (ln : T → T) (st : decision_tree T)
    (nsamp nfeat : Int) (X_test : Option (Int → T)) (ldx_test : Int)
    (y_log_proba : Option (Int → T)) (nclass ldy : Int) (mode : Int) :
    outcome (da_status × Option (Int → T) × Int) :=
  (predict_proba E st nsamp nfeat X_test ldx_test y_log_proba st.n_class ldy mode).and_then
    (fun r =>
      if r.1 ≠ da_status.da_status_success then outcome.done r
      else
        outcome.done (da_status.da_status_success,
          r.2.1.map (fun out =>
            for_range 0 nclass
              (fun j (out : Int → T) =>
                for_range 0 nsamp
                  (fun i (out : Int → T) =>
                    Function.update out (ldy * j + i) (ln (out (ldy * j + i))))
                  out)
              out),
          r.2.2))

end members

/-! ## The descent, as the specification words it -/

/-- The leaf reached from a node for the row `i` of a query matrix: a leaf is reached from
itself; from an internal node the descent moves to `left_child_idx` when the value of the
node's feature for the row is strictly less than `x_threshold`, to `right_child_idx`
otherwise. -/
inductive reaches {T : Type} [LinearOrderedField T] (tree : List (node T))
    (X_test : Int → T) (ldx_test : Int) (i : Int) : Int → Int → Prop where
  | at_leaf (k : Int) (nd : node T) (h : tree_at tree k = some nd)
      (hl : nd.is_leaf = true) : reaches tree X_test ldx_test i k k
  | go_left (k leaf : Int) (nd : node T) (h : tree_at tree k = some nd)
      (hl : nd.is_leaf = false)
      (hlt : X_test (ldx_test * nd.feature + i) < nd.x_threshold)
      (hr : reaches tree X_test ldx_test i nd.left_child_idx leaf) :
      reaches tree X_test ldx_test i k leaf
  | go_right (k leaf : Int) (nd : node T) (h : tree_at tree k = some nd)
      (hl : nd.is_leaf = false)
      (hge : ¬ X_test (ldx_test * nd.feature + i) < nd.x_threshold)
      (hr : reaches tree X_test ldx_test i nd.right_child_idx leaf) :
      reaches tree X_test ldx_test i k leaf

/-! ## What is asked of the sorting routines -/

/-- A sorting routine does what `std::sort` promises on the comparisons that
`sort_samples` passes (by the value `key i` of a feature): the result is a rearrangement
of the input, ascending by `key`. -/
def sort_conforms (T : Type) [LinearOrderedField T]
    (srt : (Int → Int → Bool) → List Int → List Int) : Prop :=
  ∀ (key : Int → T) (l : List Int),
    (srt (fun i1 i2 => decide (key i1 < key i2)) l).Perm l
      ∧ (srt (fun i1 i2 => decide (key i1 < key i2)) l).Pairwise
          (fun i1 i2 => key i1 ≤ key i2)

/-- Both sorting routines of the externals conform. -/
def externals.conforms {T : Type} [LinearOrderedField T] (E : externals T) : Prop :=
  sort_conforms T E.std_sort ∧ sort_conforms T E.float_sort

/-! ## A reference instance of the externals -/

/-- Insertion of `a` into a list that is ascending for `less`. -/
def insert_by (less : Int → Int → Bool) (a : Int) : List Int → List Int
  | [] => [a]
  | b :: l => if less b a then b :: insert_by less a l else a :: b :: l

/-- Insertion sort, a sorting routine that can stand for `std::sort` and `float_sort`. -/
def insertion_sort (less : Int → Int → Bool) : List Int → List Int
  | [] => []
  | a :: l => insert_by less a (insertion_sort less l)

/-- An instance of the externals over the rationals: insertion sort, an engine that
returns its input unshuffled and always draws the lower bound, arrays accepted as they
are when they are non-null with at least one row. -/
def reference_externals : externals ℚ :=
  { log2 := fun _ => 0,
    std_sort := insertion_sort,
    float_sort := insertion_sort,
    random_device := 0,
    mt_seed := fun seed => seed.toNat,
    shuffle := fun l g => (l, g),
    uniform_int := fun a _ g => (a, g),
    store_2D_array := fun n_rows _ X ldx _ =>
      match X with
      | some X =>
        if 1 ≤ n_rows ∧ n_rows ≤ ldx then (da_status.da_status_success, X, ldx)
        else (da_status.da_status_invalid_leading_dimension, X, ldx)
      | none => (da_status.da_status_invalid_pointer, fun _ => 0, ldx),
    check_1D_array := fun _ y =>
      match y with
      | some _ => da_status.da_status_success
      | none => da_status.da_status_invalid_pointer,
    uninit_split := { feat_idx := 0, samp_idx := 0, score := 0, threshold := 0,
                      left_score := 0, right_score := 0 } }

/-- An untrained instance with one feature and probability tracking off, used to run the
error paths. -/
def untrained_instance : decision_tree ℚ :=
  { decision_tree.mk_internal 1 1 gini 0 depth_first 0 42 stl_sort 0 (1 / 2) 0 false false
    with n_features := 1 }

/-! ## Instances on which the statements are run -/

/-- Whether a run ended with `da_status_success`. -/
def is_success {α : Type} (o : outcome (da_status × α)) : Bool :=
  match o with
  | outcome.done (da_status.da_status_success, _) => true
  | _ => false

/-- The value a run ended with, `d` when it ended without one. -/
def result_of {α : Type} (o : outcome (da_status × α)) (d : α) : α :=
  match o with
  | outcome.done (_, a) => a
  | _ => d

/-- The scenario of the specification: `X = [[0],[1],[2],[3]]`, `y = [0,0,1,1]`, Gini
criterion, no bootstrap, `min_improvement = 0`, `min_split_score = 0`, all samples used,
built through the internal constructor and `set_training_data`. -/
def scenario_instance (feat_thresh : ℚ) (predict_proba_opt : Bool)
    (min_node_sample max_depth : Int) : decision_tree ℚ :=
  (set_training_data reference_externals
    (decision_tree.mk_internal max_depth min_node_sample gini 0 depth_first 0 42 stl_sort 0
      feat_thresh 0 false predict_proba_opt)
    4 1 (some (fun i => (i : ℚ))) 4 (some (fun i => if i < 2 then 0 else 1)) 2 0 none).2

/-- The scenario instance with `max_depth = 1`, `feat_thresh = 1/2` and probability
tracking, after `fit`. -/
def scenario_fitted : decision_tree ℚ :=
  result_of (fit reference_externals (scenario_instance (1 / 2) true 1 1))
    (scenario_instance (1 / 2) true 1 1)

/-- The query matrix `[[1/2],[5/2]]` of the scenario, column-major with leading
dimension 2. -/
def scenario_query : Int → ℚ :=
  fun i => if i = 0 then 1 / 2 else 5 / 2

/-! ## Definitions of the proofs -/

section proof_definitions

variable {T : Type} [LinearOrderedField T]

/-- Two adjacent positions of `feature_values` are too close to be split. -/
def too_close (st : decision_tree T) (feat_thresh : T) (pos : Int) : Prop :=
  |vec_get st.feature_values (pos + 1) 0 - vec_get st.feature_values pos 0| < feat_thresh

/-- What `find_best_split` leaves in `sp` when it has recorded a split. -/
def split_recorded (st : decision_tree T) (nd : node T) (ft : T) (sp : split T) : Prop :=
  nd.start_idx ≤ sp.samp_idx ∧ sp.samp_idx < nd.end_idx ∧ sp.score < nd.score
    ∧ ¬ too_close st ft sp.samp_idx
    ∧ sp.threshold = (vec_get st.feature_values sp.samp_idx 0
        + vec_get st.feature_values (sp.samp_idx + 1) 0) / 2

/-- A node whose range lies within `samples_idx` and whose `n_samples` is the length of
the range. -/
def node_in_range (len : Nat) (nd : node T) : Prop :=
  0 ≤ nd.start_idx ∧ nd.start_idx ≤ nd.end_idx + 1 ∧ nd.end_idx < len
    ∧ nd.n_samples = nd.end_idx - nd.start_idx + 1

/-- The value of feature `feat_idx` of the sample `idx`. -/
def feat_val (st : decision_tree T) (feat_idx : Int) (idx : Int) : T :=
  st.X (st.ldx * feat_idx + idx)

/-- The sorting method is one of the two that `sort_samples` knows. -/
def valid_sort_method (st : decision_tree T) : Prop :=
  st.sort_method = stl_sort ∨ st.sort_method = boost_sort

/-- What the loop over the candidate features of `current_node` maintains, `st0` being
the instance on entry of the loop. -/
structure feat_inv (st0 : decision_tree T) (nd : node T) (fr : fit_frame T) : Prop where
  hst : ∃ v fv cl cr, fr.st =
      { st0 with samples_idx := v, feature_values := fv, count_left_classes := cl,
                 count_right_classes := cr }
  hperm : perm_within st0.samples_idx fr.st.samples_idx nd.start_idx nd.end_idx
  hfv : fr.st.feature_values.length = st0.feature_values.length
  hscore : fr.best_split.score ≤ nd.score
  hbest : fr.best_split.feat_idx ≠ -1 →
    nd.start_idx ≤ fr.best_split.samp_idx ∧ fr.best_split.samp_idx < nd.end_idx
  hcount : 0 < st0.feat_thresh → valid_sort_method st0 → fr.best_split.feat_idx ≠ -1 →
    (seg fr.st.samples_idx nd.start_idx nd.end_idx).countP
        (fun idx => decide (feat_val st0 fr.best_split.feat_idx idx
          < fr.best_split.threshold))
      = (fr.best_split.samp_idx + 1 - nd.start_idx).toNat

/-- The number of samples of class `c` among the positions `a..b` of `samples_idx`. -/
def class_count (st : decision_tree T) (a b : Int) (c : Int) : Nat :=
  ((seg st.samples_idx a b).map st.y).count c

/-- The node that `add_node` writes at index `n_nodes`. -/
def child_node (st : decision_tree T) (parent : node T) (is_left : Bool) (score : T)
    (split_idx : Int) : node T :=
  { (fresh_node : node T) with
    start_idx := if is_left then parent.start_idx else split_idx + 1,
    end_idx := if is_left then split_idx else parent.end_idx,
    depth := parent.depth + 1,
    score := score,
    n_samples := (if is_left then split_idx else parent.end_idx)
      - (if is_left then parent.start_idx else split_idx + 1) + 1,
    y_pred := max_element_idx
      (count_class_occurences st st.count_classes
        (if is_left then parent.start_idx else split_idx + 1)
        (if is_left then split_idx else parent.end_idx)) }

/-- The parent node after `add_node`. -/
def linked_parent (st : decision_tree T) (parent : node T) (is_left : Bool) : node T :=
  if is_left then { parent with left_child_idx := st.n_nodes }
  else { parent with right_child_idx := st.n_nodes }

/-- The node array that `add_node` works on: the array of the instance, grown when it is
full and probability tracking is on. -/
def grown_tree (st : decision_tree T) : List (node T) :=
  if (st.tree.length : Int) ≤ st.n_nodes then
    if st.predict_proba_opt then vec_resize st.tree (2 * st.tree.length + 1) fresh_node
    else st.tree
  else st.tree

/-- The vector `class_props` that `add_node` works on, see `grown_tree`. -/
def grown_props (st : decision_tree T) : List T :=
  if (st.tree.length : Int) ≤ st.n_nodes then
    if st.predict_proba_opt then
      vec_resize st.class_props ((2 * st.tree.length + 1) * st.n_class.toNat) 0
    else st.class_props
  else st.class_props

/-- The vector `class_props` after the loop of `add_node` that stores the proportions of
the new node. -/
def stored_props (st : decision_tree T) (a b : Int) : List T :=
  for_range 0 st.n_class
    (fun i cp => vec_set cp (st.n_nodes * st.n_class + i)
      (((vec_get (count_class_occurences st st.count_classes a b) i 0 : Int) : T)
        / ((b - a + 1 : Int) : T)))
    (grown_props st)

/-- The instance after `add_node`. -/
def with_child (st : decision_tree T) (p : Int) (is_left : Bool) (score : T)
    (split_idx : Int) (parent : node T) : decision_tree T :=
  { st with
    tree := tree_upd (tree_upd (grown_tree st) p (fun _ => linked_parent st parent is_left))
      st.n_nodes (fun _ => child_node st parent is_left score split_idx),
    depth := if parent.depth + 1 > st.depth then parent.depth + 1 else st.depth,
    count_classes := count_class_occurences st st.count_classes
      (if is_left then parent.start_idx else split_idx + 1)
      (if is_left then split_idx else parent.end_idx),
    class_props := stored_props st
      (if is_left then parent.start_idx else split_idx + 1)
      (if is_left then split_idx else parent.end_idx),
    n_nodes := st.n_nodes + 1 }

/-- The node index that the iteration takes from the queue. -/
def popped_idx (fr : fit_frame T) : Int :=
  (get_next_node_idx fr.st fr.st.build_order).1

/-- The instance on entry of the loop over the candidate features: the node is out of the
queue, the features are shuffled, `count_classes` is recomputed. -/
def before_features (E : externals T) (fr : fit_frame T) (nd : node T) : decision_tree T :=
  let st : decision_tree T :=
    { fr.st with nodes_to_treat := (get_next_node_idx fr.st fr.st.build_order).2 }
  let st : decision_tree T :=
    if st.nfeat_split < st.n_features then
      { st with features_idx := (E.shuffle st.features_idx st.mt_engine).1,
                mt_engine := (E.shuffle st.features_idx st.mt_engine).2 }
    else st
  { st with count_classes :=
      (count_class_occurences st st.count_classes nd.start_idx nd.end_idx) }

/-- The frame on exit of the loop over the candidate features. -/
def after_features (E : externals T) (fr : fit_frame T) (nd : node T) : fit_frame T :=
  for_range 0 (before_features E fr nd).nfeat_split
    (feature_loop_body E nd (nd.score - fr.st.min_improvement))
    { st := before_features E fr nd, sp := fr.sp,
      best_split := { fr.best_split with score := nd.score, feat_idx := -1 } }

/-- The node `nd` marked internal with the split `b`. -/
def split_node (nd : node T) (b : split T) : node T :=
  { nd with is_leaf := false, feature := b.feat_idx, x_threshold := b.threshold }

/-- The instance after the node at `q` is marked internal and its range partitioned. -/
def after_partition (st : decision_tree T) (q : Int) (nd : node T) (b : split T) :
    decision_tree T :=
  let st : decision_tree T :=
    { st with tree := tree_upd st.tree q (fun _ => split_node nd b) }
  { st with samples_idx := partition_samples st (split_node nd b) }

/-- The instance after `enqueue_or_leaf` for the child `child` just added. -/
def enqueued (st : decision_tree T) (child_score : T) (child : node T) : decision_tree T :=
  if child_score > st.min_split_score ∧ child.n_samples ≥ st.min_node_sample
      ∧ child.depth < st.max_depth then
    { st with nodes_to_treat := st.nodes_to_treat ++ [st.n_nodes - 1] }
  else { st with n_leaves := st.n_leaves + 1 }

/-- The instance after the right child is added and queued or counted. -/
def right_added (stA : decision_tree T) (q : Int) (nd : node T) (b : split T) :
    decision_tree T :=
  enqueued
    (with_child (after_partition stA q nd b) q false b.right_score b.samp_idx
      (split_node nd b))
    b.right_score
    (child_node (after_partition stA q nd b) (split_node nd b) false b.right_score b.samp_idx)

/-- The instance at the end of an iteration that splits the node at `q`. -/
def split_state (stA : decision_tree T) (q : Int) (nd : node T) (b : split T) :
    decision_tree T :=
  enqueued
    (with_child (right_added stA q nd b) q true b.left_score b.samp_idx
      (linked_parent (after_partition stA q nd b) (split_node nd b) false))
    b.left_score
    (child_node (right_added stA q nd b)
      (linked_parent (after_partition stA q nd b) (split_node nd b) false) true
      b.left_score b.samp_idx)

/-- The hypotheses on the node array under which an iteration cannot leave it. -/
structure array_ok (st : decision_tree T) : Prop where
  hproba : st.predict_proba_opt = true
  hN : 1 ≤ st.n_nodes ∧ st.n_nodes ≤ st.tree.length
  hfresh : ∀ k, st.n_nodes ≤ k → k < st.tree.length → tree_at st.tree k = some fresh_node

/-- The right child that an iteration adds at index `n_nodes`. -/
def right_child (stA : decision_tree T) (q : Int) (nd : node T) (b : split T) : node T :=
  child_node (after_partition stA q nd b) (split_node nd b) false b.right_score b.samp_idx

/-- The left child that an iteration adds at index `n_nodes + 1`. -/
def left_child (stA : decision_tree T) (q : Int) (nd : node T) (b : split T) : node T :=
  child_node (right_added stA q nd b)
    (linked_parent (after_partition stA q nd b) (split_node nd b) false) true
    b.left_score b.samp_idx

/-- The node at `q` at the end of an iteration that splits it. -/
def parent_after (stA : decision_tree T) (nd : node T) (b : split T) : node T :=
  { nd with is_leaf := false, feature := b.feat_idx, x_threshold := b.threshold,
            right_child_idx := stA.n_nodes, left_child_idx := stA.n_nodes + 1 }

/-- The shape of the node array that the loop of `fit` maintains: the nodes in use lie within
the array, the elements beyond them are untouched, the queue holds nodes in use, and the
children of an internal node are two consecutive later nodes in use. -/
structure tree_inv (st : decision_tree T) : Prop where
  ok : array_ok st
  hqueue : ∀ q ∈ st.nodes_to_treat, q < st.n_nodes
  hchild : ∀ k nd, tree_at st.tree k = some nd → k < st.n_nodes → nd.is_leaf = false →
    k < nd.right_child_idx ∧ nd.left_child_idx = nd.right_child_idx + 1
      ∧ nd.left_child_idx < st.n_nodes

/-- What `fit` expects of the instance: the state that `set_training_data` leaves (no
tree, a model that is not trained, working vectors of the lengths of the data) with an
empty queue. -/
structure fit_ready (st : decision_tree T) : Prop where
  untrained : st.model_trained = false
  no_tree : st.tree = []
  no_queue : st.nodes_to_treat = []
  n_obs_nonneg : 0 ≤ st.n_obs
  len_samples : st.samples_idx.length = st.n_obs.toNat
  len_values : st.feature_values.length = st.n_obs.toNat
  len_counts : st.count_classes.length = st.n_class.toNat

/-- The block of `fit` that selects the score function. -/
def select_score (E : externals T) (st : decision_tree T) : decision_tree T :=
  if st.method = gini then { st with score_function := gini_score }
  else if st.method = cross_entropy then
    { st with score_function := entropy_score E.log2 }
  else if st.method = misclassification then
    { st with score_function := misclassification_score }
  else st

/-- The block of `fit` that resolves `nfeat_split`. -/
def resolve_nfeat (st : decision_tree T) : decision_tree T :=
  if st.nfeat_split = 0 ∨ st.nfeat_split > st.n_features then
    { st with nfeat_split := st.n_features }
  else st

/-- The block of `fit` that seeds the random engine. -/
def resolve_seed (E : externals T) (st : decision_tree T) : decision_tree T :=
  let st : decision_tree T :=
    if st.seed = -1 then { st with seed := |E.random_device| } else st
  { st with mt_engine := E.mt_seed st.seed }

/-- The block of `fit` that allocates the node array. -/
def allocate (st : decision_tree T) : decision_tree T :=
  if st.predict_proba_opt then resize_tree st (2 ^ (min st.max_depth 9).toNat + 1) else st

/-- The instance when `fit` reaches the initialisation of the root, the options being
those of `st`. -/
def configured (E : externals T) (st : decision_tree T) : decision_tree T :=
  init_samples E (allocate (resolve_seed E (resolve_nfeat (select_score E st))))

/-- The instance with the root in the queue when `max_depth` allows a split. -/
def queue_root (st : decision_tree T) : decision_tree T :=
  if st.max_depth > 0 then { st with nodes_to_treat := st.nodes_to_treat ++ [0] } else st

/-- The root node as `fit` initialises it, `nd` being the element `tree[0]` before. -/
def root_node (st : decision_tree T) (nd : node T) : node T :=
  { nd with
    start_idx := 0, end_idx := st.n_obs - 1, depth := 0, n_samples := st.n_obs,
    score := st.score_function st.n_obs st.n_class
      (count_class_occurences st st.count_classes 0 (st.n_obs - 1)),
    y_pred := max_element_idx (count_class_occurences st st.count_classes 0 (st.n_obs - 1)) }

/-- The vector `class_props` after the initialisation of the root. -/
def root_props (st : decision_tree T) : List T :=
  if st.predict_proba_opt then
    for_range 0 st.n_class
      (fun i cp => vec_set cp i
        (((vec_get (count_class_occurences st st.count_classes 0 (st.n_obs - 1)) i 0 : Int) : T)
          / (st.n_obs : T)))
      st.class_props
  else st.class_props

/-- The instance after the initialisation of the root. -/
def rooted (st : decision_tree T) : decision_tree T :=
  { st with
    n_leaves := 0, n_nodes := 1,
    tree := tree_upd st.tree 0 (fun nd => root_node st nd),
    count_classes := count_class_occurences st st.count_classes 0 (st.n_obs - 1),
    class_props := root_props st }

/-- The leaf that `descend` ends at from the root with the fuel `predict` and `score`
give it, `-1` when the descent does not end. -/
def leaf_of (st : decision_tree T) (X_test : Int → T) (ldx_test i : Int) : Int :=
  match descend st.tree X_test ldx_test i st.tree.length 0 with
  | outcome.done leaf => leaf
  | _ => -1

/-- The label of row `i`: the `y_pred` of the leaf that the descent ends at. -/
def label_of (st : decision_tree T) (X_test : Int → T) (ldx_test i : Int) : Int :=
  match tree_at st.tree (leaf_of st X_test ldx_test i) with
  | some nd => nd.y_pred
  | none => 0

/-- The range `a..b` lies within the range `c..d` or apart from it. -/
def in_or_out (a b c d : Int) : Prop :=
  (c ≤ a ∧ b ≤ d) ∨ (b < c ∨ d < a)

/-- The ranges of the nodes that the loop of `fit` maintains: every node in use has its
range within `samples_idx`; the children of an internal node split its range in two
non-empty ranges, the left one first, and are one level deeper; the nodes of the queue
are distinct leaves with ranges apart from each other, each within or apart from the range
of any node in use. -/
structure range_inv (st : decision_tree T) : Prop where
  hfv : st.feature_values.length = st.samples_idx.length
  hcc : st.count_classes.length = st.n_class.toNat
  hnode : ∀ k nd, tree_at st.tree k = some nd → k < st.n_nodes →
    node_in_range st.samples_idx.length nd
  hkids : ∀ k nd, tree_at st.tree k = some nd → k < st.n_nodes → nd.is_leaf = false →
    ∃ l r, tree_at st.tree nd.left_child_idx = some l
      ∧ tree_at st.tree nd.right_child_idx = some r
      ∧ l.start_idx = nd.start_idx ∧ l.end_idx + 1 = r.start_idx ∧ r.end_idx = nd.end_idx
      ∧ l.start_idx ≤ l.end_idx ∧ r.start_idx ≤ r.end_idx
      ∧ l.depth = nd.depth + 1 ∧ r.depth = nd.depth + 1
  hqleaf : ∀ q ∈ st.nodes_to_treat, ∀ nd, tree_at st.tree q = some nd → nd.is_leaf = true
  hnodup : st.nodes_to_treat.Nodup
  hqdisj : ∀ q ∈ st.nodes_to_treat, ∀ q' ∈ st.nodes_to_treat, q ≠ q' →
    ∀ nd nd', tree_at st.tree q = some nd → tree_at st.tree q' = some nd' →
      nd.end_idx < nd'.start_idx ∨ nd'.end_idx < nd.start_idx
  hlam : ∀ q ∈ st.nodes_to_treat, ∀ k, k < st.n_nodes →
    ∀ ndq nd, tree_at st.tree q = some ndq → tree_at st.tree k = some nd →
      in_or_out ndq.start_idx ndq.end_idx nd.start_idx nd.end_idx

/-- The facts about an iteration that the invariants of the ranges are derived from. -/
structure step_facts (E : externals T) (fr : fit_frame T) (nd : node T) : Prop where
  hq : popped_idx fr < fr.st.n_nodes
  hmem : popped_idx fr ∈ fr.st.nodes_to_treat
  hrange : node_in_range fr.st.samples_idx.length nd
  hfi : feat_inv (before_features E fr nd) nd (after_features E fr nd)
  hperm : perm_within fr.st.samples_idx (after_features E fr nd).st.samples_idx
    nd.start_idx nd.end_idx
  hAt : (after_features E fr nd).st.tree = fr.st.tree
  hAn : (after_features E fr nd).st.n_nodes = fr.st.n_nodes
  hAq : (after_features E fr nd).st.nodes_to_treat
    = (get_next_node_idx fr.st fr.st.build_order).2
  hokA : array_ok (after_features E fr nd).st
  hrn : (get_next_node_idx fr.st fr.st.build_order).2.Nodup
  hrq : popped_idx fr ∉ (get_next_node_idx fr.st fr.st.build_order).2

/-- The members that the loop of `fit` only reads have the same value in two instances. -/
structure same_settings (st st' : decision_tree T) : Prop where
  max_depth : st'.max_depth = st.max_depth
  min_node_sample : st'.min_node_sample = st.min_node_sample
  build_order : st'.build_order = st.build_order
  nfeat_split : st'.nfeat_split = st.nfeat_split
  sort_method : st'.sort_method = st.sort_method
  min_split_score : st'.min_split_score = st.min_split_score
  feat_thresh : st'.feat_thresh = st.feat_thresh
  min_improvement : st'.min_improvement = st.min_improvement
  predict_proba_opt : st'.predict_proba_opt = st.predict_proba_opt
  X : st'.X = st.X
  ldx : st'.ldx = st.ldx
  y : st'.y = st.y
  n_samples : st'.n_samples = st.n_samples
  n_features : st'.n_features = st.n_features
  n_class : st'.n_class = st.n_class
  n_obs : st'.n_obs = st.n_obs
  score_function : st'.score_function = st.score_function
  model_trained : st'.model_trained = st.model_trained

/-- Every internal node has the samples below its threshold in the range of its left child
and the others in the range of its right child. -/
def part_inv (st : decision_tree T) : Prop :=
  ∀ k nd l r, tree_at st.tree k = some nd → k < st.n_nodes → nd.is_leaf = false →
    tree_at st.tree nd.left_child_idx = some l →
    tree_at st.tree nd.right_child_idx = some r →
    (∀ i, l.start_idx ≤ i → i ≤ l.end_idx →
        feat_val st nd.feature (vec_get st.samples_idx i 0) < nd.x_threshold)
      ∧ (∀ i, r.start_idx ≤ i → i ≤ r.end_idx →
        ¬ feat_val st nd.feature (vec_get st.samples_idx i 0) < nd.x_threshold)

/-- The vector `class_props` has a block of `n_class` entries for every element of the node
array, and the block of a node in use holds the proportion of each class among the samples
of its range. -/
structure props_inv (st : decision_tree T) : Prop where
  hlen : st.class_props.length = st.tree.length * st.n_class.toNat
  hval : ∀ k nd, tree_at st.tree k = some nd → k < st.n_nodes →
    ∀ j, 0 ≤ j → j < st.n_class →
      vec_get st.class_props (st.n_class * k + j) 0
        = (class_count st nd.start_idx nd.end_idx j : T) / ((nd.n_samples : Int) : T)

/-- What the loop of `fit` maintains, and a fitted tree therefore has. -/
structure fit_inv (st : decision_tree T) : Prop where
  tree : tree_inv st
  range : range_inv st
  props : props_inv st
  part : 0 < st.feat_thresh → valid_sort_method st → part_inv st
  nonempty : 1 ≤ st.n_obs → ∀ k nd, tree_at st.tree k = some nd → k < st.n_nodes →
    nd.start_idx ≤ nd.end_idx

/-- The root spans the samples used, and the ranges of two leaves in use are apart. -/
structure leaf_inv (st : decision_tree T) : Prop where
  hlen : st.samples_idx.length = st.n_obs.toNat
  hroot : ∀ nd, tree_at st.tree 0 = some nd →
    nd.start_idx = 0 ∧ nd.end_idx = st.n_obs - 1
  hdisj : ∀ k k' nd nd', tree_at st.tree k = some nd → tree_at st.tree k' = some nd' →
    k < st.n_nodes → k' < st.n_nodes → nd.is_leaf = true → nd'.is_leaf = true → k ≠ k' →
    nd.end_idx < nd'.start_idx ∨ nd'.end_idx < nd.start_idx

/-- Node `j` is below node `k`: it is `k`, or it is below the left or the right child of
the internal node `k`. -/
inductive below (tree : List (node T)) : Int → Int → Prop where
  | self (k : Int) : below tree k k
  | left (k j : Int) (nd : node T) (h : tree_at tree k = some nd) (hl : nd.is_leaf = false)
      (hb : below tree nd.left_child_idx j) : below tree k j
  | right (k j : Int) (nd : node T) (h : tree_at tree k = some nd)
      (hl : nd.is_leaf = false) (hb : below tree nd.right_child_idx j) : below tree k j

/-- The positions at which a split may be evaluated: `t` in `[start_idx, end_idx - 1]` with
`|feature_values[t+1] - feature_values[t]| >= feat_thresh`. -/
def boundary (st : decision_tree T) (nd : node T) (ft : T) (t : Int) : Prop :=
  nd.start_idx ≤ t ∧ t ≤ nd.end_idx - 1
    ∧ ft ≤ |vec_get st.feature_values (t + 1) 0 - vec_get st.feature_values t 0|

/-- The class counts of the samples `start_idx..t`, in a vector of the size of
`count_left_classes`. -/
def left_counts (st : decision_tree T) (nd : node T) (t : Int) : List Int :=
  count_class_occurences st st.count_left_classes nd.start_idx t

/-- The class counts of the samples `t+1..end_idx`, in a vector of the size of
`count_right_classes`. -/
def right_counts (st : decision_tree T) (nd : node T) (t : Int) : List Int :=
  count_class_occurences st st.count_right_classes (t + 1) nd.end_idx

/-- The impurity of the left side of the split after position `t`. -/
def left_impurity (st : decision_tree T) (nd : node T) (t : Int) : T :=
  st.score_function (t - nd.start_idx + 1) st.n_class (left_counts st nd t)

/-- The impurity of the right side of the split after position `t`. -/
def right_impurity (st : decision_tree T) (nd : node T) (t : Int) : T :=
  st.score_function (nd.end_idx - t) st.n_class (right_counts st nd t)

/-- The weighted score `w(t)` of the split after position `t`, in the words of the
specification: `(left impurity · n_left + right impurity · n_right) / n_samples`. -/
def split_weight (st : decision_tree T) (nd : node T) (t : Int) : T :=
  (left_impurity st nd t * ((t - nd.start_idx + 1 : Int) : T)
    + right_impurity st nd t * ((nd.end_idx - t : Int) : T)) / (nd.n_samples : T)

/-- The vector `count_right_classes` of `find_best_split` once the samples
`start_idx..p-1` have moved to the left. -/
def moved_right (st : decision_tree T) (nd : node T) (p : Int) : List Int :=
  for_range nd.start_idx p
    (fun i occ =>
      vec_set occ (st.y (vec_get st.samples_idx i 0))
        (vec_get occ (st.y (vec_get st.samples_idx i 0)) 0 - 1))
    (vec_copy st.count_classes st.count_right_classes)

/-- The right score that `find_best_split` computes at position `t`. -/
def swept_right_score (st : decision_tree T) (nd : node T) (t : Int) : T :=
  st.score_function (nd.n_samples - (t - nd.start_idx + 1)) st.n_class
    (moved_right st nd (t + 1))

/-- The split score that `find_best_split` computes at position `t`. -/
def swept_score (st : decision_tree T) (nd : node T) (t : Int) : T :=
  (left_impurity st nd t * ((t - nd.start_idx + 1 : Int) : T)
    + swept_right_score st nd t * ((nd.n_samples - (t - nd.start_idx + 1) : Int) : T))
      / (nd.n_samples : T)

/-- The content of `sp` once the boundaries before `p` are evaluated, with `W` for the
split score and `Ls`, `Rs` for the scores of the two sides: either nothing is recorded and
no boundary before `p` qualifies, or the recorded position is the first boundary before
`p` with the least score. -/
def sp_upto (st : decision_tree T) (nd : node T) (ft ms : T) (W Ls Rs : Int → T) (p : Int)
    (sp : split T) : Prop :=
  (sp.samp_idx = -1 ∧ sp.score = nd.score
      ∧ ∀ t, boundary st nd ft t → t < p → ¬ (W t < nd.score ∧ W t < ms))
    ∨ (boundary st nd ft sp.samp_idx ∧ sp.samp_idx < p ∧ sp.score = W sp.samp_idx
      ∧ sp.score < nd.score ∧ sp.score < ms
      ∧ sp.left_score = Ls sp.samp_idx ∧ sp.right_score = Rs sp.samp_idx
      ∧ sp.threshold = (vec_get st.feature_values sp.samp_idx 0
          + vec_get st.feature_values (sp.samp_idx + 1) 0) / 2
      ∧ (∀ t, boundary st nd ft t → t < sp.samp_idx → sp.score < W t)
      ∧ (∀ t, boundary st nd ft t → sp.samp_idx ≤ t → t < p → sp.score ≤ W t))

/-- The locals of `find_best_split` at the head of its outer loop. -/
structure sweep_at (st : decision_tree T) (nd : node T) (s : sweep T) : Prop where
  hge : nd.start_idx ≤ s.sidx
  hleft : s.count_left_classes = left_counts st nd (s.sidx - 1)
  hright : s.count_right_classes = moved_right st nd s.sidx
  hnl : s.ns_left = s.sidx - nd.start_idx
  hnr : s.ns_right = nd.n_samples - (s.sidx - nd.start_idx)

/-- The locals of `find_best_split` once the sample at `sidx` has moved to the left. -/
structure sweep_mid (st : decision_tree T) (nd : node T) (s : sweep T) : Prop where
  hge : nd.start_idx ≤ s.sidx
  hleft : s.count_left_classes = left_counts st nd s.sidx
  hright : s.count_right_classes = moved_right st nd (s.sidx + 1)
  hnl : s.ns_left = s.sidx - nd.start_idx + 1
  hnr : s.ns_right = nd.n_samples - (s.sidx - nd.start_idx + 1)

/-- Two contents of `sp` for the node `nd` that agree on what `find_best_split` has
written: `feat_idx`, `samp_idx` and `score` always, the other fields once a split is
recorded (`score` below the score of the node). -/
def sp_agree (nd : node T) (sp sp' : split T) : Prop :=
  sp.feat_idx = sp'.feat_idx ∧ sp.samp_idx = sp'.samp_idx ∧ sp.score = sp'.score
    ∧ (sp.score < nd.score →
        sp.threshold = sp'.threshold ∧ sp.left_score = sp'.left_score
          ∧ sp.right_score = sp'.right_score)

/-- Two frames of the loop over the features of `nd` with the same instance, and with the
same `best_split` once a feature has given one; before that `best_split` has the score of
the node and `feat_idx = -1` in both. -/
def frame_agree (nd : node T) (fr fr' : fit_frame T) : Prop :=
  fr'.st = fr.st
    ∧ ((fr.best_split.score < nd.score ∧ fr'.best_split = fr.best_split)
      ∨ (fr.best_split.score = nd.score ∧ fr'.best_split.score = nd.score
          ∧ fr.best_split.feat_idx = -1 ∧ fr'.best_split.feat_idx = -1))

/-- The instance that a run leaves, without the locals of `fit`. -/
def outcome_st (x : outcome (fit_frame T)) : outcome (decision_tree T) :=
  x.and_then (fun fr => outcome.done fr.st)

/-- A data set whose two samples share their feature value: `X = [[1],[1]]`, `y = [0,1]`,
Gini criterion, `max_depth = 1`, probability tracking, all samples used. -/
def tie_instance (feat_thresh : ℚ) : decision_tree ℚ :=
  (set_training_data reference_externals
    (decision_tree.mk_internal 1 1 gini 0 depth_first 0 42 stl_sort 0 feat_thresh 0 false true)
    2 1 (some (fun _ => (1 : ℚ))) 2 (some (fun i => if i < 1 then 0 else 1)) 2 0 none).2

/-- The instance `tie_instance 0` after `fit`. -/
def tie_fitted : decision_tree ℚ :=
  result_of (fit reference_externals (tie_instance 0)) (tie_instance 0)

/-- The body of the loop of `predict` over the rows. -/
def predict_row (st : decision_tree T) (X_test : Int → T) (ldx_test : Int) (i : Int)
    (buf : List Int) : outcome (List Int) :=
  (descend st.tree X_test ldx_test i st.tree.length 0).and_then (fun leaf =>
    match tree_at st.tree leaf with
    | some current_node => outcome.done (vec_set buf i current_node.y_pred)
    | none => outcome.out_of_bounds)

/-- The body of the loop of `predict_proba` over the rows. -/
def proba_row (st : decision_tree T) (X_test : Int → T) (ldx_test ldy : Int) (i : Int)
    (out : Int → T) : outcome (Int → T) :=
  (descend st.tree X_test ldx_test i st.tree.length 0).and_then
    (fun current_node_idx =>
      outcome.done
        (for_range 0 st.n_class
          (fun j (out : Int → T) =>
            Function.update out (ldy * j + i)
              (vec_get st.class_props (st.n_class * current_node_idx + j) 0))
          out))

/-- The frame on entry of the loop of `fit` for the data set with ties. -/
def tie_entry (feat_thresh : ℚ) : fit_frame ℚ :=
  { st := queue_root (rooted (configured reference_externals (tie_instance feat_thresh))),
    sp := reference_externals.uninit_split,
    best_split := reference_externals.uninit_split }

/-- The root of the data set with ties on entry of the loop of `fit`. -/
def tie_root (feat_thresh : ℚ) : node ℚ :=
  root_node (configured reference_externals (tie_instance feat_thresh)) fresh_node

/-- The Gini impurity in the words of the specification: `1 − Σ (count_c / n_samples)²`,
the sum taken over the classes `c < n_class`. -/
def gini_reference (n_samples n_class : Int) (count_classes : List Int) : T :=
  1 - ((List.range n_class.toNat).map
    (fun (c : Nat) =>
      (((vec_get count_classes (c : Int) 0 : Int) : T) / (n_samples : T)) ^ 2)).sum

/-- The entropy in the words of the specification: `−Σ p_c · log2(p_c)` over the classes
`c < n_class` with `p_c = count_c / n_samples > 1e-5`. -/
def entropy_reference (log2 : T → T) (n_samples n_class : Int) (count_classes : List Int) :
    T :=
  - (((List.range n_class.toNat).filter
      (fun (c : Nat) =>
        decide (((vec_get count_classes (c : Int) 0 : Int) : T) / (n_samples : T)
          > (1 : T) / 100000))).map
    (fun (c : Nat) =>
      ((vec_get count_classes (c : Int) 0 : Int) : T) / (n_samples : T)
        * log2 (((vec_get count_classes (c : Int) 0 : Int) : T) / (n_samples : T)))).sum

/-- The root of the scenario instance on entry of the loop of `fit`. -/
def scenario_root : node ℚ :=
  root_node (configured reference_externals (scenario_instance (1 / 2) true 1 1)) fresh_node

/-- The scenario instance on entry of the loop of `fit`, with the range of the root
sorted by feature 0. -/
def scenario_sorted : decision_tree ℚ :=
  sort_samples reference_externals
    (queue_root (rooted (configured reference_externals (scenario_instance (1 / 2) true 1 1))))
    scenario_root 0

/-- The frame of the loop over the candidate features of `nd` after its first `j`
iterations. -/
def features_upto (E : externals T) (fr : fit_frame T) (nd : node T) (j : Int) :
    fit_frame T :=
  for_range 0 j (feature_loop_body E nd (nd.score - fr.st.min_improvement))
    { st := before_features E fr nd, sp := fr.sp,
      best_split := { fr.best_split with score := nd.score, feat_idx := -1 } }

/-- The split that `find_best_split` returns for the `j`-th candidate feature of `nd`, the
entry `features_idx[j]`, on the range of `nd` as `sort_samples` leaves it at that point of
the loop. -/
def candidate (E : externals T) (fr : fit_frame T) (nd : node T) (j : Int) : split T :=
  (find_best_split
    (sort_samples E (features_upto E fr nd j).st nd
      (vec_get (features_upto E fr nd j).st.features_idx j 0))
    nd
    (sort_samples E (features_upto E fr nd j).st nd
      (vec_get (features_upto E fr nd j).st.features_idx j 0)).feat_thresh
    (nd.score - fr.st.min_improvement)
    { (features_upto E fr nd j).sp with
      feat_idx := vec_get (features_upto E fr nd j).st.features_idx j 0 }).2

/-- What `best_split` holds after the first `k` candidate features: nothing (`feat_idx = -1`
and the score of the node) when none of them gave a recorded split, and otherwise the
split of the first candidate whose score is the least among the `k`. -/
def best_upto (E : externals T) (fr : fit_frame T) (nd : node T) (k : Int) (b : split T) :
    Prop :=
  b.score ≤ nd.score
    ∧ ((b.feat_idx = -1 ∧ b.score = nd.score
          ∧ ∀ j, 0 ≤ j → j < k → (candidate E fr nd j).samp_idx = -1)
      ∨ ∃ j, 0 ≤ j ∧ j < k ∧ (candidate E fr nd j).samp_idx ≠ -1
          ∧ b = candidate E fr nd j
          ∧ (∀ j', 0 ≤ j' → j' < k → b.score ≤ (candidate E fr nd j').score)
          ∧ (∀ j', 0 ≤ j' → j' < j → b.score < (candidate E fr nd j').score))

/-- The three conditions under which `fit` puts a child into the queue. -/
def may_expand (st : decision_tree T) (nd : node T) : Prop :=
  nd.depth < st.max_depth ∧ st.min_node_sample ≤ nd.n_samples ∧ st.min_split_score < nd.score

/-- Every node other than the root that is in the queue or internal met the three
conditions when it was added; the root has depth `0` and is in the queue or internal only
with a positive `max_depth`; no node other than the root is deeper than `max_depth`. -/
structure expand_inv (st : decision_tree T) : Prop where
  hexp : ∀ k nd, tree_at st.tree k = some nd → k < st.n_nodes → k ≠ 0 →
    (k ∈ st.nodes_to_treat ∨ nd.is_leaf = false) → may_expand st nd
  hrootq : ∀ nd, tree_at st.tree 0 = some nd →
    (0 ∈ st.nodes_to_treat ∨ nd.is_leaf = false) → 0 < st.max_depth
  hroot : ∀ nd, tree_at st.tree 0 = some nd → nd.depth = 0
  hdepth : ∀ k nd, tree_at st.tree k = some nd → k < st.n_nodes → k ≠ 0 →
    nd.depth ≤ st.max_depth

/-- Whether the element `k` of the node array is an internal node. -/
def internal_at (tree : List (node T)) (k : Nat) : Bool :=
  match tree_at tree (k : Int) with
  | some nd => !nd.is_leaf
  | none => false

/-- The number of internal nodes among the nodes in use. -/
def internal_count (st : decision_tree T) : Nat :=
  (List.range st.n_nodes.toNat).countP (internal_at st.tree)

/-- No node is the child of two internal nodes, and the nodes in use are the internal
nodes, two children for each, and the root. -/
structure layout_inv (st : decision_tree T) : Prop where
  hinj : ∀ k k' nd nd', tree_at st.tree k = some nd → tree_at st.tree k' = some nd' →
    k < st.n_nodes → k' < st.n_nodes → nd.is_leaf = false → nd'.is_leaf = false → k ≠ k' →
    nd.left_child_idx ≠ nd'.left_child_idx ∧ nd.left_child_idx ≠ nd'.right_child_idx
      ∧ nd.right_child_idx ≠ nd'.left_child_idx ∧ nd.right_child_idx ≠ nd'.right_child_idx
  hcount : st.n_nodes = 2 * (internal_count st : Int) + 1

/-- The build order is one of the two that `get_next_node_idx` knows. -/
def valid_build_order (st : decision_tree T) : Prop :=
  st.build_order = depth_first ∨ st.build_order = breadth_first

/-- A bound on the iterations of the loop of `fit` that a node of the queue can cause:
`2 * n_samples - 1` for a node with samples, `1` for one without. -/
def node_weight (nd : Option (node T)) : Nat :=
  match nd with
  | some nd => max 1 (2 * nd.n_samples - 1).toNat
  | none => 1

/-- The sum of the weights of the nodes of the queue: a bound on the iterations of the
loop of `fit` that are left. -/
def queue_weight (st : decision_tree T) : Nat :=
  (st.nodes_to_treat.map (fun q => node_weight (tree_at st.tree q))).sum

/-- The instance with another seed, another state of the random engine and another
options registry. -/
def reseed (s : Int) (g : Nat) (o : Option (tree_options T)) (st : decision_tree T) :
    decision_tree T :=
  { st with seed := s, mt_engine := g, opts := o }

/-- The result of a run of `fit` with the seed, the engine and the registry replaced in
the instance it returns. -/
def reseed_result (s : Int) (g : Nat) (o : Option (tree_options T))
    (x : outcome (da_status × decision_tree T)) : outcome (da_status × decision_tree T) :=
  x.and_then (fun r => outcome.done (r.1, reseed s g o r.2))

/-- The frame of the loop of `fit` with the instance reseeded. -/
def reseed_frame (s : Int) (g : Nat) (o : Option (tree_options T)) (fr : fit_frame T) :
    fit_frame T :=
  { fr with st := reseed s g o fr.st }

/-- A step of a run on instances, with the seed, the engine and the registry replaced in
its result. -/
def reseed_out (s : Int) (g : Nat) (o : Option (tree_options T))
    (x : outcome (decision_tree T)) : outcome (decision_tree T) :=
  x.and_then (fun st => outcome.done (reseed s g o st))

/-- The instance of `add_node` after the node array is resized, if it is. -/
def add_node_sized (st : decision_tree T) : decision_tree T :=
  if (st.tree.length : Int) ≤ st.n_nodes then
    if st.predict_proba_opt then resize_tree st (2 * st.tree.length + 1) else st
  else st

/-- The result of an iteration, with the instance reseeded. -/
def reseed_step (s : Int) (g : Nat) (o : Option (tree_options T))
    (x : outcome (fit_frame T)) : outcome (fit_frame T) :=
  x.and_then (fun fr => outcome.done (reseed_frame s g o fr))

/-- The seed that `fit` works with: the draw of `std::random_device` for the option `-1`. -/
def resolved_seed (r s : Int) : Int :=
  if s = -1 then |r| else s

/-- The data set that the rejected call of the run of C25 passes: four rows of one
feature, every value `5`. -/
def rejected_X : Int → ℚ :=
  fun _ => 5

/-- The position `p` at which the sweep of `find_best_split` stops: the samples before `p`
have moved to the left. It is `start_idx` for a node of fewer than two samples (the loop
is not entered), `end_idx + 1` when the last two values of the range are closer than
`feat_thresh` (the inner loop runs to the end of the range), and `end_idx` otherwise (the
last boundary is evaluated and the loop ends). -/
def sweep_stop (st : decision_tree T) (nd : node T) (ft : T) : Int :=
  if nd.start_idx ≤ nd.end_idx - 1 then
    if |vec_get st.feature_values nd.end_idx 0
        - vec_get st.feature_values (nd.end_idx - 1) 0| < ft then nd.end_idx + 1
    else nd.end_idx
  else nd.start_idx

/-- The frame on entry of the loop of `fit` for the scenario instance. -/
def scenario_entry : fit_frame ℚ :=
  { st := queue_root (rooted (configured reference_externals
      (scenario_instance (1 / 2) true 1 1))),
    sp := reference_externals.uninit_split,
    best_split := reference_externals.uninit_split }

/-- The facts about the node array, the ranges, the queue and the layout that the loop of
`fit` maintains, together. -/
structure loop_inv (st : decision_tree T) : Prop where
  fit : fit_inv st
  expand : expand_inv st
  leaf : leaf_inv st
  layout : layout_inv st

/-- Whether the element `k` of the node array is a leaf. -/
def leaf_at (tree : List (node T)) (k : Nat) : Bool :=
  match tree_at tree (k : Int) with
  | some nd => nd.is_leaf
  | none => false

/-- The number of leaves among the nodes in use. -/
def leaf_count (st : decision_tree T) : Nat :=
  (List.range st.n_nodes.toNat).countP (leaf_at st.tree)

/-- The sum that the loop of `fit` keeps: the leaves counted, the nodes still in the queue
and the constant `c`, against the nodes in use. -/
def count_inv (c : Int) (st : decision_tree T) : Prop :=
  2 * (st.n_leaves + (st.nodes_to_treat.length : Int)) = st.n_nodes - 1 + 2 * c

/-- An iteration that splits the node `nd` at the head of the queue, seen from the
instance before it: two nodes more, the node marked internal, its two children at the end
of the nodes in use, every other node as it was. -/
structure split_view (E : externals T) (fr fr' : fit_frame T) (nd : node T) : Prop where
  hb : (after_features E fr nd).best_split.feat_idx ≠ -1
  heq : fr'.st = split_state (after_features E fr nd).st (popped_idx fr) nd
    (after_features E fr nd).best_split
  hn : fr'.st.n_nodes = fr.st.n_nodes + 2
  hpar : tree_at fr'.st.tree (popped_idx fr)
    = some (parent_after (after_features E fr nd).st nd (after_features E fr nd).best_split)
  hright : tree_at fr'.st.tree fr.st.n_nodes
    = some (right_child (after_features E fr nd).st (popped_idx fr) nd
        (after_features E fr nd).best_split)
  hleft : tree_at fr'.st.tree (fr.st.n_nodes + 1)
    = some (left_child (after_features E fr nd).st (popped_idx fr) nd
        (after_features E fr nd).best_split)
  hother : ∀ k, k ≠ popped_idx fr → k < fr.st.n_nodes →
    tree_at fr'.st.tree k = tree_at fr.st.tree k
  hsplit : nd.start_idx ≤ (after_features E fr nd).best_split.samp_idx
    ∧ (after_features E fr nd).best_split.samp_idx < nd.end_idx

/-- An iteration that leaves the node at the head of the queue a leaf. -/
structure leaf_view (E : externals T) (fr fr' : fit_frame T) (nd : node T) : Prop where
  hb : (after_features E fr nd).best_split.feat_idx = -1
  heq : fr'.st = { (after_features E fr nd).st with
    n_leaves := (after_features E fr nd).st.n_leaves + 1 }
  htree : fr'.st.tree = fr.st.tree
  hn : fr'.st.n_nodes = fr.st.n_nodes

/-- The member `depth` against the depths of the nodes in use, `d0` being its value on
entry of `fit`: no node in use is deeper, it never decreases, and it is `d0` or the depth
of a node in use. -/
structure depth_inv (d0 : Int) (st : decision_tree T) : Prop where
  hle : ∀ k nd, tree_at st.tree k = some nd → k < st.n_nodes → nd.depth ≤ st.depth
  hnn : ∀ k nd, tree_at st.tree k = some nd → k < st.n_nodes → 0 ≤ nd.depth
  hmono : d0 ≤ st.depth
  hmax : st.depth = d0 ∨ ∃ k nd, tree_at st.tree k = some nd ∧ k < st.n_nodes
    ∧ nd.depth = st.depth

/-- The class counts of the samples of the positions `a..b`, in a vector of the size of
`count_classes`. -/
def range_counts (st : decision_tree T) (a b : Int) : List Int :=
  count_class_occurences st st.count_classes a b

/-- Every node in use holds in `y_pred` the first class with the greatest count among the
samples of its range. -/
def label_inv (st : decision_tree T) : Prop :=
  ∀ k nd, tree_at st.tree k = some nd → k < st.n_nodes →
    nd.y_pred = max_element_idx (range_counts st nd.start_idx nd.end_idx)

/-- Every node in use holds in `score` the impurity of the class counts of its range; the
two histograms of the sweep have the size of `count_classes`. -/
structure score_inv (st : decision_tree T) : Prop where
  hl : st.count_left_classes.length = st.count_classes.length
  hr : st.count_right_classes.length = st.count_classes.length
  hscore : ∀ k nd, tree_at st.tree k = some nd → k < st.n_nodes →
    nd.score = st.score_function nd.n_samples st.n_class
      (range_counts st nd.start_idx nd.end_idx)

/-- Two instances hold the same data and the same settings of the search for a split. -/
structure same_data (s s' : decision_tree T) : Prop where
  X : s'.X = s.X
  ldx : s'.ldx = s.ldx
  y : s'.y = s.y
  n_class : s'.n_class = s.n_class
  n_obs : s'.n_obs = s.n_obs
  n_features : s'.n_features = s.n_features
  nfeat_split : s'.nfeat_split = s.nfeat_split
  features_idx : s'.features_idx = s.features_idx
  score_function : s'.score_function = s.score_function
  feat_thresh : s'.feat_thresh = s.feat_thresh
  min_improvement : s'.min_improvement = s.min_improvement
  sort_method : s'.sort_method = s.sort_method
  max_depth : s'.max_depth = s.max_depth
  min_node_sample : s'.min_node_sample = s.min_node_sample
  min_split_score : s'.min_split_score = s.min_split_score

/-- What is known of the instance that `find_best_split` is given for the `j`-th candidate
feature of a node. -/
structure sorted_view (fr : fit_frame T) (nd : node T) (f : Int)
    (S : decision_tree T) : Prop where
  hlen : S.samples_idx.length = fr.st.samples_idx.length
  hseg : (seg S.samples_idx nd.start_idx nd.end_idx).Perm
    (seg fr.st.samples_idx nd.start_idx nd.end_idx)
  hy : S.y = fr.st.y
  hX : S.X = fr.st.X
  hldx : S.ldx = fr.st.ldx
  hk : S.n_class = fr.st.n_class
  hsf : S.score_function = fr.st.score_function
  hft : S.feat_thresh = fr.st.feat_thresh
  hcc : S.count_classes
    = count_class_occurences fr.st fr.st.count_classes nd.start_idx nd.end_idx
  hcl : S.count_left_classes.length = fr.st.count_classes.length
  hcr : S.count_right_classes.length = fr.st.count_classes.length
  hfv : ∀ i, nd.start_idx ≤ i → i ≤ nd.end_idx →
    vec_get S.feature_values i 0 = feat_val fr.st f (vec_get S.samples_idx i 0)
  hasc : ∀ i k, nd.start_idx ≤ i → i ≤ k → k ≤ nd.end_idx →
    vec_get S.feature_values i 0 ≤ vec_get S.feature_values k 0

/-- The relation between the values of `best_split` of two runs of the loop over the
candidate features: the same score and feature, and the same split when one is held. -/
def best_rel (b1 b2 : split T) : Prop :=
  b2.score = b1.score ∧ b2.feat_idx = b1.feat_idx ∧ (b1.feat_idx ≠ -1 → b2 = b1)

/-- The node as `add_node` or the initialisation of the root wrote it: a leaf with its
range, depth, score, number of samples and label. -/
def as_leaf (nd : node T) : node T :=
  { (fresh_node : node T) with
    start_idx := nd.start_idx, end_idx := nd.end_idx, depth := nd.depth, score := nd.score,
    n_samples := nd.n_samples, y_pred := nd.y_pred }

/-- The value of `best_split` after the loop over the candidate features of the node `nd`
on the instance `st`. -/
def node_best (E : externals T) (st : decision_tree T) (nd : node T) : split T :=
  (after_features E { st := st, sp := E.uninit_split, best_split := E.uninit_split }
    nd).best_split

/-- The instance is fit for the search of a split: working vectors of the right sizes, a
sort method, a positive `feat_thresh`, every feature tried. -/
structure search_ok (st : decision_tree T) : Prop where
  hfv : st.feature_values.length = st.samples_idx.length
  hl : st.count_left_classes.length = st.count_classes.length
  hr : st.count_right_classes.length = st.count_classes.length
  hcc : st.count_classes.length = st.n_class.toNat
  hm : valid_sort_method st
  hft : 0 < st.feat_thresh
  hnf : ¬ st.nfeat_split < st.n_features

/-- What the tree records of the search: a leaf is as it was written; an internal node
holds the feature and the threshold of the split that the search finds on its range, its
left child ends at the position of that split; a leaf is in the queue, or did not meet the
conditions to be put there, or is one for which the search finds no split. -/
structure hist_inv (E : externals T) (st : decision_tree T) : Prop where
  hform : ∀ k nd, tree_at st.tree k = some nd → k < st.n_nodes → nd.is_leaf = true →
    nd = as_leaf nd
  hsplit : ∀ k nd, tree_at st.tree k = some nd → k < st.n_nodes → nd.is_leaf = false →
    ∀ l, tree_at st.tree nd.left_child_idx = some l →
      (node_best E st (as_leaf nd)).feat_idx ≠ -1
        ∧ nd.feature = (node_best E st (as_leaf nd)).feat_idx
        ∧ nd.x_threshold = (node_best E st (as_leaf nd)).threshold
        ∧ l.end_idx = (node_best E st (as_leaf nd)).samp_idx
  hleaf : ∀ k nd, tree_at st.tree k = some nd → k < st.n_nodes → nd.is_leaf = true →
    k ∈ st.nodes_to_treat ∨ (k ≠ 0 ∧ ¬ may_expand st nd) ∨ (k = 0 ∧ ¬ 0 < st.max_depth)
      ∨ (node_best E st nd).feat_idx = -1

/-- Every node in use is below the root. -/
def reach_inv (st : decision_tree T) : Prop :=
  ∀ k, 0 ≤ k → k < st.n_nodes → below st.tree 0 k

/-- What a successful `fit` with a positive `feat_thresh`, a sort method and every feature
tried leaves: the invariants of its loop, with an empty queue. -/
structure run_view (E : externals T) (st : decision_tree T) : Prop where
  inv : loop_inv st
  score : score_inv st
  label : label_inv st
  hist : hist_inv E st
  reach : reach_inv st
  queue : st.nodes_to_treat = []
  ok : search_ok st

/-- Two nodes, one of each tree, agree: the same range, depth, number of samples, score,
label and kind, and the same samples in the range. -/
structure node_agree (s s' : decision_tree T) (nd nd' : node T) : Prop where
  start_idx : nd'.start_idx = nd.start_idx
  end_idx : nd'.end_idx = nd.end_idx
  depth : nd'.depth = nd.depth
  n_samples : nd'.n_samples = nd.n_samples
  score : nd'.score = nd.score
  y_pred : nd'.y_pred = nd.y_pred
  is_leaf : nd'.is_leaf = nd.is_leaf
  samples : (seg s'.samples_idx nd.start_idx nd.end_idx).Perm
    (seg s.samples_idx nd.start_idx nd.end_idx)

/-- The subtree of node `k` of the one tree and that of node `k'` of the other are the same
binary tree: the two nodes agree, and when they are internal they hold the same feature
and threshold and their left and right subtrees are the same tree in turn. -/
inductive iso (s s' : decision_tree T) : Int → Int → Prop where
  | leaf (k k' : Int) (nd nd' : node T) (h : tree_at s.tree k = some nd)
      (h' : tree_at s'.tree k' = some nd') (hl : nd.is_leaf = true)
      (ha : node_agree s s' nd nd') : iso s s' k k'
  | node (k k' : Int) (nd nd' : node T) (h : tree_at s.tree k = some nd)
      (h' : tree_at s'.tree k' = some nd') (hl : nd.is_leaf = false)
      (ha : node_agree s s' nd nd') (hf : nd'.feature = nd.feature)
      (ht : nd'.x_threshold = nd.x_threshold)
      (hleft : iso s s' nd.left_child_idx nd'.left_child_idx)
      (hright : iso s s' nd.right_child_idx nd'.right_child_idx) : iso s s' k k'

/-- The first position of the range of the element `k` of the node array. -/
def start_of (tree : List (node T)) (k : Nat) : Int :=
  match tree_at tree (k : Int) with
  | some nd => nd.start_idx
  | none => -1

/-- The first positions of the ranges of the leaves in use. -/
def leaf_starts (st : decision_tree T) : List Int :=
  ((List.range st.n_nodes.toNat).filter (leaf_at st.tree)).map (start_of st.tree)

/-- The value `*std::max_element(y, y + n_samples)` as `set_training_data` computes it. -/
def max_label (y : Int → Int) (n_samples : Int) : Int :=
  for_range 1 n_samples (fun i m => if m < y i then y i else m) (y 0)

/-- The identity order `0, 1, ..., n - 1`. -/
def identity_order (n : Nat) : List Int :=
  (List.range n).map (fun (k : Nat) => (k : Int))

/-- The instance of C35: the fitted scenario instance given new labels, all of class `0`,
through `set_training_data`. -/
def scenario_relabelled : decision_tree ℚ :=
  (set_training_data reference_externals scenario_fitted 4 1 (some (fun i => (i : ℚ))) 4
    (some (fun _ => 0)) 2 0 none).2

/-- A data set with ties in its feature: `X = [[0],[0],[1],[1]]`, `y = [0,1,1,1]`, Gini
criterion, `feat_thresh = 1/2`, all samples used. -/
def tied_instance : decision_tree ℚ :=
  (set_training_data reference_externals
    (decision_tree.mk_internal 1 1 gini 0 depth_first 0 42 stl_sort 0 (1 / 2) 0 false true)
    4 1 (some (fun i => if i < 2 then 0 else 1)) 4 (some (fun i => if i < 1 then 0 else 1))
    2 0 none).2

/-- The root of the tree of `tied_instance` on entry of the loop of `fit`. -/
def tied_root : node ℚ :=
  root_node (configured reference_externals tied_instance) fresh_node

/-- The instance `tied_instance` on entry of the loop of `fit`, with the range of the root
sorted by feature 0: the samples in the order `0, 1, 2, 3`. -/
def tied_sorted : decision_tree ℚ :=
  sort_samples reference_externals
    (queue_root (rooted (configured reference_externals tied_instance))) tied_root 0

/-- The instance `tied_sorted` with the samples of equal value in the other order:
`1, 0, 3, 2`. -/
def tied_swapped : decision_tree ℚ :=
  { tied_sorted with samples_idx := [1, 0, 3, 2] }

/-- A data set on which the two build orders lay the nodes out differently:
`X = [[0],[1],[2],[3],[4]]`, `y = [0,2,0,1,0]`, three classes, Gini criterion,
`max_depth = 2`, `feat_thresh = 1/2`, no bootstrap, all features tried, probability
tracking, all samples used. -/
def order_instance (build_order : Int) : decision_tree ℚ :=
  (set_training_data reference_externals
    (decision_tree.mk_internal 2 1 gini 0 build_order 0 42 stl_sort 0 (1 / 2) 0 false true)
    5 1 (some (fun i => (i : ℚ))) 5
    (some (fun i => if i = 1 then 2 else if i = 3 then 1 else 0)) 3 0 none).2

/-- The instance `order_instance build_order` after `fit`. -/
def order_fitted (build_order : Int) : decision_tree ℚ :=
  result_of (fit reference_externals (order_instance build_order))
    (order_instance build_order)

end proof_definitions

/-! ## Counted loops -/

theorem for_range_of_le {σ : Type} (lo hi : Int) (body : Int → σ → σ) (s : σ)
    (h : hi ≤ lo) : for_range lo hi body s = s := by
  have h0 : (hi - lo).toNat = 0 := by omega
  simp [for_range, h0]

/-- Induction over a counted loop: a property that holds on entry and is carried by every
iteration holds on exit. -/
theorem for_range_ind {σ : Type} (P : Int → σ → Prop) (lo hi : Int) (body : Int → σ → σ)
    (s : σ) (hle : lo ≤ hi) (h0 : P lo s)
    (hs : ∀ i s, lo ≤ i → i < hi → P i s → P (i + 1) (body i s)) :
    P hi (for_range lo hi body s) := by
  have key : ∀ n : Nat, lo + (n : Int) ≤ hi →
      P (lo + (n : Int))
        ((List.range n).foldl (fun acc (k : Nat) => body (lo + (k : Int)) acc) s) := by
    intro n
    induction n with
    | zero => intro _; simpa using h0
    | succ n ih =>
      intro hn
      rw [List.range_succ, List.foldl_append]
      have h1 := ih (by push_cast at hn; omega)
      have h2 := hs _ _ (by omega) (by push_cast at hn; omega) h1
      simpa [add_assoc] using h2
  have hn : lo + (((hi - lo).toNat : Nat) : Int) = hi := by omega
  have := key (hi - lo).toNat (by omega)
  rw [hn] at this
  exact this

theorem for_range_succ {σ : Type} (lo hi : Int) (body : Int → σ → σ) (s : σ)
    (hle : lo ≤ hi) :
    for_range lo (hi + 1) body s = body hi (for_range lo hi body s) := by
  have h1 : (hi + 1 - lo).toNat = (hi - lo).toNat + 1 := by omega
  have h2 : lo + (((hi - lo).toNat : Nat) : Int) = hi := by omega
  unfold for_range
  rw [h1, List.range_succ, List.foldl_append]
  simp only [List.foldl_cons, List.foldl_nil]
  rw [h2]

/-! ## Vectors -/

section vectors

variable {α : Type}

@[simp] theorem length_vec_set (v : List α) (i : Int) (a : α) :
    (vec_set v i a).length = v.length := by
  unfold vec_set; split <;> simp

theorem vec_get_vec_set_eq (v : List α) (i : Int) (a d : α) (h0 : 0 ≤ i)
    (h1 : i < v.length) : vec_get (vec_set v i a) i d = a := by
  have h2 : ¬ i < 0 := by omega
  have h3 : i.toNat < v.length := by omega
  simp [vec_get, vec_set, h2, List.getD_eq_getElem?_getD, h3]

theorem vec_get_vec_set_ne (v : List α) (i j : Int) (a d : α) (h : i ≠ j) :
    vec_get (vec_set v i a) j d = vec_get v j d := by
  unfold vec_get vec_set
  by_cases hj : j < 0
  · simp [hj]
  · by_cases hi : i < 0
    · simp [hi]
    · have : i.toNat ≠ j.toNat := by omega
      simp [hi, hj, List.getD_eq_getElem?_getD, List.getElem?_set_ne this]

theorem vec_get_eq_getElem (v : List α) (i : Int) (d : α) (h0 : 0 ≤ i)
    (h1 : i.toNat < v.length) : vec_get v i d = v[i.toNat] := by
  have h2 : ¬ i < 0 := by omega
  simp [vec_get, h2, List.getD_eq_getElem?_getD, h1]

theorem vec_get_mem (v : List α) (i : Int) (d : α) (h0 : 0 ≤ i)
    (h1 : i < v.length) : vec_get v i d ∈ v := by
  rw [vec_get_eq_getElem v i d h0 (by omega)]
  exact List.getElem_mem _

@[simp] theorem length_vec_fill (v : List α) (a : α) : (vec_fill v a).length = v.length := by
  simp [vec_fill]

@[simp] theorem length_vec_resize (v : List α) (n : Nat) (d : α) :
    (vec_resize v n d).length = n := by
  simp [vec_resize]; omega

end vectors

/-! ## The node array -/

section node_array

variable {T : Type}

theorem tree_at_bounds {tree : List (node T)} {i : Int} {nd : node T}
    (h : tree_at tree i = some nd) : 0 ≤ i ∧ i < tree.length := by
  unfold tree_at at h
  split at h
  · simp at h
  · have := List.get?_eq_some.mp h
    obtain ⟨hlt, _⟩ := this
    omega

theorem tree_at_of_bounds (tree : List (node T)) (i : Int) (h0 : 0 ≤ i)
    (h1 : i < tree.length) : ∃ nd, tree_at tree i = some nd := by
  have h2 : ¬ i < 0 := by omega
  have h3 : i.toNat < tree.length := by omega
  exact ⟨tree[i.toNat], by simp [tree_at, h2, List.get?_eq_getElem?, h3]⟩

@[simp] theorem length_tree_upd (tree : List (node T)) (i : Int) (f : node T → node T) :
    (tree_upd tree i f).length = tree.length := by
  unfold tree_upd; split <;> simp

theorem tree_at_tree_upd_eq {tree : List (node T)} {i : Int} {nd : node T}
    (f : node T → node T) (h : tree_at tree i = some nd) :
    tree_at (tree_upd tree i f) i = some (f nd) := by
  have hb := tree_at_bounds h
  have h2 : ¬ i < 0 := by omega
  have h3 : i.toNat < tree.length := by omega
  have h4 : tree[i.toNat] = nd := by
    unfold tree_at at h
    simp only [h2, if_false, List.get?_eq_getElem?] at h
    exact (List.getElem?_eq_some.mp h).2
  simp [tree_upd, h, tree_at, h2, List.get?_eq_getElem?, h3, h4]

theorem tree_at_tree_upd_ne (tree : List (node T)) {i j : Int} (f : node T → node T)
    (h : i ≠ j) : tree_at (tree_upd tree i f) j = tree_at tree j := by
  unfold tree_upd
  cases hi : tree_at tree i with
  | none => rfl
  | some nd =>
    have hb := tree_at_bounds hi
    unfold tree_at
    by_cases hj : j < 0
    · simp [hj]
    · have : i.toNat ≠ j.toNat := by omega
      simp [hj, List.get?_eq_getElem?, List.getElem?_set_ne this]

theorem tree_at_vec_resize_old (tree : List (node T)) (n : Nat) (d : node T) (i : Int)
    (h : tree.length ≤ n) {nd : node T} (hi : tree_at tree i = some nd) :
    tree_at (vec_resize tree n d) i = some nd := by
  have hb := tree_at_bounds hi
  unfold tree_at at hi ⊢
  have h2 : ¬ i < 0 := by omega
  simp only [h2, if_false] at hi ⊢
  simp only [List.get?_eq_getElem?] at hi ⊢
  have h3 : i.toNat < tree.length := by omega
  simp [vec_resize, List.take_of_length_le h, List.getElem?_append_left h3, hi]

theorem tree_at_vec_resize_new (tree : List (node T)) (n : Nat) (d : node T) (i : Int)
    (h1 : (tree.length : Int) ≤ i) (h2 : i < n) :
    tree_at (vec_resize tree n d) i = some d := by
  unfold tree_at
  have h3 : ¬ i < 0 := by omega
  have h4 : tree.length ≤ n := by omega
  have h5 : tree.length ≤ i.toNat := by omega
  have h6 : i.toNat - tree.length < n - tree.length := by omega
  simp [h3, List.get?_eq_getElem?, vec_resize, List.take_of_length_le h4,
    List.getElem?_append_right h5, List.getElem?_replicate, h6]

end node_array

/-! ## The sweep of `find_best_split` -/

section sweep_lemmas

variable {T : Type} [LinearOrderedField T]

@[simp] theorem sweep_move_sidx (st : decision_tree T) (s : sweep T) (pos : Int) :
    (sweep.move st s pos).sidx = s.sidx := rfl

@[simp] theorem sweep_move_sp (st : decision_tree T) (s : sweep T) (pos : Int) :
    (sweep.move st s pos).sp = s.sp := rfl

/-- Induction over the inner loop of `find_best_split`. -/
theorem skip_close_ind (st : decision_tree T) (end_idx : Int) (feat_thresh : T)
    (P : sweep T → Prop)
    (hstep : ∀ s, P s → s.sidx + 1 ≤ end_idx → too_close st feat_thresh s.sidx →
      P { sweep.move st s (s.sidx + 1) with sidx := s.sidx + 1 }) :
    ∀ (fuel : Nat) (s : sweep T), P s → P (skip_close st end_idx feat_thresh fuel s) := by
  intro fuel
  induction fuel with
  | zero => intro s hs; simpa [skip_close] using hs
  | succ n ih =>
    intro s hs
    unfold skip_close
    split
    · rename_i hc
      exact ih _ (hstep s hs hc.1 hc.2)
    · exact hs

/-- With enough fuel the inner loop stops because its condition fails. -/
theorem skip_close_exit (st : decision_tree T) (end_idx : Int) (feat_thresh : T) :
    ∀ (fuel : Nat) (s : sweep T), (end_idx - s.sidx).toNat ≤ fuel →
      ¬ ((skip_close st end_idx feat_thresh fuel s).sidx + 1 ≤ end_idx
        ∧ too_close st feat_thresh (skip_close st end_idx feat_thresh fuel s).sidx) := by
  intro fuel
  induction fuel with
  | zero =>
    intro s hf
    simp only [skip_close]
    intro h
    omega
  | succ n ih =>
    intro s hf
    unfold skip_close
    split
    · rename_i hc
      apply ih
      simp only [sweep_move_sidx]
      omega
    · rename_i hc
      exact hc

theorem sweep_advance_sp (st : decision_tree T) (nd : node T) (ft : T) (s : sweep T) :
    (sweep_advance st nd ft s).sp = s.sp := by
  unfold sweep_advance
  exact skip_close_ind st nd.end_idx ft (fun s' => s'.sp = s.sp)
    (fun s' h _ _ => by simpa using h) _ _ rfl

theorem sweep_advance_sidx_ge (st : decision_tree T) (nd : node T) (ft : T) (s : sweep T) :
    s.sidx ≤ (sweep_advance st nd ft s).sidx := by
  unfold sweep_advance
  exact skip_close_ind st nd.end_idx ft (fun s' => s.sidx ≤ s'.sidx)
    (fun s' h _ _ => by simp only [sweep_move_sidx] at h ⊢; omega) _ _ (le_refl _)

theorem sweep_advance_sidx_le (st : decision_tree T) (nd : node T) (ft : T) (s : sweep T)
    (h : s.sidx ≤ nd.end_idx) : (sweep_advance st nd ft s).sidx ≤ nd.end_idx := by
  unfold sweep_advance
  exact skip_close_ind st nd.end_idx ft (fun s' => s'.sidx ≤ nd.end_idx)
    (fun s' _ h2 _ => by simp only [sweep_move_sidx]; omega) _ _ h

theorem sweep_advance_exit (st : decision_tree T) (nd : node T) (ft : T) (s : sweep T) :
    ¬ ((sweep_advance st nd ft s).sidx + 1 ≤ nd.end_idx
      ∧ too_close st ft (sweep_advance st nd ft s).sidx) := by
  unfold sweep_advance
  exact skip_close_exit st nd.end_idx ft _ _ (le_refl _)

@[simp] theorem sweep_eval_sidx (st : decision_tree T) (nd : node T) (ms : T) (s : sweep T) :
    (sweep_eval st nd ms s).sidx = s.sidx + 1 := rfl

/-- Induction over the outer loop of `find_best_split`: `P` is carried from loop head to
loop head, `Q` holds wherever the loop is left. -/
theorem sweep_loop_ind (st : decision_tree T) (nd : node T) (ft ms : T)
    (P Q : sweep T → Prop)
    (hexit : ∀ s, P s → ¬ s.sidx ≤ nd.end_idx - 1 → Q s)
    (hbreak : ∀ s, P s → s.sidx ≤ nd.end_idx - 1 →
      (sweep_advance st nd ft s).sidx = nd.end_idx → Q (sweep_advance st nd ft s))
    (hstep : ∀ s, P s → s.sidx ≤ nd.end_idx - 1 →
      (sweep_advance st nd ft s).sidx ≠ nd.end_idx →
      P (sweep_eval st nd ms (sweep_advance st nd ft s))) :
    ∀ (fuel : Nat) (s : sweep T), (nd.end_idx - s.sidx).toNat ≤ fuel → P s →
      Q (sweep_loop st nd ft ms fuel s) := by
  intro fuel
  induction fuel with
  | zero =>
    intro s hf hs
    simp only [sweep_loop]
    exact hexit s hs (by omega)
  | succ n ih =>
    intro s hf hs
    unfold sweep_loop
    split
    · rename_i hc
      simp only
      split
      · rename_i he
        exact hbreak s hs hc he
      · rename_i he
        apply ih
        · have := sweep_advance_sidx_ge st nd ft s
          simp only [sweep_eval_sidx]
          omega
        · exact hstep s hs hc he
    · rename_i hc
      exact hexit s hs hc

/-- On return from `find_best_split`, `sp` either holds no split (`samp_idx = -1`, the
score of the node) or a recorded one; `feat_idx` is untouched. -/
theorem find_best_split_cases (st : decision_tree T) (nd : node T) (ft ms : T)
    (sp : split T) :
    (find_best_split st nd ft ms sp).2.feat_idx = sp.feat_idx
      ∧ (((find_best_split st nd ft ms sp).2.samp_idx = -1
            ∧ (find_best_split st nd ft ms sp).2.score = nd.score)
          ∨ split_recorded st nd ft (find_best_split st nd ft ms sp).2) := by
  have key := sweep_loop_ind st nd ft ms
    (fun s => nd.start_idx ≤ s.sidx ∧ s.sp.feat_idx = sp.feat_idx
      ∧ ((s.sp.samp_idx = -1 ∧ s.sp.score = nd.score) ∨ split_recorded st nd ft s.sp))
    (fun s => s.sp.feat_idx = sp.feat_idx
      ∧ ((s.sp.samp_idx = -1 ∧ s.sp.score = nd.score) ∨ split_recorded st nd ft s.sp))
    (fun s hs _ => hs.2)
    (fun s hs _ _ => by beta_reduce at hs ⊢; rw [sweep_advance_sp]; exact hs.2)
    (fun s hs hc hne => by
      beta_reduce at hs ⊢
      have hge := sweep_advance_sidx_ge st nd ft s
      have hle := sweep_advance_sidx_le st nd ft s (by omega)
      have hex := sweep_advance_exit st nd ft s
      have hsp := sweep_advance_sp st nd ft s
      have hlt : (sweep_advance st nd ft s).sidx < nd.end_idx := lt_of_le_of_ne hle hne
      have hnc : ¬ too_close st ft (sweep_advance st nd ft s).sidx :=
        fun h => hex ⟨by omega, h⟩
      refine ⟨by simp only [sweep_eval_sidx]; omega, ?_, ?_⟩
      · unfold sweep_eval
        simp only
        split <;> simp [hsp, hs.2.1]
      · unfold sweep_eval
        simp only
        split
        · rename_i hrec
          right
          refine ⟨by simp only; omega, by simp only; omega, ?_, hnc, rfl⟩
          simp only
          rw [hsp] at hrec
          rcases hs.2.2 with h | h
          · rw [← h.2]; exact hrec.1
          · exact lt_trans hrec.1 h.2.2.1
        · rw [hsp]; exact hs.2.2)
    (nd.end_idx - nd.start_idx).toNat
    { sidx := nd.start_idx,
      count_left_classes := vec_fill st.count_left_classes 0,
      count_right_classes := vec_copy st.count_classes st.count_right_classes,
      ns_left := 0, ns_right := nd.n_samples, left_score := 0, right_score := nd.score,
      sp := { sp with score := nd.score, samp_idx := -1 } }
    (le_refl _) ⟨le_refl _, rfl, Or.inl ⟨rfl, rfl⟩⟩
  exact key

/-- The sweep of a node whose feature values are all equal, with a positive
`feat_thresh`, records nothing. -/
theorem find_best_split_of_constant (st : decision_tree T) (nd : node T) (ft ms : T)
    (sp : split T) (hft : 0 < ft)
    (hconst : ∀ i, nd.start_idx ≤ i → i < nd.end_idx →
      vec_get st.feature_values (i + 1) 0 = vec_get st.feature_values i 0) :
    (find_best_split st nd ft ms sp).2.samp_idx = -1
      ∧ (find_best_split st nd ft ms sp).2.score = nd.score := by
  have key := sweep_loop_ind st nd ft ms
    (fun s => nd.start_idx ≤ s.sidx ∧ s.sp.samp_idx = -1 ∧ s.sp.score = nd.score)
    (fun s => s.sp.samp_idx = -1 ∧ s.sp.score = nd.score)
    (fun s hs _ => hs.2)
    (fun s hs _ _ => by beta_reduce at hs ⊢; rw [sweep_advance_sp]; exact hs.2)
    (fun s hs hc hne => by
      beta_reduce at hs ⊢
      exfalso
      have hge := sweep_advance_sidx_ge st nd ft s
      have hle := sweep_advance_sidx_le st nd ft s (by omega)
      have hex := sweep_advance_exit st nd ft s
      have hlt : (sweep_advance st nd ft s).sidx < nd.end_idx := lt_of_le_of_ne hle hne
      apply hex
      refine ⟨by omega, ?_⟩
      unfold too_close
      rw [hconst _ (by omega) hlt]
      simpa using hft)
    (nd.end_idx - nd.start_idx).toNat
    { sidx := nd.start_idx,
      count_left_classes := vec_fill st.count_left_classes 0,
      count_right_classes := vec_copy st.count_classes st.count_right_classes,
      ns_left := 0, ns_right := nd.n_samples, left_score := 0, right_score := nd.score,
      sp := { sp with score := nd.score, samp_idx := -1 } }
    (le_refl _) ⟨le_refl _, rfl, rfl⟩
  exact key

end sweep_lemmas

/-! ## Segments of a vector and rearrangements within a segment -/

section segments

variable {α : Type}

theorem take_set_of_le (a : α) {n m : Nat} (l : List α) (h : m ≤ n) :
    (l.set n a).take m = l.take m :=
  List.ext_getElem? fun i => by
    rw [List.getElem?_take, List.getElem?_take]
    split
    · rw [List.getElem?_set_ne (by omega)]
    · rfl

theorem seg_decomp (v : List α) (a b : Int) (h : a ≤ b + 1) :
    v = v.take a.toNat ++ seg v a b ++ v.drop (b + 1).toNat := by
  unfold seg
  have h1 : a.toNat ≤ (b + 1).toNat := by omega
  conv_lhs => rw [← List.take_append_drop (b + 1).toNat v]
  congr 1
  conv_lhs => rw [← List.take_append_drop a.toNat (List.take (b + 1).toNat v)]
  congr 1
  rw [List.take_take, min_eq_left h1]

theorem length_seg (v : List α) (a b : Int) (h0 : 0 ≤ a) (h : a ≤ b + 1)
    (hb : b < v.length) : (seg v a b).length = (b + 1 - a).toNat := by
  unfold seg
  simp only [List.length_drop, List.length_take]
  omega

theorem seg_getElem? (v : List α) (a b : Int) (k : Nat) (h0 : 0 ≤ a)
    (hk : a + k ≤ b) : (seg v a b)[k]? = v[(a + k).toNat]? := by
  unfold seg
  rw [List.getElem?_drop, List.getElem?_take]
  have h1 : a.toNat + k < (b + 1).toNat := by omega
  have h2 : (a + k).toNat = a.toNat + k := by omega
  simp [h1, h2]

theorem vec_get_mem_seg (v : List α) (a b i : Int) (d : α) (h0 : 0 ≤ a) (h1 : a ≤ i)
    (h2 : i ≤ b) (hb : b < v.length) : vec_get v i d ∈ seg v a b := by
  have hk := seg_getElem? v a b (i - a).toNat h0 (by omega)
  have h3 : (a + ((i - a).toNat : Int)).toNat = i.toNat := by omega
  rw [h3] at hk
  have h4 : i.toNat < v.length := by omega
  rw [vec_get_eq_getElem v i d (by omega) h4]
  rw [List.getElem?_eq_getElem h4] at hk
  exact List.getElem?_mem hk

theorem mem_seg_iff (v : List α) (a b : Int) (d : α) (x : α) (h0 : 0 ≤ a)
    (hb : b < v.length) :
    x ∈ seg v a b ↔ ∃ i, a ≤ i ∧ i ≤ b ∧ vec_get v i d = x := by
  constructor
  · intro hx
    obtain ⟨k, hk, hkx⟩ := List.getElem_of_mem hx
    have hlen : (seg v a b).length ≤ (b + 1 - a).toNat := by
      unfold seg
      simp only [List.length_drop, List.length_take]
      omega
    have hk2 : a + k ≤ b := by omega
    refine ⟨a + k, by omega, hk2, ?_⟩
    have h3 := seg_getElem? v a b k h0 hk2
    rw [List.getElem?_eq_getElem hk, hkx] at h3
    have h4 : (a + (k : Int)).toNat < v.length := by omega
    rw [vec_get_eq_getElem v _ d (by omega) h4]
    rw [List.getElem?_eq_getElem h4] at h3
    exact (Option.some.inj h3).symm
  · rintro ⟨i, h1, h2, rfl⟩
    exact vec_get_mem_seg v a b i d h0 h1 h2 hb

theorem perm_within_refl (v : List α) (a b : Int) : perm_within v v a b :=
  ⟨List.Perm.refl _, rfl, rfl⟩

theorem perm_within_trans {u v w : List α} {a b : Int} (h1 : perm_within u v a b)
    (h2 : perm_within v w a b) : perm_within u w a b :=
  ⟨h2.1.trans h1.1, h2.2.1.trans h1.2.1, h2.2.2.trans h1.2.2⟩

theorem perm_within_length {v w : List α} {a b : Int} (h : perm_within v w a b) :
    w.length = v.length := h.1.length_eq

theorem perm_within_mono {v w : List α} {a b c d : Int} (h : perm_within v w a b)
    (hc : c ≤ a) (hd : b ≤ d) : perm_within v w c d := by
  refine ⟨h.1, ?_, ?_⟩
  · have h1 : c.toNat ≤ a.toNat := by omega
    have := congrArg (List.take c.toNat) h.2.1
    simpa [List.take_take, min_eq_left h1] using this
  · have h1 : (d + 1).toNat = ((d + 1).toNat - (b + 1).toNat) + (b + 1).toNat := by omega
    have := congrArg (List.drop ((d + 1).toNat - (b + 1).toNat)) h.2.2
    rw [List.drop_drop, List.drop_drop] at this
    rw [h1]
    simpa [add_comm] using this

theorem perm_within_seg {v w : List α} {a b : Int} (h : perm_within v w a b)
    (hab : a ≤ b + 1) : (seg w a b).Perm (seg v a b) := by
  have hv := seg_decomp v a b hab
  have hw := seg_decomp w a b hab
  have hp := h.1
  rw [hv, hw, h.2.1, h.2.2] at hp
  have hp2 := (List.perm_append_right_iff _).mp hp
  have hp3 := (List.perm_append_left_iff _).mp hp2
  have e1 : seg (List.take a.toNat v ++ seg w a b ++ List.drop (b + 1).toNat v) a b
      = seg w a b := by
    have := hw
    rw [h.2.1, h.2.2] at this
    rw [← this]
  have e2 : seg (List.take a.toNat v ++ seg v a b ++ List.drop (b + 1).toNat v) a b
      = seg v a b := by
    rw [← hv]
  exact hp3

theorem perm_within_seg_super {v w : List α} {a b c d : Int} (h : perm_within v w a b)
    (hc : c ≤ a) (hd : b ≤ d) (hab : a ≤ b + 1) : (seg w c d).Perm (seg v c d) :=
  perm_within_seg (perm_within_mono h hc hd) (by omega)

theorem perm_within_get_outside {v w : List α} {a b : Int} (h : perm_within v w a b)
    (i : Int) (d : α) (hi : i < a ∨ b < i) : vec_get w i d = vec_get v i d := by
  unfold vec_get
  by_cases hneg : i < 0
  · simp [hneg]
  · simp only [hneg, if_false, List.getD_eq_getElem?_getD]
    congr 1
    rcases hi with hi | hi
    · have h1 : i.toNat < a.toNat := by omega
      have e1 := congrArg (fun l => l[i.toNat]?) h.2.1
      simpa [List.getElem?_take, h1] using e1
    · have h1 : i.toNat = (b + 1).toNat + (i.toNat - (b + 1).toNat) := by omega
      have e1 := congrArg (fun l => l[i.toNat - (b + 1).toNat]?) h.2.2
      simp only [List.getElem?_drop] at e1
      rw [← h1] at e1
      exact e1

theorem perm_within_seg_disjoint {v w : List α} {a b c d : Int} (h : perm_within v w a b)
    (h0 : 0 ≤ c) (hdis : d < a ∨ b < c) : seg w c d = seg v c d := by
  unfold seg
  rcases hdis with h1 | h1
  · have h2 : (d + 1).toNat ≤ a.toNat := by omega
    have := congrArg (List.take (d + 1).toNat) h.2.1
    simp only [List.take_take, min_eq_left h2] at this
    rw [this]
  · have h2 : c.toNat = (c.toNat - (b + 1).toNat) + (b + 1).toNat := by omega
    rw [List.drop_take, List.drop_take]
    have := congrArg (List.drop (c.toNat - (b + 1).toNat)) h.2.2
    rw [List.drop_drop, List.drop_drop] at this
    have h3 : (b + 1).toNat + (c.toNat - (b + 1).toNat) = c.toNat := by omega
    rw [h3] at this
    rw [this]

/-- Exchanging the content of two positions of a segment rearranges the segment. -/
theorem perm_within_swap [DecidableEq α] (v : List α) (a b i j : Int) (d : α)
    (h0 : 0 ≤ a) (hb : b < v.length) (hi : a ≤ i ∧ i ≤ b) (hj : a ≤ j ∧ j ≤ b) :
    perm_within v (vec_set (vec_set v i (vec_get v j d)) j (vec_get v i d)) a b := by
  have hin : ¬ i < 0 := by omega
  have hjn : ¬ j < 0 := by omega
  have hil : i.toNat < v.length := by omega
  have hjl : j.toNat < v.length := by omega
  have e1 : vec_get v j d = v[j.toNat] := vec_get_eq_getElem v j d (by omega) hjl
  have e2 : vec_get v i d = v[i.toNat] := vec_get_eq_getElem v i d (by omega) hil
  rw [e1, e2]
  simp only [vec_set, hin, hjn, if_false]
  refine ⟨?_, ?_, ?_⟩
  · rw [List.perm_iff_count]
    intro x
    have hjl2 : j.toNat < (v.set i.toNat v[j.toNat]).length := by simpa using hjl
    rw [List.count_set _ _ _ _ hjl2, List.count_set _ _ _ _ hil]
    have hget : (v.set i.toNat v[j.toNat])[j.toNat] = v[j.toNat] := by
      rw [List.getElem_set]
      split <;> rfl
    rw [hget]
    have hpos : ∀ k (hk : k < v.length), v[k] = x → 0 < List.count x v := by
      intro k hk hx
      exact List.count_pos_iff.mpr (hx ▸ List.getElem_mem hk)
    by_cases hxi : v[i.toNat] = x <;> by_cases hxj : v[j.toNat] = x
    · have := hpos _ hil hxi
      simp [hxi, hxj]; omega
    · have := hpos _ hil hxi
      simp [hxi, hxj]; omega
    · have := hpos _ hjl hxj
      simp [hxi, hxj]
    · simp [hxi, hxj]
  · have h1 : a.toNat ≤ i.toNat := by omega
    have h2 : a.toNat ≤ j.toNat := by omega
    rw [take_set_of_le _ _ h2, take_set_of_le _ _ h1]
  · rw [List.drop_set_of_lt, List.drop_set_of_lt] <;> omega

end segments

section more_segments

variable {α : Type}

theorem seg_split (v : List α) (a m b : Int) (_h0 : 0 ≤ a) (h1 : a ≤ m + 1) (h2 : m ≤ b) :
    seg v a b = seg v a m ++ seg v (m + 1) b := by
  unfold seg
  have hA : a.toNat ≤ (m + 1).toNat := by omega
  have hM : (m + 1).toNat ≤ (b + 1).toNat := by omega
  generalize a.toNat = A at *
  generalize (m + 1).toNat = M at *
  generalize (b + 1).toNat = B at *
  have e1 : List.take M v = List.take M (List.take B v) := by
    rw [List.take_take, min_eq_left hM]
  rw [e1]
  generalize List.take B v = L
  have e2 : List.drop A (List.take M L) = List.take (M - A) (List.drop A L) :=
    List.drop_take M A L
  have e3 : List.drop M L = List.drop (M - A) (List.drop A L) := by
    rw [List.drop_drop]
    congr 1
    omega
  rw [e2, e3, List.take_append_drop]

theorem seg_single (v : List α) (i : Int) (d : α) (h0 : 0 ≤ i) (h1 : i < v.length) :
    seg v i i = [vec_get v i d] := by
  have h2 : i.toNat < v.length := by omega
  rw [vec_get_eq_getElem v i d h0 h2]
  apply List.ext_getElem?
  intro k
  by_cases hk : k = 0
  · subst hk
    have := seg_getElem? v i i 0 h0 (by simp)
    simp only [Nat.cast_zero, add_zero] at this
    rw [this, List.getElem?_eq_getElem h2]
    simp
  · have hl := length_seg v i i h0 (by omega) (by omega)
    have hl1 : (seg v i i).length = 1 := by rw [hl]; omega
    rw [List.getElem?_eq_none (by omega), List.getElem?_eq_none (by simp; omega)]

theorem seg_empty (v : List α) (a b : Int) (h : b < a) (h0 : 0 ≤ a) : seg v a b = [] := by
  unfold seg
  apply List.drop_eq_nil_of_le
  simp only [List.length_take]
  omega

end more_segments

/-! ## `sort_samples` -/

section sorting

variable {T : Type} [LinearOrderedField T]

theorem sort_samples_samples_idx (E : externals T) (st : decision_tree T) (nd : node T)
    (feat_idx : Int) (hnd : node_in_range st.samples_idx.length nd) :
    ∃ sorted : List Int,
      (sort_samples E st nd feat_idx).samples_idx
        = st.samples_idx.take nd.start_idx.toNat ++ sorted
            ++ st.samples_idx.drop (nd.end_idx + 1).toNat
      ∧ sorted = (if st.sort_method = stl_sort then
            std_sort_samples E st.X st.ldx feat_idx (seg st.samples_idx nd.start_idx nd.end_idx)
          else if st.sort_method = boost_sort then
            boost_sort_samples E st.X st.ldx feat_idx
              (seg st.samples_idx nd.start_idx nd.end_idx)
          else seg st.samples_idx nd.start_idx nd.end_idx) := by
  obtain ⟨h0, h1, h2, h3⟩ := hnd
  have e : nd.start_idx + nd.n_samples = nd.end_idx + 1 := by omega
  refine ⟨_, ?_, rfl⟩
  simp only [sort_samples, e, seg]

theorem sorted_perm_of_conforms (E : externals T) (hE : E.conforms) (st : decision_tree T)
    (feat_idx : Int) (l : List Int) :
    (if st.sort_method = stl_sort then std_sort_samples E st.X st.ldx feat_idx l
      else if st.sort_method = boost_sort then boost_sort_samples E st.X st.ldx feat_idx l
      else l).Perm l := by
  split
  · exact (hE.1 (fun i => st.X (st.ldx * feat_idx + i)) l).1
  · split
    · exact (hE.2 (fun i => st.X (st.ldx * feat_idx + i)) l).1
    · exact List.Perm.refl _

theorem sorted_pairwise_of_conforms (E : externals T) (hE : E.conforms) (st : decision_tree T)
    (feat_idx : Int) (l : List Int)
    (hm : st.sort_method = stl_sort ∨ st.sort_method = boost_sort) :
    (if st.sort_method = stl_sort then std_sort_samples E st.X st.ldx feat_idx l
      else if st.sort_method = boost_sort then boost_sort_samples E st.X st.ldx feat_idx l
      else l).Pairwise (fun i1 i2 => feat_val st feat_idx i1 ≤ feat_val st feat_idx i2) := by
  split
  · exact (hE.1 (fun i => st.X (st.ldx * feat_idx + i)) l).2
  · split
    · exact (hE.2 (fun i => st.X (st.ldx * feat_idx + i)) l).2
    · rename_i h1 h2
      rcases hm with h | h
      · exact absurd h h1
      · exact absurd h h2

/-- A vector rebuilt around a rearranged segment. -/
theorem perm_within_of_splice (v m : List Int) (a b : Int) (h0 : 0 ≤ a) (h1 : a ≤ b + 1)
    (hb : b < v.length) (hm : m.Perm (seg v a b)) :
    perm_within v (v.take a.toNat ++ m ++ v.drop (b + 1).toNat) a b := by
  have hlen : m.length = (b + 1 - a).toNat := by
    rw [hm.length_eq, length_seg v a b h0 h1 hb]
  refine ⟨?_, ?_, ?_⟩
  · conv_rhs => rw [seg_decomp v a b h1]
    exact (List.Perm.append_left _ hm).append_right _
  · rw [List.append_assoc, List.take_append_of_le_length (by simp; omega)]
    simp
  · have hl : (List.take a.toNat v ++ m).length = (b + 1).toNat := by
      simp only [List.length_append, List.length_take]
      omega
    rw [← hl, List.drop_left]

theorem seg_of_splice (v m : List Int) (a b : Int) (h0 : 0 ≤ a) (h1 : a ≤ b + 1)
    (hb : b < v.length) (hm : m.length = (b + 1 - a).toNat) :
    seg (v.take a.toNat ++ m ++ v.drop (b + 1).toNat) a b = m := by
  unfold seg
  have hl : (List.take a.toNat v ++ m).length = (b + 1).toNat := by
    simp only [List.length_append, List.length_take]
    omega
  rw [← hl, List.take_left]
  have hl2 : (List.take a.toNat v).length = a.toNat := by
    simp only [List.length_take]; omega
  generalize List.take a.toNat v = P at *
  rw [← hl2, List.drop_left]

theorem sort_samples_perm_within (E : externals T) (hE : E.conforms) (st : decision_tree T)
    (nd : node T) (feat_idx : Int) (hnd : node_in_range st.samples_idx.length nd) :
    perm_within st.samples_idx (sort_samples E st nd feat_idx).samples_idx
      nd.start_idx nd.end_idx := by
  obtain ⟨sorted, hs, hsorted⟩ := sort_samples_samples_idx E st nd feat_idx hnd
  rw [hs]
  have hp : sorted.Perm (seg st.samples_idx nd.start_idx nd.end_idx) := by
    rw [hsorted]; exact sorted_perm_of_conforms E hE st feat_idx _
  exact perm_within_of_splice _ _ _ _ hnd.1 hnd.2.1 hnd.2.2.1 hp

theorem sort_samples_seg_pairwise (E : externals T) (hE : E.conforms) (st : decision_tree T)
    (nd : node T) (feat_idx : Int) (hnd : node_in_range st.samples_idx.length nd)
    (hm : st.sort_method = stl_sort ∨ st.sort_method = boost_sort) :
    (seg (sort_samples E st nd feat_idx).samples_idx nd.start_idx nd.end_idx).Pairwise
      (fun i1 i2 => feat_val st feat_idx i1 ≤ feat_val st feat_idx i2) := by
  obtain ⟨sorted, hs, hsorted⟩ := sort_samples_samples_idx E st nd feat_idx hnd
  have hp : sorted.Perm (seg st.samples_idx nd.start_idx nd.end_idx) := by
    rw [hsorted]; exact sorted_perm_of_conforms E hE st feat_idx _
  have hlen : sorted.length = (nd.end_idx + 1 - nd.start_idx).toNat := by
    rw [hp.length_eq, length_seg _ _ _ hnd.1 hnd.2.1 hnd.2.2.1]
  rw [hs, seg_of_splice _ _ _ _ hnd.1 hnd.2.1 hnd.2.2.1 hlen, hsorted]
  exact sorted_pairwise_of_conforms E hE st feat_idx _ hm

/-- After `sort_samples`, `feature_values` holds over the range of the node the values of
the feature for the samples of `samples_idx`, position by position. -/
theorem sort_samples_feature_values (E : externals T) (st : decision_tree T) (nd : node T)
    (feat_idx : Int) (h0 : 0 ≤ nd.start_idx)
    (hlen : nd.end_idx < st.feature_values.length) (i : Int) (hi : nd.start_idx ≤ i)
    (hi2 : i ≤ nd.end_idx) :
    vec_get (sort_samples E st nd feat_idx).feature_values i 0
      = feat_val st feat_idx (vec_get (sort_samples E st nd feat_idx).samples_idx i 0) := by
  simp only [sort_samples]
  generalize hS : (List.take nd.start_idx.toNat st.samples_idx ++ _ ++ _ : List Int) = S
  have key := for_range_ind
    (fun (k : Int) (fv : List T) => fv.length = st.feature_values.length
      ∧ ∀ j, nd.start_idx ≤ j → j < k → vec_get fv j 0 = feat_val st feat_idx (vec_get S j 0))
    nd.start_idx (nd.end_idx + 1)
    (fun i fv => vec_set fv i (st.X (st.ldx * feat_idx + vec_get S i 0)))
    st.feature_values (by omega) ⟨rfl, fun j h1 h2 => by omega⟩
    (fun k fv hk1 hk2 ih => by
      refine ⟨by simp [ih.1], fun j hj1 hj2 => ?_⟩
      by_cases hjk : j = k
      · subst hjk
        rw [vec_get_vec_set_eq _ _ _ _ (by omega) (by rw [ih.1]; omega)]
        rfl
      · rw [vec_get_vec_set_ne _ _ _ _ _ (Ne.symm hjk)]
        exact ih.2 j hj1 (by omega))
  exact key.2 i hi (by omega)

theorem sort_samples_feature_values_length (E : externals T) (st : decision_tree T)
    (nd : node T) (feat_idx : Int) :
    (sort_samples E st nd feat_idx).feature_values.length = st.feature_values.length := by
  simp only [sort_samples]
  by_cases h : nd.start_idx ≤ nd.end_idx + 1
  · exact (for_range_ind
      (fun (_ : Int) (fv : List T) => fv.length = st.feature_values.length)
      nd.start_idx (nd.end_idx + 1) _ st.feature_values h rfl
      (fun k fv _ _ ih => by simp [ih]))
  · rw [for_range_of_le _ _ _ _ (by omega)]

end sorting

/-! ## `partition_samples` -/

section partitioning

variable {T : Type} [LinearOrderedField T]

/-- The loop of `partition_samples` rearranges the range `a..b` and ends with a position
`q` such that every sample before `q` is below the threshold and every sample after `q`
is not. -/
theorem partition_loop_spec (X : Int → T) (col : Int) (t : T) (a b : Int) (h0 : 0 ≤ a) :
    ∀ (fuel : Nat) (v : List Int) (head tail : Int),
      b < v.length → a ≤ head → head ≤ tail → tail ≤ b → (tail - head).toNat ≤ fuel →
      (∀ i, a ≤ i → i < head → X (col + vec_get v i 0) < t) →
      (∀ i, tail < i → i ≤ b → ¬ X (col + vec_get v i 0) < t) →
      perm_within v (partition_loop X col t fuel v head tail) a b
        ∧ ∃ q, a ≤ q ∧ q ≤ b
          ∧ (∀ i, a ≤ i → i < q →
              X (col + vec_get (partition_loop X col t fuel v head tail) i 0) < t)
          ∧ (∀ i, q < i → i ≤ b →
              ¬ X (col + vec_get (partition_loop X col t fuel v head tail) i 0) < t) := by
  intro fuel
  induction fuel with
  | zero =>
    intro v head tail hb h1 h2 h3 hf hL hR
    have : head = tail := by omega
    subst this
    simp only [partition_loop]
    exact ⟨perm_within_refl _ _ _, head, h1, h3, hL, hR⟩
  | succ n ih =>
    intro v head tail hb h1 h2 h3 hf hL hR
    unfold partition_loop
    by_cases hlt : head < tail
    · simp only [hlt, if_true]
      by_cases hp : X (col + vec_get v head 0) < t
      · simp only [hp, if_true]
        exact ih v (head + 1) tail hb (by omega) (by omega) h3 (by omega)
          (fun i hi1 hi2 => by
            by_cases hih : i = head
            · subst hih; exact hp
            · exact hL i hi1 (by omega))
          hR
      · simp only [hp, if_false]
        have hsw := perm_within_swap v a b head tail (0 : Int) h0 hb
          ⟨h1, by omega⟩ ⟨by omega, h3⟩
        have hlen := perm_within_length hsw
        obtain ⟨hperm, q, hq1, hq2, hqL, hqR⟩ :=
          ih (vec_set (vec_set v head (vec_get v tail 0)) tail (vec_get v head 0))
            head (tail - 1) (by rw [hlen]; exact hb) h1 (by omega) (by omega) (by omega)
            (fun i hi1 hi2 => by
              rw [vec_get_vec_set_ne _ _ _ _ _ (by omega),
                vec_get_vec_set_ne _ _ _ _ _ (by omega)]
              exact hL i hi1 hi2)
            (fun i hi1 hi2 => by
              by_cases hit : i = tail
              · subst hit
                rw [vec_get_vec_set_eq _ _ _ _ (by omega) (by simp; omega)]
                exact hp
              · rw [vec_get_vec_set_ne _ _ _ _ _ (Ne.symm hit),
                  vec_get_vec_set_ne _ _ _ _ _ (by omega)]
                exact hR i (by omega) hi2)
        exact ⟨perm_within_trans hsw hperm, q, hq1, hq2, hqL, hqR⟩
    · have : head = tail := by omega
      subst this
      simp only [hlt, if_false]
      exact ⟨perm_within_refl _ _ _, head, h1, h3, hL, hR⟩

theorem countP_seg_of_all (v : List Int) (a b : Int) (p : Int → Bool) (h0 : 0 ≤ a)
    (h1 : a ≤ b + 1) (hb : b < v.length)
    (h : ∀ i, a ≤ i → i ≤ b → p (vec_get v i 0) = true) :
    (seg v a b).countP p = (b + 1 - a).toNat := by
  rw [← length_seg v a b h0 h1 hb]
  apply List.countP_eq_length.mpr
  intro x hx
  obtain ⟨i, hi1, hi2, rfl⟩ := (mem_seg_iff v a b 0 x h0 hb).mp hx
  exact h i hi1 hi2

theorem countP_seg_of_none (v : List Int) (a b : Int) (p : Int → Bool) (h0 : 0 ≤ a)
    (hb : b < v.length) (h : ∀ i, a ≤ i → i ≤ b → p (vec_get v i 0) = false) :
    (seg v a b).countP p = 0 := by
  apply List.countP_eq_zero.mpr
  intro x hx
  obtain ⟨i, hi1, hi2, rfl⟩ := (mem_seg_iff v a b 0 x h0 hb).mp hx
  simp [h i hi1 hi2]

/-- A range in which the samples before `q` satisfy `p` and those after `q` do not holds
its `c` samples that satisfy `p` in its first `c` positions. -/
theorem front_of_count (v : List Int) (a b q : Int) (p : Int → Bool) (c : Nat) (h0 : 0 ≤ a)
    (hb : b < v.length) (hq1 : a ≤ q) (hq2 : q ≤ b)
    (hL : ∀ i, a ≤ i → i < q → p (vec_get v i 0) = true)
    (hR : ∀ i, q < i → i ≤ b → p (vec_get v i 0) = false)
    (hc : (seg v a b).countP p = c) :
    (∀ i, a ≤ i → i < a + c → p (vec_get v i 0) = true)
      ∧ (∀ i, a + c ≤ i → i ≤ b → p (vec_get v i 0) = false) := by
  have e1 : seg v a b = seg v a (q - 1) ++ seg v q b := by
    have := seg_split v a (q - 1) b h0 (by omega) (by omega)
    simpa using this
  have e2 : seg v q b = seg v q q ++ seg v (q + 1) b :=
    seg_split v q q b (by omega) (by omega) hq2
  have c1 : (seg v a (q - 1)).countP p = (q - a).toNat := by
    have := countP_seg_of_all v a (q - 1) p h0 (by omega) (by omega)
      (fun i hi1 hi2 => hL i hi1 (by omega))
    simpa using this
  have c3 : (seg v (q + 1) b).countP p = 0 :=
    countP_seg_of_none v (q + 1) b p (by omega) hb (fun i hi1 hi2 => hR i (by omega) hi2)
  have c2 : seg v q q = [vec_get v q 0] := seg_single v q 0 (by omega) (by omega)
  rw [e1, e2, c2, List.countP_append, List.countP_append, c1, c3] at hc
  by_cases hpq : p (vec_get v q 0) = true
  · have hc' : c = (q - a).toNat + 1 := by
      rw [← hc]; simp [List.countP_cons, hpq]
    constructor
    · intro i hi1 hi2
      by_cases hiq : i = q
      · subst hiq; exact hpq
      · exact hL i hi1 (by omega)
    · intro i hi1 hi2
      exact hR i (by omega) hi2
  · have hc' : c = (q - a).toNat := by
      rw [← hc]; simp [List.countP_cons, hpq]
    constructor
    · intro i hi1 hi2
      exact hL i hi1 (by omega)
    · intro i hi1 hi2
      by_cases hiq : i = q
      · subst hiq; simpa using hpq
      · exact hR i (by omega) hi2

/-- The member `partition_samples` rearranges the range of the node; when the range holds
`c` samples below the threshold, they end up in its first `c` positions. -/
theorem partition_samples_spec (st : decision_tree T) (nd : node T)
    (h0 : 0 ≤ nd.start_idx) (h1 : nd.start_idx ≤ nd.end_idx)
    (hb : nd.end_idx < st.samples_idx.length) :
    perm_within st.samples_idx (partition_samples st nd) nd.start_idx nd.end_idx
      ∧ ∀ c : Nat,
          (seg st.samples_idx nd.start_idx nd.end_idx).countP
            (fun idx => decide (feat_val st nd.feature idx < nd.x_threshold)) = c →
          (∀ i, nd.start_idx ≤ i → i < nd.start_idx + c →
            feat_val st nd.feature (vec_get (partition_samples st nd) i 0) < nd.x_threshold)
          ∧ (∀ i, nd.start_idx + c ≤ i → i ≤ nd.end_idx →
            ¬ feat_val st nd.feature (vec_get (partition_samples st nd) i 0)
              < nd.x_threshold) := by
  have hspec :=
    partition_loop_spec st.X (st.ldx * nd.feature) nd.x_threshold nd.start_idx nd.end_idx h0
      (nd.end_idx - nd.start_idx).toNat st.samples_idx nd.start_idx nd.end_idx hb
      (le_refl _) h1 (le_refl _) (le_refl _)
      (fun i hi1 hi2 => by omega) (fun i hi1 hi2 => by omega)
  change perm_within st.samples_idx (partition_samples st nd) nd.start_idx nd.end_idx
    ∧ ∃ q, nd.start_idx ≤ q ∧ q ≤ nd.end_idx
      ∧ (∀ i, nd.start_idx ≤ i → i < q →
          st.X (st.ldx * nd.feature + vec_get (partition_samples st nd) i 0) < nd.x_threshold)
      ∧ (∀ i, q < i → i ≤ nd.end_idx →
          ¬ st.X (st.ldx * nd.feature + vec_get (partition_samples st nd) i 0)
            < nd.x_threshold) at hspec
  obtain ⟨hperm, q, hq1, hq2, hL, hR⟩ := hspec
  refine ⟨hperm, fun c hc => ?_⟩
  have hlen := perm_within_length hperm
  have hseg := perm_within_seg hperm (by omega)
  have hc2 : (seg (partition_samples st nd) nd.start_idx nd.end_idx).countP
      (fun idx => decide (feat_val st nd.feature idx < nd.x_threshold)) = c := by
    rw [← hc]; exact hseg.countP_eq _
  have := front_of_count (partition_samples st nd) nd.start_idx nd.end_idx q
    (fun idx => decide (feat_val st nd.feature idx < nd.x_threshold)) c h0
    (by rw [hlen]; exact hb) hq1 hq2
    (fun i hi1 hi2 => by simpa [feat_val] using hL i hi1 hi2)
    (fun i hi1 hi2 => by simpa [feat_val] using hR i hi1 hi2) hc2
  constructor
  · intro i hi1 hi2
    simpa using this.1 i hi1 hi2
  · intro i hi1 hi2
    simpa using this.2 i hi1 hi2

end partitioning

/-! ## A recorded split of a sorted range -/

section recorded

variable {T : Type} [LinearOrderedField T]

theorem seg_getElem?_vec_get (v : List Int) (a b i : Int) (h0 : 0 ≤ a) (h1 : a ≤ i)
    (h2 : i ≤ b) (hb : b < v.length) :
    (seg v a b)[(i - a).toNat]? = some (vec_get v i 0) := by
  have hk := seg_getElem? v a b (i - a).toNat h0 (by omega)
  have h3 : (a + ((i - a).toNat : Int)).toNat = i.toNat := by omega
  rw [h3] at hk
  have h4 : i.toNat < v.length := by omega
  rw [vec_get_eq_getElem v i 0 (by omega) h4, hk, List.getElem?_eq_getElem h4]

/-- After `sort_samples` with a conforming routine, `feature_values` is ascending over the
range of the node. -/
theorem sort_samples_ascending (E : externals T) (hE : E.conforms) (st : decision_tree T)
    (nd : node T) (feat_idx : Int) (hnd : node_in_range st.samples_idx.length nd)
    (hfv : st.feature_values.length = st.samples_idx.length) (hm : valid_sort_method st)
    (i j : Int) (hi : nd.start_idx ≤ i) (hij : i ≤ j) (hj : j ≤ nd.end_idx) :
    vec_get (sort_samples E st nd feat_idx).feature_values i 0
      ≤ vec_get (sort_samples E st nd feat_idx).feature_values j 0 := by
  obtain ⟨h0, h1, h2, h3⟩ := hnd
  rw [sort_samples_feature_values E st nd feat_idx h0 (by omega) i hi (by omega),
    sort_samples_feature_values E st nd feat_idx h0 (by omega) j (by omega) hj]
  rcases eq_or_lt_of_le hij with he | hlt
  · subst he; exact le_refl _
  · have hpw := sort_samples_seg_pairwise E hE st nd feat_idx ⟨h0, h1, h2, h3⟩ hm
    have hlen : (sort_samples E st nd feat_idx).samples_idx.length = st.samples_idx.length :=
      perm_within_length (sort_samples_perm_within E hE st nd feat_idx ⟨h0, h1, h2, h3⟩)
    have gi := seg_getElem?_vec_get (sort_samples E st nd feat_idx).samples_idx
      nd.start_idx nd.end_idx i h0 hi (by omega) (by rw [hlen]; exact h2)
    have gj := seg_getElem?_vec_get (sort_samples E st nd feat_idx).samples_idx
      nd.start_idx nd.end_idx j h0 (by omega) hj (by rw [hlen]; exact h2)
    rw [List.pairwise_iff_getElem] at hpw
    obtain ⟨hi', ei⟩ := List.getElem?_eq_some.mp gi
    obtain ⟨hj', ej⟩ := List.getElem?_eq_some.mp gj
    have := hpw (i - nd.start_idx).toNat (j - nd.start_idx).toNat hi' hj' (by omega)
    rw [ei, ej] at this
    exact this

/-- A split recorded on a sorted range, with a positive `feat_thresh`, has its threshold
strictly between the two adjacent values, and the range holds exactly
`samp_idx - start_idx + 1` samples below the threshold. -/
theorem recorded_split_count (E : externals T) (hE : E.conforms) (st : decision_tree T)
    (nd : node T) (feat_idx : Int) (hnd : node_in_range st.samples_idx.length nd)
    (hfv : st.feature_values.length = st.samples_idx.length) (hm : valid_sort_method st)
    (ft : T) (hft : 0 < ft) (sp : split T)
    (hrec : split_recorded (sort_samples E st nd feat_idx) nd ft sp) :
    (seg (sort_samples E st nd feat_idx).samples_idx nd.start_idx nd.end_idx).countP
        (fun idx => decide (feat_val st feat_idx idx < sp.threshold))
      = (sp.samp_idx + 1 - nd.start_idx).toNat := by
  obtain ⟨h0, h1, h2, h3⟩ := hnd
  obtain ⟨r1, r2, _, r4, r5⟩ := hrec
  set st' := sort_samples E st nd feat_idx with hst'
  have hasc := sort_samples_ascending E hE st nd feat_idx ⟨h0, h1, h2, h3⟩ hfv hm
  have hlen : st'.samples_idx.length = st.samples_idx.length :=
    perm_within_length (sort_samples_perm_within E hE st nd feat_idx ⟨h0, h1, h2, h3⟩)
  have hfvs := sort_samples_feature_values E st nd feat_idx h0 (by omega)
  have hle := hasc sp.samp_idx (sp.samp_idx + 1) r1 (by omega) (by omega)
  have hgap : ft ≤ vec_get st'.feature_values (sp.samp_idx + 1) 0
      - vec_get st'.feature_values sp.samp_idx 0 := by
    unfold too_close at r4
    rw [abs_of_nonneg (sub_nonneg.mpr hle)] at r4
    exact not_lt.mp r4
  have hlo : vec_get st'.feature_values sp.samp_idx 0 < sp.threshold := by
    rw [r5]; linarith
  have hhi : sp.threshold < vec_get st'.feature_values (sp.samp_idx + 1) 0 := by
    rw [r5]; linarith
  rw [seg_split st'.samples_idx nd.start_idx sp.samp_idx nd.end_idx h0 (by omega) (by omega),
    List.countP_append]
  rw [countP_seg_of_all st'.samples_idx nd.start_idx sp.samp_idx _ h0 (by omega)
      (by rw [hlen]; omega)
      (fun i hi1 hi2 => by
        have e := hfvs i hi1 (by omega)
        have := hasc i sp.samp_idx hi1 hi2 (by omega)
        simp only [decide_eq_true_eq]
        rw [← e]
        exact lt_of_le_of_lt this hlo),
    countP_seg_of_none st'.samples_idx (sp.samp_idx + 1) nd.end_idx _ (by omega)
      (by rw [hlen]; omega)
      (fun i hi1 hi2 => by
        have e := hfvs i (by omega) hi2
        have := hasc (sp.samp_idx + 1) i (by omega) hi1 hi2
        simp only [decide_eq_false_iff_not, not_lt]
        rw [← e]
        exact le_of_lt (lt_of_lt_of_le hhi this))]
  simp

end recorded

/-! ## The loop of `fit` over the candidate features -/

section feature_loop

variable {T : Type} [LinearOrderedField T]

theorem feature_loop_body_inv (E : externals T) (hE : E.conforms) (st0 : decision_tree T)
    (nd : node T) (ms : T) (hnd : node_in_range st0.samples_idx.length nd)
    (hfv0 : st0.feature_values.length = st0.samples_idx.length) (j : Int)
    (fr : fit_frame T) (h : feat_inv st0 nd fr) :
    feat_inv st0 nd (feature_loop_body E nd ms j fr) := by
  obtain ⟨v, fv, cl, cr, hfr⟩ := h.hst
  have hlen : fr.st.samples_idx.length = st0.samples_idx.length := perm_within_length h.hperm
  have hnd' : node_in_range fr.st.samples_idx.length nd := by rw [hlen]; exact hnd
  have hfv' : fr.st.feature_values.length = fr.st.samples_idx.length := by
    rw [h.hfv, hfv0, hlen]
  set feat := vec_get fr.st.features_idx j 0 with hfeat
  set st1 := sort_samples E fr.st nd feat with hst1
  have hp1 : perm_within fr.st.samples_idx st1.samples_idx nd.start_idx nd.end_idx :=
    sort_samples_perm_within E hE fr.st nd feat hnd'
  have hcases := find_best_split_cases st1 nd st1.feat_thresh ms { fr.sp with feat_idx := feat }
  have hX : ∀ f idx, feat_val fr.st f idx = feat_val st0 f idx := by
    intro f idx; rw [hfr]; rfl
  have hft : st1.feat_thresh = st0.feat_thresh := by rw [hst1, hfr]; rfl
  have hsm : valid_sort_method fr.st ↔ valid_sort_method st0 := by rw [hfr]; rfl
  have hbody : feature_loop_body E nd ms j fr =
      { st := (find_best_split st1 nd st1.feat_thresh ms { fr.sp with feat_idx := feat }).1,
        sp := (find_best_split st1 nd st1.feat_thresh ms { fr.sp with feat_idx := feat }).2,
        best_split :=
          if (find_best_split st1 nd st1.feat_thresh ms { fr.sp with feat_idx := feat }).2.score
              < fr.best_split.score then
            fr.best_split.copy
              (find_best_split st1 nd st1.feat_thresh ms { fr.sp with feat_idx := feat }).2
          else fr.best_split } := rfl
  rw [hbody]
  set r := find_best_split st1 nd st1.feat_thresh ms { fr.sp with feat_idx := feat } with hr
  have hr1 : r.1.samples_idx = st1.samples_idx := rfl
  have hr1f : r.1.feature_values = st1.feature_values := rfl
  refine ⟨?_, ?_, ?_, ?_, ?_, ?_⟩
  · refine ⟨st1.samples_idx, st1.feature_values, r.1.count_left_classes,
      r.1.count_right_classes, ?_⟩
    show r.1 = _
    rw [hr, hst1, hfr]
    rfl
  · show perm_within st0.samples_idx r.1.samples_idx _ _
    rw [hr1]
    exact perm_within_trans h.hperm hp1
  · show r.1.feature_values.length = _
    rw [hr1f, hst1, sort_samples_feature_values_length, h.hfv]
  · show (if r.2.score < fr.best_split.score then fr.best_split.copy r.2
      else fr.best_split).score ≤ nd.score
    split
    · rename_i hlt
      exact le_of_lt (lt_of_lt_of_le hlt h.hscore)
    · exact h.hscore
  · show (if r.2.score < fr.best_split.score then fr.best_split.copy r.2
      else fr.best_split).feat_idx ≠ -1 → _
    split
    · rename_i hlt
      intro _
      rcases hcases.2 with hno | hrec
      · exfalso
        rw [hno.2] at hlt
        exact absurd (lt_of_lt_of_le hlt h.hscore) (lt_irrefl _)
      · exact ⟨hrec.1, hrec.2.1⟩
    · exact h.hbest
  · show 0 < st0.feat_thresh → valid_sort_method st0 →
      (if r.2.score < fr.best_split.score then fr.best_split.copy r.2
        else fr.best_split).feat_idx ≠ -1 → _
    intro hpos hvm
    split
    · rename_i hlt
      intro _
      rcases hcases.2 with hno | hrec
      · exfalso
        rw [hno.2] at hlt
        exact absurd (lt_of_lt_of_le hlt h.hscore) (lt_irrefl _)
      · have hc := recorded_split_count E hE fr.st nd feat hnd' hfv' (hsm.mpr hvm)
          st1.feat_thresh (by rw [hft]; exact hpos) r.2 hrec
        have hfi : r.2.feat_idx = feat := hcases.1
        show (seg r.1.samples_idx nd.start_idx nd.end_idx).countP
          (fun idx => decide (feat_val st0 r.2.feat_idx idx < r.2.threshold)) = _
        rw [hr1, hfi]
        simp only [hX] at hc
        exact hc
    · intro hne
      have := h.hcount hpos hvm hne
      show (seg r.1.samples_idx nd.start_idx nd.end_idx).countP _ = _
      rw [hr1, ← this]
      exact (perm_within_seg hp1 hnd.2.1).countP_eq _

/-- The invariant of the loop over the candidate features holds on its exit. -/
theorem feature_loop_inv (E : externals T) (hE : E.conforms) (st0 : decision_tree T)
    (nd : node T) (ms : T) (hnd : node_in_range st0.samples_idx.length nd)
    (hfv0 : st0.feature_values.length = st0.samples_idx.length) (n : Int)
    (fr : fit_frame T) (h : feat_inv st0 nd fr) :
    feat_inv st0 nd (for_range 0 n (feature_loop_body E nd ms) fr) := by
  by_cases hn : 0 ≤ n
  · exact for_range_ind (fun _ fr => feat_inv st0 nd fr) 0 n _ fr hn h
      (fun i fr' _ _ ih => feature_loop_body_inv E hE st0 nd ms hnd hfv0 i fr' ih)
  · rw [for_range_of_le _ _ _ _ (by omega)]
    exact h

end feature_loop

/-! ## `count_class_occurences` -/

section counting

variable {T : Type} [LinearOrderedField T]

theorem vec_get_vec_fill (v : List Int) (a : Int) (i : Int) (d : Int) (h0 : 0 ≤ i)
    (h1 : i < v.length) : vec_get (vec_fill v a) i d = a := by
  have h2 : i.toNat < (vec_fill v a).length := by simp; omega
  rw [vec_get_eq_getElem _ _ _ h0 h2]
  simp [vec_fill]

/-- The member `count_class_occurences` leaves in entry `c` of the histogram the number of
samples of class `c` in the range, for every `c` within the histogram. -/
theorem count_class_occurences_spec (st : decision_tree T) (class_occ : List Int)
    (a b : Int) (h0 : 0 ≤ a) (h1 : a ≤ b + 1) (hb : b < st.samples_idx.length) :
    (count_class_occurences st class_occ a b).length = class_occ.length
      ∧ ∀ c : Int, 0 ≤ c → c < class_occ.length →
          vec_get (count_class_occurences st class_occ a b) c 0 = class_count st a b c := by
  unfold count_class_occurences
  have key := for_range_ind
    (fun (k : Int) (occ : List Int) => occ.length = class_occ.length
      ∧ ∀ c : Int, 0 ≤ c → c < class_occ.length →
          vec_get occ c 0 = (((seg st.samples_idx a (k - 1)).map st.y).count c : Nat))
    a (b + 1)
    (fun i occ =>
      vec_set occ (st.y (vec_get st.samples_idx i 0))
        (vec_get occ (st.y (vec_get st.samples_idx i 0)) 0 + 1))
    (vec_fill class_occ 0) h1
    ⟨by simp, fun c hc0 hc1 => by
      rw [vec_get_vec_fill _ _ _ _ hc0 hc1, seg_empty _ _ _ (by omega) h0]
      simp⟩
    (fun k occ hk1 hk2 ih => by
      beta_reduce at ih ⊢
      refine ⟨by simp [ih.1], fun c hc0 hc1 => ?_⟩
      have hs : seg st.samples_idx a (k + 1 - 1)
          = seg st.samples_idx a (k - 1) ++ [vec_get st.samples_idx k 0] := by
        have e1 := seg_split st.samples_idx a (k - 1) k h0 (by omega) (by omega)
        have e2 := seg_single st.samples_idx k 0 (by omega) (by omega)
        simp only [sub_add_cancel] at e1
        rw [add_sub_cancel_right, e1, e2]
      rw [hs, List.map_append, List.count_append]
      by_cases hcc : st.y (vec_get st.samples_idx k 0) = c
      · rw [hcc, vec_get_vec_set_eq _ _ _ _ hc0 (by rw [ih.1]; exact hc1), ih.2 c hc0 hc1]
        simp [hcc]
      · rw [vec_get_vec_set_ne _ _ _ _ _ hcc, ih.2 c hc0 hc1]
        have : List.count c [st.y (vec_get st.samples_idx k 0)] = 0 :=
          List.count_eq_zero.mpr (by simpa using Ne.symm hcc)
        simp [this])
  simp only [add_sub_cancel_right] at key
  exact key

end counting

/-! ## `add_node` -/

section adding

variable {T : Type} [LinearOrderedField T]

theorem tree_upd_tree_upd (tree : List (node T)) (i : Int) (f g : node T → node T) :
    tree_upd (tree_upd tree i f) i g = tree_upd tree i (fun nd => g (f nd)) := by
  cases h : tree_at tree i with
  | none =>
    have e : tree_upd tree i f = tree := by simp [tree_upd, h]
    rw [e]
    simp [tree_upd, h]
  | some nd =>
    have h2 := tree_at_tree_upd_eq f h
    have e1 : tree_upd tree i f = tree.set i.toNat (f nd) := by simp [tree_upd, h]
    have e2 : tree_upd tree i (fun nd => g (f nd)) = tree.set i.toNat (g (f nd)) := by
      simp [tree_upd, h]
    have e3 : ∀ t : List (node T), tree_at t i = some (f nd) →
        tree_upd t i g = t.set i.toNat (g (f nd)) := by
      intro t ht
      simp [tree_upd, ht]
    rw [e3 _ h2, e2, e1, List.set_set]

theorem tree_at_grown_tree_old (st : decision_tree T) (k : Int) (nd : node T)
    (h : tree_at st.tree k = some nd) : tree_at (grown_tree st) k = some nd := by
  unfold grown_tree
  split
  · split
    · exact tree_at_vec_resize_old _ _ _ _ (by omega) h
    · exact h
  · exact h

theorem length_grown_tree (st : decision_tree T) (hp : st.predict_proba_opt = true)
    (hN : st.n_nodes ≤ st.tree.length) :
    st.n_nodes < (grown_tree st).length ∧ st.tree.length ≤ (grown_tree st).length := by
  unfold grown_tree
  split
  · simp only [hp, if_true, length_vec_resize]
    push_cast
    omega
  · omega

theorem tree_at_grown_tree_fresh (st : decision_tree T)
    (hfresh : ∀ k, st.n_nodes ≤ k → k < st.tree.length → tree_at st.tree k = some fresh_node)
    (k : Int) (h1 : st.n_nodes ≤ k) (h2 : k < (grown_tree st).length) :
    tree_at (grown_tree st) k = some fresh_node := by
  unfold grown_tree at h2 ⊢
  split
  · split
    · rename_i hfull hp
      simp only [hfull, hp, if_true, length_vec_resize] at h2
      exact tree_at_vec_resize_new _ _ _ _ (by omega) h2
    · rename_i hfull hp
      simp only [hfull, hp, if_true, if_false] at h2
      exact hfresh k h1 (by simpa using h2)
  · rename_i hfull
    simp only [hfull, if_false] at h2
    exact hfresh k h1 h2

end adding

section adding_spec

variable {T : Type} [LinearOrderedField T]

/-- The result of `add_node` on an instance that tracks probabilities, for a parent
within the array. -/
theorem add_node_eq (st : decision_tree T) (p : Int) (is_left : Bool) (score : T)
    (split_idx : Int) (parent : node T) (hproba : st.predict_proba_opt = true)
    (hp : tree_at st.tree p = some parent)
    (hN : st.n_nodes ≤ st.tree.length)
    (hfresh : ∀ k, st.n_nodes ≤ k → k < st.tree.length →
      tree_at st.tree k = some fresh_node) :
    add_node st p is_left score split_idx
      = outcome.done (with_child st p is_left score split_idx parent) := by
  have hlen := length_grown_tree st hproba hN
  have hp' : tree_at (grown_tree st) p = some parent := tree_at_grown_tree_old st p parent hp
  have hn' : tree_at (grown_tree st) st.n_nodes = some fresh_node :=
    tree_at_grown_tree_fresh st hfresh _ (le_refl _) hlen.1
  unfold add_node
  by_cases hfull : (st.tree.length : Int) ≤ st.n_nodes
  · have e1 : (resize_tree st (2 * st.tree.length + 1)).tree = grown_tree st := by
      simp [resize_tree, grown_tree, hfull, hproba]
    have e3 : (resize_tree st (2 * st.tree.length + 1)).n_nodes = st.n_nodes := rfl
    simp only [hfull, hproba, if_true, e1, e3, hp', hn']
    cases is_left <;>
      simp [with_child, resize_tree, child_node, linked_parent, stored_props, grown_props,
        hfull, hproba, count_class_occurences]
  · have e1 : st.tree = grown_tree st := by simp [grown_tree, hfull]
    have hp2 : tree_at st.tree p = some parent := hp
    have hn2 : tree_at st.tree st.n_nodes = some fresh_node := by rw [e1]; exact hn'
    simp only [hfull, if_false, hp2, hn2]
    cases is_left <;>
      simp [with_child, child_node, linked_parent, stored_props, grown_props,
        hfull, hproba, ← e1]

theorem with_child_tree_length (st : decision_tree T) (p : Int) (is_left : Bool) (score : T)
    (split_idx : Int) (parent : node T) :
    (with_child st p is_left score split_idx parent).tree.length = (grown_tree st).length := by
  simp [with_child]

theorem with_child_at_parent (st : decision_tree T) (p : Int) (is_left : Bool) (score : T)
    (split_idx : Int) (parent : node T) (hp : tree_at st.tree p = some parent)
    (hne : p ≠ st.n_nodes) :
    tree_at (with_child st p is_left score split_idx parent).tree p
      = some (linked_parent st parent is_left) := by
  have hp' : tree_at (grown_tree st) p = some parent := tree_at_grown_tree_old st p parent hp
  show tree_at (tree_upd (tree_upd _ _ _) _ _) p = _
  rw [tree_at_tree_upd_ne _ _ (Ne.symm hne), tree_at_tree_upd_eq _ hp']

theorem with_child_at_child (st : decision_tree T) (p : Int) (is_left : Bool) (score : T)
    (split_idx : Int) (parent : node T) (hproba : st.predict_proba_opt = true)
    (hN : st.n_nodes ≤ st.tree.length)
    (hfresh : ∀ k, st.n_nodes ≤ k → k < st.tree.length →
      tree_at st.tree k = some fresh_node)
    (hne : p ≠ st.n_nodes) :
    tree_at (with_child st p is_left score split_idx parent).tree st.n_nodes
      = some (child_node st parent is_left score split_idx) := by
  have hlen := length_grown_tree st hproba hN
  have hn' : tree_at (grown_tree st) st.n_nodes = some fresh_node :=
    tree_at_grown_tree_fresh st hfresh _ (le_refl _) hlen.1
  have hat : tree_at (tree_upd (grown_tree st) p
      (fun _ => linked_parent st parent is_left)) st.n_nodes = some fresh_node := by
    rw [tree_at_tree_upd_ne _ _ hne]; exact hn'
  show tree_at (tree_upd (tree_upd _ _ _) _ _) _ = _
  rw [tree_at_tree_upd_eq _ hat]

theorem with_child_at_other (st : decision_tree T) (p : Int) (is_left : Bool) (score : T)
    (split_idx : Int) (parent : node T) (k : Int) (hk1 : k ≠ p) (hk2 : k ≠ st.n_nodes) :
    tree_at (with_child st p is_left score split_idx parent).tree k
      = tree_at (grown_tree st) k := by
  show tree_at (tree_upd (tree_upd _ _ _) _ _) k = _
  rw [tree_at_tree_upd_ne _ _ (Ne.symm hk2), tree_at_tree_upd_ne _ _ (Ne.symm hk1)]

end adding_spec

/-! ## One iteration of the loop of `fit`, step by step -/

section step

variable {T : Type} [LinearOrderedField T]

theorem enqueue_or_leaf_eq (st : decision_tree T) (child_score : T) (child : node T)
    (h : tree_at st.tree (st.n_nodes - 1) = some child) :
    enqueue_or_leaf st child_score = outcome.done (enqueued st child_score child) := by
  unfold enqueue_or_leaf enqueued
  rw [h]
  simp only
  split <;> rfl

theorem fit_step_eq (E : externals T) (fr : fit_frame T) (nd : node T)
    (h : tree_at fr.st.tree (popped_idx fr) = some nd) :
    fit_step E fr =
      if (after_features E fr nd).best_split.feat_idx ≠ -1 then
        ((((add_node
            (after_partition (after_features E fr nd).st (popped_idx fr) nd
              (after_features E fr nd).best_split)
            (popped_idx fr) false (after_features E fr nd).best_split.right_score
            (after_features E fr nd).best_split.samp_idx).and_then
          (fun st => enqueue_or_leaf st (after_features E fr nd).best_split.right_score)).and_then
          (fun st => add_node st (popped_idx fr) true
            (after_features E fr nd).best_split.left_score
            (after_features E fr nd).best_split.samp_idx)).and_then
          (fun st => enqueue_or_leaf st (after_features E fr nd).best_split.left_score)).and_then
          (fun st => outcome.done { st := st, sp := (after_features E fr nd).sp,
                                    best_split := (after_features E fr nd).best_split })
      else
        outcome.done
          { st := { (after_features E fr nd).st with
                    n_leaves := (after_features E fr nd).st.n_leaves + 1 },
            sp := (after_features E fr nd).sp,
            best_split := (after_features E fr nd).best_split } := by
  unfold fit_step
  have h' : tree_at fr.st.tree (get_next_node_idx fr.st fr.st.build_order).1 = some nd := h
  simp only [h']
  rfl

theorem fit_step_out_of_bounds (E : externals T) (fr : fit_frame T)
    (h : tree_at fr.st.tree (popped_idx fr) = none) :
    fit_step E fr = outcome.out_of_bounds := by
  unfold fit_step
  have h' : tree_at fr.st.tree (get_next_node_idx fr.st fr.st.build_order).1 = none := h
  simp only [h']

/-- What the loop over the features leaves of the instance: everything but the sample
order, the feature values and the left and right histograms. -/
theorem feature_loop_frame (E : externals T) (nd : node T) (ms : T) (n : Int)
    (fr : fit_frame T) :
    ∃ v fv cl cr, (for_range 0 n (feature_loop_body E nd ms) fr).st =
      { fr.st with samples_idx := v, feature_values := fv, count_left_classes := cl,
                   count_right_classes := cr } := by
  by_cases hn : 0 ≤ n
  · exact for_range_ind
      (fun _ (fr' : fit_frame T) => ∃ v fv cl cr, fr'.st =
        { fr.st with samples_idx := v, feature_values := fv, count_left_classes := cl,
                     count_right_classes := cr })
      0 n _ fr hn ⟨_, _, _, _, rfl⟩
      (fun i fr' _ _ ih => by
        obtain ⟨v, fv, cl, cr, e⟩ := ih
        refine ⟨(feature_loop_body E nd ms i fr').st.samples_idx,
          (feature_loop_body E nd ms i fr').st.feature_values,
          (feature_loop_body E nd ms i fr').st.count_left_classes,
          (feature_loop_body E nd ms i fr').st.count_right_classes, ?_⟩
        simp only [feature_loop_body, find_best_split, sort_samples, e])
  · rw [for_range_of_le _ _ _ _ (by omega)]
    exact ⟨_, _, _, _, rfl⟩

/-- The instance after the loop over the features, field by field. -/
theorem after_features_frame (E : externals T) (fr : fit_frame T) (nd : node T) :
    ∃ v fv cl cr fi mt,
      (after_features E fr nd).st =
        { fr.st with
          nodes_to_treat := (get_next_node_idx fr.st fr.st.build_order).2,
          features_idx := fi, mt_engine := mt,
          count_classes := (before_features E fr nd).count_classes,
          samples_idx := v, feature_values := fv, count_left_classes := cl,
          count_right_classes := cr } := by
  obtain ⟨v, fv, cl, cr, e⟩ := feature_loop_frame E nd (nd.score - fr.st.min_improvement)
    (before_features E fr nd).nfeat_split
    { st := before_features E fr nd, sp := fr.sp,
      best_split := { fr.best_split with score := nd.score, feat_idx := -1 } }
  refine ⟨v, fv, cl, cr, (before_features E fr nd).features_idx,
    (before_features E fr nd).mt_engine, ?_⟩
  unfold after_features
  rw [e]
  unfold before_features
  simp only
  split <;> rfl

end step

section split_step

variable {T : Type} [LinearOrderedField T]

@[simp] theorem enqueued_tree (st : decision_tree T) (s : T) (c : node T) :
    (enqueued st s c).tree = st.tree := by
  unfold enqueued; split <;> rfl

@[simp] theorem enqueued_n_nodes (st : decision_tree T) (s : T) (c : node T) :
    (enqueued st s c).n_nodes = st.n_nodes := by
  unfold enqueued; split <;> rfl

@[simp] theorem enqueued_predict_proba_opt (st : decision_tree T) (s : T) (c : node T) :
    (enqueued st s c).predict_proba_opt = st.predict_proba_opt := by
  unfold enqueued; split <;> rfl

@[simp] theorem enqueued_samples_idx (st : decision_tree T) (s : T) (c : node T) :
    (enqueued st s c).samples_idx = st.samples_idx := by
  unfold enqueued; split <;> rfl

@[simp] theorem enqueued_class_props (st : decision_tree T) (s : T) (c : node T) :
    (enqueued st s c).class_props = st.class_props := by
  unfold enqueued; split <;> rfl

@[simp] theorem enqueued_count_classes (st : decision_tree T) (s : T) (c : node T) :
    (enqueued st s c).count_classes = st.count_classes := by
  unfold enqueued; split <;> rfl

@[simp] theorem enqueued_n_class (st : decision_tree T) (s : T) (c : node T) :
    (enqueued st s c).n_class = st.n_class := by
  unfold enqueued; split <;> rfl

@[simp] theorem enqueued_y (st : decision_tree T) (s : T) (c : node T) :
    (enqueued st s c).y = st.y := by
  unfold enqueued; split <;> rfl

theorem after_partition_tree (stA : decision_tree T) (q : Int) (nd : node T) (b : split T) :
    (after_partition stA q nd b).tree = tree_upd stA.tree q (fun _ => split_node nd b) := rfl

theorem array_ok_after_partition (stA : decision_tree T) (q : Int) (nd : node T)
    (b : split T) (h : array_ok stA) (hq : q < stA.n_nodes) :
    array_ok (after_partition stA q nd b) := by
  refine ⟨h.hproba, ?_, ?_⟩
  · show 1 ≤ stA.n_nodes ∧ stA.n_nodes ≤ ((tree_upd stA.tree q _).length : Int)
    rw [length_tree_upd]; exact h.hN
  · intro k hk1 hk2
    show tree_at (tree_upd stA.tree q _) k = _
    have hk2' : k < stA.tree.length := by
      have : (after_partition stA q nd b).tree.length = stA.tree.length := by
        rw [after_partition_tree, length_tree_upd]
      rw [this] at hk2; exact hk2
    have hk1' : stA.n_nodes ≤ k := hk1
    rw [tree_at_tree_upd_ne _ _ (by omega)]
    exact h.hfresh k hk1' hk2'

theorem array_ok_with_child (st : decision_tree T) (p : Int) (is_left : Bool) (score : T)
    (split_idx : Int) (parent : node T) (h : array_ok st) (hp : p < st.n_nodes) :
    array_ok (with_child st p is_left score split_idx parent) := by
  have hlen := length_grown_tree st h.hproba h.hN.2
  refine ⟨h.hproba, ?_, ?_⟩
  · rw [with_child_tree_length]
    show 1 ≤ st.n_nodes + 1 ∧ st.n_nodes + 1 ≤ _
    have := h.hN.1
    omega
  · intro k hk1 hk2
    rw [with_child_tree_length] at hk2
    have hk1' : st.n_nodes + 1 ≤ k := hk1
    rw [with_child_at_other _ _ _ _ _ _ _ (by omega) (by omega)]
    exact tree_at_grown_tree_fresh st h.hfresh k (by omega) hk2

theorem array_ok_enqueued (st : decision_tree T) (s : T) (c : node T) (h : array_ok st) :
    array_ok (enqueued st s c) := by
  refine ⟨by simpa using h.hproba, by simpa using h.hN, ?_⟩
  intro k hk1 hk2
  simp only [enqueued_tree, enqueued_n_nodes] at hk1 hk2 ⊢
  exact h.hfresh k hk1 hk2

/-- An iteration that finds a split ends with `split_state`. -/
theorem fit_step_split (E : externals T) (fr : fit_frame T) (nd : node T)
    (h : tree_at fr.st.tree (popped_idx fr) = some nd) (hok : array_ok fr.st)
    (hq : popped_idx fr < fr.st.n_nodes)
    (hb : (after_features E fr nd).best_split.feat_idx ≠ -1) :
    fit_step E fr = outcome.done
      { st := split_state (after_features E fr nd).st (popped_idx fr) nd
          (after_features E fr nd).best_split,
        sp := (after_features E fr nd).sp,
        best_split := (after_features E fr nd).best_split } := by
  rw [fit_step_eq E fr nd h, if_pos hb]
  obtain ⟨v, fv, cl, cr, fi, mt, hA⟩ := after_features_frame E fr nd
  set stA := (after_features E fr nd).st with hstA
  set b := (after_features E fr nd).best_split with hbdef
  set q := popped_idx fr with hqdef
  have hokA : array_ok stA := by
    rw [hA]
    exact ⟨hok.hproba, hok.hN, hok.hfresh⟩
  have hAt : stA.tree = fr.st.tree := by rw [hA]
  have hAn : stA.n_nodes = fr.st.n_nodes := by rw [hA]
  have hqA : q < stA.n_nodes := by rw [hAn]; exact hq
  have hndA : tree_at stA.tree q = some nd := by rw [hAt]; exact h
  -- the right child
  have hokB := array_ok_after_partition stA q nd b hokA hqA
  have hpB : tree_at (after_partition stA q nd b).tree q = some (split_node nd b) := by
    rw [after_partition_tree]; exact tree_at_tree_upd_eq _ hndA
  have hBn : (after_partition stA q nd b).n_nodes = stA.n_nodes := rfl
  rw [add_node_eq _ q false b.right_score b.samp_idx (split_node nd b) hokB.hproba hpB
    hokB.hN.2 hokB.hfresh]
  simp only [outcome.and_then]
  have hc1 : tree_at (with_child (after_partition stA q nd b) q false b.right_score
      b.samp_idx (split_node nd b)).tree
      ((with_child (after_partition stA q nd b) q false b.right_score b.samp_idx
        (split_node nd b)).n_nodes - 1)
      = some (child_node (after_partition stA q nd b) (split_node nd b) false
          b.right_score b.samp_idx) := by
    have e : (with_child (after_partition stA q nd b) q false b.right_score b.samp_idx
        (split_node nd b)).n_nodes - 1 = (after_partition stA q nd b).n_nodes := by
      show (after_partition stA q nd b).n_nodes + 1 - 1 = _
      omega
    rw [e]
    exact with_child_at_child _ _ _ _ _ _ hokB.hproba hokB.hN.2 hokB.hfresh
      (by rw [hBn]; omega)
  rw [enqueue_or_leaf_eq _ _ _ hc1]
  simp only
  -- the left child
  have hokC1 := array_ok_with_child (after_partition stA q nd b) q false b.right_score
    b.samp_idx (split_node nd b) hokB (by rw [hBn]; exact hqA)
  have hokR : array_ok (right_added stA q nd b) := array_ok_enqueued _ _ _ hokC1
  have hRn : (right_added stA q nd b).n_nodes = stA.n_nodes + 1 := by
    simp only [right_added, enqueued_n_nodes]; rfl
  have hpR : tree_at (right_added stA q nd b).tree q
      = some (linked_parent (after_partition stA q nd b) (split_node nd b) false) := by
    simp only [right_added, enqueued_tree]
    exact with_child_at_parent _ _ _ _ _ _ hpB (by rw [hBn]; omega)
  show (((add_node (right_added stA q nd b) q true b.left_score b.samp_idx).and_then _).and_then
    _) = _
  rw [add_node_eq _ q true b.left_score b.samp_idx _ hokR.hproba hpR hokR.hN.2 hokR.hfresh]
  simp only [outcome.and_then]
  have hc2 : tree_at (with_child (right_added stA q nd b) q true b.left_score b.samp_idx
      (linked_parent (after_partition stA q nd b) (split_node nd b) false)).tree
      ((with_child (right_added stA q nd b) q true b.left_score b.samp_idx
        (linked_parent (after_partition stA q nd b) (split_node nd b) false)).n_nodes - 1)
      = some (child_node (right_added stA q nd b)
          (linked_parent (after_partition stA q nd b) (split_node nd b) false) true
          b.left_score b.samp_idx) := by
    have e : (with_child (right_added stA q nd b) q true b.left_score b.samp_idx
        (linked_parent (after_partition stA q nd b) (split_node nd b) false)).n_nodes - 1
        = (right_added stA q nd b).n_nodes := by
      show (right_added stA q nd b).n_nodes + 1 - 1 = _
      omega
    rw [e]
    exact with_child_at_child _ _ _ _ _ _ hokR.hproba hokR.hN.2 hokR.hfresh
      (by rw [hRn]; omega)
  rw [enqueue_or_leaf_eq _ _ _ hc2]
  rfl

/-- An iteration that finds no split counts the node as a leaf. -/
theorem fit_step_no_split (E : externals T) (fr : fit_frame T) (nd : node T)
    (h : tree_at fr.st.tree (popped_idx fr) = some nd)
    (hb : (after_features E fr nd).best_split.feat_idx = -1) :
    fit_step E fr = outcome.done
      { st := { (after_features E fr nd).st with
                n_leaves := (after_features E fr nd).st.n_leaves + 1 },
        sp := (after_features E fr nd).sp,
        best_split := (after_features E fr nd).best_split } := by
  rw [fit_step_eq E fr nd h, if_neg (by simpa using hb)]

end split_step

section split_facts

variable {T : Type} [LinearOrderedField T]

theorem tree_at_grown_tree_lt (st : decision_tree T) (k : Int) (hk : k < st.tree.length) :
    tree_at (grown_tree st) k = tree_at st.tree k := by
  by_cases h0 : 0 ≤ k
  · obtain ⟨nd, hnd⟩ := tree_at_of_bounds st.tree k h0 hk
    rw [hnd]; exact tree_at_grown_tree_old st k nd hnd
  · simp [tree_at, (by omega : k < 0)]

/-- The queue on exit of `get_next_node_idx`, when the index it returns is within the node
array: the index came off one end of the queue. -/
theorem pop_spec (fr : fit_frame T) (nd : node T) (hne : fr.st.nodes_to_treat ≠ [])
    (h : tree_at fr.st.tree (popped_idx fr) = some nd) :
    fr.st.nodes_to_treat = (get_next_node_idx fr.st fr.st.build_order).2 ++ [popped_idx fr]
      ∨ fr.st.nodes_to_treat
        = popped_idx fr :: (get_next_node_idx fr.st fr.st.build_order).2 := by
  unfold popped_idx at h ⊢
  unfold get_next_node_idx at h ⊢
  by_cases h1 : fr.st.build_order = depth_first
  · left
    simp only [h1, if_true]
    have := List.dropLast_append_getLast hne
    rw [List.getLastD_eq_getLast?, List.getLast?_eq_getLast _ hne]
    simpa using this.symm
  · by_cases h2 : fr.st.build_order = breadth_first
    · right
      rw [if_neg h1, if_pos h2]
      cases hq : fr.st.nodes_to_treat with
      | nil => exact absurd hq hne
      | cons a l => simp
    · simp only [h1, h2, if_false] at h
      simp [tree_at] at h

theorem enqueued_frame (st : decision_tree T) (s : T) (c : node T) :
    ∃ nl queue, enqueued st s c = { st with n_leaves := nl, nodes_to_treat := queue } := by
  unfold enqueued
  split
  · exact ⟨st.n_leaves, _, rfl⟩
  · exact ⟨_, st.nodes_to_treat, rfl⟩

/-- The fields of the instance that an iteration that splits a node may change. -/
theorem split_state_frame (stA : decision_tree T) (q : Int) (nd : node T) (b : split T) :
    ∃ tree depth cc cp nl queue,
      split_state stA q nd b =
        { stA with tree := tree, samples_idx := (after_partition stA q nd b).samples_idx,
                   depth := depth, count_classes := cc, class_props := cp,
                   n_nodes := stA.n_nodes + 2, n_leaves := nl, nodes_to_treat := queue } := by
  obtain ⟨nl1, q1, e1⟩ := enqueued_frame
    (with_child (after_partition stA q nd b) q false b.right_score b.samp_idx
      (split_node nd b))
    b.right_score
    (child_node (after_partition stA q nd b) (split_node nd b) false b.right_score b.samp_idx)
  obtain ⟨nl2, q2, e2⟩ := enqueued_frame
    (with_child (right_added stA q nd b) q true b.left_score b.samp_idx
      (linked_parent (after_partition stA q nd b) (split_node nd b) false))
    b.left_score
    (child_node (right_added stA q nd b)
      (linked_parent (after_partition stA q nd b) (split_node nd b) false) true
      b.left_score b.samp_idx)
  refine ⟨(split_state stA q nd b).tree, (split_state stA q nd b).depth,
    (split_state stA q nd b).count_classes, (split_state stA q nd b).class_props, nl2, q2, ?_⟩
  have e3 : split_state stA q nd b = _ := e2
  have e4 : right_added stA q nd b = _ := e1
  rw [e3]
  simp only [with_child, e4, after_partition, add_assoc]
  norm_num

theorem split_state_n_nodes (stA : decision_tree T) (q : Int) (nd : node T) (b : split T) :
    (split_state stA q nd b).n_nodes = stA.n_nodes + 2 := by
  obtain ⟨_, _, _, _, _, _, e⟩ := split_state_frame stA q nd b
  rw [e]

theorem right_added_n_nodes (stA : decision_tree T) (q : Int) (nd : node T) (b : split T) :
    (right_added stA q nd b).n_nodes = stA.n_nodes + 1 := by
  simp only [right_added, enqueued_n_nodes]; rfl

theorem array_ok_right_added (stA : decision_tree T) (q : Int) (nd : node T) (b : split T)
    (hok : array_ok stA) (hq : q < stA.n_nodes) : array_ok (right_added stA q nd b) :=
  array_ok_enqueued _ _ _
    (array_ok_with_child _ _ _ _ _ _ (array_ok_after_partition stA q nd b hok hq) hq)

theorem array_ok_split_state (stA : decision_tree T) (q : Int) (nd : node T) (b : split T)
    (hok : array_ok stA) (hq : q < stA.n_nodes) : array_ok (split_state stA q nd b) :=
  array_ok_enqueued _ _ _
    (array_ok_with_child _ _ _ _ _ _ (array_ok_right_added stA q nd b hok hq)
      (by rw [right_added_n_nodes]; omega))

theorem right_added_tree_at_parent (stA : decision_tree T) (q : Int) (nd : node T)
    (b : split T) (hnd : tree_at stA.tree q = some nd) (hq : q < stA.n_nodes) :
    tree_at (right_added stA q nd b).tree q
      = some (linked_parent (after_partition stA q nd b) (split_node nd b) false) := by
  have hpB : tree_at (after_partition stA q nd b).tree q = some (split_node nd b) := by
    rw [after_partition_tree]; exact tree_at_tree_upd_eq _ hnd
  simp only [right_added, enqueued_tree]
  exact with_child_at_parent _ _ _ _ _ _ hpB
    (by show q ≠ stA.n_nodes; omega)

theorem split_state_tree_at_parent (stA : decision_tree T) (q : Int) (nd : node T)
    (b : split T) (hnd : tree_at stA.tree q = some nd) (hq : q < stA.n_nodes) :
    tree_at (split_state stA q nd b).tree q = some (parent_after stA nd b) := by
  have hR := right_added_tree_at_parent stA q nd b hnd hq
  simp only [split_state, enqueued_tree]
  rw [with_child_at_parent _ _ _ _ _ _ hR (by rw [right_added_n_nodes]; omega)]
  simp [linked_parent, parent_after, split_node, right_added_n_nodes]
  rfl

theorem split_state_tree_at_right (stA : decision_tree T) (q : Int) (nd : node T)
    (b : split T) (hok : array_ok stA) (hq : q < stA.n_nodes) :
    tree_at (split_state stA q nd b).tree stA.n_nodes = some (right_child stA q nd b) := by
  have hokB := array_ok_after_partition stA q nd b hok hq
  simp only [split_state, enqueued_tree]
  rw [with_child_at_other _ _ _ _ _ _ _ (by omega) (by rw [right_added_n_nodes]; omega)]
  have hlen : stA.n_nodes < (right_added stA q nd b).tree.length := by
    have := (array_ok_right_added stA q nd b hok hq).hN.2
    rw [right_added_n_nodes] at this
    omega
  rw [tree_at_grown_tree_lt _ _ hlen]
  simp only [right_added, enqueued_tree]
  exact with_child_at_child _ _ _ _ _ _ hokB.hproba hokB.hN.2 hokB.hfresh
    (by show q ≠ stA.n_nodes; omega)

theorem split_state_tree_at_left (stA : decision_tree T) (q : Int) (nd : node T)
    (b : split T) (hok : array_ok stA) (hq : q < stA.n_nodes) :
    tree_at (split_state stA q nd b).tree (stA.n_nodes + 1) = some (left_child stA q nd b) := by
  have hokR := array_ok_right_added stA q nd b hok hq
  simp only [split_state, enqueued_tree]
  have := with_child_at_child (right_added stA q nd b) q true b.left_score b.samp_idx
    (linked_parent (after_partition stA q nd b) (split_node nd b) false)
    hokR.hproba hokR.hN.2 hokR.hfresh (by rw [right_added_n_nodes]; omega)
  rw [right_added_n_nodes] at this
  exact this

theorem split_state_tree_at_other (stA : decision_tree T) (q : Int) (nd : node T)
    (b : split T) (hok : array_ok stA) (k : Int) (hk1 : k ≠ q) (hk2 : k < stA.n_nodes) :
    tree_at (split_state stA q nd b).tree k = tree_at stA.tree k := by
  have hN := hok.hN
  simp only [split_state, enqueued_tree]
  rw [with_child_at_other _ _ _ _ _ _ _ hk1 (by rw [right_added_n_nodes]; omega)]
  have hlenB : (after_partition stA q nd b).tree.length = stA.tree.length := by
    rw [after_partition_tree, length_tree_upd]
  have hlenR : stA.tree.length ≤ (right_added stA q nd b).tree.length := by
    simp only [right_added, enqueued_tree, with_child_tree_length]
    have := (length_grown_tree (after_partition stA q nd b) hok.hproba
      (by rw [hlenB]; exact hN.2)).2
    rw [hlenB] at this
    exact this
  rw [tree_at_grown_tree_lt _ _ (by omega)]
  simp only [right_added, enqueued_tree]
  rw [with_child_at_other _ _ _ _ _ _ _ hk1 (by show k ≠ stA.n_nodes; omega)]
  rw [tree_at_grown_tree_lt _ _ (by rw [hlenB]; omega)]
  rw [after_partition_tree, tree_at_tree_upd_ne _ _ (Ne.symm hk1)]

/-- The queue at the end of an iteration that splits a node: the children that may still
be split are appended, the right one first. -/
theorem split_state_queue (stA : decision_tree T) (q : Int) (nd : node T) (b : split T) :
    ∃ l : List Int, (split_state stA q nd b).nodes_to_treat = stA.nodes_to_treat ++ l
      ∧ (∀ x ∈ l, x = stA.n_nodes ∨ x = stA.n_nodes + 1) ∧ l.Nodup := by
  unfold split_state enqueued
  split
  · simp only [right_added, enqueued]
    split
    · refine ⟨[stA.n_nodes, stA.n_nodes + 1], ?_, by simp, by simp⟩
      simp [with_child, after_partition, add_assoc]
      omega
    · refine ⟨[stA.n_nodes + 1], ?_, by simp, by simp⟩
      simp [with_child, after_partition, add_assoc]
      omega
  · simp only [right_added, enqueued]
    split
    · refine ⟨[stA.n_nodes], ?_, by simp, by simp⟩
      simp [with_child, after_partition]
    · refine ⟨[], ?_, by simp, by simp⟩
      simp [with_child, after_partition]

theorem right_child_fields (stA : decision_tree T) (q : Int) (nd : node T) (b : split T) :
    (right_child stA q nd b).start_idx = b.samp_idx + 1
      ∧ (right_child stA q nd b).end_idx = nd.end_idx
      ∧ (right_child stA q nd b).n_samples = nd.end_idx - (b.samp_idx + 1) + 1
      ∧ (right_child stA q nd b).depth = nd.depth + 1
      ∧ (right_child stA q nd b).is_leaf = true
      ∧ (right_child stA q nd b).score = b.right_score :=
  ⟨rfl, rfl, rfl, rfl, rfl, rfl⟩

theorem left_child_fields (stA : decision_tree T) (q : Int) (nd : node T) (b : split T) :
    (left_child stA q nd b).start_idx = nd.start_idx
      ∧ (left_child stA q nd b).end_idx = b.samp_idx
      ∧ (left_child stA q nd b).n_samples = b.samp_idx - nd.start_idx + 1
      ∧ (left_child stA q nd b).depth = nd.depth + 1
      ∧ (left_child stA q nd b).is_leaf = true
      ∧ (left_child stA q nd b).score = b.left_score :=
  ⟨rfl, rfl, rfl, rfl, rfl, rfl⟩

/-- The nodes in use at the end of an iteration that splits the node at `q`: the node at
`q`, its two children, and the other nodes as they were. -/
theorem split_state_nodes (stA : decision_tree T) (q : Int) (nd : node T) (b : split T)
    (hok : array_ok stA) (hnd : tree_at stA.tree q = some nd) (hq : q < stA.n_nodes)
    (k : Int) (kd : node T) (hk : tree_at (split_state stA q nd b).tree k = some kd)
    (hk2 : k < stA.n_nodes + 2) :
    (k = q ∧ kd = parent_after stA nd b)
      ∨ (k = stA.n_nodes ∧ kd = right_child stA q nd b)
      ∨ (k = stA.n_nodes + 1 ∧ kd = left_child stA q nd b)
      ∨ (k ≠ q ∧ k < stA.n_nodes ∧ tree_at stA.tree k = some kd) := by
  by_cases hkq : k = q
  · left
    subst hkq
    rw [split_state_tree_at_parent stA _ nd b hnd hq] at hk
    exact ⟨rfl, (Option.some.inj hk).symm⟩
  · by_cases hkN : k < stA.n_nodes
    · right; right; right
      rw [split_state_tree_at_other stA q nd b hok k hkq hkN] at hk
      exact ⟨hkq, hkN, hk⟩
    · have hk' : k = stA.n_nodes ∨ k = stA.n_nodes + 1 := by omega
      rcases hk' with hk' | hk'
      · right; left
        rw [hk', split_state_tree_at_right stA q nd b hok hq] at hk
        exact ⟨hk', (Option.some.inj hk).symm⟩
      · right; right; left
        rw [hk', split_state_tree_at_left stA q nd b hok hq] at hk
        exact ⟨hk', (Option.some.inj hk).symm⟩

theorem parent_after_fields (stA : decision_tree T) (nd : node T) (b : split T) :
    (parent_after stA nd b).start_idx = nd.start_idx
      ∧ (parent_after stA nd b).end_idx = nd.end_idx
      ∧ (parent_after stA nd b).n_samples = nd.n_samples
      ∧ (parent_after stA nd b).depth = nd.depth
      ∧ (parent_after stA nd b).is_leaf = false
      ∧ (parent_after stA nd b).right_child_idx = stA.n_nodes
      ∧ (parent_after stA nd b).left_child_idx = stA.n_nodes + 1
      ∧ (parent_after stA nd b).feature = b.feat_idx
      ∧ (parent_after stA nd b).x_threshold = b.threshold :=
  ⟨rfl, rfl, rfl, rfl, rfl, rfl, rfl, rfl, rfl⟩

end split_facts

/-! ## The shape of the node array during `fit` -/

section shape

variable {T : Type} [LinearOrderedField T]

/-- An iteration that ends was given a node of the queue, and the queue loses it. -/
theorem popped_of_done (E : externals T) (fr fr' : fit_frame T)
    (hne : fr.st.nodes_to_treat ≠ []) (hs : fit_step E fr = outcome.done fr') :
    ∃ nd, tree_at fr.st.tree (popped_idx fr) = some nd
      ∧ popped_idx fr ∈ fr.st.nodes_to_treat
      ∧ (fr.st.nodes_to_treat
            = (get_next_node_idx fr.st fr.st.build_order).2 ++ [popped_idx fr]
          ∨ fr.st.nodes_to_treat
            = popped_idx fr :: (get_next_node_idx fr.st fr.st.build_order).2) := by
  cases h : tree_at fr.st.tree (popped_idx fr) with
  | none =>
    rw [fit_step_out_of_bounds E fr h] at hs
    exact absurd hs (by simp)
  | some nd =>
    have hp := pop_spec fr nd hne h
    refine ⟨nd, rfl, ?_, hp⟩
    rcases hp with hp | hp <;> rw [hp] <;> simp

theorem mem_rest_of_pop (fr : fit_frame T) (x : Int)
    (hp : fr.st.nodes_to_treat
          = (get_next_node_idx fr.st fr.st.build_order).2 ++ [popped_idx fr]
        ∨ fr.st.nodes_to_treat
          = popped_idx fr :: (get_next_node_idx fr.st fr.st.build_order).2)
    (hx : x ∈ (get_next_node_idx fr.st fr.st.build_order).2) : x ∈ fr.st.nodes_to_treat := by
  rcases hp with hp | hp <;> rw [hp] <;> simp [hx]

/-- The result of an iteration that ends, in its two cases. -/
theorem fit_step_cases (E : externals T) (fr fr' : fit_frame T) (nd : node T)
    (hnd : tree_at fr.st.tree (popped_idx fr) = some nd) (hok : array_ok fr.st)
    (hq : popped_idx fr < fr.st.n_nodes) (hs : fit_step E fr = outcome.done fr') :
    ((after_features E fr nd).best_split.feat_idx = -1
        ∧ fr'.st = { (after_features E fr nd).st with
                     n_leaves := (after_features E fr nd).st.n_leaves + 1 })
      ∨ ((after_features E fr nd).best_split.feat_idx ≠ -1
        ∧ fr'.st = split_state (after_features E fr nd).st (popped_idx fr) nd
            (after_features E fr nd).best_split) := by
  by_cases hb : (after_features E fr nd).best_split.feat_idx = -1
  · left
    rw [fit_step_no_split E fr nd hnd hb] at hs
    refine ⟨hb, ?_⟩
    have := outcome.done.inj hs
    rw [← this]
  · right
    rw [fit_step_split E fr nd hnd hok hq hb] at hs
    refine ⟨hb, ?_⟩
    have := outcome.done.inj hs
    rw [← this]

theorem tree_inv_step (E : externals T) (fr fr' : fit_frame T) (h : tree_inv fr.st)
    (hne : fr.st.nodes_to_treat ≠ []) (hs : fit_step E fr = outcome.done fr') :
    tree_inv fr'.st := by
  obtain ⟨nd, hnd, hmem, hpop⟩ := popped_of_done E fr fr' hne hs
  have hq := h.hqueue _ hmem
  obtain ⟨v, fv, cl, cr, fi, mt, hA⟩ := after_features_frame E fr nd
  have hokA : array_ok (after_features E fr nd).st := by
    rw [hA]; exact ⟨h.ok.hproba, h.ok.hN, h.ok.hfresh⟩
  have hAt : (after_features E fr nd).st.tree = fr.st.tree := by rw [hA]
  have hAn : (after_features E fr nd).st.n_nodes = fr.st.n_nodes := by rw [hA]
  have hAq : (after_features E fr nd).st.nodes_to_treat
      = (get_next_node_idx fr.st fr.st.build_order).2 := by rw [hA]
  rcases fit_step_cases E fr fr' nd hnd h.ok hq hs with ⟨_, e⟩ | ⟨_, e⟩
  · rw [e]
    refine ⟨⟨hokA.hproba, hokA.hN, hokA.hfresh⟩, ?_, ?_⟩
    · intro x hx
      have hx' : x ∈ (after_features E fr nd).st.nodes_to_treat := hx
      rw [hAq] at hx'
      show x < (after_features E fr nd).st.n_nodes
      rw [hAn]
      exact h.hqueue x (mem_rest_of_pop fr x hpop hx')
    · intro k kd hk1 hk2 hk3
      have hk1' : tree_at (after_features E fr nd).st.tree k = some kd := hk1
      have hk2' : k < (after_features E fr nd).st.n_nodes := hk2
      rw [hAt] at hk1'
      rw [hAn] at hk2'
      have := h.hchild k kd hk1' hk2' hk3
      show _ ∧ _ ∧ kd.left_child_idx < (after_features E fr nd).st.n_nodes
      rw [hAn]
      exact this
  · rw [e]
    set stA := (after_features E fr nd).st with hstA
    set b := (after_features E fr nd).best_split with hb
    have hqA : popped_idx fr < stA.n_nodes := by rw [hAn]; exact hq
    have hndA : tree_at stA.tree (popped_idx fr) = some nd := by rw [hAt]; exact hnd
    refine ⟨array_ok_split_state stA _ nd b hokA hqA, ?_, ?_⟩
    · intro x hx
      obtain ⟨l, hl, hl2, _⟩ := split_state_queue stA (popped_idx fr) nd b
      rw [hl, List.mem_append] at hx
      rw [split_state_n_nodes]
      rcases hx with hx | hx
      · rw [hAq] at hx
        have := h.hqueue x (mem_rest_of_pop fr x hpop hx)
        rw [hAn]; omega
      · rcases hl2 x hx with hx | hx <;> omega
    · intro k kd hk1 hk2 hk3
      rw [split_state_n_nodes] at hk2 ⊢
      by_cases hkq : k = popped_idx fr
      · subst hkq
        rw [split_state_tree_at_parent stA _ nd b hndA hqA] at hk1
        have := Option.some.inj hk1
        subst this
        refine ⟨?_, ?_, ?_⟩
        · show popped_idx fr < stA.n_nodes
          exact hqA
        · show stA.n_nodes + 1 = stA.n_nodes + 1
          rfl
        · show stA.n_nodes + 1 < stA.n_nodes + 2
          omega
      · by_cases hkN : k < stA.n_nodes
        · rw [split_state_tree_at_other stA _ nd b hokA k hkq hkN, hAt] at hk1
          have := h.hchild k kd hk1 (by rw [← hAn]; exact hkN) hk3
          rw [hAn]; omega
        · exfalso
          have hk' : k = stA.n_nodes ∨ k = stA.n_nodes + 1 := by omega
          rcases hk' with hk' | hk'
          · rw [hk', split_state_tree_at_right stA _ nd b hokA hqA] at hk1
            have := Option.some.inj hk1
            subst this
            simp [right_child, child_node, fresh_node] at hk3
          · rw [hk', split_state_tree_at_left stA _ nd b hokA hqA] at hk1
            have := Option.some.inj hk1
            subst this
            simp [left_child, child_node, fresh_node] at hk3

/-- A property of the frame that every iteration carries holds when the loop of `fit`
ends, and the queue is then empty. -/
theorem fit_loop_ind (E : externals T) (P : fit_frame T → Prop)
    (hstep : ∀ fr fr', P fr → fr.st.nodes_to_treat ≠ [] →
      fit_step E fr = outcome.done fr' → P fr') :
    ∀ (fuel : Nat) (fr fr' : fit_frame T), P fr → fit_loop E fuel fr = outcome.done fr' →
      P fr' ∧ fr'.st.nodes_to_treat = [] := by
  intro fuel
  induction fuel with
  | zero =>
    intro fr fr' hP hl
    unfold fit_loop at hl
    split at hl
    · rename_i he
      have := outcome.done.inj hl
      subst this
      exact ⟨hP, he⟩
    · exact absurd hl (by simp)
  | succ n ih =>
    intro fr fr' hP hl
    unfold fit_loop at hl
    split at hl
    · rename_i he
      have := outcome.done.inj hl
      subst this
      exact ⟨hP, he⟩
    · rename_i hne
      cases hs : fit_step E fr with
      | done fr1 =>
        rw [hs] at hl
        exact ih fr1 fr' (hstep fr fr1 hP hne hs) hl
      | out_of_bounds => rw [hs] at hl; exact absurd hl (by simp [outcome.and_then])
      | out_of_fuel => rw [hs] at hl; exact absurd hl (by simp [outcome.and_then])

end shape

/-! ## `fit` from its entry to the loop -/

section entry

variable {T : Type} [LinearOrderedField T]

theorem fit_eq (E : externals T) (st0 st1 : decision_tree T)
    (ht : st0.model_trained = false) (ho : read_options st0 = some st1) :
    fit E st0 =
      (init_root (configured E st1)).and_then (fun st =>
        (fit_loop E (2 * (queue_root st).n_obs.toNat + 1)
            { st := queue_root st, sp := E.uninit_split,
              best_split := E.uninit_split }).and_then
          (fun fr =>
            outcome.done (da_status.da_status_success,
              { fr.st with model_trained := true }))) := by
  unfold fit
  simp only [ht, Bool.false_eq_true, if_false, ho]
  rfl

theorem fit_eq_none (E : externals T) (st0 : decision_tree T)
    (ht : st0.model_trained = false) (ho : read_options st0 = none) :
    fit E st0 = outcome.done (da_status.da_status_internal_error, st0) := by
  unfold fit
  simp only [ht, Bool.false_eq_true, if_false, ho]

/-- The options that `fit` works with: those of the registry when they are to be read,
those of the instance otherwise; the rest of the instance is as it was. -/
theorem read_options_frame (st0 st1 : decision_tree T) (ho : read_options st0 = some st1) :
    ∃ pp md me mns mss bo nf sd ft mi pt sm,
      st1 = { st0 with predict_proba_opt := pp, max_depth := md, method := me,
                       min_node_sample := mns, min_split_score := mss, build_order := bo,
                       nfeat_split := nf, seed := sd, feat_thresh := ft,
                       min_improvement := mi, prn_times := pt, sort_method := sm } := by
  unfold read_options at ho
  split at ho
  · split at ho
    · have := Option.some.inj ho
      exact ⟨_, _, _, _, _, _, _, _, _, _, _, _, this.symm⟩
    · exact absurd ho (by simp)
  · have := Option.some.inj ho
    subst this
    exact ⟨_, _, _, _, _, _, _, _, _, _, _, _, rfl⟩

theorem init_samples_frame (E : externals T) (st : decision_tree T) :
    ∃ v mt, init_samples E st = { st with samples_idx := v, mt_engine := mt }
      ∧ v.length = st.samples_idx.length := by
  unfold init_samples
  split
  · exact ⟨_, _, rfl, by simp [vec_iota]⟩
  · split
    · refine ⟨_, _, rfl, ?_⟩
      exact (for_range_ind
        (fun (_ : Int) (acc : List Int × Nat) => acc.1.length = st.samples_idx.length)
        0 st.samples_idx.length _ (st.samples_idx, st.mt_engine) (by omega) rfl
        (fun k acc _ _ ih => by simpa using ih))
    · refine ⟨_, _, rfl, ?_⟩
      by_cases hn : 0 ≤ st.n_obs
      · exact (for_range_ind
          (fun (_ : Int) (v : List Int) => v.length = st.samples_idx.length)
          0 st.n_obs _ st.samples_idx hn rfl
          (fun k acc _ _ ih => by simpa using ih))
      · rw [for_range_of_le _ _ _ _ (by omega)]

theorem select_score_frame (E : externals T) (st : decision_tree T) :
    ∃ sf, select_score E st = { st with score_function := sf } := by
  unfold select_score
  split
  · exact ⟨_, rfl⟩
  · split
    · exact ⟨_, rfl⟩
    · split
      · exact ⟨_, rfl⟩
      · exact ⟨st.score_function, rfl⟩

theorem resolve_nfeat_frame (st : decision_tree T) :
    ∃ nf, resolve_nfeat st = { st with nfeat_split := nf } := by
  unfold resolve_nfeat
  split
  · exact ⟨_, rfl⟩
  · exact ⟨st.nfeat_split, rfl⟩

theorem resolve_seed_frame (E : externals T) (st : decision_tree T) :
    ∃ sd mt, resolve_seed E st = { st with seed := sd, mt_engine := mt } := by
  unfold resolve_seed
  simp only
  split
  · exact ⟨_, _, rfl⟩
  · exact ⟨st.seed, _, rfl⟩

/-- The instance that `fit` hands to the initialisation of the root, field by field. -/
theorem configured_frame (E : externals T) (st : decision_tree T) :
    ∃ sf nf sd mt v,
      configured E st =
        { st with score_function := sf, nfeat_split := nf, seed := sd, mt_engine := mt,
                  samples_idx := v,
                  tree := if st.predict_proba_opt then
                      vec_resize st.tree (2 ^ (min st.max_depth 9).toNat + 1) fresh_node
                    else st.tree,
                  class_props := if st.predict_proba_opt then
                      vec_resize st.class_props
                        ((2 ^ (min st.max_depth 9).toNat + 1) * st.n_class.toNat) 0
                    else st.class_props }
      ∧ v.length = st.samples_idx.length := by
  obtain ⟨sf, e1⟩ := select_score_frame E st
  obtain ⟨nf, e2⟩ := resolve_nfeat_frame (select_score E st)
  obtain ⟨sd, mt, e3⟩ := resolve_seed_frame E (resolve_nfeat (select_score E st))
  obtain ⟨v, mt2, e4, hv⟩ :=
    init_samples_frame E (allocate (resolve_seed E (resolve_nfeat (select_score E st))))
  refine ⟨sf, nf, sd, mt2, v, ?_, ?_⟩
  · unfold configured
    rw [e4, e3, e2, e1]
    unfold allocate
    simp only
    split <;> rfl
  · rw [hv, e3, e2, e1]
    unfold allocate
    simp only
    split <;> rfl

end entry

section root

variable {T : Type} [LinearOrderedField T]

theorem init_root_eq (st : decision_tree T) (nd : node T) (h : tree_at st.tree 0 = some nd) :
    init_root st = outcome.done (rooted st) := by
  unfold init_root
  have h' : tree_at ({ st with n_leaves := 0, n_nodes := 1 } : decision_tree T).tree 0
      = some nd := h
  simp only [h']
  rfl

theorem init_root_out_of_bounds (st : decision_tree T) (h : tree_at st.tree 0 = none) :
    init_root st = outcome.out_of_bounds := by
  unfold init_root
  have h' : tree_at ({ st with n_leaves := 0, n_nodes := 1 } : decision_tree T).tree 0
      = none := h
  simp only [h']

/-- Without probability tracking `fit` never allocates the node array: started without a
tree, it writes the root outside the array. -/
theorem fit_out_of_bounds (E : externals T) (st0 st1 : decision_tree T)
    (ht : st0.model_trained = false) (hn : st0.tree = [])
    (ho : read_options st0 = some st1) (hp : st1.predict_proba_opt = false) :
    fit E st0 = outcome.out_of_bounds := by
  rw [fit_eq E st0 st1 ht ho]
  obtain ⟨sf, nf, sd, mt, v, e, _⟩ := configured_frame E st1
  obtain ⟨pp, md, me, mns, mss, bo, nf', sd', ft, mi, pt, sm, e1⟩ := read_options_frame st0 st1 ho
  have ht1 : st1.tree = [] := by rw [e1]; exact hn
  have : tree_at (configured E st1).tree 0 = none := by
    rw [e]
    simp [hp, ht1, tree_at]
  rw [init_root_out_of_bounds _ this]
  rfl

/-- On entry of the loop of `fit` the node array has the maintained shape. -/
theorem tree_inv_entry (E : externals T) (st1 : decision_tree T) (hn : st1.tree = [])
    (hq : st1.nodes_to_treat = []) (hp : st1.predict_proba_opt = true) :
    init_root (configured E st1) = outcome.done (rooted (configured E st1))
      ∧ tree_inv (queue_root (rooted (configured E st1))) := by
  obtain ⟨sf, nf, sd, mt, v, e, _⟩ := configured_frame E st1
  have hcap : 2 ≤ 2 ^ (min st1.max_depth 9).toNat + 1 := by
    have : 1 ≤ 2 ^ (min st1.max_depth 9).toNat := Nat.one_le_two_pow
    omega
  have htree : (configured E st1).tree
      = List.replicate (2 ^ (min st1.max_depth 9).toNat + 1) fresh_node := by
    rw [e]
    simp [hp, hn, vec_resize]
  have hat : ∀ k : Int, 0 ≤ k → k < (2 ^ (min st1.max_depth 9).toNat + 1 : Nat) →
      tree_at (configured E st1).tree k = some fresh_node := by
    intro k hk0 hk1
    rw [htree]
    unfold tree_at
    have : ¬ k < 0 := by omega
    have h2 : k.toNat < 2 ^ (min st1.max_depth 9).toNat + 1 := by omega
    simp [this, List.get?_eq_getElem?, List.getElem?_replicate, h2]
  have h0 := hat 0 (le_refl _) (by omega)
  refine ⟨init_root_eq _ _ h0, ?_⟩
  have hqr : ∃ queue, queue_root (rooted (configured E st1))
      = { rooted (configured E st1) with nodes_to_treat := queue }
      ∧ ∀ x ∈ queue, x = 0 := by
    unfold queue_root
    split
    · refine ⟨_, rfl, ?_⟩
      intro x hx
      have hq' : (rooted (configured E st1)).nodes_to_treat = [] := by
        show (configured E st1).nodes_to_treat = []
        rw [e]; exact hq
      rw [hq'] at hx
      simpa using hx
    · refine ⟨(rooted (configured E st1)).nodes_to_treat, rfl, ?_⟩
      intro x hx
      have hq' : (rooted (configured E st1)).nodes_to_treat = [] := by
        show (configured E st1).nodes_to_treat = []
        rw [e]; exact hq
      rw [hq'] at hx
      simp at hx
  obtain ⟨queue, eq, hqueue⟩ := hqr
  rw [eq]
  have hlen : (tree_upd (configured E st1).tree 0
      (fun nd => root_node (configured E st1) nd)).length
      = 2 ^ (min st1.max_depth 9).toNat + 1 := by
    rw [length_tree_upd, htree, List.length_replicate]
  refine ⟨⟨?_, ?_, ?_⟩, ?_, ?_⟩
  · show (configured E st1).predict_proba_opt = true
    rw [e]; exact hp
  · show (1 : Int) ≤ 1 ∧ (1 : Int) ≤ ((tree_upd (configured E st1).tree 0 _).length : Int)
    rw [hlen]
    constructor
    · exact le_refl _
    · exact_mod_cast (by omega : 1 ≤ 2 ^ (min st1.max_depth 9).toNat + 1)
  · intro k hk1 hk2
    have hk1' : (1 : Int) ≤ k := hk1
    have hk2' : k < ((tree_upd (configured E st1).tree 0
      (fun nd => root_node (configured E st1) nd)).length : Int) := hk2
    rw [hlen] at hk2'
    show tree_at (tree_upd (configured E st1).tree 0 _) k = _
    rw [tree_at_tree_upd_ne _ _ (by omega)]
    exact hat k (by omega) hk2'
  · intro x hx
    have := hqueue x hx
    subst this
    show (0 : Int) < 1
    omega
  · intro k kd hk1 hk2 hk3
    exfalso
    have hk2' : k < 1 := hk2
    have hk0 := (tree_at_bounds hk1).1
    have hk : k = 0 := by omega
    subst hk
    have hk1' : tree_at (tree_upd (configured E st1).tree 0
      (fun nd => root_node (configured E st1) nd)) 0 = some kd := hk1
    rw [tree_at_tree_upd_eq _ h0] at hk1'
    have := Option.some.inj hk1'
    subst this
    simp [root_node, fresh_node] at hk3

/-- A successful `fit` of an instance that is ready: the options are read, probability
tracking is on, and the loop ends from the frame with the root initialised. -/
theorem fit_done_unfold (E : externals T) (st0 st : decision_tree T) (s : da_status)
    (hr : fit_ready st0) (hf : fit E st0 = outcome.done (s, st))
    (hs : s = da_status.da_status_success) :
    ∃ st1 fr, read_options st0 = some st1 ∧ st1.predict_proba_opt = true
      ∧ fit_loop E (2 * (queue_root (rooted (configured E st1))).n_obs.toNat + 1)
          { st := queue_root (rooted (configured E st1)), sp := E.uninit_split,
            best_split := E.uninit_split } = outcome.done fr
      ∧ st = { fr.st with model_trained := true } := by
  cases ho : read_options st0 with
  | none =>
    rw [fit_eq_none E st0 hr.untrained ho] at hf
    have := outcome.done.inj hf
    rw [hs] at this
    have h2 : da_status.da_status_internal_error = da_status.da_status_success :=
      congrArg Prod.fst this
    exact absurd h2 (by decide)
  | some st1 =>
    obtain ⟨pp, md, me, mns, mss, bo, nf', sd', ft, mi, pt, sm, e1⟩ :=
      read_options_frame st0 st1 ho
    have ht1 : st1.tree = [] := by rw [e1]; exact hr.no_tree
    have hq1 : st1.nodes_to_treat = [] := by rw [e1]; exact hr.no_queue
    cases hp : st1.predict_proba_opt with
    | false =>
      rw [fit_out_of_bounds E st0 st1 hr.untrained hr.no_tree ho hp] at hf
      exact absurd hf (by simp)
    | true =>
      obtain ⟨hroot, _⟩ := tree_inv_entry E st1 ht1 hq1 hp
      rw [fit_eq E st0 st1 hr.untrained ho, hroot] at hf
      simp only [outcome.and_then] at hf
      cases hl : fit_loop E (2 * (queue_root (rooted (configured E st1))).n_obs.toNat + 1)
          { st := queue_root (rooted (configured E st1)), sp := E.uninit_split,
            best_split := E.uninit_split } with
      | done fr =>
        rw [hl] at hf
        have := outcome.done.inj hf
        exact ⟨st1, fr, rfl, hp, hl, (congrArg Prod.snd this).symm⟩
      | out_of_bounds => rw [hl] at hf; exact absurd hf (by simp)
      | out_of_fuel => rw [hl] at hf; exact absurd hf (by simp)

/-- The node array of a fitted tree has the maintained shape, and the queue is empty. -/
theorem fit_tree_inv (E : externals T) (st0 st : decision_tree T)
    (hr : fit_ready st0) (hf : fit E st0 = outcome.done (da_status.da_status_success, st)) :
    tree_inv st ∧ st.nodes_to_treat = [] ∧ st.model_trained = true := by
  obtain ⟨st1, fr, ho, hp, hl, e⟩ := fit_done_unfold E st0 st _ hr hf rfl
  obtain ⟨pp, md, me, mns, mss, bo, nf', sd', ft, mi, pt, sm, e1⟩ :=
    read_options_frame st0 st1 ho
  have ht1 : st1.tree = [] := by rw [e1]; exact hr.no_tree
  have hq1 : st1.nodes_to_treat = [] := by rw [e1]; exact hr.no_queue
  obtain ⟨_, hinv⟩ := tree_inv_entry E st1 ht1 hq1 hp
  have := fit_loop_ind E (fun fr => tree_inv fr.st)
    (fun fr fr' h hne hs => tree_inv_step E fr fr' h hne hs) _ _ fr hinv hl
  rw [e]
  exact ⟨⟨⟨this.1.ok.hproba, this.1.ok.hN, this.1.ok.hfresh⟩, this.1.hqueue, this.1.hchild⟩,
    this.2, rfl⟩

end root

/-! ## The descent of the predictors -/

section descent

variable {T : Type} [LinearOrderedField T]

theorem reaches_unique (tree : List (node T)) (X_test : Int → T) (ldx_test i : Int)
    (k l1 l2 : Int) (h1 : reaches tree X_test ldx_test i k l1)
    (h2 : reaches tree X_test ldx_test i k l2) : l1 = l2 := by
  induction h1 with
  | at_leaf k nd h hl =>
    cases h2 with
    | at_leaf _ _ _ _ => rfl
    | go_left _ _ nd' h' hl' _ _ =>
      rw [h] at h'; cases h'; rw [hl] at hl'; exact absurd hl' (by simp)
    | go_right _ _ nd' h' hl' _ _ =>
      rw [h] at h'; cases h'; rw [hl] at hl'; exact absurd hl' (by simp)
  | go_left k leaf nd h hl hlt hr ih =>
    cases h2 with
    | at_leaf _ nd' h' hl' =>
      rw [h] at h'; cases h'; rw [hl] at hl'; exact absurd hl' (by simp)
    | go_left _ _ nd' h' hl' hlt' hr' =>
      rw [h] at h'; cases h'; exact ih hr'
    | go_right _ _ nd' h' hl' hge' hr' =>
      rw [h] at h'; cases h'; exact absurd hlt hge'
  | go_right k leaf nd h hl hge hr ih =>
    cases h2 with
    | at_leaf _ nd' h' hl' =>
      rw [h] at h'; cases h'; rw [hl] at hl'; exact absurd hl' (by simp)
    | go_left _ _ nd' h' hl' hlt' hr' =>
      rw [h] at h'; cases h'; exact absurd hlt' hge
    | go_right _ _ nd' h' hl' hge' hr' =>
      rw [h] at h'; cases h'; exact ih hr'

/-- On a node array of the maintained shape the descent ends at a leaf in use, the one that
the specification describes, provided the fuel covers the nodes after the start. -/
theorem descend_spec (st : decision_tree T) (h : tree_inv st) (X_test : Int → T)
    (ldx_test i : Int) :
    ∀ (fuel : Nat) (idx : Int), 0 ≤ idx → idx < st.n_nodes →
      (st.n_nodes - 1 - idx).toNat ≤ fuel →
      ∃ leaf nd, descend st.tree X_test ldx_test i fuel idx = outcome.done leaf
        ∧ reaches st.tree X_test ldx_test i idx leaf
        ∧ tree_at st.tree leaf = some nd ∧ nd.is_leaf = true
        ∧ idx ≤ leaf ∧ leaf < st.n_nodes := by
  intro fuel
  induction fuel with
  | zero =>
    intro idx h0 h1 hf
    obtain ⟨nd, hnd⟩ := tree_at_of_bounds st.tree idx h0 (by have := h.ok.hN.2; omega)
    by_cases hl : nd.is_leaf = true
    · refine ⟨idx, nd, ?_, reaches.at_leaf idx nd hnd hl, hnd, hl, le_refl _, h1⟩
      simp [descend, hnd, hl]
    · exfalso
      have := h.hchild idx nd hnd h1 (by simpa using hl)
      omega
  | succ n ih =>
    intro idx h0 h1 hf
    obtain ⟨nd, hnd⟩ := tree_at_of_bounds st.tree idx h0 (by have := h.ok.hN.2; omega)
    by_cases hl : nd.is_leaf = true
    · refine ⟨idx, nd, ?_, reaches.at_leaf idx nd hnd hl, hnd, hl, le_refl _, h1⟩
      simp [descend, hnd, hl]
    · have hl' : nd.is_leaf = false := by simpa using hl
      have hc := h.hchild idx nd hnd h1 hl'
      by_cases hlt : X_test (ldx_test * nd.feature + i) < nd.x_threshold
      · obtain ⟨leaf, ld, hd, hr, hld, hll, hle, hlt2⟩ :=
          ih nd.left_child_idx (by omega) hc.2.2 (by omega)
        refine ⟨leaf, ld, ?_, reaches.go_left idx leaf nd hnd hl' hlt hr, hld, hll,
          by omega, hlt2⟩
        simp [descend, hnd, hl', hlt, hd]
      · obtain ⟨leaf, ld, hd, hr, hld, hll, hle, hlt2⟩ :=
          ih nd.right_child_idx (by omega) (by omega) (by omega)
        refine ⟨leaf, ld, ?_, reaches.go_right idx leaf nd hnd hl' hlt hr, hld, hll,
          by omega, hlt2⟩
        simp [descend, hnd, hl', hlt, hd]

theorem for_range_run_of_le {σ : Type} (lo hi : Int) (body : Int → σ → outcome σ) (s : σ)
    (h : hi ≤ lo) : for_range_run lo hi body s = outcome.done s := by
  have h0 : (hi - lo).toNat = 0 := by omega
  simp [for_range_run, h0]

/-- Induction over a counted loop whose body may end the run: when every iteration ends
with a value and carries the property, so does the loop. -/
theorem for_range_run_ind {σ : Type} (P : Int → σ → Prop) (lo hi : Int)
    (body : Int → σ → outcome σ) (s : σ) (hle : lo ≤ hi) (h0 : P lo s)
    (hs : ∀ i s, lo ≤ i → i < hi → P i s → ∃ s', body i s = outcome.done s' ∧ P (i + 1) s') :
    ∃ s', for_range_run lo hi body s = outcome.done s' ∧ P hi s' := by
  have key : ∀ n : Nat, lo + (n : Int) ≤ hi →
      ∃ s', (List.range n).foldl
          (fun acc (k : Nat) => outcome.and_then acc (body (lo + (k : Int)))) (outcome.done s)
            = outcome.done s' ∧ P (lo + (n : Int)) s' := by
    intro n
    induction n with
    | zero => intro _; exact ⟨s, rfl, by simpa using h0⟩
    | succ n ih =>
      intro hn
      obtain ⟨s1, e1, p1⟩ := ih (by push_cast at hn; omega)
      obtain ⟨s2, e2, p2⟩ := hs _ s1 (by omega) (by push_cast at hn; omega) p1
      refine ⟨s2, ?_, by simpa [add_assoc] using p2⟩
      rw [List.range_succ, List.foldl_append]
      simp only [List.foldl_cons, List.foldl_nil]
      rw [e1]
      exact e2
  have hn : lo + (((hi - lo).toNat : Nat) : Int) = hi := by omega
  have := key (hi - lo).toNat (by omega)
  rw [hn] at this
  exact this

theorem descend_root (st : decision_tree T) (h : tree_inv st) (X_test : Int → T)
    (ldx_test i : Int) :
    ∃ nd, descend st.tree X_test ldx_test i st.tree.length 0
        = outcome.done (leaf_of st X_test ldx_test i)
      ∧ reaches st.tree X_test ldx_test i 0 (leaf_of st X_test ldx_test i)
      ∧ tree_at st.tree (leaf_of st X_test ldx_test i) = some nd ∧ nd.is_leaf = true
      ∧ leaf_of st X_test ldx_test i < st.n_nodes
      ∧ label_of st X_test ldx_test i = nd.y_pred := by
  have hN := h.ok.hN
  obtain ⟨leaf, nd, hd, hr, hnd, hl, _, hlt⟩ :=
    descend_spec st h X_test ldx_test i st.tree.length 0 (le_refl _) (by omega) (by omega)
  have e : leaf_of st X_test ldx_test i = leaf := by simp [leaf_of, hd]
  refine ⟨nd, by rw [e]; exact hd, by rw [e]; exact hr, by rw [e]; exact hnd, hl,
    by rw [e]; exact hlt, ?_⟩
  simp [label_of, e, hnd]

end descent

/-! ## Ranges that are nested or disjoint -/

section laminar

variable {T : Type} [LinearOrderedField T]

/-- A rearrangement within `a..b` rearranges every range that holds `a..b` and leaves
every range apart from it as it was. -/
theorem seg_perm_of_in_or_out {v w : List Int} {a b c d : Int} (h : perm_within v w a b)
    (hab : a ≤ b + 1) (h0 : 0 ≤ c) (hio : in_or_out a b c d) :
    (seg w c d).Perm (seg v c d) := by
  rcases hio with ⟨h1, h2⟩ | h1
  · exact perm_within_seg_super h h1 h2 hab
  · rw [perm_within_seg_disjoint h h0 (by omega)]

theorem forall_range_of_in_or_out {v w : List Int} {a b c d : Int} (P : Int → Prop)
    (h : perm_within v w a b) (hab : a ≤ b + 1) (h0 : 0 ≤ c) (hd : d < v.length)
    (hio : in_or_out a b c d)
    (hP : ∀ i, c ≤ i → i ≤ d → P (vec_get v i 0)) :
    ∀ i, c ≤ i → i ≤ d → P (vec_get w i 0) := by
  intro i hi1 hi2
  have hlen := perm_within_length h
  have hp := seg_perm_of_in_or_out h hab h0 hio
  have hm : vec_get w i 0 ∈ seg w c d :=
    vec_get_mem_seg w c d i 0 h0 hi1 hi2 (by rw [hlen]; exact hd)
  have hm2 := hp.mem_iff.mp hm
  obtain ⟨i', h1, h2, e⟩ := (mem_seg_iff v c d 0 _ h0 hd).mp hm2
  rw [← e]
  exact hP i' h1 h2

theorem class_count_of_in_or_out (st st' : decision_tree T) {a b c d : Int}
    (hy : st'.y = st.y) (h : perm_within st.samples_idx st'.samples_idx a b)
    (hab : a ≤ b + 1) (h0 : 0 ≤ c) (hio : in_or_out a b c d) (j : Int) :
    class_count st' c d j = class_count st c d j := by
  unfold class_count
  rw [hy]
  exact ((seg_perm_of_in_or_out h hab h0 hio).map st.y).count_eq j

end laminar

/-! ## The stored class proportions -/

section proportions

variable {T : Type} [LinearOrderedField T]

theorem vec_get_vec_resize_old {α : Type} (v : List α) (n : Nat) (d e : α) (i : Int)
    (hi : i < v.length) (hn : v.length ≤ n) :
    vec_get (vec_resize v n d) i e = vec_get v i e := by
  unfold vec_get
  by_cases h0 : i < 0
  · simp [h0]
  · have h1 : i.toNat < v.length := by omega
    simp [h0, vec_resize, List.take_of_length_le hn, List.getD_eq_getElem?_getD,
      List.getElem?_append_left h1]

theorem length_grown_props (st : decision_tree T)
    (h : st.class_props.length = st.tree.length * st.n_class.toNat)
    (hp : st.predict_proba_opt = true) :
    (grown_props st).length = (grown_tree st).length * st.n_class.toNat := by
  unfold grown_props grown_tree
  split
  · simp [hp]
  · exact h

theorem vec_get_grown_props (st : decision_tree T) (i : Int)
    (h : st.class_props.length = st.tree.length * st.n_class.toNat)
    (hi : i < st.class_props.length) :
    vec_get (grown_props st) i 0 = vec_get st.class_props i 0 := by
  unfold grown_props
  split
  · split
    · apply vec_get_vec_resize_old _ _ _ _ _ hi
      rw [h]
      apply Nat.mul_le_mul_right
      omega
    · rfl
  · rfl

/-- Two entries of `class_props` coincide only for the same node and the same class. -/
theorem props_index_inj (c n k i j : Int) (hi0 : 0 ≤ i) (hi : i < c) (hj0 : 0 ≤ j) (hj : j < c)
    (h : n * c + i = c * k + j) : n = k ∧ i = j := by
  have hc : 0 < c := by omega
  have e1 : (n * c + i) / c = n := by
    rw [Int.add_comm, Int.add_mul_ediv_right _ _ (by omega), Int.ediv_eq_zero_of_lt hi0 hi]
    simp
  have e2 : (c * k + j) / c = k := by
    rw [Int.add_comm, Int.mul_comm, Int.add_mul_ediv_right _ _ (by omega),
      Int.ediv_eq_zero_of_lt hj0 hj]
    simp
  have hnk : n = k := by rw [← e1, ← e2, h]
  subst hnk
  refine ⟨rfl, ?_⟩
  have : n * c = c * n := Int.mul_comm _ _
  omega

theorem length_stored_props (st : decision_tree T) (a b : Int) :
    (stored_props st a b).length = (grown_props st).length := by
  unfold stored_props
  by_cases hn : 0 ≤ st.n_class
  · exact for_range_ind (fun _ (cp : List T) => cp.length = (grown_props st).length)
      0 st.n_class _ (grown_props st) hn rfl (fun k cp _ _ ih => by simp [ih])
  · rw [for_range_of_le _ _ _ _ (by omega)]

/-- What the loop of `add_node` over the classes leaves in `class_props`: the proportions
of the new node in its entries, the other entries as they were. -/
theorem vec_get_stored_props (st : decision_tree T) (a b : Int) :
    (∀ j, 0 ≤ j → j < st.n_class →
        st.n_nodes * st.n_class + j < (grown_props st).length → 0 ≤ st.n_nodes →
        vec_get (stored_props st a b) (st.n_nodes * st.n_class + j) 0
          = ((vec_get (count_class_occurences st st.count_classes a b) j 0 : Int) : T)
            / ((b - a + 1 : Int) : T))
      ∧ (∀ idx, (idx < st.n_nodes * st.n_class ∨ st.n_nodes * st.n_class + st.n_class ≤ idx) →
          vec_get (stored_props st a b) idx 0 = vec_get (grown_props st) idx 0) := by
  unfold stored_props
  by_cases hn : 0 ≤ st.n_class
  · have key := for_range_ind
      (fun (k : Int) (cp : List T) => cp.length = (grown_props st).length
        ∧ (∀ j, 0 ≤ j → j < k →
            st.n_nodes * st.n_class + j < (grown_props st).length → 0 ≤ st.n_nodes →
            vec_get cp (st.n_nodes * st.n_class + j) 0
              = ((vec_get (count_class_occurences st st.count_classes a b) j 0 : Int) : T)
                / ((b - a + 1 : Int) : T))
        ∧ (∀ idx, (idx < st.n_nodes * st.n_class
              ∨ st.n_nodes * st.n_class + st.n_class ≤ idx) →
            vec_get cp idx 0 = vec_get (grown_props st) idx 0))
      0 st.n_class
      (fun i cp => vec_set cp (st.n_nodes * st.n_class + i)
        (((vec_get (count_class_occurences st st.count_classes a b) i 0 : Int) : T)
          / ((b - a + 1 : Int) : T)))
      (grown_props st) hn ⟨rfl, fun j h0 h1 => by omega, fun idx _ => rfl⟩
      (fun k cp hk0 hk1 ih => by
        refine ⟨by simp [ih.1], ?_, ?_⟩
        · intro j hj0 hj1 hjlen hN
          by_cases hjk : j = k
          · subst hjk
            have hnn : 0 ≤ st.n_nodes * st.n_class := mul_nonneg hN hn
            rw [vec_get_vec_set_eq _ _ _ _ (by omega) (by rw [ih.1]; exact hjlen)]
          · rw [vec_get_vec_set_ne _ _ _ _ _ (by omega)]
            exact ih.2.1 j hj0 (by omega) hjlen hN
        · intro idx hidx
          rw [vec_get_vec_set_ne _ _ _ _ _ (by omega)]
          exact ih.2.2 idx hidx)
    exact ⟨key.2.1, key.2.2⟩
  · rw [for_range_of_le _ _ _ _ (by omega)]
    exact ⟨fun j h0 h1 => by omega, fun idx _ => rfl⟩

end proportions

/-! ## The ranges of the nodes during `fit` -/

section ranges

variable {T : Type} [LinearOrderedField T]

theorem length_count_class_occurences (st : decision_tree T) (class_occ : List Int)
    (a b : Int) : (count_class_occurences st class_occ a b).length = class_occ.length := by
  unfold count_class_occurences
  by_cases h : a ≤ b + 1
  · exact for_range_ind (fun _ (occ : List Int) => occ.length = class_occ.length)
      a (b + 1) _ (vec_fill class_occ 0) h (by simp) (fun k occ _ _ ih => by simp [ih])
  · rw [for_range_of_le _ _ _ _ (by omega)]
    simp

theorem before_features_frame (E : externals T) (fr : fit_frame T) (nd : node T) :
    ∃ fi mt cc, before_features E fr nd =
        { fr.st with nodes_to_treat := (get_next_node_idx fr.st fr.st.build_order).2,
                     features_idx := fi, mt_engine := mt, count_classes := cc }
      ∧ cc.length = fr.st.count_classes.length := by
  unfold before_features
  simp only
  split
  · exact ⟨_, _, _, rfl, length_count_class_occurences _ _ _ _⟩
  · exact ⟨fr.st.features_idx, fr.st.mt_engine, _, rfl, length_count_class_occurences _ _ _ _⟩

/-- The loop over the candidate features of the node taken from the queue keeps its
invariant, from the instance on its entry to the frame on its exit. -/
theorem after_features_inv (E : externals T) (hE : E.conforms) (fr : fit_frame T)
    (nd : node T) (hnd : node_in_range fr.st.samples_idx.length nd)
    (hfv : fr.st.feature_values.length = fr.st.samples_idx.length) :
    feat_inv (before_features E fr nd) nd (after_features E fr nd) := by
  obtain ⟨fi, mt, cc, e, _⟩ := before_features_frame E fr nd
  have hs : (before_features E fr nd).samples_idx = fr.st.samples_idx := by rw [e]
  have hf : (before_features E fr nd).feature_values = fr.st.feature_values := by rw [e]
  unfold after_features
  apply feature_loop_inv E hE (before_features E fr nd) nd _ (by rw [hs]; exact hnd)
    (by rw [hs, hf]; exact hfv)
  exact ⟨⟨_, _, _, _, rfl⟩, perm_within_refl _ _ _, rfl, le_refl _,
    fun h => absurd rfl h, fun _ _ h => absurd rfl h⟩

/-- The queue without the node taken from it. -/
theorem rest_of_pop (fr : fit_frame T)
    (hp : fr.st.nodes_to_treat
          = (get_next_node_idx fr.st fr.st.build_order).2 ++ [popped_idx fr]
        ∨ fr.st.nodes_to_treat
          = popped_idx fr :: (get_next_node_idx fr.st fr.st.build_order).2)
    (hnd : fr.st.nodes_to_treat.Nodup) :
    (get_next_node_idx fr.st fr.st.build_order).2.Nodup
      ∧ popped_idx fr ∉ (get_next_node_idx fr.st fr.st.build_order).2 := by
  rcases hp with hp | hp
  · rw [hp] at hnd
    have := List.nodup_append.mp hnd
    refine ⟨this.1, fun hx => ?_⟩
    exact this.2.2 hx (by simp)
  · rw [hp] at hnd
    have := List.nodup_cons.mp hnd
    exact ⟨this.2, this.1⟩

/-- An iteration that finds no split keeps the ranges of the nodes. -/
theorem range_inv_no_split (E : externals T) (hE : E.conforms) (fr : fit_frame T)
    (nd : node T) (hti : tree_inv fr.st) (h : range_inv fr.st)
    (hnd : tree_at fr.st.tree (popped_idx fr) = some nd)
    (hpop : fr.st.nodes_to_treat
          = (get_next_node_idx fr.st fr.st.build_order).2 ++ [popped_idx fr]
        ∨ fr.st.nodes_to_treat
          = popped_idx fr :: (get_next_node_idx fr.st fr.st.build_order).2) :
    range_inv ({ (after_features E fr nd).st with
      n_leaves := (after_features E fr nd).st.n_leaves + 1 } : decision_tree T) := by
  obtain ⟨v, fv, cl, cr, fi, mt, hA⟩ := after_features_frame E fr nd
  obtain ⟨fi', mt', cc, hB, hcc⟩ := before_features_frame E fr nd
  have hmem : popped_idx fr ∈ fr.st.nodes_to_treat := by
    rcases hpop with hp | hp <;> rw [hp] <;> simp
  have hq := hti.hqueue _ hmem
  have hrange := h.hnode _ nd hnd hq
  have hfi := after_features_inv E hE fr nd hrange h.hfv
  have hBs : (before_features E fr nd).samples_idx = fr.st.samples_idx := by rw [hB]
  have hBf : (before_features E fr nd).feature_values = fr.st.feature_values := by rw [hB]
  have hBc : (before_features E fr nd).count_classes = cc := by rw [hB]
  have hperm : perm_within fr.st.samples_idx (after_features E fr nd).st.samples_idx
      nd.start_idx nd.end_idx := by rw [← hBs]; exact hfi.hperm
  have hlen := perm_within_length hperm
  have hAt : (after_features E fr nd).st.tree = fr.st.tree := by rw [hA]
  have hAn : (after_features E fr nd).st.n_nodes = fr.st.n_nodes := by rw [hA]
  have hAq : (after_features E fr nd).st.nodes_to_treat
      = (get_next_node_idx fr.st fr.st.build_order).2 := by rw [hA]
  have hAc : (after_features E fr nd).st.count_classes = cc := by rw [hA, hBc]
  have hAk : (after_features E fr nd).st.n_class = fr.st.n_class := by rw [hA]
  obtain ⟨hrn, hrq⟩ := rest_of_pop fr hpop h.hnodup
  refine ⟨?_, ?_, ?_, ?_, ?_, ?_, ?_, ?_⟩
  · show (after_features E fr nd).st.feature_values.length
      = (after_features E fr nd).st.samples_idx.length
    rw [hfi.hfv, hBf, hlen]; exact h.hfv
  · show (after_features E fr nd).st.count_classes.length
      = (after_features E fr nd).st.n_class.toNat
    rw [hAc, hAk, hcc]; exact h.hcc
  · intro k kd hk1 hk2
    show node_in_range (after_features E fr nd).st.samples_idx.length kd
    rw [hlen]
    exact h.hnode k kd (by rw [← hAt]; exact hk1) (by rw [← hAn]; exact hk2)
  · intro k kd hk1 hk2 hk3
    show ∃ l r, tree_at (after_features E fr nd).st.tree _ = some l
      ∧ tree_at (after_features E fr nd).st.tree _ = some r ∧ _
    rw [hAt]
    exact h.hkids k kd (by rw [← hAt]; exact hk1) (by rw [← hAn]; exact hk2) hk3
  · intro x hx kd hk
    have hx' : x ∈ (after_features E fr nd).st.nodes_to_treat := hx
    rw [hAq] at hx'
    exact h.hqleaf x (mem_rest_of_pop fr x hpop hx') kd (by rw [← hAt]; exact hk)
  · show (after_features E fr nd).st.nodes_to_treat.Nodup
    rw [hAq]; exact hrn
  · intro x hx x' hx' hne kd kd' hk hk'
    have hx2 : x ∈ (after_features E fr nd).st.nodes_to_treat := hx
    have hx2' : x' ∈ (after_features E fr nd).st.nodes_to_treat := hx'
    rw [hAq] at hx2 hx2'
    exact h.hqdisj x (mem_rest_of_pop fr x hpop hx2) x' (mem_rest_of_pop fr x' hpop hx2') hne
      kd kd' (by rw [← hAt]; exact hk) (by rw [← hAt]; exact hk')
  · intro x hx k hk kdq kd hkq hkd
    have hx2 : x ∈ (after_features E fr nd).st.nodes_to_treat := hx
    rw [hAq] at hx2
    exact h.hlam x (mem_rest_of_pop fr x hpop hx2) k (by rw [← hAn]; exact hk) kdq kd
      (by rw [← hAt]; exact hkq) (by rw [← hAt]; exact hkd)

end ranges

section ranges_split

variable {T : Type} [LinearOrderedField T]

theorem split_state_count_classes_length (stA : decision_tree T) (q : Int) (nd : node T)
    (b : split T) :
    (split_state stA q nd b).count_classes.length = stA.count_classes.length := by
  simp only [split_state, enqueued_count_classes, with_child, right_added,
    length_count_class_occurences, after_partition]

theorem step_facts_of_inv (E : externals T) (hE : E.conforms) (fr : fit_frame T)
    (nd : node T) (hti : tree_inv fr.st) (h : range_inv fr.st)
    (hnd : tree_at fr.st.tree (popped_idx fr) = some nd)
    (hpop : fr.st.nodes_to_treat
          = (get_next_node_idx fr.st fr.st.build_order).2 ++ [popped_idx fr]
        ∨ fr.st.nodes_to_treat
          = popped_idx fr :: (get_next_node_idx fr.st fr.st.build_order).2) :
    step_facts E fr nd := by
  obtain ⟨v, fv, cl, cr, fi, mt, hA⟩ := after_features_frame E fr nd
  obtain ⟨fi', mt', cc, hB, hcc⟩ := before_features_frame E fr nd
  have hmem : popped_idx fr ∈ fr.st.nodes_to_treat := by
    rcases hpop with hp | hp <;> rw [hp] <;> simp
  have hq := hti.hqueue _ hmem
  have hrange := h.hnode _ nd hnd hq
  have hfi := after_features_inv E hE fr nd hrange h.hfv
  have hBs : (before_features E fr nd).samples_idx = fr.st.samples_idx := by rw [hB]
  obtain ⟨hrn, hrq⟩ := rest_of_pop fr hpop h.hnodup
  exact ⟨hq, hmem, hrange, hfi, by rw [← hBs]; exact hfi.hperm, by rw [hA], by rw [hA],
    by rw [hA], by rw [hA]; exact ⟨hti.ok.hproba, hti.ok.hN, hti.ok.hfresh⟩, hrn, hrq⟩

/-- The sample order at the end of an iteration that splits a node is a rearrangement of
the range of the node. -/
theorem split_state_perm (E : externals T) (fr : fit_frame T) (nd : node T)
    (hf : step_facts E fr nd) (hb : (after_features E fr nd).best_split.feat_idx ≠ -1) :
    perm_within (after_features E fr nd).st.samples_idx
        (split_state (after_features E fr nd).st (popped_idx fr) nd
          (after_features E fr nd).best_split).samples_idx nd.start_idx nd.end_idx := by
  obtain ⟨_, _, _, _, _, _, e⟩ := split_state_frame (after_features E fr nd).st
    (popped_idx fr) nd (after_features E fr nd).best_split
  have hs := hf.hfi.hbest hb
  have hlen := perm_within_length hf.hperm
  rw [e]
  show perm_within _ (after_partition _ _ _ _).samples_idx _ _
  have := (partition_samples_spec
    ({ (after_features E fr nd).st with
        tree := tree_upd (after_features E fr nd).st.tree (popped_idx fr)
          (fun _ => split_node nd (after_features E fr nd).best_split) } : decision_tree T)
    (split_node nd (after_features E fr nd).best_split)
    hf.hrange.1 (by show nd.start_idx ≤ nd.end_idx; omega)
    (by show nd.end_idx < ((after_features E fr nd).st.samples_idx.length : Int)
        rw [hlen]; exact hf.hrange.2.2.1)).1
  exact this

/-- The ranges after an iteration that splits the node at `q`, from what is known of the
instance `s0` on its entry and the instance `stA` after the loop over the features. -/
theorem range_inv_split_core (s0 stA : decision_tree T) (q : Int) (nd : node T)
    (b : split T) (hti : tree_inv s0) (h : range_inv s0)
    (hnd : tree_at s0.tree q = some nd) (hq0 : q < s0.n_nodes)
    (hmem : q ∈ s0.nodes_to_treat)
    (hAt : stA.tree = s0.tree) (hAn : stA.n_nodes = s0.n_nodes) (hokA : array_ok stA)
    (hrest : ∀ x ∈ stA.nodes_to_treat, x ≠ q ∧ x < stA.n_nodes ∧ x ∈ s0.nodes_to_treat)
    (hAnodup : stA.nodes_to_treat.Nodup)
    (hAfv : stA.feature_values.length = stA.samples_idx.length)
    (hAcc : stA.count_classes.length = stA.n_class.toNat)
    (hlenA : stA.samples_idx.length = s0.samples_idx.length)
    (hpermB : perm_within stA.samples_idx (split_state stA q nd b).samples_idx
      nd.start_idx nd.end_idx)
    (hs : nd.start_idx ≤ b.samp_idx ∧ b.samp_idx < nd.end_idx) :
    range_inv (split_state stA q nd b) := by
  obtain ⟨r0, r1, r2, r3⟩ := h.hnode q nd hnd hq0
  have hqA : q < stA.n_nodes := by rw [hAn]; exact hq0
  have hndA : tree_at stA.tree q = some nd := by rw [hAt]; exact hnd
  have hlenB : (split_state stA q nd b).samples_idx.length = s0.samples_idx.length := by
    rw [perm_within_length hpermB, hlenA]
  obtain ⟨tr, dp, cc, cp, nl, qu, eS⟩ := split_state_frame stA q nd b
  have hSfv : (split_state stA q nd b).feature_values = stA.feature_values := by rw [eS]
  have hSk : (split_state stA q nd b).n_class = stA.n_class := by rw [eS]
  have hview := split_state_nodes stA q nd b hokA hndA hqA
  obtain ⟨l, hl, hl2, hl3⟩ := split_state_queue stA q nd b
  have hRf := right_child_fields stA q nd b
  have hLf := left_child_fields stA q nd b
  have hPf := parent_after_fields stA nd b
  have hold : ∀ k kd, tree_at stA.tree k = some kd → k < stA.n_nodes →
      node_in_range s0.samples_idx.length kd := by
    intro k kd hk1 hk2
    exact h.hnode k kd (by rw [← hAt]; exact hk1) (by rw [← hAn]; exact hk2)
  refine ⟨?_, ?_, ?_, ?_, ?_, ?_, ?_, ?_⟩
  · rw [hSfv, hlenB, ← hlenA]
    exact hAfv
  · rw [split_state_count_classes_length, hSk]
    exact hAcc
  · intro k kd hk1 hk2
    rw [split_state_n_nodes] at hk2
    rw [hlenB]
    rcases hview k kd hk1 hk2 with ⟨_, e⟩ | ⟨_, e⟩ | ⟨_, e⟩ | ⟨_, hk3, hk4⟩
    · rw [e]; exact ⟨r0, r1, r2, r3⟩
    · rw [e]
      refine ⟨?_, ?_, ?_, ?_⟩ <;> simp only [hRf] <;> omega
    · rw [e]
      refine ⟨?_, ?_, ?_, ?_⟩ <;> simp only [hLf] <;> omega
    · exact hold k kd hk4 hk3
  · intro k kd hk1 hk2 hk3
    rw [split_state_n_nodes] at hk2
    rcases hview k kd hk1 hk2 with ⟨_, e⟩ | ⟨_, e⟩ | ⟨_, e⟩ | ⟨hkq, hk4, hk5⟩
    · rw [e]
      refine ⟨left_child stA q nd b, right_child stA q nd b, ?_, ?_, ?_⟩
      · rw [hPf.2.2.2.2.2.2.1]; exact split_state_tree_at_left stA q nd b hokA hqA
      · rw [hPf.2.2.2.2.2.1]; exact split_state_tree_at_right stA q nd b hokA hqA
      · simp only [hRf, hLf, hPf]
        exact ⟨trivial, trivial, trivial, hs.1, by omega, trivial, trivial⟩
    · rw [e] at hk3; rw [hRf.2.2.2.2.1] at hk3; exact absurd hk3 (by simp)
    · rw [e] at hk3; rw [hLf.2.2.2.2.1] at hk3; exact absurd hk3 (by simp)
    · have hk5' : tree_at s0.tree k = some kd := by rw [← hAt]; exact hk5
      have hk4' : k < s0.n_nodes := by rw [← hAn]; exact hk4
      obtain ⟨l0, r0', hl0, hr0, g⟩ := h.hkids k kd hk5' hk4' hk3
      have hc := hti.hchild k kd hk5' hk4' hk3
      have key : ∀ c c0, tree_at s0.tree c = some c0 → c < s0.n_nodes →
          ∃ c1, tree_at (split_state stA q nd b).tree c = some c1
            ∧ c1.start_idx = c0.start_idx ∧ c1.end_idx = c0.end_idx
            ∧ c1.depth = c0.depth := by
        intro c c0 hc0 hcN
        by_cases hcq : c = q
        · subst hcq
          rw [hnd] at hc0
          have := Option.some.inj hc0
          subst this
          exact ⟨_, split_state_tree_at_parent stA _ nd b hndA hqA, hPf.1, hPf.2.1,
            hPf.2.2.2.1⟩
        · refine ⟨c0, ?_, rfl, rfl, rfl⟩
          rw [split_state_tree_at_other stA q nd b hokA c hcq (by rw [hAn]; exact hcN), hAt]
          exact hc0
      obtain ⟨l1, hl1, e1, e2, e3⟩ := key kd.left_child_idx l0 hl0 hc.2.2
      obtain ⟨r1', hr1, e4, e5, e6⟩ := key kd.right_child_idx r0' hr0 (by omega)
      exact ⟨l1, r1', hl1, hr1, by rw [e1, e2, e4, e5, e3, e6]; exact g⟩
  · intro x hx kd hk
    rw [hl, List.mem_append] at hx
    rcases hx with hx | hx
    · obtain ⟨hxq, hxN, hxo⟩ := hrest x hx
      rw [split_state_tree_at_other stA q nd b hokA x hxq hxN, hAt] at hk
      exact h.hqleaf x hxo kd hk
    · rcases hl2 x hx with e | e
      · rw [e, split_state_tree_at_right stA q nd b hokA hqA] at hk
        rw [← Option.some.inj hk]; exact hRf.2.2.2.2.1
      · rw [e, split_state_tree_at_left stA q nd b hokA hqA] at hk
        rw [← Option.some.inj hk]; exact hLf.2.2.2.2.1
  · rw [hl]
    apply List.nodup_append.mpr
    refine ⟨hAnodup, hl3, ?_⟩
    intro x hx1 hx2
    have := (hrest x hx1).2.1
    rcases hl2 x hx2 with e | e <;> (clear * - this e; omega)
  · intro x hx x' hx' hne kd kd' hk hk'
    rw [hl, List.mem_append] at hx hx'
    have hdq : ∀ y ∈ stA.nodes_to_treat, ∀ yd, tree_at (split_state stA q nd b).tree y = some yd →
        tree_at s0.tree y = some yd
          ∧ (yd.end_idx < nd.start_idx ∨ nd.end_idx < yd.start_idx) := by
      intro y hy yd hyd
      obtain ⟨hyq, hyN, hyo⟩ := hrest y hy
      rw [split_state_tree_at_other stA q nd b hokA y hyq hyN, hAt] at hyd
      exact ⟨hyd, h.hqdisj y hyo q hmem hyq yd nd hyd hnd⟩
    have hch : ∀ y ∈ l, ∀ yd, tree_at (split_state stA q nd b).tree y = some yd →
        (y = stA.n_nodes ∧ yd.start_idx = b.samp_idx + 1 ∧ yd.end_idx = nd.end_idx)
          ∨ (y = stA.n_nodes + 1 ∧ yd.start_idx = nd.start_idx
              ∧ yd.end_idx = b.samp_idx) := by
      intro y hy yd hyd
      rcases hl2 y hy with e | e
      · left
        rw [e, split_state_tree_at_right stA q nd b hokA hqA] at hyd
        rw [← Option.some.inj hyd]
        exact ⟨e, hRf.1, hRf.2.1⟩
      · right
        rw [e, split_state_tree_at_left stA q nd b hokA hqA] at hyd
        rw [← Option.some.inj hyd]
        exact ⟨e, hLf.1, hLf.2.1⟩
    rcases hx with hx | hx <;> rcases hx' with hx' | hx'
    · obtain ⟨h1, _⟩ := hdq x hx kd hk
      obtain ⟨h2, _⟩ := hdq x' hx' kd' hk'
      exact h.hqdisj x (hrest x hx).2.2 x' (hrest x' hx').2.2 hne kd kd' h1 h2
    · obtain ⟨_, h1⟩ := hdq x hx kd hk
      rcases hch x' hx' kd' hk' with ⟨_, e1, e2⟩ | ⟨_, e1, e2⟩ <;>
        (clear * - h1 e1 e2 hs; omega)
    · obtain ⟨_, h1⟩ := hdq x' hx' kd' hk'
      rcases hch x hx kd hk with ⟨_, e1, e2⟩ | ⟨_, e1, e2⟩ <;>
        (clear * - h1 e1 e2 hs; omega)
    · rcases hch x hx kd hk with ⟨e0, e1, e2⟩ | ⟨e0, e1, e2⟩ <;>
        rcases hch x' hx' kd' hk' with ⟨e0', e1', e2'⟩ | ⟨e0', e1', e2'⟩ <;>
        (clear * - e0 e1 e2 e0' e1' e2' hne hs; omega)
  · intro x hx k hk kdq kd hkq hkd
    rw [split_state_n_nodes] at hk
    rw [hl, List.mem_append] at hx
    unfold in_or_out
    have hkv := hview k kd hkd hk
    rcases hx with hx | hx
    · obtain ⟨hxq, hxN, hxo⟩ := hrest x hx
      rw [split_state_tree_at_other stA q nd b hokA x hxq hxN, hAt] at hkq
      have hdis := h.hqdisj x hxo q hmem hxq kdq nd hkq hnd
      rcases hkv with ⟨_, e⟩ | ⟨_, e⟩ | ⟨_, e⟩ | ⟨_, hk3, hk4⟩
      · rw [e]; simp only [hPf]; clear * - hdis hs; omega
      · rw [e]; simp only [hRf]; clear * - hdis hs; omega
      · rw [e]; simp only [hLf]; clear * - hdis hs; omega
      · have := h.hlam x hxo k (by rw [← hAn]; exact hk3) kdq kd hkq
          (by rw [← hAt]; exact hk4)
        unfold in_or_out at this
        exact this
    · have hxr : (kdq.start_idx = b.samp_idx + 1 ∧ kdq.end_idx = nd.end_idx
            ∧ x = stA.n_nodes)
          ∨ (kdq.start_idx = nd.start_idx ∧ kdq.end_idx = b.samp_idx
            ∧ x = stA.n_nodes + 1) := by
        rcases hl2 x hx with e | e
        · left
          rw [e, split_state_tree_at_right stA q nd b hokA hqA] at hkq
          rw [← Option.some.inj hkq]
          exact ⟨hRf.1, hRf.2.1, e⟩
        · right
          rw [e, split_state_tree_at_left stA q nd b hokA hqA] at hkq
          rw [← Option.some.inj hkq]
          exact ⟨hLf.1, hLf.2.1, e⟩
      rcases hkv with ⟨_, e⟩ | ⟨_, e⟩ | ⟨_, e⟩ | ⟨_, hk3, hk4⟩
      · rw [e]; simp only [hPf]; clear * - hxr hs; omega
      · rw [e]; simp only [hRf]; clear * - hxr hs; omega
      · rw [e]; simp only [hLf]; clear * - hxr hs; omega
      · have := h.hlam q hmem k (by rw [← hAn]; exact hk3) nd kd hnd
          (by rw [← hAt]; exact hk4)
        unfold in_or_out at this
        clear * - this hxr hs
        omega

theorem range_inv_split (E : externals T) (hE : E.conforms) (fr : fit_frame T)
    (nd : node T) (hti : tree_inv fr.st) (h : range_inv fr.st)
    (hnd : tree_at fr.st.tree (popped_idx fr) = some nd)
    (hpop : fr.st.nodes_to_treat
          = (get_next_node_idx fr.st fr.st.build_order).2 ++ [popped_idx fr]
        ∨ fr.st.nodes_to_treat
          = popped_idx fr :: (get_next_node_idx fr.st fr.st.build_order).2)
    (hb : (after_features E fr nd).best_split.feat_idx ≠ -1) :
    range_inv (split_state (after_features E fr nd).st (popped_idx fr) nd
      (after_features E fr nd).best_split) := by
  have hf := step_facts_of_inv E hE fr nd hti h hnd hpop
  have hA := range_inv_no_split E hE fr nd hti h hnd hpop
  refine range_inv_split_core fr.st (after_features E fr nd).st (popped_idx fr) nd
    (after_features E fr nd).best_split hti h hnd hf.hq hf.hmem hf.hAt hf.hAn hf.hokA ?_
    hA.hnodup hA.hfv hA.hcc (perm_within_length hf.hperm) (split_state_perm E fr nd hf hb)
    (hf.hfi.hbest hb)
  intro x hx
  rw [hf.hAq] at hx
  refine ⟨fun he => hf.hrq (by rw [← he]; exact hx), ?_, mem_rest_of_pop fr x hpop hx⟩
  rw [hf.hAn]
  exact hti.hqueue x (mem_rest_of_pop fr x hpop hx)

end ranges_split

section settings

variable {T : Type} [LinearOrderedField T]

theorem same_settings_refl (st : decision_tree T) : same_settings st st :=
  ⟨rfl, rfl, rfl, rfl, rfl, rfl, rfl, rfl, rfl, rfl, rfl, rfl, rfl, rfl, rfl, rfl, rfl, rfl⟩

theorem same_settings_trans {a b c : decision_tree T} (h1 : same_settings a b)
    (h2 : same_settings b c) : same_settings a c :=
  ⟨h2.max_depth.trans h1.max_depth, h2.min_node_sample.trans h1.min_node_sample,
    h2.build_order.trans h1.build_order, h2.nfeat_split.trans h1.nfeat_split,
    h2.sort_method.trans h1.sort_method, h2.min_split_score.trans h1.min_split_score,
    h2.feat_thresh.trans h1.feat_thresh, h2.min_improvement.trans h1.min_improvement,
    h2.predict_proba_opt.trans h1.predict_proba_opt, h2.X.trans h1.X, h2.ldx.trans h1.ldx,
    h2.y.trans h1.y, h2.n_samples.trans h1.n_samples, h2.n_features.trans h1.n_features,
    h2.n_class.trans h1.n_class, h2.n_obs.trans h1.n_obs,
    h2.score_function.trans h1.score_function, h2.model_trained.trans h1.model_trained⟩

theorem same_settings_after_features (E : externals T) (fr : fit_frame T) (nd : node T) :
    same_settings fr.st (after_features E fr nd).st := by
  obtain ⟨v, fv, cl, cr, fi, mt, hA⟩ := after_features_frame E fr nd
  rw [hA]
  exact ⟨rfl, rfl, rfl, rfl, rfl, rfl, rfl, rfl, rfl, rfl, rfl, rfl, rfl, rfl, rfl, rfl, rfl,
    rfl⟩

theorem same_settings_split_state (stA : decision_tree T) (q : Int) (nd : node T)
    (b : split T) : same_settings stA (split_state stA q nd b) := by
  obtain ⟨tr, dp, cc, cp, nl, qu, eS⟩ := split_state_frame stA q nd b
  rw [eS]
  exact ⟨rfl, rfl, rfl, rfl, rfl, rfl, rfl, rfl, rfl, rfl, rfl, rfl, rfl, rfl, rfl, rfl, rfl,
    rfl⟩

/-- An iteration of the loop of `fit` leaves the settings as they are. -/
theorem same_settings_step (E : externals T) (fr fr' : fit_frame T) (h : tree_inv fr.st)
    (hne : fr.st.nodes_to_treat ≠ []) (hs : fit_step E fr = outcome.done fr') :
    same_settings fr.st fr'.st := by
  obtain ⟨nd, hnd, hmem, hpop⟩ := popped_of_done E fr fr' hne hs
  have hq := h.hqueue _ hmem
  rcases fit_step_cases E fr fr' nd hnd h.ok hq hs with ⟨_, e⟩ | ⟨_, e⟩
  · rw [e]
    have := same_settings_after_features E fr nd
    exact ⟨this.max_depth, this.min_node_sample, this.build_order, this.nfeat_split,
      this.sort_method, this.min_split_score, this.feat_thresh, this.min_improvement,
      this.predict_proba_opt, this.X, this.ldx, this.y, this.n_samples, this.n_features,
      this.n_class, this.n_obs, this.score_function, this.model_trained⟩
  · rw [e]
    exact same_settings_trans (same_settings_after_features E fr nd)
      (same_settings_split_state _ _ _ _)

/-- An iteration of the loop of `fit` keeps the ranges of the nodes. -/
theorem range_inv_step (E : externals T) (hE : E.conforms) (fr fr' : fit_frame T)
    (hti : tree_inv fr.st) (h : range_inv fr.st) (hne : fr.st.nodes_to_treat ≠ [])
    (hs : fit_step E fr = outcome.done fr') : range_inv fr'.st := by
  obtain ⟨nd, hnd, hmem, hpop⟩ := popped_of_done E fr fr' hne hs
  have hq := hti.hqueue _ hmem
  rcases fit_step_cases E fr fr' nd hnd hti.ok hq hs with ⟨_, e⟩ | ⟨hb, e⟩
  · rw [e]; exact range_inv_no_split E hE fr nd hti h hnd hpop
  · rw [e]; exact range_inv_split E hE fr nd hti h hnd hpop hb

theorem configured_settings (E : externals T) (st1 : decision_tree T) :
    (configured E st1).max_depth = st1.max_depth
      ∧ (configured E st1).min_node_sample = st1.min_node_sample
      ∧ (configured E st1).build_order = st1.build_order
      ∧ (configured E st1).sort_method = st1.sort_method
      ∧ (configured E st1).min_split_score = st1.min_split_score
      ∧ (configured E st1).feat_thresh = st1.feat_thresh
      ∧ (configured E st1).min_improvement = st1.min_improvement
      ∧ (configured E st1).predict_proba_opt = st1.predict_proba_opt
      ∧ (configured E st1).X = st1.X ∧ (configured E st1).ldx = st1.ldx
      ∧ (configured E st1).y = st1.y ∧ (configured E st1).n_samples = st1.n_samples
      ∧ (configured E st1).n_features = st1.n_features
      ∧ (configured E st1).n_class = st1.n_class ∧ (configured E st1).n_obs = st1.n_obs
      ∧ (configured E st1).feature_values = st1.feature_values
      ∧ (configured E st1).count_classes = st1.count_classes
      ∧ (configured E st1).nodes_to_treat = st1.nodes_to_treat
      ∧ (configured E st1).samples_idx.length = st1.samples_idx.length := by
  obtain ⟨sf, nf, sd, mt, v, e, hv⟩ := configured_frame E st1
  rw [e]
  exact ⟨rfl, rfl, rfl, rfl, rfl, rfl, rfl, rfl, rfl, rfl, rfl, rfl, rfl, rfl, rfl, rfl, rfl,
    rfl, hv⟩

theorem queue_root_frame (st : decision_tree T) :
    ∃ queue, queue_root st = { st with nodes_to_treat := queue }
      ∧ (queue = st.nodes_to_treat ++ [0] ∨ queue = st.nodes_to_treat) := by
  unfold queue_root
  split
  · exact ⟨_, rfl, Or.inl rfl⟩
  · exact ⟨st.nodes_to_treat, rfl, Or.inr rfl⟩

theorem configured_root_fresh (E : externals T) (st1 : decision_tree T) (hn : st1.tree = [])
    (hp : st1.predict_proba_opt = true) :
    tree_at (configured E st1).tree 0 = some fresh_node := by
  obtain ⟨sf, nf, sd, mt, v, e, _⟩ := configured_frame E st1
  have htree : (configured E st1).tree
      = List.replicate (2 ^ (min st1.max_depth 9).toNat + 1) fresh_node := by
    rw [e]
    simp [hp, hn, vec_resize]
  rw [htree]
  unfold tree_at
  simp [List.get?_eq_getElem?, List.getElem?_replicate]

/-- On entry of the loop of `fit` the only node in use is the root, a leaf that spans the
samples; the queue holds at most the root. -/
theorem entry_nodes (E : externals T) (st1 : decision_tree T) (hn : st1.tree = [])
    (hq : st1.nodes_to_treat = []) (hp : st1.predict_proba_opt = true) :
    (queue_root (rooted (configured E st1))).n_nodes = 1
      ∧ (∀ x ∈ (queue_root (rooted (configured E st1))).nodes_to_treat, x = 0)
      ∧ (queue_root (rooted (configured E st1))).nodes_to_treat.Nodup
      ∧ ((queue_root (rooted (configured E st1))).nodes_to_treat = [0]
          ∨ (queue_root (rooted (configured E st1))).nodes_to_treat = [])
      ∧ tree_at (queue_root (rooted (configured E st1))).tree 0
          = some (root_node (configured E st1) fresh_node)
      ∧ ∀ k kd, tree_at (queue_root (rooted (configured E st1))).tree k = some kd →
          k < (queue_root (rooted (configured E st1))).n_nodes →
          k = 0 ∧ kd = root_node (configured E st1) fresh_node := by
  have hcs := configured_settings E st1
  obtain ⟨queue, eq, hqueue⟩ := queue_root_frame (rooted (configured E st1))
  have hN : (queue_root (rooted (configured E st1))).n_nodes = 1 := by rw [eq]; rfl
  have hqe : (rooted (configured E st1)).nodes_to_treat = [] := by
    show (configured E st1).nodes_to_treat = []
    rw [hcs.2.2.2.2.2.2.2.2.2.2.2.2.2.2.2.2.2.1]; exact hq
  have hqq : (queue_root (rooted (configured E st1))).nodes_to_treat = queue := by rw [eq]
  have hold := configured_root_fresh E st1 hn hp
  have h0 : tree_at (queue_root (rooted (configured E st1))).tree 0
      = some (root_node (configured E st1) fresh_node) := by
    rw [eq]
    show tree_at (tree_upd (configured E st1).tree 0
        (fun nd => root_node (configured E st1) nd)) 0 = _
    rw [tree_at_tree_upd_eq _ hold]
  refine ⟨hN, ?_, ?_, ?_, h0, ?_⟩
  · intro x hx
    rw [hqq] at hx
    rcases hqueue with e | e
    · rw [e, hqe] at hx; simpa using hx
    · rw [e, hqe] at hx; simp at hx
  · rw [hqq]
    rcases hqueue with e | e
    · rw [e, hqe]; simp
    · rw [e, hqe]; simp
  · rw [hqq]
    rcases hqueue with e | e
    · left; rw [e, hqe]; rfl
    · right; rw [e, hqe]
  · intro k kd hk hk2
    rw [hN] at hk2
    have hk0 := (tree_at_bounds hk).1
    have : k = 0 := by omega
    subst this
    rw [h0] at hk
    exact ⟨rfl, (Option.some.inj hk).symm⟩

theorem root_node_fields (st : decision_tree T) :
    (root_node st fresh_node).start_idx = 0
      ∧ (root_node st fresh_node).end_idx = st.n_obs - 1
      ∧ (root_node st fresh_node).n_samples = st.n_obs
      ∧ (root_node st fresh_node).is_leaf = true
      ∧ (root_node st fresh_node).depth = 0
      ∧ (root_node st fresh_node).y_pred
          = max_element_idx (count_class_occurences st st.count_classes 0 (st.n_obs - 1)) :=
  ⟨rfl, rfl, rfl, rfl, rfl, rfl⟩

/-- On entry of the loop of `fit` the ranges are as maintained: the root spans the samples. -/
theorem range_inv_entry (E : externals T) (st1 : decision_tree T) (hn : st1.tree = [])
    (hq : st1.nodes_to_treat = []) (hp : st1.predict_proba_opt = true)
    (hobs : 0 ≤ st1.n_obs) (hls : st1.samples_idx.length = st1.n_obs.toNat)
    (hlv : st1.feature_values.length = st1.n_obs.toNat)
    (hlc : st1.count_classes.length = st1.n_class.toNat) :
    range_inv (queue_root (rooted (configured E st1))) := by
  have hcs := configured_settings E st1
  obtain ⟨hN, hqs, hnodup, _, h0, hall⟩ := entry_nodes E st1 hn hq hp
  obtain ⟨queue, eq, hqueue⟩ := queue_root_frame (rooted (configured E st1))
  have hobs' : (configured E st1).n_obs = st1.n_obs := hcs.2.2.2.2.2.2.2.2.2.2.2.2.2.2.1
  have hlen : (queue_root (rooted (configured E st1))).samples_idx.length = st1.n_obs.toNat := by
    rw [eq]
    show (configured E st1).samples_idx.length = _
    rw [hcs.2.2.2.2.2.2.2.2.2.2.2.2.2.2.2.2.2.2, hls]
  refine ⟨?_, ?_, ?_, ?_, ?_, hnodup, ?_, ?_⟩
  · rw [hlen, eq]
    show (configured E st1).feature_values.length = _
    rw [hcs.2.2.2.2.2.2.2.2.2.2.2.2.2.2.2.1, hlv]
  · rw [eq]
    show (count_class_occurences (configured E st1) (configured E st1).count_classes 0
      ((configured E st1).n_obs - 1)).length = (configured E st1).n_class.toNat
    rw [length_count_class_occurences, hcs.2.2.2.2.2.2.2.2.2.2.2.2.2.2.2.2.1,
      hcs.2.2.2.2.2.2.2.2.2.2.2.2.2.1, hlc]
  · intro k kd hk hk2
    obtain ⟨_, e⟩ := hall k kd hk hk2
    rw [hlen, e]
    refine ⟨?_, ?_, ?_, ?_⟩ <;> simp only [root_node_fields, hobs'] <;> omega
  · intro k kd hk hk2 hk3
    obtain ⟨_, e⟩ := hall k kd hk hk2
    rw [e] at hk3
    exact absurd hk3 (by simp [root_node_fields])
  · intro x hx kd hk
    have := hqs x hx
    subst this
    rw [(hall 0 kd hk (by rw [hN]; omega)).2]
    rfl
  · intro x hx x' hx' hne
    have h1 := hqs x hx
    have h2 := hqs x' hx'
    exact absurd (h1.trans h2.symm) hne
  · intro x hx k hk kdq kd hkq hkd
    have h1 := hqs x hx
    subst h1
    obtain ⟨e0, _⟩ := hall k kd hkd hk
    subst e0
    rw [hkq] at hkd
    have := Option.some.inj hkd
    subst this
    left
    exact ⟨le_refl _, le_refl _⟩

end settings

section partition

variable {T : Type} [LinearOrderedField T]

theorem feat_val_congr (st st' : decision_tree T) (hX : st'.X = st.X)
    (hl : st'.ldx = st.ldx) (f idx : Int) : feat_val st' f idx = feat_val st f idx := by
  unfold feat_val
  rw [hX, hl]

/-- A property of the feature values of the samples of a range survives a rearrangement
that either holds the range or is apart from it. -/
theorem part_carry (st st' : decision_tree T) (hX : st'.X = st.X) (hl : st'.ldx = st.ldx)
    {a e : Int} (hp : perm_within st.samples_idx st'.samples_idx a e) (hae : a ≤ e + 1)
    (f : Int) (c0 c1 : Int) (h0 : 0 ≤ c0) (h1 : c1 < st.samples_idx.length)
    (hio : in_or_out a e c0 c1) (P : T → Prop)
    (h : ∀ i, c0 ≤ i → i ≤ c1 → P (feat_val st f (vec_get st.samples_idx i 0))) :
    ∀ i, c0 ≤ i → i ≤ c1 → P (feat_val st' f (vec_get st'.samples_idx i 0)) := by
  intro i hi1 hi2
  rw [feat_val_congr st st' hX hl]
  exact forall_range_of_in_or_out (fun idx => P (feat_val st f idx)) hp hae h0 h1 hio h i
    hi1 hi2

/-- A node in use before an iteration that splits the node at `q` is in use after it, with
the same range. -/
theorem split_state_old_node (stA : decision_tree T) (q : Int) (nd : node T) (b : split T)
    (hok : array_ok stA) (hnd : tree_at stA.tree q = some nd) (hq : q < stA.n_nodes)
    (c : Int) (c0 : node T) (hc0 : tree_at stA.tree c = some c0) (hcN : c < stA.n_nodes) :
    ∃ c1, tree_at (split_state stA q nd b).tree c = some c1
      ∧ c1.start_idx = c0.start_idx ∧ c1.end_idx = c0.end_idx
      ∧ c1.n_samples = c0.n_samples ∧ c1.depth = c0.depth := by
  by_cases hcq : c = q
  · subst hcq
    rw [hnd] at hc0
    have := Option.some.inj hc0
    subst this
    exact ⟨_, split_state_tree_at_parent stA _ nd b hnd hq, rfl, rfl, rfl, rfl⟩
  · refine ⟨c0, ?_, rfl, rfl, rfl, rfl⟩
    rw [split_state_tree_at_other stA q nd b hok c hcq hcN]
    exact hc0

theorem part_inv_no_split (E : externals T) (hE : E.conforms) (fr : fit_frame T)
    (nd : node T) (hti : tree_inv fr.st) (h : range_inv fr.st) (hp : part_inv fr.st)
    (hnd : tree_at fr.st.tree (popped_idx fr) = some nd)
    (hpop : fr.st.nodes_to_treat
          = (get_next_node_idx fr.st fr.st.build_order).2 ++ [popped_idx fr]
        ∨ fr.st.nodes_to_treat
          = popped_idx fr :: (get_next_node_idx fr.st fr.st.build_order).2) :
    part_inv ({ (after_features E fr nd).st with
      n_leaves := (after_features E fr nd).st.n_leaves + 1 } : decision_tree T) := by
  have hf := step_facts_of_inv E hE fr nd hti h hnd hpop
  have hss := same_settings_after_features E fr nd
  intro k kd l r hk hkN hleaf hl hr
  have hk' : tree_at fr.st.tree k = some kd := by rw [← hf.hAt]; exact hk
  have hkN' : k < fr.st.n_nodes := by rw [← hf.hAn]; exact hkN
  have hl' : tree_at fr.st.tree kd.left_child_idx = some l := by rw [← hf.hAt]; exact hl
  have hr' : tree_at fr.st.tree kd.right_child_idx = some r := by rw [← hf.hAt]; exact hr
  have hc := hti.hchild k kd hk' hkN' hleaf
  have hlr := h.hnode _ l hl' hc.2.2
  have hrr := h.hnode _ r hr' (by omega)
  obtain ⟨g1, g2⟩ := hp k kd l r hk' hkN' hleaf hl' hr'
  constructor
  · exact part_carry fr.st _ hss.X hss.ldx hf.hperm hf.hrange.2.1 kd.feature _ _ hlr.1
      hlr.2.2.1 (h.hlam _ hf.hmem _ hc.2.2 nd l hnd hl') (fun x => x < kd.x_threshold) g1
  · exact part_carry fr.st _ hss.X hss.ldx hf.hperm hf.hrange.2.1 kd.feature _ _ hrr.1
      hrr.2.2.1 (h.hlam _ hf.hmem _ (by omega) nd r hnd hr')
      (fun x => ¬ x < kd.x_threshold) g2

theorem part_inv_split (E : externals T) (hE : E.conforms) (fr : fit_frame T)
    (nd : node T) (hti : tree_inv fr.st) (h : range_inv fr.st) (hp : part_inv fr.st)
    (hft : 0 < fr.st.feat_thresh) (hsm : valid_sort_method fr.st)
    (hnd : tree_at fr.st.tree (popped_idx fr) = some nd)
    (hpop : fr.st.nodes_to_treat
          = (get_next_node_idx fr.st fr.st.build_order).2 ++ [popped_idx fr]
        ∨ fr.st.nodes_to_treat
          = popped_idx fr :: (get_next_node_idx fr.st fr.st.build_order).2)
    (hb : (after_features E fr nd).best_split.feat_idx ≠ -1) :
    part_inv (split_state (after_features E fr nd).st (popped_idx fr) nd
      (after_features E fr nd).best_split) := by
  have hf := step_facts_of_inv E hE fr nd hti h hnd hpop
  have hssA := same_settings_after_features E fr nd
  have hssS := same_settings_split_state (after_features E fr nd).st (popped_idx fr) nd
    (after_features E fr nd).best_split
  have hpermB := split_state_perm E fr nd hf hb
  have hs := hf.hfi.hbest hb
  obtain ⟨fi', mt', cc, hB, _⟩ := before_features_frame E fr nd
  have hcount := hf.hfi.hcount (by rw [hB]; exact hft) (by rw [hB]; exact hsm) hb
  obtain ⟨r0, r1, r2, r3⟩ := hf.hrange
  set stA := (after_features E fr nd).st with hstA
  set b := (after_features E fr nd).best_split with hbdef
  set q := popped_idx fr with hqdef
  have hAt := hf.hAt
  have hAn := hf.hAn
  have hokA := hf.hokA
  have hqA : q < stA.n_nodes := by rw [hAn]; exact hf.hq
  have hndA : tree_at stA.tree q = some nd := by rw [hAt]; exact hnd
  have hlenA : stA.samples_idx.length = fr.st.samples_idx.length :=
    perm_within_length hf.hperm
  have hview := split_state_nodes stA q nd b hokA hndA hqA
  have hpermAll : perm_within fr.st.samples_idx (split_state stA q nd b).samples_idx
      nd.start_idx nd.end_idx := perm_within_trans hf.hperm hpermB
  intro k kd l r hk hkN hleaf hl hr
  rw [split_state_n_nodes] at hkN
  rcases hview k kd hk hkN with ⟨_, e⟩ | ⟨_, e⟩ | ⟨_, e⟩ | ⟨hkq, hk4, hk5⟩
  · subst e
    have el : l = left_child stA q nd b := by
      have := split_state_tree_at_left stA q nd b hokA hqA
      rw [show (parent_after stA nd b).left_child_idx = stA.n_nodes + 1 from rfl] at hl
      rw [this] at hl
      exact (Option.some.inj hl).symm
    have er : r = right_child stA q nd b := by
      have := split_state_tree_at_right stA q nd b hokA hqA
      rw [show (parent_after stA nd b).right_child_idx = stA.n_nodes from rfl] at hr
      rw [this] at hr
      exact (Option.some.inj hr).symm
    subst el er
    have hspec := (partition_samples_spec
      ({ stA with tree := tree_upd stA.tree q (fun _ => split_node nd b) } : decision_tree T)
      (split_node nd b) r0 (by show nd.start_idx ≤ nd.end_idx; omega)
      (by show nd.end_idx < (stA.samples_idx.length : Int)
          rw [hlenA]; exact r2)).2 (b.samp_idx + 1 - nd.start_idx).toNat
      (by
        rw [← hcount]
        apply List.countP_congr
        intro idx _
        simp only [decide_eq_true_eq]
        rw [feat_val_congr (before_features E fr nd) _ (by rw [hB]; exact hssA.X)
          (by rw [hB]; exact hssA.ldx)]
        rfl)
    have hsamp : (split_state stA q nd b).samples_idx
        = partition_samples ({ stA with tree := (tree_upd stA.tree q
            (fun _ => split_node nd b)) } : decision_tree T) (split_node nd b) := by
      obtain ⟨_, _, _, _, _, _, e⟩ := split_state_frame stA q nd b
      rw [e]
      rfl
    have hfv : ∀ idx, feat_val (split_state stA q nd b) b.feat_idx idx
        = feat_val ({ stA with tree := (tree_upd stA.tree q
            (fun _ => split_node nd b)) } : decision_tree T) b.feat_idx idx :=
      fun idx => feat_val_congr _ _ hssS.X hssS.ldx _ _
    constructor
    · intro i hi1 hi2
      show feat_val _ b.feat_idx _ < b.threshold
      rw [hfv, hsamp]
      exact hspec.1 i hi1 (by
        have : (left_child stA q nd b).end_idx = b.samp_idx := rfl
        show i < nd.start_idx + ((b.samp_idx + 1 - nd.start_idx).toNat : Int)
        omega)
    · intro i hi1 hi2
      show ¬ feat_val _ b.feat_idx _ < b.threshold
      rw [hfv, hsamp]
      exact hspec.2 i (by
        have : (right_child stA q nd b).start_idx = b.samp_idx + 1 := rfl
        show nd.start_idx + ((b.samp_idx + 1 - nd.start_idx).toNat : Int) ≤ i
        omega) hi2
  · rw [e] at hleaf; exact absurd hleaf (by simp [right_child_fields])
  · rw [e] at hleaf; exact absurd hleaf (by simp [left_child_fields])
  · have hk5' : tree_at fr.st.tree k = some kd := by rw [← hAt]; exact hk5
    have hk4' : k < fr.st.n_nodes := by rw [← hAn]; exact hk4
    have hc := hti.hchild k kd hk5' hk4' hleaf
    obtain ⟨l0, r0', hl0, hr0, _⟩ := h.hkids k kd hk5' hk4' hleaf
    obtain ⟨l1, hl1, e1, e2, _, _⟩ := split_state_old_node stA q nd b hokA hndA hqA
      kd.left_child_idx l0 (by rw [hAt]; exact hl0) (by rw [hAn]; exact hc.2.2)
    obtain ⟨r1', hr1, e4, e5, _, _⟩ := split_state_old_node stA q nd b hokA hndA hqA
      kd.right_child_idx r0' (by rw [hAt]; exact hr0) (by rw [hAn]; omega)
    rw [hl] at hl1
    rw [hr] at hr1
    have := Option.some.inj hl1
    subst this
    have := Option.some.inj hr1
    subst this
    rw [e1, e2, e4, e5]
    have hlr := h.hnode _ l0 hl0 hc.2.2
    have hrr := h.hnode _ r0' hr0 (by omega)
    obtain ⟨g1, g2⟩ := hp k kd l0 r0' hk5' hk4' hleaf hl0 hr0
    constructor
    · exact part_carry fr.st _ (hssS.X.trans hssA.X) (hssS.ldx.trans hssA.ldx) hpermAll r1
        kd.feature _ _ hlr.1 hlr.2.2.1 (h.hlam _ hf.hmem _ hc.2.2 nd l0 hnd hl0)
        (fun x => x < kd.x_threshold) g1
    · exact part_carry fr.st _ (hssS.X.trans hssA.X) (hssS.ldx.trans hssA.ldx) hpermAll r1
        kd.feature _ _ hrr.1 hrr.2.2.1 (h.hlam _ hf.hmem _ (by omega) nd r0' hnd hr0)
        (fun x => ¬ x < kd.x_threshold) g2

/-- An iteration of the loop of `fit` keeps the samples of every internal node on the side
of its threshold that their child stands for, when the feature threshold is positive and
the sort method is one of the two in use. -/
theorem part_inv_step (E : externals T) (hE : E.conforms) (fr fr' : fit_frame T)
    (hti : tree_inv fr.st) (h : range_inv fr.st) (hp : part_inv fr.st)
    (hft : 0 < fr.st.feat_thresh) (hsm : valid_sort_method fr.st)
    (hne : fr.st.nodes_to_treat ≠ []) (hs : fit_step E fr = outcome.done fr') :
    part_inv fr'.st := by
  obtain ⟨nd, hnd, hmem, hpop⟩ := popped_of_done E fr fr' hne hs
  have hq := hti.hqueue _ hmem
  rcases fit_step_cases E fr fr' nd hnd hti.ok hq hs with ⟨_, e⟩ | ⟨hb, e⟩
  · rw [e]; exact part_inv_no_split E hE fr nd hti h hp hnd hpop
  · rw [e]; exact part_inv_split E hE fr nd hti h hp hft hsm hnd hpop hb

end partition

section props

variable {T : Type} [LinearOrderedField T]

theorem class_count_congr (st st' : decision_tree T) (hy : st'.y = st.y)
    (hs : st'.samples_idx = st.samples_idx) (a b j : Int) :
    class_count st' a b j = class_count st a b j := by
  unfold class_count
  rw [hy, hs]

theorem block_lt (c k n j : Int) (hk : k < n) (hj0 : 0 ≤ j) (hj : j < c) :
    c * k + j < c * n := by
  have h1 : c * (k + 1) ≤ c * n := Int.mul_le_mul_of_nonneg_left (by omega) (by omega)
  have h2 : c * (k + 1) = c * k + c := by ring
  omega

/-- What `add_node` leaves in `class_props`: a vector as long as the node array asks for,
the blocks of the nodes in use as they were, and in the block of the new node the
proportions of the classes among the samples `a..b`. -/
theorem stored_props_spec (st : decision_tree T) (a b : Int)
    (hp : st.predict_proba_opt = true) (hN0 : 0 ≤ st.n_nodes)
    (hN : st.n_nodes ≤ st.tree.length)
    (hlen : st.class_props.length = st.tree.length * st.n_class.toNat)
    (hcc : st.count_classes.length = st.n_class.toNat)
    (h0 : 0 ≤ a) (h1 : a ≤ b + 1) (hb : b < st.samples_idx.length) :
    (stored_props st a b).length = (grown_tree st).length * st.n_class.toNat
      ∧ (∀ k j, 0 ≤ k → k < st.n_nodes → 0 ≤ j → j < st.n_class →
          vec_get (stored_props st a b) (st.n_class * k + j) 0
            = vec_get st.class_props (st.n_class * k + j) 0)
      ∧ (∀ j, 0 ≤ j → j < st.n_class →
          vec_get (stored_props st a b) (st.n_class * st.n_nodes + j) 0
            = (class_count st a b j : T) / ((b - a + 1 : Int) : T)) := by
  have hgl := length_grown_props st hlen hp
  have hgt := length_grown_tree st hp hN
  obtain ⟨hnew, hold⟩ := vec_get_stored_props st a b
  refine ⟨by rw [length_stored_props, hgl], ?_, ?_⟩
  · intro k j hk0 hk hj0 hj
    have hlt := block_lt st.n_class k st.n_nodes j hk hj0 hj
    have hc : st.n_nodes * st.n_class = st.n_class * st.n_nodes := Int.mul_comm _ _
    rw [hold _ (Or.inl (by omega))]
    apply vec_get_grown_props st _ hlen
    rw [hlen]
    push_cast
    rw [Int.toNat_of_nonneg (by omega)]
    have : st.n_class * st.n_nodes ≤ st.n_class * (st.tree.length : Int) :=
      Int.mul_le_mul_of_nonneg_left hN (by omega)
    have h3 : (st.tree.length : Int) * st.n_class = st.n_class * st.tree.length :=
      Int.mul_comm _ _
    omega
  · intro j hj0 hj
    have hc : st.n_class * st.n_nodes = st.n_nodes * st.n_class := Int.mul_comm _ _
    rw [hc, hnew j hj0 hj ?_ hN0]
    · rw [(count_class_occurences_spec st st.count_classes a b h0 h1 hb).2 j hj0
        (by rw [hcc]; omega)]
      simp
    · rw [hgl]
      push_cast
      rw [Int.toNat_of_nonneg (by omega)]
      have hlt := block_lt st.n_class st.n_nodes (grown_tree st).length j hgt.1 hj0 hj
      have h3 : ((grown_tree st).length : Int) * st.n_class
          = st.n_class * (grown_tree st).length := Int.mul_comm _ _
      omega

/-- The proportions in `class_props` after an iteration that leaves the node a leaf. -/
theorem props_inv_no_split (E : externals T) (hE : E.conforms) (fr : fit_frame T)
    (nd : node T) (hti : tree_inv fr.st) (h : range_inv fr.st) (hp : props_inv fr.st)
    (hnd : tree_at fr.st.tree (popped_idx fr) = some nd)
    (hpop : fr.st.nodes_to_treat
          = (get_next_node_idx fr.st fr.st.build_order).2 ++ [popped_idx fr]
        ∨ fr.st.nodes_to_treat
          = popped_idx fr :: (get_next_node_idx fr.st fr.st.build_order).2) :
    props_inv ({ (after_features E fr nd).st with
      n_leaves := (after_features E fr nd).st.n_leaves + 1 } : decision_tree T) := by
  have hf := step_facts_of_inv E hE fr nd hti h hnd hpop
  have hss := same_settings_after_features E fr nd
  obtain ⟨v, fv, cl, cr, fi, mt, hA⟩ := after_features_frame E fr nd
  have hcp : (after_features E fr nd).st.class_props = fr.st.class_props := by rw [hA]
  constructor
  · show (after_features E fr nd).st.class_props.length
      = (after_features E fr nd).st.tree.length * (after_features E fr nd).st.n_class.toNat
    rw [hcp, hf.hAt, hss.n_class]
    exact hp.hlen
  · intro k kd hk hkN j hj0 hj
    have hk' : tree_at fr.st.tree k = some kd := by rw [← hf.hAt]; exact hk
    have hkN' : k < fr.st.n_nodes := by rw [← hf.hAn]; exact hkN
    have hj' : j < fr.st.n_class := by rw [← hss.n_class]; exact hj
    have hkr := h.hnode k kd hk' hkN'
    show vec_get (after_features E fr nd).st.class_props
      ((after_features E fr nd).st.n_class * k + j) 0 = _
    rw [hcp, hss.n_class, hp.hval k kd hk' hkN' j hj0 hj']
    congr 2
    exact (class_count_of_in_or_out fr.st _ hss.y hf.hperm hf.hrange.2.1 hkr.1
      (h.hlam _ hf.hmem k hkN' nd kd hnd hk') j).symm

end props

section props_split

variable {T : Type} [LinearOrderedField T]

theorem right_added_frame (stA : decision_tree T) (q : Int) (nd : node T) (b : split T) :
    (right_added stA q nd b).class_props
        = stored_props (after_partition stA q nd b) (b.samp_idx + 1) nd.end_idx
      ∧ (right_added stA q nd b).n_class = stA.n_class
      ∧ (right_added stA q nd b).samples_idx = (after_partition stA q nd b).samples_idx
      ∧ (right_added stA q nd b).y = stA.y
      ∧ (right_added stA q nd b).tree.length = (grown_tree (after_partition stA q nd b)).length
      ∧ (right_added stA q nd b).count_classes.length = stA.count_classes.length := by
  refine ⟨?_, ?_, ?_, ?_, ?_, ?_⟩
  · simp only [right_added, enqueued_class_props]; rfl
  · simp only [right_added, enqueued_n_class]; rfl
  · simp only [right_added, enqueued_samples_idx]; rfl
  · simp only [right_added, enqueued_y]; rfl
  · simp only [right_added, enqueued_tree, with_child_tree_length]
  · simp only [right_added, enqueued_count_classes, with_child,
      length_count_class_occurences, after_partition]

theorem split_state_props_frame (stA : decision_tree T) (q : Int) (nd : node T)
    (b : split T) :
    (split_state stA q nd b).class_props
        = stored_props (right_added stA q nd b) nd.start_idx b.samp_idx
      ∧ (split_state stA q nd b).tree.length = (grown_tree (right_added stA q nd b)).length
      ∧ (split_state stA q nd b).samples_idx = (after_partition stA q nd b).samples_idx := by
  refine ⟨?_, ?_, ?_⟩
  · simp only [split_state, enqueued_class_props]; rfl
  · simp only [split_state, enqueued_tree, with_child_tree_length]
  · simp only [split_state, enqueued_samples_idx]
    exact (right_added_frame stA q nd b).2.2.1

/-- The proportions in `class_props` after an iteration that splits the node. -/
theorem props_inv_split (E : externals T) (hE : E.conforms) (fr : fit_frame T)
    (nd : node T) (hti : tree_inv fr.st) (h : range_inv fr.st) (hp : props_inv fr.st)
    (hnd : tree_at fr.st.tree (popped_idx fr) = some nd)
    (hpop : fr.st.nodes_to_treat
          = (get_next_node_idx fr.st fr.st.build_order).2 ++ [popped_idx fr]
        ∨ fr.st.nodes_to_treat
          = popped_idx fr :: (get_next_node_idx fr.st fr.st.build_order).2)
    (hb : (after_features E fr nd).best_split.feat_idx ≠ -1) :
    props_inv (split_state (after_features E fr nd).st (popped_idx fr) nd
      (after_features E fr nd).best_split) := by
  have hf := step_facts_of_inv E hE fr nd hti h hnd hpop
  have hA := range_inv_no_split E hE fr nd hti h hnd hpop
  have hpA := props_inv_no_split E hE fr nd hti h hp hnd hpop
  have hssA := same_settings_after_features E fr nd
  have hssS := same_settings_split_state (after_features E fr nd).st (popped_idx fr) nd
    (after_features E fr nd).best_split
  have hpermB := split_state_perm E fr nd hf hb
  have hs := hf.hfi.hbest hb
  obtain ⟨r0, r1, r2, r3⟩ := hf.hrange
  set stA := (after_features E fr nd).st with hstA
  set b := (after_features E fr nd).best_split with hbdef
  set q := popped_idx fr with hqdef
  have hAt := hf.hAt
  have hAn := hf.hAn
  have hokA := hf.hokA
  have hqA : q < stA.n_nodes := by rw [hAn]; exact hf.hq
  have hndA : tree_at stA.tree q = some nd := by rw [hAt]; exact hnd
  have hlenA : stA.samples_idx.length = fr.st.samples_idx.length :=
    perm_within_length hf.hperm
  have hview := split_state_nodes stA q nd b hokA hndA hqA
  have hpermAll : perm_within fr.st.samples_idx (split_state stA q nd b).samples_idx
      nd.start_idx nd.end_idx := perm_within_trans hf.hperm hpermB
  have hlenS : ((split_state stA q nd b).samples_idx.length : Int)
      = fr.st.samples_idx.length := by rw [perm_within_length hpermAll]
  have hokB := array_ok_after_partition stA q nd b hokA hqA
  have hokR := array_ok_right_added stA q nd b hokA hqA
  obtain ⟨hRcp, hRk, hRs, hRy, hRt, hRc⟩ := right_added_frame stA q nd b
  obtain ⟨hScp, hSt, hSs⟩ := split_state_props_frame stA q nd b
  have hBs : ((after_partition stA q nd b).samples_idx.length : Int)
      = fr.st.samples_idx.length := by rw [← hSs]; exact hlenS
  have hspecB := stored_props_spec (after_partition stA q nd b) (b.samp_idx + 1) nd.end_idx
    hokB.hproba (by have := hokB.hN; omega) hokB.hN.2
    (by
      show stA.class_props.length = (tree_upd stA.tree q _).length * stA.n_class.toNat
      rw [length_tree_upd]
      exact hpA.hlen)
    (by show stA.count_classes.length = stA.n_class.toNat; exact hA.hcc)
    (by omega) (by omega) (by rw [hBs]; exact r2)
  have hBk : (after_partition stA q nd b).n_class = stA.n_class := rfl
  have hBn : (after_partition stA q nd b).n_nodes = stA.n_nodes := rfl
  have hBcp : (after_partition stA q nd b).class_props = stA.class_props := rfl
  rw [hBk, hBn, hBcp] at hspecB
  obtain ⟨hB1, hB2, hB3⟩ := hspecB
  have hspecR := stored_props_spec (right_added stA q nd b) nd.start_idx b.samp_idx
    hokR.hproba (by have := hokR.hN; omega) hokR.hN.2
    (by rw [hRcp, hRk, hRt]; exact hB1)
    (by rw [hRc, hRk]; exact hA.hcc)
    r0 (by omega) (by rw [hRs, hBs]; omega)
  rw [hRk, right_added_n_nodes, hRcp] at hspecR
  obtain ⟨hR1, hR2, hR3⟩ := hspecR
  have hSk : (split_state stA q nd b).n_class = stA.n_class := hssS.n_class
  have hcS : ∀ a e j, class_count (split_state stA q nd b) a e j
      = class_count (after_partition stA q nd b) a e j :=
    fun a e j => class_count_congr (after_partition stA q nd b) _ hssS.y hSs a e j
  have hcR : ∀ a e j, class_count (right_added stA q nd b) a e j
      = class_count (after_partition stA q nd b) a e j :=
    fun a e j => class_count_congr (after_partition stA q nd b) _ hRy hRs a e j
  have hN1 : (1 : Int) ≤ stA.n_nodes := hokA.hN.1
  have hold : ∀ k kd0, tree_at fr.st.tree k = some kd0 → k < fr.st.n_nodes →
      ∀ j, 0 ≤ j → j < stA.n_class →
        vec_get (split_state stA q nd b).class_props (stA.n_class * k + j) 0
          = (class_count (split_state stA q nd b) kd0.start_idx kd0.end_idx j : T)
            / ((kd0.n_samples : Int) : T) := by
    intro k kd0 hk hkN j hj0 hj
    have hk0 := (tree_at_bounds hk).1
    have hkA : k < stA.n_nodes := by rw [hAn]; exact hkN
    rw [hScp, hR2 k j hk0 (by omega) hj0 hj, hB2 k j hk0 hkA hj0 hj]
    have := hpA.hval k kd0 (by show tree_at stA.tree k = _; rw [hAt]; exact hk) hkA j hj0 hj
    rw [show ({ stA with n_leaves := stA.n_leaves + 1 } : decision_tree T).class_props
      = stA.class_props from rfl,
      show ({ stA with n_leaves := stA.n_leaves + 1 } : decision_tree T).n_class
      = stA.n_class from rfl] at this
    rw [this]
    congr 2
    have hkr := h.hnode k kd0 hk hkN
    have e1 : class_count ({ stA with n_leaves := stA.n_leaves + 1 } : decision_tree T)
        kd0.start_idx kd0.end_idx j = class_count stA kd0.start_idx kd0.end_idx j := rfl
    rw [e1]
    exact (class_count_of_in_or_out stA _ hssS.y hpermB r1 hkr.1
      (h.hlam _ hf.hmem k hkN nd kd0 hnd hk) j).symm
  constructor
  · rw [hScp, hSk]
    exact hR1.trans (by rw [hSt])
  · intro k kd hk hkN j hj0 hj
    rw [split_state_n_nodes] at hkN
    rw [hSk] at hj ⊢
    rcases hview k kd hk hkN with ⟨e0, e⟩ | ⟨e0, e⟩ | ⟨e0, e⟩ | ⟨hkq, hk4, hk5⟩
    · rw [e0, e]
      exact hold q nd hnd hf.hq j hj0 hj
    · rw [e0, e, hScp, hR2 _ j (by omega) (by omega) hj0 hj, hB3 j hj0 hj, hcS]
      rfl
    · rw [e0, e, hScp, hR3 j hj0 hj, hcS, hcR]
      rfl
    · exact hold k kd (by rw [← hAt]; exact hk5) (by rw [← hAn]; exact hk4) j hj0 hj

/-- An iteration of the loop of `fit` keeps the stored proportions. -/
theorem props_inv_step (E : externals T) (hE : E.conforms) (fr fr' : fit_frame T)
    (hti : tree_inv fr.st) (h : range_inv fr.st) (hp : props_inv fr.st)
    (hne : fr.st.nodes_to_treat ≠ []) (hs : fit_step E fr = outcome.done fr') :
    props_inv fr'.st := by
  obtain ⟨nd, hnd, hmem, hpop⟩ := popped_of_done E fr fr' hne hs
  have hq := hti.hqueue _ hmem
  rcases fit_step_cases E fr fr' nd hnd hti.ok hq hs with ⟨_, e⟩ | ⟨hb, e⟩
  · rw [e]; exact props_inv_no_split E hE fr nd hti h hp hnd hpop
  · rw [e]; exact props_inv_split E hE fr nd hti h hp hnd hpop hb

end props_split

section fitted

variable {T : Type} [LinearOrderedField T]

theorem vec_get_root_props (st : decision_tree T) (hp : st.predict_proba_opt = true) :
    (root_props st).length = st.class_props.length
      ∧ ∀ j, 0 ≤ j → j < st.n_class → j < st.class_props.length →
          vec_get (root_props st) j 0
            = ((vec_get (count_class_occurences st st.count_classes 0 (st.n_obs - 1)) j 0
                : Int) : T) / (st.n_obs : T) := by
  unfold root_props
  simp only [hp, if_true]
  by_cases hn : 0 ≤ st.n_class
  · have key := for_range_ind
      (fun (k : Int) (cp : List T) => cp.length = st.class_props.length
        ∧ ∀ j, 0 ≤ j → j < k → j < st.class_props.length →
            vec_get cp j 0
              = ((vec_get (count_class_occurences st st.count_classes 0 (st.n_obs - 1)) j 0
                  : Int) : T) / (st.n_obs : T))
      0 st.n_class
      (fun i cp => vec_set cp i
        (((vec_get (count_class_occurences st st.count_classes 0 (st.n_obs - 1)) i 0
            : Int) : T) / (st.n_obs : T)))
      st.class_props hn ⟨rfl, fun j h0 h1 => by omega⟩
      (fun k cp hk0 hk1 ih => by
        refine ⟨by simp [ih.1], ?_⟩
        intro j hj0 hj1 hjlen
        by_cases hjk : j = k
        · subst hjk
          rw [vec_get_vec_set_eq _ _ _ _ hj0 (by rw [ih.1]; exact hjlen)]
        · rw [vec_get_vec_set_ne _ _ _ _ _ (by omega)]
          exact ih.2 j hj0 (by omega) hjlen)
    exact key
  · rw [for_range_of_le _ _ _ _ (by omega)]
    exact ⟨rfl, fun j h0 h1 => by omega⟩

/-- On entry of the loop of `fit` the block of the root in `class_props` holds the class
proportions of the whole sample. -/
theorem props_inv_entry (E : externals T) (st1 : decision_tree T) (hn : st1.tree = [])
    (hq : st1.nodes_to_treat = []) (hp : st1.predict_proba_opt = true)
    (hobs : 0 ≤ st1.n_obs) (hls : st1.samples_idx.length = st1.n_obs.toNat)
    (hlc : st1.count_classes.length = st1.n_class.toNat) :
    props_inv (queue_root (rooted (configured E st1))) := by
  have hcs := configured_settings E st1
  obtain ⟨hN, _, _, _, h0, hall⟩ := entry_nodes E st1 hn hq hp
  obtain ⟨queue, eq, _⟩ := queue_root_frame (rooted (configured E st1))
  obtain ⟨sf, nf, sd, mt, v, e, hv⟩ := configured_frame E st1
  have hpC : (configured E st1).predict_proba_opt = true := by
    rw [hcs.2.2.2.2.2.2.2.1]; exact hp
  have hkC : (configured E st1).n_class = st1.n_class := hcs.2.2.2.2.2.2.2.2.2.2.2.2.2.1
  have hoC : (configured E st1).n_obs = st1.n_obs := hcs.2.2.2.2.2.2.2.2.2.2.2.2.2.2.1
  have hcC : (configured E st1).count_classes = st1.count_classes :=
    hcs.2.2.2.2.2.2.2.2.2.2.2.2.2.2.2.2.1
  have hsC : (configured E st1).samples_idx.length = st1.samples_idx.length :=
    hcs.2.2.2.2.2.2.2.2.2.2.2.2.2.2.2.2.2.2
  have htl : (configured E st1).tree.length = 2 ^ (min st1.max_depth 9).toNat + 1 := by
    rw [e]; simp [hp, hn, vec_resize]
  have hcl : (configured E st1).class_props.length
      = (2 ^ (min st1.max_depth 9).toNat + 1) * st1.n_class.toNat := by
    rw [e]; simp only [hp, if_true, length_vec_resize]
  obtain ⟨hr1, hr2⟩ := vec_get_root_props (configured E st1) hpC
  have hScp : (queue_root (rooted (configured E st1))).class_props
      = root_props (configured E st1) := by rw [eq]; rfl
  have hSk : (queue_root (rooted (configured E st1))).n_class = st1.n_class := by
    rw [eq]; exact hkC
  have hSt : (queue_root (rooted (configured E st1))).tree.length
      = (configured E st1).tree.length := by
    rw [eq]
    show (tree_upd (configured E st1).tree 0 _).length = _
    rw [length_tree_upd]
  constructor
  · rw [hScp, hr1, hcl, hSt, htl, hSk]
  · intro k kd hk hkN j hj0 hj
    obtain ⟨e0, e1⟩ := hall k kd hk hkN
    rw [hSk] at hj ⊢
    subst e0
    rw [e1, hScp]
    have hjlen : j < ((configured E st1).class_props.length : Int) := by
      rw [hcl]
      push_cast
      rw [Int.toNat_of_nonneg (by omega)]
      have h1 : (1 : Int) ≤ 2 ^ (min st1.max_depth 9).toNat := by
        have : 1 ≤ 2 ^ (min st1.max_depth 9).toNat := Nat.one_le_two_pow
        exact_mod_cast this
      nlinarith
    have := hr2 j hj0 (by rw [hkC]; exact hj) hjlen
    rw [show st1.n_class * 0 + j = j by ring, this]
    rw [(count_class_occurences_spec (configured E st1) (configured E st1).count_classes 0
      ((configured E st1).n_obs - 1) (le_refl _) (by rw [hoC]; omega)
      (by rw [hsC, hls, hoC]; omega)).2 j hj0 (by rw [hcC, hlc]; omega)]
    have ec : class_count (queue_root (rooted (configured E st1)))
        (root_node (configured E st1) fresh_node).start_idx
        (root_node (configured E st1) fresh_node).end_idx j
        = class_count (configured E st1) 0 ((configured E st1).n_obs - 1) j := by
      apply class_count_congr
      · rw [eq]; rfl
      · rw [eq]; rfl
    rw [ec]
    simp [root_node_fields]

/-- On entry of the loop of `fit` the maintained facts hold. -/
theorem fit_inv_entry (E : externals T) (st1 : decision_tree T) (hn : st1.tree = [])
    (hq : st1.nodes_to_treat = []) (hp : st1.predict_proba_opt = true)
    (hobs : 0 ≤ st1.n_obs) (hls : st1.samples_idx.length = st1.n_obs.toNat)
    (hlv : st1.feature_values.length = st1.n_obs.toNat)
    (hlc : st1.count_classes.length = st1.n_class.toNat) :
    fit_inv (queue_root (rooted (configured E st1))) := by
  obtain ⟨hN, _, _, _, h0, hall⟩ := entry_nodes E st1 hn hq hp
  obtain ⟨queue, eq, _⟩ := queue_root_frame (rooted (configured E st1))
  have hoC : (configured E st1).n_obs = st1.n_obs :=
    (configured_settings E st1).2.2.2.2.2.2.2.2.2.2.2.2.2.2.1
  refine ⟨(tree_inv_entry E st1 hn hq hp).2, range_inv_entry E st1 hn hq hp hobs hls hlv hlc,
    props_inv_entry E st1 hn hq hp hobs hls hlc, ?_, ?_⟩
  · intro _ _ k kd l r hk hkN hleaf
    rw [(hall k kd hk hkN).2] at hleaf
    exact absurd hleaf (by simp [root_node_fields])
  · intro h1 k kd hk hkN
    rw [(hall k kd hk hkN).2]
    have : (queue_root (rooted (configured E st1))).n_obs = st1.n_obs := by
      rw [eq]; exact hoC
    rw [this] at h1
    simp only [root_node_fields, hoC]
    omega

/-- An iteration of the loop of `fit` keeps the maintained facts. -/
theorem fit_inv_step (E : externals T) (hE : E.conforms) (fr fr' : fit_frame T)
    (h : fit_inv fr.st) (hne : fr.st.nodes_to_treat ≠ [])
    (hs : fit_step E fr = outcome.done fr') : fit_inv fr'.st := by
  have hss := same_settings_step E fr fr' h.tree hne hs
  refine ⟨tree_inv_step E fr fr' h.tree hne hs, range_inv_step E hE fr fr' h.tree h.range hne hs,
    props_inv_step E hE fr fr' h.tree h.range h.props hne hs, ?_, ?_⟩
  · intro hft hsm
    have hft' : 0 < fr.st.feat_thresh := by rw [← hss.feat_thresh]; exact hft
    have hsm' : valid_sort_method fr.st := by
      unfold valid_sort_method at hsm ⊢
      rw [← hss.sort_method]; exact hsm
    exact part_inv_step E hE fr fr' h.tree h.range (h.part hft' hsm') hft' hsm' hne hs
  · intro h1 k kd hk hkN
    have h1' : 1 ≤ fr.st.n_obs := by rw [← hss.n_obs]; exact h1
    obtain ⟨nd, hnd, hmem, hpop⟩ := popped_of_done E fr fr' hne hs
    have hq := h.tree.hqueue _ hmem
    have hf := step_facts_of_inv E hE fr nd h.tree h.range hnd hpop
    rcases fit_step_cases E fr fr' nd hnd h.tree.ok hq hs with ⟨_, e⟩ | ⟨hb, e⟩
    · rw [e] at hk hkN
      exact h.nonempty h1' k kd (by rw [← hf.hAt]; exact hk) (by rw [← hf.hAn]; exact hkN)
    · rw [e] at hk hkN
      rw [split_state_n_nodes] at hkN
      have hbs := hf.hfi.hbest hb
      rcases split_state_nodes _ _ nd _ hf.hokA (by rw [hf.hAt]; exact hnd)
          (by rw [hf.hAn]; exact hf.hq) k kd hk hkN with
        ⟨_, e⟩ | ⟨_, e⟩ | ⟨_, e⟩ | ⟨_, hk3, hk4⟩
      · rw [e]; show nd.start_idx ≤ nd.end_idx; omega
      · rw [e]; simp only [right_child_fields]; omega
      · rw [e]; simp only [left_child_fields]; omega
      · exact h.nonempty h1' k kd (by rw [← hf.hAt]; exact hk4) (by rw [← hf.hAn]; exact hk3)

/-- The facts do not depend on the flag `model_trained`. -/
theorem fit_inv_trained (st : decision_tree T) (h : fit_inv st) :
    fit_inv ({ st with model_trained := true } : decision_tree T) :=
  ⟨⟨⟨h.tree.ok.hproba, h.tree.ok.hN, h.tree.ok.hfresh⟩, h.tree.hqueue, h.tree.hchild⟩,
    ⟨h.range.hfv, h.range.hcc, h.range.hnode, h.range.hkids, h.range.hqleaf, h.range.hnodup,
      h.range.hqdisj, h.range.hlam⟩,
    ⟨h.props.hlen, h.props.hval⟩, h.part, h.nonempty⟩

/-- A fitted tree has the facts that the loop of `fit` maintains; its queue is empty, it is
marked trained, and its settings are those that `fit` read. -/
theorem fit_fitted (E : externals T) (hE : E.conforms) (st0 st : decision_tree T)
    (hr : fit_ready st0) (hf : fit E st0 = outcome.done (da_status.da_status_success, st)) :
    fit_inv st ∧ st.nodes_to_treat = [] ∧ st.model_trained = true
      ∧ ∃ st1, read_options st0 = some st1 ∧ st1.predict_proba_opt = true
          ∧ st.max_depth = st1.max_depth ∧ st.min_node_sample = st1.min_node_sample
          ∧ st.feat_thresh = st1.feat_thresh ∧ st.sort_method = st1.sort_method
          ∧ st.X = st0.X ∧ st.ldx = st0.ldx ∧ st.y = st0.y ∧ st.n_obs = st0.n_obs
          ∧ st.n_class = st0.n_class ∧ st.n_features = st0.n_features := by
  obtain ⟨st1, fr, ho, hp, hl, e⟩ := fit_done_unfold E st0 st _ hr hf rfl
  obtain ⟨pp, md, me, mns, mss, bo, nf', sd', ft, mi, pt, sm, e1⟩ :=
    read_options_frame st0 st1 ho
  have ht1 : st1.tree = [] := by rw [e1]; exact hr.no_tree
  have hq1 : st1.nodes_to_treat = [] := by rw [e1]; exact hr.no_queue
  have hentry := fit_inv_entry E st1 ht1 hq1 hp (by rw [e1]; exact hr.n_obs_nonneg)
    (by rw [e1]; exact hr.len_samples) (by rw [e1]; exact hr.len_values)
    (by rw [e1]; exact hr.len_counts)
  have := fit_loop_ind E
    (fun fr => fit_inv fr.st ∧ same_settings (queue_root (rooted (configured E st1))) fr.st)
    (fun fr fr' h hne hs => ⟨fit_inv_step E hE fr fr' h.1 hne hs,
      same_settings_trans h.2 (same_settings_step E fr fr' h.1.tree hne hs)⟩)
    _ _ fr ⟨hentry, same_settings_refl _⟩ hl
  obtain ⟨⟨hinv, hss⟩, hqe⟩ := this
  have hcs := configured_settings E st1
  obtain ⟨queue, eq, _⟩ := queue_root_frame (rooted (configured E st1))
  have hQ : same_settings (configured E st1) (queue_root (rooted (configured E st1))) := by
    rw [eq]
    exact ⟨rfl, rfl, rfl, rfl, rfl, rfl, rfl, rfl, rfl, rfl, rfl, rfl, rfl, rfl, rfl, rfl,
      rfl, rfl⟩
  have hall := same_settings_trans hQ hss
  rw [e]
  refine ⟨fit_inv_trained _ hinv, hqe, rfl, st1, ho, hp, ?_, ?_, ?_, ?_, ?_, ?_, ?_, ?_, ?_,
    ?_⟩
  · exact hall.max_depth.trans hcs.1
  · exact hall.min_node_sample.trans hcs.2.1
  · exact hall.feat_thresh.trans hcs.2.2.2.2.2.1
  · exact hall.sort_method.trans hcs.2.2.2.1
  · exact (hall.X.trans hcs.2.2.2.2.2.2.2.2.1).trans (by rw [e1])
  · exact (hall.ldx.trans hcs.2.2.2.2.2.2.2.2.2.1).trans (by rw [e1])
  · exact (hall.y.trans hcs.2.2.2.2.2.2.2.2.2.2.1).trans (by rw [e1])
  · exact (hall.n_obs.trans hcs.2.2.2.2.2.2.2.2.2.2.2.2.2.2.1).trans (by rw [e1])
  · exact (hall.n_class.trans hcs.2.2.2.2.2.2.2.2.2.2.2.2.2.1).trans (by rw [e1])
  · exact (hall.n_features.trans hcs.2.2.2.2.2.2.2.2.2.2.2.2.1).trans (by rw [e1])

end fitted

section leaves

variable {T : Type} [LinearOrderedField T]

theorem leaf_inv_entry (E : externals T) (st1 : decision_tree T) (hn : st1.tree = [])
    (hq : st1.nodes_to_treat = []) (hp : st1.predict_proba_opt = true)
    (hls : st1.samples_idx.length = st1.n_obs.toNat) :
    leaf_inv (queue_root (rooted (configured E st1))) := by
  obtain ⟨hN, _, _, _, h0, hall⟩ := entry_nodes E st1 hn hq hp
  obtain ⟨queue, eq, _⟩ := queue_root_frame (rooted (configured E st1))
  have hcs := configured_settings E st1
  have hoC : (configured E st1).n_obs = st1.n_obs := hcs.2.2.2.2.2.2.2.2.2.2.2.2.2.2.1
  have hSo : (queue_root (rooted (configured E st1))).n_obs = st1.n_obs := by
    rw [eq]; exact hoC
  refine ⟨?_, ?_, ?_⟩
  · rw [hSo, eq]
    show (configured E st1).samples_idx.length = _
    rw [hcs.2.2.2.2.2.2.2.2.2.2.2.2.2.2.2.2.2.2, hls]
  · intro nd hnd
    rw [h0] at hnd
    rw [← Option.some.inj hnd, hSo]
    exact ⟨rfl, by show (configured E st1).n_obs - 1 = _; rw [hoC]⟩
  · intro k k' nd nd' hk hk' hkN hkN' _ _ hne
    have e1 := (hall k nd hk hkN).1
    have e2 := (hall k' nd' hk' hkN').1
    exact absurd (e1.trans e2.symm) hne

theorem leaf_inv_no_split (E : externals T) (fr : fit_frame T) (nd : node T)
    (h : leaf_inv fr.st)
    (hperm : perm_within fr.st.samples_idx (after_features E fr nd).st.samples_idx
      nd.start_idx nd.end_idx) :
    leaf_inv ({ (after_features E fr nd).st with
      n_leaves := (after_features E fr nd).st.n_leaves + 1 } : decision_tree T) := by
  obtain ⟨v, fv, cl, cr, fi, mt, hA⟩ := after_features_frame E fr nd
  have hAt : (after_features E fr nd).st.tree = fr.st.tree := by rw [hA]
  have hAn : (after_features E fr nd).st.n_nodes = fr.st.n_nodes := by rw [hA]
  have hAo : (after_features E fr nd).st.n_obs = fr.st.n_obs := by rw [hA]
  refine ⟨?_, ?_, ?_⟩
  · show (after_features E fr nd).st.samples_idx.length
      = (after_features E fr nd).st.n_obs.toNat
    rw [perm_within_length hperm, hAo]; exact h.hlen
  · intro kd hk
    have hk' : tree_at (after_features E fr nd).st.tree 0 = some kd := hk
    rw [hAt] at hk'
    show _ ∧ kd.end_idx = (after_features E fr nd).st.n_obs - 1
    rw [hAo]
    exact h.hroot kd hk'
  · intro k k' kd kd' hk hk' hkN hkN' hl hl' hne
    have hk1 : tree_at (after_features E fr nd).st.tree k = some kd := hk
    have hk1' : tree_at (after_features E fr nd).st.tree k' = some kd' := hk'
    have hkN1 : k < (after_features E fr nd).st.n_nodes := hkN
    have hkN1' : k' < (after_features E fr nd).st.n_nodes := hkN'
    rw [hAt] at hk1 hk1'
    rw [hAn] at hkN1 hkN1'
    exact h.hdisj k k' kd kd' hk1 hk1' hkN1 hkN1' hl hl' hne

/-- The leaves after an iteration that splits the node at `q`, a leaf until then. -/
theorem leaf_inv_split_core (s0 stA : decision_tree T) (q : Int) (nd : node T)
    (b : split T) (h : leaf_inv s0) (hnd : tree_at s0.tree q = some nd)
    (hq0 : q < s0.n_nodes) (hqleaf : nd.is_leaf = true)
    (hAt : stA.tree = s0.tree) (hAn : stA.n_nodes = s0.n_nodes) (hAo : stA.n_obs = s0.n_obs)
    (hokA : array_ok stA) (hlenA : stA.samples_idx.length = s0.samples_idx.length)
    (hpermB : perm_within stA.samples_idx (split_state stA q nd b).samples_idx
      nd.start_idx nd.end_idx)
    (hs : nd.start_idx ≤ b.samp_idx ∧ b.samp_idx < nd.end_idx) :
    leaf_inv (split_state stA q nd b) := by
  have hqA : q < stA.n_nodes := by rw [hAn]; exact hq0
  have hndA : tree_at stA.tree q = some nd := by rw [hAt]; exact hnd
  have hSo : (split_state stA q nd b).n_obs = s0.n_obs :=
    (same_settings_split_state stA q nd b).n_obs.trans hAo
  have hview := split_state_nodes stA q nd b hokA hndA hqA
  have hRf := right_child_fields stA q nd b
  have hLf := left_child_fields stA q nd b
  have hPf := parent_after_fields stA nd b
  have hother : ∀ k kd, k ≠ q → k < stA.n_nodes → tree_at stA.tree k = some kd →
      kd.is_leaf = true → kd.end_idx < nd.start_idx ∨ nd.end_idx < kd.start_idx := by
    intro k kd hkq hkN hk hl
    exact h.hdisj k q kd nd (by rw [← hAt]; exact hk) hnd (by rw [← hAn]; exact hkN) hq0 hl
      hqleaf hkq
  refine ⟨?_, ?_, ?_⟩
  · rw [perm_within_length hpermB, hlenA, hSo]; exact h.hlen
  · intro kd hk
    rw [hSo]
    have hN := hokA.hN
    obtain ⟨x, hx⟩ := tree_at_of_bounds stA.tree 0 (le_refl _) (by omega)
    obtain ⟨c1, hc1, e1, e2, _, _⟩ := split_state_old_node stA q nd b hokA hndA hqA 0 x hx
      (by omega)
    rw [hk] at hc1
    have := Option.some.inj hc1
    subst this
    rw [e1, e2]
    exact h.hroot x (by rw [← hAt]; exact hx)
  · intro k k' kd kd' hk hk' hkN hkN' hl hl' hne
    rw [split_state_n_nodes] at hkN hkN'
    rcases hview k kd hk hkN with ⟨_, e⟩ | ⟨e0, e⟩ | ⟨e0, e⟩ | ⟨hkq, hk3, hk4⟩
    · rw [e] at hl; exact absurd hl (by simp [hPf])
    · rcases hview k' kd' hk' hkN' with ⟨_, e'⟩ | ⟨e0', e'⟩ | ⟨e0', e'⟩ | ⟨hkq', hk3', hk4'⟩
      · rw [e'] at hl'; exact absurd hl' (by simp [hPf])
      · exact absurd (e0.trans e0'.symm) hne
      · rw [e, e']; simp only [hRf, hLf]; right; clear * - hs; omega
      · have := hother k' kd' hkq' hk3' hk4' hl'
        rw [e]; simp only [hRf]; clear * - this hs; omega
    · rcases hview k' kd' hk' hkN' with ⟨_, e'⟩ | ⟨e0', e'⟩ | ⟨e0', e'⟩ | ⟨hkq', hk3', hk4'⟩
      · rw [e'] at hl'; exact absurd hl' (by simp [hPf])
      · rw [e, e']; simp only [hRf, hLf]; left; clear * - hs; omega
      · exact absurd (e0.trans e0'.symm) hne
      · have := hother k' kd' hkq' hk3' hk4' hl'
        rw [e]; simp only [hLf]; clear * - this hs; omega
    · have h1 := hother k kd hkq hk3 hk4 hl
      rcases hview k' kd' hk' hkN' with ⟨_, e'⟩ | ⟨e0', e'⟩ | ⟨e0', e'⟩ | ⟨hkq', hk3', hk4'⟩
      · rw [e'] at hl'; exact absurd hl' (by simp [hPf])
      · rw [e']; simp only [hRf]; clear * - h1 hs; omega
      · rw [e']; simp only [hLf]; clear * - h1 hs; omega
      · exact h.hdisj k k' kd kd' (by rw [← hAt]; exact hk4) (by rw [← hAt]; exact hk4')
          (by rw [← hAn]; exact hk3) (by rw [← hAn]; exact hk3') hl hl' hne

/-- An iteration of the loop of `fit` keeps the leaves apart. -/
theorem leaf_inv_step (E : externals T) (hE : E.conforms) (fr fr' : fit_frame T)
    (hi : fit_inv fr.st) (h : leaf_inv fr.st) (hne : fr.st.nodes_to_treat ≠ [])
    (hs : fit_step E fr = outcome.done fr') : leaf_inv fr'.st := by
  obtain ⟨nd, hnd, hmem, hpop⟩ := popped_of_done E fr fr' hne hs
  have hq := hi.tree.hqueue _ hmem
  have hf := step_facts_of_inv E hE fr nd hi.tree hi.range hnd hpop
  rcases fit_step_cases E fr fr' nd hnd hi.tree.ok hq hs with ⟨_, e⟩ | ⟨hb, e⟩
  · rw [e]; exact leaf_inv_no_split E fr nd h hf.hperm
  · rw [e]
    exact leaf_inv_split_core fr.st (after_features E fr nd).st (popped_idx fr) nd
      (after_features E fr nd).best_split h hnd hf.hq
      (hi.range.hqleaf _ hmem nd hnd) hf.hAt hf.hAn
      (same_settings_after_features E fr nd).n_obs hf.hokA (perm_within_length hf.hperm)
      (split_state_perm E fr nd hf hb) (hf.hfi.hbest hb)

/-- In a fitted tree the root spans the samples used and the leaves are apart. -/
theorem fit_leaf_inv (E : externals T) (hE : E.conforms) (st0 st : decision_tree T)
    (hr : fit_ready st0) (hf : fit E st0 = outcome.done (da_status.da_status_success, st)) :
    leaf_inv st := by
  obtain ⟨st1, fr, ho, hp, hl, e⟩ := fit_done_unfold E st0 st _ hr hf rfl
  obtain ⟨pp, md, me, mns, mss, bo, nf', sd', ft, mi, pt, sm, e1⟩ :=
    read_options_frame st0 st1 ho
  have ht1 : st1.tree = [] := by rw [e1]; exact hr.no_tree
  have hq1 : st1.nodes_to_treat = [] := by rw [e1]; exact hr.no_queue
  have hentry := fit_inv_entry E st1 ht1 hq1 hp (by rw [e1]; exact hr.n_obs_nonneg)
    (by rw [e1]; exact hr.len_samples) (by rw [e1]; exact hr.len_values)
    (by rw [e1]; exact hr.len_counts)
  have hleaf := leaf_inv_entry E st1 ht1 hq1 hp (by rw [e1]; exact hr.len_samples)
  have := fit_loop_ind E (fun fr => fit_inv fr.st ∧ leaf_inv fr.st)
    (fun fr fr' h hne hs => ⟨fit_inv_step E hE fr fr' h.1 hne hs,
      leaf_inv_step E hE fr fr' h.1 h.2 hne hs⟩)
    _ _ fr ⟨hentry, hleaf⟩ hl
  rw [e]
  exact ⟨this.1.2.hlen, this.1.2.hroot, this.1.2.hdisj⟩

/-- A node below a node in use is in use, and its range lies within the range of that
node. -/
theorem below_within (st : decision_tree T) (hi : fit_inv st) (k j : Int)
    (hb : below st.tree k j) :
    ∀ nd jd, tree_at st.tree k = some nd → k < st.n_nodes → tree_at st.tree j = some jd →
      j < st.n_nodes ∧ nd.start_idx ≤ jd.start_idx ∧ jd.end_idx ≤ nd.end_idx := by
  induction hb with
  | self k =>
    intro nd jd hk hkN hj
    rw [hk] at hj
    rw [← Option.some.inj hj]
    exact ⟨hkN, le_refl _, le_refl _⟩
  | left k j kd h hl _ ih =>
    intro nd jd hk hkN hj
    rw [h] at hk
    have := Option.some.inj hk
    subst this
    obtain ⟨l, r, hl', hr', e1, e2, e3, n1, n2, _⟩ := hi.range.hkids k kd h hkN hl
    have hc := hi.tree.hchild k kd h hkN hl
    have := ih l jd hl' hc.2.2 hj
    exact ⟨this.1, by omega, by omega⟩
  | right k j kd h hl _ ih =>
    intro nd jd hk hkN hj
    rw [h] at hk
    have := Option.some.inj hk
    subst this
    obtain ⟨l, r, hl', hr', e1, e2, e3, n1, n2, _⟩ := hi.range.hkids k kd h hkN hl
    have hc := hi.tree.hchild k kd h hkN hl
    have := ih r jd hr' (by omega) hj
    exact ⟨this.1, by omega, by omega⟩

/-- Every position of the range of a node in use lies in the range of a leaf below it. -/
theorem below_covers (st : decision_tree T) (hi : fit_inv st) :
    ∀ (m : Nat) (k : Int) (nd : node T), (st.n_nodes - k).toNat ≤ m →
      tree_at st.tree k = some nd → k < st.n_nodes →
      ∀ i, nd.start_idx ≤ i → i ≤ nd.end_idx →
        ∃ j jd, below st.tree k j ∧ tree_at st.tree j = some jd ∧ jd.is_leaf = true
          ∧ j < st.n_nodes ∧ jd.start_idx ≤ i ∧ i ≤ jd.end_idx := by
  intro m
  induction m with
  | zero => intro k nd hm hk hkN; omega
  | succ m ih =>
    intro k nd hm hk hkN i hi1 hi2
    cases hleaf : nd.is_leaf with
    | true => exact ⟨k, nd, below.self k, hk, hleaf, hkN, hi1, hi2⟩
    | false =>
      obtain ⟨l, r, hl', hr', e1, e2, e3, n1, n2, _⟩ := hi.range.hkids k nd hk hkN hleaf
      have hc := hi.tree.hchild k nd hk hkN hleaf
      by_cases hil : i ≤ l.end_idx
      · obtain ⟨j, jd, hb, hj, hjl, hjN, g1, g2⟩ := ih nd.left_child_idx l (by omega) hl'
          hc.2.2 i (by omega) hil
        exact ⟨j, jd, below.left k j nd hk hleaf hb, hj, hjl, hjN, g1, g2⟩
      · obtain ⟨j, jd, hb, hj, hjl, hjN, g1, g2⟩ := ih nd.right_child_idx r (by omega) hr'
          (by omega) i (by omega) (by omega)
        exact ⟨j, jd, below.right k j nd hk hleaf hb, hj, hjl, hjN, g1, g2⟩

end leaves

/-! ## What `find_best_split` records -/

section sweep_spec

variable {T : Type} [LinearOrderedField T]

theorem left_counts_succ (st : decision_tree T) (nd : node T) (p : Int)
    (h : nd.start_idx ≤ p) :
    left_counts st nd p
      = vec_set (left_counts st nd (p - 1)) (st.y (vec_get st.samples_idx p 0))
          (vec_get (left_counts st nd (p - 1)) (st.y (vec_get st.samples_idx p 0)) 0 + 1) := by
  unfold left_counts count_class_occurences
  rw [for_range_succ _ _ _ _ h, sub_add_cancel]

theorem moved_right_succ (st : decision_tree T) (nd : node T) (p : Int)
    (h : nd.start_idx ≤ p) :
    moved_right st nd (p + 1)
      = vec_set (moved_right st nd p) (st.y (vec_get st.samples_idx p 0))
          (vec_get (moved_right st nd p) (st.y (vec_get st.samples_idx p 0)) 0 - 1) := by
  unfold moved_right
  rw [for_range_succ _ _ _ _ h]

theorem sweep_mid_of_move (st : decision_tree T) (nd : node T) (s : sweep T)
    (h : sweep_at st nd s) : sweep_mid st nd (sweep.move st s s.sidx) := by
  refine ⟨h.hge, ?_, ?_, ?_, ?_⟩
  · show vec_set s.count_left_classes _ _ = left_counts st nd s.sidx
    rw [left_counts_succ st nd s.sidx h.hge, h.hleft]
  · show vec_set s.count_right_classes _ _ = moved_right st nd (s.sidx + 1)
    rw [moved_right_succ st nd s.sidx h.hge, h.hright]
  · show s.ns_left + 1 = s.sidx - nd.start_idx + 1
    rw [h.hnl]
  · show s.ns_right - 1 = nd.n_samples - (s.sidx - nd.start_idx + 1)
    rw [h.hnr]; ring

theorem sweep_mid_of_skip (st : decision_tree T) (nd : node T) (s : sweep T)
    (h : sweep_mid st nd s) :
    sweep_mid st nd { sweep.move st s (s.sidx + 1) with sidx := s.sidx + 1 } := by
  have hge : nd.start_idx ≤ s.sidx + 1 := by have := h.hge; omega
  refine ⟨hge, ?_, ?_, ?_, ?_⟩
  · show vec_set s.count_left_classes _ _ = left_counts st nd (s.sidx + 1)
    rw [left_counts_succ st nd (s.sidx + 1) hge, add_sub_cancel_right, h.hleft]
  · show vec_set s.count_right_classes _ _ = moved_right st nd (s.sidx + 1 + 1)
    rw [moved_right_succ st nd (s.sidx + 1) hge, h.hright]
  · show s.ns_left + 1 = s.sidx + 1 - nd.start_idx + 1
    rw [h.hnl]; ring
  · show s.ns_right - 1 = nd.n_samples - (s.sidx + 1 - nd.start_idx + 1)
    rw [h.hnr]; ring

/-- The first half of an iteration of the outer loop: the sample at `sidx` and the samples
at the positions that are too close to their successor move to the left. -/
theorem sweep_advance_spec (st : decision_tree T) (nd : node T) (ft : T) (s : sweep T)
    (h : sweep_at st nd s) :
    sweep_mid st nd (sweep_advance st nd ft s)
      ∧ ∀ t, s.sidx ≤ t → t < (sweep_advance st nd ft s).sidx → too_close st ft t := by
  unfold sweep_advance
  exact skip_close_ind st nd.end_idx ft
    (fun s' => sweep_mid st nd s' ∧ ∀ t, s.sidx ≤ t → t < s'.sidx → too_close st ft t)
    (fun s' h' hc htc => by
      refine ⟨sweep_mid_of_skip st nd s' h'.1, ?_⟩
      intro t ht1 ht2
      have ht2' : t < s'.sidx + 1 := ht2
      by_cases e : t = s'.sidx
      · rw [e]; exact htc
      · exact h'.2 t ht1 (by omega))
    _ _ ⟨sweep_mid_of_move st nd s h, fun t ht1 ht2 => by
      have : t < s.sidx := ht2
      omega⟩

theorem boundary_not_too_close (st : decision_tree T) (nd : node T) (ft : T) (t : Int)
    (h : boundary st nd ft t) : ¬ too_close st ft t := by
  unfold too_close
  exact not_lt.mpr h.2.2

/-- Positions without a boundary add nothing to what `sp` holds. -/
theorem sp_upto_extend (st : decision_tree T) (nd : node T) (ft ms : T) (W Ls Rs : Int → T)
    (p p' : Int) (sp : split T)
    (hno : ∀ t, p ≤ t → t < p' → ¬ boundary st nd ft t)
    (h : sp_upto st nd ft ms W Ls Rs p sp) (hpp : p ≤ p') :
    sp_upto st nd ft ms W Ls Rs p' sp := by
  rcases h with ⟨h1, h2, h3⟩ | ⟨h1, h2, h3, h4, h5, h6, h7, h8, h9, h10⟩
  · left
    refine ⟨h1, h2, fun t hb ht => ?_⟩
    by_cases htp : t < p
    · exact h3 t hb htp
    · exact absurd hb (hno t (by omega) ht)
  · right
    refine ⟨h1, by omega, h3, h4, h5, h6, h7, h8, h9, fun t hb ht1 ht2 => ?_⟩
    by_cases htp : t < p
    · exact h10 t hb ht1 htp
    · exact absurd hb (hno t (by omega) ht2)

/-- The second half of an iteration of the outer loop, at a boundary `p`. -/
theorem sp_upto_eval (st : decision_tree T) (nd : node T) (ft ms : T) (s : sweep T)
    (hm : sweep_mid st nd s) (hb : boundary st nd ft s.sidx)
    (h : sp_upto st nd ft ms (swept_score st nd) (left_impurity st nd)
      (swept_right_score st nd) s.sidx s.sp) :
    sp_upto st nd ft ms (swept_score st nd) (left_impurity st nd)
      (swept_right_score st nd) (s.sidx + 1) (sweep_eval st nd ms s).sp := by
  have hL : st.score_function s.ns_left st.n_class s.count_left_classes
      = left_impurity st nd s.sidx := by
    unfold left_impurity
    rw [hm.hnl, hm.hleft]
  have hR : st.score_function s.ns_right st.n_class s.count_right_classes
      = swept_right_score st nd s.sidx := by
    unfold swept_right_score
    rw [hm.hnr, hm.hright]
  have hW : (st.score_function s.ns_left st.n_class s.count_left_classes * (s.ns_left : T)
      + st.score_function s.ns_right st.n_class s.count_right_classes * (s.ns_right : T))
        / (nd.n_samples : T) = swept_score st nd s.sidx := by
    unfold swept_score
    rw [hL, hR, hm.hnl, hm.hnr]
  unfold sweep_eval
  simp only
  rw [hW, hL, hR]
  split
  · rename_i hrec
    right
    refine ⟨hb, by show s.sidx < s.sidx + 1; omega, rfl, ?_, hrec.2, rfl, rfl, rfl, ?_, ?_⟩
    · show swept_score st nd s.sidx < nd.score
      rcases h with ⟨_, h2, _⟩ | ⟨_, _, _, h4, _⟩
      · rw [← h2]; exact hrec.1
      · exact lt_trans hrec.1 h4
    · intro t htb htlt
      have htlt' : t < s.sidx := htlt
      show swept_score st nd s.sidx < swept_score st nd t
      rcases h with ⟨_, h2, h3⟩ | ⟨_, _, _, _, _, _, _, _, h9, h10⟩
      · by_contra hcon
        have hle := not_lt.mp hcon
        rw [h2] at hrec
        exact h3 t htb htlt' ⟨lt_of_le_of_lt hle hrec.1, lt_of_le_of_lt hle hrec.2⟩
      · by_cases hts : t < s.sp.samp_idx
        · exact lt_trans hrec.1 (h9 t htb hts)
        · exact lt_of_lt_of_le hrec.1 (h10 t htb (by omega) htlt')
    · intro t htb ht1 ht2
      have ht1' : s.sidx ≤ t := ht1
      have : t = s.sidx := by omega
      rw [this]
  · rename_i hrec
    rcases h with ⟨h1, h2, h3⟩ | ⟨h1, h2, h3, h4, h5, h6, h7, h8, h9, h10⟩
    · left
      refine ⟨h1, h2, fun t htb ht => ?_⟩
      by_cases hts : t < s.sidx
      · exact h3 t htb hts
      · have : t = s.sidx := by omega
        rw [this]
        intro hc
        apply hrec
        rw [h2]
        exact hc
    · right
      refine ⟨h1, by omega, h3, h4, h5, h6, h7, h8, h9, fun t htb ht1 ht2 => ?_⟩
      by_cases hts : t < s.sidx
      · exact h10 t htb ht1 hts
      · have : t = s.sidx := by omega
        rw [this]
        by_contra hcon
        have hlt := not_le.mp hcon
        exact hrec ⟨hlt, lt_trans hlt h5⟩

/-- What `find_best_split` leaves in `sp`, in terms of the scores it computes: `feat_idx`
is untouched, and either no split is recorded and no boundary qualifies, or the recorded
position is the first boundary with the least split score. -/
theorem find_best_split_swept (st : decision_tree T) (nd : node T) (ft ms : T)
    (sp : split T) :
    (find_best_split st nd ft ms sp).2.feat_idx = sp.feat_idx
      ∧ sp_upto st nd ft ms (swept_score st nd) (left_impurity st nd)
          (swept_right_score st nd) nd.end_idx (find_best_split st nd ft ms sp).2 := by
  have key := sweep_loop_ind st nd ft ms
    (fun s => sweep_at st nd s ∧ s.sp.feat_idx = sp.feat_idx
      ∧ sp_upto st nd ft ms (swept_score st nd) (left_impurity st nd)
          (swept_right_score st nd) s.sidx s.sp)
    (fun s => s.sp.feat_idx = sp.feat_idx
      ∧ sp_upto st nd ft ms (swept_score st nd) (left_impurity st nd)
          (swept_right_score st nd) nd.end_idx s.sp)
    (fun s hs hc => by
      beta_reduce at hs ⊢
      refine ⟨hs.2.1, ?_⟩
      rcases hs.2.2 with ⟨h1, h2, h3⟩ | ⟨h1, h2, h3, h4, h5, h6, h7, h8, h9, h10⟩
      · left
        exact ⟨h1, h2, fun t hb _ => h3 t hb (by have := hb.2.1; omega)⟩
      · right
        exact ⟨h1, by have := h1.2.1; omega, h3, h4, h5, h6, h7, h8, h9,
          fun t hb ht1 _ => h10 t hb ht1 (by have := hb.2.1; omega)⟩)
    (fun s hs hc he => by
      beta_reduce at hs ⊢
      obtain ⟨_, hclose⟩ := sweep_advance_spec st nd ft s hs.1
      rw [sweep_advance_sp]
      refine ⟨hs.2.1, ?_⟩
      have hge := sweep_advance_sidx_ge st nd ft s
      rw [← he]
      exact sp_upto_extend st nd ft ms _ _ _ s.sidx _ s.sp
        (fun t ht1 ht2 hb => boundary_not_too_close st nd ft t hb (hclose t ht1 ht2))
        hs.2.2 hge)
    (fun s hs hc hne => by
      beta_reduce at hs ⊢
      obtain ⟨hmid, hclose⟩ := sweep_advance_spec st nd ft s hs.1
      have hge := sweep_advance_sidx_ge st nd ft s
      have hle := sweep_advance_sidx_le st nd ft s (by omega)
      have hex := sweep_advance_exit st nd ft s
      have hsp := sweep_advance_sp st nd ft s
      have hlt : (sweep_advance st nd ft s).sidx < nd.end_idx := lt_of_le_of_ne hle hne
      have hnc : ¬ too_close st ft (sweep_advance st nd ft s).sidx :=
        fun h => hex ⟨by omega, h⟩
      have hb : boundary st nd ft (sweep_advance st nd ft s).sidx := by
        refine ⟨by have := hs.1.hge; omega, by omega, ?_⟩
        unfold too_close at hnc
        exact not_lt.mp hnc
      have hup := sp_upto_extend st nd ft ms (swept_score st nd) (left_impurity st nd)
        (swept_right_score st nd) s.sidx (sweep_advance st nd ft s).sidx s.sp
        (fun t ht1 ht2 hbt => boundary_not_too_close st nd ft t hbt (hclose t ht1 ht2))
        hs.2.2 hge
      rw [← hsp] at hup
      refine ⟨?_, ?_, ?_⟩
      · refine ⟨by simp only [sweep_eval_sidx]; have := hs.1.hge; omega, ?_, ?_, ?_, ?_⟩
        · show (sweep_advance st nd ft s).count_left_classes
            = left_counts st nd ((sweep_advance st nd ft s).sidx + 1 - 1)
          rw [add_sub_cancel_right]; exact hmid.hleft
        · exact hmid.hright
        · show (sweep_advance st nd ft s).ns_left
            = (sweep_advance st nd ft s).sidx + 1 - nd.start_idx
          rw [hmid.hnl]; ring
        · show (sweep_advance st nd ft s).ns_right
            = nd.n_samples - ((sweep_advance st nd ft s).sidx + 1 - nd.start_idx)
          rw [hmid.hnr]; ring
      · unfold sweep_eval
        simp only
        split <;> simp [hsp, hs.2.1]
      · exact sp_upto_eval st nd ft ms _ hmid hb hup)
    (nd.end_idx - nd.start_idx).toNat
    { sidx := nd.start_idx,
      count_left_classes := vec_fill st.count_left_classes 0,
      count_right_classes := vec_copy st.count_classes st.count_right_classes,
      ns_left := 0, ns_right := nd.n_samples, left_score := 0, right_score := nd.score,
      sp := { sp with score := nd.score, samp_idx := -1 } }
    (le_refl _)
    ⟨⟨le_refl _, by
        show vec_fill st.count_left_classes 0 = left_counts st nd (nd.start_idx - 1)
        unfold left_counts count_class_occurences
        rw [for_range_of_le _ _ _ _ (by omega)],
      by
        show vec_copy st.count_classes st.count_right_classes = moved_right st nd nd.start_idx
        unfold moved_right
        rw [for_range_of_le _ _ _ _ (le_refl _)],
      by show (0 : Int) = nd.start_idx - nd.start_idx; ring,
      by show nd.n_samples = nd.n_samples - (nd.start_idx - nd.start_idx); ring⟩,
      rfl, Or.inl ⟨rfl, rfl, fun t hb ht => by
        have h1 := hb.1
        have h2 : t < nd.start_idx := ht
        omega⟩⟩
  exact key

end sweep_spec

/-! ## The locals `sp` and `best_split` of `fit` -/

section split_locals

variable {T : Type} [LinearOrderedField T]

theorem skip_close_sp (st : decision_tree T) (end_idx : Int) (ft : T) :
    ∀ (fuel : Nat) (s : sweep T) (sp' : split T),
      skip_close st end_idx ft fuel { s with sp := sp' }
        = { skip_close st end_idx ft fuel s with sp := sp' } := by
  intro fuel
  induction fuel with
  | zero => intro s sp'; rfl
  | succ n ih =>
    intro s sp'
    by_cases hc : s.sidx + 1 ≤ end_idx ∧
        |vec_get st.feature_values (s.sidx + 1) 0 - vec_get st.feature_values s.sidx 0| < ft
    · have e1 : skip_close st end_idx ft (n + 1) s
          = skip_close st end_idx ft n
              { sweep.move st s (s.sidx + 1) with sidx := s.sidx + 1 } := by
        rw [skip_close]; exact if_pos hc
      have e2 : skip_close st end_idx ft (n + 1) { s with sp := sp' }
          = skip_close st end_idx ft n
              { { sweep.move st s (s.sidx + 1) with sidx := s.sidx + 1 } with sp := sp' } := by
        rw [skip_close]; exact if_pos hc
      rw [e1, e2]
      exact ih _ sp'
    · have e1 : skip_close st end_idx ft (n + 1) s = s := by
        rw [skip_close]; exact if_neg hc
      have e2 : skip_close st end_idx ft (n + 1) { s with sp := sp' } = { s with sp := sp' } := by
        rw [skip_close]; exact if_neg hc
      rw [e1, e2]

theorem sweep_advance_with_sp (st : decision_tree T) (nd : node T) (ft : T) (s : sweep T)
    (sp' : split T) :
    sweep_advance st nd ft { s with sp := sp' } = { sweep_advance st nd ft s with sp := sp' } :=
  skip_close_sp st nd.end_idx ft _ (sweep.move st s s.sidx) sp'

theorem sweep_eval_with_sp (st : decision_tree T) (nd : node T) (ms : T) (s : sweep T)
    (sp' : split T) :
    sweep_eval st nd ms { s with sp := sp' }
      = { sweep_eval st nd ms s with sp := (sweep_eval st nd ms { s with sp := sp' }).sp } :=
  rfl

theorem sweep_eval_agree (st : decision_tree T) (nd : node T) (ms : T) (s : sweep T)
    (sp' : split T) (h : sp_agree nd s.sp sp') :
    sp_agree nd (sweep_eval st nd ms s).sp (sweep_eval st nd ms { s with sp := sp' }).sp := by
  obtain ⟨h1, h2, h3, h4⟩ := h
  by_cases hc : (st.score_function s.ns_left st.n_class s.count_left_classes * (s.ns_left : T)
      + st.score_function s.ns_right st.n_class s.count_right_classes * (s.ns_right : T))
        / (nd.n_samples : T) < s.sp.score
      ∧ (st.score_function s.ns_left st.n_class s.count_left_classes * (s.ns_left : T)
      + st.score_function s.ns_right st.n_class s.count_right_classes * (s.ns_right : T))
        / (nd.n_samples : T) < ms
  · have hc' := hc
    rw [h3] at hc'
    have e1 : (sweep_eval st nd ms s).sp = _ := if_pos hc
    have e2 : (sweep_eval st nd ms { s with sp := sp' }).sp = _ := if_pos hc'
    rw [e1, e2]
    exact ⟨h1, rfl, rfl, fun _ => ⟨rfl, rfl, rfl⟩⟩
  · have hc' := hc
    rw [h3] at hc'
    have e1 : (sweep_eval st nd ms s).sp = s.sp := if_neg hc
    have e2 : (sweep_eval st nd ms { s with sp := sp' }).sp = sp' := if_neg hc'
    rw [e1, e2]
    exact ⟨h1, h2, h3, h4⟩

/-- The outer loop of `find_best_split` run on two contents of `sp` that agree: the other
locals end equal and the contents of `sp` still agree. -/
theorem sweep_loop_agree (st : decision_tree T) (nd : node T) (ft ms : T) :
    ∀ (fuel : Nat) (s : sweep T) (sp' : split T), sp_agree nd s.sp sp' →
      sweep_loop st nd ft ms fuel { s with sp := sp' }
          = { sweep_loop st nd ft ms fuel s with
              sp := (sweep_loop st nd ft ms fuel { s with sp := sp' }).sp }
        ∧ sp_agree nd (sweep_loop st nd ft ms fuel s).sp
            (sweep_loop st nd ft ms fuel { s with sp := sp' }).sp := by
  intro fuel
  induction fuel with
  | zero => intro s sp' h; exact ⟨rfl, h⟩
  | succ n ih =>
    intro s sp' h
    by_cases hc : s.sidx ≤ nd.end_idx - 1
    · by_cases he : (sweep_advance st nd ft s).sidx = nd.end_idx
      · have he' : (sweep_advance st nd ft { s with sp := sp' }).sidx = nd.end_idx := by
          rw [sweep_advance_with_sp]; exact he
        have e1 : sweep_loop st nd ft ms (n + 1) s = sweep_advance st nd ft s := by
          rw [sweep_loop, if_pos hc]; exact if_pos he
        have e2 : sweep_loop st nd ft ms (n + 1) { s with sp := sp' }
            = sweep_advance st nd ft { s with sp := sp' } := by
          rw [sweep_loop, if_pos hc]; exact if_pos he'
        rw [e1, e2, sweep_advance_with_sp]
        refine ⟨rfl, ?_⟩
        rw [sweep_advance_sp]
        exact h
      · have he' : ¬ (sweep_advance st nd ft { s with sp := sp' }).sidx = nd.end_idx := by
          rw [sweep_advance_with_sp]; exact he
        have e1 : sweep_loop st nd ft ms (n + 1) s
            = sweep_loop st nd ft ms n (sweep_eval st nd ms (sweep_advance st nd ft s)) := by
          rw [sweep_loop, if_pos hc]; exact if_neg he
        have e2 : sweep_loop st nd ft ms (n + 1) { s with sp := sp' }
            = sweep_loop st nd ft ms n
                (sweep_eval st nd ms (sweep_advance st nd ft { s with sp := sp' })) := by
          rw [sweep_loop, if_pos hc]; exact if_neg he'
        rw [e1, e2, sweep_advance_with_sp, sweep_eval_with_sp]
        apply ih
        apply sweep_eval_agree
        rw [sweep_advance_sp]
        exact h
    · have e1 : sweep_loop st nd ft ms (n + 1) s = s := by
        rw [sweep_loop]; exact if_neg hc
      have e2 : sweep_loop st nd ft ms (n + 1) { s with sp := sp' } = { s with sp := sp' } := by
        rw [sweep_loop]; exact if_neg hc
      rw [e1, e2]
      exact ⟨rfl, h⟩

/-- The member `find_best_split` reads of `sp` only `feat_idx`: on two contents of `sp` with
the same `feat_idx` it leaves the same instance and contents of `sp` that agree. -/
theorem find_best_split_agree (st : decision_tree T) (nd : node T) (ft ms : T)
    (sp sp' : split T) (h : sp.feat_idx = sp'.feat_idx) :
    (find_best_split st nd ft ms sp').1 = (find_best_split st nd ft ms sp).1
      ∧ sp_agree nd (find_best_split st nd ft ms sp).2 (find_best_split st nd ft ms sp').2 := by
  have key := sweep_loop_agree st nd ft ms (nd.end_idx - nd.start_idx).toNat
    { sidx := nd.start_idx,
      count_left_classes := vec_fill st.count_left_classes 0,
      count_right_classes := vec_copy st.count_classes st.count_right_classes,
      ns_left := 0, ns_right := nd.n_samples, left_score := 0, right_score := nd.score,
      sp := { sp with score := nd.score, samp_idx := -1 } }
    { sp' with score := nd.score, samp_idx := -1 }
    ⟨h, rfl, rfl, fun hlt => absurd hlt (lt_irrefl _)⟩
  refine ⟨?_, key.2⟩
  unfold find_best_split find_best_split_sweep
  simp only
  have k1 := key.1
  simp only at k1
  rw [k1]

theorem split_eq_of_fields (a b : split T) (h1 : a.feat_idx = b.feat_idx)
    (h2 : a.samp_idx = b.samp_idx) (h3 : a.score = b.score) (h4 : a.threshold = b.threshold)
    (h5 : a.left_score = b.left_score) (h6 : a.right_score = b.right_score) : a = b := by
  cases a; cases b
  simp only at h1 h2 h3 h4 h5 h6
  simp [h1, h2, h3, h4, h5, h6]

/-- One candidate feature keeps two frames in agreement. -/
theorem feature_loop_body_agree (E : externals T) (nd : node T) (ms : T) (j : Int)
    (fr fr' : fit_frame T) (h : frame_agree nd fr fr') :
    frame_agree nd (feature_loop_body E nd ms j fr) (feature_loop_body E nd ms j fr') := by
  obtain ⟨hst, hb⟩ := h
  have hfb := find_best_split_agree
    (sort_samples E fr.st nd (vec_get fr.st.features_idx j 0)) nd
    (sort_samples E fr.st nd (vec_get fr.st.features_idx j 0)).feat_thresh ms
    { fr.sp with feat_idx := vec_get fr.st.features_idx j 0 }
    { fr'.sp with feat_idx := vec_get fr.st.features_idx j 0 } rfl
  unfold frame_agree feature_loop_body
  simp only
  rw [hst]
  refine ⟨hfb.1, ?_⟩
  obtain ⟨g1, g2, g3, g4⟩ := hfb.2
  generalize (find_best_split (sort_samples E fr.st nd (vec_get fr.st.features_idx j 0)) nd
    (sort_samples E fr.st nd (vec_get fr.st.features_idx j 0)).feat_thresh ms
    { fr.sp with feat_idx := vec_get fr.st.features_idx j 0 }).2 = r at g1 g2 g3 g4 ⊢
  generalize (find_best_split (sort_samples E fr.st nd (vec_get fr.st.features_idx j 0)) nd
    (sort_samples E fr.st nd (vec_get fr.st.features_idx j 0)).feat_thresh ms
    { fr'.sp with feat_idx := vec_get fr.st.features_idx j 0 }).2 = r' at g1 g2 g3 g4 ⊢
  have hscore : fr'.best_split.score = fr.best_split.score := by
    rcases hb with ⟨_, e⟩ | ⟨e1, e2, _, _⟩
    · rw [e]
    · rw [e1, e2]
  have hle : fr.best_split.score ≤ nd.score := by
    rcases hb with ⟨e, _⟩ | ⟨e1, _, _, _⟩
    · exact le_of_lt e
    · exact le_of_eq e1
  by_cases hc : r.score < fr.best_split.score
  · have hc' : r'.score < fr'.best_split.score := by rw [← g3, hscore]; exact hc
    rw [if_pos hc, if_pos hc']
    have hlt : r.score < nd.score := lt_of_lt_of_le hc hle
    obtain ⟨g5, g6, g7⟩ := g4 hlt
    left
    refine ⟨hlt, ?_⟩
    rw [split_eq_of_fields r' r g1.symm g2.symm g3.symm g5.symm g6.symm g7.symm]
    rfl
  · have hc' : ¬ r'.score < fr'.best_split.score := by rw [← g3, hscore]; exact hc
    rw [if_neg hc, if_neg hc']
    exact hb

theorem for_range_rel {σ : Type} (R : σ → σ → Prop) (lo hi : Int) (body : Int → σ → σ)
    (h : ∀ i s s', R s s' → R (body i s) (body i s')) (s s' : σ) (hs : R s s') :
    R (for_range lo hi body s) (for_range lo hi body s') := by
  unfold for_range
  generalize List.range (hi - lo).toNat = L
  induction L generalizing s s' with
  | nil => exact hs
  | cons x L ih => exact ih _ _ (h _ _ _ hs)

/-- The loop over the candidate features of `nd` does not depend on what the locals `sp`
and `best_split` held before it. -/
theorem after_features_agree (E : externals T) (fr : fit_frame T) (nd : node T)
    (sp' b' : split T) :
    frame_agree nd (after_features E fr nd)
      (after_features E { fr with sp := sp', best_split := b' } nd) := by
  unfold after_features
  exact for_range_rel (frame_agree nd) _ _ _
    (fun i s s' hs => feature_loop_body_agree E nd _ i s s' hs) _ _
    ⟨rfl, Or.inr ⟨rfl, rfl, rfl, rfl⟩⟩

theorem outcome_st_tail (x : outcome (decision_tree T)) (a b a' b' : split T) :
    outcome_st (x.and_then (fun st => outcome.done { st := st, sp := a, best_split := b }))
      = outcome_st
          (x.and_then (fun st => outcome.done { st := st, sp := a', best_split := b' })) := by
  cases x <;> rfl

/-- The instance that an iteration of the loop of `fit` leaves does not depend on what the
locals `sp` and `best_split` held before it. -/
theorem fit_step_locals (E : externals T) (fr : fit_frame T) (sp' b' : split T) :
    outcome_st (fit_step E { fr with sp := sp', best_split := b' })
      = outcome_st (fit_step E fr) := by
  cases h : tree_at fr.st.tree (popped_idx fr) with
  | none =>
    rw [fit_step_out_of_bounds E fr h,
      fit_step_out_of_bounds E { fr with sp := sp', best_split := b' } h]
  | some nd =>
    rw [fit_step_eq E fr nd h, fit_step_eq E { fr with sp := sp', best_split := b' } nd h]
    have hp : popped_idx ({ fr with sp := sp', best_split := b' } : fit_frame T)
        = popped_idx fr := rfl
    rw [hp]
    obtain ⟨hst, hb⟩ := after_features_agree E fr nd sp' b'
    generalize after_features E { fr with sp := sp', best_split := b' } nd = A' at hst hb ⊢
    generalize after_features E fr nd = A at hst hb ⊢
    rcases hb with ⟨_, e⟩ | ⟨_, _, e1, e2⟩
    · rw [hst, e]
      split
      · exact outcome_st_tail _ _ _ _ _
      · rfl
    · rw [if_neg (by simpa using e2), if_neg (by simpa using e1), hst]
      rfl

/-- The instance that the loop of `fit` leaves depends on the externals only through the
sorting and shuffling routines, and not on the locals `sp` and `best_split` on entry. -/
theorem fit_loop_locals (E : externals T) (r : Int) (u : split T) :
    ∀ (fuel : Nat) (fr : fit_frame T) (sp' b' : split T),
      outcome_st (fit_loop { E with random_device := r, uninit_split := u } fuel
          { fr with sp := sp', best_split := b' })
        = outcome_st (fit_loop E fuel fr) := by
  intro fuel
  induction fuel with
  | zero =>
    intro fr sp' b'
    unfold fit_loop
    by_cases hq : fr.st.nodes_to_treat = []
    · rw [if_pos hq, if_pos hq]; rfl
    · rw [if_neg hq, if_neg hq]
  | succ n ih =>
    intro fr sp' b'
    unfold fit_loop
    by_cases hq : fr.st.nodes_to_treat = []
    · rw [if_pos hq, if_pos hq]; rfl
    · rw [if_neg hq, if_neg hq]
      have hE : fit_step { E with random_device := r, uninit_split := u }
          { fr with sp := sp', best_split := b' }
          = fit_step E { fr with sp := sp', best_split := b' } := rfl
      rw [hE]
      have hl := fit_step_locals E fr sp' b'
      cases h1 : fit_step E fr with
      | done f =>
        cases h2 : fit_step E { fr with sp := sp', best_split := b' } with
        | done f' =>
          rw [h1, h2] at hl
          have hst : f'.st = f.st := outcome.done.inj hl
          have := ih f f'.sp f'.best_split
          have ef : ({ f with sp := f'.sp, best_split := f'.best_split } : fit_frame T) = f' := by
            cases f; cases f'
            simp only at hst
            simp [hst]
          rw [ef] at this
          exact this
        | out_of_bounds => rw [h1, h2] at hl; exact absurd hl (by simp [outcome_st, outcome.and_then])
        | out_of_fuel => rw [h1, h2] at hl; exact absurd hl (by simp [outcome_st, outcome.and_then])
      | out_of_bounds =>
        cases h2 : fit_step E { fr with sp := sp', best_split := b' } with
        | done f' => rw [h1, h2] at hl; exact absurd hl (by simp [outcome_st, outcome.and_then])
        | out_of_bounds => rfl
        | out_of_fuel => rw [h1, h2] at hl; exact absurd hl (by simp [outcome_st, outcome.and_then])
      | out_of_fuel =>
        cases h2 : fit_step E { fr with sp := sp', best_split := b' } with
        | done f' => rw [h1, h2] at hl; exact absurd hl (by simp [outcome_st, outcome.and_then])
        | out_of_bounds => rw [h1, h2] at hl; exact absurd hl (by simp [outcome_st, outcome.and_then])
        | out_of_fuel => rfl

end split_locals

section reference

variable {T : Type} [LinearOrderedField T]

theorem insert_by_perm (less : Int → Int → Bool) (a : Int) (l : List Int) :
    (insert_by less a l).Perm (a :: l) := by
  induction l with
  | nil => exact List.Perm.refl _
  | cons b l ih =>
    unfold insert_by
    split
    · exact (List.Perm.cons b ih).trans (List.Perm.swap a b l)
    · exact List.Perm.refl _

theorem insertion_sort_perm (less : Int → Int → Bool) (l : List Int) :
    (insertion_sort less l).Perm l := by
  induction l with
  | nil => exact List.Perm.refl _
  | cons a l ih =>
    unfold insertion_sort
    exact (insert_by_perm less a _).trans (List.Perm.cons a ih)

theorem insert_by_pairwise (key : Int → T) (a : Int) (l : List Int)
    (h : l.Pairwise (fun i1 i2 => key i1 ≤ key i2)) :
    (insert_by (fun i1 i2 => decide (key i1 < key i2)) a l).Pairwise
      (fun i1 i2 => key i1 ≤ key i2) := by
  induction l with
  | nil => simp [insert_by]
  | cons b l ih =>
    unfold insert_by
    obtain ⟨hb, hl⟩ := List.pairwise_cons.mp h
    split
    · rename_i hlt
      have hlt' : key b < key a := by simpa using hlt
      refine List.pairwise_cons.mpr ⟨?_, ih hl⟩
      intro x hx
      have := (insert_by_perm (fun i1 i2 => decide (key i1 < key i2)) a l).mem_iff.mp hx
      rcases List.mem_cons.mp this with e | e
      · rw [e]; exact le_of_lt hlt'
      · exact hb x e
    · rename_i hlt
      have hge : key a ≤ key b := by simpa using hlt
      refine List.pairwise_cons.mpr ⟨?_, h⟩
      intro x hx
      rcases List.mem_cons.mp hx with e | e
      · rw [e]; exact hge
      · exact le_trans hge (hb x e)

theorem insertion_sort_conforms : sort_conforms T insertion_sort := by
  intro key l
  refine ⟨insertion_sort_perm _ l, ?_⟩
  induction l with
  | nil => simp [insertion_sort]
  | cons a l ih =>
    unfold insertion_sort
    exact insert_by_pairwise key a _ ih

/-- The sorting routines of the reference externals conform. -/
theorem reference_externals_conforms : reference_externals.conforms :=
  ⟨insertion_sort_conforms, insertion_sort_conforms⟩

end reference

section predictors

variable {T : Type} [LinearOrderedField T]

theorem eq_done_of_is_success {α : Type} (o : outcome (da_status × α)) (d : α)
    (h : is_success o = true) :
    o = outcome.done (da_status.da_status_success, result_of o d) := by
  unfold is_success at h
  split at h
  · rfl
  · exact absurd h (by simp)

/-- The loop of `predict` over the rows, on a node array of the maintained shape. -/
theorem predict_loop_spec (st : decision_tree T) (h : tree_inv st) (X_test : Int → T)
    (ldx_test nsamp : Int) (buf : List Int) (hbuf : nsamp ≤ buf.length) :
    ∃ out, for_range_run 0 nsamp (predict_row st X_test ldx_test) buf = outcome.done out
      ∧ out.length = buf.length
      ∧ (∀ i, 0 ≤ i → i < nsamp → vec_get out i 0 = label_of st X_test ldx_test i)
      ∧ (∀ i, nsamp ≤ i → vec_get out i 0 = vec_get buf i 0) := by
  by_cases hn : 0 ≤ nsamp
  · obtain ⟨out, e, hlen, hin, hout⟩ := for_range_run_ind
      (fun (k : Int) (b : List Int) => b.length = buf.length
        ∧ (∀ i, 0 ≤ i → i < k → vec_get b i 0 = label_of st X_test ldx_test i)
        ∧ (∀ i, k ≤ i → vec_get b i 0 = vec_get buf i 0))
      0 nsamp (predict_row st X_test ldx_test) buf hn
      ⟨rfl, fun i h0 h1 => by omega, fun i _ => rfl⟩
      (fun k b hk0 hk1 ih => by
        obtain ⟨nd, hd, _, hnd, _, _, hlab⟩ := descend_root st h X_test ldx_test k
        refine ⟨vec_set b k nd.y_pred, ?_, by simp [ih.1], ?_, ?_⟩
        · unfold predict_row
          rw [hd]
          simp only [outcome.and_then, hnd]
        · intro i hi0 hi1
          by_cases hik : i = k
          · subst hik
            rw [vec_get_vec_set_eq _ _ _ _ hi0 (by rw [ih.1]; omega), hlab]
          · rw [vec_get_vec_set_ne _ _ _ _ _ (Ne.symm hik)]
            exact ih.2.1 i hi0 (by omega)
        · intro i hi
          rw [vec_get_vec_set_ne _ _ _ _ _ (by omega)]
          exact ih.2.2 i (by omega))
    exact ⟨out, e, hlen, hin, hout⟩
  · refine ⟨buf, for_range_run_of_le _ _ _ _ (by omega), rfl, fun i h0 h1 => by omega,
      fun i _ => rfl⟩

/-- C2: on every trained tree (an instance that was ready for `fit` and that `fit` trained),
for every query matrix with the trained feature count that the array helper accepts and an
output buffer with room for `nsamp` labels, `predict` succeeds and writes for each row `i`
the `y_pred` of the leaf reached from node 0 by moving left when the row's value of the
node's feature is strictly less than `x_threshold` and right otherwise. -/
theorem predict_writes_label_of_reached_leaf (E : externals T) (st0 st : decision_tree T)
    (hr : fit_ready st0) (hf : fit E st0 = outcome.done (da_status.da_status_success, st))
    (nsamp nfeat : Int) (X_test : Option (Int → T)) (ldx_test : Int) (buf : List Int)
    (mode : Int) (hfeat : nfeat = st.n_features)
    (hstore : (E.store_2D_array nsamp nfeat X_test ldx_test mode).1
      = da_status.da_status_success)
    (hbuf : nsamp ≤ buf.length) :
    ∃ out, predict E st nsamp nfeat X_test ldx_test (some buf) mode
        = outcome.done (da_status.da_status_success, some out)
      ∧ out.length = buf.length
      ∧ ∀ i, 0 ≤ i → i < nsamp →
          ∃ leaf nd,
            reaches st.tree (E.store_2D_array nsamp nfeat X_test ldx_test mode).2.1
              (E.store_2D_array nsamp nfeat X_test ldx_test mode).2.2 i 0 leaf
            ∧ tree_at st.tree leaf = some nd ∧ nd.is_leaf = true
            ∧ vec_get out i 0 = nd.y_pred := by
  subst hfeat
  obtain ⟨hinv, _, htr⟩ := fit_tree_inv E st0 st hr hf
  obtain ⟨out, e, hlen, hin, _⟩ := predict_loop_spec st hinv
    (E.store_2D_array nsamp st.n_features X_test ldx_test mode).2.1
    (E.store_2D_array nsamp st.n_features X_test ldx_test mode).2.2 nsamp buf hbuf
  refine ⟨out, ?_, hlen, ?_⟩
  · unfold predict
    simp only [ne_eq, not_true_eq_false, if_false, htr]
    rw [if_neg (not_not.mpr hstore)]
    show (for_range_run 0 nsamp (predict_row st _ _) buf).and_then _ = _
    rw [e]
    rfl
  · intro i hi0 hi1
    obtain ⟨nd, _, hre, hnd, hl, _, hlab⟩ := descend_root st hinv
      (E.store_2D_array nsamp st.n_features X_test ldx_test mode).2.1
      (E.store_2D_array nsamp st.n_features X_test ldx_test mode).2.2 i
    exact ⟨_, nd, hre, hnd, hl, by rw [hin i hi0 hi1, hlab]⟩

end predictors

/-! ## Error paths of the predictors -/

section error_paths

variable {T : Type} [LinearOrderedField T]

/-- C3: `predict` invoked before training or with a feature count that differs from the
trained `n_features` ends with a failure status and `y_pred` exactly as it was passed; with
a non-null `y_pred` the status is `da_status_invalid_input` whenever the feature count
differs (also when the model is untrained as well) and `da_status_out_of_date` when only
the training is missing. -/
theorem predict_fails_before_training_or_on_feature_mismatch (E : externals T)
    (st : decision_tree T) (nsamp nfeat : Int) (X_test : Option (Int → T)) (ldx_test : Int)
    (y_pred : Option (List Int)) (mode : Int)
    (h : st.model_trained = false ∨ nfeat ≠ st.n_features) :
    ∃ status, predict E st nsamp nfeat X_test ldx_test y_pred mode
        = outcome.done (status, y_pred)
      ∧ status ≠ da_status.da_status_success
      ∧ (y_pred ≠ none →
          (nfeat ≠ st.n_features → status = da_status.da_status_invalid_input)
          ∧ (nfeat = st.n_features → status = da_status.da_status_out_of_date)) := by
  cases y_pred with
  | none => exact ⟨da_status.da_status_invalid_pointer, by simp [predict], by decide, by simp⟩
  | some buf =>
    by_cases hf : nfeat = st.n_features
    · have ht : st.model_trained = false := by
        rcases h with h | h
        · exact h
        · exact absurd hf h
      exact ⟨da_status.da_status_out_of_date, by simp [predict, hf, ht], by decide,
        fun _ => ⟨fun hne => absurd hf hne, fun _ => rfl⟩⟩
    · exact ⟨da_status.da_status_invalid_input, by simp [predict, hf], by decide,
        fun _ => ⟨fun _ => rfl, fun he => absurd he hf⟩⟩

/-- Witness of C3: an untrained instance queried with two features and a two-element
output buffer. -/
theorem predict_fails_before_training_or_on_feature_mismatch_witness :
    ∃ status, predict reference_externals untrained_instance 2 2 none 2 (some [7, 7]) 0
        = outcome.done (status, some [7, 7])
      ∧ status ≠ da_status.da_status_success
      ∧ ((some [7, 7] : Option (List Int)) ≠ none →
          ((2 : Int) ≠ untrained_instance.n_features
            → status = da_status.da_status_invalid_input)
          ∧ ((2 : Int) = untrained_instance.n_features
            → status = da_status.da_status_out_of_date)) :=
  predict_fails_before_training_or_on_feature_mismatch reference_externals
    untrained_instance 2 2 none 2 (some [7, 7]) 0 (Or.inl rfl)

/-- C5: on an instance whose `predict_proba_opt` is off, `predict_proba` returns
`da_status_invalid_input` and the output matrix untouched, whatever the feature count, the
class count and the trained flag are. -/
theorem predict_proba_fails_without_probability_tracking (E : externals T)
    (st : decision_tree T) (nsamp nfeat : Int) (X_test : Option (Int → T)) (ldx_test : Int)
    (y_proba_pred : Option (Int → T)) (nclass ldy mode : Int)
    (h : st.predict_proba_opt = false) :
    predict_proba E st nsamp nfeat X_test ldx_test y_proba_pred nclass ldy mode
      = outcome.done (da_status.da_status_invalid_input, y_proba_pred, ldy) := by
  simp [predict_proba, h]

/-- Witness of C5: the untrained instance, queried with a wrong feature count and a wrong
class count at once. -/
theorem predict_proba_fails_without_probability_tracking_witness :
    predict_proba reference_externals untrained_instance 2 5 none 2 none 9 2 0
      = outcome.done (da_status.da_status_invalid_input, none, 2) :=
  predict_proba_fails_without_probability_tracking reference_externals untrained_instance
    2 5 none 2 none 9 2 0 rfl

end error_paths

theorem scenario_instance_ready (ft : ℚ) (pp : Bool) (mns md : Int) :
    fit_ready (scenario_instance ft pp mns md) :=
  ⟨rfl, rfl, rfl, by show (0 : Int) ≤ 4; decide, rfl, rfl, rfl⟩

set_option maxRecDepth 100000 in
theorem scenario_fit_success :
    fit reference_externals (scenario_instance (1 / 2) true 1 1)
      = outcome.done (da_status.da_status_success, scenario_fitted) :=
  eq_done_of_is_success _ _ (by decide!)

set_option maxRecDepth 100000 in
/-- Witness of C2: the fitted scenario instance, queried with the rows `[1/2]` and `[5/2]`. -/
theorem predict_writes_label_of_reached_leaf_witness :
    fit_ready (scenario_instance (1 / 2) true 1 1)
      ∧ ∃ out, predict reference_externals scenario_fitted 2 1 (some scenario_query) 2
            (some [7, 7]) 0
          = outcome.done (da_status.da_status_success, some out)
        ∧ out.length = [7, 7].length
        ∧ ∀ i, 0 ≤ i → i < 2 →
            ∃ leaf nd,
              reaches scenario_fitted.tree
                (reference_externals.store_2D_array 2 1 (some scenario_query) 2 0).2.1
                (reference_externals.store_2D_array 2 1 (some scenario_query) 2 0).2.2 i 0 leaf
              ∧ tree_at scenario_fitted.tree leaf = some nd ∧ nd.is_leaf = true
              ∧ vec_get out i 0 = nd.y_pred :=
  ⟨scenario_instance_ready _ _ _ _,
    predict_writes_label_of_reached_leaf reference_externals
      (scenario_instance (1 / 2) true 1 1) scenario_fitted (scenario_instance_ready _ _ _ _)
      scenario_fit_success 2 1 (some scenario_query) 2 [7, 7] 0 (by decide!) (by decide!)
      (by decide)⟩

section c10

variable {T : Type} [LinearOrderedField T]

end c10

theorem tree_at_getD {T : Type} (tree : List (node T)) (k : Int) (d : node T) (h0 : 0 ≤ k)
    (h1 : k.toNat < tree.length) : tree_at tree k = some (tree.getD k.toNat d) := by
  unfold tree_at
  rw [if_neg (by omega)]
  simp [List.getD_eq_getElem?_getD, List.getElem?_eq_getElem h1]

theorem tie_instance_ready (ft : ℚ) : fit_ready (tie_instance ft) :=
  ⟨rfl, rfl, rfl, by show (0 : Int) ≤ 2; decide, rfl, rfl, rfl⟩

set_option maxRecDepth 100000 in
theorem tie_fit_success :
    fit reference_externals (tie_instance 0)
      = outcome.done (da_status.da_status_success, tie_fitted) :=
  eq_done_of_is_success _ _ (by decide!)

section c4

variable {T : Type} [LinearOrderedField T]

/-- The counts of the labels `0`, ..., `n - 1` in a list of labels of that range add up to
its length. -/
theorem sum_count_range (l : List Int) (n : Nat) (h : ∀ x ∈ l, 0 ≤ x ∧ x < (n : Int)) :
    ((List.range n).map (fun (j : Nat) => l.count (j : Int))).sum = l.length := by
  induction l with
  | nil => simp
  | cons x l ih =>
    have hx := h x (List.mem_cons_self _ _)
    have ih' := ih (fun y hy => h y (List.mem_cons_of_mem _ hy))
    have key : ∀ m : Nat,
        ((List.range m).map (fun (j : Nat) => (x :: l).count (j : Int))).sum
          = ((List.range m).map (fun (j : Nat) => l.count (j : Int))).sum
            + (if x < (m : Int) then 1 else 0) := by
      intro m
      induction m with
      | zero =>
        have : ¬ x < 0 := by omega
        simp [this]
      | succ m ihm =>
        rw [List.range_succ, List.map_append, List.sum_append, List.map_append,
          List.sum_append, ihm]
        simp only [List.map_cons, List.map_nil, List.sum_cons, List.sum_nil, Nat.add_zero,
          List.count_cons, beq_iff_eq]
        by_cases h1 : x < (m : Int)
        · have h2 : x < ((m + 1 : Nat) : Int) := by push_cast; omega
          have h3 : ¬ x = (m : Int) := by omega
          rw [if_pos h1, if_pos h2, if_neg h3]
          omega
        · by_cases h4 : x = (m : Int)
          · have h2 : x < ((m + 1 : Nat) : Int) := by push_cast; omega
            rw [if_neg h1, if_pos h2, if_pos h4]
            omega
          · have h2 : ¬ x < ((m + 1 : Nat) : Int) := by push_cast; omega
            rw [if_neg h1, if_neg h2, if_neg h4]
            omega
    rw [key n, ih']
    simp [hx.2]

/-- The loop of `predict_proba` over the classes writes the row `i` of the output and
leaves the other entries as they were. -/
theorem write_row_spec (ld i nc : Int) (f : Int → T) (out0 : Int → T) (hld : 0 < ld) :
    (∀ j, 0 ≤ j → j < nc →
        for_range 0 nc (fun j (out : Int → T) => Function.update out (ld * j + i) (f j)) out0
          (ld * j + i) = f j)
      ∧ (∀ p, (∀ j, 0 ≤ j → j < nc → p ≠ ld * j + i) →
        for_range 0 nc (fun j (out : Int → T) => Function.update out (ld * j + i) (f j)) out0
          p = out0 p) := by
  by_cases hn : 0 ≤ nc
  · have key := for_range_ind
      (fun (k : Int) (out : Int → T) =>
        (∀ j, 0 ≤ j → j < k → out (ld * j + i) = f j)
          ∧ (∀ p, (∀ j, 0 ≤ j → j < k → p ≠ ld * j + i) → out p = out0 p))
      0 nc (fun j (out : Int → T) => Function.update out (ld * j + i) (f j)) out0 hn
      ⟨fun j h0 h1 => by omega, fun p _ => rfl⟩
      (fun k out hk0 hk1 ih => by
        beta_reduce at ih ⊢
        constructor
        · intro j hj0 hj1
          by_cases hjk : j = k
          · subst hjk
            simp
          · have hlt : j < k := by omega
            have : ld * j < ld * k := Int.mul_lt_mul_of_pos_left hlt hld
            rw [Function.update_noteq (by omega)]
            exact ih.1 j hj0 hlt
        · intro p hp
          rw [Function.update_noteq (hp k hk0 (by omega))]
          exact ih.2 p (fun j hj0 hj1 => hp j hj0 (by omega)))
    exact key
  · rw [for_range_of_le _ _ _ _ (by omega)]
    exact ⟨fun j h0 h1 => by omega, fun p _ => rfl⟩

theorem cell_ne (ld i k j j' : Int) (hi0 : 0 ≤ i) (hik : i < k) (hk : k < ld) :
    ld * j' + i ≠ ld * j + k := by
  intro h
  rcases lt_trichotomy j' j with h1 | h1 | h1
  · have : ld * (j' + 1) ≤ ld * j := Int.mul_le_mul_of_nonneg_left (by omega) (by omega)
    have h2 : ld * (j' + 1) = ld * j' + ld := by ring
    omega
  · subst h1; omega
  · have : ld * (j + 1) ≤ ld * j' := Int.mul_le_mul_of_nonneg_left (by omega) (by omega)
    have h2 : ld * (j + 1) = ld * j + ld := by ring
    omega

/-- The loop of `predict_proba` over the rows, on a node array of the maintained shape:
the entry of row `i` and class `j` is the entry of class `j` in the block of the leaf that
the descent reaches for row `i`. -/
theorem proba_loop_spec (st : decision_tree T) (h : tree_inv st) (X_test : Int → T)
    (ldx_test ldy nsamp : Int) (out0 : Int → T) (hld : nsamp ≤ ldy) :
    ∃ out, for_range_run 0 nsamp (proba_row st X_test ldx_test ldy) out0 = outcome.done out
      ∧ ∀ i, 0 ≤ i → i < nsamp → ∀ j, 0 ≤ j → j < st.n_class →
          out (ldy * j + i)
            = vec_get st.class_props (st.n_class * leaf_of st X_test ldx_test i + j) 0 := by
  by_cases hn : 0 ≤ nsamp
  · obtain ⟨out, e, hin⟩ := for_range_run_ind
      (fun (k : Int) (out : Int → T) =>
        ∀ i, 0 ≤ i → i < k → ∀ j, 0 ≤ j → j < st.n_class →
          out (ldy * j + i)
            = vec_get st.class_props (st.n_class * leaf_of st X_test ldx_test i + j) 0)
      0 nsamp (proba_row st X_test ldx_test ldy) out0 hn
      (fun i h0 h1 => by omega)
      (fun k out hk0 hk1 ih => by
        obtain ⟨nd, hd, _, hnd, _, _, _⟩ := descend_root st h X_test ldx_test k
        obtain ⟨w1, w2⟩ := write_row_spec ldy k st.n_class
          (fun j => vec_get st.class_props (st.n_class * leaf_of st X_test ldx_test k + j) 0)
          out (by omega)
        refine ⟨for_range 0 st.n_class
          (fun j (out : Int → T) =>
            Function.update out (ldy * j + k)
              (vec_get st.class_props (st.n_class * leaf_of st X_test ldx_test k + j) 0))
          out, ?_, ?_⟩
        · unfold proba_row
          rw [hd]
          rfl
        · intro i hi0 hi1 j hj0 hj1
          by_cases hik : i = k
          · subst hik
            exact w1 j hj0 hj1
          · rw [w2 _ (fun j' _ _ => cell_ne ldy i k j' j hi0 (by omega) (by omega))]
            exact ih i hi0 (by omega) j hj0 hj1)
    exact ⟨out, e, hin⟩
  · exact ⟨out0, for_range_run_of_le _ _ _ _ (by omega), fun i h0 h1 => by omega⟩

/-- The proportions stored for a node in use with at least one sample, all of whose labels
lie in `[0, n_class)`, are non-negative and add up to 1. -/
theorem proportions_sum_one (st : decision_tree T) (a e n : Int) (h0 : 0 ≤ a) (hae : a ≤ e)
    (he : e < st.samples_idx.length) (hn : n = e - a + 1)
    (hlab : ∀ i : Int, 0 ≤ i → i < st.samples_idx.length →
      0 ≤ st.y (vec_get st.samples_idx i 0) ∧ st.y (vec_get st.samples_idx i 0) < st.n_class) :
    (∀ j : Int, (0 : T) ≤ (class_count st a e j : T) / ((n : Int) : T))
      ∧ ((List.range st.n_class.toNat).map
          (fun (j : Nat) => (class_count st a e (j : Int) : T) / ((n : Int) : T))).sum = 1 := by
  have hnpos : (0 : T) < ((n : Int) : T) := by exact_mod_cast (by omega : (0 : Int) < n)
  constructor
  · intro j
    exact div_nonneg (Nat.cast_nonneg _) (le_of_lt hnpos)
  · have hsum : ((List.range st.n_class.toNat).map
          (fun (j : Nat) => (class_count st a e (j : Int) : T) / ((n : Int) : T))).sum
        = (((List.range st.n_class.toNat).map
            (fun (j : Nat) => class_count st a e (j : Int))).sum : T) / ((n : Int) : T) := by
      generalize List.range st.n_class.toNat = L
      induction L with
      | nil => simp
      | cons x L ih =>
        simp only [List.map_cons, List.sum_cons, ih]
        push_cast
        rw [add_div]
    rw [hsum]
    have hcount := sum_count_range ((seg st.samples_idx a e).map st.y) st.n_class.toNat
      (by
        intro x hx
        obtain ⟨idx, hidx, rfl⟩ := List.mem_map.mp hx
        obtain ⟨i, hi1, hi2, rfl⟩ := (mem_seg_iff st.samples_idx a e 0 idx h0 he).mp hidx
        have := hlab i (by omega) (by omega)
        constructor
        · exact this.1
        · have h3 := this.2
          omega)
    unfold class_count
    rw [hcount, List.length_map, length_seg _ _ _ h0 (by omega) he]
    rw [div_eq_one_iff_eq (ne_of_gt hnpos)]
    have : (((e + 1 - a).toNat : Nat) : Int) = n := by omega
    exact_mod_cast this

/-- C4: on every tree that `fit` trained (which it does only with probability tracking on)
on `n_obs >= 1` samples whose labels lie in `[0, n_class)`, for every query matrix with the
trained feature and class counts that the array helper accepts, `predict_proba` succeeds
and the entries it writes for row `i` are the entries of the block of `class_props` of the
leaf that the descent of `predict` reaches for that row, which are the proportions
`count_c / n_samples` of the classes among the samples of the leaf; they are non-negative
and add up to 1. -/
theorem predict_proba_emits_proportions_of_reached_leaf (E : externals T) (hE : E.conforms)
    (st0 st : decision_tree T) (hr : fit_ready st0)
    (hf : fit E st0 = outcome.done (da_status.da_status_success, st))
    (hobs : 1 ≤ st.n_obs)
    (hlab : ∀ i : Int, 0 ≤ i → i < st.samples_idx.length →
      0 ≤ st.y (vec_get st.samples_idx i 0) ∧ st.y (vec_get st.samples_idx i 0) < st.n_class)
    (nsamp nfeat : Int) (X_test : Option (Int → T)) (ldx_test : Int)
    (y_proba : Option (Int → T)) (nclass ldy mode : Int)
    (hfeat : nfeat = st.n_features) (hclass : nclass = st.n_class)
    (hstore : (E.store_2D_array nsamp nfeat X_test ldx_test mode).1
      = da_status.da_status_success)
    (hstore_y : (E.store_2D_array nsamp nclass y_proba ldy (if mode = 0 then 1 else mode)).1
      = da_status.da_status_success)
    (hld : nsamp
      ≤ (E.store_2D_array nsamp nclass y_proba ldy (if mode = 0 then 1 else mode)).2.2) :
    st.predict_proba_opt = true
      ∧ ∃ out, predict_proba E st nsamp nfeat X_test ldx_test y_proba nclass ldy mode
          = outcome.done (da_status.da_status_success, some out,
              (E.store_2D_array nsamp nclass y_proba ldy (if mode = 0 then 1 else mode)).2.2)
        ∧ ∀ i, 0 ≤ i → i < nsamp →
            ∃ leaf nd,
              reaches st.tree (E.store_2D_array nsamp nfeat X_test ldx_test mode).2.1
                (E.store_2D_array nsamp nfeat X_test ldx_test mode).2.2 i 0 leaf
              ∧ tree_at st.tree leaf = some nd ∧ nd.is_leaf = true
              ∧ (∀ j, 0 ≤ j → j < st.n_class →
                  out ((E.store_2D_array nsamp nclass y_proba ldy
                      (if mode = 0 then 1 else mode)).2.2 * j + i)
                    = vec_get st.class_props (st.n_class * leaf + j) 0
                  ∧ out ((E.store_2D_array nsamp nclass y_proba ldy
                      (if mode = 0 then 1 else mode)).2.2 * j + i)
                    = (class_count st nd.start_idx nd.end_idx j : T)
                      / ((nd.n_samples : Int) : T)
                  ∧ 0 ≤ out ((E.store_2D_array nsamp nclass y_proba ldy
                      (if mode = 0 then 1 else mode)).2.2 * j + i))
              ∧ ((List.range st.n_class.toNat).map
                  (fun (j : Nat) => out ((E.store_2D_array nsamp nclass y_proba ldy
                      (if mode = 0 then 1 else mode)).2.2 * (j : Int) + i))).sum = 1 := by
  subst hfeat hclass
  obtain ⟨hinv, _, htr, _⟩ := fit_fitted E hE st0 st hr hf
  have hpp := hinv.tree.ok.hproba
  obtain ⟨out, e, hin⟩ := proba_loop_spec st hinv.tree
    (E.store_2D_array nsamp st.n_features X_test ldx_test mode).2.1
    (E.store_2D_array nsamp st.n_features X_test ldx_test mode).2.2
    (E.store_2D_array nsamp st.n_class y_proba ldy (if mode = 0 then 1 else mode)).2.2
    nsamp
    (E.store_2D_array nsamp st.n_class y_proba ldy (if mode = 0 then 1 else mode)).2.1 hld
  refine ⟨hpp, out, ?_, ?_⟩
  · unfold predict_proba
    simp only [ne_eq, not_true_eq_false, if_false, htr, hpp]
    rw [if_neg (not_not.mpr hstore), if_neg (not_not.mpr hstore_y)]
    show (for_range_run 0 nsamp (proba_row st _ _ _) _).and_then _ = _
    rw [e]
    rfl
  · intro i hi0 hi1
    obtain ⟨nd, _, hre, hnd, hl, hlt, _⟩ := descend_root st hinv.tree
      (E.store_2D_array nsamp st.n_features X_test ldx_test mode).2.1
      (E.store_2D_array nsamp st.n_features X_test ldx_test mode).2.2 i
    have hrange := hinv.range.hnode _ nd hnd hlt
    have hne := hinv.nonempty hobs _ nd hnd hlt
    obtain ⟨hnn, hsum⟩ := proportions_sum_one st nd.start_idx nd.end_idx nd.n_samples
      hrange.1 hne hrange.2.2.1 hrange.2.2.2 hlab
    have hcell : ∀ j, 0 ≤ j → j < st.n_class →
        out ((E.store_2D_array nsamp st.n_class y_proba ldy
            (if mode = 0 then 1 else mode)).2.2 * j + i)
          = (class_count st nd.start_idx nd.end_idx j : T) / ((nd.n_samples : Int) : T) := by
      intro j hj0 hj1
      rw [hin i hi0 hi1 j hj0 hj1]
      exact hinv.props.hval _ nd hnd hlt j hj0 hj1
    refine ⟨_, nd, hre, hnd, hl, ?_, ?_⟩
    · intro j hj0 hj1
      refine ⟨hin i hi0 hi1 j hj0 hj1, hcell j hj0 hj1, ?_⟩
      rw [hcell j hj0 hj1]
      exact hnn j
    · rw [← hsum]
      congr 1
      apply List.map_congr_left
      intro j hj
      have hj' : j < st.n_class.toNat := List.mem_range.mp hj
      exact hcell j (by omega) (by omega)

end c4

section c9

variable {T : Type} [LinearOrderedField T]

/-- When the samples of the range of `nd` in `base` share their value of the feature `f`,
and `st` holds them rearranged, `find_best_split` after `sort_samples` records no split. -/
theorem no_split_after_sort_of_constant (E : externals T) (hE : E.conforms)
    (st base : decision_tree T) (nd : node T) (f : Int) (ft ms : T) (sp : split T)
    (hft : 0 < ft) (hrange : node_in_range st.samples_idx.length nd)
    (hfv : st.feature_values.length = st.samples_idx.length)
    (hperm : perm_within base.samples_idx st.samples_idx nd.start_idx nd.end_idx)
    (hX : st.X = base.X) (hl : st.ldx = base.ldx)
    (hconst : ∀ i i', nd.start_idx ≤ i → i ≤ nd.end_idx → nd.start_idx ≤ i' →
      i' ≤ nd.end_idx →
      feat_val base f (vec_get base.samples_idx i 0)
        = feat_val base f (vec_get base.samples_idx i' 0)) :
    (find_best_split (sort_samples E st nd f) nd ft ms sp).2.samp_idx = -1
      ∧ (find_best_split (sort_samples E st nd f) nd ft ms sp).2.score = nd.score := by
  apply find_best_split_of_constant _ nd ft ms sp hft
  have hp1 := sort_samples_perm_within E hE st nd f hrange
  have hpall := perm_within_trans hperm hp1
  have hlenS := perm_within_length hpall
  have hlenB : base.samples_idx.length = st.samples_idx.length :=
    (perm_within_length hperm).symm
  have hseg := perm_within_seg hpall hrange.2.1
  have hval : ∀ i, nd.start_idx ≤ i → i ≤ nd.end_idx →
      ∃ i', nd.start_idx ≤ i' ∧ i' ≤ nd.end_idx
        ∧ vec_get (sort_samples E st nd f).samples_idx i 0 = vec_get base.samples_idx i' 0 := by
    intro i hi1 hi2
    have hm := vec_get_mem_seg (sort_samples E st nd f).samples_idx nd.start_idx nd.end_idx i 0
      hrange.1 hi1 hi2 (by rw [hlenS, hlenB]; exact hrange.2.2.1)
    have hm2 := hseg.mem_iff.mp hm
    obtain ⟨i', h1, h2, e⟩ := (mem_seg_iff base.samples_idx nd.start_idx nd.end_idx 0 _
      hrange.1 (by rw [hlenB]; exact hrange.2.2.1)).mp hm2
    exact ⟨i', h1, h2, e.symm⟩
  intro i hi1 hi2
  rw [sort_samples_feature_values E st nd f hrange.1 (by rw [hfv]; exact hrange.2.2.1) (i + 1)
      (by omega) (by omega),
    sort_samples_feature_values E st nd f hrange.1 (by rw [hfv]; exact hrange.2.2.1) i
      hi1 (by omega)]
  obtain ⟨i1, a1, b1, e1⟩ := hval (i + 1) (by omega) (by omega)
  obtain ⟨i2, a2, b2, e2⟩ := hval i hi1 (by omega)
  rw [e1, e2, feat_val_congr base st hX hl, feat_val_congr base st hX hl]
  exact hconst i1 i2 a1 b1 a2 b2

/-- When the samples of the node share their value of every candidate feature, the loop
over the candidate features ends with no split. -/
theorem after_features_of_constant (E : externals T) (hE : E.conforms) (fr : fit_frame T)
    (nd : node T) (hft : 0 < fr.st.feat_thresh)
    (hrange : node_in_range fr.st.samples_idx.length nd)
    (hfv : fr.st.feature_values.length = fr.st.samples_idx.length)
    (hconst : ∀ j, 0 ≤ j → j < fr.st.nfeat_split →
      ∀ i i', nd.start_idx ≤ i → i ≤ nd.end_idx → nd.start_idx ≤ i' → i' ≤ nd.end_idx →
        feat_val fr.st (vec_get (before_features E fr nd).features_idx j 0)
            (vec_get fr.st.samples_idx i 0)
          = feat_val fr.st (vec_get (before_features E fr nd).features_idx j 0)
            (vec_get fr.st.samples_idx i' 0)) :
    (after_features E fr nd).best_split.feat_idx = -1 := by
  obtain ⟨fi, mt, cc, hB, hcc⟩ := before_features_frame E fr nd
  have hBs : (before_features E fr nd).samples_idx = fr.st.samples_idx := by rw [hB]
  have hBf : (before_features E fr nd).feature_values = fr.st.feature_values := by rw [hB]
  have hBn : (before_features E fr nd).nfeat_split = fr.st.nfeat_split := by rw [hB]
  have hrangeB : node_in_range (before_features E fr nd).samples_idx.length nd := by
    rw [hBs]; exact hrange
  have hfvB : (before_features E fr nd).feature_values.length
      = (before_features E fr nd).samples_idx.length := by rw [hBs, hBf]; exact hfv
  unfold after_features
  by_cases hn : 0 ≤ (before_features E fr nd).nfeat_split
  · have key := for_range_ind
      (fun (_ : Int) (fr' : fit_frame T) =>
        feat_inv (before_features E fr nd) nd fr' ∧ fr'.best_split.feat_idx = -1
          ∧ fr'.best_split.score = nd.score)
      0 (before_features E fr nd).nfeat_split
      (feature_loop_body E nd (nd.score - fr.st.min_improvement))
      { st := before_features E fr nd, sp := fr.sp,
        best_split := { fr.best_split with score := nd.score, feat_idx := -1 } }
      hn
      ⟨⟨⟨_, _, _, _, rfl⟩, perm_within_refl _ _ _, rfl, le_refl _,
          fun h => absurd rfl h, fun _ _ h => absurd rfl h⟩, rfl, rfl⟩
      (fun j fr' hj0 hj1 ih => by
        obtain ⟨hfi, hb1, hb2⟩ := ih
        refine ⟨feature_loop_body_inv E hE _ nd _ hrangeB hfvB j fr' hfi, ?_⟩
        obtain ⟨v, fv, cl, cr, hfr⟩ := hfi.hst
        have hlen : fr'.st.samples_idx.length = fr.st.samples_idx.length := by
          rw [perm_within_length hfi.hperm, hBs]
        have hfeat : vec_get fr'.st.features_idx j 0
            = vec_get (before_features E fr nd).features_idx j 0 := by rw [hfr]
        have hno := no_split_after_sort_of_constant E hE fr'.st fr.st nd
          (vec_get fr'.st.features_idx j 0)
          (sort_samples E fr'.st nd (vec_get fr'.st.features_idx j 0)).feat_thresh
          (nd.score - fr.st.min_improvement)
          { fr'.sp with feat_idx := vec_get fr'.st.features_idx j 0 }
          (by
            show 0 < fr'.st.feat_thresh
            rw [hfr, hB]; exact hft)
          (by rw [hlen]; exact hrange)
          (by rw [hfi.hfv, hlen, hBf]; exact hfv)
          (by rw [← hBs]; exact hfi.hperm)
          (by rw [hfr, hB]) (by rw [hfr, hB])
          (by rw [hfeat]; exact hconst j hj0 (by rw [← hBn]; exact hj1))
        have hbody : (feature_loop_body E nd (nd.score - fr.st.min_improvement) j
            fr').best_split
            = if (find_best_split (sort_samples E fr'.st nd (vec_get fr'.st.features_idx j 0))
                  nd (sort_samples E fr'.st nd (vec_get fr'.st.features_idx j 0)).feat_thresh
                  (nd.score - fr.st.min_improvement)
                  { fr'.sp with feat_idx := vec_get fr'.st.features_idx j 0 }).2.score
                < fr'.best_split.score then
              fr'.best_split.copy
                (find_best_split (sort_samples E fr'.st nd (vec_get fr'.st.features_idx j 0))
                  nd (sort_samples E fr'.st nd (vec_get fr'.st.features_idx j 0)).feat_thresh
                  (nd.score - fr.st.min_improvement)
                  { fr'.sp with feat_idx := vec_get fr'.st.features_idx j 0 }).2
            else fr'.best_split := rfl
        rw [hbody, hno.2, hb2, if_neg (lt_irrefl _)]
        exact ⟨hb1, hb2⟩)
    exact key.2.1
  · rw [for_range_of_le _ _ _ _ (by omega)]

/-- C9, as amended (`feat_thresh > 0`, sorting routines that rearrange): for a node whose
samples all have the same value of a candidate feature `f`, `find_best_split`, called
after `sort_samples` as `fit` does, records no split: on return `sp.samp_idx = -1` and
`sp.score` is the score of the node, whatever the class labels; and when this holds for
every candidate feature of the node that an iteration of `fit` takes from the queue, the
iteration ends with the node as it was (a leaf, as every node of the queue), one more leaf
counted and no node added. -/
theorem constant_feature_records_no_split (E : externals T) (hE : E.conforms)
    (fr : fit_frame T) (nd : node T) (hft : 0 < fr.st.feat_thresh)
    (hrange : node_in_range fr.st.samples_idx.length nd)
    (hfv : fr.st.feature_values.length = fr.st.samples_idx.length) :
    (∀ (f : Int) (ms : T) (sp : split T),
        (∀ i i', nd.start_idx ≤ i → i ≤ nd.end_idx → nd.start_idx ≤ i' → i' ≤ nd.end_idx →
          feat_val fr.st f (vec_get fr.st.samples_idx i 0)
            = feat_val fr.st f (vec_get fr.st.samples_idx i' 0)) →
        (find_best_split (sort_samples E fr.st nd f) nd fr.st.feat_thresh ms sp).2.samp_idx
            = -1
          ∧ (find_best_split (sort_samples E fr.st nd f) nd fr.st.feat_thresh ms sp).2.score
            = nd.score)
      ∧ (tree_at fr.st.tree (popped_idx fr) = some nd →
          (∀ j, 0 ≤ j → j < fr.st.nfeat_split →
            ∀ i i', nd.start_idx ≤ i → i ≤ nd.end_idx → nd.start_idx ≤ i' →
              i' ≤ nd.end_idx →
              feat_val fr.st (vec_get (before_features E fr nd).features_idx j 0)
                  (vec_get fr.st.samples_idx i 0)
                = feat_val fr.st (vec_get (before_features E fr nd).features_idx j 0)
                  (vec_get fr.st.samples_idx i' 0)) →
          ∃ fr', fit_step E fr = outcome.done fr'
            ∧ fr'.best_split.feat_idx = -1
            ∧ tree_at fr'.st.tree (popped_idx fr) = some nd
            ∧ fr'.st.n_nodes = fr.st.n_nodes
            ∧ fr'.st.n_leaves = fr.st.n_leaves + 1) := by
  constructor
  · intro f ms sp hconst
    exact no_split_after_sort_of_constant E hE fr.st fr.st nd f fr.st.feat_thresh ms sp hft
      hrange hfv (perm_within_refl _ _ _) rfl rfl hconst
  · intro hnd hconst
    have hb := after_features_of_constant E hE fr nd hft hrange hfv hconst
    obtain ⟨v, fv, cl, cr, fi, mt, hA⟩ := after_features_frame E fr nd
    refine ⟨_, fit_step_no_split E fr nd hnd hb, hb, ?_, ?_, ?_⟩
    · show tree_at (after_features E fr nd).st.tree _ = _
      rw [hA]; exact hnd
    · show (after_features E fr nd).st.n_nodes = _
      rw [hA]
    · show (after_features E fr nd).st.n_leaves + 1 = _
      rw [hA]

end c9

theorem tie_entry_constant (ft : ℚ) (f i i' : Int) :
    feat_val (tie_entry ft).st f (vec_get (tie_entry ft).st.samples_idx i 0)
      = feat_val (tie_entry ft).st f (vec_get (tie_entry ft).st.samples_idx i' 0) := by
  have hX : ∀ idx, (tie_entry ft).st.X idx = 1 := by
    intro idx
    have h1 : (tie_entry ft).st.X = (tie_instance ft).X := by
      unfold tie_entry
      obtain ⟨queue, eq, _⟩ := queue_root_frame
        (rooted (configured reference_externals (tie_instance ft)))
      rw [eq]
      exact (configured_settings reference_externals (tie_instance ft)).2.2.2.2.2.2.2.2.1
    rw [h1]
    rfl
  unfold feat_val
  rw [hX, hX]

set_option maxRecDepth 100000 in
/-- Witness of C9: the root of the data set with ties `X = [[1],[1]]`, `y = [0,1]` on entry
of the loop of `fit`, with `feat_thresh = 1/2`. -/
theorem constant_feature_records_no_split_witness :
    (find_best_split (sort_samples reference_externals (tie_entry (1 / 2)).st
          (tie_root (1 / 2)) 0) (tie_root (1 / 2)) (tie_entry (1 / 2)).st.feat_thresh
          (tie_root (1 / 2)).score reference_externals.uninit_split).2.samp_idx = -1
      ∧ ∃ fr', fit_step reference_externals (tie_entry (1 / 2)) = outcome.done fr'
          ∧ fr'.best_split.feat_idx = -1
          ∧ tree_at fr'.st.tree (popped_idx (tie_entry (1 / 2))) = some (tie_root (1 / 2))
          ∧ fr'.st.n_nodes = (tie_entry (1 / 2)).st.n_nodes
          ∧ fr'.st.n_leaves = (tie_entry (1 / 2)).st.n_leaves + 1 :=
  ⟨((constant_feature_records_no_split reference_externals reference_externals_conforms
      (tie_entry (1 / 2)) (tie_root (1 / 2)) (by decide!)
      (by unfold node_in_range; decide!) (by decide!)).1 0 (tie_root (1 / 2)).score
      reference_externals.uninit_split
      (fun i i' _ _ _ _ => tie_entry_constant (1 / 2) 0 i i')).1,
    (constant_feature_records_no_split reference_externals reference_externals_conforms
      (tie_entry (1 / 2)) (tie_root (1 / 2)) (by decide!)
      (by unfold node_in_range; decide!) (by decide!)).2
      (entry_nodes reference_externals (tie_instance (1 / 2)) rfl rfl rfl).2.2.2.2.1
      (fun j _ _ i i' _ _ _ _ => tie_entry_constant (1 / 2) _ i i')⟩

set_option maxRecDepth 100000 in
/-- Counterexample to C9 as stated: with `feat_thresh = 0` and the labels `[0, 1]`, the two
samples of the root share the value `1` of the only feature, yet `find_best_split` records
the split after position `0`, and `fit` makes the root an internal node. -/
theorem split_recorded_on_constant_feature_when_feat_thresh_zero :
    (∀ idx, (tie_entry 0).st.X idx = 1)
      ∧ (tie_entry 0).st.feat_thresh = 0
      ∧ (find_best_split (sort_samples reference_externals (tie_entry 0).st (tie_root 0) 0)
          (tie_root 0) (tie_entry 0).st.feat_thresh (tie_root 0).score
          reference_externals.uninit_split).2.samp_idx = 0
      ∧ fit reference_externals (tie_instance 0)
          = outcome.done (da_status.da_status_success, tie_fitted)
      ∧ tree_at tie_fitted.tree 0 = some (tie_fitted.tree.getD 0 fresh_node)
      ∧ (tie_fitted.tree.getD 0 fresh_node).is_leaf = false
      ∧ tie_fitted.n_nodes = 3 :=
  ⟨fun _ => rfl, by decide!, by decide!, eq_done_of_is_success _ _ (by decide!),
    tree_at_getD _ 0 _ (le_refl _) (by decide!), by decide!, by decide!⟩

section c8

variable {T : Type} [LinearOrderedField T]

theorem fit_loop_of_empty (E : externals T) (fuel : Nat) (fr : fit_frame T)
    (h : fr.st.nodes_to_treat = []) : fit_loop E fuel fr = outcome.done fr := by
  cases fuel <;> simp [fit_loop, h]

theorem enqueued_min_node_sample (st : decision_tree T) (s : T) (c : node T) :
    (enqueued st s c).min_node_sample = st.min_node_sample := by
  unfold enqueued; split <;> rfl

theorem enqueued_max_depth (st : decision_tree T) (s : T) (c : node T) :
    (enqueued st s c).max_depth = st.max_depth := by
  unfold enqueued; split <;> rfl

end c8

section depth_zero

variable {T : Type} [LinearOrderedField T]

/-- The position that `max_element_idx` returns for a vector that is not empty holds a
largest element, and every position before it holds a smaller one. -/
theorem max_element_idx_spec (v : List Int) (h : 0 < v.length) :
    0 ≤ max_element_idx v ∧ max_element_idx v < v.length
      ∧ (∀ j : Int, 0 ≤ j → j < v.length → vec_get v j 0 ≤ vec_get v (max_element_idx v) 0)
      ∧ (∀ j : Int, 0 ≤ j → j < max_element_idx v →
          vec_get v j 0 < vec_get v (max_element_idx v) 0) := by
  unfold max_element_idx
  have key := for_range_ind
    (fun (k : Int) (best : Int) => 0 ≤ best ∧ best < k
      ∧ (∀ j : Int, 0 ≤ j → j < k → vec_get v j 0 ≤ vec_get v best 0)
      ∧ (∀ j : Int, 0 ≤ j → j < best → vec_get v j 0 < vec_get v best 0))
    1 v.length (fun i best => if vec_get v best 0 < vec_get v i 0 then i else best) 0
    (by omega)
    ⟨le_refl _, by omega, fun j h0 h1 => by
      have : j = 0 := by omega
      rw [this], fun j h0 h1 => by omega⟩
    (fun k best hk0 hk1 ih => by
      beta_reduce at ih ⊢
      obtain ⟨i1, i2, i3, i4⟩ := ih
      split
      · rename_i hlt
        refine ⟨by omega, by omega, ?_, ?_⟩
        · intro j hj0 hj1
          by_cases hjk : j = k
          · rw [hjk]
          · have := i3 j hj0 (by omega)
            omega
        · intro j hj0 hj1
          have := i3 j hj0 hj1
          omega
      · rename_i hlt
        refine ⟨i1, by omega, ?_, i4⟩
        intro j hj0 hj1
        by_cases hjk : j = k
        · rw [hjk]; omega
        · exact i3 j hj0 (by omega))
  exact key

/-- With `max_depth <= 0` and probability tracking on, `fit` succeeds with the root as the
only node, a leaf whose label is the first class with the largest count among the samples
used; `n_leaves` stays `0`. -/
theorem fit_depth_zero (E : externals T) (st0 st1 : decision_tree T) (hr : fit_ready st0)
    (ho : read_options st0 = some st1) (hp : st1.predict_proba_opt = true)
    (hd : st1.max_depth ≤ 0) :
    fit E st0 = outcome.done (da_status.da_status_success,
        { rooted (configured E st1) with model_trained := true })
      ∧ ({ rooted (configured E st1) with model_trained := true } : decision_tree T).n_nodes
          = 1
      ∧ tree_at ({ rooted (configured E st1) with model_trained := true }
            : decision_tree T).tree 0
          = some (root_node (configured E st1) fresh_node)
      ∧ (root_node (configured E st1) fresh_node).is_leaf = true
      ∧ ({ rooted (configured E st1) with model_trained := true } : decision_tree T).n_leaves
          = 0 := by
  obtain ⟨pp, md, me, mns, mss, bo, nf', sd', ft, mi, pt, sm, e1⟩ :=
    read_options_frame st0 st1 ho
  have ht1 : st1.tree = [] := by rw [e1]; exact hr.no_tree
  have hq1 : st1.nodes_to_treat = [] := by rw [e1]; exact hr.no_queue
  obtain ⟨hroot, _⟩ := tree_inv_entry E st1 ht1 hq1 hp
  have hcs := configured_settings E st1
  have hqr : queue_root (rooted (configured E st1)) = rooted (configured E st1) := by
    unfold queue_root
    rw [if_neg]
    show ¬ (configured E st1).max_depth > 0
    rw [hcs.1]; omega
  have hqe : (rooted (configured E st1)).nodes_to_treat = [] := by
    show (configured E st1).nodes_to_treat = []
    rw [hcs.2.2.2.2.2.2.2.2.2.2.2.2.2.2.2.2.2.1]; exact hq1
  have h0 := (entry_nodes E st1 ht1 hq1 hp).2.2.2.2.1
  rw [hqr] at h0
  refine ⟨?_, rfl, h0, rfl, rfl⟩
  rw [fit_eq E st0 st1 hr.untrained ho, hroot]
  simp only [outcome.and_then]
  rw [hqr, fit_loop_of_empty E _ _ hqe]

/-- On a tree whose root is a leaf, `predict` writes the label of the root for every row. -/
theorem predict_of_root_leaf (E : externals T) (st : decision_tree T) (hinv : tree_inv st)
    (htr : st.model_trained = true) (nd : node T) (hnd : tree_at st.tree 0 = some nd)
    (hl : nd.is_leaf = true) (nsamp nfeat : Int) (X_test : Option (Int → T))
    (ldx_test : Int) (buf : List Int) (mode : Int) (hfeat : nfeat = st.n_features)
    (hstore : (E.store_2D_array nsamp nfeat X_test ldx_test mode).1
      = da_status.da_status_success)
    (hbuf : nsamp ≤ buf.length) :
    ∃ out, predict E st nsamp nfeat X_test ldx_test (some buf) mode
        = outcome.done (da_status.da_status_success, some out)
      ∧ ∀ i, 0 ≤ i → i < nsamp → vec_get out i 0 = nd.y_pred := by
  subst hfeat
  obtain ⟨out, e, hlen, hin, _⟩ := predict_loop_spec st hinv
    (E.store_2D_array nsamp st.n_features X_test ldx_test mode).2.1
    (E.store_2D_array nsamp st.n_features X_test ldx_test mode).2.2 nsamp buf hbuf
  refine ⟨out, ?_, ?_⟩
  · unfold predict
    simp only [ne_eq, not_true_eq_false, if_false, htr]
    rw [if_neg (not_not.mpr hstore)]
    show (for_range_run 0 nsamp (predict_row st _ _) buf).and_then _ = _
    rw [e]
    rfl
  · intro i hi0 hi1
    obtain ⟨nd', _, hre, hnd', _, _, hlab⟩ := descend_root st hinv
      (E.store_2D_array nsamp st.n_features X_test ldx_test mode).2.1
      (E.store_2D_array nsamp st.n_features X_test ldx_test mode).2.2 i
    have hleaf := reaches_unique _ _ _ _ _ _ _ hre (reaches.at_leaf 0 nd hnd hl)
    rw [hleaf, hnd] at hnd'
    rw [hin i hi0 hi1, hlab, ← Option.some.inj hnd']

/-- The label of the root is the first class with the largest count among the samples
used, when there is at least one class and one sample. -/
theorem root_label_is_majority (E : externals T) (st1 : decision_tree T)
    (hobs : 1 ≤ st1.n_obs) (hk : 1 ≤ st1.n_class)
    (hls : st1.samples_idx.length = st1.n_obs.toNat)
    (hlc : st1.count_classes.length = st1.n_class.toNat) :
    0 ≤ (root_node (configured E st1) fresh_node).y_pred
      ∧ (root_node (configured E st1) fresh_node).y_pred < st1.n_class
      ∧ (∀ j : Int, 0 ≤ j → j < st1.n_class →
          class_count (configured E st1) 0 (st1.n_obs - 1) j
            ≤ class_count (configured E st1) 0 (st1.n_obs - 1)
                (root_node (configured E st1) fresh_node).y_pred)
      ∧ (∀ j : Int, 0 ≤ j → j < (root_node (configured E st1) fresh_node).y_pred →
          class_count (configured E st1) 0 (st1.n_obs - 1) j
            < class_count (configured E st1) 0 (st1.n_obs - 1)
                (root_node (configured E st1) fresh_node).y_pred) := by
  have hcs := configured_settings E st1
  have hoC : (configured E st1).n_obs = st1.n_obs := hcs.2.2.2.2.2.2.2.2.2.2.2.2.2.2.1
  have hcC : (configured E st1).count_classes = st1.count_classes :=
    hcs.2.2.2.2.2.2.2.2.2.2.2.2.2.2.2.2.1
  have hsC : (configured E st1).samples_idx.length = st1.samples_idx.length :=
    hcs.2.2.2.2.2.2.2.2.2.2.2.2.2.2.2.2.2.2
  obtain ⟨hlen, hcount⟩ := count_class_occurences_spec (configured E st1)
    (configured E st1).count_classes 0 ((configured E st1).n_obs - 1) (le_refl _)
    (by rw [hoC]; omega) (by rw [hsC, hls, hoC]; omega)
  rw [hoC, hcC] at hlen hcount
  have hlen' : (count_class_occurences (configured E st1) st1.count_classes 0
      (st1.n_obs - 1)).length = st1.n_class.toNat := by rw [hlen, hlc]
  obtain ⟨m0, m1, m2, m3⟩ := max_element_idx_spec
    (count_class_occurences (configured E st1) st1.count_classes 0 (st1.n_obs - 1))
    (by rw [hlen']; omega)
  have hy : (root_node (configured E st1) fresh_node).y_pred
      = max_element_idx (count_class_occurences (configured E st1) st1.count_classes 0
          (st1.n_obs - 1)) := by
    show max_element_idx (count_class_occurences (configured E st1)
      (configured E st1).count_classes 0 ((configured E st1).n_obs - 1)) = _
    rw [hoC, hcC]
  rw [hy]
  rw [hlen'] at m1 m2
  have hm1 : max_element_idx (count_class_occurences (configured E st1) st1.count_classes 0
      (st1.n_obs - 1)) < st1.n_class := by omega
  refine ⟨m0, hm1, ?_, ?_⟩
  · intro j hj0 hj1
    have := m2 j hj0 (by omega)
    rw [hcount j hj0 (by rw [hlc]; omega), hcount _ m0 (by rw [hlc]; omega)] at this
    exact_mod_cast this
  · intro j hj0 hj1
    have := m3 j hj0 hj1
    rw [hcount j hj0 (by rw [hlc]; omega), hcount _ m0 (by rw [hlc]; omega)] at this
    exact_mod_cast this

/-- With `max_depth <= 0`, probability tracking on, at least one sample and one class,
`fit` yields a tree of one node, the root as a leaf, and `predict` writes for every row of
an accepted query the first class with the largest count among the samples used. -/
theorem depth_zero_tree_predicts_majority (E : externals T) (st0 st1 : decision_tree T)
    (hr : fit_ready st0) (ho : read_options st0 = some st1)
    (hp : st1.predict_proba_opt = true) (hd : st1.max_depth ≤ 0) (hobs : 1 ≤ st1.n_obs)
    (hk : 1 ≤ st1.n_class) :
    ∃ st nd, fit E st0 = outcome.done (da_status.da_status_success, st)
      ∧ st.n_nodes = 1 ∧ tree_at st.tree 0 = some nd ∧ nd.is_leaf = true
      ∧ 0 ≤ nd.y_pred ∧ nd.y_pred < st.n_class
      ∧ (∀ j : Int, 0 ≤ j → j < st.n_class →
          class_count st 0 (st.n_obs - 1) j ≤ class_count st 0 (st.n_obs - 1) nd.y_pred)
      ∧ (∀ j : Int, 0 ≤ j → j < nd.y_pred →
          class_count st 0 (st.n_obs - 1) j < class_count st 0 (st.n_obs - 1) nd.y_pred)
      ∧ ∀ (nsamp nfeat : Int) (X_test : Option (Int → T)) (ldx_test : Int) (buf : List Int)
          (mode : Int), nfeat = st.n_features →
          (E.store_2D_array nsamp nfeat X_test ldx_test mode).1
            = da_status.da_status_success →
          nsamp ≤ buf.length →
          ∃ out, predict E st nsamp nfeat X_test ldx_test (some buf) mode
              = outcome.done (da_status.da_status_success, some out)
            ∧ ∀ i, 0 ≤ i → i < nsamp → vec_get out i 0 = nd.y_pred := by
  obtain ⟨pp, md, me, mns, mss, bo, nf', sd', ft, mi, pt, sm, e1⟩ :=
    read_options_frame st0 st1 ho
  obtain ⟨hfit, hN, h0, hl, _⟩ := fit_depth_zero E st0 st1 hr ho hp hd
  obtain ⟨hinv, _, htr⟩ := fit_tree_inv E st0 _ hr hfit
  obtain ⟨m0, m1, m2, m3⟩ := root_label_is_majority E st1 hobs hk
    (by rw [e1]; exact hr.len_samples) (by rw [e1]; exact hr.len_counts)
  have hcs := configured_settings E st1
  have hoC : (configured E st1).n_obs = st1.n_obs := hcs.2.2.2.2.2.2.2.2.2.2.2.2.2.2.1
  have hkC : (configured E st1).n_class = st1.n_class := hcs.2.2.2.2.2.2.2.2.2.2.2.2.2.1
  refine ⟨_, _, hfit, hN, h0, hl, m0, ?_, ?_, ?_, ?_⟩
  · show _ < (configured E st1).n_class
    rw [hkC]; exact m1
  · intro j hj0 hj1
    have hj1' : j < (configured E st1).n_class := hj1
    rw [hkC] at hj1'
    show class_count (configured E st1) 0 ((configured E st1).n_obs - 1) j
      ≤ class_count (configured E st1) 0 ((configured E st1).n_obs - 1) _
    rw [hoC]
    exact m2 j hj0 hj1'
  · intro j hj0 hj1
    show class_count (configured E st1) 0 ((configured E st1).n_obs - 1) j
      < class_count (configured E st1) 0 ((configured E st1).n_obs - 1) _
    rw [hoC]
    exact m3 j hj0 hj1
  · intro nsamp nfeat X_test ldx_test buf mode hfeat hstore hbuf
    exact predict_of_root_leaf E _ hinv htr _ h0 hl nsamp nfeat X_test ldx_test buf mode
      hfeat hstore hbuf

end depth_zero

set_option maxRecDepth 100000 in
/-- C1: the scenario (`X = [[0],[1],[2],[3]]`, `y = [0,0,1,1]`, Gini, `max_depth = 1`, no
bootstrap, `min_improvement = 0`, `min_split_score = 0`) with probability tracking off:
`fit` reads `tree[0]` of a node array that was never allocated, whatever `feat_thresh`.
With probability tracking on and `feat_thresh = 1/2` the outcome is the one described: 3
nodes, the root internal with feature 0 and threshold 3/2, its left child a leaf with
label 0, its right child a leaf with label 1, and `predict` on `[1/2]`, `[5/2]` writes
`[0, 1]`. -/
theorem fit_on_scenario_without_probability_tracking_leaves_node_array :
    (∀ ft : ℚ, fit reference_externals (scenario_instance ft false 1 1)
        = outcome.out_of_bounds)
      ∧ fit reference_externals (scenario_instance (1 / 2) true 1 1)
          = outcome.done (da_status.da_status_success, scenario_fitted)
      ∧ scenario_fitted.n_nodes = 3
      ∧ tree_at scenario_fitted.tree 0 = some (scenario_fitted.tree.getD 0 fresh_node)
      ∧ (scenario_fitted.tree.getD 0 fresh_node).is_leaf = false
      ∧ (scenario_fitted.tree.getD 0 fresh_node).feature = 0
      ∧ (scenario_fitted.tree.getD 0 fresh_node).x_threshold = 3 / 2
      ∧ (scenario_fitted.tree.getD 0 fresh_node).left_child_idx = 2
      ∧ (scenario_fitted.tree.getD 0 fresh_node).right_child_idx = 1
      ∧ tree_at scenario_fitted.tree 2 = some (scenario_fitted.tree.getD 2 fresh_node)
      ∧ (scenario_fitted.tree.getD 2 fresh_node).is_leaf = true
      ∧ (scenario_fitted.tree.getD 2 fresh_node).y_pred = 0
      ∧ tree_at scenario_fitted.tree 1 = some (scenario_fitted.tree.getD 1 fresh_node)
      ∧ (scenario_fitted.tree.getD 1 fresh_node).is_leaf = true
      ∧ (scenario_fitted.tree.getD 1 fresh_node).y_pred = 1
      ∧ is_success (predict reference_externals scenario_fitted 2 1 (some scenario_query) 2
          (some [7, 7]) 0) = true
      ∧ result_of (predict reference_externals scenario_fitted 2 1 (some scenario_query) 2
          (some [7, 7]) 0) none = some [0, 1] :=
  ⟨fun ft => fit_out_of_bounds reference_externals (scenario_instance ft false 1 1)
      (scenario_instance ft false 1 1) rfl rfl rfl rfl,
    eq_done_of_is_success _ _ (by decide!), by decide!,
    tree_at_getD _ 0 _ (le_refl _) (by decide!), by decide!, by decide!, by decide!,
    by decide!, by decide!, tree_at_getD _ 2 _ (by decide) (by decide!), by decide!,
    by decide!, tree_at_getD _ 1 _ (by decide) (by decide!), by decide!, by decide!,
    by decide!, by decide!⟩

set_option maxRecDepth 100000 in
/-- C7: the scenario data with `max_depth = 0` and probability tracking off: `fit` reads
`tree[0]` of a node array that was never allocated, whatever `feat_thresh` and
`min_node_sample`. With probability tracking on the fitted tree has one node, a leaf with
the label 0 (the classes 0 and 1 have two samples each), and `predict` writes `[0, 0]`. -/
theorem fit_with_depth_zero_without_probability_tracking_leaves_node_array :
    (∀ (ft : ℚ) (mns : Int), fit reference_externals (scenario_instance ft false mns 0)
        = outcome.out_of_bounds)
      ∧ is_success (fit reference_externals (scenario_instance (1 / 2) true 1 0)) = true
      ∧ (result_of (fit reference_externals (scenario_instance (1 / 2) true 1 0))
          (scenario_instance (1 / 2) true 1 0)).n_nodes = 1
      ∧ ((result_of (fit reference_externals (scenario_instance (1 / 2) true 1 0))
          (scenario_instance (1 / 2) true 1 0)).tree.getD 0 fresh_node).is_leaf = true
      ∧ ((result_of (fit reference_externals (scenario_instance (1 / 2) true 1 0))
          (scenario_instance (1 / 2) true 1 0)).tree.getD 0 fresh_node).y_pred = 0
      ∧ result_of (predict reference_externals
          (result_of (fit reference_externals (scenario_instance (1 / 2) true 1 0))
            (scenario_instance (1 / 2) true 1 0)) 2 1 (some scenario_query) 2
          (some [7, 7]) 0) none = some [0, 0] :=
  ⟨fun ft mns => fit_out_of_bounds reference_externals (scenario_instance ft false mns 0)
      (scenario_instance ft false mns 0) rfl rfl rfl rfl,
    by decide!, by decide!, by decide!, by decide!, by decide!⟩

/-- The labels of the scenario lie in `[0, 2)`. -/
theorem scenario_labels (i : Int) :
    0 ≤ scenario_fitted.y (vec_get scenario_fitted.samples_idx i 0)
      ∧ scenario_fitted.y (vec_get scenario_fitted.samples_idx i 0)
        < scenario_fitted.n_class := by
  obtain ⟨_, _, _, st1, _, _, _, _, _, _, _, _, hy, _, hk, _⟩ :=
    fit_fitted reference_externals reference_externals_conforms
      (scenario_instance (1 / 2) true 1 1) scenario_fitted (scenario_instance_ready _ _ _ _)
      scenario_fit_success
  rw [hy, hk]
  show 0 ≤ (if _ < (2 : Int) then (0 : Int) else 1)
    ∧ (if _ < (2 : Int) then (0 : Int) else 1) < 2
  split <;> decide

set_option maxRecDepth 100000 in
/-- Witness of C4: the fitted scenario instance, queried with the rows `[1/2]` and `[5/2]`
and an output matrix of leading dimension 2. -/
theorem predict_proba_emits_proportions_of_reached_leaf_witness :
    scenario_fitted.predict_proba_opt = true
      ∧ ∃ out, predict_proba reference_externals scenario_fitted 2 1 (some scenario_query) 2
            (some (fun _ => 7)) 2 2 0
          = outcome.done (da_status.da_status_success, some out,
              (reference_externals.store_2D_array 2 2 (some (fun _ => 7)) 2
                (if (0 : Int) = 0 then 1 else 0)).2.2)
        ∧ ∀ i, 0 ≤ i → i < 2 →
            ∃ leaf nd,
              reaches scenario_fitted.tree
                (reference_externals.store_2D_array 2 1 (some scenario_query) 2 0).2.1
                (reference_externals.store_2D_array 2 1 (some scenario_query) 2 0).2.2 i 0 leaf
              ∧ tree_at scenario_fitted.tree leaf = some nd ∧ nd.is_leaf = true
              ∧ (∀ j, 0 ≤ j → j < scenario_fitted.n_class →
                  out ((reference_externals.store_2D_array 2 2 (some (fun _ => 7)) 2
                      (if (0 : Int) = 0 then 1 else 0)).2.2 * j + i)
                    = vec_get scenario_fitted.class_props
                        (scenario_fitted.n_class * leaf + j) 0
                  ∧ out ((reference_externals.store_2D_array 2 2 (some (fun _ => 7)) 2
                      (if (0 : Int) = 0 then 1 else 0)).2.2 * j + i)
                    = (class_count scenario_fitted nd.start_idx nd.end_idx j : ℚ)
                      / ((nd.n_samples : Int) : ℚ)
                  ∧ 0 ≤ out ((reference_externals.store_2D_array 2 2 (some (fun _ => 7)) 2
                      (if (0 : Int) = 0 then 1 else 0)).2.2 * j + i))
              ∧ ((List.range scenario_fitted.n_class.toNat).map
                  (fun (j : Nat) =>
                    out ((reference_externals.store_2D_array 2 2 (some (fun _ => 7)) 2
                      (if (0 : Int) = 0 then 1 else 0)).2.2 * (j : Int) + i))).sum = 1 :=
  predict_proba_emits_proportions_of_reached_leaf reference_externals
    reference_externals_conforms (scenario_instance (1 / 2) true 1 1) scenario_fitted
    (scenario_instance_ready _ _ _ _) scenario_fit_success (by decide!)
    (fun i _ _ => scenario_labels i) 2 1 (some scenario_query) 2 (some (fun _ => 7)) 2 2 0
    (by decide!) (by decide!) (by decide!) (by decide!) (by decide!)

section scores

variable {T : Type} [LinearOrderedField T]

/-- A counted loop from `0` that folds the class index into an accumulator. -/
theorem for_range_zero_foldl {σ : Type} (n : Int) (body : Int → σ → σ) (s : σ) :
    for_range 0 n body s
      = (List.range n.toNat).foldl (fun acc (k : Nat) => body (k : Int) acc) s := by
  unfold for_range
  simp

theorem foldl_add_eq_sum (f : Nat → T) (l : List Nat) (a : T) :
    l.foldl (fun acc (k : Nat) => acc + f k) a = a + (l.map f).sum := by
  induction l generalizing a with
  | nil => simp
  | cons x l ih => simp only [List.foldl_cons, List.map_cons, List.sum_cons, ih]; ring

theorem foldl_entropy_eq_sum (p : Nat → T) (g : T → T) (thr : T) (l : List Nat) (a : T) :
    l.foldl (fun acc (k : Nat) => if p k > thr then acc - p k * g (p k) else acc) a
      = a - ((l.filter (fun (k : Nat) => decide (p k > thr))).map
          (fun (k : Nat) => p k * g (p k))).sum := by
  induction l generalizing a with
  | nil => simp
  | cons x l ih =>
    simp only [List.foldl_cons, ih]
    by_cases h : p x > thr
    · simp only [h, if_true, List.filter_cons, decide_True, List.map_cons, List.sum_cons]
      ring
    · simp only [h, if_false, List.filter_cons, decide_False]
      simp

/-- The sum of a function that vanishes away from `k0`, over the indices below `m`. -/
theorem sum_range_single (f : Nat → T) (m k0 : Nat) (hk : k0 < m)
    (h : ∀ k, k < m → k ≠ k0 → f k = 0) : ((List.range m).map f).sum = f k0 := by
  induction m with
  | zero => omega
  | succ m ih =>
    rw [List.range_succ, List.map_append, List.sum_append]
    simp only [List.map_cons, List.map_nil, List.sum_cons, List.sum_nil, add_zero]
    by_cases hm : k0 = m
    · subst hm
      have : ((List.range k0).map f).sum = 0 := by
        apply List.sum_eq_zero
        intro x hx
        obtain ⟨k, hk1, rfl⟩ := List.mem_map.mp hx
        have := List.mem_range.mp hk1
        exact h k (by omega) (by omega)
      rw [this, zero_add]
    · rw [ih (by omega) (fun k hk1 hk2 => h k (by omega) hk2), h m (by omega) (Ne.symm hm),
        add_zero]

/-- C14: for `n_samples > 0` and every vector of class counts, `gini_score` (the
implemented form `1 - (Σ count_c²) / n_samples²`) equals the reference formula
`1 - Σ_{c < n_class} (count_c / n_samples)²` of the specification. -/
theorem gini_score_eq_reference (n_samples n_class : Int) (count_classes : List Int)
    (hn : 0 < n_samples) :
    (gini_score n_samples n_class count_classes : T)
      = gini_reference n_samples n_class count_classes := by
  unfold gini_score gini_reference
  simp only
  rw [for_range_zero_foldl,
    foldl_add_eq_sum (fun (c : Nat) =>
      ((vec_get count_classes (c : Int) 0 : Int) : T)
        * ((vec_get count_classes (c : Int) 0 : Int) : T)), zero_add]
  congr 1
  generalize List.range n_class.toNat = L
  induction L with
  | nil => simp
  | cons x L ih =>
    simp only [List.map_cons, List.sum_cons, add_div, ih]
    congr 1
    rw [div_pow, sq, sq]

/-- Witness of C14: the counts `[2, 2]` of `4` samples. -/
theorem gini_score_eq_reference_witness :
    (gini_score 4 2 [2, 2] : ℚ) = gini_reference 4 2 [2, 2] :=
  gini_score_eq_reference 4 2 [2, 2] (by decide)

/-- C15: for `n_samples > 0` and class counts in which one class `c0 < n_class` has the
count `n_samples` and every other class the count `0`, `gini_score` returns exactly `0`. -/
theorem gini_score_single_class (n_samples n_class : Int) (count_classes : List Int)
    (c0 : Int) (hn : 0 < n_samples) (h0 : 0 ≤ c0) (h1 : c0 < n_class) (hc0 : vec_get count_classes c0 0 = n_samples)
    (hc : ∀ c : Int, 0 ≤ c → c < n_class → c ≠ c0 → vec_get count_classes c 0 = 0) :
    (gini_score n_samples n_class count_classes : T) = 0 := by
  unfold gini_score
  simp only
  rw [for_range_zero_foldl,
    foldl_add_eq_sum (fun (c : Nat) =>
      ((vec_get count_classes (c : Int) 0 : Int) : T)
        * ((vec_get count_classes (c : Int) 0 : Int) : T)), zero_add]
  rw [sum_range_single _ n_class.toNat c0.toNat (by omega)
    (fun k hk hne => by
      rw [hc (k : Int) (by omega) (by omega) (by omega)]
      simp)]
  have e : ((c0.toNat : Nat) : Int) = c0 := by omega
  rw [e, hc0]
  have hpos : (0 : T) < (n_samples : T) := by exact_mod_cast hn
  rw [div_self (ne_of_gt (mul_pos hpos hpos)), sub_self]

/-- Witness of C15: four samples of class `1` among three classes. -/
theorem gini_score_single_class_witness : (gini_score 4 3 [0, 4, 0] : ℚ) = 0 :=
  gini_score_single_class 4 3 [0, 4, 0] 1 (by decide) (by decide) (by decide)
    (by decide) (fun c h0 h1 hne => by
      have : c = 0 ∨ c = 2 := by omega
      rcases this with e | e <;> rw [e] <;> decide)

/-- C16: `entropy_score` equals `-Σ p_c · log2(p_c)` taken over exactly the classes with
`p_c = count_c / n_samples > 1e-5` (for every function in the place of `std::log2`, every
`n_samples`, `n_class` and counts); over the reals with the logarithm to base 2, for every
`k >= 1` a two-class node with the counts `[k, k]` and `n_samples = 2k` has entropy `1`. -/
theorem entropy_score_eq_reference_and_uniform_pair :
    (∀ (T : Type) [LinearOrderedField T] (log2 : T → T) (n_samples n_class : Int)
        (count_classes : List Int),
        entropy_score log2 n_samples n_class count_classes
          = entropy_reference log2 n_samples n_class count_classes)
      ∧ ∀ k : Int, 1 ≤ k → entropy_score (Real.logb 2) (2 * k) 2 [k, k] = 1 := by
  have gen : ∀ (T : Type) [LinearOrderedField T] (log2 : T → T) (n_samples n_class : Int)
      (count_classes : List Int),
      entropy_score log2 n_samples n_class count_classes
        = entropy_reference log2 n_samples n_class count_classes := by
    intro T _ log2 n_samples n_class count_classes
    unfold entropy_score entropy_reference
    simp only
    rw [for_range_zero_foldl,
      foldl_entropy_eq_sum (fun (c : Nat) =>
        ((vec_get count_classes (c : Int) 0 : Int) : T) / (n_samples : T)) log2, zero_sub]
  refine ⟨gen, ?_⟩
  intro k hk
  rw [gen ℝ]
  unfold entropy_reference
  have hk0 : ((k : Int) : ℝ) ≠ 0 := by exact_mod_cast (by omega : k ≠ 0)
  have hp : ((k : Int) : ℝ) / (2 * ((k : Int) : ℝ)) = 1 / 2 := by
    field_simp
    ring
  have hlog : Real.logb 2 (1 / 2) = -1 := by
    rw [one_div, Real.logb_inv, Real.logb_self_eq_one (by norm_num)]
  have e0 : vec_get [k, k] 0 0 = k := rfl
  have e1 : vec_get [k, k] 1 0 = k := rfl
  have hr : List.range (2 : Int).toNat = [0, 1] := rfl
  rw [hr]
  simp only [List.filter_cons, List.filter_nil, Nat.cast_zero, Nat.cast_one, e0, e1,
    Int.cast_mul, Int.cast_ofNat, hp, hlog]
  have hc : (1 : ℝ) / 2 > 1 / 100000 := by norm_num
  simp only [hc, decide_True, if_true, List.map_cons, List.map_nil, Nat.cast_zero,
    Nat.cast_one, e0, e1, hp, hlog, List.sum_cons, List.sum_nil]
  norm_num

/-- Witness of C16: the counts `[1, 1]` of two samples, over the reals. -/
theorem entropy_score_eq_reference_and_uniform_pair_witness :
    entropy_score (Real.logb 2) (2 * 1) 2 [1, 1] = 1 :=
  entropy_score_eq_reference_and_uniform_pair.2 1 (by decide)

end scores

section c17

variable {T : Type} [LinearOrderedField T]

end c17

section c12

variable {T : Type} [LinearOrderedField T]

/-- C12: in a fitted tree every node in use has `n_samples = end_idx - start_idx + 1`, and
every internal node in use has its two children in use, with `L.start_idx =
node.start_idx`, `R.end_idx = node.end_idx`, `L.end_idx + 1 = R.start_idx`, both children
at `depth = node.depth + 1` and both children non-empty. -/
theorem fitted_children_split_range_of_parent (E : externals T) (hE : E.conforms)
    (st0 st : decision_tree T) (hr : fit_ready st0)
    (hf : fit E st0 = outcome.done (da_status.da_status_success, st)) :
    (∀ k nd, tree_at st.tree k = some nd → k < st.n_nodes →
        nd.n_samples = nd.end_idx - nd.start_idx + 1)
      ∧ ∀ k nd, tree_at st.tree k = some nd → k < st.n_nodes → nd.is_leaf = false →
          ∃ l r, tree_at st.tree nd.left_child_idx = some l
            ∧ tree_at st.tree nd.right_child_idx = some r
            ∧ nd.left_child_idx < st.n_nodes ∧ nd.right_child_idx < st.n_nodes
            ∧ l.start_idx = nd.start_idx ∧ r.end_idx = nd.end_idx
            ∧ l.end_idx + 1 = r.start_idx
            ∧ l.depth = nd.depth + 1 ∧ r.depth = nd.depth + 1
            ∧ 1 ≤ l.n_samples ∧ 1 ≤ r.n_samples
            ∧ l.n_samples + r.n_samples = nd.n_samples := by
  obtain ⟨hinv, _, _, _⟩ := fit_fitted E hE st0 st hr hf
  refine ⟨fun k nd hk hkN => (hinv.range.hnode k nd hk hkN).2.2.2, ?_⟩
  intro k nd hk hkN hleaf
  obtain ⟨l, r, hl, hr', e1, e2, e3, n1, n2, d1, d2⟩ := hinv.range.hkids k nd hk hkN hleaf
  have hc := hinv.tree.hchild k nd hk hkN hleaf
  have hln := (hinv.range.hnode _ l hl hc.2.2).2.2.2
  have hrn := (hinv.range.hnode _ r hr' (by omega)).2.2.2
  have hnn := (hinv.range.hnode k nd hk hkN).2.2.2
  exact ⟨l, r, hl, hr', hc.2.2, by omega, e1, e3, e2, d1, d2, by omega, by omega, by omega⟩

end c12

set_option maxRecDepth 100000 in
/-- Witness of C12: the fitted scenario instance. -/
theorem fitted_children_split_range_of_parent_witness :
    (∀ k nd, tree_at scenario_fitted.tree k = some nd → k < scenario_fitted.n_nodes →
        nd.n_samples = nd.end_idx - nd.start_idx + 1)
      ∧ ∀ k nd, tree_at scenario_fitted.tree k = some nd → k < scenario_fitted.n_nodes →
          nd.is_leaf = false →
          ∃ l r, tree_at scenario_fitted.tree nd.left_child_idx = some l
            ∧ tree_at scenario_fitted.tree nd.right_child_idx = some r
            ∧ nd.left_child_idx < scenario_fitted.n_nodes
            ∧ nd.right_child_idx < scenario_fitted.n_nodes
            ∧ l.start_idx = nd.start_idx ∧ r.end_idx = nd.end_idx
            ∧ l.end_idx + 1 = r.start_idx
            ∧ l.depth = nd.depth + 1 ∧ r.depth = nd.depth + 1
            ∧ 1 ≤ l.n_samples ∧ 1 ≤ r.n_samples
            ∧ l.n_samples + r.n_samples = nd.n_samples :=
  fitted_children_split_range_of_parent reference_externals reference_externals_conforms
    (scenario_instance (1 / 2) true 1 1) scenario_fitted (scenario_instance_ready _ _ _ _)
    scenario_fit_success

section c13

variable {T : Type} [LinearOrderedField T]

/-- An iteration of the loop of `fit` does not look at `std::random_device`. -/
theorem fit_step_random_device (E : externals T) (r : Int) (fr : fit_frame T) :
    fit_step { E with random_device := r } fr = fit_step E fr := rfl

theorem fit_loop_random_device (E : externals T) (r : Int) :
    ∀ (fuel : Nat) (fr : fit_frame T),
      fit_loop { E with random_device := r } fuel fr = fit_loop E fuel fr := by
  intro fuel
  induction fuel with
  | zero => intro fr; rfl
  | succ n ih =>
    intro fr
    unfold fit_loop
    split
    · rfl
    · rw [fit_step_random_device]
      cases fit_step E fr with
      | done fr' => exact ih fr'
      | out_of_bounds => rfl
      | out_of_fuel => rfl

theorem read_options_mt_engine (st st1 : decision_tree T) (g : Nat)
    (h : read_options st = some st1) :
    read_options ({ st with mt_engine := g } : decision_tree T)
      = some { st1 with mt_engine := g } := by
  unfold read_options at h ⊢
  by_cases hp : st.read_public_options = true
  · have hp' : ({ st with mt_engine := g } : decision_tree T).read_public_options = true := hp
    rw [if_pos hp] at h
    rw [if_pos hp']
    cases ho : st.opts with
    | none => rw [ho] at h; exact absurd h (by simp)
    | some o =>
      rw [ho] at h
      have ho' : ({ st with mt_engine := g } : decision_tree T).opts = some o := ho
      simp only [ho']
      simp only [Option.some.injEq] at h
      rw [← h]
  · have hp' : ¬ ({ st with mt_engine := g } : decision_tree T).read_public_options = true :=
      hp
    rw [if_neg hp] at h
    rw [if_neg hp']
    simp only [Option.some.injEq] at h
    rw [← h]

/-- With an explicit seed, the instance that `fit` configures depends neither on
`std::random_device` nor on the state of the random engine before the call. -/
theorem configured_deterministic (E : externals T) (r : Int) (st1 : decision_tree T)
    (g : Nat) (hseed : st1.seed ≠ -1) :
    configured { E with random_device := r } ({ st1 with mt_engine := g } : decision_tree T)
      = configured E st1 := by
  have h1 : select_score { E with random_device := r }
      ({ st1 with mt_engine := g } : decision_tree T)
      = { select_score E st1 with mt_engine := g } := by
    unfold select_score
    split
    · rfl
    · split
      · rfl
      · split <;> rfl
  have h2 : ∀ s : decision_tree T,
      resolve_nfeat ({ s with mt_engine := g } : decision_tree T)
        = { resolve_nfeat s with mt_engine := g } := by
    intro s
    unfold resolve_nfeat
    split <;> rfl
  have hs1 : (select_score E st1).seed = st1.seed := by
    unfold select_score
    split
    · rfl
    · split
      · rfl
      · split <;> rfl
  have hs2 : (resolve_nfeat (select_score E st1)).seed = st1.seed := by
    unfold resolve_nfeat
    split
    · exact hs1
    · exact hs1
  have h3 : resolve_seed { E with random_device := r }
      ({ resolve_nfeat (select_score E st1) with mt_engine := g } : decision_tree T)
      = resolve_seed E (resolve_nfeat (select_score E st1)) := by
    unfold resolve_seed
    have hne : ¬ (resolve_nfeat (select_score E st1)).seed = -1 := by rw [hs2]; exact hseed
    have hne' : ¬ ({ resolve_nfeat (select_score E st1) with mt_engine := g }
        : decision_tree T).seed = -1 := hne
    simp only [hne, hne', if_false]
  unfold configured
  rw [h1, h2, h3]
  rfl

theorem done_and_then {α β : Type} (a : α) (f : α → outcome β) :
    (outcome.done a).and_then f = f a := rfl

theorem and_then_outcome_st (x : outcome (fit_frame T)) :
    x.and_then (fun fr =>
        outcome.done (da_status.da_status_success, { fr.st with model_trained := true }))
      = (outcome_st x).and_then (fun st =>
          outcome.done (da_status.da_status_success, { st with model_trained := true })) := by
  cases x <;> rfl

/-- C13: `fit` is deterministic. Its result on an untrained instance whose seed option is
explicit (not `-1`) depends neither on what `std::random_device` would return, nor on the
state of the random engine of the instance before the call, nor on what the uninitialised
locals `sp` and `best_split` hold on entry: two runs on instances with the same data,
hyperparameters and working vectors end in the same instance (or fail in the same way), so
the node arrays, `n_nodes`, `n_leaves`, `depth` and `samples_idx` are identical. -/
theorem fit_is_deterministic (E : externals T) (r : Int) (u : split T)
    (st0 st1 : decision_tree T) (g : Nat) (ht : st0.model_trained = false)
    (ho : read_options st0 = some st1) (hseed : st1.seed ≠ -1) :
    fit { E with random_device := r, uninit_split := u }
        ({ st0 with mt_engine := g } : decision_tree T)
      = fit E st0 := by
  have hc : configured { E with random_device := r, uninit_split := u }
      ({ st1 with mt_engine := g } : decision_tree T) = configured E st1 :=
    configured_deterministic E r st1 g hseed
  rw [fit_eq E st0 st1 ht ho,
    fit_eq { E with random_device := r, uninit_split := u }
      ({ st0 with mt_engine := g } : decision_tree T)
      ({ st1 with mt_engine := g } : decision_tree T) ht (read_options_mt_engine st0 st1 g ho),
    hc]
  cases init_root (configured E st1) with
  | done st =>
    rw [done_and_then, done_and_then, and_then_outcome_st, and_then_outcome_st]
    congr 1
    exact fit_loop_locals E r u (2 * (queue_root st).n_obs.toNat + 1)
      { st := queue_root st, sp := E.uninit_split, best_split := E.uninit_split } u u
  | out_of_bounds => rfl
  | out_of_fuel => rfl

end c13

set_option maxRecDepth 100000 in
/-- Witness of C13: the scenario instance (seed 42), run with two values of
`std::random_device`, two states of the engine and two contents of the uninitialised
locals. -/
theorem fit_is_deterministic_witness :
    fit { reference_externals with
          random_device := 7,
          uninit_split := { feat_idx := 5, samp_idx := 3, score := 9, threshold := 1,
                            left_score := 2, right_score := 4 } }
        ({ scenario_instance (1 / 2) true 1 1 with mt_engine := 99 } : decision_tree ℚ)
      = fit reference_externals (scenario_instance (1 / 2) true 1 1) :=
  fit_is_deterministic reference_externals 7
    { feat_idx := 5, samp_idx := 3, score := 9, threshold := 1, left_score := 2,
      right_score := 4 }
    (scenario_instance (1 / 2) true 1 1) (scenario_instance (1 / 2) true 1 1) 99 rfl rfl
    (by decide)

section c11

variable {T : Type} [LinearOrderedField T]

/-- C11: in a fitted tree the root has the range `[0, n_obs - 1]`; the ranges of two
distinct leaves in use are disjoint; the range of every node in use lies within the range
of the root, and every position of `[0, n_obs - 1]` lies in the range of a leaf, so the
ranges of the leaves partition the range of the root; more generally, for every node in
use, the nodes below it are in use with ranges within its range, and every position of
its range lies in the range of a leaf below it. -/
theorem leaf_ranges_partition_range_of_ancestor (E : externals T) (hE : E.conforms)
    (st0 st : decision_tree T) (hr : fit_ready st0)
    (hf : fit E st0 = outcome.done (da_status.da_status_success, st)) :
    (∃ rd, tree_at st.tree 0 = some rd ∧ rd.start_idx = 0 ∧ rd.end_idx = st.n_obs - 1)
      ∧ (∀ k k' nd nd', tree_at st.tree k = some nd → tree_at st.tree k' = some nd' →
          k < st.n_nodes → k' < st.n_nodes → nd.is_leaf = true → nd'.is_leaf = true →
          k ≠ k' → nd.end_idx < nd'.start_idx ∨ nd'.end_idx < nd.start_idx)
      ∧ (∀ k nd, tree_at st.tree k = some nd → k < st.n_nodes →
          0 ≤ nd.start_idx ∧ nd.end_idx ≤ st.n_obs - 1)
      ∧ (∀ i, 0 ≤ i → i ≤ st.n_obs - 1 →
          ∃ j jd, tree_at st.tree j = some jd ∧ j < st.n_nodes ∧ jd.is_leaf = true
            ∧ jd.start_idx ≤ i ∧ i ≤ jd.end_idx)
      ∧ ∀ k nd, tree_at st.tree k = some nd → k < st.n_nodes →
          (∀ j jd, below st.tree k j → tree_at st.tree j = some jd →
            j < st.n_nodes ∧ nd.start_idx ≤ jd.start_idx ∧ jd.end_idx ≤ nd.end_idx)
          ∧ ∀ i, nd.start_idx ≤ i → i ≤ nd.end_idx →
              ∃ j jd, below st.tree k j ∧ tree_at st.tree j = some jd
                ∧ jd.is_leaf = true ∧ j < st.n_nodes ∧ jd.start_idx ≤ i
                ∧ i ≤ jd.end_idx := by
  obtain ⟨hinv, _, _, st1, _, _, _, _, _, _, _, _, _, hobs, _⟩ :=
    fit_fitted E hE st0 st hr hf
  have hleaf := fit_leaf_inv E hE st0 st hr hf
  have hN := hinv.tree.ok.hN
  obtain ⟨rd, hrd⟩ := tree_at_of_bounds st.tree 0 (le_refl _) (by omega)
  have hroot := hleaf.hroot rd hrd
  have hn0 : 0 ≤ st.n_obs := by rw [hobs]; exact hr.n_obs_nonneg
  refine ⟨⟨rd, hrd, hroot.1, hroot.2⟩, hleaf.hdisj, ?_, ?_, ?_⟩
  · intro k nd hk hkN
    have := hinv.range.hnode k nd hk hkN
    rw [hleaf.hlen] at this
    exact ⟨this.1, by have := this.2.2.1; omega⟩
  · intro i hi0 hi1
    obtain ⟨j, jd, _, hj, hjl, hjN, g1, g2⟩ :=
      below_covers st hinv _ 0 rd (le_refl _) hrd (by omega) i (by omega) (by omega)
    exact ⟨j, jd, hj, hjN, hjl, g1, g2⟩
  · intro k nd hk hkN
    exact ⟨fun j jd hb hj => below_within st hinv k j hb nd jd hk hkN hj,
      fun i hi0 hi1 => below_covers st hinv _ k nd (le_refl _) hk hkN i hi0 hi1⟩

end c11

set_option maxRecDepth 100000 in
/-- Witness of C11: the fitted scenario instance. -/
theorem leaf_ranges_partition_range_of_ancestor_witness :
    (∃ rd, tree_at scenario_fitted.tree 0 = some rd ∧ rd.start_idx = 0
        ∧ rd.end_idx = scenario_fitted.n_obs - 1)
      ∧ ∀ i, 0 ≤ i → i ≤ scenario_fitted.n_obs - 1 →
          ∃ j jd, tree_at scenario_fitted.tree j = some jd ∧ j < scenario_fitted.n_nodes
            ∧ jd.is_leaf = true ∧ jd.start_idx ≤ i ∧ i ≤ jd.end_idx :=
  ⟨(leaf_ranges_partition_range_of_ancestor reference_externals
      reference_externals_conforms (scenario_instance (1 / 2) true 1 1) scenario_fitted
      (scenario_instance_ready _ _ _ _) scenario_fit_success).1,
    (leaf_ranges_partition_range_of_ancestor reference_externals
      reference_externals_conforms (scenario_instance (1 / 2) true 1 1) scenario_fitted
      (scenario_instance_ready _ _ _ _) scenario_fit_success).2.2.2.1⟩

/-! ## `find_best_split` against the weighted score of the specification -/

section weighted_score

variable {T : Type} [LinearOrderedField T]

theorem list_eq_of_vec_get (l1 l2 : List Int) (hlen : l1.length = l2.length)
    (h : ∀ c : Int, 0 ≤ c → c < l1.length → vec_get l1 c 0 = vec_get l2 c 0) : l1 = l2 := by
  apply List.ext_getElem hlen
  intro n h1 h2
  have := h n (by omega) (by omega)
  rw [vec_get_eq_getElem l1 _ _ (by omega) (by simpa using h1),
    vec_get_eq_getElem l2 _ _ (by omega) (by simpa using h2)] at this
  simpa using this

theorem class_count_cons (st : decision_tree T) (k e : Int) (c : Int) (h0 : 0 ≤ k)
    (h1 : k ≤ e) (he : e < st.samples_idx.length) :
    class_count st k e c
      = List.count c [st.y (vec_get st.samples_idx k 0)] + class_count st (k + 1) e c := by
  unfold class_count
  rw [seg_split st.samples_idx k k e h0 (by omega) h1,
    seg_single st.samples_idx k 0 h0 (by omega), List.map_append, List.count_append]
  rfl

/-- Once the samples before `p` have moved to the left, `count_right_classes` holds the
class counts of the samples `p..end_idx`. -/
theorem moved_right_spec (st : decision_tree T) (nd : node T) (p : Int)
    (h0 : 0 ≤ nd.start_idx) (hp0 : nd.start_idx ≤ p) (hp : p ≤ nd.end_idx + 1)
    (he : nd.end_idx < st.samples_idx.length)
    (hcc : st.count_classes
      = count_class_occurences st st.count_classes nd.start_idx nd.end_idx)
    (hlen : st.count_right_classes.length = st.count_classes.length) :
    (moved_right st nd p).length = st.count_classes.length
      ∧ ∀ c : Int, 0 ≤ c → c < st.count_classes.length →
          vec_get (moved_right st nd p) c 0 = class_count st p nd.end_idx c := by
  have hspec := count_class_occurences_spec st st.count_classes nd.start_idx nd.end_idx h0
    (by omega) he
  rw [← hcc] at hspec
  have hcopy : vec_copy st.count_classes st.count_right_classes = st.count_classes := by
    unfold vec_copy
    rw [List.drop_eq_nil_of_le (by omega), List.append_nil]
  unfold moved_right
  rw [hcopy]
  exact for_range_ind
    (fun (k : Int) (occ : List Int) => occ.length = st.count_classes.length
      ∧ ∀ c : Int, 0 ≤ c → c < st.count_classes.length →
          vec_get occ c 0 = class_count st k nd.end_idx c)
    nd.start_idx p
    (fun i occ =>
      vec_set occ (st.y (vec_get st.samples_idx i 0))
        (vec_get occ (st.y (vec_get st.samples_idx i 0)) 0 - 1))
    st.count_classes hp0
    ⟨rfl, hspec.2⟩
    (fun k occ hk1 hk2 ih => by
      beta_reduce at ih ⊢
      refine ⟨by simp [ih.1], fun c hc0 hc1 => ?_⟩
      have hs := class_count_cons st k nd.end_idx c (by omega) (by omega) he
      by_cases hy : st.y (vec_get st.samples_idx k 0) = c
      · rw [hy, vec_get_vec_set_eq _ _ _ _ hc0 (by rw [ih.1]; exact hc1), ih.2 c hc0 hc1, hs]
        simp [hy]
      · rw [vec_get_vec_set_ne _ _ _ _ _ hy, ih.2 c hc0 hc1, hs]
        have : List.count c [st.y (vec_get st.samples_idx k 0)] = 0 :=
          List.count_eq_zero.mpr (by simpa using Ne.symm hy)
        simp [this])

/-- The histogram of the right side that `find_best_split` keeps by decrements is the
histogram of the samples `t+1..end_idx`. -/
theorem moved_right_eq_right_counts (st : decision_tree T) (nd : node T) (t : Int)
    (h0 : 0 ≤ nd.start_idx) (ht0 : nd.start_idx ≤ t + 1) (ht : t ≤ nd.end_idx)
    (he : nd.end_idx < st.samples_idx.length)
    (hcc : st.count_classes
      = count_class_occurences st st.count_classes nd.start_idx nd.end_idx)
    (hlen : st.count_right_classes.length = st.count_classes.length) :
    moved_right st nd (t + 1) = right_counts st nd t := by
  have h1 := moved_right_spec st nd (t + 1) h0 (by omega) (by omega) he hcc hlen
  have h2 := count_class_occurences_spec st st.count_right_classes (t + 1) nd.end_idx
    (by omega) (by omega) he
  unfold right_counts
  apply list_eq_of_vec_get _ _ (by rw [h1.1, h2.1, hlen])
  intro c hc0 hc1
  rw [h1.1] at hc1
  rw [h1.2 c hc0 hc1, h2.2 c hc0 (by rw [hlen]; exact hc1)]

theorem swept_right_score_eq (st : decision_tree T) (nd : node T) (ft : T) (t : Int)
    (hnd : node_in_range st.samples_idx.length nd)
    (hcc : st.count_classes
      = count_class_occurences st st.count_classes nd.start_idx nd.end_idx)
    (hlen : st.count_right_classes.length = st.count_classes.length)
    (hb : boundary st nd ft t) :
    swept_right_score st nd t = right_impurity st nd t := by
  obtain ⟨h0, _, he, hns⟩ := hnd
  unfold swept_right_score right_impurity
  rw [moved_right_eq_right_counts st nd t h0 (by have := hb.1; omega)
    (by have := hb.2.1; omega) he hcc hlen]
  have e : nd.n_samples - (t - nd.start_idx + 1) = nd.end_idx - t := by rw [hns]; ring
  rw [e]

theorem swept_score_eq (st : decision_tree T) (nd : node T) (ft : T) (t : Int)
    (hnd : node_in_range st.samples_idx.length nd)
    (hcc : st.count_classes
      = count_class_occurences st st.count_classes nd.start_idx nd.end_idx)
    (hlen : st.count_right_classes.length = st.count_classes.length)
    (hb : boundary st nd ft t) :
    swept_score st nd t = split_weight st nd t := by
  unfold swept_score split_weight
  rw [swept_right_score_eq st nd ft t hnd hcc hlen hb]
  have e : nd.n_samples - (t - nd.start_idx + 1) = nd.end_idx - t := by
    rw [hnd.2.2.2]; ring
  rw [e]

theorem sp_upto_congr (st : decision_tree T) (nd : node T) (ft ms : T)
    (W W' Ls Rs Rs' : Int → T) (p : Int) (sp : split T)
    (hW : ∀ t, boundary st nd ft t → W t = W' t)
    (hR : ∀ t, boundary st nd ft t → Rs t = Rs' t)
    (h : sp_upto st nd ft ms W Ls Rs p sp) : sp_upto st nd ft ms W' Ls Rs' p sp := by
  rcases h with ⟨h1, h2, h3⟩ | ⟨h1, h2, h3, h4, h5, h6, h7, h8, h9, h10⟩
  · left
    refine ⟨h1, h2, fun t hb ht => ?_⟩
    rw [← hW t hb]
    exact h3 t hb ht
  · right
    refine ⟨h1, h2, by rw [h3, hW _ h1], h4, h5, h6, by rw [h7, hR _ h1], h8, ?_, ?_⟩
    · intro t hb ht
      rw [← hW t hb]
      exact h9 t hb ht
    · intro t hb ht1 ht2
      rw [← hW t hb]
      exact h10 t hb ht1 ht2

/-- What `find_best_split` leaves in `sp`, in terms of the weighted score of the
specification. -/
theorem find_best_split_weighted (st : decision_tree T) (nd : node T) (ft ms : T)
    (sp : split T) (hnd : node_in_range st.samples_idx.length nd)
    (hcc : st.count_classes
      = count_class_occurences st st.count_classes nd.start_idx nd.end_idx)
    (hlen : st.count_right_classes.length = st.count_classes.length) :
    sp_upto st nd ft ms (split_weight st nd) (left_impurity st nd) (right_impurity st nd)
      nd.end_idx (find_best_split st nd ft ms sp).2 :=
  sp_upto_congr st nd ft ms _ _ _ _ _ _ _
    (fun t hb => swept_score_eq st nd ft t hnd hcc hlen hb)
    (fun t hb => swept_right_score_eq st nd ft t hnd hcc hlen hb)
    (find_best_split_swept st nd ft ms sp).2

end weighted_score

/-! ## Claims on `find_best_split` -/

section split_search_claims

variable {T : Type} [LinearOrderedField T]

/-- C20: when `find_best_split` records a split at `s = sp.samp_idx` (`sp.samp_idx ≠ -1`
on return), the position `s` lies in `[start_idx, end_idx - 1]`,
`|feature_values[s+1] - feature_values[s]| ≥ feat_thresh` and
`sp.threshold = (feature_values[s] + feature_values[s+1]) / 2`; when moreover
`feat_thresh > 0` and `feature_values` is ascending over the range of the node,
`feature_values[s] < sp.threshold < feature_values[s+1]`. -/
theorem recorded_threshold_between_distinct_values (st : decision_tree T) (nd : node T)
    (ft ms : T) (sp : split T)
    (hrec : (find_best_split st nd ft ms sp).2.samp_idx ≠ -1) :
    (nd.start_idx ≤ (find_best_split st nd ft ms sp).2.samp_idx
        ∧ (find_best_split st nd ft ms sp).2.samp_idx ≤ nd.end_idx - 1
        ∧ ft ≤ |vec_get st.feature_values ((find_best_split st nd ft ms sp).2.samp_idx + 1) 0
            - vec_get st.feature_values (find_best_split st nd ft ms sp).2.samp_idx 0|
        ∧ (find_best_split st nd ft ms sp).2.threshold
            = (vec_get st.feature_values (find_best_split st nd ft ms sp).2.samp_idx 0
                + vec_get st.feature_values
                    ((find_best_split st nd ft ms sp).2.samp_idx + 1) 0) / 2)
      ∧ (0 < ft →
          (∀ i : Int, nd.start_idx ≤ i → i < nd.end_idx →
            vec_get st.feature_values i 0 ≤ vec_get st.feature_values (i + 1) 0) →
          vec_get st.feature_values (find_best_split st nd ft ms sp).2.samp_idx 0
              < (find_best_split st nd ft ms sp).2.threshold
            ∧ (find_best_split st nd ft ms sp).2.threshold
              < vec_get st.feature_values
                  ((find_best_split st nd ft ms sp).2.samp_idx + 1) 0) := by
  have h := (find_best_split_swept st nd ft ms sp).2
  generalize (find_best_split st nd ft ms sp).2 = r at h hrec ⊢
  rcases h with ⟨h1, _, _⟩ | ⟨h1, h2, h3, h4, h5, h6, h7, h8, h9, h10⟩
  · exact absurd h1 hrec
  · refine ⟨⟨h1.1, h1.2.1, h1.2.2, h8⟩, fun hft hasc => ?_⟩
    have hle := hasc r.samp_idx h1.1 (by have := h1.2.1; omega)
    have hab := h1.2.2
    rw [abs_of_nonneg (sub_nonneg.mpr hle)] at hab
    have hlt : vec_get st.feature_values r.samp_idx 0
        < vec_get st.feature_values (r.samp_idx + 1) 0 := by linarith
    rw [h8]
    constructor <;> linarith

end split_search_claims

/-! ## The scenario at the first call of `find_best_split` -/

set_option maxRecDepth 100000 in
theorem scenario_sorted_ascending (i : Int) (h0 : scenario_root.start_idx ≤ i)
    (h1 : i < scenario_root.end_idx) :
    vec_get scenario_sorted.feature_values i 0
      ≤ vec_get scenario_sorted.feature_values (i + 1) 0 := by
  have e0 : scenario_root.start_idx = 0 := rfl
  have e1 : scenario_root.end_idx = 3 := by decide!
  rw [e0] at h0
  rw [e1] at h1
  interval_cases i <;> decide!

set_option maxRecDepth 100000 in
/-- Witness of C20: the root of the scenario at the first call of `find_best_split`, with
`feat_thresh = 1/2`. -/
theorem recorded_threshold_between_distinct_values_witness :
    (find_best_split scenario_sorted scenario_root (1 / 2) (1 / 2)
        reference_externals.uninit_split).2.samp_idx ≠ -1
      ∧ vec_get scenario_sorted.feature_values
          (find_best_split scenario_sorted scenario_root (1 / 2) (1 / 2)
            reference_externals.uninit_split).2.samp_idx 0
        < (find_best_split scenario_sorted scenario_root (1 / 2) (1 / 2)
            reference_externals.uninit_split).2.threshold
      ∧ (find_best_split scenario_sorted scenario_root (1 / 2) (1 / 2)
            reference_externals.uninit_split).2.threshold
        < vec_get scenario_sorted.feature_values
          ((find_best_split scenario_sorted scenario_root (1 / 2) (1 / 2)
            reference_externals.uninit_split).2.samp_idx + 1) 0 :=
  ⟨by decide!,
    (recorded_threshold_between_distinct_values scenario_sorted scenario_root (1 / 2)
      (1 / 2) reference_externals.uninit_split (by decide!)).2
      (by norm_num) scenario_sorted_ascending⟩

/-! ## The best split over the candidate features of a node -/

section candidates

variable {T : Type} [LinearOrderedField T]

theorem split_copy_eq (b s : split T) : b.copy s = s := by
  cases s; rfl

theorem after_features_eq_upto (E : externals T) (fr : fit_frame T) (nd : node T) :
    after_features E fr nd = features_upto E fr nd (before_features E fr nd).nfeat_split :=
  rfl

theorem features_upto_succ (E : externals T) (fr : fit_frame T) (nd : node T) (j : Int)
    (hj : 0 ≤ j) :
    features_upto E fr nd (j + 1)
      = feature_loop_body E nd (nd.score - fr.st.min_improvement) j
          (features_upto E fr nd j) := by
  unfold features_upto
  rw [for_range_succ _ _ _ _ hj]

theorem features_upto_features_idx (E : externals T) (fr : fit_frame T) (nd : node T)
    (j : Int) :
    (features_upto E fr nd j).st.features_idx = (before_features E fr nd).features_idx := by
  obtain ⟨v, fv, cl, cr, e⟩ := feature_loop_frame E nd (nd.score - fr.st.min_improvement) j
    { st := before_features E fr nd, sp := fr.sp,
      best_split := { fr.best_split with score := nd.score, feat_idx := -1 } }
  unfold features_upto
  rw [e]

theorem feature_loop_body_sp (E : externals T) (fr : fit_frame T) (nd : node T) (j : Int) :
    (feature_loop_body E nd (nd.score - fr.st.min_improvement) j
      (features_upto E fr nd j)).sp = candidate E fr nd j := rfl

theorem feature_loop_body_best (E : externals T) (fr : fit_frame T) (nd : node T)
    (j : Int) :
    (feature_loop_body E nd (nd.score - fr.st.min_improvement) j
      (features_upto E fr nd j)).best_split
      = if (candidate E fr nd j).score < (features_upto E fr nd j).best_split.score then
          (features_upto E fr nd j).best_split.copy (candidate E fr nd j)
        else (features_upto E fr nd j).best_split := rfl

/-- A candidate either holds no split, with the score of the node, or a recorded one, with
a score below that of the node; its feature is the entry of `features_idx`. -/
theorem candidate_cases (E : externals T) (fr : fit_frame T) (nd : node T) (j : Int)
    (h0 : 0 ≤ nd.start_idx) :
    (candidate E fr nd j).feat_idx = vec_get (before_features E fr nd).features_idx j 0
      ∧ (((candidate E fr nd j).samp_idx = -1 ∧ (candidate E fr nd j).score = nd.score)
        ∨ ((candidate E fr nd j).samp_idx ≠ -1 ∧ (candidate E fr nd j).score < nd.score)) := by
  have h := find_best_split_cases
    (sort_samples E (features_upto E fr nd j).st nd
      (vec_get (features_upto E fr nd j).st.features_idx j 0))
    nd
    (sort_samples E (features_upto E fr nd j).st nd
      (vec_get (features_upto E fr nd j).st.features_idx j 0)).feat_thresh
    (nd.score - fr.st.min_improvement)
    { (features_upto E fr nd j).sp with
      feat_idx := vec_get (features_upto E fr nd j).st.features_idx j 0 }
  refine ⟨?_, ?_⟩
  · have := h.1
    rw [features_upto_features_idx] at this
    rw [← features_upto_features_idx E fr nd j] at this ⊢
    exact this
  · rcases h.2 with h1 | h1
    · exact Or.inl h1
    · right
      have a1 := h1.1
      exact ⟨by
        show (candidate E fr nd j).samp_idx ≠ -1
        intro hc
        have : nd.start_idx ≤ (candidate E fr nd j).samp_idx := a1
        omega, h1.2.2.1⟩

/-- The loop over the candidate features keeps in `best_split` the split of the first
candidate with the least score. -/
theorem best_upto_features (E : externals T) (fr : fit_frame T) (nd : node T)
    (h0 : 0 ≤ nd.start_idx) :
    ∀ k : Nat, (k : Int) ≤ (before_features E fr nd).nfeat_split →
      best_upto E fr nd k (features_upto E fr nd k).best_split := by
  intro k
  induction k with
  | zero =>
    intro _
    refine ⟨?_, Or.inl ⟨?_, ?_, ?_⟩⟩
    · show (features_upto E fr nd 0).best_split.score ≤ nd.score
      unfold features_upto
      rw [for_range_of_le _ _ _ _ (le_refl _)]
    · show (features_upto E fr nd 0).best_split.feat_idx = -1
      unfold features_upto
      rw [for_range_of_le _ _ _ _ (le_refl _)]
    · show (features_upto E fr nd 0).best_split.score = nd.score
      unfold features_upto
      rw [for_range_of_le _ _ _ _ (le_refl _)]
    · intro j hj0 hj1
      have : j < 0 := hj1
      omega
  | succ k ih =>
    intro hk
    have hk' : ((k : Nat) : Int) ≤ (before_features E fr nd).nfeat_split := by
      push_cast at hk; omega
    have hlt : ((k : Nat) : Int) < (before_features E fr nd).nfeat_split := by
      push_cast at hk; omega
    obtain ⟨hle, hcase⟩ := ih hk'
    have hc := candidate_cases E fr nd k h0
    have hall := fun j => candidate_cases E fr nd j h0
    have e : features_upto E fr nd ((k + 1 : Nat) : Int)
        = feature_loop_body E nd (nd.score - fr.st.min_improvement) k
            (features_upto E fr nd k) := by
      push_cast
      exact features_upto_succ E fr nd k (by omega)
    rw [e, feature_loop_body_best]
    generalize (features_upto E fr nd k).best_split = b at hle hcase ⊢
    have hk1 : (((k + 1 : Nat) : Nat) : Int) = (k : Int) + 1 := by push_cast; ring
    rw [hk1]
    by_cases hupd : (candidate E fr nd k).score < b.score
    · rw [if_pos hupd, split_copy_eq]
      have hrec : (candidate E fr nd k).samp_idx ≠ -1 := by
        rcases hc.2 with h1 | h1
        · exfalso
          rw [h1.2] at hupd
          exact absurd hle (not_le.mpr hupd)
        · exact h1.1
      refine ⟨le_of_lt (lt_of_lt_of_le hupd hle), Or.inr ⟨k, by omega, by omega, hrec, rfl,
        ?_, ?_⟩⟩
      · intro j' hj0 hj1
        by_cases hjk : j' = k
        · rw [hjk]
        · have hj2 : j' < k := by omega
          rcases hcase with ⟨_, hb, hnone⟩ | ⟨j, _, _, _, hbj, hmin, _⟩
          · have := hnone j' hj0 hj2
            rcases (hall j').2 with h1 | h1
            · rw [h1.2, ← hb]; exact le_of_lt hupd
            · exact absurd this h1.1
          · exact le_of_lt (lt_of_lt_of_le hupd (hmin j' hj0 hj2))
      · intro j' hj0 hj2
        rcases hcase with ⟨_, hb, hnone⟩ | ⟨j, _, _, _, hbj, hmin, _⟩
        · have := hnone j' hj0 hj2
          rcases (hall j').2 with h1 | h1
          · rw [h1.2, ← hb]; exact hupd
          · exact absurd this h1.1
        · exact lt_of_lt_of_le hupd (hmin j' hj0 hj2)
    · rw [if_neg hupd]
      refine ⟨hle, ?_⟩
      rcases hcase with ⟨hf, hb, hnone⟩ | ⟨j, hj0, hj1, hjr, hbj, hmin, hfirst⟩
      · left
        refine ⟨hf, hb, fun j' hj0 hj1 => ?_⟩
        by_cases hjk : j' = k
        · rw [hjk]
          rcases hc.2 with h1 | h1
          · exact h1.1
          · exfalso
            rw [hb] at hupd
            exact hupd h1.2
        · exact hnone j' hj0 (by omega)
      · right
        refine ⟨j, hj0, by omega, hjr, hbj, fun j' hj0' hj1' => ?_, hfirst⟩
        by_cases hjk : j' = k
        · rw [hjk]; exact not_lt.mp hupd
        · exact hmin j' hj0' (by omega)

theorem after_features_best_upto (E : externals T) (fr : fit_frame T) (nd : node T)
    (h0 : 0 ≤ nd.start_idx) :
    best_upto E fr nd (before_features E fr nd).nfeat_split
      (after_features E fr nd).best_split := by
  rw [after_features_eq_upto]
  by_cases hn : 0 ≤ (before_features E fr nd).nfeat_split
  · have := best_upto_features E fr nd h0 (before_features E fr nd).nfeat_split.toNat
      (by omega)
    rw [Int.toNat_of_nonneg hn] at this
    exact this
  · refine ⟨?_, Or.inl ⟨?_, ?_, fun j hj0 hj1 => by omega⟩⟩
    · unfold features_upto
      rw [for_range_of_le _ _ _ _ (by omega)]
    · unfold features_upto
      rw [for_range_of_le _ _ _ _ (by omega)]
    · unfold features_upto
      rw [for_range_of_le _ _ _ _ (by omega)]

/-- A `best_split` with a feature is the split of a candidate with a recorded split. -/
theorem after_features_best_candidate (E : externals T) (fr : fit_frame T) (nd : node T)
    (h0 : 0 ≤ nd.start_idx) (hb : (after_features E fr nd).best_split.feat_idx ≠ -1) :
    ∃ j, 0 ≤ j ∧ j < (before_features E fr nd).nfeat_split
      ∧ (candidate E fr nd j).samp_idx ≠ -1
      ∧ (after_features E fr nd).best_split = candidate E fr nd j := by
  obtain ⟨_, hcase⟩ := after_features_best_upto E fr nd h0
  rcases hcase with ⟨hf, _, _⟩ | ⟨j, hj0, hj1, hjr, hbj, _, _⟩
  · exact absurd hf hb
  · exact ⟨j, hj0, hj1, hjr, hbj⟩

/-- After the loop over the candidate features of a node, `best_split` holds the split of
the first candidate with the least score, should one be recorded, and `feat_idx = -1`
otherwise. -/
theorem after_features_best (E : externals T) (fr : fit_frame T) (nd : node T)
    (h0 : 0 ≤ nd.start_idx)
    (hfeat : ∀ j, 0 ≤ j → j < (before_features E fr nd).nfeat_split →
      vec_get (before_features E fr nd).features_idx j 0 ≠ -1) :
    ((after_features E fr nd).best_split.feat_idx ≠ -1
        ↔ ∃ j, 0 ≤ j ∧ j < (before_features E fr nd).nfeat_split
            ∧ (candidate E fr nd j).samp_idx ≠ -1)
      ∧ ((after_features E fr nd).best_split.feat_idx ≠ -1 →
          ∃ j, 0 ≤ j ∧ j < (before_features E fr nd).nfeat_split
            ∧ (candidate E fr nd j).samp_idx ≠ -1
            ∧ (after_features E fr nd).best_split = candidate E fr nd j
            ∧ (∀ j', 0 ≤ j' → j' < (before_features E fr nd).nfeat_split →
                (candidate E fr nd j).score ≤ (candidate E fr nd j').score)
            ∧ (∀ j', 0 ≤ j' → j' < j →
                (candidate E fr nd j).score < (candidate E fr nd j').score)) := by
  have key := after_features_best_upto E fr nd h0
  obtain ⟨_, hcase⟩ := key
  rcases hcase with ⟨hf, _, hnone⟩ | ⟨j, hj0, hj1, hjr, hbj, hmin, hfirst⟩
  · refine ⟨⟨fun h => absurd hf h, fun ⟨j, hj0, hj1, hjr⟩ => absurd (hnone j hj0 hj1) hjr⟩,
      fun h => absurd hf h⟩
  · have hne : (after_features E fr nd).best_split.feat_idx ≠ -1 := by
      rw [hbj, (candidate_cases E fr nd j h0).1]
      exact hfeat j hj0 hj1
    refine ⟨⟨fun _ => ⟨j, hj0, hj1, hjr⟩, fun _ => hne⟩,
      fun _ => ⟨j, hj0, hj1, hjr, hbj, ?_, ?_⟩⟩
    · intro j' h1 h2
      rw [← hbj]; exact hmin j' h1 h2
    · intro j' h1 h2
      rw [← hbj]; exact hfirst j' h1 h2

end candidates

/-! ## Which nodes are expanded -/

section expansion

variable {T : Type} [LinearOrderedField T]

theorem mem_enqueued (st : decision_tree T) (s : T) (c : node T) (x : Int)
    (h : x ∈ (enqueued st s c).nodes_to_treat) :
    x ∈ st.nodes_to_treat
      ∨ (x = st.n_nodes - 1 ∧ st.min_split_score < s ∧ st.min_node_sample ≤ c.n_samples
          ∧ c.depth < st.max_depth) := by
  unfold enqueued at h
  split at h
  · rename_i hc
    have h' : x ∈ st.nodes_to_treat ++ [st.n_nodes - 1] := h
    rcases List.mem_append.mp h' with h1 | h1
    · exact Or.inl h1
    · right
      exact ⟨by simpa using h1, hc.1, hc.2.1, hc.2.2⟩
  · exact Or.inl h

theorem enqueued_min_split_score (st : decision_tree T) (s : T) (c : node T) :
    (enqueued st s c).min_split_score = st.min_split_score := by
  unfold enqueued; split <;> rfl

theorem enqueued_min_node_sample' (st : decision_tree T) (s : T) (c : node T) :
    (enqueued st s c).min_node_sample = st.min_node_sample := by
  unfold enqueued; split <;> rfl

theorem enqueued_max_depth' (st : decision_tree T) (s : T) (c : node T) :
    (enqueued st s c).max_depth = st.max_depth := by
  unfold enqueued; split <;> rfl

/-- A node in the queue at the end of an iteration that splits a node was in the queue
before, or is a child that met the three conditions. -/
theorem mem_split_state_queue (stA : decision_tree T) (q : Int) (nd : node T) (b : split T)
    (x : Int) (h : x ∈ (split_state stA q nd b).nodes_to_treat) :
    x ∈ stA.nodes_to_treat
      ∨ (x = stA.n_nodes ∧ stA.min_split_score < (right_child stA q nd b).score
          ∧ stA.min_node_sample ≤ (right_child stA q nd b).n_samples
          ∧ (right_child stA q nd b).depth < stA.max_depth)
      ∨ (x = stA.n_nodes + 1 ∧ stA.min_split_score < (left_child stA q nd b).score
          ∧ stA.min_node_sample ≤ (left_child stA q nd b).n_samples
          ∧ (left_child stA q nd b).depth < stA.max_depth) := by
  have h1 := mem_enqueued _ _ _ x h
  have eR1 : (right_added stA q nd b).min_split_score = stA.min_split_score := by
    unfold right_added; rw [enqueued_min_split_score]; rfl
  have eR2 : (right_added stA q nd b).min_node_sample = stA.min_node_sample := by
    unfold right_added; rw [enqueued_min_node_sample']; rfl
  have eR3 : (right_added stA q nd b).max_depth = stA.max_depth := by
    unfold right_added; rw [enqueued_max_depth']; rfl
  rcases h1 with h1 | ⟨e, c1, c2, c3⟩
  · have h2 : x ∈ (right_added stA q nd b).nodes_to_treat := h1
    unfold right_added at h2
    rcases mem_enqueued _ _ _ x h2 with h3 | ⟨e, c1, c2, c3⟩
    · exact Or.inl h3
    · right; left
      refine ⟨?_, c1, c2, c3⟩
      have : x = stA.n_nodes + 1 - 1 := e
      omega
  · right; right
    have e' : x = (right_added stA q nd b).n_nodes + 1 - 1 := e
    rw [right_added_n_nodes] at e'
    have c1' : (right_added stA q nd b).min_split_score < b.left_score := c1
    have c2' : (right_added stA q nd b).min_node_sample ≤ (left_child stA q nd b).n_samples :=
      c2
    have c3' : (left_child stA q nd b).depth < (right_added stA q nd b).max_depth := c3
    rw [eR1] at c1'
    rw [eR2] at c2'
    rw [eR3] at c3'
    exact ⟨by omega, c1', c2', c3'⟩

theorem queue_root_mem (st : decision_tree T) (hq : st.nodes_to_treat = [])
    (h : (0 : Int) ∈ (queue_root st).nodes_to_treat) : 0 < (queue_root st).max_depth := by
  unfold queue_root at h ⊢
  split
  · rename_i hc; exact hc
  · rename_i hc
    rw [if_neg hc, hq] at h
    exact absurd h (by simp)

theorem expand_inv_entry (E : externals T) (st1 : decision_tree T) (hn : st1.tree = [])
    (hq : st1.nodes_to_treat = []) (hp : st1.predict_proba_opt = true) :
    expand_inv (queue_root (rooted (configured E st1))) := by
  obtain ⟨hN, _, _, _, h0, hall⟩ := entry_nodes E st1 hn hq hp
  have hqe : (rooted (configured E st1)).nodes_to_treat = [] := by
    show (configured E st1).nodes_to_treat = []
    rw [(configured_settings E st1).2.2.2.2.2.2.2.2.2.2.2.2.2.2.2.2.2.1]; exact hq
  refine ⟨?_, ?_, ?_, ?_⟩
  · intro k kd hk hkN hk0 _
    exact absurd (hall k kd hk hkN).1 hk0
  · intro kd hk hc
    rw [h0] at hk
    have e := Option.some.inj hk
    rcases hc with hc | hc
    · exact queue_root_mem _ hqe hc
    · rw [← e] at hc
      exact absurd hc (by simp [(root_node_fields (configured E st1)).2.2.2.1])
  · intro kd hk
    rw [h0] at hk
    rw [← Option.some.inj hk]
    rfl
  · intro k kd hk hkN hk0
    exact absurd (hall k kd hk hkN).1 hk0

/-- The conditions survive an iteration that leaves the node array and the settings as
they are and adds nothing to the queue. -/
theorem expand_inv_same_tree (s0 s1 : decision_tree T) (h : expand_inv s0)
    (ht : s1.tree = s0.tree) (hn : s1.n_nodes = s0.n_nodes)
    (hq : ∀ x ∈ s1.nodes_to_treat, x ∈ s0.nodes_to_treat) (hss : same_settings s0 s1) :
    expand_inv s1 := by
  refine ⟨?_, ?_, ?_, ?_⟩
  · intro k kd hk hkN hk0 hc
    rw [ht] at hk
    rw [hn] at hkN
    have := h.hexp k kd hk hkN hk0 (hc.imp (hq k) id)
    unfold may_expand at this ⊢
    rw [hss.max_depth, hss.min_node_sample, hss.min_split_score]
    exact this
  · intro kd hk hc
    rw [ht] at hk
    rw [hss.max_depth]
    exact h.hrootq kd hk (hc.imp (hq 0) id)
  · intro kd hk
    rw [ht] at hk
    exact h.hroot kd hk
  · intro k kd hk hkN hk0
    rw [ht] at hk
    rw [hn] at hkN
    rw [hss.max_depth]
    exact h.hdepth k kd hk hkN hk0

/-- The conditions after an iteration that splits the node at `q`, taken from the queue. -/
theorem expand_inv_split_core (s0 stA : decision_tree T) (q : Int) (nd : node T)
    (b : split T) (h : expand_inv s0) (hnd : tree_at s0.tree q = some nd)
    (hq0 : q < s0.n_nodes) (hmem : q ∈ s0.nodes_to_treat)
    (hqlt : ∀ x ∈ s0.nodes_to_treat, x < s0.n_nodes)
    (hAt : stA.tree = s0.tree) (hAn : stA.n_nodes = s0.n_nodes)
    (hAq : ∀ x ∈ stA.nodes_to_treat, x ∈ s0.nodes_to_treat)
    (hss : same_settings s0 stA) (hokA : array_ok stA) :
    expand_inv (split_state stA q nd b) := by
  have hqA : q < stA.n_nodes := by rw [hAn]; exact hq0
  have hndA : tree_at stA.tree q = some nd := by rw [hAt]; exact hnd
  have hS := same_settings_split_state stA q nd b
  have hmd : (split_state stA q nd b).max_depth = s0.max_depth :=
    hS.max_depth.trans hss.max_depth
  have hmn : (split_state stA q nd b).min_node_sample = s0.min_node_sample :=
    hS.min_node_sample.trans hss.min_node_sample
  have hms : (split_state stA q nd b).min_split_score = s0.min_split_score :=
    hS.min_split_score.trans hss.min_split_score
  have hview := split_state_nodes stA q nd b hokA hndA hqA
  have hRf := right_child_fields stA q nd b
  have hLf := left_child_fields stA q nd b
  have hN := hokA.hN
  have hndepth : nd.depth < s0.max_depth := by
    by_cases hq : q = 0
    · rw [hq] at hnd hmem
      rw [h.hroot nd hnd]
      exact h.hrootq nd hnd (Or.inl hmem)
    · exact (h.hexp q nd hnd hq0 hq (Or.inl hmem)).1
  have hqueue : ∀ x, x ∈ (split_state stA q nd b).nodes_to_treat → x < stA.n_nodes →
      x ∈ s0.nodes_to_treat := by
    intro x hx hxN
    rcases mem_split_state_queue stA q nd b x hx with h1 | ⟨e, _⟩ | ⟨e, _⟩
    · exact hAq x h1
    · omega
    · omega
  refine ⟨?_, ?_, ?_, ?_⟩
  · intro k kd hk hkN hk0 hc
    rw [split_state_n_nodes] at hkN
    unfold may_expand
    rw [hmd, hmn, hms]
    rcases hview k kd hk hkN with ⟨e0, e⟩ | ⟨e0, e⟩ | ⟨e0, e⟩ | ⟨hkq, hk3, hk4⟩
    · rw [e]
      have := h.hexp q nd hnd hq0 (by rw [← e0]; exact hk0) (Or.inl hmem)
      exact this
    · rcases hc with hc | hc
      · rcases mem_split_state_queue stA q nd b k hc with h1 | ⟨_, c1, c2, c3⟩ | ⟨e1, _⟩
        · exfalso
          have := hqlt k (hAq k h1)
          clear * - this e0 hAn
          omega
        · rw [e]
          rw [hss.min_split_score] at c1
          rw [hss.min_node_sample] at c2
          rw [hss.max_depth] at c3
          exact ⟨c3, c2, c1⟩
        · exfalso
          clear * - e0 e1
          omega
      · rw [e] at hc
        exact absurd hc (by simp [hRf])
    · rcases hc with hc | hc
      · rcases mem_split_state_queue stA q nd b k hc with h1 | ⟨e1, _⟩ | ⟨_, c1, c2, c3⟩
        · exfalso
          have := hqlt k (hAq k h1)
          clear * - this e0 hAn
          omega
        · exfalso
          clear * - e0 e1
          omega
        · rw [e]
          rw [hss.min_split_score] at c1
          rw [hss.min_node_sample] at c2
          rw [hss.max_depth] at c3
          exact ⟨c3, c2, c1⟩
      · rw [e] at hc
        exact absurd hc (by simp [hLf])
    · have hk4' : tree_at s0.tree k = some kd := by rw [← hAt]; exact hk4
      have hk3' : k < s0.n_nodes := by rw [← hAn]; exact hk3
      exact h.hexp k kd hk4' hk3' hk0 (hc.imp (fun hc => hqueue k hc hk3) id)
  · intro kd hk hc
    rw [hmd]
    rcases hview 0 kd hk (by omega) with ⟨e0, e⟩ | ⟨e0, e⟩ | ⟨e0, e⟩ | ⟨hkq, hk3, hk4⟩
    · rw [← e0] at hnd hmem
      exact h.hrootq nd hnd (Or.inl hmem)
    · omega
    · omega
    · have hk4' : tree_at s0.tree 0 = some kd := by rw [← hAt]; exact hk4
      exact h.hrootq kd hk4' (hc.imp (fun hc => hqueue 0 hc hk3) id)
  · intro kd hk
    rcases hview 0 kd hk (by omega) with ⟨e0, e⟩ | ⟨e0, e⟩ | ⟨e0, e⟩ | ⟨hkq, hk3, hk4⟩
    · rw [e]
      rw [← e0] at hnd
      exact h.hroot nd hnd
    · omega
    · omega
    · exact h.hroot kd (by rw [← hAt]; exact hk4)
  · intro k kd hk hkN hk0
    rw [split_state_n_nodes] at hkN
    rw [hmd]
    rcases hview k kd hk hkN with ⟨e0, e⟩ | ⟨e0, e⟩ | ⟨e0, e⟩ | ⟨hkq, hk3, hk4⟩
    · rw [e]
      exact le_of_lt hndepth
    · rw [e]
      have : (right_child stA q nd b).depth = nd.depth + 1 := hRf.2.2.2.1
      rw [this]
      clear * - hndepth
      omega
    · rw [e]
      have : (left_child stA q nd b).depth = nd.depth + 1 := hLf.2.2.2.1
      rw [this]
      clear * - hndepth
      omega
    · exact h.hdepth k kd (by rw [← hAt]; exact hk4) (by rw [← hAn]; exact hk3) hk0

/-- An iteration of the loop of `fit` keeps the conditions of expansion. -/
theorem expand_inv_step (E : externals T) (hE : E.conforms) (fr fr' : fit_frame T)
    (hi : fit_inv fr.st) (h : expand_inv fr.st) (hne : fr.st.nodes_to_treat ≠ [])
    (hs : fit_step E fr = outcome.done fr') : expand_inv fr'.st := by
  obtain ⟨nd, hnd, hmem, hpop⟩ := popped_of_done E fr fr' hne hs
  have hq := hi.tree.hqueue _ hmem
  have hf := step_facts_of_inv E hE fr nd hi.tree hi.range hnd hpop
  have hAq : ∀ x ∈ (after_features E fr nd).st.nodes_to_treat, x ∈ fr.st.nodes_to_treat := by
    intro x hx
    rw [hf.hAq] at hx
    exact mem_rest_of_pop fr x hpop hx
  rcases fit_step_cases E fr fr' nd hnd hi.tree.ok hq hs with ⟨_, e⟩ | ⟨hb, e⟩
  · rw [e]
    exact expand_inv_same_tree fr.st _ h hf.hAt hf.hAn hAq
      (by
        have := same_settings_after_features E fr nd
        exact ⟨this.max_depth, this.min_node_sample, this.build_order, this.nfeat_split,
          this.sort_method, this.min_split_score, this.feat_thresh, this.min_improvement,
          this.predict_proba_opt, this.X, this.ldx, this.y, this.n_samples, this.n_features,
          this.n_class, this.n_obs, this.score_function, this.model_trained⟩)
  · rw [e]
    exact expand_inv_split_core fr.st (after_features E fr nd).st (popped_idx fr) nd
      (after_features E fr nd).best_split h hnd hf.hq hmem hi.tree.hqueue hf.hAt hf.hAn hAq
      (same_settings_after_features E fr nd) hf.hokA

/-- In a fitted tree the conditions of expansion hold. -/
theorem fit_expand_inv (E : externals T) (hE : E.conforms) (st0 st : decision_tree T)
    (hr : fit_ready st0) (hf : fit E st0 = outcome.done (da_status.da_status_success, st)) :
    expand_inv st := by
  obtain ⟨st1, fr, ho, hp, hl, e⟩ := fit_done_unfold E st0 st _ hr hf rfl
  obtain ⟨pp, md, me, mns, mss, bo, nf', sd', ft, mi, pt, sm, e1⟩ :=
    read_options_frame st0 st1 ho
  have ht1 : st1.tree = [] := by rw [e1]; exact hr.no_tree
  have hq1 : st1.nodes_to_treat = [] := by rw [e1]; exact hr.no_queue
  have hentry := fit_inv_entry E st1 ht1 hq1 hp (by rw [e1]; exact hr.n_obs_nonneg)
    (by rw [e1]; exact hr.len_samples) (by rw [e1]; exact hr.len_values)
    (by rw [e1]; exact hr.len_counts)
  have hexp := expand_inv_entry E st1 ht1 hq1 hp
  have := fit_loop_ind E (fun fr => fit_inv fr.st ∧ expand_inv fr.st)
    (fun fr fr' h hne hs => ⟨fit_inv_step E hE fr fr' h.1 hne hs,
      expand_inv_step E hE fr fr' h.1 h.2 hne hs⟩)
    _ _ fr ⟨hentry, hexp⟩ hl
  rw [e]
  exact ⟨this.1.2.hexp, this.1.2.hrootq, this.1.2.hroot, this.1.2.hdepth⟩

end expansion

/-! ## Every split improves the score -/

section improvement

variable {T : Type} [LinearOrderedField T]

end improvement

/-! ## The layout of the node array -/

section layout

variable {T : Type} [LinearOrderedField T]

theorem countP_range_congr (p p' : Nat → Bool) (n : Nat) (h : ∀ k, k < n → p' k = p k) :
    (List.range n).countP p' = (List.range n).countP p := by
  apply List.countP_congr
  intro x hx
  rw [h x (List.mem_range.mp hx)]

theorem countP_range_flip (p p' : Nat → Bool) (q : Nat) :
    ∀ n : Nat, q < n → p q = false → p' q = true → (∀ k, k < n → k ≠ q → p' k = p k) →
      (List.range n).countP p' = (List.range n).countP p + 1 := by
  intro n
  induction n with
  | zero => intro hq; omega
  | succ n ih =>
    intro hq h0 h1 hoth
    rw [List.range_succ, List.countP_append, List.countP_append]
    by_cases hqn : q = n
    · have e := countP_range_congr p p' n (fun k hk => hoth k (by omega) (by omega))
      rw [e]
      subst hqn
      simp [List.countP_cons, h0, h1]
    · have := ih (by omega) h0 h1 (fun k hk hkq => hoth k (by omega) hkq)
      rw [this, List.countP_singleton, List.countP_singleton, hoth n (by omega) (Ne.symm hqn)]
      omega

theorem internal_at_of_some (tree : List (node T)) (k : Nat) (nd : node T)
    (h : tree_at tree (k : Int) = some nd) : internal_at tree k = !nd.is_leaf := by
  unfold internal_at
  rw [h]

theorem layout_inv_same_tree (s0 s1 : decision_tree T) (h : layout_inv s0)
    (ht : s1.tree = s0.tree) (hn : s1.n_nodes = s0.n_nodes) : layout_inv s1 := by
  refine ⟨?_, ?_⟩
  · intro k k' kd kd' hk hk' hkN hkN' hl hl' hne
    rw [ht] at hk hk'
    rw [hn] at hkN hkN'
    exact h.hinj k k' kd kd' hk hk' hkN hkN' hl hl' hne
  · have : internal_count s1 = internal_count s0 := by
      unfold internal_count
      rw [ht, hn]
    rw [this, hn]
    exact h.hcount

/-- The layout after an iteration that splits the node at `q`, a leaf until then. -/
theorem layout_inv_split_core (s0 stA : decision_tree T) (q : Int) (nd : node T)
    (b : split T) (h : layout_inv s0) (hti : tree_inv s0)
    (hnd : tree_at s0.tree q = some nd) (hq0 : q < s0.n_nodes) (hqleaf : nd.is_leaf = true)
    (hAt : stA.tree = s0.tree) (hAn : stA.n_nodes = s0.n_nodes) (hokA : array_ok stA) :
    layout_inv (split_state stA q nd b) := by
  have hqA : q < stA.n_nodes := by rw [hAn]; exact hq0
  have hndA : tree_at stA.tree q = some nd := by rw [hAt]; exact hnd
  have hview := split_state_nodes stA q nd b hokA hndA hqA
  have hRf := right_child_fields stA q nd b
  have hLf := left_child_fields stA q nd b
  have hPf := parent_after_fields stA nd b
  have hN := hokA.hN
  have hqnn : 0 ≤ q := (tree_at_bounds hnd).1
  have hold : ∀ k kd, k < stA.n_nodes → tree_at stA.tree k = some kd → kd.is_leaf = false →
      k < kd.right_child_idx ∧ kd.left_child_idx = kd.right_child_idx + 1
        ∧ kd.left_child_idx < stA.n_nodes := by
    intro k kd hkN hk hl
    have := hti.hchild k kd (by rw [← hAt]; exact hk) (by rw [← hAn]; exact hkN) hl
    rw [hAn]
    exact this
  refine ⟨?_, ?_⟩
  · intro k k' kd kd' hk hk' hkN hkN' hl hl' hne
    rw [split_state_n_nodes] at hkN hkN'
    rcases hview k kd hk hkN with ⟨e0, e⟩ | ⟨e0, e⟩ | ⟨e0, e⟩ | ⟨hkq, hk3, hk4⟩
    · rcases hview k' kd' hk' hkN' with ⟨e0', e'⟩ | ⟨e0', e'⟩ | ⟨e0', e'⟩ | ⟨hkq', hk3', hk4'⟩
      · exact absurd (e0.trans e0'.symm) hne
      · rw [e'] at hl'; exact absurd hl' (by simp [hRf])
      · rw [e'] at hl'; exact absurd hl' (by simp [hLf])
      · have := hold k' kd' hk3' hk4' hl'
        rw [e]
        simp only [hPf]
        clear * - this
        refine ⟨?_, ?_, ?_, ?_⟩ <;> omega
    · rw [e] at hl; exact absurd hl (by simp [hRf])
    · rw [e] at hl; exact absurd hl (by simp [hLf])
    · have h1 := hold k kd hk3 hk4 hl
      rcases hview k' kd' hk' hkN' with ⟨e0', e'⟩ | ⟨e0', e'⟩ | ⟨e0', e'⟩ | ⟨hkq', hk3', hk4'⟩
      · rw [e']
        simp only [hPf]
        clear * - h1
        refine ⟨?_, ?_, ?_, ?_⟩ <;> omega
      · rw [e'] at hl'; exact absurd hl' (by simp [hRf])
      · rw [e'] at hl'; exact absurd hl' (by simp [hLf])
      · exact h.hinj k k' kd kd' (by rw [← hAt]; exact hk4) (by rw [← hAt]; exact hk4')
          (by rw [← hAn]; exact hk3) (by rw [← hAn]; exact hk3') hl hl' hne
  · have hm : (split_state stA q nd b).n_nodes.toNat = s0.n_nodes.toNat + 2 := by
      rw [split_state_n_nodes, hAn]
      have := hN.1
      rw [hAn] at this
      omega
    have hcnt : internal_count (split_state stA q nd b) = internal_count s0 + 1 := by
      unfold internal_count
      rw [hm, List.range_succ, List.range_succ, List.countP_append, List.countP_append]
      have eR : internal_at (split_state stA q nd b).tree s0.n_nodes.toNat = false := by
        have hk : ((s0.n_nodes.toNat : Nat) : Int) = stA.n_nodes := by
          have := hN.1; rw [hAn] at this ⊢; omega
        rw [internal_at_of_some _ _ (right_child stA q nd b)
          (by rw [hk]; exact split_state_tree_at_right stA q nd b hokA hqA)]
        simp [hRf]
      have eL : internal_at (split_state stA q nd b).tree (s0.n_nodes.toNat + 1) = false := by
        have hk : (((s0.n_nodes.toNat + 1 : Nat) : Nat) : Int) = stA.n_nodes + 1 := by
          have := hN.1; rw [hAn] at this ⊢; push_cast; omega
        rw [internal_at_of_some _ _ (left_child stA q nd b)
          (by rw [hk]; exact split_state_tree_at_left stA q nd b hokA hqA)]
        simp [hLf]
      rw [List.countP_singleton, List.countP_singleton, eR, eL]
      have hflip := countP_range_flip (internal_at s0.tree)
        (internal_at (split_state stA q nd b).tree) q.toNat s0.n_nodes.toNat
        (by omega)
        (by
          rw [internal_at_of_some _ _ nd (by rw [Int.toNat_of_nonneg hqnn]; exact hnd)]
          simp [hqleaf])
        (by
          rw [internal_at_of_some _ _ (parent_after stA nd b)
            (by
              rw [Int.toNat_of_nonneg hqnn]
              exact split_state_tree_at_parent stA q nd b hndA hqA)]
          simp [hPf])
        (by
          intro k hk hkq
          unfold internal_at
          rw [split_state_tree_at_other stA q nd b hokA (k : Int) (by omega)
            (by rw [hAn]; omega), hAt])
      rw [hflip]
      simp
    rw [hcnt, split_state_n_nodes, hAn]
    have := h.hcount
    push_cast
    omega

/-- An iteration of the loop of `fit` keeps the layout of the node array. -/
theorem layout_inv_step (E : externals T) (hE : E.conforms) (fr fr' : fit_frame T)
    (hi : fit_inv fr.st) (h : layout_inv fr.st) (hne : fr.st.nodes_to_treat ≠ [])
    (hs : fit_step E fr = outcome.done fr') : layout_inv fr'.st := by
  obtain ⟨nd, hnd, hmem, hpop⟩ := popped_of_done E fr fr' hne hs
  have hq := hi.tree.hqueue _ hmem
  have hf := step_facts_of_inv E hE fr nd hi.tree hi.range hnd hpop
  rcases fit_step_cases E fr fr' nd hnd hi.tree.ok hq hs with ⟨_, e⟩ | ⟨hb, e⟩
  · rw [e]
    exact layout_inv_same_tree fr.st _ h hf.hAt hf.hAn
  · rw [e]
    exact layout_inv_split_core fr.st (after_features E fr nd).st (popped_idx fr) nd
      (after_features E fr nd).best_split h hi.tree hnd hf.hq
      (hi.range.hqleaf _ hmem nd hnd) hf.hAt hf.hAn hf.hokA

theorem layout_inv_entry (E : externals T) (st1 : decision_tree T) (hn : st1.tree = [])
    (hq : st1.nodes_to_treat = []) (hp : st1.predict_proba_opt = true) :
    layout_inv (queue_root (rooted (configured E st1))) := by
  obtain ⟨hN, _, _, _, h0, hall⟩ := entry_nodes E st1 hn hq hp
  refine ⟨?_, ?_⟩
  · intro k k' kd kd' hk hk' hkN hkN' _ _ hne
    exact absurd ((hall k kd hk hkN).1.trans (hall k' kd' hk' hkN').1.symm) hne
  · have : internal_count (queue_root (rooted (configured E st1))) = 0 := by
      unfold internal_count
      rw [hN]
      have e1 : (1 : Int).toNat = 1 := rfl
      have e2 : List.range 1 = [0] := rfl
      rw [e1, e2, List.countP_singleton,
        internal_at_of_some _ 0 _ (by simpa using h0)]
      simp [(root_node_fields (configured E st1)).2.2.2.1]
    rw [this, hN]
    rfl

/-- In a fitted tree the node array has the maintained layout. -/
theorem fit_layout_inv (E : externals T) (hE : E.conforms) (st0 st : decision_tree T)
    (hr : fit_ready st0) (hf : fit E st0 = outcome.done (da_status.da_status_success, st)) :
    layout_inv st := by
  obtain ⟨st1, fr, ho, hp, hl, e⟩ := fit_done_unfold E st0 st _ hr hf rfl
  obtain ⟨pp, md, me, mns, mss, bo, nf', sd', ft, mi, pt, sm, e1⟩ :=
    read_options_frame st0 st1 ho
  have ht1 : st1.tree = [] := by rw [e1]; exact hr.no_tree
  have hq1 : st1.nodes_to_treat = [] := by rw [e1]; exact hr.no_queue
  have hentry := fit_inv_entry E st1 ht1 hq1 hp (by rw [e1]; exact hr.n_obs_nonneg)
    (by rw [e1]; exact hr.len_samples) (by rw [e1]; exact hr.len_values)
    (by rw [e1]; exact hr.len_counts)
  have hlay := layout_inv_entry E st1 ht1 hq1 hp
  have := fit_loop_ind E (fun fr => fit_inv fr.st ∧ layout_inv fr.st)
    (fun fr fr' h hne hs => ⟨fit_inv_step E hE fr fr' h.1 hne hs,
      layout_inv_step E hE fr fr' h.1 h.2 hne hs⟩)
    _ _ fr ⟨hentry, hlay⟩ hl
  rw [e]
  refine ⟨this.1.2.hinj, ?_⟩
  have hc := this.1.2.hcount
  have : internal_count ({ fr.st with model_trained := true } : decision_tree T)
      = internal_count fr.st := rfl
  rw [this]
  exact hc

end layout

/-! ## `fit` ends -/

section termination

variable {T : Type} [LinearOrderedField T]

theorem node_weight_pos (nd : Option (node T)) : 1 ≤ node_weight nd := by
  unfold node_weight
  cases nd with
  | none => exact le_refl _
  | some nd => exact le_max_left _ _

theorem popped_mem (fr : fit_frame T) (hne : fr.st.nodes_to_treat ≠ [])
    (hbo : valid_build_order fr.st) : popped_idx fr ∈ fr.st.nodes_to_treat := by
  unfold popped_idx get_next_node_idx
  rcases hbo with h | h
  · rw [if_pos h]
    show fr.st.nodes_to_treat.getLastD (-1) ∈ fr.st.nodes_to_treat
    rw [List.getLastD_eq_getLast?, List.getLast?_eq_getLast _ hne]
    exact List.getLast_mem hne
  · have hne' : fr.st.build_order ≠ depth_first := by
      rw [h]; decide
    rw [if_neg hne', if_pos h]
    show fr.st.nodes_to_treat.headD (-1) ∈ fr.st.nodes_to_treat
    cases hq : fr.st.nodes_to_treat with
    | nil => exact absurd hq hne
    | cons a l => simp

/-- The queue at the end of an iteration that splits a node, case by case. -/
theorem split_state_queue_cases (stA : decision_tree T) (q : Int) (nd : node T)
    (b : split T) :
    (split_state stA q nd b).nodes_to_treat
        = stA.nodes_to_treat ++ [stA.n_nodes, stA.n_nodes + 1]
      ∨ (split_state stA q nd b).nodes_to_treat = stA.nodes_to_treat ++ [stA.n_nodes + 1]
      ∨ (split_state stA q nd b).nodes_to_treat = stA.nodes_to_treat ++ [stA.n_nodes]
      ∨ (split_state stA q nd b).nodes_to_treat = stA.nodes_to_treat := by
  unfold split_state enqueued
  split
  · simp only [right_added, enqueued]
    split
    · left
      simp [with_child, after_partition, add_assoc]
      omega
    · right; left
      simp [with_child, after_partition, add_assoc]
      omega
  · simp only [right_added, enqueued]
    split
    · right; right; left
      simp [with_child, after_partition]
    · right; right; right
      simp [with_child, after_partition]

theorem sum_map_congr (l : List Int) (f g : Int → Nat) (h : ∀ x ∈ l, f x = g x) :
    (l.map f).sum = (l.map g).sum := by
  induction l with
  | nil => rfl
  | cons a l ih =>
    simp only [List.map_cons, List.sum_cons]
    rw [h a (by simp), ih (fun x hx => h x (by simp [hx]))]

/-- The weight of the queue as the weight of the node taken from it and of the rest. -/
theorem queue_weight_pop (fr : fit_frame T)
    (hpop : fr.st.nodes_to_treat
          = (get_next_node_idx fr.st fr.st.build_order).2 ++ [popped_idx fr]
        ∨ fr.st.nodes_to_treat
          = popped_idx fr :: (get_next_node_idx fr.st fr.st.build_order).2) :
    queue_weight fr.st
      = (((get_next_node_idx fr.st fr.st.build_order).2).map
            (fun q => node_weight (tree_at fr.st.tree q))).sum
          + node_weight (tree_at fr.st.tree (popped_idx fr)) := by
  unfold queue_weight
  rcases hpop with h | h
  · rw [h]
    simp
  · rw [h]
    simp
    omega

/-- An iteration of the loop of `fit` ends, keeps what the loop maintains, and takes at
least one unit off the weight of the queue. -/
theorem fit_step_total (E : externals T) (hE : E.conforms) (fr : fit_frame T)
    (hi : fit_inv fr.st) (hbo : valid_build_order fr.st)
    (hpos : ∀ x ∈ fr.st.nodes_to_treat, 0 ≤ x) (hne : fr.st.nodes_to_treat ≠ []) :
    ∃ fr', fit_step E fr = outcome.done fr' ∧ fit_inv fr'.st ∧ valid_build_order fr'.st
      ∧ (∀ x ∈ fr'.st.nodes_to_treat, 0 ≤ x)
      ∧ queue_weight fr'.st + 1 ≤ queue_weight fr.st := by
  have hmem := popped_mem fr hne hbo
  have hq := hi.tree.hqueue _ hmem
  have hN := hi.tree.ok.hN
  obtain ⟨nd, hnd⟩ := tree_at_of_bounds fr.st.tree (popped_idx fr) (hpos _ hmem) (by omega)
  have hpop := pop_spec fr nd hne hnd
  have hf := step_facts_of_inv E hE fr nd hi.tree hi.range hnd hpop
  have hw := queue_weight_pop fr hpop
  have hdone : ∃ fr', fit_step E fr = outcome.done fr' := by
    by_cases hb : (after_features E fr nd).best_split.feat_idx = -1
    · exact ⟨_, fit_step_no_split E fr nd hnd hb⟩
    · exact ⟨_, fit_step_split E fr nd hnd hi.tree.ok hq hb⟩
  obtain ⟨fr', hs⟩ := hdone
  have hinv' := fit_inv_step E hE fr fr' hi hne hs
  have hss := same_settings_step E fr fr' hi.tree hne hs
  refine ⟨fr', hs, hinv', ?_, ?_, ?_⟩
  · unfold valid_build_order at hbo ⊢
    rw [hss.build_order]; exact hbo
  · rcases fit_step_cases E fr fr' nd hnd hi.tree.ok hq hs with ⟨_, e⟩ | ⟨hb, e⟩
    · intro x hx
      rw [e] at hx
      have hx' : x ∈ (after_features E fr nd).st.nodes_to_treat := hx
      rw [hf.hAq] at hx'
      exact hpos x (mem_rest_of_pop fr x hpop hx')
    · intro x hx
      rw [e] at hx
      obtain ⟨l, hl, hl2, _⟩ := split_state_queue (after_features E fr nd).st
        (popped_idx fr) nd (after_features E fr nd).best_split
      rw [hl, List.mem_append] at hx
      rcases hx with hx | hx
      · rw [hf.hAq] at hx
        exact hpos x (mem_rest_of_pop fr x hpop hx)
      · have hn := hf.hokA.hN.1
        rcases hl2 x hx with hx | hx <;> omega
  · rw [hw]
    rcases fit_step_cases E fr fr' nd hnd hi.tree.ok hq hs with ⟨_, e⟩ | ⟨hb, e⟩
    · have e1 : queue_weight fr'.st
          = (((get_next_node_idx fr.st fr.st.build_order).2).map
              (fun q => node_weight (tree_at fr.st.tree q))).sum := by
        rw [e]
        unfold queue_weight
        show (((after_features E fr nd).st.nodes_to_treat).map
          (fun q => node_weight (tree_at (after_features E fr nd).st.tree q))).sum = _
        rw [hf.hAq, hf.hAt]
      rw [e1]
      have := node_weight_pos (tree_at fr.st.tree (popped_idx fr))
      omega
    · have hs2 := hf.hfi.hbest hb
      have hns := hf.hrange.2.2.2
      have hrest : ∀ x ∈ (get_next_node_idx fr.st fr.st.build_order).2,
          node_weight (tree_at (split_state (after_features E fr nd).st (popped_idx fr) nd
            (after_features E fr nd).best_split).tree x)
          = node_weight (tree_at fr.st.tree x) := by
        intro x hx
        have hxq : x ≠ popped_idx fr := fun h => hf.hrq (h ▸ hx)
        have hxN := hi.tree.hqueue x (mem_rest_of_pop fr x hpop hx)
        rw [split_state_tree_at_other _ _ nd _ hf.hokA x hxq (by rw [hf.hAn]; exact hxN),
          hf.hAt]
      have hR := split_state_tree_at_right (after_features E fr nd).st (popped_idx fr) nd
        (after_features E fr nd).best_split hf.hokA (by rw [hf.hAn]; exact hq)
      have hL := split_state_tree_at_left (after_features E fr nd).st (popped_idx fr) nd
        (after_features E fr nd).best_split hf.hokA (by rw [hf.hAn]; exact hq)
      have wR : node_weight (some (right_child (after_features E fr nd).st (popped_idx fr) nd
          (after_features E fr nd).best_split))
          = (2 * (nd.end_idx - (after_features E fr nd).best_split.samp_idx) - 1).toNat := by
        unfold node_weight
        have : (right_child (after_features E fr nd).st (popped_idx fr) nd
            (after_features E fr nd).best_split).n_samples
            = nd.end_idx - ((after_features E fr nd).best_split.samp_idx + 1) + 1 := rfl
        simp only [this]
        clear * - hs2
        omega
      have wL : node_weight (some (left_child (after_features E fr nd).st (popped_idx fr) nd
          (after_features E fr nd).best_split))
          = (2 * ((after_features E fr nd).best_split.samp_idx - nd.start_idx + 1)
              - 1).toNat := by
        unfold node_weight
        have : (left_child (after_features E fr nd).st (popped_idx fr) nd
            (after_features E fr nd).best_split).n_samples
            = (after_features E fr nd).best_split.samp_idx - nd.start_idx + 1 := rfl
        simp only [this]
        clear * - hs2
        omega
      have wP : node_weight (tree_at fr.st.tree (popped_idx fr))
          = (2 * (nd.end_idx - nd.start_idx + 1) - 1).toNat := by
        rw [hnd]
        unfold node_weight
        simp only [hns]
        clear * - hs2
        omega
      rw [wP]
      have hrestsum := sum_map_congr (get_next_node_idx fr.st fr.st.build_order).2 _ _ hrest
      rw [e]
      unfold queue_weight
      rcases split_state_queue_cases (after_features E fr nd).st (popped_idx fr) nd
        (after_features E fr nd).best_split with h1 | h1 | h1 | h1
      · rw [h1, hf.hAq, List.map_append, List.sum_append, hrestsum]
        simp only [List.map_cons, List.map_nil, List.sum_cons, List.sum_nil, hR, hL, wR, wL]
        clear * - hs2
        omega
      · rw [h1, hf.hAq, List.map_append, List.sum_append, hrestsum]
        simp only [List.map_cons, List.map_nil, List.sum_cons, List.sum_nil, hL, wL]
        clear * - hs2
        omega
      · rw [h1, hf.hAq, List.map_append, List.sum_append, hrestsum]
        simp only [List.map_cons, List.map_nil, List.sum_cons, List.sum_nil, hR, wR]
        clear * - hs2
        omega
      · rw [h1, hf.hAq, hrestsum]
        clear * - hs2
        omega

theorem queue_empty_of_weight_zero (st : decision_tree T) (h : queue_weight st = 0) :
    st.nodes_to_treat = [] := by
  unfold queue_weight at h
  cases hq : st.nodes_to_treat with
  | nil => rfl
  | cons a l =>
    rw [hq] at h
    simp only [List.map_cons, List.sum_cons] at h
    have := node_weight_pos (tree_at st.tree a)
    omega

/-- With fuel for the weight of the queue the loop of `fit` ends. -/
theorem fit_loop_total (E : externals T) (hE : E.conforms) :
    ∀ (fuel : Nat) (fr : fit_frame T), fit_inv fr.st → valid_build_order fr.st →
      (∀ x ∈ fr.st.nodes_to_treat, 0 ≤ x) → queue_weight fr.st ≤ fuel →
      ∃ fr', fit_loop E fuel fr = outcome.done fr' := by
  intro fuel
  induction fuel with
  | zero =>
    intro fr _ _ _ hw
    have := queue_empty_of_weight_zero fr.st (by omega)
    refine ⟨fr, ?_⟩
    unfold fit_loop
    rw [if_pos this]
  | succ n ih =>
    intro fr hi hbo hpos hw
    by_cases hq : fr.st.nodes_to_treat = []
    · refine ⟨fr, ?_⟩
      unfold fit_loop
      rw [if_pos hq]
    · obtain ⟨fr1, hs, hi1, hbo1, hpos1, hw1⟩ := fit_step_total E hE fr hi hbo hpos hq
      obtain ⟨fr', hl⟩ := ih fr1 hi1 hbo1 hpos1 (by omega)
      refine ⟨fr', ?_⟩
      unfold fit_loop
      rw [if_neg hq, hs]
      exact hl

/-- An instance that is ready for `fit`, with probability tracking on and a valid build
order, is fitted: `fit` ends with success. -/
theorem fit_succeeds (E : externals T) (hE : E.conforms) (st0 st1 : decision_tree T)
    (hr : fit_ready st0) (ho : read_options st0 = some st1)
    (hp : st1.predict_proba_opt = true) (hbo : valid_build_order st1) :
    ∃ st, fit E st0 = outcome.done (da_status.da_status_success, st) := by
  obtain ⟨pp, md, me, mns, mss, bo, nf', sd', ft, mi, pt, sm, e1⟩ :=
    read_options_frame st0 st1 ho
  have ht1 : st1.tree = [] := by rw [e1]; exact hr.no_tree
  have hq1 : st1.nodes_to_treat = [] := by rw [e1]; exact hr.no_queue
  have hentry := fit_inv_entry E st1 ht1 hq1 hp (by rw [e1]; exact hr.n_obs_nonneg)
    (by rw [e1]; exact hr.len_samples) (by rw [e1]; exact hr.len_values)
    (by rw [e1]; exact hr.len_counts)
  obtain ⟨hN, hq0, _, hqc, h0, _⟩ := entry_nodes E st1 ht1 hq1 hp
  obtain ⟨queue, eq, _⟩ := queue_root_frame (rooted (configured E st1))
  have hcs := configured_settings E st1
  have hbo' : valid_build_order (queue_root (rooted (configured E st1))) := by
    unfold valid_build_order at hbo ⊢
    rw [eq]
    show (configured E st1).build_order = _ ∨ (configured E st1).build_order = _
    rw [hcs.2.2.1]; exact hbo
  have hno : (queue_root (rooted (configured E st1))).n_obs
      = (root_node (configured E st1) fresh_node).n_samples := by
    rw [eq]; rfl
  have hw : queue_weight (queue_root (rooted (configured E st1)))
      ≤ 2 * (queue_root (rooted (configured E st1))).n_obs.toNat + 1 := by
    unfold queue_weight
    rcases hqc with h | h
    · rw [h]
      simp only [List.map_cons, List.map_nil, List.sum_cons, List.sum_nil, h0, node_weight]
      rw [hno]
      omega
    · rw [h]
      simp
  obtain ⟨fr, hl⟩ := fit_loop_total E hE
    (2 * (queue_root (rooted (configured E st1))).n_obs.toNat + 1)
    { st := queue_root (rooted (configured E st1)), sp := E.uninit_split,
      best_split := E.uninit_split } hentry hbo'
    (fun x hx => by rw [hq0 x hx]) hw
  refine ⟨{ fr.st with model_trained := true }, ?_⟩
  rw [fit_eq E st0 st1 hr.untrained ho, (tree_inv_entry E st1 ht1 hq1 hp).1]
  show (fit_loop E (2 * (queue_root (rooted (configured E st1))).n_obs.toNat + 1)
      { st := queue_root (rooted (configured E st1)), sp := E.uninit_split,
        best_split := E.uninit_split }).and_then _ = _
  rw [hl]
  rfl

end termination

/-! ## The seed, when nothing is drawn -/

section seed

variable {T : Type} [LinearOrderedField T]

theorem skip_close_reseed (s : Int) (g : Nat) (o : Option (tree_options T))
    (st : decision_tree T) (end_idx : Int) (ft : T) :
    ∀ (fuel : Nat) (s0 : sweep T),
      skip_close (reseed s g o st) end_idx ft fuel s0 = skip_close st end_idx ft fuel s0 := by
  intro fuel
  induction fuel with
  | zero => intro s0; rfl
  | succ n ih =>
    intro s0
    by_cases hc : s0.sidx + 1 ≤ end_idx ∧
        |vec_get st.feature_values (s0.sidx + 1) 0 - vec_get st.feature_values s0.sidx 0| < ft
    · have e1 : skip_close st end_idx ft (n + 1) s0
          = skip_close st end_idx ft n
              { sweep.move st s0 (s0.sidx + 1) with sidx := s0.sidx + 1 } := by
        rw [skip_close]; exact if_pos hc
      have e2 : skip_close (reseed s g o st) end_idx ft (n + 1) s0
          = skip_close (reseed s g o st) end_idx ft n
              { sweep.move st s0 (s0.sidx + 1) with sidx := s0.sidx + 1 } := by
        rw [skip_close]; exact if_pos hc
      rw [e1, e2]
      exact ih _
    · have e1 : skip_close st end_idx ft (n + 1) s0 = s0 := by
        rw [skip_close]; exact if_neg hc
      have e2 : skip_close (reseed s g o st) end_idx ft (n + 1) s0 = s0 := by
        rw [skip_close]; exact if_neg hc
      rw [e1, e2]

theorem sweep_advance_reseed (s : Int) (g : Nat) (o : Option (tree_options T))
    (st : decision_tree T) (nd : node T) (ft : T) (s0 : sweep T) :
    sweep_advance (reseed s g o st) nd ft s0 = sweep_advance st nd ft s0 :=
  skip_close_reseed s g o st nd.end_idx ft _ (sweep.move st s0 s0.sidx)

theorem sweep_loop_reseed (s : Int) (g : Nat) (o : Option (tree_options T))
    (st : decision_tree T) (nd : node T) (ft ms : T) :
    ∀ (fuel : Nat) (s0 : sweep T),
      sweep_loop (reseed s g o st) nd ft ms fuel s0 = sweep_loop st nd ft ms fuel s0 := by
  intro fuel
  induction fuel with
  | zero => intro s0; rfl
  | succ n ih =>
    intro s0
    by_cases hc : s0.sidx ≤ nd.end_idx - 1
    · by_cases he : (sweep_advance st nd ft s0).sidx = nd.end_idx
      · have he' : (sweep_advance (reseed s g o st) nd ft s0).sidx = nd.end_idx := by
          rw [sweep_advance_reseed]; exact he
        have e1 : sweep_loop st nd ft ms (n + 1) s0 = sweep_advance st nd ft s0 := by
          rw [sweep_loop, if_pos hc]; exact if_pos he
        have e2 : sweep_loop (reseed s g o st) nd ft ms (n + 1) s0
            = sweep_advance (reseed s g o st) nd ft s0 := by
          rw [sweep_loop, if_pos hc]; exact if_pos he'
        rw [e1, e2, sweep_advance_reseed]
      · have he' : ¬ (sweep_advance (reseed s g o st) nd ft s0).sidx = nd.end_idx := by
          rw [sweep_advance_reseed]; exact he
        have e1 : sweep_loop st nd ft ms (n + 1) s0
            = sweep_loop st nd ft ms n (sweep_eval st nd ms (sweep_advance st nd ft s0)) := by
          rw [sweep_loop, if_pos hc]; exact if_neg he
        have e2 : sweep_loop (reseed s g o st) nd ft ms (n + 1) s0
            = sweep_loop (reseed s g o st) nd ft ms n
                (sweep_eval st nd ms (sweep_advance (reseed s g o st) nd ft s0)) := by
          rw [sweep_loop, if_pos hc]; exact if_neg he'
        rw [e1, e2, sweep_advance_reseed]
        exact ih _
    · have e1 : sweep_loop st nd ft ms (n + 1) s0 = s0 := by
        rw [sweep_loop]; exact if_neg hc
      have e2 : sweep_loop (reseed s g o st) nd ft ms (n + 1) s0 = s0 := by
        rw [sweep_loop]; exact if_neg hc
      rw [e1, e2]

theorem find_best_split_reseed (s : Int) (g : Nat) (o : Option (tree_options T))
    (st : decision_tree T) (nd : node T) (ft ms : T) (sp : split T) :
    find_best_split (reseed s g o st) nd ft ms sp
      = (reseed s g o (find_best_split st nd ft ms sp).1,
          (find_best_split st nd ft ms sp).2) := by
  have e := sweep_loop_reseed s g o st nd ft ms (nd.end_idx - nd.start_idx).toNat
    { sidx := nd.start_idx,
      count_left_classes := vec_fill st.count_left_classes 0,
      count_right_classes := vec_copy st.count_classes st.count_right_classes,
      ns_left := 0, ns_right := nd.n_samples, left_score := 0, right_score := nd.score,
      sp := { sp with score := nd.score, samp_idx := -1 } }
  have e1 : find_best_split_sweep (reseed s g o st) nd ft ms sp
      = find_best_split_sweep st nd ft ms sp := e
  unfold find_best_split
  simp only [e1]
  rfl

theorem feature_loop_body_reseed (E : externals T) (s : Int) (g : Nat)
    (o : Option (tree_options T)) (nd : node T) (ms : T) (j : Int) (fr : fit_frame T) :
    feature_loop_body E nd ms j (reseed_frame s g o fr)
      = reseed_frame s g o (feature_loop_body E nd ms j fr) := by
  have e := find_best_split_reseed s g o
    (sort_samples E fr.st nd (vec_get fr.st.features_idx j 0)) nd
    (sort_samples E fr.st nd (vec_get fr.st.features_idx j 0)).feat_thresh ms
    { fr.sp with feat_idx := vec_get fr.st.features_idx j 0 }
  have key : ∀ (r r' : decision_tree T × split T), r' = (reseed s g o r.1, r.2) →
      ({ st := r'.1, sp := r'.2,
         best_split := (if r'.2.score < fr.best_split.score then fr.best_split.copy r'.2
           else fr.best_split) } : fit_frame T)
      = reseed_frame s g o
          { st := r.1, sp := r.2,
            best_split := (if r.2.score < fr.best_split.score then fr.best_split.copy r.2
              else fr.best_split) } := by
    intro r r' h
    rw [h]
    rfl
  exact key _ _ e

/-- Without a shuffle, the loop over the candidate features does not look at the seed. -/
theorem after_features_reseed (E : externals T) (s : Int) (g : Nat)
    (o : Option (tree_options T)) (fr : fit_frame T) (nd : node T)
    (h : ¬ fr.st.nfeat_split < fr.st.n_features) :
    after_features E (reseed_frame s g o fr) nd
      = reseed_frame s g o (after_features E fr nd) := by
  have hb : before_features E (reseed_frame s g o fr) nd
      = reseed s g o (before_features E fr nd) := by
    unfold before_features
    have h' : ¬ ({ fr.st with nodes_to_treat :=
        (get_next_node_idx fr.st fr.st.build_order).2 } : decision_tree T).nfeat_split
        < ({ fr.st with nodes_to_treat :=
        (get_next_node_idx fr.st fr.st.build_order).2 } : decision_tree T).n_features := h
    have h'' : ¬ ({ (reseed_frame s g o fr).st with nodes_to_treat :=
        (get_next_node_idx (reseed_frame s g o fr).st
          (reseed_frame s g o fr).st.build_order).2 } : decision_tree T).nfeat_split
        < ({ (reseed_frame s g o fr).st with nodes_to_treat :=
        (get_next_node_idx (reseed_frame s g o fr).st
          (reseed_frame s g o fr).st.build_order).2 } : decision_tree T).n_features := h
    simp only [if_neg h', if_neg h'']
    rfl
  unfold after_features
  rw [hb]
  exact (for_range_rel (fun (a b : fit_frame T) => b = reseed_frame s g o a) 0
    (before_features E fr nd).nfeat_split
    (feature_loop_body E nd (nd.score - fr.st.min_improvement))
    (fun i a b hab => by
      rw [hab]
      exact feature_loop_body_reseed E s g o nd _ i a)
    { st := before_features E fr nd, sp := fr.sp,
      best_split := { fr.best_split with score := nd.score, feat_idx := -1 } }
    _ rfl)

theorem add_node_sized_reseed (s : Int) (g : Nat) (o : Option (tree_options T))
    (st : decision_tree T) :
    add_node_sized (reseed s g o st) = reseed s g o (add_node_sized st) := by
  unfold add_node_sized
  by_cases h1 : (st.tree.length : Int) ≤ st.n_nodes
  · have h1' : ((reseed s g o st).tree.length : Int) ≤ (reseed s g o st).n_nodes := h1
    rw [if_pos h1, if_pos h1']
    by_cases h2 : st.predict_proba_opt = true
    · have h2' : (reseed s g o st).predict_proba_opt = true := h2
      rw [if_pos h2, if_pos h2']
      rfl
    · have h2' : ¬ (reseed s g o st).predict_proba_opt = true := h2
      rw [if_neg h2, if_neg h2']
  · have h1' : ¬ ((reseed s g o st).tree.length : Int) ≤ (reseed s g o st).n_nodes := h1
    rw [if_neg h1, if_neg h1']

theorem add_node_reseed (s : Int) (g : Nat) (o : Option (tree_options T))
    (st : decision_tree T) (p : Int) (l : Bool) (sc : T) (si : Int) :
    add_node (reseed s g o st) p l sc si = reseed_out s g o (add_node st p l sc si) := by
  have e := add_node_sized_reseed s g o st
  unfold add_node_sized at e
  unfold add_node
  simp only [e]
  generalize (if (st.tree.length : Int) ≤ st.n_nodes then
    if st.predict_proba_opt = true then resize_tree st (2 * st.tree.length + 1) else st
    else st) = a
  have e1 : (reseed s g o a).tree = a.tree := rfl
  have e2 : (reseed s g o a).n_nodes = a.n_nodes := rfl
  simp only [e1, e2]
  rcases h1 : tree_at a.tree p with _ | parent
  · rfl
  · rcases h2 : tree_at a.tree a.n_nodes with _ | nd
    · rfl
    · rfl

theorem enqueue_or_leaf_reseed (s : Int) (g : Nat) (o : Option (tree_options T))
    (st : decision_tree T) (sc : T) :
    enqueue_or_leaf (reseed s g o st) sc = reseed_out s g o (enqueue_or_leaf st sc) := by
  rcases h : tree_at st.tree (st.n_nodes - 1) with _ | child
  · have h' : tree_at (reseed s g o st).tree ((reseed s g o st).n_nodes - 1) = none := h
    have e1 : enqueue_or_leaf st sc = outcome.out_of_bounds := by
      unfold enqueue_or_leaf; rw [h]
    have e2 : enqueue_or_leaf (reseed s g o st) sc = outcome.out_of_bounds := by
      unfold enqueue_or_leaf; rw [h']
    rw [e1, e2]; rfl
  · have h' : tree_at (reseed s g o st).tree ((reseed s g o st).n_nodes - 1) = some child := h
    rw [enqueue_or_leaf_eq st sc child h, enqueue_or_leaf_eq _ sc child h']
    unfold enqueued
    by_cases hc : sc > st.min_split_score ∧ child.n_samples ≥ st.min_node_sample
        ∧ child.depth < st.max_depth
    · have hc' : sc > (reseed s g o st).min_split_score
          ∧ child.n_samples ≥ (reseed s g o st).min_node_sample
          ∧ child.depth < (reseed s g o st).max_depth := hc
      rw [if_pos hc, if_pos hc']; rfl
    · have hc' : ¬ (sc > (reseed s g o st).min_split_score
          ∧ child.n_samples ≥ (reseed s g o st).min_node_sample
          ∧ child.depth < (reseed s g o st).max_depth) := hc
      rw [if_neg hc, if_neg hc']; rfl

theorem reseed_out_and_then (s : Int) (g : Nat) (o : Option (tree_options T))
    (x : outcome (decision_tree T)) (f : decision_tree T → outcome (decision_tree T))
    (hf : ∀ a, f (reseed s g o a) = reseed_out s g o (f a)) :
    (reseed_out s g o x).and_then f = reseed_out s g o (x.and_then f) := by
  cases x with
  | done a => exact hf a
  | out_of_bounds => rfl
  | out_of_fuel => rfl

theorem reseed_out_and_then_frame (s : Int) (g : Nat) (o : Option (tree_options T))
    (x : outcome (decision_tree T)) (sp b : split T) :
    (reseed_out s g o x).and_then
        (fun st => outcome.done ({ st := st, sp := sp, best_split := b } : fit_frame T))
      = reseed_step s g o (x.and_then
        (fun st => outcome.done ({ st := st, sp := sp, best_split := b } : fit_frame T))) := by
  cases x with
  | done a => rfl
  | out_of_bounds => rfl
  | out_of_fuel => rfl

/-- Without a shuffle, an iteration of the loop of `fit` does not look at the seed. -/
theorem fit_step_reseed (E : externals T) (s : Int) (g : Nat) (o : Option (tree_options T))
    (fr : fit_frame T) (h : ¬ fr.st.nfeat_split < fr.st.n_features) :
    fit_step E (reseed_frame s g o fr) = reseed_step s g o (fit_step E fr) := by
  rcases hn : tree_at fr.st.tree (popped_idx fr) with _ | nd
  · have hn' : tree_at (reseed_frame s g o fr).st.tree (popped_idx (reseed_frame s g o fr))
        = none := hn
    rw [fit_step_out_of_bounds E fr hn, fit_step_out_of_bounds E _ hn']
    rfl
  · have hn' : tree_at (reseed_frame s g o fr).st.tree (popped_idx (reseed_frame s g o fr))
        = some nd := hn
    rw [fit_step_eq E fr nd hn, fit_step_eq E _ nd hn', after_features_reseed E s g o fr nd h]
    have eb : (reseed_frame s g o (after_features E fr nd)).best_split
        = (after_features E fr nd).best_split := rfl
    have es : (reseed_frame s g o (after_features E fr nd)).sp
        = (after_features E fr nd).sp := rfl
    have ep : popped_idx (reseed_frame s g o fr) = popped_idx fr := rfl
    have est : (reseed_frame s g o (after_features E fr nd)).st
        = reseed s g o (after_features E fr nd).st := rfl
    rw [eb, es, ep, est]
    by_cases hb : (after_features E fr nd).best_split.feat_idx ≠ -1
    · rw [if_pos hb, if_pos hb]
      have ea : after_partition (reseed s g o (after_features E fr nd).st) (popped_idx fr) nd
          (after_features E fr nd).best_split
          = reseed s g o (after_partition (after_features E fr nd).st (popped_idx fr) nd
              (after_features E fr nd).best_split) := rfl
      rw [ea, add_node_reseed,
        reseed_out_and_then s g o _ _ (fun a => enqueue_or_leaf_reseed s g o a _),
        reseed_out_and_then s g o _ _ (fun a => add_node_reseed s g o a _ _ _ _),
        reseed_out_and_then s g o _ _ (fun a => enqueue_or_leaf_reseed s g o a _),
        reseed_out_and_then_frame]
    · rw [if_neg hb, if_neg hb]
      rfl

theorem and_then_eq_done {α β : Type} (x : outcome α) (f : α → outcome β) (b : β)
    (h : x.and_then f = outcome.done b) : ∃ a, x = outcome.done a ∧ f a = outcome.done b := by
  cases x with
  | done a => exact ⟨a, rfl, h⟩
  | out_of_bounds => exact absurd h (by simp [outcome.and_then])
  | out_of_fuel => exact absurd h (by simp [outcome.and_then])

theorem add_node_feats (st st' : decision_tree T) (p : Int) (l : Bool) (sc : T) (si : Int)
    (h : add_node st p l sc si = outcome.done st') :
    st'.nfeat_split = st.nfeat_split ∧ st'.n_features = st.n_features := by
  have ha : (add_node_sized st).nfeat_split = st.nfeat_split
      ∧ (add_node_sized st).n_features = st.n_features := by
    unfold add_node_sized
    split
    · split
      · exact ⟨rfl, rfl⟩
      · exact ⟨rfl, rfl⟩
    · exact ⟨rfl, rfl⟩
  unfold add_node_sized at ha
  unfold add_node at h
  simp only at h
  generalize (if (st.tree.length : Int) ≤ st.n_nodes then
    if st.predict_proba_opt = true then resize_tree st (2 * st.tree.length + 1) else st
    else st) = a at h ha
  rcases h1 : tree_at a.tree p with _ | parent
  · rw [h1] at h; exact absurd h (by simp)
  · rcases h2 : tree_at a.tree a.n_nodes with _ | nd
    · rw [h1, h2] at h; exact absurd h (by simp)
    · rw [h1, h2] at h
      have := outcome.done.inj h
      rw [← this]
      exact ha

theorem enqueue_or_leaf_feats (st st' : decision_tree T) (sc : T)
    (h : enqueue_or_leaf st sc = outcome.done st') :
    st'.nfeat_split = st.nfeat_split ∧ st'.n_features = st.n_features := by
  rcases hc : tree_at st.tree (st.n_nodes - 1) with _ | child
  · have e1 : enqueue_or_leaf st sc = outcome.out_of_bounds := by
      unfold enqueue_or_leaf; rw [hc]
    rw [e1] at h; exact absurd h (by simp)
  · rw [enqueue_or_leaf_eq st sc child hc] at h
    have := outcome.done.inj h
    rw [← this]
    unfold enqueued
    split
    · exact ⟨rfl, rfl⟩
    · exact ⟨rfl, rfl⟩

/-- An iteration of the loop of `fit` that does not leave the node array keeps
`nfeat_split` and `n_features`. -/
theorem fit_step_feats (E : externals T) (fr fr' : fit_frame T)
    (hs : fit_step E fr = outcome.done fr') :
    fr'.st.nfeat_split = fr.st.nfeat_split ∧ fr'.st.n_features = fr.st.n_features := by
  rcases hn : tree_at fr.st.tree (popped_idx fr) with _ | nd
  · rw [fit_step_out_of_bounds E fr hn] at hs; exact absurd hs (by simp)
  · rw [fit_step_eq E fr nd hn] at hs
    have hA := same_settings_after_features E fr nd
    by_cases hb : (after_features E fr nd).best_split.feat_idx ≠ -1
    · rw [if_pos hb] at hs
      obtain ⟨s4, h4, h5⟩ := and_then_eq_done _ _ _ hs
      obtain ⟨s3, h3, h4⟩ := and_then_eq_done _ _ _ h4
      obtain ⟨s2, h2, h3⟩ := and_then_eq_done _ _ _ h3
      obtain ⟨s1, h1, h2⟩ := and_then_eq_done _ _ _ h2
      have f1 := add_node_feats _ _ _ _ _ _ h1
      have f2 := enqueue_or_leaf_feats _ _ _ h2
      have f3 := add_node_feats _ _ _ _ _ _ h3
      have f4 := enqueue_or_leaf_feats _ _ _ h4
      have e5 := outcome.done.inj h5
      have e6 : fr'.st = s4 := by rw [← e5]
      have f0 : (after_partition (after_features E fr nd).st (popped_idx fr) nd
          (after_features E fr nd).best_split).nfeat_split
            = (after_features E fr nd).st.nfeat_split
          ∧ (after_partition (after_features E fr nd).st (popped_idx fr) nd
          (after_features E fr nd).best_split).n_features
            = (after_features E fr nd).st.n_features := ⟨rfl, rfl⟩
      rw [e6]
      exact ⟨f4.1.trans (f3.1.trans (f2.1.trans (f1.1.trans (f0.1.trans hA.nfeat_split)))),
        f4.2.trans (f3.2.trans (f2.2.trans (f1.2.trans (f0.2.trans hA.n_features))))⟩
    · rw [if_neg hb] at hs
      have e5 := outcome.done.inj hs
      rw [← e5]
      exact ⟨hA.nfeat_split, hA.n_features⟩

/-- Without a shuffle, the loop of `fit` does not look at the seed. -/
theorem fit_loop_reseed (E : externals T) (s : Int) (g : Nat) (o : Option (tree_options T)) :
    ∀ (fuel : Nat) (fr : fit_frame T), ¬ fr.st.nfeat_split < fr.st.n_features →
      fit_loop E fuel (reseed_frame s g o fr) = reseed_step s g o (fit_loop E fuel fr) := by
  intro fuel
  induction fuel with
  | zero =>
    intro fr _
    by_cases he : fr.st.nodes_to_treat = []
    · have he' : (reseed_frame s g o fr).st.nodes_to_treat = [] := he
      have e1 : fit_loop E 0 fr = outcome.done fr := by
        unfold fit_loop; exact if_pos he
      have e2 : fit_loop E 0 (reseed_frame s g o fr) = outcome.done (reseed_frame s g o fr) := by
        unfold fit_loop; exact if_pos he'
      rw [e1, e2]; rfl
    · have he' : ¬ (reseed_frame s g o fr).st.nodes_to_treat = [] := he
      have e1 : fit_loop E 0 fr = outcome.out_of_fuel := by
        unfold fit_loop; exact if_neg he
      have e2 : fit_loop E 0 (reseed_frame s g o fr) = outcome.out_of_fuel := by
        unfold fit_loop; exact if_neg he'
      rw [e1, e2]; rfl
  | succ n ih =>
    intro fr h
    by_cases he : fr.st.nodes_to_treat = []
    · have he' : (reseed_frame s g o fr).st.nodes_to_treat = [] := he
      have e1 : fit_loop E (n + 1) fr = outcome.done fr := by
        unfold fit_loop; exact if_pos he
      have e2 : fit_loop E (n + 1) (reseed_frame s g o fr)
          = outcome.done (reseed_frame s g o fr) := by
        unfold fit_loop; exact if_pos he'
      rw [e1, e2]; rfl
    · have he' : ¬ (reseed_frame s g o fr).st.nodes_to_treat = [] := he
      have e1 : fit_loop E (n + 1) fr = (fit_step E fr).and_then (fit_loop E n) := by
        rw [fit_loop]; exact if_neg he
      have e2 : fit_loop E (n + 1) (reseed_frame s g o fr)
          = (fit_step E (reseed_frame s g o fr)).and_then (fit_loop E n) := by
        rw [fit_loop]; exact if_neg he'
      rw [e1, e2, fit_step_reseed E s g o fr h]
      cases hs : fit_step E fr with
      | done fr' =>
        have hf := fit_step_feats E fr fr' hs
        have h' : ¬ fr'.st.nfeat_split < fr'.st.n_features := by
          rw [hf.1, hf.2]; exact h
        exact ih fr' h'
      | out_of_bounds => rfl
      | out_of_fuel => rfl

theorem select_score_reseed (E : externals T) (r : Int) (s : Int) (g : Nat)
    (o : Option (tree_options T)) (st : decision_tree T) :
    select_score { E with random_device := r } (reseed s g o st)
      = reseed s g o (select_score E st) := by
  unfold select_score
  by_cases h1 : st.method = gini
  · have h1' : (reseed s g o st).method = gini := h1
    rw [if_pos h1, if_pos h1']; rfl
  · have h1' : ¬ (reseed s g o st).method = gini := h1
    rw [if_neg h1, if_neg h1']
    by_cases h2 : st.method = cross_entropy
    · have h2' : (reseed s g o st).method = cross_entropy := h2
      rw [if_pos h2, if_pos h2']; rfl
    · have h2' : ¬ (reseed s g o st).method = cross_entropy := h2
      rw [if_neg h2, if_neg h2']
      by_cases h3 : st.method = misclassification
      · have h3' : (reseed s g o st).method = misclassification := h3
        rw [if_pos h3, if_pos h3']; rfl
      · have h3' : ¬ (reseed s g o st).method = misclassification := h3
        rw [if_neg h3, if_neg h3']

theorem resolve_nfeat_reseed (s : Int) (g : Nat) (o : Option (tree_options T))
    (st : decision_tree T) :
    resolve_nfeat (reseed s g o st) = reseed s g o (resolve_nfeat st) := by
  unfold resolve_nfeat
  by_cases h1 : st.nfeat_split = 0 ∨ st.nfeat_split > st.n_features
  · have h1' : (reseed s g o st).nfeat_split = 0
        ∨ (reseed s g o st).nfeat_split > (reseed s g o st).n_features := h1
    rw [if_pos h1, if_pos h1']; rfl
  · have h1' : ¬ ((reseed s g o st).nfeat_split = 0
        ∨ (reseed s g o st).nfeat_split > (reseed s g o st).n_features) := h1
    rw [if_neg h1, if_neg h1']

theorem resolve_seed_reseed (E : externals T) (r : Int) (s : Int) (g : Nat)
    (o : Option (tree_options T)) (st : decision_tree T) :
    resolve_seed { E with random_device := r } (reseed s g o st)
      = reseed (resolved_seed r s) (E.mt_seed (resolved_seed r s)) o (resolve_seed E st) := by
  obtain ⟨sd, mt, e3⟩ := resolve_seed_frame E st
  rw [e3]
  unfold resolve_seed resolved_seed
  by_cases h1 : s = -1
  · have h1' : (reseed s g o st).seed = -1 := h1
    simp only [if_pos h1, if_pos h1']
    rfl
  · have h1' : ¬ (reseed s g o st).seed = -1 := h1
    simp only [if_neg h1, if_neg h1']
    rfl

theorem allocate_reseed (s : Int) (g : Nat) (o : Option (tree_options T))
    (st : decision_tree T) :
    allocate (reseed s g o st) = reseed s g o (allocate st) := by
  unfold allocate
  by_cases h1 : st.predict_proba_opt = true
  · have h1' : (reseed s g o st).predict_proba_opt = true := h1
    rw [if_pos h1, if_pos h1']; rfl
  · have h1' : ¬ (reseed s g o st).predict_proba_opt = true := h1
    rw [if_neg h1, if_neg h1']

/-- Without bootstrap, the block that fills `samples_idx` does not draw. -/
theorem init_samples_reseed (E : externals T) (r : Int) (s : Int) (g : Nat)
    (o : Option (tree_options T)) (st : decision_tree T) (hb : st.bootstrap = false) :
    init_samples { E with random_device := r } (reseed s g o st)
      = reseed s g o (init_samples E st) := by
  unfold init_samples
  have h1 : ¬ st.bootstrap = true := by rw [hb]; simp
  have h1' : ¬ (reseed s g o st).bootstrap = true := h1
  rw [if_pos h1, if_pos h1']
  rfl

theorem configured_bootstrap (E : externals T) (st : decision_tree T) :
    (allocate (resolve_seed E (resolve_nfeat (select_score E st)))).bootstrap
      = st.bootstrap := by
  obtain ⟨sf, e1⟩ := select_score_frame E st
  obtain ⟨nf, e2⟩ := resolve_nfeat_frame (select_score E st)
  obtain ⟨sd, mt, e3⟩ := resolve_seed_frame E (resolve_nfeat (select_score E st))
  have e4 : (allocate (resolve_seed E (resolve_nfeat (select_score E st)))).bootstrap
      = (resolve_seed E (resolve_nfeat (select_score E st))).bootstrap := by
    unfold allocate
    split
    · rfl
    · rfl
  rw [e4, e3, e2, e1]

/-- Without bootstrap, the instance that `fit` configures depends on the seed through the
members `seed` and `mt_engine` only. -/
theorem configured_reseed (E : externals T) (r : Int) (s : Int) (g : Nat)
    (o : Option (tree_options T)) (st : decision_tree T) (hb : st.bootstrap = false) :
    configured { E with random_device := r } (reseed s g o st)
      = reseed (resolved_seed r s) (E.mt_seed (resolved_seed r s)) o (configured E st) := by
  unfold configured
  rw [select_score_reseed, resolve_nfeat_reseed, resolve_seed_reseed, allocate_reseed,
    init_samples_reseed E r _ _ _ _ ((configured_bootstrap E st).trans hb)]

theorem init_root_reseed (s : Int) (g : Nat) (o : Option (tree_options T))
    (st : decision_tree T) :
    init_root (reseed s g o st) = reseed_out s g o (init_root st) := by
  rcases h : tree_at st.tree 0 with _ | nd
  · have h' : tree_at (reseed s g o st).tree 0 = none := h
    rw [init_root_out_of_bounds st h, init_root_out_of_bounds _ h']; rfl
  · have h' : tree_at (reseed s g o st).tree 0 = some nd := h
    rw [init_root_eq st nd h, init_root_eq _ nd h']
    have e : rooted (reseed s g o st) = reseed s g o (rooted st) := by
      unfold rooted root_props
      by_cases hp : st.predict_proba_opt = true
      · have hp' : (reseed s g o st).predict_proba_opt = true := hp
        simp only [if_pos hp, if_pos hp']
        rfl
      · have hp' : ¬ (reseed s g o st).predict_proba_opt = true := hp
        simp only [if_neg hp, if_neg hp']
        rfl
    rw [e]; rfl

theorem queue_root_reseed (s : Int) (g : Nat) (o : Option (tree_options T))
    (st : decision_tree T) :
    queue_root (reseed s g o st) = reseed s g o (queue_root st) := by
  unfold queue_root
  by_cases h : st.max_depth > 0
  · have h' : (reseed s g o st).max_depth > 0 := h
    rw [if_pos h, if_pos h']; rfl
  · have h' : ¬ (reseed s g o st).max_depth > 0 := h
    rw [if_neg h, if_neg h']

theorem init_root_feats (st st' : decision_tree T) (h : init_root st = outcome.done st') :
    (queue_root st').nfeat_split = st.nfeat_split
      ∧ (queue_root st').n_features = st.n_features := by
  rcases hn : tree_at st.tree 0 with _ | nd
  · rw [init_root_out_of_bounds st hn] at h; exact absurd h (by simp)
  · rw [init_root_eq st nd hn] at h
    have := outcome.done.inj h
    rw [← this]
    unfold queue_root
    split
    · exact ⟨rfl, rfl⟩
    · exact ⟨rfl, rfl⟩

theorem configured_feats (E : externals T) (st : decision_tree T)
    (hn : st.nfeat_split = 0 ∨ st.n_features ≤ st.nfeat_split) :
    ¬ (configured E st).nfeat_split < (configured E st).n_features := by
  obtain ⟨sf, e1⟩ := select_score_frame E st
  obtain ⟨sd, mt, e3⟩ := resolve_seed_frame E (resolve_nfeat (select_score E st))
  obtain ⟨v, mt', e5, _⟩ := init_samples_frame E
    (allocate (resolve_seed E (resolve_nfeat (select_score E st))))
  have e4 : (allocate (resolve_seed E (resolve_nfeat (select_score E st)))).nfeat_split
        = (resolve_seed E (resolve_nfeat (select_score E st))).nfeat_split
      ∧ (allocate (resolve_seed E (resolve_nfeat (select_score E st)))).n_features
        = (resolve_seed E (resolve_nfeat (select_score E st))).n_features := by
    unfold allocate
    split
    · exact ⟨rfl, rfl⟩
    · exact ⟨rfl, rfl⟩
  have e2 : ¬ (resolve_nfeat (select_score E st)).nfeat_split
      < (resolve_nfeat (select_score E st)).n_features := by
    have hs1 : (select_score E st).nfeat_split = st.nfeat_split := by rw [e1]
    have hs2 : (select_score E st).n_features = st.n_features := by rw [e1]
    unfold resolve_nfeat
    split
    · exact lt_irrefl _
    · rw [hs1, hs2]
      rename_i hc
      rw [hs1, hs2] at hc
      intro hlt
      rcases hn with h0 | hle
      · exact hc (Or.inl h0)
      · exact absurd hlt (not_lt.mpr hle)
  have e6 : (configured E st).nfeat_split
      = (resolve_nfeat (select_score E st)).nfeat_split := by
    unfold configured
    rw [e5]
    show (allocate (resolve_seed E (resolve_nfeat (select_score E st)))).nfeat_split = _
    rw [e4.1, e3]
  have e7 : (configured E st).n_features
      = (resolve_nfeat (select_score E st)).n_features := by
    unfold configured
    rw [e5]
    show (allocate (resolve_seed E (resolve_nfeat (select_score E st)))).n_features = _
    rw [e4.2, e3]
  rw [e6, e7]
  exact e2

/-- Without bootstrap and without a shuffle of the features, `fit` on an instance that
differs in the seed, in the state of the random engine and in the options registry does
what it does on the other one, and returns the same instance but for these members. -/
theorem fit_reseed (E : externals T) (r : Int) (s : Int) (g : Nat)
    (o : Option (tree_options T)) (st0 st0' st1 : decision_tree T)
    (ht : st0.model_trained = false) (ht' : st0'.model_trained = false)
    (ho : read_options st0 = some st1)
    (ho' : read_options st0' = some (reseed s g o st1))
    (hb : st1.bootstrap = false)
    (hn : st1.nfeat_split = 0 ∨ st1.n_features ≤ st1.nfeat_split) :
    fit { E with random_device := r } st0'
      = reseed_result (resolved_seed r s) (E.mt_seed (resolved_seed r s)) o (fit E st0) := by
  rw [fit_eq E st0 st1 ht ho, fit_eq _ st0' _ ht' ho', configured_reseed E r s g o st1 hb,
    init_root_reseed]
  cases hi : init_root (configured E st1) with
  | out_of_bounds => rfl
  | out_of_fuel => rfl
  | done a =>
    have hf := init_root_feats _ _ hi
    have hc := configured_feats E st1 hn
    have hq : ¬ (queue_root a).nfeat_split < (queue_root a).n_features := by
      rw [hf.1, hf.2]; exact hc
    have hl := fit_loop_reseed E (resolved_seed r s) (E.mt_seed (resolved_seed r s)) o
      (2 * (queue_root a).n_obs.toNat + 1)
      { st := queue_root a, sp := E.uninit_split, best_split := E.uninit_split } hq
    have hl' : fit_loop E
        (2 * (queue_root (reseed (resolved_seed r s) (E.mt_seed (resolved_seed r s)) o
          a)).n_obs.toNat + 1)
        { st := queue_root (reseed (resolved_seed r s) (E.mt_seed (resolved_seed r s)) o a),
          sp := E.uninit_split, best_split := E.uninit_split }
        = reseed_step (resolved_seed r s) (E.mt_seed (resolved_seed r s)) o
            (fit_loop E (2 * (queue_root a).n_obs.toNat + 1)
              { st := queue_root a, sp := E.uninit_split,
                best_split := E.uninit_split }) := by
      rw [queue_root_reseed]
      exact hl
    rw [done_and_then]
    show (fit_loop { E with random_device := r }
        (2 * (queue_root (reseed (resolved_seed r s) (E.mt_seed (resolved_seed r s)) o
          a)).n_obs.toNat + 1)
        { st := queue_root (reseed (resolved_seed r s) (E.mt_seed (resolved_seed r s)) o a),
          sp := E.uninit_split, best_split := E.uninit_split }).and_then _ = _
    rw [fit_loop_random_device, hl']
    generalize fit_loop E (2 * (queue_root a).n_obs.toNat + 1)
        { st := queue_root a, sp := E.uninit_split, best_split := E.uninit_split } = x
    cases x with
    | done fr => rfl
    | out_of_bounds => rfl
    | out_of_fuel => rfl

theorem add_node_engine (st st' : decision_tree T) (p : Int) (l : Bool) (sc : T) (si : Int)
    (h : add_node st p l sc si = outcome.done st') :
    st'.features_idx = st.features_idx ∧ st'.mt_engine = st.mt_engine := by
  have ha : (add_node_sized st).features_idx = st.features_idx
      ∧ (add_node_sized st).mt_engine = st.mt_engine := by
    unfold add_node_sized
    split
    · split
      · exact ⟨rfl, rfl⟩
      · exact ⟨rfl, rfl⟩
    · exact ⟨rfl, rfl⟩
  unfold add_node_sized at ha
  unfold add_node at h
  simp only at h
  generalize (if (st.tree.length : Int) ≤ st.n_nodes then
    if st.predict_proba_opt = true then resize_tree st (2 * st.tree.length + 1) else st
    else st) = a at h ha
  rcases h1 : tree_at a.tree p with _ | parent
  · rw [h1] at h; exact absurd h (by simp)
  · rcases h2 : tree_at a.tree a.n_nodes with _ | nd
    · rw [h1, h2] at h; exact absurd h (by simp)
    · rw [h1, h2] at h
      have := outcome.done.inj h
      rw [← this]
      exact ha

theorem enqueue_or_leaf_engine (st st' : decision_tree T) (sc : T)
    (h : enqueue_or_leaf st sc = outcome.done st') :
    st'.features_idx = st.features_idx ∧ st'.mt_engine = st.mt_engine := by
  rcases hc : tree_at st.tree (st.n_nodes - 1) with _ | child
  · have e1 : enqueue_or_leaf st sc = outcome.out_of_bounds := by
      unfold enqueue_or_leaf; rw [hc]
    rw [e1] at h; exact absurd h (by simp)
  · rw [enqueue_or_leaf_eq st sc child hc] at h
    have := outcome.done.inj h
    rw [← this]
    unfold enqueued
    split
    · exact ⟨rfl, rfl⟩
    · exact ⟨rfl, rfl⟩

/-- Without a shuffle, the loop over the candidate features leaves `features_idx` and the
random engine as they are. -/
theorem after_features_engine (E : externals T) (fr : fit_frame T) (nd : node T)
    (h : ¬ fr.st.nfeat_split < fr.st.n_features) :
    (after_features E fr nd).st.features_idx = fr.st.features_idx
      ∧ (after_features E fr nd).st.mt_engine = fr.st.mt_engine := by
  obtain ⟨v, fv, cl, cr, e⟩ := feature_loop_frame E nd (nd.score - fr.st.min_improvement)
    (before_features E fr nd).nfeat_split
    { st := before_features E fr nd, sp := fr.sp,
      best_split := { fr.best_split with score := nd.score, feat_idx := -1 } }
  have hb : (before_features E fr nd).features_idx = fr.st.features_idx
      ∧ (before_features E fr nd).mt_engine = fr.st.mt_engine := by
    unfold before_features
    have h' : ¬ ({ fr.st with nodes_to_treat :=
        (get_next_node_idx fr.st fr.st.build_order).2 } : decision_tree T).nfeat_split
        < ({ fr.st with nodes_to_treat :=
        (get_next_node_idx fr.st fr.st.build_order).2 } : decision_tree T).n_features := h
    simp only [if_neg h']
    refine ⟨?_, ?_⟩ <;> first | rfl | trivial
  unfold after_features
  rw [e]
  exact hb

/-- Without a shuffle, an iteration of the loop of `fit` that does not leave the node array
leaves `features_idx` and the random engine as they are. -/
theorem fit_step_engine (E : externals T) (fr fr' : fit_frame T)
    (h : ¬ fr.st.nfeat_split < fr.st.n_features)
    (hs : fit_step E fr = outcome.done fr') :
    fr'.st.features_idx = fr.st.features_idx ∧ fr'.st.mt_engine = fr.st.mt_engine := by
  rcases hn : tree_at fr.st.tree (popped_idx fr) with _ | nd
  · rw [fit_step_out_of_bounds E fr hn] at hs; exact absurd hs (by simp)
  · rw [fit_step_eq E fr nd hn] at hs
    have hA := after_features_engine E fr nd h
    by_cases hb : (after_features E fr nd).best_split.feat_idx ≠ -1
    · rw [if_pos hb] at hs
      obtain ⟨s4, h4, h5⟩ := and_then_eq_done _ _ _ hs
      obtain ⟨s3, h3, h4⟩ := and_then_eq_done _ _ _ h4
      obtain ⟨s2, h2, h3⟩ := and_then_eq_done _ _ _ h3
      obtain ⟨s1, h1, h2⟩ := and_then_eq_done _ _ _ h2
      have f1 := add_node_engine _ _ _ _ _ _ h1
      have f2 := enqueue_or_leaf_engine _ _ _ h2
      have f3 := add_node_engine _ _ _ _ _ _ h3
      have f4 := enqueue_or_leaf_engine _ _ _ h4
      have e5 := outcome.done.inj h5
      have e6 : fr'.st = s4 := by rw [← e5]
      have f0 : (after_partition (after_features E fr nd).st (popped_idx fr) nd
          (after_features E fr nd).best_split).features_idx
            = (after_features E fr nd).st.features_idx
          ∧ (after_partition (after_features E fr nd).st (popped_idx fr) nd
          (after_features E fr nd).best_split).mt_engine
            = (after_features E fr nd).st.mt_engine := ⟨rfl, rfl⟩
      rw [e6]
      exact ⟨f4.1.trans (f3.1.trans (f2.1.trans (f1.1.trans (f0.1.trans hA.1)))),
        f4.2.trans (f3.2.trans (f2.2.trans (f1.2.trans (f0.2.trans hA.2))))⟩
    · rw [if_neg hb] at hs
      have e5 := outcome.done.inj hs
      rw [← e5]
      exact hA

/-- Without a shuffle, the loop of `fit` leaves `features_idx` and the random engine as
they are. -/
theorem fit_loop_engine (E : externals T) (fuel : Nat) (fr fr' : fit_frame T)
    (h : ¬ fr.st.nfeat_split < fr.st.n_features)
    (hl : fit_loop E fuel fr = outcome.done fr') :
    fr'.st.features_idx = fr.st.features_idx ∧ fr'.st.mt_engine = fr.st.mt_engine := by
  have := fit_loop_ind E
    (fun x => ¬ x.st.nfeat_split < x.st.n_features
      ∧ x.st.features_idx = fr.st.features_idx ∧ x.st.mt_engine = fr.st.mt_engine)
    (fun a b hP _ hs => by
      have hf := fit_step_feats E a b hs
      have he := fit_step_engine E a b hP.1 hs
      refine ⟨?_, he.1.trans hP.2.1, he.2.trans hP.2.2⟩
      rw [hf.1, hf.2]
      exact hP.1)
    fuel fr fr' ⟨h, rfl, rfl⟩ hl
  exact this.1.2

/-- Without bootstrap, the engine of the instance that `fit` configures is in the state in
which the seed put it, and `features_idx` is that of the instance. -/
theorem configured_engine (E : externals T) (st : decision_tree T) (hb : st.bootstrap = false) :
    (configured E st).features_idx = st.features_idx
      ∧ (configured E st).mt_engine = E.mt_seed (resolved_seed E.random_device st.seed) := by
  have hs1 : (select_score E st).seed = st.seed
      ∧ (select_score E st).features_idx = st.features_idx := by
    obtain ⟨sf, e1⟩ := select_score_frame E st
    rw [e1]
    exact ⟨rfl, rfl⟩
  have hs2 : (resolve_nfeat (select_score E st)).seed = st.seed
      ∧ (resolve_nfeat (select_score E st)).features_idx = st.features_idx := by
    obtain ⟨nf, e2⟩ := resolve_nfeat_frame (select_score E st)
    rw [e2]
    exact hs1
  have hs3 : (resolve_seed E (resolve_nfeat (select_score E st))).features_idx
        = st.features_idx
      ∧ (resolve_seed E (resolve_nfeat (select_score E st))).mt_engine
        = E.mt_seed (resolved_seed E.random_device st.seed) := by
    unfold resolve_seed resolved_seed
    by_cases h1 : st.seed = -1
    · have h1' : (resolve_nfeat (select_score E st)).seed = -1 := hs2.1.trans h1
      simp only [if_pos h1, if_pos h1']
      refine ⟨hs2.2, ?_⟩
      first | rfl | trivial
    · have h1' : ¬ (resolve_nfeat (select_score E st)).seed = -1 := by
        rw [hs2.1]; exact h1
      simp only [if_neg h1, if_neg h1']
      exact ⟨hs2.2, by rw [hs2.1]⟩
  have hs4 : (allocate (resolve_seed E (resolve_nfeat (select_score E st)))).features_idx
        = (resolve_seed E (resolve_nfeat (select_score E st))).features_idx
      ∧ (allocate (resolve_seed E (resolve_nfeat (select_score E st)))).mt_engine
        = (resolve_seed E (resolve_nfeat (select_score E st))).mt_engine := by
    unfold allocate
    split
    · exact ⟨rfl, rfl⟩
    · exact ⟨rfl, rfl⟩
  have hb' : ¬ (allocate (resolve_seed E (resolve_nfeat (select_score E st)))).bootstrap
      = true := by
    rw [configured_bootstrap E st, hb]; simp
  have hs5 : (configured E st).features_idx
        = (allocate (resolve_seed E (resolve_nfeat (select_score E st)))).features_idx
      ∧ (configured E st).mt_engine
        = (allocate (resolve_seed E (resolve_nfeat (select_score E st)))).mt_engine := by
    unfold configured init_samples
    rw [if_pos hb']
    exact ⟨rfl, rfl⟩
  exact ⟨hs5.1.trans (hs4.1.trans hs3.1), hs5.2.trans (hs4.2.trans hs3.2)⟩

/-- Without bootstrap and without a shuffle of the features, a run of `fit` seeds the
random engine and never draws from it, and never reorders `features_idx`. -/
theorem fit_engine (E : externals T) (st0 st1 st : decision_tree T) (status : da_status)
    (ht : st0.model_trained = false) (ho : read_options st0 = some st1)
    (hb : st1.bootstrap = false)
    (hn : st1.nfeat_split = 0 ∨ st1.n_features ≤ st1.nfeat_split)
    (hf : fit E st0 = outcome.done (status, st)) :
    st.features_idx = st1.features_idx
      ∧ st.mt_engine = E.mt_seed (resolved_seed E.random_device st1.seed) := by
  rw [fit_eq E st0 st1 ht ho] at hf
  obtain ⟨a, hi, hf⟩ := and_then_eq_done _ _ _ hf
  obtain ⟨fr, hl, hf⟩ := and_then_eq_done _ _ _ hf
  have hfe := init_root_feats _ _ hi
  have hc := configured_feats E st1 hn
  have hq : ¬ (queue_root a).nfeat_split < (queue_root a).n_features := by
    rw [hfe.1, hfe.2]; exact hc
  have hle := fit_loop_engine E _ _ fr hq hl
  have hce := configured_engine E st1 hb
  have hre : (queue_root a).features_idx = (configured E st1).features_idx
      ∧ (queue_root a).mt_engine = (configured E st1).mt_engine := by
    rcases hn0 : tree_at (configured E st1).tree 0 with _ | nd
    · rw [init_root_out_of_bounds _ hn0] at hi; exact absurd hi (by simp)
    · rw [init_root_eq _ nd hn0] at hi
      have := outcome.done.inj hi
      rw [← this]
      unfold queue_root
      split
      · exact ⟨rfl, rfl⟩
      · exact ⟨rfl, rfl⟩
  have e := outcome.done.inj hf
  have e2 : st = { fr.st with model_trained := true } := by
    have := congrArg Prod.snd e
    exact this.symm
  rw [e2]
  exact ⟨hle.1.trans (hre.1.trans hce.1), hle.2.trans (hre.2.trans hce.2)⟩

end seed

/-! ## `set_training_data`, a second `fit`, `predict_log_proba` -/

section entry_points

variable {T : Type} [LinearOrderedField T]

/-- The value of `set_training_data` when the arrays are accepted and `n_obs` is not: the
status is `da_status_invalid_input`, and the instance is as it was but for `X` and `ldx`,
which `store_2D_array` has written. -/
theorem set_training_data_of_bad_n_obs (E : externals T) (st : decision_tree T)
    (n_samples n_features : Int) (X : Option (Int → T)) (ldx : Int) (y : Option (Int → Int))
    (n_class n_obs : Int) (samples_subset : Option (Int → Int))
    (hX : (E.store_2D_array n_samples n_features X ldx 0).1 = da_status.da_status_success)
    (hy : E.check_1D_array n_samples y = da_status.da_status_success)
    (hn : n_obs > n_samples ∨ n_obs < 0) :
    set_training_data E st n_samples n_features X ldx y n_class n_obs samples_subset
      = (da_status.da_status_invalid_input,
          { st with X := (E.store_2D_array n_samples n_features X ldx 0).2.1,
                    ldx := (E.store_2D_array n_samples n_features X ldx 0).2.2 }) := by
  unfold set_training_data
  simp only [hX, hy, ne_eq, not_true_eq_false, if_false, hn, if_true]

/-- A call of `set_training_data` that fails leaves the trained flag and the node array as
they were. -/
theorem set_training_data_failure_keeps_tree (E : externals T) (st : decision_tree T)
    (n_samples n_features : Int) (X : Option (Int → T)) (ldx : Int) (y : Option (Int → Int))
    (n_class n_obs : Int) (samples_subset : Option (Int → Int))
    (h : (set_training_data E st n_samples n_features X ldx y n_class n_obs
      samples_subset).1 ≠ da_status.da_status_success) :
    (set_training_data E st n_samples n_features X ldx y n_class n_obs
        samples_subset).2.model_trained = st.model_trained
      ∧ (set_training_data E st n_samples n_features X ldx y n_class n_obs
        samples_subset).2.tree = st.tree := by
  unfold set_training_data at h ⊢
  simp only at h ⊢
  split
  · exact ⟨rfl, rfl⟩
  · split
    · exact ⟨rfl, rfl⟩
    · split
      · exact ⟨rfl, rfl⟩
      · rename_i h1 h2 h3
        rw [if_neg h1, if_neg h2, if_neg h3] at h
        exact absurd rfl h

/-- A call of `set_training_data` that succeeds has gone through `refresh`: the model is
not trained and the node array is empty. -/
theorem set_training_data_success_refreshes (E : externals T) (st : decision_tree T)
    (n_samples n_features : Int) (X : Option (Int → T)) (ldx : Int) (y : Option (Int → Int))
    (n_class n_obs : Int) (samples_subset : Option (Int → Int))
    (h : (set_training_data E st n_samples n_features X ldx y n_class n_obs
      samples_subset).1 = da_status.da_status_success) :
    (set_training_data E st n_samples n_features X ldx y n_class n_obs
        samples_subset).2.model_trained = false
      ∧ (set_training_data E st n_samples n_features X ldx y n_class n_obs
        samples_subset).2.tree = [] := by
  unfold set_training_data at h ⊢
  simp only at h ⊢
  split
  · rename_i h1
    rw [if_pos h1] at h
    exact absurd h h1
  · split
    · rename_i h1 h2
      rw [if_neg h1, if_pos h2] at h
      exact absurd h h2
    · split
      · rename_i h1 h2 h3
        rw [if_neg h1, if_neg h2, if_pos h3] at h
        exact absurd h (by simp)
      · refine ⟨?_, ?_⟩
        · split <;> split <;> rfl
        · split <;> split <;> rfl

/-- A run of `fit` that ends with success ends with a trained model. -/
theorem fit_success_trained (E : externals T) (st0 st : decision_tree T)
    (hf : fit E st0 = outcome.done (da_status.da_status_success, st)) :
    st.model_trained = true := by
  by_cases ht : st0.model_trained = true
  · unfold fit at hf
    rw [if_pos ht] at hf
    have := outcome.done.inj hf
    rw [← (Prod.mk.inj this).2]
    exact ht
  · have ht' : st0.model_trained = false := by simpa using ht
    cases ho : read_options st0 with
    | none =>
      rw [fit_eq_none E st0 ht' ho] at hf
      have := (Prod.mk.inj (outcome.done.inj hf)).1
      exact absurd this (by decide)
    | some st1 =>
      rw [fit_eq E st0 st1 ht' ho] at hf
      cases h1 : init_root (configured E st1) with
      | done s1 =>
        rw [h1] at hf
        simp only [outcome.and_then] at hf
        cases h2 : fit_loop E (2 * (queue_root s1).n_obs.toNat + 1)
            { st := queue_root s1, sp := E.uninit_split, best_split := E.uninit_split } with
        | done fr =>
          rw [h2] at hf
          have := (Prod.mk.inj (outcome.done.inj hf)).2
          rw [← this]
        | out_of_bounds => rw [h2] at hf; exact absurd hf (by simp)
        | out_of_fuel => rw [h2] at hf; exact absurd hf (by simp)
      | out_of_bounds => rw [h1] at hf; exact absurd hf (by simp [outcome.and_then])
      | out_of_fuel => rw [h1] at hf; exact absurd hf (by simp [outcome.and_then])

/-- On a trained instance `fit` returns success and the instance as it is. -/
theorem fit_of_trained (E : externals T) (st : decision_tree T)
    (h : st.model_trained = true) :
    fit E st = outcome.done (da_status.da_status_success, st) := by
  unfold fit
  rw [if_pos h]

/-- The status of `predict_log_proba` is the status of `predict_proba` called with the
member `n_class` in the place of the argument `nclass`. -/
theorem predict_log_proba_status (E : externals T) (ln : T → T) (st : decision_tree T)
    (nsamp nfeat : Int) (X_test : Option (Int → T)) (ldx_test : Int)
    (y_log_proba : Option (Int → T)) (nclass ldy mode : Int) :
    is_success (predict_log_proba E ln st nsamp nfeat X_test ldx_test y_log_proba nclass ldy
        mode)
      = is_success (predict_proba E st nsamp nfeat X_test ldx_test y_log_proba st.n_class ldy
        mode) := by
  unfold predict_log_proba
  cases predict_proba E st nsamp nfeat X_test ldx_test y_log_proba st.n_class ldy mode with
  | done r =>
    obtain ⟨s, out, l⟩ := r
    simp only [outcome.and_then]
    by_cases hs : s = da_status.da_status_success
    · subst hs
      simp [is_success]
    · simp only [ne_eq, hs, not_false_eq_true, if_true]
  | out_of_bounds => rfl
  | out_of_fuel => rfl

/-- With a class count that differs from the trained `n_class`, `predict_proba` on an
instance that tracks probabilities and is given the trained feature count fails with
`da_status_invalid_input`. -/
theorem predict_proba_of_class_mismatch (E : externals T) (st : decision_tree T)
    (nsamp nfeat : Int) (X_test : Option (Int → T)) (ldx_test : Int)
    (y_proba_pred : Option (Int → T)) (nclass ldy mode : Int)
    (h : nclass ≠ st.n_class) :
    predict_proba E st nsamp nfeat X_test ldx_test y_proba_pred nclass ldy mode
      = outcome.done (da_status.da_status_invalid_input, y_proba_pred, ldy) := by
  unfold predict_proba
  split
  · rfl
  · split
    · rfl
    · rfl

end entry_points

set_option maxRecDepth 100000 in
/-- C25: `set_training_data` with arrays that are accepted and `n_obs < 0` or
`n_obs > n_samples` returns `da_status_invalid_input`, yet not with the instance as it was:
`store_2D_array` has written the data pointer and the leading dimension before `n_obs` is
looked at, and they are those of the rejected call. On the fitted scenario instance
(`X = [[0],[1],[2],[3]]`, `ldx = 4`), the call with a matrix of fives, `ldx = 7`,
`n_samples = 4` and `n_obs = 5` returns `da_status_invalid_input` and leaves `X[0] = 5`
and `ldx = 7`, next to the labels, `n_samples`, the tree and the trained flag of the
earlier call. -/
theorem set_training_data_stores_array_before_rejecting_n_obs :
    (∀ (T : Type) [LinearOrderedField T] (E : externals T) (st : decision_tree T)
        (n_samples n_features : Int) (X : Option (Int → T)) (ldx : Int)
        (y : Option (Int → Int)) (n_class n_obs : Int) (samples_subset : Option (Int → Int)),
        (E.store_2D_array n_samples n_features X ldx 0).1 = da_status.da_status_success →
        E.check_1D_array n_samples y = da_status.da_status_success →
        (n_obs > n_samples ∨ n_obs < 0) →
        set_training_data E st n_samples n_features X ldx y n_class n_obs samples_subset
          = (da_status.da_status_invalid_input,
              { st with X := (E.store_2D_array n_samples n_features X ldx 0).2.1,
                        ldx := (E.store_2D_array n_samples n_features X ldx 0).2.2 }))
      ∧ (set_training_data reference_externals scenario_fitted 4 1 (some rejected_X) 7
            (some (fun _ => 0)) 2 5 none).1 = da_status.da_status_invalid_input
      ∧ scenario_fitted.X 0 = 0 ∧ scenario_fitted.ldx = 4
      ∧ (set_training_data reference_externals scenario_fitted 4 1 (some rejected_X) 7
            (some (fun _ => 0)) 2 5 none).2.X 0 = 5
      ∧ (set_training_data reference_externals scenario_fitted 4 1 (some rejected_X) 7
            (some (fun _ => 0)) 2 5 none).2.ldx = 7
      ∧ (set_training_data reference_externals scenario_fitted 4 1 (some rejected_X) 7
            (some (fun _ => 0)) 2 5 none).2.n_samples = scenario_fitted.n_samples
      ∧ (set_training_data reference_externals scenario_fitted 4 1 (some rejected_X) 7
            (some (fun _ => 0)) 2 5 none).2.model_trained = true := by
  have e := set_training_data_of_bad_n_obs reference_externals scenario_fitted 4 1
    (some rejected_X) 7 (some (fun _ => 0)) 2 5 none rfl rfl (Or.inl (by decide))
  refine ⟨fun T _ E st n_samples n_features X ldx y n_class n_obs samples_subset hX hy hn =>
    set_training_data_of_bad_n_obs E st n_samples n_features X ldx y n_class n_obs
      samples_subset hX hy hn, ?_, by decide!, by decide!, ?_, ?_, ?_, ?_⟩
  · rw [e]
  · rw [e]; rfl
  · rw [e]; rfl
  · rw [e]
  · rw [e]; decide!

/-- C26: a run of `fit` that ends with success ends with a trained model, and `fit` on
that instance, whatever the externals, returns success and the instance as it is, field
for field; `refresh` clears the trained flag and the node array, a call of
`set_training_data` that succeeds does so as well (it goes through `refresh`), and one that
fails leaves the flag and the node array as they were. -/
theorem fit_again_is_no_op {T : Type} [LinearOrderedField T] (E E' : externals T)
    (st0 st : decision_tree T)
    (hf : fit E st0 = outcome.done (da_status.da_status_success, st)) :
    st.model_trained = true
      ∧ fit E' st = outcome.done (da_status.da_status_success, st)
      ∧ (refresh st).model_trained = false ∧ (refresh st).tree = []
      ∧ ∀ (n_samples n_features : Int) (X : Option (Int → T)) (ldx : Int)
          (y : Option (Int → Int)) (n_class n_obs : Int) (samples_subset : Option (Int → Int)),
          ((set_training_data E' st n_samples n_features X ldx y n_class n_obs
              samples_subset).1 = da_status.da_status_success →
            (set_training_data E' st n_samples n_features X ldx y n_class n_obs
                samples_subset).2.model_trained = false
              ∧ (set_training_data E' st n_samples n_features X ldx y n_class n_obs
                samples_subset).2.tree = [])
          ∧ ((set_training_data E' st n_samples n_features X ldx y n_class n_obs
              samples_subset).1 ≠ da_status.da_status_success →
            (set_training_data E' st n_samples n_features X ldx y n_class n_obs
                samples_subset).2.model_trained = true
              ∧ (set_training_data E' st n_samples n_features X ldx y n_class n_obs
                samples_subset).2.tree = st.tree) := by
  have ht := fit_success_trained E st0 st hf
  refine ⟨ht, fit_of_trained E' st ht, rfl, rfl, ?_⟩
  intro n_samples n_features X ldx y n_class n_obs samples_subset
  refine ⟨set_training_data_success_refreshes E' st _ _ _ _ _ _ _ _, fun h => ?_⟩
  have := set_training_data_failure_keeps_tree E' st n_samples n_features X ldx y n_class
    n_obs samples_subset h
  exact ⟨this.1.trans ht, this.2⟩

set_option maxRecDepth 100000 in
/-- Witness of C26: the scenario instance, fitted, then given to `fit` again with other
externals. -/
theorem fit_again_is_no_op_witness :
    scenario_fitted.model_trained = true
      ∧ fit { reference_externals with random_device := 7 } scenario_fitted
          = outcome.done (da_status.da_status_success, scenario_fitted) :=
  ⟨(fit_again_is_no_op reference_externals { reference_externals with random_device := 7 }
      (scenario_instance (1 / 2) true 1 1) scenario_fitted scenario_fit_success).1,
    (fit_again_is_no_op reference_externals { reference_externals with random_device := 7 }
      (scenario_instance (1 / 2) true 1 1) scenario_fitted scenario_fit_success).2.1⟩

set_option maxRecDepth 100000 in
/-- C28: `predict_log_proba` hands the member `n_class`, not its argument `nclass`, to
`predict_proba`, so its status is that of `predict_proba` with the trained class count:
on the fitted scenario instance (two classes) and `nclass = 1`, `predict_proba` fails with
`da_status_invalid_input` while `predict_log_proba` with the same arguments returns
success. -/
theorem predict_log_proba_accepts_class_count_that_predict_proba_rejects :
    (∀ (T : Type) [LinearOrderedField T] (E : externals T) (ln : T → T)
        (st : decision_tree T) (nsamp nfeat : Int) (X_test : Option (Int → T))
        (ldx_test : Int) (y_log_proba : Option (Int → T)) (nclass ldy mode : Int),
        is_success (predict_log_proba E ln st nsamp nfeat X_test ldx_test y_log_proba nclass
            ldy mode)
          = is_success (predict_proba E st nsamp nfeat X_test ldx_test y_log_proba
              st.n_class ldy mode))
      ∧ scenario_fitted.n_class = 2
      ∧ predict_proba reference_externals scenario_fitted 2 1 (some scenario_query) 2
            (some (fun _ => 7)) 1 2 0
          = outcome.done (da_status.da_status_invalid_input, some (fun _ => 7), 2)
      ∧ is_success (predict_log_proba reference_externals (fun x => x) scenario_fitted 2 1
            (some scenario_query) 2 (some (fun _ => 7)) 1 2 0) = true := by
  refine ⟨fun T _ E ln st nsamp nfeat X_test ldx_test y_log_proba nclass ldy mode =>
    predict_log_proba_status E ln st nsamp nfeat X_test ldx_test y_log_proba nclass ldy mode,
    by decide!, ?_, by decide!⟩
  exact predict_proba_of_class_mismatch reference_externals scenario_fitted 2 1
    (some scenario_query) 2 (some (fun _ => 7)) 1 2 0 (by decide!)

/-! ## The histograms on return from `find_best_split` -/

section histograms

variable {T : Type} [LinearOrderedField T]

theorem too_close_last (st : decision_tree T) (nd : node T) (ft : T) :
    too_close st ft (nd.end_idx - 1)
      ↔ |vec_get st.feature_values nd.end_idx 0
          - vec_get st.feature_values (nd.end_idx - 1) 0| < ft := by
  unfold too_close
  rw [sub_add_cancel]

/-- The histograms of the sweep when `find_best_split` returns, in terms of the two
vectors that the loop maintains. -/
theorem find_best_split_sweep_stop (st : decision_tree T) (nd : node T) (ft ms : T)
    (sp : split T) :
    (find_best_split st nd ft ms sp).1.count_left_classes
        = left_counts st nd (sweep_stop st nd ft - 1)
      ∧ (find_best_split st nd ft ms sp).1.count_right_classes
        = moved_right st nd (sweep_stop st nd ft) := by
  have key := sweep_loop_ind st nd ft ms
    (fun s => sweep_at st nd s
      ∧ (s.sidx = nd.start_idx
        ∨ (nd.start_idx ≤ s.sidx - 1 ∧ ¬ too_close st ft (s.sidx - 1)
            ∧ s.sidx ≤ nd.end_idx)))
    (fun s => s.count_left_classes = left_counts st nd (sweep_stop st nd ft - 1)
      ∧ s.count_right_classes = moved_right st nd (sweep_stop st nd ft))
    (fun s hs hc => by
      beta_reduce at hs ⊢
      rcases hs.2 with h0 | ⟨h1, h2, h3⟩
      · have e : sweep_stop st nd ft = s.sidx := by
          unfold sweep_stop
          rw [if_neg (by omega), h0]
        rw [e]
        exact ⟨hs.1.hleft, hs.1.hright⟩
      · have he : s.sidx = nd.end_idx := by omega
        have e : sweep_stop st nd ft = s.sidx := by
          unfold sweep_stop
          rw [if_pos (by omega), if_neg, he]
          rw [← too_close_last, ← he]
          exact h2
        rw [e]
        exact ⟨hs.1.hleft, hs.1.hright⟩)
    (fun s hs hc he => by
      beta_reduce at hs ⊢
      obtain ⟨hmid, hclose⟩ := sweep_advance_spec st nd ft s hs.1
      have hge := hs.1.hge
      have e : sweep_stop st nd ft = (sweep_advance st nd ft s).sidx + 1 := by
        unfold sweep_stop
        rw [if_pos (by omega), if_pos, he]
        rw [← too_close_last]
        exact hclose (nd.end_idx - 1) (by omega) (by omega)
      rw [e, add_sub_cancel_right]
      exact ⟨hmid.hleft, hmid.hright⟩)
    (fun s hs hc hne => by
      beta_reduce at hs ⊢
      obtain ⟨hmid, hclose⟩ := sweep_advance_spec st nd ft s hs.1
      have hge := sweep_advance_sidx_ge st nd ft s
      have hle := sweep_advance_sidx_le st nd ft s (by omega)
      have hex := sweep_advance_exit st nd ft s
      have hlt : (sweep_advance st nd ft s).sidx < nd.end_idx := lt_of_le_of_ne hle hne
      have hnc : ¬ too_close st ft (sweep_advance st nd ft s).sidx :=
        fun h => hex ⟨by omega, h⟩
      have hs0 := hs.1.hge
      refine ⟨⟨by simp only [sweep_eval_sidx]; omega, ?_, ?_, ?_, ?_⟩, Or.inr ⟨?_, ?_, ?_⟩⟩
      · show (sweep_advance st nd ft s).count_left_classes
          = left_counts st nd ((sweep_advance st nd ft s).sidx + 1 - 1)
        rw [add_sub_cancel_right]; exact hmid.hleft
      · exact hmid.hright
      · show (sweep_advance st nd ft s).ns_left
          = (sweep_advance st nd ft s).sidx + 1 - nd.start_idx
        rw [hmid.hnl]; ring
      · show (sweep_advance st nd ft s).ns_right
          = nd.n_samples - ((sweep_advance st nd ft s).sidx + 1 - nd.start_idx)
        rw [hmid.hnr]; ring
      · show nd.start_idx ≤ (sweep_advance st nd ft s).sidx + 1 - 1
        omega
      · show ¬ too_close st ft ((sweep_advance st nd ft s).sidx + 1 - 1)
        rw [add_sub_cancel_right]; exact hnc
      · show (sweep_advance st nd ft s).sidx + 1 ≤ nd.end_idx
        omega)
    (nd.end_idx - nd.start_idx).toNat
    { sidx := nd.start_idx,
      count_left_classes := vec_fill st.count_left_classes 0,
      count_right_classes := vec_copy st.count_classes st.count_right_classes,
      ns_left := 0, ns_right := nd.n_samples, left_score := 0, right_score := nd.score,
      sp := { sp with score := nd.score, samp_idx := -1 } }
    (le_refl _)
    ⟨⟨le_refl _, by
        show vec_fill st.count_left_classes 0 = left_counts st nd (nd.start_idx - 1)
        unfold left_counts count_class_occurences
        rw [for_range_of_le _ _ _ _ (by omega)],
      by
        show vec_copy st.count_classes st.count_right_classes = moved_right st nd nd.start_idx
        unfold moved_right
        rw [for_range_of_le _ _ _ _ (le_refl _)],
      by show (0 : Int) = nd.start_idx - nd.start_idx; ring,
      by show nd.n_samples = nd.n_samples - (nd.start_idx - nd.start_idx); ring⟩,
      Or.inl rfl⟩
  exact key

theorem sweep_stop_range (st : decision_tree T) (nd : node T) (ft : T)
    (h : nd.start_idx ≤ nd.end_idx + 1) :
    nd.start_idx ≤ sweep_stop st nd ft ∧ sweep_stop st nd ft ≤ nd.end_idx + 1 := by
  unfold sweep_stop
  split
  · split <;> constructor <;> omega
  · constructor <;> omega

/-- C21: for a node whose range lies within `samples_idx`, with `count_classes` holding
the class counts of the range and `count_right_classes` of the same size, on return from
`find_best_split` the vector `count_left_classes` holds the class counts of the samples
`start_idx..p-1` and `count_right_classes` those of the samples `p..end_idx`, where `p`
is `start_idx` for a node of fewer than two samples (all samples on the right),
`end_idx + 1` when the last two values of the range are closer than `feat_thresh` (all
samples on the left), and `end_idx` otherwise (the last sample alone on the right). -/
theorem find_best_split_leaves_histograms_at_sweep_stop (st : decision_tree T)
    (nd : node T) (ft ms : T) (sp : split T)
    (hnd : node_in_range st.samples_idx.length nd)
    (hcc : st.count_classes
      = count_class_occurences st st.count_classes nd.start_idx nd.end_idx)
    (hlen : st.count_right_classes.length = st.count_classes.length) :
    (find_best_split st nd ft ms sp).1.count_left_classes.length
        = st.count_left_classes.length
      ∧ (find_best_split st nd ft ms sp).1.count_right_classes.length
        = st.count_right_classes.length
      ∧ (∀ c : Int, 0 ≤ c → c < st.count_left_classes.length →
          vec_get (find_best_split st nd ft ms sp).1.count_left_classes c 0
            = class_count st nd.start_idx (sweep_stop st nd ft - 1) c)
      ∧ (∀ c : Int, 0 ≤ c → c < st.count_right_classes.length →
          vec_get (find_best_split st nd ft ms sp).1.count_right_classes c 0
            = class_count st (sweep_stop st nd ft) nd.end_idx c)
      ∧ (nd.end_idx ≤ nd.start_idx → sweep_stop st nd ft = nd.start_idx)
      ∧ (nd.start_idx < nd.end_idx →
          |vec_get st.feature_values nd.end_idx 0
            - vec_get st.feature_values (nd.end_idx - 1) 0| < ft →
          sweep_stop st nd ft = nd.end_idx + 1)
      ∧ (nd.start_idx < nd.end_idx →
          ft ≤ |vec_get st.feature_values nd.end_idx 0
            - vec_get st.feature_values (nd.end_idx - 1) 0| →
          sweep_stop st nd ft = nd.end_idx) := by
  obtain ⟨h0, h1, he, hns⟩ := hnd
  obtain ⟨hL, hR⟩ := find_best_split_sweep_stop st nd ft ms sp
  have hp := sweep_stop_range st nd ft h1
  have hr := moved_right_eq_right_counts st nd (sweep_stop st nd ft - 1) h0
    (by omega) (by omega) he hcc hlen
  rw [sub_add_cancel] at hr
  have sL := count_class_occurences_spec st st.count_left_classes nd.start_idx
    (sweep_stop st nd ft - 1) h0 (by omega) (by omega)
  have sR := count_class_occurences_spec st st.count_right_classes (sweep_stop st nd ft)
    nd.end_idx (by omega) (by omega) he
  have hR' : (find_best_split st nd ft ms sp).1.count_right_classes
      = count_class_occurences st st.count_right_classes (sweep_stop st nd ft)
          nd.end_idx := by
    rw [hR, hr]
    unfold right_counts
    rw [sub_add_cancel]
  refine ⟨by rw [hL]; exact sL.1, by rw [hR']; exact sR.1,
    fun c hc0 hc1 => by rw [hL]; exact sL.2 c hc0 hc1,
    fun c hc0 hc1 => by rw [hR']; exact sR.2 c hc0 hc1, ?_, ?_, ?_⟩
  · intro h
    unfold sweep_stop
    rw [if_neg (by omega)]
  · intro h hc
    unfold sweep_stop
    rw [if_pos (by omega), if_pos hc]
  · intro h hc
    unfold sweep_stop
    rw [if_pos (by omega), if_neg (not_lt.mpr hc)]

end histograms

set_option maxRecDepth 100000 in
/-- Witness of C21: the root of the scenario at the first call of `find_best_split`, with
`feat_thresh = 1/2`. -/
theorem find_best_split_leaves_histograms_at_sweep_stop_witness :
    (∀ c : Int, 0 ≤ c → c < scenario_sorted.count_left_classes.length →
        vec_get (find_best_split scenario_sorted scenario_root (1 / 2) (1 / 2)
            reference_externals.uninit_split).1.count_left_classes c 0
          = class_count scenario_sorted scenario_root.start_idx
              (sweep_stop scenario_sorted scenario_root (1 / 2) - 1) c)
      ∧ (∀ c : Int, 0 ≤ c → c < scenario_sorted.count_right_classes.length →
        vec_get (find_best_split scenario_sorted scenario_root (1 / 2) (1 / 2)
            reference_externals.uninit_split).1.count_right_classes c 0
          = class_count scenario_sorted (sweep_stop scenario_sorted scenario_root (1 / 2))
              scenario_root.end_idx c)
      ∧ sweep_stop scenario_sorted scenario_root (1 / 2) = 3 :=
  ⟨(find_best_split_leaves_histograms_at_sweep_stop scenario_sorted scenario_root (1 / 2)
      (1 / 2) reference_externals.uninit_split (by unfold node_in_range; decide!)
      (by decide!) (by decide!)).2.2.1,
    (find_best_split_leaves_histograms_at_sweep_stop scenario_sorted scenario_root (1 / 2)
      (1 / 2) reference_externals.uninit_split (by unfold node_in_range; decide!)
      (by decide!) (by decide!)).2.2.2.1,
    by decide!⟩

set_option maxRecDepth 100000 in
/-- Counterexample to C21 as stated: at the first call of `find_best_split` in the
scenario (`feat_thresh = 1/2`, sorted values `0, 1, 2, 3`, labels `0, 0, 1, 1`) the class
counts of the node are `[2, 2]`, and on return `count_left_classes = [2, 1]` and
`count_right_classes = [0, 1]`: the last sample is still on the right, so neither
histogram is all zero and neither holds the class counts of the node. -/
theorem histograms_left_mid_sweep_after_last_boundary :
    count_class_occurences scenario_sorted scenario_sorted.count_classes
        scenario_root.start_idx scenario_root.end_idx = [2, 2]
      ∧ (find_best_split scenario_sorted scenario_root (1 / 2) (1 / 2)
          reference_externals.uninit_split).1.count_left_classes = [2, 1]
      ∧ (find_best_split scenario_sorted scenario_root (1 / 2) (1 / 2)
          reference_externals.uninit_split).1.count_right_classes = [0, 1] := by
  decide!

section c22

variable {T : Type} [LinearOrderedField T]

/-- C22: an iteration of the loop of `fit` on a leaf `nd` of the queue (node array in the
maintained shape, `0 ≤ start_idx`, no entry `-1` among the first `nfeat_split` entries of
`features_idx`) ends, and the node is internal afterwards exactly when `find_best_split`
records a split for one of the first `nfeat_split` entries of `features_idx`; the split
applied is then that of the first candidate `j` whose score is the least among all
candidates (every earlier candidate has a strictly larger score): the node gets its
feature and threshold, the left child ends at its split position, the right child starts
right after it, and the children get its left and right scores. -/
theorem node_split_by_first_least_candidate (E : externals T) (fr : fit_frame T)
    (nd : node T) (hok : array_ok fr.st) (hq : popped_idx fr < fr.st.n_nodes)
    (hnd : tree_at fr.st.tree (popped_idx fr) = some nd) (hleaf : nd.is_leaf = true)
    (h0 : 0 ≤ nd.start_idx)
    (hfeat : ∀ j, 0 ≤ j → j < (before_features E fr nd).nfeat_split →
      vec_get (before_features E fr nd).features_idx j 0 ≠ -1) :
    ∃ fr' nd', fit_step E fr = outcome.done fr'
      ∧ tree_at fr'.st.tree (popped_idx fr) = some nd'
      ∧ (nd'.is_leaf = false
          ↔ ∃ j, 0 ≤ j ∧ j < (before_features E fr nd).nfeat_split
              ∧ (candidate E fr nd j).samp_idx ≠ -1)
      ∧ (nd'.is_leaf = false →
          ∃ j l r, 0 ≤ j ∧ j < (before_features E fr nd).nfeat_split
            ∧ (candidate E fr nd j).samp_idx ≠ -1
            ∧ (∀ j', 0 ≤ j' → j' < (before_features E fr nd).nfeat_split →
                (candidate E fr nd j).score ≤ (candidate E fr nd j').score)
            ∧ (∀ j', 0 ≤ j' → j' < j →
                (candidate E fr nd j).score < (candidate E fr nd j').score)
            ∧ nd'.feature = (candidate E fr nd j).feat_idx
            ∧ nd'.x_threshold = (candidate E fr nd j).threshold
            ∧ tree_at fr'.st.tree nd'.left_child_idx = some l
            ∧ tree_at fr'.st.tree nd'.right_child_idx = some r
            ∧ l.start_idx = nd.start_idx ∧ l.end_idx = (candidate E fr nd j).samp_idx
            ∧ r.start_idx = (candidate E fr nd j).samp_idx + 1 ∧ r.end_idx = nd.end_idx
            ∧ l.score = (candidate E fr nd j).left_score
            ∧ r.score = (candidate E fr nd j).right_score) := by
  obtain ⟨hiff, hbest⟩ := after_features_best E fr nd h0 hfeat
  obtain ⟨v, fv, cl, cr, fi, mt, hA⟩ := after_features_frame E fr nd
  have hokA : array_ok (after_features E fr nd).st := by
    rw [hA]; exact ⟨hok.hproba, hok.hN, hok.hfresh⟩
  have hAt : (after_features E fr nd).st.tree = fr.st.tree := by rw [hA]
  have hAn : (after_features E fr nd).st.n_nodes = fr.st.n_nodes := by rw [hA]
  by_cases hb : (after_features E fr nd).best_split.feat_idx = -1
  · refine ⟨_, nd, fit_step_no_split E fr nd hnd hb, ?_, ?_, ?_⟩
    · show tree_at (after_features E fr nd).st.tree (popped_idx fr) = some nd
      rw [hAt]; exact hnd
    · rw [hleaf]
      constructor
      · intro h; exact absurd h (by simp)
      · intro h; exact absurd hb (hiff.mpr h)
    · intro h
      rw [hleaf] at h
      exact absurd h (by simp)
  · have hqA : popped_idx fr < (after_features E fr nd).st.n_nodes := by rw [hAn]; exact hq
    have hndA : tree_at (after_features E fr nd).st.tree (popped_idx fr) = some nd := by
      rw [hAt]; exact hnd
    obtain ⟨j, hj0, hj1, hjr, hbj, hmin, hfirst⟩ := hbest hb
    have hP := split_state_tree_at_parent (after_features E fr nd).st (popped_idx fr) nd
      (after_features E fr nd).best_split hndA hqA
    have hR := split_state_tree_at_right (after_features E fr nd).st (popped_idx fr) nd
      (after_features E fr nd).best_split hokA hqA
    have hL := split_state_tree_at_left (after_features E fr nd).st (popped_idx fr) nd
      (after_features E fr nd).best_split hokA hqA
    refine ⟨_, parent_after (after_features E fr nd).st nd (after_features E fr nd).best_split,
      fit_step_split E fr nd hnd hok hq hb, hP, ?_, ?_⟩
    · constructor
      · intro _; exact hiff.mp hb
      · intro _; rfl
    · intro _
      refine ⟨j, left_child (after_features E fr nd).st (popped_idx fr) nd
          (after_features E fr nd).best_split,
        right_child (after_features E fr nd).st (popped_idx fr) nd
          (after_features E fr nd).best_split,
        hj0, hj1, hjr, hmin, hfirst, ?_, ?_, hL, hR, rfl, ?_, ?_, rfl, ?_, ?_⟩
      · show (after_features E fr nd).best_split.feat_idx = _
        rw [hbj]
      · show (after_features E fr nd).best_split.threshold = _
        rw [hbj]
      · show (after_features E fr nd).best_split.samp_idx = _
        rw [hbj]
      · show (after_features E fr nd).best_split.samp_idx + 1 = _
        rw [hbj]
      · show (after_features E fr nd).best_split.left_score = _
        rw [hbj]
      · show (after_features E fr nd).best_split.right_score = _
        rw [hbj]

end c22

set_option maxRecDepth 100000 in
theorem scenario_entry_features (j : Int) (h0 : 0 ≤ j)
    (h1 : j < (before_features reference_externals scenario_entry scenario_root).nfeat_split) :
    vec_get (before_features reference_externals scenario_entry scenario_root).features_idx
      j 0 ≠ -1 := by
  have e : (before_features reference_externals scenario_entry scenario_root).nfeat_split
      = 1 := by decide!
  rw [e] at h1
  have : j = 0 := by omega
  rw [this]
  decide!

set_option maxRecDepth 100000 in
/-- Witness of C22: the first iteration of the loop of `fit` on the scenario instance, the
root being the node taken from the queue. -/
theorem node_split_by_first_least_candidate_witness :
    ∃ fr' nd', fit_step reference_externals scenario_entry = outcome.done fr'
      ∧ tree_at fr'.st.tree (popped_idx scenario_entry) = some nd'
      ∧ (nd'.is_leaf = false
          ↔ ∃ j, 0 ≤ j
              ∧ j < (before_features reference_externals scenario_entry
                  scenario_root).nfeat_split
              ∧ (candidate reference_externals scenario_entry scenario_root j).samp_idx
                  ≠ -1) :=
  (node_split_by_first_least_candidate reference_externals scenario_entry scenario_root
    (tree_inv_entry reference_externals (scenario_instance (1 / 2) true 1 1) rfl rfl rfl).2.ok
    (by decide!)
    (entry_nodes reference_externals (scenario_instance (1 / 2) true 1 1) rfl rfl
      rfl).2.2.2.2.1
    rfl (by decide!) scenario_entry_features).imp
    (fun _ h => h.imp (fun _ h' => ⟨h'.1, h'.2.1, h'.2.2.1⟩))

section growth_claims

variable {T : Type} [LinearOrderedField T]

/-- C23: in a fitted tree every internal node in use other than the root has
`depth < max_depth`, `n_samples >= min_node_sample` and `score > min_split_score`, so a
node other than the root that fails one of the three is a leaf; and with
`max_depth >= 0` no node in use is deeper than `max_depth`. -/
theorem fitted_internal_nodes_met_expansion_conditions (E : externals T) (hE : E.conforms)
    (st0 st : decision_tree T) (hr : fit_ready st0)
    (hf : fit E st0 = outcome.done (da_status.da_status_success, st)) :
    (∀ k nd, tree_at st.tree k = some nd → k < st.n_nodes → k ≠ 0 → nd.is_leaf = false →
        nd.depth < st.max_depth ∧ st.min_node_sample ≤ nd.n_samples
          ∧ st.min_split_score < nd.score)
      ∧ (∀ k nd, tree_at st.tree k = some nd → k < st.n_nodes → k ≠ 0 →
          ¬ (nd.depth < st.max_depth ∧ st.min_node_sample ≤ nd.n_samples
            ∧ st.min_split_score < nd.score) → nd.is_leaf = true)
      ∧ (0 ≤ st.max_depth → ∀ k nd, tree_at st.tree k = some nd → k < st.n_nodes →
          nd.depth ≤ st.max_depth) := by
  have h := fit_expand_inv E hE st0 st hr hf
  refine ⟨fun k nd hk hkN hk0 hl => h.hexp k nd hk hkN hk0 (Or.inr hl), ?_, ?_⟩
  · intro k nd hk hkN hk0 hc
    cases hl : nd.is_leaf with
    | true => rfl
    | false => exact absurd (h.hexp k nd hk hkN hk0 (Or.inr hl)) hc
  · intro hmd k nd hk hkN
    by_cases hk0 : k = 0
    · rw [hk0] at hk
      rw [h.hroot nd hk]
      exact hmd
    · exact h.hdepth k nd hk hkN hk0

/-- C30: in a fitted tree, for every internal node in use at index `p`, `right_child_idx`
and `left_child_idx` are greater than `p` and less than `n_nodes`, and
`left_child_idx = right_child_idx + 1`; two distinct internal nodes have no child in
common; and `n_nodes = 2 * (number of internal nodes) + 1`. -/
theorem fitted_children_appended_right_then_left (E : externals T) (hE : E.conforms)
    (st0 st : decision_tree T) (hr : fit_ready st0)
    (hf : fit E st0 = outcome.done (da_status.da_status_success, st)) :
    (∀ p nd, tree_at st.tree p = some nd → p < st.n_nodes → nd.is_leaf = false →
        p < nd.right_child_idx ∧ p < nd.left_child_idx
          ∧ nd.right_child_idx < st.n_nodes ∧ nd.left_child_idx < st.n_nodes
          ∧ nd.left_child_idx = nd.right_child_idx + 1)
      ∧ (∀ p p' nd nd', tree_at st.tree p = some nd → tree_at st.tree p' = some nd' →
          p < st.n_nodes → p' < st.n_nodes → nd.is_leaf = false → nd'.is_leaf = false →
          p ≠ p' →
          nd.left_child_idx ≠ nd'.left_child_idx ∧ nd.left_child_idx ≠ nd'.right_child_idx
            ∧ nd.right_child_idx ≠ nd'.left_child_idx
            ∧ nd.right_child_idx ≠ nd'.right_child_idx)
      ∧ st.n_nodes = 2 * (internal_count st : Int) + 1 := by
  obtain ⟨hinv, _⟩ := fit_fitted E hE st0 st hr hf
  have h := fit_layout_inv E hE st0 st hr hf
  refine ⟨?_, h.hinj, h.hcount⟩
  intro p nd hp hpN hl
  have := hinv.tree.hchild p nd hp hpN hl
  exact ⟨this.1, by omega, by omega, this.2.2, this.2.1⟩

end growth_claims

set_option maxRecDepth 100000 in
/-- Witness of C23: the fitted scenario instance. -/
theorem fitted_internal_nodes_met_expansion_conditions_witness :
    (∀ k nd, tree_at scenario_fitted.tree k = some nd → k < scenario_fitted.n_nodes →
        k ≠ 0 → nd.is_leaf = false →
        nd.depth < scenario_fitted.max_depth
          ∧ scenario_fitted.min_node_sample ≤ nd.n_samples
          ∧ scenario_fitted.min_split_score < nd.score)
      ∧ ∀ k nd, tree_at scenario_fitted.tree k = some nd → k < scenario_fitted.n_nodes →
          nd.depth ≤ scenario_fitted.max_depth :=
  ⟨(fitted_internal_nodes_met_expansion_conditions reference_externals
      reference_externals_conforms (scenario_instance (1 / 2) true 1 1) scenario_fitted
      (scenario_instance_ready _ _ _ _) scenario_fit_success).1,
    (fitted_internal_nodes_met_expansion_conditions reference_externals
      reference_externals_conforms (scenario_instance (1 / 2) true 1 1) scenario_fitted
      (scenario_instance_ready _ _ _ _) scenario_fit_success).2.2 (by decide!)⟩

set_option maxRecDepth 100000 in
/-- Witness of C30: the fitted scenario instance, three nodes with one internal node. -/
theorem fitted_children_appended_right_then_left_witness :
    (∀ p nd, tree_at scenario_fitted.tree p = some nd → p < scenario_fitted.n_nodes →
        nd.is_leaf = false →
        p < nd.right_child_idx ∧ p < nd.left_child_idx
          ∧ nd.right_child_idx < scenario_fitted.n_nodes
          ∧ nd.left_child_idx < scenario_fitted.n_nodes
          ∧ nd.left_child_idx = nd.right_child_idx + 1)
      ∧ scenario_fitted.n_nodes = 2 * (internal_count scenario_fitted : Int) + 1
      ∧ internal_count scenario_fitted = 1 :=
  ⟨(fitted_children_appended_right_then_left reference_externals
      reference_externals_conforms (scenario_instance (1 / 2) true 1 1) scenario_fitted
      (scenario_instance_ready _ _ _ _) scenario_fit_success).1,
    (fitted_children_appended_right_then_left reference_externals
      reference_externals_conforms (scenario_instance (1 / 2) true 1 1) scenario_fitted
      (scenario_instance_ready _ _ _ _) scenario_fit_success).2.2,
    by decide!⟩

section c24

variable {T : Type} [LinearOrderedField T]

/-- Without probability tracking `add_node` does not grow a node array that is full: the
new node is written outside the array. -/
theorem add_node_out_of_bounds (st : decision_tree T) (p : Int) (l : Bool) (sc : T)
    (si : Int) (hp : st.predict_proba_opt = false)
    (hlen : (st.tree.length : Int) ≤ st.n_nodes) :
    add_node st p l sc si = outcome.out_of_bounds := by
  have hs : add_node_sized st = st := by
    unfold add_node_sized
    rw [if_pos hlen, hp]
    rfl
  have h2 : tree_at st.tree st.n_nodes = none := by
    unfold tree_at
    split
    · rfl
    · rename_i h0
      rw [List.get?_eq_none]
      omega
  unfold add_node_sized at hs
  unfold add_node
  simp only [hs, h2]
  cases tree_at st.tree p <;> rfl

end c24

/-- C24: the node array is allocated, and grown, only when probability tracking is on.
With probability tracking on, `fit` on an instance ready for it (conforming externals,
build order depth-first or breadth-first) never leaves the node array: it returns success,
with `1 ≤ n_nodes ≤ tree.size()`. With probability tracking off, `fit` started without a
node array reads `tree[0]` of an empty vector, and `add_node` called when `n_nodes` has
reached the size of the array writes the new node outside it; on the scenario data with
probability tracking off, `fit` leaves the array for every `feat_thresh`,
`min_node_sample` and `max_depth`. -/
theorem node_array_allocated_only_with_probability_tracking :
    (∀ (T : Type) [LinearOrderedField T] (E : externals T) (st0 st1 : decision_tree T),
        E.conforms → fit_ready st0 → read_options st0 = some st1 →
        st1.predict_proba_opt = true → valid_build_order st1 →
        ∃ st, fit E st0 = outcome.done (da_status.da_status_success, st)
          ∧ 1 ≤ st.n_nodes ∧ st.n_nodes ≤ st.tree.length)
      ∧ (∀ (T : Type) [LinearOrderedField T] (E : externals T) (st0 st1 : decision_tree T),
          st0.model_trained = false → st0.tree = [] → read_options st0 = some st1 →
          st1.predict_proba_opt = false → fit E st0 = outcome.out_of_bounds)
      ∧ (∀ (T : Type) [LinearOrderedField T] (st : decision_tree T) (p : Int) (l : Bool)
          (sc : T) (si : Int), st.predict_proba_opt = false →
          (st.tree.length : Int) ≤ st.n_nodes →
          add_node st p l sc si = outcome.out_of_bounds)
      ∧ (∀ (ft : ℚ) (mns md : Int),
          fit reference_externals (scenario_instance ft false mns md)
            = outcome.out_of_bounds) := by
  refine ⟨?_, ?_, ?_, ?_⟩
  · intro T _ E st0 st1 hE hr ho hp hbo
    obtain ⟨st, hf⟩ := fit_succeeds E hE st0 st1 hr ho hp hbo
    have hinv := fit_tree_inv E st0 st hr hf
    exact ⟨st, hf, hinv.1.ok.hN.1, hinv.1.ok.hN.2⟩
  · intro T _ E st0 st1 ht hn ho hp
    exact fit_out_of_bounds E st0 st1 ht hn ho hp
  · intro T _ st p l sc si hp hlen
    exact add_node_out_of_bounds st p l sc si hp hlen
  · intro ft mns md
    exact fit_out_of_bounds reference_externals (scenario_instance ft false mns md)
      (scenario_instance ft false mns md) rfl rfl rfl rfl

section c27

variable {T : Type} [LinearOrderedField T]

/-- C27: without bootstrap and with `nfeat_split` equal to `0` or at least `n_features`,
the tree does not depend on the seed. Let two untrained instances have the same data and
options but for the seed (and the state of the random engine and the options registry
that carries the seed), and let the second run draw another value from
`std::random_device`. Then `fit` on the second instance ends as `fit` on the first one
does, and the instance it returns is that of the first run with the seed and the engine
state of the second: when the first run succeeds, so does the second, with the same node
array, `n_nodes`, `n_leaves`, `depth` and `class_props`, hence the same results of
`predict` and `predict_proba` on every query. In the first run `features_idx` is never
reordered and the engine is left in the state in which the seed put it: no number is
drawn. -/
theorem fit_without_draws_ignores_seed (E : externals T) (r s : Int) (g : Nat)
    (o : Option (tree_options T)) (st0 st0' st1 : decision_tree T)
    (ht : st0.model_trained = false) (ht' : st0'.model_trained = false)
    (ho : read_options st0 = some st1)
    (ho' : read_options st0' = some (reseed s g o st1))
    (hb : st1.bootstrap = false)
    (hn : st1.nfeat_split = 0 ∨ st1.n_features ≤ st1.nfeat_split) :
    fit { E with random_device := r } st0'
        = reseed_result (resolved_seed r s) (E.mt_seed (resolved_seed r s)) o (fit E st0)
      ∧ ∀ st, fit E st0 = outcome.done (da_status.da_status_success, st) →
          st.features_idx = st1.features_idx
          ∧ st.mt_engine = E.mt_seed (resolved_seed E.random_device st1.seed)
          ∧ ∃ st', fit { E with random_device := r } st0'
                = outcome.done (da_status.da_status_success, st')
              ∧ st'.tree = st.tree ∧ st'.n_nodes = st.n_nodes ∧ st'.n_leaves = st.n_leaves
              ∧ st'.depth = st.depth ∧ st'.class_props = st.class_props
              ∧ (∀ (E2 : externals T) (nsamp nfeat : Int) (X_test : Option (Int → T))
                  (ldx_test : Int) (y_pred : Option (List Int)) (mode : Int),
                  predict E2 st' nsamp nfeat X_test ldx_test y_pred mode
                    = predict E2 st nsamp nfeat X_test ldx_test y_pred mode)
              ∧ (∀ (E2 : externals T) (nsamp nfeat : Int) (X_test : Option (Int → T))
                  (ldx_test : Int) (y_proba_pred : Option (Int → T)) (nclass ldy mode : Int),
                  predict_proba E2 st' nsamp nfeat X_test ldx_test y_proba_pred nclass ldy
                      mode
                    = predict_proba E2 st nsamp nfeat X_test ldx_test y_proba_pred nclass ldy
                      mode) := by
  have h1 := fit_reseed E r s g o st0 st0' st1 ht ht' ho ho' hb hn
  refine ⟨h1, ?_⟩
  intro st hf
  have he := fit_engine E st0 st1 st _ ht ho hb hn hf
  refine ⟨he.1, he.2,
    reseed (resolved_seed r s) (E.mt_seed (resolved_seed r s)) o st, ?_, rfl, rfl, rfl, rfl,
    rfl, ?_, ?_⟩
  · rw [h1, hf]
    rfl
  · intro E2 nsamp nfeat X_test ldx_test y_pred mode
    rfl
  · intro E2 nsamp nfeat X_test ldx_test y_proba_pred nclass ldy mode
    rfl

end c27

set_option maxRecDepth 100000 in
/-- Witness of C27: the scenario instance (no bootstrap, `nfeat_split = 0`, seed 42) and
the same instance with the seed 7, run with another draw of `std::random_device`. -/
theorem fit_without_draws_ignores_seed_witness :
    (scenario_instance (1 / 2) true 1 1).model_trained = false
      ∧ read_options (reseed 7 0 none (scenario_instance (1 / 2) true 1 1))
          = some (reseed 7 0 none (scenario_instance (1 / 2) true 1 1))
      ∧ (scenario_instance (1 / 2) true 1 1).bootstrap = false
      ∧ (scenario_instance (1 / 2) true 1 1).nfeat_split = 0
      ∧ (scenario_instance (1 / 2) true 1 1).seed = 42
      ∧ ∃ st', fit { reference_externals with random_device := 3 }
              (reseed 7 0 none (scenario_instance (1 / 2) true 1 1))
            = outcome.done (da_status.da_status_success, st')
          ∧ st'.tree = scenario_fitted.tree ∧ st'.n_nodes = scenario_fitted.n_nodes
          ∧ st'.n_leaves = scenario_fitted.n_leaves :=
  ⟨rfl, rfl, rfl, rfl, rfl,
    (((fit_without_draws_ignores_seed reference_externals 3 7 0 none
      (scenario_instance (1 / 2) true 1 1)
      (reseed 7 0 none (scenario_instance (1 / 2) true 1 1))
      (scenario_instance (1 / 2) true 1 1) rfl rfl rfl rfl rfl (Or.inl rfl)).2
        scenario_fitted scenario_fit_success).2.2).imp
      (fun _ h => ⟨h.1, h.2.1, h.2.2.1, h.2.2.2.1⟩)⟩

/-! ## One induction principle for the loop of `fit` -/

section induct

variable {T : Type} [LinearOrderedField T]

/-- A property of the instance that holds on entry of the loop of `fit` and that every
iteration keeps holds of the instance on exit of the loop; the instance that `fit` returns
is that one, marked trained. -/
theorem fit_induct (E : externals T) (hE : E.conforms) (st0 st : decision_tree T)
    (hr : fit_ready st0) (hf : fit E st0 = outcome.done (da_status.da_status_success, st)) :
    ∃ st1, read_options st0 = some st1 ∧ st1.predict_proba_opt = true
      ∧ st1.tree = [] ∧ st1.nodes_to_treat = [] ∧ 0 ≤ st1.n_obs
      ∧ st1.samples_idx.length = st1.n_obs.toNat
      ∧ st1.feature_values.length = st1.n_obs.toNat
      ∧ st1.count_classes.length = st1.n_class.toNat
      ∧ ∀ P : decision_tree T → Prop,
          P (queue_root (rooted (configured E st1))) →
          (∀ fr fr', loop_inv fr.st → P fr.st → fr.st.nodes_to_treat ≠ [] →
            fit_step E fr = outcome.done fr' → P fr'.st) →
          ∃ s, P s ∧ loop_inv s ∧ s.nodes_to_treat = []
            ∧ same_settings (queue_root (rooted (configured E st1))) s
            ∧ st = { s with model_trained := true } := by
  obtain ⟨st1, fr, ho, hp, hl, e⟩ := fit_done_unfold E st0 st _ hr hf rfl
  obtain ⟨pp, md, me, mns, mss, bo, nf', sd', ft, mi, pt, sm, e1⟩ :=
    read_options_frame st0 st1 ho
  have ht1 : st1.tree = [] := by rw [e1]; exact hr.no_tree
  have hq1 : st1.nodes_to_treat = [] := by rw [e1]; exact hr.no_queue
  have hobs : 0 ≤ st1.n_obs := by rw [e1]; exact hr.n_obs_nonneg
  have hls : st1.samples_idx.length = st1.n_obs.toNat := by rw [e1]; exact hr.len_samples
  have hlv : st1.feature_values.length = st1.n_obs.toNat := by rw [e1]; exact hr.len_values
  have hlc : st1.count_classes.length = st1.n_class.toNat := by rw [e1]; exact hr.len_counts
  refine ⟨st1, ho, hp, ht1, hq1, hobs, hls, hlv, hlc, ?_⟩
  intro P hP0 hPstep
  have hentry : loop_inv (queue_root (rooted (configured E st1))) :=
    ⟨fit_inv_entry E st1 ht1 hq1 hp hobs hls hlv hlc, expand_inv_entry E st1 ht1 hq1 hp,
      leaf_inv_entry E st1 ht1 hq1 hp hls, layout_inv_entry E st1 ht1 hq1 hp⟩
  have := fit_loop_ind E
    (fun fr => loop_inv fr.st ∧ P fr.st
      ∧ same_settings (queue_root (rooted (configured E st1))) fr.st)
    (fun fr fr' h hne hs =>
      ⟨⟨fit_inv_step E hE fr fr' h.1.fit hne hs,
          expand_inv_step E hE fr fr' h.1.fit h.1.expand hne hs,
          leaf_inv_step E hE fr fr' h.1.fit h.1.leaf hne hs,
          layout_inv_step E hE fr fr' h.1.fit h.1.layout hne hs⟩,
        hPstep fr fr' h.1 h.2.1 hne hs,
        same_settings_trans h.2.2 (same_settings_step E fr fr' h.1.fit.tree hne hs)⟩)
    _ _ fr ⟨hentry, hP0, same_settings_refl _⟩ hl
  exact ⟨fr.st, this.1.2.1, this.1.1, this.2, this.1.2.2, e⟩

/-- An iteration of the loop of `fit` rearranges the range of the node it takes from the
queue and nothing else of `samples_idx`. -/
theorem fit_step_perm (E : externals T) (hE : E.conforms) (fr fr' : fit_frame T)
    (hi : fit_inv fr.st) (hne : fr.st.nodes_to_treat ≠ [])
    (hs : fit_step E fr = outcome.done fr') :
    ∃ nd, tree_at fr.st.tree (popped_idx fr) = some nd
      ∧ popped_idx fr ∈ fr.st.nodes_to_treat
      ∧ perm_within fr.st.samples_idx fr'.st.samples_idx nd.start_idx nd.end_idx := by
  obtain ⟨nd, hnd, hmem, hpop⟩ := popped_of_done E fr fr' hne hs
  have hq := hi.tree.hqueue _ hmem
  have hf := step_facts_of_inv E hE fr nd hi.tree hi.range hnd hpop
  refine ⟨nd, hnd, hmem, ?_⟩
  rcases fit_step_cases E fr fr' nd hnd hi.tree.ok hq hs with ⟨_, e⟩ | ⟨hb, e⟩
  · rw [e]; exact hf.hperm
  · rw [e]; exact perm_within_trans hf.hperm (split_state_perm E fr nd hf hb)

end induct

/-! ## The counters `n_leaves` and `depth` -/

section counters

variable {T : Type} [LinearOrderedField T]

theorem leaf_count_add_internal (st : decision_tree T) (hok : array_ok st) :
    leaf_count st + internal_count st = st.n_nodes.toNat := by
  unfold leaf_count internal_count
  have h1 : (List.range st.n_nodes.toNat).countP (internal_at st.tree)
      = (List.range st.n_nodes.toNat).countP (fun k => ! leaf_at st.tree k) := by
    apply List.countP_congr
    intro k hk
    have hk' : k < st.n_nodes.toNat := List.mem_range.mp hk
    obtain ⟨nd, hnd⟩ := tree_at_of_bounds st.tree (k : Int) (by omega)
      (by have := hok.hN.2; omega)
    unfold internal_at leaf_at
    rw [hnd]
  have h2 : (List.range st.n_nodes.toNat).countP (fun a => decide ¬ leaf_at st.tree a = true)
      = (List.range st.n_nodes.toNat).countP (fun k => ! leaf_at st.tree k) := by
    apply List.countP_congr
    intro k _
    simp
  have := List.length_eq_countP_add_countP (leaf_at st.tree)
    (l := List.range st.n_nodes.toNat)
  rw [List.length_range, h2, ← h1] at this
  omega

theorem enqueued_count (st : decision_tree T) (s : T) (c : node T) :
    (enqueued st s c).n_leaves + ((enqueued st s c).nodes_to_treat.length : Int)
      = st.n_leaves + (st.nodes_to_treat.length : Int) + 1 := by
  unfold enqueued
  split
  · show st.n_leaves + ((st.nodes_to_treat ++ [st.n_nodes - 1]).length : Int) = _
    rw [List.length_append]
    simp
    ring
  · show st.n_leaves + 1 + (st.nodes_to_treat.length : Int) = _
    ring

theorem split_state_count (stA : decision_tree T) (q : Int) (nd : node T) (b : split T) :
    (split_state stA q nd b).n_leaves
        + ((split_state stA q nd b).nodes_to_treat.length : Int)
      = stA.n_leaves + (stA.nodes_to_treat.length : Int) + 2 := by
  unfold split_state
  rw [enqueued_count]
  have e1 : (with_child (right_added stA q nd b) q true b.left_score b.samp_idx
      (linked_parent (after_partition stA q nd b) (split_node nd b) false)).n_leaves
      = (right_added stA q nd b).n_leaves := rfl
  have e2 : (with_child (right_added stA q nd b) q true b.left_score b.samp_idx
      (linked_parent (after_partition stA q nd b) (split_node nd b) false)).nodes_to_treat
      = (right_added stA q nd b).nodes_to_treat := rfl
  rw [e1, e2]
  unfold right_added
  rw [enqueued_count]
  have e3 : (with_child (after_partition stA q nd b) q false b.right_score b.samp_idx
      (split_node nd b)).n_leaves = stA.n_leaves := rfl
  have e4 : (with_child (after_partition stA q nd b) q false b.right_score b.samp_idx
      (split_node nd b)).nodes_to_treat = stA.nodes_to_treat := rfl
  rw [e3, e4]
  ring

theorem enqueued_depth (st : decision_tree T) (s : T) (c : node T) :
    (enqueued st s c).depth = st.depth := by
  unfold enqueued; split <;> rfl

/-- The member `depth` after an iteration that splits a node of depth `d`: the larger of
its value before and `d + 1`. -/
theorem split_state_depth (stA : decision_tree T) (q : Int) (nd : node T) (b : split T) :
    (split_state stA q nd b).depth = max stA.depth (nd.depth + 1) := by
  unfold split_state
  rw [enqueued_depth]
  have e1 : (with_child (right_added stA q nd b) q true b.left_score b.samp_idx
      (linked_parent (after_partition stA q nd b) (split_node nd b) false)).depth
      = if nd.depth + 1 > (right_added stA q nd b).depth then nd.depth + 1
        else (right_added stA q nd b).depth := rfl
  have e2 : (right_added stA q nd b).depth
      = if nd.depth + 1 > stA.depth then nd.depth + 1 else stA.depth := by
    unfold right_added
    rw [enqueued_depth]
    rfl
  rw [e1, e2]
  by_cases h : nd.depth + 1 > stA.depth
  · rw [if_pos h, if_neg (by omega), max_eq_right (by omega)]
  · rw [if_neg h, if_neg h, max_eq_left (by omega)]

/-- The counters and the queue on the two exits of an iteration. -/
theorem fit_step_counters (E : externals T) (hE : E.conforms) (fr fr' : fit_frame T)
    (hi : fit_inv fr.st) (hne : fr.st.nodes_to_treat ≠ [])
    (hs : fit_step E fr = outcome.done fr') :
    ∃ nd, tree_at fr.st.tree (popped_idx fr) = some nd
      ∧ popped_idx fr ∈ fr.st.nodes_to_treat
      ∧ ((fr'.st.tree = fr.st.tree ∧ fr'.st.n_nodes = fr.st.n_nodes
            ∧ fr'.st.depth = fr.st.depth
            ∧ fr'.st.n_leaves + (fr'.st.nodes_to_treat.length : Int)
                = fr.st.n_leaves + (fr.st.nodes_to_treat.length : Int))
          ∨ (fr'.st = split_state (after_features E fr nd).st (popped_idx fr) nd
                (after_features E fr nd).best_split
            ∧ fr'.st.n_nodes = fr.st.n_nodes + 2
            ∧ fr'.st.depth = max fr.st.depth (nd.depth + 1)
            ∧ fr'.st.n_leaves + (fr'.st.nodes_to_treat.length : Int)
                = fr.st.n_leaves + (fr.st.nodes_to_treat.length : Int) + 1)) := by
  obtain ⟨nd, hnd, hmem, hpop⟩ := popped_of_done E fr fr' hne hs
  have hq := hi.tree.hqueue _ hmem
  have hf := step_facts_of_inv E hE fr nd hi.tree hi.range hnd hpop
  obtain ⟨v, fv, cl, cr, fi, mt, hA⟩ := after_features_frame E fr nd
  have hAl : (after_features E fr nd).st.n_leaves = fr.st.n_leaves := by rw [hA]
  have hAd : (after_features E fr nd).st.depth = fr.st.depth := by rw [hA]
  have hlen : (fr.st.nodes_to_treat.length : Int)
      = ((after_features E fr nd).st.nodes_to_treat.length : Int) + 1 := by
    rw [hf.hAq]
    rcases hpop with hp | hp
    · rw [hp]; simp
    · rw [hp]; simp
  refine ⟨nd, hnd, hmem, ?_⟩
  rcases fit_step_cases E fr fr' nd hnd hi.tree.ok hq hs with ⟨_, e⟩ | ⟨hb, e⟩
  · left
    rw [e]
    refine ⟨hf.hAt, hf.hAn, hAd, ?_⟩
    show (after_features E fr nd).st.n_leaves + 1
      + ((after_features E fr nd).st.nodes_to_treat.length : Int) = _
    rw [hAl, hlen]
    ring
  · right
    refine ⟨e, ?_, ?_, ?_⟩
    · rw [e, split_state_n_nodes, hf.hAn]
    · rw [e, split_state_depth, hAd]
    · rw [e, split_state_count, hAl, hlen]
      ring

theorem count_inv_step (E : externals T) (hE : E.conforms) (c : Int) (fr fr' : fit_frame T)
    (hi : fit_inv fr.st) (h : count_inv c fr.st) (hne : fr.st.nodes_to_treat ≠ [])
    (hs : fit_step E fr = outcome.done fr') : count_inv c fr'.st := by
  obtain ⟨nd, _, _, hc⟩ := fit_step_counters E hE fr fr' hi hne hs
  unfold count_inv at h ⊢
  rcases hc with ⟨_, hn, _, hl⟩ | ⟨_, hn, _, hl⟩
  · rw [hn, hl]
    exact h
  · rw [hn]
    omega

/-- The two ways in which an iteration of the loop of `fit` ends, and what they share. -/
theorem fit_step_view (E : externals T) (hE : E.conforms) (fr fr' : fit_frame T)
    (hi : fit_inv fr.st) (hne : fr.st.nodes_to_treat ≠ [])
    (hs : fit_step E fr = outcome.done fr') :
    ∃ nd, tree_at fr.st.tree (popped_idx fr) = some nd
      ∧ popped_idx fr ∈ fr.st.nodes_to_treat
      ∧ popped_idx fr < fr.st.n_nodes
      ∧ nd.is_leaf = true
      ∧ step_facts E fr nd
      ∧ perm_within fr.st.samples_idx fr'.st.samples_idx nd.start_idx nd.end_idx
      ∧ same_settings fr.st fr'.st
      ∧ (leaf_view E fr fr' nd ∨ split_view E fr fr' nd) := by
  obtain ⟨nd, hnd, hmem, hpop⟩ := popped_of_done E fr fr' hne hs
  have hq := hi.tree.hqueue _ hmem
  have hf := step_facts_of_inv E hE fr nd hi.tree hi.range hnd hpop
  have hss := same_settings_step E fr fr' hi.tree hne hs
  have hqA : popped_idx fr < (after_features E fr nd).st.n_nodes := by
    rw [hf.hAn]; exact hq
  have hndA : tree_at (after_features E fr nd).st.tree (popped_idx fr) = some nd := by
    rw [hf.hAt]; exact hnd
  refine ⟨nd, hnd, hmem, hq, hi.range.hqleaf _ hmem nd hnd, hf, ?_, hss, ?_⟩
  · rcases fit_step_cases E fr fr' nd hnd hi.tree.ok hq hs with ⟨_, e⟩ | ⟨hb, e⟩
    · rw [e]; exact hf.hperm
    · rw [e]; exact perm_within_trans hf.hperm (split_state_perm E fr nd hf hb)
  · rcases fit_step_cases E fr fr' nd hnd hi.tree.ok hq hs with ⟨hb, e⟩ | ⟨hb, e⟩
    · left
      exact ⟨hb, e, by rw [e]; exact hf.hAt, by rw [e]; exact hf.hAn⟩
    · right
      refine ⟨hb, e, by rw [e, split_state_n_nodes, hf.hAn], ?_, ?_, ?_, ?_, hf.hfi.hbest hb⟩
      · rw [e]; exact split_state_tree_at_parent _ _ nd _ hndA hqA
      · rw [e, ← hf.hAn]; exact split_state_tree_at_right _ _ nd _ hf.hokA hqA
      · rw [e, ← hf.hAn]; exact split_state_tree_at_left _ _ nd _ hf.hokA hqA
      · intro k hk1 hk2
        rw [e, split_state_tree_at_other _ _ nd _ hf.hokA k hk1 (by rw [hf.hAn]; exact hk2),
          hf.hAt]

/-- The nodes in use after an iteration that splits a node are the node, its two children
and the nodes in use before. -/
theorem split_view_nodes (E : externals T) (fr fr' : fit_frame T) (nd : node T)
    (hv : split_view E fr fr' nd) (hq0 : 0 ≤ popped_idx fr)
    (k : Int) (kd : node T)
    (hk : tree_at fr'.st.tree k = some kd) (hkN : k < fr'.st.n_nodes) :
    (k = popped_idx fr
        ∧ kd = parent_after (after_features E fr nd).st nd (after_features E fr nd).best_split)
      ∨ (k = fr.st.n_nodes
        ∧ kd = right_child (after_features E fr nd).st (popped_idx fr) nd
            (after_features E fr nd).best_split)
      ∨ (k = fr.st.n_nodes + 1
        ∧ kd = left_child (after_features E fr nd).st (popped_idx fr) nd
            (after_features E fr nd).best_split)
      ∨ (k ≠ popped_idx fr ∧ k < fr.st.n_nodes ∧ tree_at fr.st.tree k = some kd) := by
  rw [hv.hn] at hkN
  by_cases hkq : k = popped_idx fr
  · left
    rw [hkq, hv.hpar] at hk
    exact ⟨hkq, (Option.some.inj hk).symm⟩
  · by_cases hk2 : k < fr.st.n_nodes
    · right; right; right
      rw [hv.hother k hkq hk2] at hk
      exact ⟨hkq, hk2, hk⟩
    · have hk' : k = fr.st.n_nodes ∨ k = fr.st.n_nodes + 1 := by omega
      rcases hk' with hk' | hk'
      · right; left
        rw [hk', hv.hright] at hk
        exact ⟨hk', (Option.some.inj hk).symm⟩
      · right; right; left
        rw [hk', hv.hleft] at hk
        exact ⟨hk', (Option.some.inj hk).symm⟩

theorem depth_inv_step (E : externals T) (hE : E.conforms) (d0 : Int) (fr fr' : fit_frame T)
    (hi : fit_inv fr.st) (h : depth_inv d0 fr.st) (hne : fr.st.nodes_to_treat ≠ [])
    (hs : fit_step E fr = outcome.done fr') : depth_inv d0 fr'.st := by
  obtain ⟨nd, hnd, hmem, hq, hleaf, hf, hperm, hss, hv⟩ := fit_step_view E hE fr fr' hi hne hs
  obtain ⟨v, fv, cl, cr, fi, mt, hA⟩ := after_features_frame E fr nd
  have hAd : (after_features E fr nd).st.depth = fr.st.depth := by rw [hA]
  rcases hv with hv | hv
  · have hd : fr'.st.depth = fr.st.depth := by rw [hv.heq]; exact hAd
    refine ⟨?_, ?_, ?_, ?_⟩
    · intro k kd hk hkN
      rw [hv.htree] at hk; rw [hv.hn] at hkN; rw [hd]
      exact h.hle k kd hk hkN
    · intro k kd hk hkN
      rw [hv.htree] at hk; rw [hv.hn] at hkN
      exact h.hnn k kd hk hkN
    · rw [hd]; exact h.hmono
    · rw [hd, hv.htree, hv.hn]; exact h.hmax
  · have hd : fr'.st.depth = max fr.st.depth (nd.depth + 1) := by
      rw [hv.heq, split_state_depth, hAd]
    have hq0 : 0 ≤ popped_idx fr := (tree_at_bounds hnd).1
    have hnd0 := h.hnn _ nd hnd hq
    have hndd := h.hle _ nd hnd hq
    have hRf := right_child_fields (after_features E fr nd).st (popped_idx fr) nd
      (after_features E fr nd).best_split
    have hLf := left_child_fields (after_features E fr nd).st (popped_idx fr) nd
      (after_features E fr nd).best_split
    refine ⟨?_, ?_, ?_, ?_⟩
    · intro k kd hk hkN
      rw [hd]
      rcases split_view_nodes E fr fr' nd hv hq0 k kd hk hkN with ⟨_, e⟩ | ⟨_, e⟩ | ⟨_, e⟩
          | ⟨_, hk2, hk3⟩
      · rw [e]
        exact le_trans hndd (le_max_left _ _)
      · rw [e, hRf.2.2.2.1]; exact le_max_right _ _
      · rw [e, hLf.2.2.2.1]; exact le_max_right _ _
      · exact le_trans (h.hle k kd hk3 hk2) (le_max_left _ _)
    · intro k kd hk hkN
      rcases split_view_nodes E fr fr' nd hv hq0 k kd hk hkN with ⟨_, e⟩ | ⟨_, e⟩ | ⟨_, e⟩
          | ⟨_, hk2, hk3⟩
      · rw [e]; exact hnd0
      · rw [e, hRf.2.2.2.1]; omega
      · rw [e, hLf.2.2.2.1]; omega
      · exact h.hnn k kd hk3 hk2
    · rw [hd]; exact le_trans h.hmono (le_max_left _ _)
    · rw [hd]
      by_cases hc : fr.st.depth < nd.depth + 1
      · right
        refine ⟨fr.st.n_nodes, _, hv.hright, by rw [hv.hn]; omega, ?_⟩
        rw [hRf.2.2.2.1, max_eq_right (le_of_lt hc)]
      · rw [max_eq_left (by omega)]
        rcases h.hmax with h1 | ⟨k, kd, hk, hkN, hkd⟩
        · exact Or.inl h1
        · right
          by_cases hkq : k = popped_idx fr
          · rw [hkq, hnd] at hk
            have e := Option.some.inj hk
            refine ⟨popped_idx fr, _, hv.hpar, by rw [hv.hn]; omega, ?_⟩
            rw [← hkd, ← e]
            rfl
          · exact ⟨k, kd, by rw [hv.hother k hkq hkN]; exact hk, by rw [hv.hn]; omega, hkd⟩

theorem depth_inv_entry (E : externals T) (st1 : decision_tree T) (hn : st1.tree = [])
    (hq : st1.nodes_to_treat = []) (hp : st1.predict_proba_opt = true)
    (hd : 0 ≤ st1.depth) :
    depth_inv st1.depth (queue_root (rooted (configured E st1))) := by
  obtain ⟨hN, _, _, _, h0, hall⟩ := entry_nodes E st1 hn hq hp
  obtain ⟨queue, eq, _⟩ := queue_root_frame (rooted (configured E st1))
  have hdepth : (queue_root (rooted (configured E st1))).depth = st1.depth := by
    rw [eq]
    show (configured E st1).depth = st1.depth
    obtain ⟨sf, nf, sd, mt, v, e, _⟩ := configured_frame E st1
    rw [e]
  refine ⟨?_, ?_, by rw [hdepth], Or.inl hdepth⟩
  · intro k kd hk hkN
    rw [(hall k kd hk hkN).2, hdepth]
    exact hd
  · intro k kd hk hkN
    rw [(hall k kd hk hkN).2]
    exact le_refl _

theorem count_inv_entry (E : externals T) (st1 : decision_tree T) (hn : st1.tree = [])
    (hq : st1.nodes_to_treat = []) (hp : st1.predict_proba_opt = true) :
    count_inv (if 0 < st1.max_depth then 1 else 0) (queue_root (rooted (configured E st1))) := by
  obtain ⟨hN, _, _, _, h0, hall⟩ := entry_nodes E st1 hn hq hp
  have hqe : (rooted (configured E st1)).nodes_to_treat = [] := by
    show (configured E st1).nodes_to_treat = []
    rw [(configured_settings E st1).2.2.2.2.2.2.2.2.2.2.2.2.2.2.2.2.2.1]; exact hq
  have hmd : (rooted (configured E st1)).max_depth = st1.max_depth :=
    (configured_settings E st1).1
  unfold count_inv
  rw [hN]
  unfold queue_root
  by_cases hc : 0 < st1.max_depth
  · have hc' : (rooted (configured E st1)).max_depth > 0 := by rw [hmd]; exact hc
    rw [if_pos hc', if_pos hc]
    show 2 * ((0 : Int) + (((rooted (configured E st1)).nodes_to_treat ++ [0]).length : Int))
      = 1 - 1 + 2 * 1
    rw [hqe]
    rfl
  · have hc' : ¬ (rooted (configured E st1)).max_depth > 0 := by rw [hmd]; exact hc
    rw [if_neg hc', if_neg hc]
    show 2 * ((0 : Int) + ((rooted (configured E st1)).nodes_to_treat.length : Int))
      = 1 - 1 + 2 * 0
    rw [hqe]
    rfl

end counters

/-! ## The label and the score of a node against its final range -/

section stats

variable {T : Type} [LinearOrderedField T]

theorem filter_append_of_split {α : Type} (l1 l2 : List α) (p : α → Bool)
    (h1 : ∀ x ∈ l1, p x = true) (h2 : ∀ x ∈ l2, p x = false) :
    (l1 ++ l2).filter p = l1 ∧ (l1 ++ l2).filter (fun x => ! p x) = l2 := by
  constructor
  · rw [List.filter_append, List.filter_eq_self.mpr h1, List.filter_eq_nil_iff.mpr
      (fun x hx => by simp [h2 x hx]), List.append_nil]
  · rw [List.filter_append, List.filter_eq_nil_iff.mpr (fun x hx => by simp [h1 x hx]),
      List.filter_eq_self.mpr (fun x hx => by simp [h2 x hx]), List.nil_append]

/-- Two ranges split at `t` by the same predicate, the one a rearrangement of the other,
hold the same samples on each side of `t`. -/
theorem sides_perm (v w : List Int) (a t b : Int) (p : Int → Bool) (h0 : 0 ≤ a)
    (h1 : a ≤ t + 1) (h2 : t ≤ b) (hv : b < v.length) (hw : b < w.length)
    (hperm : (seg w a b).Perm (seg v a b))
    (hvL : ∀ i, a ≤ i → i ≤ t → p (vec_get v i 0) = true)
    (hvR : ∀ i, t + 1 ≤ i → i ≤ b → p (vec_get v i 0) = false)
    (hwL : ∀ i, a ≤ i → i ≤ t → p (vec_get w i 0) = true)
    (hwR : ∀ i, t + 1 ≤ i → i ≤ b → p (vec_get w i 0) = false) :
    (seg w a t).Perm (seg v a t) ∧ (seg w (t + 1) b).Perm (seg v (t + 1) b) := by
  have ev := seg_split v a t b h0 h1 h2
  have ew := seg_split w a t b h0 h1 h2
  have fv := filter_append_of_split (seg v a t) (seg v (t + 1) b) p
    (fun x hx => by
      obtain ⟨i, hi1, hi2, rfl⟩ := (mem_seg_iff v a t 0 x h0 (by omega)).mp hx
      exact hvL i hi1 hi2)
    (fun x hx => by
      obtain ⟨i, hi1, hi2, rfl⟩ := (mem_seg_iff v (t + 1) b 0 x (by omega) hv).mp hx
      exact hvR i hi1 hi2)
  have fw := filter_append_of_split (seg w a t) (seg w (t + 1) b) p
    (fun x hx => by
      obtain ⟨i, hi1, hi2, rfl⟩ := (mem_seg_iff w a t 0 x h0 (by omega)).mp hx
      exact hwL i hi1 hi2)
    (fun x hx => by
      obtain ⟨i, hi1, hi2, rfl⟩ := (mem_seg_iff w (t + 1) b 0 x (by omega) hw).mp hx
      exact hwR i hi1 hi2)
  rw [← ev] at fv
  rw [← ew] at fw
  constructor
  · rw [← fv.1, ← fw.1]
    exact hperm.filter p
  · rw [← fv.2, ← fw.2]
    exact hperm.filter _

theorem class_count_of_perm (st st' : decision_tree T) (hy : st'.y = st.y) (a b : Int)
    (h : (seg st'.samples_idx a b).Perm (seg st.samples_idx a b)) (c : Int) :
    class_count st' a b c = class_count st a b c := by
  unfold class_count
  rw [hy]
  exact (h.map st.y).count_eq c

/-- The class counts of a range depend on the samples it holds, not on their order, and on
the size of the vector they are counted into. -/
theorem count_class_occurences_congr (st st' : decision_tree T) (occ occ' : List Int)
    (hy : st'.y = st.y) (hlen : occ'.length = occ.length) (a b : Int) (h0 : 0 ≤ a)
    (h1 : a ≤ b + 1) (hb : b < st.samples_idx.length) (hb' : b < st'.samples_idx.length)
    (h : (seg st'.samples_idx a b).Perm (seg st.samples_idx a b)) :
    count_class_occurences st' occ' a b = count_class_occurences st occ a b := by
  obtain ⟨l1, e1⟩ := count_class_occurences_spec st occ a b h0 h1 hb
  obtain ⟨l2, e2⟩ := count_class_occurences_spec st' occ' a b h0 h1 hb'
  apply list_eq_of_vec_get _ _ (by rw [l1, l2, hlen])
  intro c hc0 hc1
  rw [l2] at hc1
  rw [e2 c hc0 hc1, e1 c hc0 (by rw [← hlen]; exact hc1), class_count_of_perm st st' hy a b h]

theorem length_moved_right (st : decision_tree T) (nd : node T) (p : Int) :
    (moved_right st nd p).length = (vec_copy st.count_classes st.count_right_classes).length := by
  unfold moved_right
  by_cases h : nd.start_idx ≤ p
  · exact for_range_ind
      (fun _ (occ : List Int) => occ.length
        = (vec_copy st.count_classes st.count_right_classes).length)
      nd.start_idx p _ _ h rfl (fun k occ _ _ ih => by simp [ih])
  · rw [for_range_of_le _ _ _ _ (by omega)]

theorem length_vec_copy_same {α : Type} (src dst : List α) (h : dst.length = src.length) :
    (vec_copy src dst).length = src.length := by
  unfold vec_copy
  simp [h]

/-- The two histograms of the sweep keep the size of `count_classes` when they have it. -/
theorem find_best_split_hist_len (st : decision_tree T) (nd : node T) (ft ms : T)
    (sp : split T) (hl : st.count_left_classes.length = st.count_classes.length)
    (hr : st.count_right_classes.length = st.count_classes.length) :
    (find_best_split st nd ft ms sp).1.count_left_classes.length = st.count_classes.length
      ∧ (find_best_split st nd ft ms sp).1.count_right_classes.length
          = st.count_classes.length := by
  obtain ⟨e1, e2⟩ := find_best_split_sweep_stop st nd ft ms sp
  rw [e1, e2]
  constructor
  · unfold left_counts
    rw [length_count_class_occurences, hl]
  · rw [length_moved_right, length_vec_copy_same _ _ hr]

/-- The sizes of the two histograms of the sweep across the loop over the features. -/
theorem features_upto_hist_len (E : externals T) (fr : fit_frame T) (nd : node T)
    (hl : fr.st.count_left_classes.length = fr.st.count_classes.length)
    (hr : fr.st.count_right_classes.length = fr.st.count_classes.length) (j : Int) :
    (features_upto E fr nd j).st.count_left_classes.length = fr.st.count_classes.length
      ∧ (features_upto E fr nd j).st.count_right_classes.length
          = fr.st.count_classes.length
      ∧ (features_upto E fr nd j).st.count_classes.length = fr.st.count_classes.length := by
  obtain ⟨fi, mt, cc, eB, hcc⟩ := before_features_frame E fr nd
  have hBl : (before_features E fr nd).count_left_classes.length
      = fr.st.count_classes.length := by rw [eB]; exact hl
  have hBr : (before_features E fr nd).count_right_classes.length
      = fr.st.count_classes.length := by rw [eB]; exact hr
  have hBc : (before_features E fr nd).count_classes.length
      = fr.st.count_classes.length := by rw [eB]; exact hcc
  unfold features_upto
  by_cases hj : 0 ≤ j
  · exact for_range_ind
      (fun _ (x : fit_frame T) =>
        x.st.count_left_classes.length = fr.st.count_classes.length
        ∧ x.st.count_right_classes.length = fr.st.count_classes.length
        ∧ x.st.count_classes.length = fr.st.count_classes.length)
      0 j _ _ hj ⟨hBl, hBr, hBc⟩
      (fun k x _ _ ih => by
        have h := find_best_split_hist_len
          (sort_samples E x.st nd (vec_get x.st.features_idx k 0)) nd
          (sort_samples E x.st nd (vec_get x.st.features_idx k 0)).feat_thresh
          (nd.score - fr.st.min_improvement)
          { x.sp with feat_idx := vec_get x.st.features_idx k 0 }
          (by
            show x.st.count_left_classes.length = x.st.count_classes.length
            rw [ih.1, ih.2.2])
          (by
            show x.st.count_right_classes.length = x.st.count_classes.length
            rw [ih.2.1, ih.2.2])
        have hc : (sort_samples E x.st nd (vec_get x.st.features_idx k 0)).count_classes
            = x.st.count_classes := rfl
        rw [hc, ih.2.2] at h
        exact ⟨h.1, h.2, ih.2.2⟩)
  · rw [for_range_of_le _ _ _ _ (by omega)]
    exact ⟨hBl, hBr, hBc⟩

/-- The class counts of the range of a node in use are the same after an iteration of the
loop of `fit`. -/
theorem range_counts_step (E : externals T) (hE : E.conforms) (fr fr' : fit_frame T)
    (hi : fit_inv fr.st) (hne : fr.st.nodes_to_treat ≠ [])
    (hs : fit_step E fr = outcome.done fr') (k : Int) (kd : node T)
    (hk : tree_at fr.st.tree k = some kd) (hkN : k < fr.st.n_nodes) :
    range_counts fr'.st kd.start_idx kd.end_idx
      = range_counts fr.st kd.start_idx kd.end_idx := by
  obtain ⟨nd, hnd, hmem, hq, _, hf, hperm, hss, _⟩ := fit_step_view E hE fr fr' hi hne hs
  have hi' := fit_inv_step E hE fr fr' hi hne hs
  obtain ⟨k0, k1, k2, k3⟩ := hi.range.hnode k kd hk hkN
  have hlen := perm_within_length hperm
  unfold range_counts
  exact count_class_occurences_congr fr.st fr'.st _ _ hss.y
    (by rw [hi'.range.hcc, hi.range.hcc, hss.n_class]) _ _ k0 k1 k2 (by rw [hlen]; exact k2)
    (seg_perm_of_in_or_out hperm hf.hrange.2.1 k0
      (hi.range.hlam _ hmem k hkN nd kd hnd hk))

/-- The class counts that `add_node` takes for the two children of a split are those of
their ranges in the instance at the end of the iteration. -/
theorem child_counts (E : externals T) (hE : E.conforms) (fr fr' : fit_frame T)
    (hi : fit_inv fr.st) (hne : fr.st.nodes_to_treat ≠ [])
    (hs : fit_step E fr = outcome.done fr') (nd : node T)
    (hnd : tree_at fr.st.tree (popped_idx fr) = some nd)
    (hv : split_view E fr fr' nd) :
    (right_child (after_features E fr nd).st (popped_idx fr) nd
        (after_features E fr nd).best_split).y_pred
        = max_element_idx (range_counts fr'.st
            ((after_features E fr nd).best_split.samp_idx + 1) nd.end_idx)
      ∧ (left_child (after_features E fr nd).st (popped_idx fr) nd
          (after_features E fr nd).best_split).y_pred
        = max_element_idx (range_counts fr'.st nd.start_idx
            (after_features E fr nd).best_split.samp_idx) := by
  obtain ⟨nd', hnd', hmem, hq, _, hf, hperm, hss, _⟩ := fit_step_view E hE fr fr' hi hne hs
  have e : nd' = nd := Option.some.inj (hnd'.symm.trans hnd)
  subst e
  have hi' := fit_inv_step E hE fr fr' hi hne hs
  obtain ⟨r0, r1, r2, r3⟩ := hf.hrange
  obtain ⟨s1, s2⟩ := hv.hsplit
  set stA := (after_features E fr nd').st with hstA
  set b := (after_features E fr nd').best_split with hbdef
  set q := popped_idx fr with hqdef
  obtain ⟨hRcp, hRk, hRs, hRy, hRt, hRc⟩ := right_added_frame stA q nd' b
  obtain ⟨hScp, hSt, hSs⟩ := split_state_props_frame stA q nd' b
  have hssA := same_settings_after_features E fr nd'
  have hlen := perm_within_length hperm
  have hSs' : fr'.st.samples_idx = (after_partition stA q nd' b).samples_idx := by
    rw [hv.heq]; exact hSs
  have hBy : (after_partition stA q nd' b).y = fr.st.y := hssA.y
  have hAc : stA.count_classes.length = fr.st.count_classes.length := by
    obtain ⟨v, fv, cl, cr, fi, mt, hA⟩ := after_features_frame E fr nd'
    obtain ⟨fi', mt', cc, hB, hcc⟩ := before_features_frame E fr nd'
    rw [hstA, hA]
    show (before_features E fr nd').count_classes.length = _
    rw [hB]
    exact hcc
  have hcl : fr'.st.count_classes.length = fr.st.count_classes.length := by
    rw [hi'.range.hcc, hi.range.hcc, hss.n_class]
  have hF : nd'.end_idx < fr'.st.samples_idx.length := by rw [hlen]; exact r2
  have hB : nd'.end_idx < (after_partition stA q nd' b).samples_idx.length := by
    rw [← hSs']; exact hF
  constructor
  · show max_element_idx (count_class_occurences (after_partition stA q nd' b)
        (after_partition stA q nd' b).count_classes (b.samp_idx + 1) nd'.end_idx) = _
    unfold range_counts
    rw [count_class_occurences_congr (after_partition stA q nd' b) fr'.st
      (after_partition stA q nd' b).count_classes fr'.st.count_classes
      (by rw [hss.y, hBy])
      (by rw [hcl]; exact hAc.symm)
      _ _ (by omega) (by omega) hB hF (by rw [hSs'])]
  · show max_element_idx (count_class_occurences (right_added stA q nd' b)
        (right_added stA q nd' b).count_classes nd'.start_idx b.samp_idx) = _
    unfold range_counts
    rw [count_class_occurences_congr (right_added stA q nd' b) fr'.st
      (right_added stA q nd' b).count_classes fr'.st.count_classes
      (by rw [hss.y, hRy]; exact hssA.y.symm)
      (by rw [hcl, hRc]; exact hAc.symm)
      _ _ r0 (by omega) (by rw [hRs]; omega) (by omega) (by rw [hSs', hRs])]

theorem label_inv_step (E : externals T) (hE : E.conforms) (fr fr' : fit_frame T)
    (hi : fit_inv fr.st) (h : label_inv fr.st) (hne : fr.st.nodes_to_treat ≠ [])
    (hs : fit_step E fr = outcome.done fr') : label_inv fr'.st := by
  obtain ⟨nd, hnd, hmem, hq, _, hf, hperm, hss, hcase⟩ :=
    fit_step_view E hE fr fr' hi hne hs
  have hold := range_counts_step E hE fr fr' hi hne hs
  intro k kd hk hkN
  rcases hcase with hv | hv
  · rw [hv.htree] at hk
    rw [hv.hn] at hkN
    rw [hold k kd hk hkN]
    exact h k kd hk hkN
  · have hq0 := (tree_at_bounds hnd).1
    obtain ⟨cr, cl⟩ := child_counts E hE fr fr' hi hne hs nd hnd hv
    rcases split_view_nodes E fr fr' nd hv hq0 k kd hk hkN with
      ⟨e0, e⟩ | ⟨e0, e⟩ | ⟨e0, e⟩ | ⟨hkq, hk4, hk5⟩
    · rw [e]
      show nd.y_pred = max_element_idx (range_counts fr'.st nd.start_idx nd.end_idx)
      rw [hold _ nd hnd hq]
      exact h _ nd hnd hq
    · rw [e, cr]
      rfl
    · rw [e, cl]
      rfl
    · rw [hold k kd hk5 hk4]
      exact h k kd hk5 hk4

theorem label_inv_entry (E : externals T) (st1 : decision_tree T) (hn : st1.tree = [])
    (hq : st1.nodes_to_treat = []) (hp : st1.predict_proba_opt = true)
    (hobs : 0 ≤ st1.n_obs) (hls : st1.samples_idx.length = st1.n_obs.toNat) :
    label_inv (queue_root (rooted (configured E st1))) := by
  obtain ⟨hN, _, _, _, h0, hall⟩ := entry_nodes E st1 hn hq hp
  obtain ⟨queue, eq, _⟩ := queue_root_frame (rooted (configured E st1))
  have hcs := configured_settings E st1
  have hoC : (configured E st1).n_obs = st1.n_obs := hcs.2.2.2.2.2.2.2.2.2.2.2.2.2.2.1
  have hlC : (configured E st1).samples_idx.length = st1.n_obs.toNat := by
    rw [hcs.2.2.2.2.2.2.2.2.2.2.2.2.2.2.2.2.2.2, hls]
  intro k kd hk hkN
  rw [(hall k kd hk hkN).2]
  simp only [root_node_fields]
  unfold range_counts
  rw [eq]
  exact congrArg max_element_idx
    (count_class_occurences_congr (configured E st1) _ _ _ rfl
      (by
        show (count_class_occurences (configured E st1) (configured E st1).count_classes 0
          ((configured E st1).n_obs - 1)).length = _
        rw [length_count_class_occurences])
      0 _ (le_refl _) (by omega)
      (by rw [hlC]; omega)
      (by
        show (configured E st1).n_obs - 1 < ((configured E st1).samples_idx.length : Int)
        rw [hlC]; omega)
      (List.Perm.refl _)).symm

theorem loop_inv_trained (s : decision_tree T) (h : loop_inv s) :
    loop_inv ({ s with model_trained := true } : decision_tree T) :=
  ⟨fit_inv_trained s h.fit,
    ⟨h.expand.hexp, h.expand.hrootq, h.expand.hroot, h.expand.hdepth⟩,
    ⟨h.leaf.hlen, h.leaf.hroot, h.leaf.hdisj⟩,
    ⟨h.layout.hinj, h.layout.hcount⟩⟩

/-- A fitted tree keeps in `y_pred` the first class with the greatest count of every node. -/
theorem fit_label_inv (E : externals T) (hE : E.conforms) (st0 st : decision_tree T)
    (hr : fit_ready st0) (hf : fit E st0 = outcome.done (da_status.da_status_success, st)) :
    label_inv st ∧ loop_inv st := by
  obtain ⟨st1, ho, hp, ht1, hq1, hobs, hls, _, _, hind⟩ := fit_induct E hE st0 st hr hf
  obtain ⟨s, hP, hinv, hqe, hss, es⟩ := hind (fun s => label_inv s)
    (label_inv_entry E st1 ht1 hq1 hp hobs hls)
    (fun fr fr' hi hP hne hs => label_inv_step E hE fr fr' hi.fit hP hne hs)
  rw [es]
  exact ⟨hP, loop_inv_trained s hinv⟩

theorem before_features_counts (E : externals T) (fr : fit_frame T) (nd : node T) :
    (before_features E fr nd).count_classes
      = count_class_occurences fr.st fr.st.count_classes nd.start_idx nd.end_idx := by
  unfold before_features
  simp only
  split <;> rfl

/-- The frame of the loop over the candidate features after any number of iterations. -/
theorem features_upto_inv (E : externals T) (hE : E.conforms) (fr : fit_frame T)
    (nd : node T) (hnd : node_in_range fr.st.samples_idx.length nd)
    (hfv : fr.st.feature_values.length = fr.st.samples_idx.length) (j : Int) :
    feat_inv (before_features E fr nd) nd (features_upto E fr nd j) := by
  obtain ⟨fi, mt, cc, e, _⟩ := before_features_frame E fr nd
  have hs : (before_features E fr nd).samples_idx = fr.st.samples_idx := by rw [e]
  have hf : (before_features E fr nd).feature_values = fr.st.feature_values := by rw [e]
  unfold features_upto
  apply feature_loop_inv E hE (before_features E fr nd) nd _ (by rw [hs]; exact hnd)
    (by rw [hs, hf]; exact hfv)
  exact ⟨⟨_, _, _, _, rfl⟩, perm_within_refl _ _ _, rfl, le_refl _,
    fun h => absurd rfl h, fun _ _ h => absurd rfl h⟩

/-- The scores of the two sides of a recorded candidate split are the impurities of the two
ranges of any later arrangement `F` of the range of the node that has the samples below the
threshold first, `samp_idx - start_idx + 1` of them. -/
theorem candidate_sides (E : externals T) (hE : E.conforms) (fr : fit_frame T)
    (nd : node T) (hnd : node_in_range fr.st.samples_idx.length nd)
    (hfv : fr.st.feature_values.length = fr.st.samples_idx.length)
    (hl : fr.st.count_left_classes.length = fr.st.count_classes.length)
    (hr : fr.st.count_right_classes.length = fr.st.count_classes.length)
    (hm : valid_sort_method fr.st) (hft : 0 < fr.st.feat_thresh)
    (j : Int) (hrec : (candidate E fr nd j).samp_idx ≠ -1)
    (F : decision_tree T) (hFy : F.y = fr.st.y) (hFX : F.X = fr.st.X)
    (hFl : F.ldx = fr.st.ldx) (hFs : F.score_function = fr.st.score_function)
    (hFk : F.n_class = fr.st.n_class)
    (hFc : F.count_classes.length = fr.st.count_classes.length)
    (hFp : perm_within fr.st.samples_idx F.samples_idx nd.start_idx nd.end_idx)
    (hFL : ∀ i, nd.start_idx ≤ i → i ≤ (candidate E fr nd j).samp_idx →
      feat_val F (candidate E fr nd j).feat_idx (vec_get F.samples_idx i 0)
        < (candidate E fr nd j).threshold)
    (hFR : ∀ i, (candidate E fr nd j).samp_idx + 1 ≤ i → i ≤ nd.end_idx →
      ¬ feat_val F (candidate E fr nd j).feat_idx (vec_get F.samples_idx i 0)
        < (candidate E fr nd j).threshold) :
    (candidate E fr nd j).left_score
        = F.score_function ((candidate E fr nd j).samp_idx - nd.start_idx + 1) F.n_class
            (range_counts F nd.start_idx (candidate E fr nd j).samp_idx)
      ∧ (candidate E fr nd j).right_score
        = F.score_function (nd.end_idx - (candidate E fr nd j).samp_idx) F.n_class
            (range_counts F ((candidate E fr nd j).samp_idx + 1) nd.end_idx) := by
  obtain ⟨h0, h1, h2, h3⟩ := hnd
  have hU := features_upto_inv E hE fr nd ⟨h0, h1, h2, h3⟩ hfv j
  obtain ⟨hUl, hUr, hUc⟩ := features_upto_hist_len E fr nd hl hr j
  obtain ⟨fi, mt, cc, eB, hcc⟩ := before_features_frame E fr nd
  have hBc := before_features_counts E fr nd
  obtain ⟨v, fv, cl, cr, eU⟩ := hU.hst
  have hpU : perm_within fr.st.samples_idx (features_upto E fr nd j).st.samples_idx
      nd.start_idx nd.end_idx := by
    have := hU.hperm
    rw [eB] at this
    exact this
  have hUfv : (features_upto E fr nd j).st.feature_values.length
      = fr.st.feature_values.length := by
    have := hU.hfv
    rw [eB] at this
    exact this
  have hUy : (features_upto E fr nd j).st.y = fr.st.y := by rw [eU, eB]
  have hUX : (features_upto E fr nd j).st.X = fr.st.X := by rw [eU, eB]
  have hUld : (features_upto E fr nd j).st.ldx = fr.st.ldx := by rw [eU, eB]
  have hUs : (features_upto E fr nd j).st.score_function = fr.st.score_function := by
    rw [eU, eB]
  have hUk : (features_upto E fr nd j).st.n_class = fr.st.n_class := by rw [eU, eB]
  have hUft : (features_upto E fr nd j).st.feat_thresh = fr.st.feat_thresh := by rw [eU, eB]
  have hUsm : (features_upto E fr nd j).st.sort_method = fr.st.sort_method := by rw [eU, eB]
  have hUcc : (features_upto E fr nd j).st.count_classes
      = count_class_occurences fr.st fr.st.count_classes nd.start_idx nd.end_idx := by
    rw [← hBc, eU]
  have hUlen := perm_within_length hpU
  have hndU : node_in_range (features_upto E fr nd j).st.samples_idx.length nd :=
    ⟨h0, h1, by rw [hUlen]; exact h2, h3⟩
  have hfvU : (features_upto E fr nd j).st.feature_values.length
      = (features_upto E fr nd j).st.samples_idx.length := by rw [hUfv, hfv, hUlen]
  have hmU : valid_sort_method (features_upto E fr nd j).st := by
    unfold valid_sort_method at hm ⊢
    rw [hUsm]; exact hm
  generalize hUdef : (features_upto E fr nd j).st = U at *
  generalize hspdef : (features_upto E fr nd j).sp = sp0 at *
  have hcand : candidate E fr nd j
      = (find_best_split (sort_samples E U nd (vec_get U.features_idx j 0)) nd
          (sort_samples E U nd (vec_get U.features_idx j 0)).feat_thresh
          (nd.score - fr.st.min_improvement)
          { sp0 with feat_idx := vec_get U.features_idx j 0 }).2 := by
    unfold candidate
    rw [hUdef, hspdef]
  generalize hfdef : vec_get U.features_idx j 0 = f at *
  have hpS := sort_samples_perm_within E hE U nd f hndU
  have hasc := sort_samples_ascending E hE U nd f hndU hfvU hmU
  have hfvs := sort_samples_feature_values E U nd f h0 (by rw [hfvU, hUlen]; exact h2)
  have hSy : (sort_samples E U nd f).y = U.y := rfl
  have hSc : (sort_samples E U nd f).count_classes = U.count_classes := rfl
  have hSl : (sort_samples E U nd f).count_left_classes = U.count_left_classes := rfl
  have hSr : (sort_samples E U nd f).count_right_classes = U.count_right_classes := rfl
  have hSs : (sort_samples E U nd f).score_function = U.score_function := rfl
  have hSk : (sort_samples E U nd f).n_class = U.n_class := rfl
  have hSft : (sort_samples E U nd f).feat_thresh = U.feat_thresh := rfl
  have hpFS : perm_within fr.st.samples_idx (sort_samples E U nd f).samples_idx
      nd.start_idx nd.end_idx := perm_within_trans hpU hpS
  have hSlen := perm_within_length hpFS
  have hFlen := perm_within_length hFp
  generalize hSdef : sort_samples E U nd f = S at *
  have hsegS : (seg S.samples_idx nd.start_idx nd.end_idx).Perm
      (seg fr.st.samples_idx nd.start_idx nd.end_idx) := perm_within_seg hpFS h1
  have hsegF : (seg F.samples_idx nd.start_idx nd.end_idx).Perm
      (seg fr.st.samples_idx nd.start_idx nd.end_idx) := perm_within_seg hFp h1
  have hccS : S.count_classes
      = count_class_occurences S S.count_classes nd.start_idx nd.end_idx := by
    rw [count_class_occurences_congr fr.st S fr.st.count_classes S.count_classes
      (by rw [hSy, hUy]) (by rw [hSc, hUc]) _ _ h0 h1 h2 (by rw [hSlen]; exact h2) hsegS,
      hSc, hUcc]
  have hw := find_best_split_weighted S nd S.feat_thresh (nd.score - fr.st.min_improvement)
    { sp0 with feat_idx := f } ⟨h0, h1, by rw [hSlen]; exact h2, h3⟩ hccS
    (by rw [hSr, hSc, hUr, hUc])
  have hfeat := (find_best_split_swept S nd S.feat_thresh (nd.score - fr.st.min_improvement)
    { sp0 with feat_idx := f }).1
  rw [← hcand] at hw hfeat
  generalize candidate E fr nd j = c at *
  have hcf : c.feat_idx = f := hfeat
  unfold sp_upto at hw
  rcases hw with ⟨hn, _⟩ | ⟨hb, _, _, _, _, eL, eR, eT, _⟩
  · exact absurd hn hrec
  obtain ⟨b1, b2, b3⟩ := hb
  have hle := hasc c.samp_idx (c.samp_idx + 1) b1 (by omega) (by omega)
  rw [abs_of_nonneg (sub_nonneg.mpr hle), hSft, hUft] at b3
  have hlo : vec_get S.feature_values c.samp_idx 0 < c.threshold := by
    rw [eT]; linarith
  have hhi : c.threshold < vec_get S.feature_values (c.samp_idx + 1) 0 := by
    rw [eT]; linarith
  have hfvF : ∀ idx, feat_val F f idx = feat_val U f idx := fun idx =>
    feat_val_congr U F (by rw [hFX, hUX]) (by rw [hFl, hUld]) f idx
  have hsides := sides_perm S.samples_idx F.samples_idx nd.start_idx c.samp_idx nd.end_idx
    (fun idx => decide (feat_val U f idx < c.threshold)) h0 (by omega) (by omega)
    (by rw [hSlen]; exact h2) (by rw [hFlen]; exact h2) (hsegF.trans hsegS.symm)
    (fun i hi1 hi2 => by
      rw [decide_eq_true_eq, ← hfvs i hi1 (by omega)]
      exact lt_of_le_of_lt (hasc i c.samp_idx hi1 hi2 (by omega)) hlo)
    (fun i hi1 hi2 => by
      rw [decide_eq_false_iff_not, ← hfvs i (by omega) hi2]
      exact not_lt.mpr (le_trans hhi.le (hasc (c.samp_idx + 1) i (by omega) hi1 hi2)))
    (fun i hi1 hi2 => by
      rw [decide_eq_true_eq, ← hfvF, ← hcf]
      exact hFL i hi1 hi2)
    (fun i hi1 hi2 => by
      rw [decide_eq_false_iff_not, ← hfvF, ← hcf]
      exact hFR i hi1 hi2)
  constructor
  · rw [eL]
    unfold left_impurity left_counts range_counts
    rw [hSs, hSk, hUs, hUk, hFs, hFk,
      count_class_occurences_congr S F S.count_left_classes F.count_classes
        (by rw [hFy, hSy, hUy]) (by rw [hFc, hSl, hUl])
        _ _ h0 (by omega) (by rw [hSlen]; omega) (by rw [hFlen]; omega) hsides.1]
  · rw [eR]
    unfold right_impurity right_counts range_counts
    rw [hSs, hSk, hUs, hUk, hFs, hFk,
      count_class_occurences_congr S F S.count_right_classes F.count_classes
        (by rw [hFy, hSy, hUy]) (by rw [hFc, hSr, hUr])
        _ _ (by omega) (by omega) (by rw [hSlen]; omega) (by rw [hFlen]; omega) hsides.2]

theorem score_inv_step (E : externals T) (hE : E.conforms) (fr fr' : fit_frame T)
    (hi : fit_inv fr.st) (h : score_inv fr.st) (hft : 0 < fr.st.feat_thresh)
    (hm : valid_sort_method fr.st) (hne : fr.st.nodes_to_treat ≠ [])
    (hs : fit_step E fr = outcome.done fr') : score_inv fr'.st := by
  obtain ⟨nd, hnd, hmem, hq, _, hf, hperm, hss, hcase⟩ :=
    fit_step_view E hE fr fr' hi hne hs
  have hi' := fit_inv_step E hE fr fr' hi hne hs
  have hold := range_counts_step E hE fr fr' hi hne hs
  have hft' : 0 < fr'.st.feat_thresh := by rw [hss.feat_thresh]; exact hft
  have hm' : valid_sort_method fr'.st := by
    unfold valid_sort_method at hm ⊢
    rw [hss.sort_method]; exact hm
  have hpart := hi'.part hft' hm'
  have hA := features_upto_hist_len E fr nd h.hl h.hr (before_features E fr nd).nfeat_split
  rw [← after_features_eq_upto] at hA
  obtain ⟨hAl, hAr, hAc⟩ := hA
  have hcl : fr'.st.count_classes.length = fr.st.count_classes.length := by
    rw [hi'.range.hcc, hi.range.hcc, hss.n_class]
  have holdscore : ∀ k kd, tree_at fr.st.tree k = some kd → k < fr.st.n_nodes →
      kd.score = fr'.st.score_function kd.n_samples fr'.st.n_class
        (range_counts fr'.st kd.start_idx kd.end_idx) := by
    intro k kd hk hkN
    rw [hold k kd hk hkN, hss.score_function, hss.n_class]
    exact h.hscore k kd hk hkN
  rcases hcase with hv | hv
  · refine ⟨?_, ?_, ?_⟩
    · rw [hcl, hv.heq]; exact hAl
    · rw [hcl, hv.heq]; exact hAr
    · intro k kd hk hkN
      rw [hv.htree] at hk
      rw [hv.hn] at hkN
      exact holdscore k kd hk hkN
  · obtain ⟨tree, depth, cc, cp, nl, queue, e⟩ := split_state_frame (after_features E fr nd).st
      (popped_idx fr) nd (after_features E fr nd).best_split
    have e1 : fr'.st.count_left_classes = (after_features E fr nd).st.count_left_classes := by
      rw [hv.heq, e]
    have e2 : fr'.st.count_right_classes
        = (after_features E fr nd).st.count_right_classes := by
      rw [hv.heq, e]
    refine ⟨by rw [e1, hcl, hAl], by rw [e2, hcl, hAr], ?_⟩
    have hq0 := (tree_at_bounds hnd).1
    obtain ⟨j, _, _, hjr, hbj⟩ := after_features_best_candidate E fr nd hf.hrange.1 hv.hb
    have hleft := hv.hleft
    have hright := hv.hright
    have hparent := hv.hpar
    have hsides := candidate_sides E hE fr nd hf.hrange hi.range.hfv h.hl h.hr hm hft j hjr
      fr'.st hss.y hss.X hss.ldx hss.score_function hss.n_class hcl hperm
    rw [← hbj] at hsides
    have hp := hpart (popped_idx fr)
      (parent_after (after_features E fr nd).st nd (after_features E fr nd).best_split)
      (left_child (after_features E fr nd).st (popped_idx fr) nd
        (after_features E fr nd).best_split)
      (right_child (after_features E fr nd).st (popped_idx fr) nd
        (after_features E fr nd).best_split)
      hparent (by rw [hv.hn]; omega) rfl
      (by
        show tree_at fr'.st.tree ((after_features E fr nd).st.n_nodes + 1) = _
        rw [hf.hAn]; exact hleft)
      (by
        show tree_at fr'.st.tree (after_features E fr nd).st.n_nodes = _
        rw [hf.hAn]; exact hright)
    obtain ⟨sL, sR⟩ := hsides hp.1 hp.2
    intro k kd hk hkN
    rcases split_view_nodes E fr fr' nd hv hq0 k kd hk hkN with
      ⟨e0, e⟩ | ⟨e0, e⟩ | ⟨e0, e⟩ | ⟨hkq, hk4, hk5⟩
    · rw [e]
      exact holdscore _ nd hnd hq
    · rw [e]
      show (after_features E fr nd).best_split.right_score
        = fr'.st.score_function
            (nd.end_idx - ((after_features E fr nd).best_split.samp_idx + 1) + 1)
            fr'.st.n_class
            (range_counts fr'.st ((after_features E fr nd).best_split.samp_idx + 1)
              nd.end_idx)
      rw [sR]
      congr 1
      ring
    · rw [e]
      exact sL
    · exact holdscore k kd hk5 hk4

theorem score_inv_entry (E : externals T) (st1 : decision_tree T) (hn : st1.tree = [])
    (hq : st1.nodes_to_treat = []) (hp : st1.predict_proba_opt = true)
    (hobs : 0 ≤ st1.n_obs) (hls : st1.samples_idx.length = st1.n_obs.toNat)
    (hl : st1.count_left_classes.length = st1.count_classes.length)
    (hr : st1.count_right_classes.length = st1.count_classes.length) :
    score_inv (queue_root (rooted (configured E st1))) := by
  obtain ⟨hN, _, _, _, h0, hall⟩ := entry_nodes E st1 hn hq hp
  obtain ⟨queue, eq, _⟩ := queue_root_frame (rooted (configured E st1))
  obtain ⟨sf, nf, sd, mt, v, eC, hv⟩ := configured_frame E st1
  have hcs := configured_settings E st1
  have hoC : (configured E st1).n_obs = st1.n_obs := hcs.2.2.2.2.2.2.2.2.2.2.2.2.2.2.1
  have hlC : (configured E st1).samples_idx.length = st1.n_obs.toNat := by
    rw [hcs.2.2.2.2.2.2.2.2.2.2.2.2.2.2.2.2.2.2, hls]
  have hcC : (configured E st1).count_classes = st1.count_classes :=
    hcs.2.2.2.2.2.2.2.2.2.2.2.2.2.2.2.2.1
  have hQc : (queue_root (rooted (configured E st1))).count_classes.length
      = st1.count_classes.length := by
    rw [eq]
    show (count_class_occurences (configured E st1) (configured E st1).count_classes 0
      ((configured E st1).n_obs - 1)).length = _
    rw [length_count_class_occurences, hcC]
  have hQl : (queue_root (rooted (configured E st1))).count_left_classes
      = st1.count_left_classes := by
    rw [eq]
    show (configured E st1).count_left_classes = _
    rw [eC]
  have hQr : (queue_root (rooted (configured E st1))).count_right_classes
      = st1.count_right_classes := by
    rw [eq]
    show (configured E st1).count_right_classes = _
    rw [eC]
  refine ⟨by rw [hQl, hQc, hl], by rw [hQr, hQc, hr], ?_⟩
  intro k kd hk hkN
  rw [(hall k kd hk hkN).2]
  unfold range_counts
  rw [eq]
  show (configured E st1).score_function (configured E st1).n_obs (configured E st1).n_class
      (count_class_occurences (configured E st1) (configured E st1).count_classes 0
        ((configured E st1).n_obs - 1))
    = (configured E st1).score_function (configured E st1).n_obs (configured E st1).n_class _
  congr 1
  exact (count_class_occurences_congr (configured E st1) _ _ _ rfl
      (by
        show (count_class_occurences (configured E st1) (configured E st1).count_classes 0
          ((configured E st1).n_obs - 1)).length = _
        rw [length_count_class_occurences])
      0 _ (le_refl _) (by omega)
      (by rw [hlC]; omega)
      (by
        show (configured E st1).n_obs - 1 < ((configured E st1).samples_idx.length : Int)
        rw [hlC]; omega)
      (List.Perm.refl _)).symm

end stats

/-! ## The sweep of `find_best_split` on two ascending arrangements of a range -/

section arrangements

variable {T : Type} [LinearOrderedField T]

/-- Two arrangements of the same samples, both ascending by a key, carry the same key at
every position. -/
theorem sorted_values_eq (v1 v2 : List Int) (g : Int → T) (a b : Int) (h0 : 0 ≤ a)
    (hb1 : b < v1.length) (hb2 : b < v2.length)
    (hperm : (seg v2 a b).Perm (seg v1 a b))
    (hasc1 : ∀ i j, a ≤ i → i ≤ j → j ≤ b → g (vec_get v1 i 0) ≤ g (vec_get v1 j 0))
    (hasc2 : ∀ i j, a ≤ i → i ≤ j → j ≤ b → g (vec_get v2 i 0) ≤ g (vec_get v2 j 0)) :
    ∀ i, a ≤ i → i ≤ b → g (vec_get v2 i 0) = g (vec_get v1 i 0) := by
  intro i hi1 hi2
  have hsorted : ∀ (v : List Int), b < v.length →
      (∀ i j, a ≤ i → i ≤ j → j ≤ b → g (vec_get v i 0) ≤ g (vec_get v j 0)) →
      List.Sorted (fun x y => x ≤ y) ((seg v a b).map g) := by
    intro v hb hasc
    unfold List.Sorted
    rw [List.pairwise_iff_getElem]
    intro k l hk hl hkl
    rw [List.length_map, length_seg v a b h0 (by omega) hb] at hk hl
    have gk := seg_getElem?_vec_get v a b (a + k) h0 (by omega) (by omega) hb
    have gl := seg_getElem?_vec_get v a b (a + l) h0 (by omega) (by omega) hb
    have ek : (a + (k : Int) - a).toNat = k := by omega
    have el : (a + (l : Int) - a).toNat = l := by omega
    rw [ek] at gk
    rw [el] at gl
    obtain ⟨hk', ek'⟩ := List.getElem?_eq_some.mp gk
    obtain ⟨hl', el'⟩ := List.getElem?_eq_some.mp gl
    rw [List.getElem_map, List.getElem_map, ek', el']
    exact hasc (a + k) (a + l) (by omega) (by omega) (by omega)
  have hL := List.eq_of_perm_of_sorted (hperm.map g) (hsorted v2 hb2 hasc2)
    (hsorted v1 hb1 hasc1)
  have e1 : ((seg v1 a b).map g)[(i - a).toNat]? = some (g (vec_get v1 i 0)) := by
    rw [List.getElem?_map, seg_getElem?_vec_get v1 a b i h0 hi1 hi2 hb1]
    rfl
  have e2 : ((seg v2 a b).map g)[(i - a).toNat]? = some (g (vec_get v2 i 0)) := by
    rw [List.getElem?_map, seg_getElem?_vec_get v2 a b i h0 hi1 hi2 hb2]
    rfl
  rw [hL] at e2
  exact Option.some.inj (e2.symm.trans e1)

theorem class_count_snoc (st : decision_tree T) (a k : Int) (c : Int) (h0 : 0 ≤ a)
    (h1 : a ≤ k) (he : k < st.samples_idx.length) :
    class_count st a k c
      = class_count st a (k - 1) c + List.count c [st.y (vec_get st.samples_idx k 0)] := by
  unfold class_count
  have hs := seg_split st.samples_idx a (k - 1) k h0 (by omega) (by omega)
  have e : k - 1 + 1 = k := by omega
  rw [e] at hs
  rw [hs, seg_single st.samples_idx k 0 (by omega) he, List.map_append, List.count_append]
  rfl

/-- Once the samples before `p` have moved to the left, every entry of
`count_right_classes` is its value on entry of the sweep less the count of its class among
the samples moved. -/
theorem moved_right_general (st : decision_tree T) (nd : node T) (p : Int)
    (h0 : 0 ≤ nd.start_idx) (hp0 : nd.start_idx ≤ p) (hp : p ≤ nd.end_idx + 1)
    (he : nd.end_idx < st.samples_idx.length) :
    (moved_right st nd p).length = (vec_copy st.count_classes st.count_right_classes).length
      ∧ ∀ c : Int, 0 ≤ c →
          c < (vec_copy st.count_classes st.count_right_classes).length →
          vec_get (moved_right st nd p) c 0
            = vec_get (vec_copy st.count_classes st.count_right_classes) c 0
              - class_count st nd.start_idx (p - 1) c := by
  unfold moved_right
  exact for_range_ind
    (fun (k : Int) (occ : List Int) =>
      occ.length = (vec_copy st.count_classes st.count_right_classes).length
      ∧ ∀ c : Int, 0 ≤ c →
          c < (vec_copy st.count_classes st.count_right_classes).length →
          vec_get occ c 0 = vec_get (vec_copy st.count_classes st.count_right_classes) c 0
            - class_count st nd.start_idx (k - 1) c)
    nd.start_idx p
    (fun i occ =>
      vec_set occ (st.y (vec_get st.samples_idx i 0))
        (vec_get occ (st.y (vec_get st.samples_idx i 0)) 0 - 1))
    (vec_copy st.count_classes st.count_right_classes) hp0
    ⟨rfl, fun c _ _ => by
      unfold class_count
      rw [seg_empty _ _ _ (by omega) h0]
      simp⟩
    (fun k occ hk1 hk2 ih => by
      beta_reduce at ih ⊢
      refine ⟨by simp [ih.1], fun c hc0 hc1 => ?_⟩
      have e : k + 1 - 1 = k := by omega
      rw [e, class_count_snoc st nd.start_idx k c h0 hk1 (by omega)]
      by_cases hy : st.y (vec_get st.samples_idx k 0) = c
      · rw [hy, vec_get_vec_set_eq _ _ _ _ hc0 (by rw [ih.1]; exact hc1), ih.2 c hc0 hc1]
        simp [hy]
        ring
      · rw [vec_get_vec_set_ne _ _ _ _ _ hy, ih.2 c hc0 hc1]
        have : List.count c [st.y (vec_get st.samples_idx k 0)] = 0 :=
          List.count_eq_zero.mpr (by simpa using Ne.symm hy)
        simp [this])

/-- Without a recorded split `find_best_split` leaves the threshold and the scores of the
two sides in `sp` as they were. -/
theorem find_best_split_none_frame (st : decision_tree T) (nd : node T) (ft ms : T)
    (sp : split T) (h0 : 0 ≤ nd.start_idx)
    (h : (find_best_split st nd ft ms sp).2.samp_idx = -1) :
    (find_best_split st nd ft ms sp).2.threshold = sp.threshold
      ∧ (find_best_split st nd ft ms sp).2.left_score = sp.left_score
      ∧ (find_best_split st nd ft ms sp).2.right_score = sp.right_score := by
  have key := sweep_loop_ind st nd ft ms
    (fun s => nd.start_idx ≤ s.sidx
      ∧ ((s.sp.threshold = sp.threshold ∧ s.sp.left_score = sp.left_score
          ∧ s.sp.right_score = sp.right_score) ∨ nd.start_idx ≤ s.sp.samp_idx))
    (fun s => (s.sp.threshold = sp.threshold ∧ s.sp.left_score = sp.left_score
          ∧ s.sp.right_score = sp.right_score) ∨ nd.start_idx ≤ s.sp.samp_idx)
    (fun s hs _ => hs.2)
    (fun s hs _ _ => by beta_reduce at hs ⊢; rw [sweep_advance_sp]; exact hs.2)
    (fun s hs hc hne => by
      beta_reduce at hs ⊢
      have hge := sweep_advance_sidx_ge st nd ft s
      have hsp := sweep_advance_sp st nd ft s
      refine ⟨by simp only [sweep_eval_sidx]; omega, ?_⟩
      unfold sweep_eval
      simp only
      split
      · right
        simp only
        omega
      · rw [hsp]; exact hs.2)
    (nd.end_idx - nd.start_idx).toNat
    { sidx := nd.start_idx,
      count_left_classes := vec_fill st.count_left_classes 0,
      count_right_classes := vec_copy st.count_classes st.count_right_classes,
      ns_left := 0,
      ns_right := nd.n_samples,
      left_score := 0,
      right_score := nd.score,
      sp := { sp with score := nd.score, samp_idx := -1 } }
    (le_refl _) ⟨le_refl _, Or.inl ⟨rfl, rfl, rfl⟩⟩
  have key' : ((find_best_split st nd ft ms sp).2.threshold = sp.threshold
      ∧ (find_best_split st nd ft ms sp).2.left_score = sp.left_score
      ∧ (find_best_split st nd ft ms sp).2.right_score = sp.right_score)
      ∨ nd.start_idx ≤ (find_best_split st nd ft ms sp).2.samp_idx := key
  rcases key' with h1 | h1
  · exact h1
  · rw [h] at h1
    omega

/-- Two results of the sweep that answer to the same description, over two instances with
the same boundaries, scores and thresholds at the boundaries, are the same. -/
theorem sp_upto_unique (st1 st2 : decision_tree T) (nd : node T) (ft ms : T)
    (W1 Ls1 Rs1 W2 Ls2 Rs2 : Int → T) (p : Int) (r1 r2 : split T)
    (hb : ∀ t, boundary st2 nd ft t ↔ boundary st1 nd ft t)
    (hW : ∀ t, boundary st1 nd ft t → W2 t = W1 t)
    (hL : ∀ t, boundary st1 nd ft t → Ls2 t = Ls1 t)
    (hR : ∀ t, boundary st1 nd ft t → Rs2 t = Rs1 t)
    (hT : ∀ t, boundary st1 nd ft t →
      vec_get st2.feature_values t 0 = vec_get st1.feature_values t 0
        ∧ vec_get st2.feature_values (t + 1) 0 = vec_get st1.feature_values (t + 1) 0)
    (h1 : sp_upto st1 nd ft ms W1 Ls1 Rs1 p r1)
    (h2 : sp_upto st2 nd ft ms W2 Ls2 Rs2 p r2) :
    r2.samp_idx = r1.samp_idx ∧ r2.score = r1.score
      ∧ ((r1.samp_idx = -1 ∧ r2.samp_idx = -1)
        ∨ (r2.threshold = r1.threshold ∧ r2.left_score = r1.left_score
          ∧ r2.right_score = r1.right_score)) := by
  unfold sp_upto at h1 h2
  rcases h1 with ⟨a1, a2, a3⟩ | ⟨a1, a2, a3, a4, a5, a6, a7, a8, a9, a10⟩
  · rcases h2 with ⟨b1, b2, b3⟩ | ⟨b1, b2, b3, b4, b5, b6, b7, b8, b9, b10⟩
    · exact ⟨by rw [a1, b1], by rw [a2, b2], Or.inl ⟨a1, b1⟩⟩
    · exfalso
      have hb1 := (hb _).mp b1
      apply a3 _ hb1 b2
      rw [← hW _ hb1, ← b3]
      exact ⟨b4, b5⟩
  · rcases h2 with ⟨b1, b2, b3⟩ | ⟨b1, b2, b3, b4, b5, b6, b7, b8, b9, b10⟩
    · exfalso
      apply b3 _ ((hb _).mpr a1) a2
      rw [hW _ a1, ← a3]
      exact ⟨a4, a5⟩
    · have hb1 := (hb _).mp b1
      have e : r2.samp_idx = r1.samp_idx := by
        rcases lt_trichotomy r2.samp_idx r1.samp_idx with hlt | heq | hgt
        · exfalso
          have c1 := a9 _ hb1 hlt
          have c2 := b10 _ ((hb _).mpr a1) hlt.le a2
          rw [hW _ a1, ← a3] at c2
          rw [← hW _ hb1, ← b3] at c1
          exact absurd c1 (not_lt.mpr c2)
        · exact heq
        · exfalso
          have c1 := b9 _ ((hb _).mpr a1) hgt
          have c2 := a10 _ hb1 hgt.le b2
          rw [hW _ a1, ← a3] at c1
          rw [← hW _ hb1, ← b3] at c2
          exact absurd c1 (not_lt.mpr c2)
      refine ⟨e, ?_, Or.inr ⟨?_, ?_, ?_⟩⟩
      · rw [b3, a3, e, hW _ a1]
      · rw [b8, a8, e, (hT _ a1).1, (hT _ a1).2]
      · rw [b6, a6, e, hL _ a1]
      · rw [b7, a7, e, hR _ a1]

/-- The sweep on two arrangements of the range of a node that are both ascending by the
values of the feature, started with two values of `sp` for the same feature: the same
position and score, and the same threshold and scores of the sides when a split is
recorded. -/
theorem sweep_same_core (st1 st2 : decision_tree T) (nd : node T) (f : Int) (ft ms : T)
    (sp1 sp2 : split T) (hsp : sp2.feat_idx = sp1.feat_idx) (hnd : node_in_range st1.samples_idx.length nd)
    (hlen2 : nd.end_idx < st2.samples_idx.length)
    (hperm : (seg st2.samples_idx nd.start_idx nd.end_idx).Perm
      (seg st1.samples_idx nd.start_idx nd.end_idx))
    (hy : st2.y = st1.y) (hX : st2.X = st1.X) (hldx : st2.ldx = st1.ldx)
    (hk : st2.n_class = st1.n_class) (hsf : st2.score_function = st1.score_function)
    (hcl : st2.count_left_classes.length = st1.count_left_classes.length)
    (hvc : vec_copy st2.count_classes st2.count_right_classes
      = vec_copy st1.count_classes st1.count_right_classes)
    (hfv1 : ∀ i, nd.start_idx ≤ i → i ≤ nd.end_idx →
      vec_get st1.feature_values i 0 = feat_val st1 f (vec_get st1.samples_idx i 0))
    (hfv2 : ∀ i, nd.start_idx ≤ i → i ≤ nd.end_idx →
      vec_get st2.feature_values i 0 = feat_val st2 f (vec_get st2.samples_idx i 0))
    (hasc1 : ∀ i j, nd.start_idx ≤ i → i ≤ j → j ≤ nd.end_idx →
      vec_get st1.feature_values i 0 ≤ vec_get st1.feature_values j 0)
    (hasc2 : ∀ i j, nd.start_idx ≤ i → i ≤ j → j ≤ nd.end_idx →
      vec_get st2.feature_values i 0 ≤ vec_get st2.feature_values j 0)
    (hft : 0 < ft) :
    (find_best_split st2 nd ft ms sp2).2.samp_idx
        = (find_best_split st1 nd ft ms sp1).2.samp_idx
      ∧ (find_best_split st2 nd ft ms sp2).2.score
          = (find_best_split st1 nd ft ms sp1).2.score
      ∧ (find_best_split st2 nd ft ms sp2).2.feat_idx
          = (find_best_split st1 nd ft ms sp1).2.feat_idx
      ∧ (((find_best_split st1 nd ft ms sp1).2.samp_idx = -1
          ∧ (find_best_split st2 nd ft ms sp2).2.samp_idx = -1)
        ∨ ((find_best_split st2 nd ft ms sp2).2.threshold
            = (find_best_split st1 nd ft ms sp1).2.threshold
          ∧ (find_best_split st2 nd ft ms sp2).2.left_score
            = (find_best_split st1 nd ft ms sp1).2.left_score
          ∧ (find_best_split st2 nd ft ms sp2).2.right_score
            = (find_best_split st1 nd ft ms sp1).2.right_score)) := by
  obtain ⟨h0, h1, h2, h3⟩ := hnd
  have hg : ∀ idx, feat_val st2 f idx = feat_val st1 f idx := fun idx =>
    feat_val_congr st1 st2 hX hldx f idx
  have hval := sorted_values_eq st1.samples_idx st2.samples_idx (feat_val st1 f)
    nd.start_idx nd.end_idx h0 h2 hlen2 hperm
    (fun i j hi hij hj => by
      rw [← hfv1 i hi (by omega), ← hfv1 j (by omega) hj]
      exact hasc1 i j hi hij hj)
    (fun i j hi hij hj => by
      rw [← hg, ← hg, ← hfv2 i hi (by omega), ← hfv2 j (by omega) hj]
      exact hasc2 i j hi hij hj)
  have hfveq : ∀ i, nd.start_idx ≤ i → i ≤ nd.end_idx →
      vec_get st2.feature_values i 0 = vec_get st1.feature_values i 0 := by
    intro i hi1 hi2
    rw [hfv2 i hi1 hi2, hg, hval i hi1 hi2, hfv1 i hi1 hi2]
  have hbd : ∀ t, boundary st2 nd ft t ↔ boundary st1 nd ft t := by
    intro t
    unfold boundary
    constructor
    · rintro ⟨b1, b2, b3⟩
      rw [hfveq (t + 1) (by omega) (by omega), hfveq t b1 (by omega)] at b3
      exact ⟨b1, b2, b3⟩
    · rintro ⟨b1, b2, b3⟩
      rw [hfveq (t + 1) (by omega) (by omega), hfveq t b1 (by omega)]
      exact ⟨b1, b2, b3⟩
  have hsides : ∀ t, boundary st1 nd ft t →
      (seg st2.samples_idx nd.start_idx t).Perm (seg st1.samples_idx nd.start_idx t) := by
    rintro t ⟨b1, b2, b3⟩
    have hle := hasc1 t (t + 1) b1 (by omega) (by omega)
    rw [abs_of_nonneg (sub_nonneg.mpr hle)] at b3
    have hlt : vec_get st1.feature_values t 0 < vec_get st1.feature_values (t + 1) 0 := by
      linarith
    exact (sides_perm st1.samples_idx st2.samples_idx nd.start_idx t nd.end_idx
      (fun idx => decide (feat_val st1 f idx ≤ vec_get st1.feature_values t 0))
      h0 (by omega) (by omega) h2 hlen2 hperm
      (fun i hi1 hi2 => by
        rw [decide_eq_true_eq, ← hfv1 i hi1 (by omega)]
        exact hasc1 i t hi1 hi2 (by omega))
      (fun i hi1 hi2 => by
        rw [decide_eq_false_iff_not, ← hfv1 i (by omega) hi2]
        exact not_le.mpr (lt_of_lt_of_le hlt (hasc1 (t + 1) i (by omega) hi1 hi2)))
      (fun i hi1 hi2 => by
        rw [decide_eq_true_eq, hval i hi1 (by omega), ← hfv1 i hi1 (by omega)]
        exact hasc1 i t hi1 hi2 (by omega))
      (fun i hi1 hi2 => by
        rw [decide_eq_false_iff_not, hval i (by omega) hi2, ← hfv1 i (by omega) hi2]
        exact not_le.mpr (lt_of_lt_of_le hlt (hasc1 (t + 1) i (by omega) hi1 hi2)))).1
  have hLc : ∀ t, boundary st1 nd ft t → left_counts st2 nd t = left_counts st1 nd t := by
    intro t hb
    unfold left_counts
    exact count_class_occurences_congr st1 st2 _ _ hy hcl _ _ h0 (by have := hb.1; omega)
      (by have := hb.2.1; omega) (by have := hb.2.1; omega) (hsides t hb)
  have hMr : ∀ t, boundary st1 nd ft t →
      moved_right st2 nd (t + 1) = moved_right st1 nd (t + 1) := by
    intro t hb
    obtain ⟨b1, b2, _⟩ := hb
    obtain ⟨l1, e1⟩ := moved_right_general st1 nd (t + 1) h0 (by omega) (by omega) h2
    obtain ⟨l2, e2⟩ := moved_right_general st2 nd (t + 1) h0 (by omega) (by omega) hlen2
    rw [hvc] at l2 e2
    apply list_eq_of_vec_get _ _ (by rw [l1, l2])
    intro c hc0 hc1
    rw [l2] at hc1
    have e : t + 1 - 1 = t := by omega
    rw [e2 c hc0 hc1, e1 c hc0 hc1, e,
      class_count_of_perm st1 st2 hy nd.start_idx t (hsides t ⟨b1, b2, by assumption⟩) c]
  have hRs : ∀ t, boundary st1 nd ft t →
      swept_right_score st2 nd t = swept_right_score st1 nd t := by
    intro t hb
    unfold swept_right_score
    rw [hMr t hb, hsf, hk]
  have hLs : ∀ t, boundary st1 nd ft t → left_impurity st2 nd t = left_impurity st1 nd t := by
    intro t hb
    unfold left_impurity
    rw [hLc t hb, hsf, hk]
  have hW : ∀ t, boundary st1 nd ft t → swept_score st2 nd t = swept_score st1 nd t := by
    intro t hb
    unfold swept_score
    rw [hLs t hb, hRs t hb]
  obtain ⟨f1, s1⟩ := find_best_split_swept st1 nd ft ms sp1
  obtain ⟨f2, s2⟩ := find_best_split_swept st2 nd ft ms sp2
  obtain ⟨u1, u2, u3⟩ := sp_upto_unique st1 st2 nd ft ms _ _ _ _ _ _ _ _ _ hbd hW hLs hRs
    (fun t hb => ⟨hfveq t hb.1 (by have := hb.2.1; omega),
      hfveq (t + 1) (by have := hb.1; omega) (by have := hb.2.1; omega)⟩) s1 s2
  exact ⟨u1, u2, by rw [f1, f2, hsp], u3⟩

/-- The sweep gives the same `sp` on two arrangements of the range of a node that are both
ascending by the values of the feature. -/
theorem sweep_same (st1 st2 : decision_tree T) (nd : node T) (f : Int) (ft ms : T)
    (sp : split T) (hnd : node_in_range st1.samples_idx.length nd)
    (hlen2 : nd.end_idx < st2.samples_idx.length)
    (hperm : (seg st2.samples_idx nd.start_idx nd.end_idx).Perm
      (seg st1.samples_idx nd.start_idx nd.end_idx))
    (hy : st2.y = st1.y) (hX : st2.X = st1.X) (hldx : st2.ldx = st1.ldx)
    (hk : st2.n_class = st1.n_class) (hsf : st2.score_function = st1.score_function)
    (hcc : st2.count_classes = st1.count_classes)
    (hcl : st2.count_left_classes.length = st1.count_left_classes.length)
    (hcr : st2.count_right_classes = st1.count_right_classes)
    (hfv1 : ∀ i, nd.start_idx ≤ i → i ≤ nd.end_idx →
      vec_get st1.feature_values i 0 = feat_val st1 f (vec_get st1.samples_idx i 0))
    (hfv2 : ∀ i, nd.start_idx ≤ i → i ≤ nd.end_idx →
      vec_get st2.feature_values i 0 = feat_val st2 f (vec_get st2.samples_idx i 0))
    (hasc1 : ∀ i j, nd.start_idx ≤ i → i ≤ j → j ≤ nd.end_idx →
      vec_get st1.feature_values i 0 ≤ vec_get st1.feature_values j 0)
    (hasc2 : ∀ i j, nd.start_idx ≤ i → i ≤ j → j ≤ nd.end_idx →
      vec_get st2.feature_values i 0 ≤ vec_get st2.feature_values j 0)
    (hft : 0 < ft) :
    (find_best_split st2 nd ft ms sp).2.samp_idx = (find_best_split st1 nd ft ms sp).2.samp_idx
      ∧ (find_best_split st2 nd ft ms sp).2.score = (find_best_split st1 nd ft ms sp).2.score
      ∧ (find_best_split st2 nd ft ms sp).2.threshold
          = (find_best_split st1 nd ft ms sp).2.threshold
      ∧ (find_best_split st2 nd ft ms sp).2.left_score
          = (find_best_split st1 nd ft ms sp).2.left_score
      ∧ (find_best_split st2 nd ft ms sp).2.right_score
          = (find_best_split st1 nd ft ms sp).2.right_score
      ∧ (find_best_split st2 nd ft ms sp).2.feat_idx
          = (find_best_split st1 nd ft ms sp).2.feat_idx := by
  obtain ⟨u1, u2, u4, u3⟩ := sweep_same_core st1 st2 nd f ft ms sp sp rfl hnd hlen2 hperm hy
    hX hldx hk hsf hcl (by rw [hcc, hcr]) hfv1 hfv2 hasc1 hasc2 hft
  refine ⟨u1, u2, ?_⟩
  rcases u3 with ⟨n1, n2⟩ | ⟨t1, t2, t3⟩
  · obtain ⟨a1, a2, a3⟩ := find_best_split_none_frame st1 nd ft ms sp hnd.1 n1
    obtain ⟨b1, b2, b3⟩ := find_best_split_none_frame st2 nd ft ms sp hnd.1 n2
    exact ⟨by rw [a1, b1], by rw [a2, b2], by rw [a3, b3], u4⟩
  · exact ⟨t1, t2, t3, u4⟩

end arrangements

/-! ## The split of a node does not depend on the arrangement of its range -/

section best_same

variable {T : Type} [LinearOrderedField T]

theorem same_data_refl (s : decision_tree T) : same_data s s :=
  ⟨rfl, rfl, rfl, rfl, rfl, rfl, rfl, rfl, rfl, rfl, rfl, rfl, rfl, rfl, rfl⟩

theorem same_data_symm {s s' : decision_tree T} (h : same_data s s') : same_data s' s :=
  ⟨h.X.symm, h.ldx.symm, h.y.symm, h.n_class.symm, h.n_obs.symm, h.n_features.symm,
    h.nfeat_split.symm, h.features_idx.symm, h.score_function.symm, h.feat_thresh.symm,
    h.min_improvement.symm, h.sort_method.symm, h.max_depth.symm, h.min_node_sample.symm,
    h.min_split_score.symm⟩

theorem same_data_trans {a b c : decision_tree T} (h1 : same_data a b)
    (h2 : same_data b c) : same_data a c :=
  ⟨h2.X.trans h1.X, h2.ldx.trans h1.ldx, h2.y.trans h1.y, h2.n_class.trans h1.n_class,
    h2.n_obs.trans h1.n_obs, h2.n_features.trans h1.n_features,
    h2.nfeat_split.trans h1.nfeat_split, h2.features_idx.trans h1.features_idx,
    h2.score_function.trans h1.score_function, h2.feat_thresh.trans h1.feat_thresh,
    h2.min_improvement.trans h1.min_improvement, h2.sort_method.trans h1.sort_method,
    h2.max_depth.trans h1.max_depth, h2.min_node_sample.trans h1.min_node_sample,
    h2.min_split_score.trans h1.min_split_score⟩

theorem before_features_features_idx (E : externals T) (fr : fit_frame T) (nd : node T)
    (h : ¬ fr.st.nfeat_split < fr.st.n_features) :
    (before_features E fr nd).features_idx = fr.st.features_idx := by
  unfold before_features
  simp only
  split
  · rename_i hc
    exact absurd hc h
  · rfl

theorem sorted_view_of (E : externals T) (hE : E.conforms) (fr : fit_frame T)
    (nd : node T) (hnd : node_in_range fr.st.samples_idx.length nd)
    (hfv : fr.st.feature_values.length = fr.st.samples_idx.length)
    (hl : fr.st.count_left_classes.length = fr.st.count_classes.length)
    (hr : fr.st.count_right_classes.length = fr.st.count_classes.length)
    (hm : valid_sort_method fr.st) (j : Int) :
    sorted_view fr nd (vec_get (features_upto E fr nd j).st.features_idx j 0)
      (sort_samples E (features_upto E fr nd j).st nd
        (vec_get (features_upto E fr nd j).st.features_idx j 0)) := by
  obtain ⟨h0, h1, h2, h3⟩ := hnd
  have hU := features_upto_inv E hE fr nd ⟨h0, h1, h2, h3⟩ hfv j
  obtain ⟨hUl, hUr, hUc⟩ := features_upto_hist_len E fr nd hl hr j
  obtain ⟨fi, mt, cc, eB, hcc⟩ := before_features_frame E fr nd
  have hBc := before_features_counts E fr nd
  have hfi := features_upto_features_idx E fr nd j
  obtain ⟨v, fv, cl, cr, eU⟩ := hU.hst
  have hpU : perm_within fr.st.samples_idx (features_upto E fr nd j).st.samples_idx
      nd.start_idx nd.end_idx := by
    have := hU.hperm
    rw [eB] at this
    exact this
  have hUfv : (features_upto E fr nd j).st.feature_values.length
      = fr.st.feature_values.length := by
    have := hU.hfv
    rw [eB] at this
    exact this
  have hUy : (features_upto E fr nd j).st.y = fr.st.y := by rw [eU, eB]
  have hUX : (features_upto E fr nd j).st.X = fr.st.X := by rw [eU, eB]
  have hUld : (features_upto E fr nd j).st.ldx = fr.st.ldx := by rw [eU, eB]
  have hUs : (features_upto E fr nd j).st.score_function = fr.st.score_function := by
    rw [eU, eB]
  have hUk : (features_upto E fr nd j).st.n_class = fr.st.n_class := by rw [eU, eB]
  have hUft : (features_upto E fr nd j).st.feat_thresh = fr.st.feat_thresh := by rw [eU, eB]
  have hUsm : (features_upto E fr nd j).st.sort_method = fr.st.sort_method := by rw [eU, eB]
  have hUcc : (features_upto E fr nd j).st.count_classes
      = count_class_occurences fr.st fr.st.count_classes nd.start_idx nd.end_idx := by
    rw [← hBc, eU]
  have hUlen := perm_within_length hpU
  have hndU : node_in_range (features_upto E fr nd j).st.samples_idx.length nd :=
    ⟨h0, h1, by rw [hUlen]; exact h2, h3⟩
  have hfvU : (features_upto E fr nd j).st.feature_values.length
      = (features_upto E fr nd j).st.samples_idx.length := by rw [hUfv, hfv, hUlen]
  have hmU : valid_sort_method (features_upto E fr nd j).st := by
    unfold valid_sort_method at hm ⊢
    rw [hUsm]; exact hm
  rw [hfi]
  generalize (before_features E fr nd).features_idx = F at *
  generalize (features_upto E fr nd j).st = U at *
  have hpS := sort_samples_perm_within E hE U nd (vec_get F j 0) hndU
  have hpFS := perm_within_trans hpU hpS
  exact ⟨perm_within_length hpFS, perm_within_seg hpFS h1, hUy, hUX, hUld, hUk, hUs, hUft,
    hUcc, hUl, hUr,
    fun i hi1 hi2 => by
      rw [sort_samples_feature_values E U nd (vec_get F j 0) h0
        (by rw [hfvU, hUlen]; exact h2) i hi1 hi2]
      exact feat_val_congr fr.st U hUX hUld _ _,
    fun i k hi hik hk => sort_samples_ascending E hE U nd (vec_get F j 0) hndU hfvU hmU i k
      hi hik hk⟩

/-- The candidates of a feature on two arrangements of the range of a node. -/
theorem candidate_same (E : externals T) (hE : E.conforms) (fr1 fr2 : fit_frame T)
    (nd : node T) (hd : same_data fr1.st fr2.st)
    (hnd : node_in_range fr1.st.samples_idx.length nd)
    (hlen : nd.end_idx < fr2.st.samples_idx.length)
    (hfv1 : fr1.st.feature_values.length = fr1.st.samples_idx.length)
    (hfv2 : fr2.st.feature_values.length = fr2.st.samples_idx.length)
    (hc : fr2.st.count_classes.length = fr1.st.count_classes.length)
    (hl1 : fr1.st.count_left_classes.length = fr1.st.count_classes.length)
    (hr1 : fr1.st.count_right_classes.length = fr1.st.count_classes.length)
    (hl2 : fr2.st.count_left_classes.length = fr2.st.count_classes.length)
    (hr2 : fr2.st.count_right_classes.length = fr2.st.count_classes.length)
    (hperm : (seg fr2.st.samples_idx nd.start_idx nd.end_idx).Perm
      (seg fr1.st.samples_idx nd.start_idx nd.end_idx))
    (hm : valid_sort_method fr1.st) (hft : 0 < fr1.st.feat_thresh)
    (hnf : ¬ fr1.st.nfeat_split < fr1.st.n_features) (j : Int) :
    (candidate E fr2 nd j).score = (candidate E fr1 nd j).score
      ∧ ((candidate E fr1 nd j).samp_idx ≠ -1 →
          candidate E fr2 nd j = candidate E fr1 nd j) := by
  obtain ⟨h0, h1, h2, h3⟩ := hnd
  have hm2 : valid_sort_method fr2.st := by
    unfold valid_sort_method at hm ⊢
    rw [hd.sort_method]; exact hm
  have hnf2 : ¬ fr2.st.nfeat_split < fr2.st.n_features := by
    rw [hd.nfeat_split, hd.n_features]; exact hnf
  have v1 := sorted_view_of E hE fr1 nd ⟨h0, h1, h2, h3⟩ hfv1 hl1 hr1 hm j
  have v2 := sorted_view_of E hE fr2 nd ⟨h0, h1, hlen, h3⟩ hfv2 hl2 hr2 hm2 j
  have hF1 := before_features_features_idx E fr1 nd hnf
  have hF2 := before_features_features_idx E fr2 nd hnf2
  have hfi1 := features_upto_features_idx E fr1 nd j
  have hfi2 := features_upto_features_idx E fr2 nd j
  have hc1 : candidate E fr1 nd j
      = (find_best_split
          (sort_samples E (features_upto E fr1 nd j).st nd
            (vec_get (features_upto E fr1 nd j).st.features_idx j 0)) nd
          (sort_samples E (features_upto E fr1 nd j).st nd
            (vec_get (features_upto E fr1 nd j).st.features_idx j 0)).feat_thresh
          (nd.score - fr1.st.min_improvement)
          { (features_upto E fr1 nd j).sp with
            feat_idx := vec_get (features_upto E fr1 nd j).st.features_idx j 0 }).2 := rfl
  have hc2 : candidate E fr2 nd j
      = (find_best_split
          (sort_samples E (features_upto E fr2 nd j).st nd
            (vec_get (features_upto E fr2 nd j).st.features_idx j 0)) nd
          (sort_samples E (features_upto E fr2 nd j).st nd
            (vec_get (features_upto E fr2 nd j).st.features_idx j 0)).feat_thresh
          (nd.score - fr2.st.min_improvement)
          { (features_upto E fr2 nd j).sp with
            feat_idx := vec_get (features_upto E fr2 nd j).st.features_idx j 0 }).2 := rfl
  rw [hfi1, hF1] at v1
  rw [hfi2, hF2, hd.features_idx] at v2
  rw [hfi1, hF1] at hc1
  rw [hfi2, hF2, hd.features_idx, hd.min_improvement] at hc2
  generalize (features_upto E fr1 nd j).sp = sp1 at *
  generalize (features_upto E fr2 nd j).sp = sp2 at *
  generalize sort_samples E (features_upto E fr1 nd j).st nd
    (vec_get fr1.st.features_idx j 0) = S1 at *
  generalize sort_samples E (features_upto E fr2 nd j).st nd
    (vec_get fr1.st.features_idx j 0) = S2 at *
  have hcceq : S2.count_classes = S1.count_classes := by
    rw [v1.hcc, v2.hcc]
    exact count_class_occurences_congr fr1.st fr2.st _ _ hd.y hc _ _ h0 h1 h2 hlen hperm
  have hvc : vec_copy S2.count_classes S2.count_right_classes
      = vec_copy S1.count_classes S1.count_right_classes := by
    have e1 : S1.count_right_classes.length = S1.count_classes.length := by
      rw [v1.hcr, v1.hcc, length_count_class_occurences]
    have e2 : S2.count_right_classes.length = S2.count_classes.length := by
      rw [v2.hcr, v2.hcc, length_count_class_occurences]
    unfold vec_copy
    rw [List.drop_eq_nil_of_le (by omega), List.drop_eq_nil_of_le (by omega), hcceq]
  have hft2 : S2.feat_thresh = S1.feat_thresh := by rw [v2.hft, v1.hft, hd.feat_thresh]
  have key := sweep_same_core S1 S2 nd (vec_get fr1.st.features_idx j 0) S1.feat_thresh
    (nd.score - fr1.st.min_improvement)
    { sp1 with feat_idx := vec_get fr1.st.features_idx j 0 }
    { sp2 with feat_idx := vec_get fr1.st.features_idx j 0 } rfl
    ⟨h0, h1, by rw [v1.hlen]; exact h2, h3⟩ (by rw [v2.hlen]; exact hlen)
    (v2.hseg.trans (hperm.trans v1.hseg.symm))
    (by rw [v2.hy, v1.hy, hd.y]) (by rw [v2.hX, v1.hX, hd.X])
    (by rw [v2.hldx, v1.hldx, hd.ldx]) (by rw [v2.hk, v1.hk, hd.n_class])
    (by rw [v2.hsf, v1.hsf, hd.score_function]) (by rw [v2.hcl, v1.hcl, hc]) hvc
    (fun i hi1 hi2 => by
      rw [v1.hfv i hi1 hi2]
      exact (feat_val_congr fr1.st S1 v1.hX v1.hldx _ _).symm)
    (fun i hi1 hi2 => by
      rw [v2.hfv i hi1 hi2]
      exact (feat_val_congr fr2.st S2 v2.hX v2.hldx _ _).symm)
    v1.hasc v2.hasc (by rw [v1.hft]; exact hft)
  rw [hft2] at hc2
  rw [← hc1, ← hc2] at key
  obtain ⟨k1, k2, k3, k4⟩ := key
  refine ⟨k2, fun hrec => ?_⟩
  rcases k4 with ⟨n1, _⟩ | ⟨t1, t2, t3⟩
  · exact absurd n1 hrec
  · generalize candidate E fr1 nd j = c1 at *
    generalize candidate E fr2 nd j = c2 at *
    cases c1
    cases c2
    simp only at k1 k2 k3 t1 t2 t3
    simp only [k1, k2, k3, t1, t2, t3]

theorem features_upto_zero (E : externals T) (fr : fit_frame T) (nd : node T) (j : Int)
    (hj : j ≤ 0) :
    features_upto E fr nd j
      = { st := before_features E fr nd, sp := fr.sp,
          best_split := { fr.best_split with score := nd.score, feat_idx := -1 } } := by
  unfold features_upto
  rw [for_range_of_le _ _ _ _ hj]

/-- The value of `best_split` along the loop over the candidate features on two
arrangements of the range of a node. -/
theorem best_upto_same (E : externals T) (hE : E.conforms) (fr1 fr2 : fit_frame T)
    (nd : node T) (hd : same_data fr1.st fr2.st)
    (hnd : node_in_range fr1.st.samples_idx.length nd)
    (hlen : nd.end_idx < fr2.st.samples_idx.length)
    (hfv1 : fr1.st.feature_values.length = fr1.st.samples_idx.length)
    (hfv2 : fr2.st.feature_values.length = fr2.st.samples_idx.length)
    (hc : fr2.st.count_classes.length = fr1.st.count_classes.length)
    (hl1 : fr1.st.count_left_classes.length = fr1.st.count_classes.length)
    (hr1 : fr1.st.count_right_classes.length = fr1.st.count_classes.length)
    (hl2 : fr2.st.count_left_classes.length = fr2.st.count_classes.length)
    (hr2 : fr2.st.count_right_classes.length = fr2.st.count_classes.length)
    (hperm : (seg fr2.st.samples_idx nd.start_idx nd.end_idx).Perm
      (seg fr1.st.samples_idx nd.start_idx nd.end_idx))
    (hm : valid_sort_method fr1.st) (hft : 0 < fr1.st.feat_thresh)
    (hnf : ¬ fr1.st.nfeat_split < fr1.st.n_features) :
    ∀ n : Nat, best_rel (features_upto E fr1 nd n).best_split
      (features_upto E fr2 nd n).best_split := by
  intro n
  induction n with
  | zero =>
    rw [features_upto_zero E fr1 nd _ (by simp), features_upto_zero E fr2 nd _ (by simp)]
    exact ⟨rfl, rfl, fun h => absurd rfl h⟩
  | succ n ih =>
    have e1 := features_upto_succ E fr1 nd n (by omega)
    have e2 := features_upto_succ E fr2 nd n (by omega)
    have hb1 := feature_loop_body_best E fr1 nd n
    have hb2 := feature_loop_body_best E fr2 nd n
    rw [← e1] at hb1
    rw [← e2] at hb2
    have hcs := candidate_same E hE fr1 fr2 nd hd hnd hlen hfv1 hfv2 hc hl1 hr1 hl2 hr2 hperm
      hm hft hnf n
    have hcc := (candidate_cases E fr1 nd n hnd.1).2
    have hsc := (features_upto_inv E hE fr1 nd hnd hfv1 n).hscore
    push_cast
    rw [hb1, hb2, split_copy_eq, split_copy_eq, hcs.1, ih.1]
    split
    · rename_i hlt
      have hrec : (candidate E fr1 nd n).samp_idx ≠ -1 := by
        rcases hcc with ⟨_, h⟩ | ⟨h, _⟩
        · rw [h] at hlt
          exact absurd (lt_of_lt_of_le hlt hsc) (lt_irrefl _)
        · exact h
      have := hcs.2 hrec
      exact ⟨by rw [this], by rw [this], fun _ => this⟩
    · exact ih

/-- With every feature tried at every node and a positive `feat_thresh`, the loop over the
candidate features ends with the same `best_split` on two arrangements of the range of a
node, whatever `sp` and `best_split` held on entry. -/
theorem best_same (E : externals T) (hE : E.conforms) (fr1 fr2 : fit_frame T)
    (nd : node T) (hd : same_data fr1.st fr2.st)
    (hnd : node_in_range fr1.st.samples_idx.length nd)
    (hlen : nd.end_idx < fr2.st.samples_idx.length)
    (hfv1 : fr1.st.feature_values.length = fr1.st.samples_idx.length)
    (hfv2 : fr2.st.feature_values.length = fr2.st.samples_idx.length)
    (hc : fr2.st.count_classes.length = fr1.st.count_classes.length)
    (hl1 : fr1.st.count_left_classes.length = fr1.st.count_classes.length)
    (hr1 : fr1.st.count_right_classes.length = fr1.st.count_classes.length)
    (hl2 : fr2.st.count_left_classes.length = fr2.st.count_classes.length)
    (hr2 : fr2.st.count_right_classes.length = fr2.st.count_classes.length)
    (hperm : (seg fr2.st.samples_idx nd.start_idx nd.end_idx).Perm
      (seg fr1.st.samples_idx nd.start_idx nd.end_idx))
    (hm : valid_sort_method fr1.st) (hft : 0 < fr1.st.feat_thresh)
    (hnf : ¬ fr1.st.nfeat_split < fr1.st.n_features) :
    best_rel (after_features E fr1 nd).best_split (after_features E fr2 nd).best_split := by
  obtain ⟨fi1, mt1, cc1, eB1, _⟩ := before_features_frame E fr1 nd
  obtain ⟨fi2, mt2, cc2, eB2, _⟩ := before_features_frame E fr2 nd
  have n1 : (before_features E fr1 nd).nfeat_split = fr1.st.nfeat_split := by rw [eB1]
  have n2 : (before_features E fr2 nd).nfeat_split = fr1.st.nfeat_split := by
    rw [eB2]; exact hd.nfeat_split
  rw [after_features_eq_upto, after_features_eq_upto, n1, n2]
  by_cases hn : 0 ≤ fr1.st.nfeat_split
  · have key := best_upto_same E hE fr1 fr2 nd hd hnd hlen hfv1 hfv2 hc hl1 hr1 hl2 hr2 hperm
      hm hft hnf fr1.st.nfeat_split.toNat
    rw [Int.toNat_of_nonneg hn] at key
    exact key
  · rw [features_upto_zero E fr1 nd _ (by omega), features_upto_zero E fr2 nd _ (by omega)]
    exact ⟨rfl, rfl, fun h => absurd rfl h⟩

end best_same

/-! ## What the fitted tree records of the search at every node -/

section history

variable {T : Type} [LinearOrderedField T]

/-- The search of a split for a node on two instances with the same data, the range of the
node in the one a rearrangement of its range in the other. -/
theorem best_transfer (E : externals T) (hE : E.conforms) (fr1 fr2 : fit_frame T)
    (nd : node T) (ok1 : search_ok fr1.st) (ok2 : search_ok fr2.st)
    (hd : same_data fr1.st fr2.st) (hnd : node_in_range fr1.st.samples_idx.length nd)
    (hlen : nd.end_idx < fr2.st.samples_idx.length)
    (hperm : (seg fr2.st.samples_idx nd.start_idx nd.end_idx).Perm
      (seg fr1.st.samples_idx nd.start_idx nd.end_idx)) :
    best_rel (after_features E fr1 nd).best_split (after_features E fr2 nd).best_split :=
  best_same E hE fr1 fr2 nd hd hnd hlen ok1.hfv ok2.hfv
    (by rw [ok2.hcc, ok1.hcc, hd.n_class]) ok1.hl ok1.hr ok2.hl ok2.hr hperm ok1.hm ok1.hft
    ok1.hnf

theorem enqueued_spec (st : decision_tree T) (s : T) (c : node T) :
    (∀ x ∈ st.nodes_to_treat, x ∈ (enqueued st s c).nodes_to_treat)
      ∧ (st.n_nodes - 1 ∈ (enqueued st s c).nodes_to_treat
        ∨ ¬ (st.min_split_score < s ∧ st.min_node_sample ≤ c.n_samples
          ∧ c.depth < st.max_depth)) := by
  unfold enqueued
  split
  · exact ⟨fun x hx => List.mem_append_left _ hx, Or.inl (by simp)⟩
  · rename_i hc
    exact ⟨fun x hx => hx, Or.inr (fun h => hc ⟨h.1, h.2.1, h.2.2⟩)⟩

/-- The queue at the end of an iteration that splits a node holds what it held, and each
child unless the child failed one of the three conditions. -/
theorem split_state_queue_spec (stA : decision_tree T) (q : Int) (nd : node T)
    (b : split T) :
    (∀ x ∈ stA.nodes_to_treat, x ∈ (split_state stA q nd b).nodes_to_treat)
      ∧ (stA.n_nodes ∈ (split_state stA q nd b).nodes_to_treat
        ∨ ¬ (stA.min_split_score < (right_child stA q nd b).score
          ∧ stA.min_node_sample ≤ (right_child stA q nd b).n_samples
          ∧ (right_child stA q nd b).depth < stA.max_depth))
      ∧ (stA.n_nodes + 1 ∈ (split_state stA q nd b).nodes_to_treat
        ∨ ¬ (stA.min_split_score < (left_child stA q nd b).score
          ∧ stA.min_node_sample ≤ (left_child stA q nd b).n_samples
          ∧ (left_child stA q nd b).depth < stA.max_depth)) := by
  have eR1 : (right_added stA q nd b).min_split_score = stA.min_split_score := by
    unfold right_added; rw [enqueued_min_split_score]; rfl
  have eR2 : (right_added stA q nd b).min_node_sample = stA.min_node_sample := by
    unfold right_added; rw [enqueued_min_node_sample']; rfl
  have eR3 : (right_added stA q nd b).max_depth = stA.max_depth := by
    unfold right_added; rw [enqueued_max_depth']; rfl
  obtain ⟨r1, r2⟩ := enqueued_spec
    (with_child (after_partition stA q nd b) q false b.right_score b.samp_idx
      (split_node nd b))
    b.right_score
    (child_node (after_partition stA q nd b) (split_node nd b) false b.right_score b.samp_idx)
  obtain ⟨l1, l2⟩ := enqueued_spec
    (with_child (right_added stA q nd b) q true b.left_score b.samp_idx
      (linked_parent (after_partition stA q nd b) (split_node nd b) false))
    b.left_score
    (child_node (right_added stA q nd b)
      (linked_parent (after_partition stA q nd b) (split_node nd b) false) true
      b.left_score b.samp_idx)
  have r1' : ∀ x ∈ stA.nodes_to_treat, x ∈ (right_added stA q nd b).nodes_to_treat := r1
  have r2' : stA.n_nodes + 1 - 1 ∈ (right_added stA q nd b).nodes_to_treat
      ∨ ¬ (stA.min_split_score < (right_child stA q nd b).score
          ∧ stA.min_node_sample ≤ (right_child stA q nd b).n_samples
          ∧ (right_child stA q nd b).depth < stA.max_depth) := r2
  have l1' : ∀ x ∈ (right_added stA q nd b).nodes_to_treat,
      x ∈ (split_state stA q nd b).nodes_to_treat := l1
  have l2' : (right_added stA q nd b).n_nodes + 1 - 1
        ∈ (split_state stA q nd b).nodes_to_treat
      ∨ ¬ ((right_added stA q nd b).min_split_score < (left_child stA q nd b).score
          ∧ (right_added stA q nd b).min_node_sample ≤ (left_child stA q nd b).n_samples
          ∧ (left_child stA q nd b).depth < (right_added stA q nd b).max_depth) := l2
  rw [right_added_n_nodes, eR1, eR2, eR3] at l2'
  have e1 : stA.n_nodes + 1 - 1 = stA.n_nodes := by omega
  have e2 : stA.n_nodes + 1 + 1 - 1 = stA.n_nodes + 1 := by omega
  rw [e1] at r2'
  rw [e2] at l2'
  refine ⟨fun x hx => l1' x (r1' x hx), ?_, l2'⟩
  rcases r2' with h | h
  · exact Or.inl (l1' _ h)
  · exact Or.inr h

theorem after_features_features_idx (E : externals T) (fr : fit_frame T) (nd : node T)
    (h : ¬ fr.st.nfeat_split < fr.st.n_features) :
    (after_features E fr nd).st.features_idx = fr.st.features_idx := by
  rw [after_features_eq_upto, features_upto_features_idx,
    before_features_features_idx E fr nd h]

/-- An iteration of the loop of `fit` that shuffles no feature keeps the data and the
settings of the search. -/
theorem same_data_step (E : externals T) (hE : E.conforms) (fr fr' : fit_frame T)
    (hi : fit_inv fr.st) (hnf : ¬ fr.st.nfeat_split < fr.st.n_features)
    (hne : fr.st.nodes_to_treat ≠ []) (hs : fit_step E fr = outcome.done fr') :
    same_data fr.st fr'.st := by
  obtain ⟨nd, hnd, hmem, hq, _, hf, hperm, hss, hcase⟩ :=
    fit_step_view E hE fr fr' hi hne hs
  have hA := after_features_features_idx E fr nd hnf
  have hfi : fr'.st.features_idx = fr.st.features_idx := by
    rcases hcase with hv | hv
    · rw [hv.heq]; exact hA
    · obtain ⟨tree, depth, cc, cp, nl, queue, e⟩ := split_state_frame
        (after_features E fr nd).st (popped_idx fr) nd (after_features E fr nd).best_split
      rw [hv.heq, e]
      exact hA
  exact ⟨hss.X, hss.ldx, hss.y, hss.n_class, hss.n_obs, hss.n_features, hss.nfeat_split, hfi,
    hss.score_function, hss.feat_thresh, hss.min_improvement, hss.sort_method, hss.max_depth,
    hss.min_node_sample, hss.min_split_score⟩

theorem search_ok_of (st : decision_tree T) (hi : fit_inv st) (hS : score_inv st)
    (hm : valid_sort_method st) (hft : 0 < st.feat_thresh)
    (hnf : ¬ st.nfeat_split < st.n_features) : search_ok st :=
  ⟨hi.range.hfv, hS.hl, hS.hr, hi.range.hcc, hm, hft, hnf⟩

theorem may_expand_congr (s s' : decision_tree T) (hd : same_data s s') (nd : node T) :
    may_expand s' nd ↔ may_expand s nd := by
  unfold may_expand
  rw [hd.max_depth, hd.min_node_sample, hd.min_split_score]

theorem hist_inv_step (E : externals T) (hE : E.conforms) (fr fr' : fit_frame T)
    (hi : loop_inv fr.st) (hS : score_inv fr.st) (hH : hist_inv E fr.st)
    (hm : valid_sort_method fr.st) (hft : 0 < fr.st.feat_thresh)
    (hnf : ¬ fr.st.nfeat_split < fr.st.n_features)
    (hne : fr.st.nodes_to_treat ≠ []) (hs : fit_step E fr = outcome.done fr') :
    hist_inv E fr'.st := by
  obtain ⟨nd, hnd, hmem, hq, hleafnd, hf, hperm, hss, hcase⟩ :=
    fit_step_view E hE fr fr' hi.fit hne hs
  obtain ⟨nd2, hnd2, _, hpop⟩ := popped_of_done E fr fr' hne hs
  have hi' := fit_inv_step E hE fr fr' hi.fit hne hs
  have hS' := score_inv_step E hE fr fr' hi.fit hS hft hm hne hs
  have hd := same_data_step E hE fr fr' hi.fit hnf hne hs
  have hm' : valid_sort_method fr'.st := by
    unfold valid_sort_method at hm ⊢
    rw [hd.sort_method]; exact hm
  have hft' : 0 < fr'.st.feat_thresh := by rw [hd.feat_thresh]; exact hft
  have hnf' : ¬ fr'.st.nfeat_split < fr'.st.n_features := by
    rw [hd.nfeat_split, hd.n_features]; exact hnf
  have ok := search_ok_of fr.st hi.fit hS hm hft hnf
  have ok' := search_ok_of fr'.st hi' hS' hm' hft' hnf'
  have hlen := perm_within_length hperm
  have hq0 := (tree_at_bounds hnd).1
  have htr : ∀ x : node T, node_in_range fr.st.samples_idx.length x →
      in_or_out nd.start_idx nd.end_idx x.start_idx x.end_idx →
      best_rel (node_best E fr.st x) (node_best E fr'.st x) := fun x hx hio =>
    best_transfer E hE { st := fr.st, sp := E.uninit_split, best_split := E.uninit_split }
      { st := fr'.st, sp := E.uninit_split, best_split := E.uninit_split } x ok ok' hd hx
      (by rw [hlen]; exact hx.2.2.1) (seg_perm_of_in_or_out hperm hf.hrange.2.1 hx.1 hio)
  have hpopped : best_rel (after_features E fr nd).best_split (node_best E fr'.st nd) :=
    best_transfer E hE fr
      { st := fr'.st, sp := E.uninit_split, best_split := E.uninit_split } nd ok ok' hd
      hf.hrange (by rw [hlen]; exact hf.hrange.2.2.1) (perm_within_seg hperm hf.hrange.2.1)
  have hndform : nd = as_leaf nd := hH.hform _ nd hnd hq hleafnd
  have hrest : ∀ k, k ∈ fr.st.nodes_to_treat → k ≠ popped_idx fr →
      k ∈ (after_features E fr nd).st.nodes_to_treat := by
    intro k hk hkq
    rw [hf.hAq]
    rcases hpop with hp | hp
    · rw [hp] at hk
      rcases List.mem_append.mp hk with h | h
      · exact h
      · exact absurd (by simpa using h) hkq
    · rw [hp] at hk
      rcases List.mem_cons.mp hk with h | h
      · exact absurd h hkq
      · exact h
  have holdleaf : ∀ k kd, tree_at fr.st.tree k = some kd → k < fr.st.n_nodes →
      kd.is_leaf = true → k ≠ popped_idx fr →
      k ∈ (after_features E fr nd).st.nodes_to_treat ∨ (k ≠ 0 ∧ ¬ may_expand fr'.st kd)
        ∨ (k = 0 ∧ ¬ 0 < fr'.st.max_depth) ∨ (node_best E fr'.st kd).feat_idx = -1 := by
    intro k kd hk hkN hkl hkq
    rcases hH.hleaf k kd hk hkN hkl with h | h | h | h
    · exact Or.inl (hrest k h hkq)
    · exact Or.inr (Or.inl ⟨h.1, fun hc => h.2 ((may_expand_congr _ _ hd kd).mp hc)⟩)
    · exact Or.inr (Or.inr (Or.inl ⟨h.1, by rw [hd.max_depth]; exact h.2⟩))
    · right; right; right
      have := htr kd (hi.fit.range.hnode k kd hk hkN)
        (hi.fit.range.hlam _ hmem k hkN nd kd hnd hk)
      rw [this.2.1]
      exact h
  have holdsplit : ∀ k kd, tree_at fr.st.tree k = some kd → k < fr.st.n_nodes →
      kd.is_leaf = false → ∀ l0, tree_at fr.st.tree kd.left_child_idx = some l0 →
      (node_best E fr'.st (as_leaf kd)).feat_idx ≠ -1
        ∧ kd.feature = (node_best E fr'.st (as_leaf kd)).feat_idx
        ∧ kd.x_threshold = (node_best E fr'.st (as_leaf kd)).threshold
        ∧ l0.end_idx = (node_best E fr'.st (as_leaf kd)).samp_idx := by
    intro k kd hk hkN hkl l0 hl0
    have h := hH.hsplit k kd hk hkN hkl l0 hl0
    have := htr (as_leaf kd) (hi.fit.range.hnode k kd hk hkN)
      (hi.fit.range.hlam _ hmem k hkN nd kd hnd hk)
    rw [this.2.2 h.1]
    exact h
  rcases hcase with hv | hv
  · have hqueue : fr'.st.nodes_to_treat = (after_features E fr nd).st.nodes_to_treat := by
      rw [hv.heq]
    refine ⟨?_, ?_, ?_⟩
    · intro k kd hk hkN hkl
      rw [hv.htree] at hk
      rw [hv.hn] at hkN
      exact hH.hform k kd hk hkN hkl
    · intro k kd hk hkN hkl l hl
      rw [hv.htree] at hk hl
      rw [hv.hn] at hkN
      exact holdsplit k kd hk hkN hkl l hl
    · intro k kd hk hkN hkl
      rw [hv.htree] at hk
      rw [hv.hn] at hkN
      rw [hqueue]
      by_cases hkq : k = popped_idx fr
      · right; right; right
        rw [hkq, hnd] at hk
        rw [← Option.some.inj hk, hpopped.2.1]
        exact hv.hb
      · exact holdleaf k kd hk hkN hkl hkq
  · have hAn := hf.hAn
    obtain ⟨qs1, qs2, qs3⟩ := split_state_queue_spec (after_features E fr nd).st
      (popped_idx fr) nd (after_features E fr nd).best_split
    rw [← hv.heq] at qs1 qs2 qs3
    have hset1 : fr'.st.min_split_score = (after_features E fr nd).st.min_split_score :=
      hss.min_split_score.trans (same_settings_after_features E fr nd).min_split_score.symm
    have hset2 : fr'.st.min_node_sample = (after_features E fr nd).st.min_node_sample :=
      hss.min_node_sample.trans (same_settings_after_features E fr nd).min_node_sample.symm
    have hset3 : fr'.st.max_depth = (after_features E fr nd).st.max_depth :=
      hss.max_depth.trans (same_settings_after_features E fr nd).max_depth.symm
    have hN1 : 1 ≤ fr.st.n_nodes := hi.fit.tree.ok.hN.1
    refine ⟨?_, ?_, ?_⟩
    · intro k kd hk hkN hkl
      rcases split_view_nodes E fr fr' nd hv hq0 k kd hk hkN with
        ⟨e0, e⟩ | ⟨e0, e⟩ | ⟨e0, e⟩ | ⟨hkq, hk4, hk5⟩
      · rw [e] at hkl
        exact absurd hkl (by simp [parent_after])
      · rw [e]; rfl
      · rw [e]; rfl
      · exact hH.hform k kd hk5 hk4 hkl
    · intro k kd hk hkN hkl l hl
      rcases split_view_nodes E fr fr' nd hv hq0 k kd hk hkN with
        ⟨e0, e⟩ | ⟨e0, e⟩ | ⟨e0, e⟩ | ⟨hkq, hk4, hk5⟩
      · have ea : as_leaf kd = nd := by
          rw [e]
          exact hndform.symm
        have hl' : tree_at fr'.st.tree (fr.st.n_nodes + 1) = some l := by
          rw [← hAn]
          rw [e] at hl
          exact hl
        rw [hv.hleft] at hl'
        have hbest := hpopped.2.2 hv.hb
        rw [ea, hbest, e, ← Option.some.inj hl']
        exact ⟨hv.hb, rfl, rfl, rfl⟩
      · rw [e] at hkl
        exact absurd hkl (by simp [right_child_fields])
      · rw [e] at hkl
        exact absurd hkl (by simp [left_child_fields])
      · have hc := hi.fit.tree.hchild k kd hk5 hk4 hkl
        by_cases hlq : kd.left_child_idx = popped_idx fr
        · rw [hlq, hv.hpar] at hl
          have := holdsplit k kd hk5 hk4 hkl nd (by rw [hlq]; exact hnd)
          rw [← Option.some.inj hl]
          exact this
        · rw [hv.hother _ hlq hc.2.2] at hl
          exact holdsplit k kd hk5 hk4 hkl l hl
    · intro k kd hk hkN hkl
      rcases split_view_nodes E fr fr' nd hv hq0 k kd hk hkN with
        ⟨e0, e⟩ | ⟨e0, e⟩ | ⟨e0, e⟩ | ⟨hkq, hk4, hk5⟩
      · rw [e] at hkl
        exact absurd hkl (by simp [parent_after])
      · rcases qs2 with h | h
        · left
          rw [e0, ← hAn]
          exact h
        · right; left
          refine ⟨by omega, fun hc => h ?_⟩
          unfold may_expand at hc
          rw [e, hset1, hset2, hset3] at hc
          exact ⟨hc.2.2, hc.2.1, hc.1⟩
      · rcases qs3 with h | h
        · left
          rw [e0, ← hAn]
          exact h
        · right; left
          refine ⟨by omega, fun hc => h ?_⟩
          unfold may_expand at hc
          rw [e, hset1, hset2, hset3] at hc
          exact ⟨hc.2.2, hc.2.1, hc.1⟩
      · rcases holdleaf k kd hk5 hk4 hkl hkq with h | h
        · exact Or.inl (qs1 k h)
        · exact Or.inr h

theorem hist_inv_entry (E : externals T) (st1 : decision_tree T) (hn : st1.tree = [])
    (hq : st1.nodes_to_treat = []) (hp : st1.predict_proba_opt = true) :
    hist_inv E (queue_root (rooted (configured E st1))) := by
  obtain ⟨hN, _, _, _, h0, hall⟩ := entry_nodes E st1 hn hq hp
  refine ⟨?_, ?_, ?_⟩
  · intro k kd hk hkN _
    rw [(hall k kd hk hkN).2]
    rfl
  · intro k kd hk hkN hkl
    rw [(hall k kd hk hkN).2] at hkl
    exact absurd hkl (by simp [root_node_fields])
  · intro k kd hk hkN _
    have hk0 := (hall k kd hk hkN).1
    by_cases hmd : 0 < (rooted (configured E st1)).max_depth
    · left
      rw [hk0]
      unfold queue_root
      rw [if_pos hmd]
      simp
    · right; right; left
      refine ⟨hk0, ?_⟩
      unfold queue_root
      rw [if_neg hmd]
      exact hmd

end history

/-! ## The fitted tree as the record of a run -/

section run

variable {T : Type} [LinearOrderedField T]

theorem below_mono (t t' : List (node T))
    (h : ∀ m x, tree_at t m = some x → x.is_leaf = false → tree_at t' m = some x)
    (k j : Int) (hb : below t k j) : below t' k j := by
  induction hb with
  | self k => exact below.self k
  | left k j nd hk hl _ ih => exact below.left k j nd (h k nd hk hl) hl ih
  | right k j nd hk hl _ ih => exact below.right k j nd (h k nd hk hl) hl ih

theorem below_trans (t : List (node T)) (k j m : Int) (h1 : below t k j)
    (h2 : below t j m) : below t k m := by
  induction h1 with
  | self k => exact h2
  | left k j nd hk hl _ ih => exact below.left k m nd hk hl (ih h2)
  | right k j nd hk hl _ ih => exact below.right k m nd hk hl (ih h2)

theorem reach_inv_step (E : externals T) (hE : E.conforms) (fr fr' : fit_frame T)
    (hi : fit_inv fr.st) (h : reach_inv fr.st) (hne : fr.st.nodes_to_treat ≠ [])
    (hs : fit_step E fr = outcome.done fr') : reach_inv fr'.st := by
  obtain ⟨nd, hnd, hmem, hq, hleafnd, hf, hperm, hss, hcase⟩ :=
    fit_step_view E hE fr fr' hi hne hs
  have hq0 := (tree_at_bounds hnd).1
  intro k hk0 hkN
  rcases hcase with hv | hv
  · rw [hv.htree]
    rw [hv.hn] at hkN
    exact h k hk0 hkN
  · have hmono : ∀ m x, tree_at fr.st.tree m = some x → x.is_leaf = false →
        tree_at fr'.st.tree m = some x := by
      intro m x hm hx
      have hb := tree_at_bounds hm
      have hmq : m ≠ popped_idx fr := by
        intro e
        rw [e, hnd] at hm
        rw [← Option.some.inj hm, hleafnd] at hx
        exact absurd hx (by simp)
      have hmN : m < fr.st.n_nodes := by
        by_contra hc
        have := hi.tree.ok.hfresh m (by omega) hb.2
        rw [hm] at this
        rw [Option.some.inj this] at hx
        exact absurd hx (by simp [fresh_node])
      rw [hv.hother m hmq hmN]
      exact hm
    have hold : ∀ m, 0 ≤ m → m < fr.st.n_nodes → below fr'.st.tree 0 m := fun m h0 h1 =>
      below_mono _ _ hmono 0 m (h m h0 h1)
    rw [hv.hn] at hkN
    by_cases hk1 : k < fr.st.n_nodes
    · exact hold k hk0 hk1
    · have hk' : k = fr.st.n_nodes ∨ k = fr.st.n_nodes + 1 := by omega
      rcases hk' with hk' | hk'
      · refine below_trans _ _ _ _ (hold _ hq0 hq)
          (below.right _ _ _ hv.hpar rfl ?_)
        show below fr'.st.tree (after_features E fr nd).st.n_nodes k
        rw [hf.hAn, hk']
        exact below.self _
      · refine below_trans _ _ _ _ (hold _ hq0 hq)
          (below.left _ _ _ hv.hpar rfl ?_)
        show below fr'.st.tree ((after_features E fr nd).st.n_nodes + 1) k
        rw [hf.hAn, hk']
        exact below.self _

theorem same_data_entry (E : externals T) (st1 : decision_tree T) :
    same_data (configured E st1) (queue_root (rooted (configured E st1))) := by
  obtain ⟨queue, eq, _⟩ := queue_root_frame (rooted (configured E st1))
  rw [eq]
  exact ⟨rfl, rfl, rfl, rfl, rfl, rfl, rfl, rfl, rfl, rfl, rfl, rfl, rfl, rfl, rfl⟩

theorem samples_entry (E : externals T) (st1 : decision_tree T) :
    (queue_root (rooted (configured E st1))).samples_idx = (configured E st1).samples_idx := by
  obtain ⟨queue, eq, _⟩ := queue_root_frame (rooted (configured E st1))
  rw [eq]
  rfl

theorem hist_inv_trained (E : externals T) (hE : E.conforms) (s : decision_tree T)
    (hi : fit_inv s) (ok : search_ok s) (h : hist_inv E s) :
    hist_inv E ({ s with model_trained := true } : decision_tree T) := by
  have ok' : search_ok ({ s with model_trained := true } : decision_tree T) :=
    ⟨ok.hfv, ok.hl, ok.hr, ok.hcc, ok.hm, ok.hft, ok.hnf⟩
  have htr : ∀ x : node T, node_in_range s.samples_idx.length x →
      best_rel (node_best E s x)
        (node_best E ({ s with model_trained := true } : decision_tree T) x) := fun x hx =>
    best_transfer E hE { st := s, sp := E.uninit_split, best_split := E.uninit_split }
      { st := { s with model_trained := true }, sp := E.uninit_split,
        best_split := E.uninit_split } x ok ok'
      ⟨rfl, rfl, rfl, rfl, rfl, rfl, rfl, rfl, rfl, rfl, rfl, rfl, rfl, rfl, rfl⟩ hx hx.2.2.1
      (List.Perm.refl _)
  refine ⟨h.hform, ?_, ?_⟩
  · intro k kd hk hkN hkl l hl
    have h1 := h.hsplit k kd hk hkN hkl l hl
    have := htr (as_leaf kd) (hi.range.hnode k kd hk hkN)
    rw [this.2.2 h1.1]
    exact h1
  · intro k kd hk hkN hkl
    rcases h.hleaf k kd hk hkN hkl with h1 | h1 | h1 | h1
    · exact Or.inl h1
    · exact Or.inr (Or.inl h1)
    · exact Or.inr (Or.inr (Or.inl h1))
    · right; right; right
      have := htr kd (hi.range.hnode k kd hk hkN)
      rw [this.2.1]
      exact h1

/-- The record that a successful `fit` leaves. -/
theorem fit_run_view (E : externals T) (hE : E.conforms) (st0 st : decision_tree T)
    (hr : fit_ready st0) (hf : fit E st0 = outcome.done (da_status.da_status_success, st))
    (hcl : st0.count_left_classes.length = st0.n_class.toNat)
    (hcr : st0.count_right_classes.length = st0.n_class.toNat)
    (hft : 0 < st.feat_thresh) (hm : valid_sort_method st)
    (hnf : ¬ st.nfeat_split < st.n_features) :
    ∃ st1, read_options st0 = some st1 ∧ run_view E st
      ∧ same_data (configured E st1) st
      ∧ st.samples_idx.Perm (configured E st1).samples_idx := by
  obtain ⟨st1, ho, hp, ht1, hq1, hobs, hls, _, hlc, hind⟩ := fit_induct E hE st0 st hr hf
  obtain ⟨pp, md, me, mns, mss, bo, nf', sd', ft, mi, pt, sm, e1⟩ :=
    read_options_frame st0 st1 ho
  have hl1 : st1.count_left_classes.length = st1.count_classes.length := by
    rw [hlc, e1]; exact hcl
  have hr1 : st1.count_right_classes.length = st1.count_classes.length := by
    rw [hlc, e1]; exact hcr
  obtain ⟨s, hP, hinv, hqe, hss, es⟩ := hind
    (fun s => label_inv s ∧ reach_inv s
      ∧ s.samples_idx.Perm (configured E st1).samples_idx
      ∧ (0 < s.feat_thresh → valid_sort_method s → ¬ s.nfeat_split < s.n_features →
          score_inv s ∧ hist_inv E s ∧ same_data (configured E st1) s))
    ⟨label_inv_entry E st1 ht1 hq1 hp hobs hls,
      fun k hk0 hkN => by
        have hN := (entry_nodes E st1 ht1 hq1 hp).1
        have : k = 0 := by omega
        rw [this]
        exact below.self 0,
      by rw [samples_entry],
      fun _ _ _ => ⟨score_inv_entry E st1 ht1 hq1 hp hobs hls hl1 hr1,
        hist_inv_entry E st1 ht1 hq1 hp, same_data_entry E st1⟩⟩
    (fun fr fr' hi hP hne hs => by
      obtain ⟨p1, p2, p3, p4⟩ := hP
      have hss := same_settings_step E fr fr' hi.fit.tree hne hs
      obtain ⟨nd, _, _, hperm⟩ := fit_step_perm E hE fr fr' hi.fit hne hs
      refine ⟨label_inv_step E hE fr fr' hi.fit p1 hne hs,
        reach_inv_step E hE fr fr' hi.fit p2 hne hs, hperm.1.trans p3, ?_⟩
      intro hft' hm' hnf'
      have hft0 : 0 < fr.st.feat_thresh := by rw [← hss.feat_thresh]; exact hft'
      have hm0 : valid_sort_method fr.st := by
        unfold valid_sort_method at hm' ⊢
        rw [← hss.sort_method]; exact hm'
      have hnf0 : ¬ fr.st.nfeat_split < fr.st.n_features := by
        rw [← hss.nfeat_split, ← hss.n_features]; exact hnf'
      obtain ⟨q1, q2, q3⟩ := p4 hft0 hm0 hnf0
      exact ⟨score_inv_step E hE fr fr' hi.fit q1 hft0 hm0 hne hs,
        hist_inv_step E hE fr fr' hi q1 q2 hm0 hft0 hnf0 hne hs,
        same_data_trans q3 (same_data_step E hE fr fr' hi.fit hnf0 hne hs)⟩)
  rw [es] at hft hm hnf ⊢
  obtain ⟨p1, p2, p3, p4⟩ := hP
  obtain ⟨q1, q2, q3⟩ := p4 hft hm hnf
  have hl := loop_inv_trained s hinv
  refine ⟨st1, ho, ⟨hl, ⟨q1.hl, q1.hr, q1.hscore⟩, p1,
    hist_inv_trained E hE s hinv.fit
      ⟨hinv.fit.range.hfv, q1.hl, q1.hr, hinv.fit.range.hcc, hm, hft, hnf⟩ q2, p2, hqe,
    ⟨hinv.fit.range.hfv, q1.hl, q1.hr, hinv.fit.range.hcc, hm, hft, hnf⟩⟩, ?_, p3⟩
  exact ⟨q3.X, q3.ldx, q3.y, q3.n_class, q3.n_obs, q3.n_features, q3.nfeat_split,
    q3.features_idx, q3.score_function, q3.feat_thresh, q3.min_improvement, q3.sort_method,
    q3.max_depth, q3.min_node_sample, q3.min_split_score⟩

end run

/-! ## Two runs of `fit` on the same data -/

section two_runs

variable {T : Type} [LinearOrderedField T]

theorem as_leaf_congr (nd nd' : node T) (h1 : nd'.start_idx = nd.start_idx)
    (h2 : nd'.end_idx = nd.end_idx) (h3 : nd'.depth = nd.depth)
    (h4 : nd'.n_samples = nd.n_samples) (h5 : nd'.score = nd.score)
    (h6 : nd'.y_pred = nd.y_pred) : as_leaf nd' = as_leaf nd := by
  unfold as_leaf
  rw [h1, h2, h3, h4, h5, h6]

/-- Two nodes in use of two fitted trees with the same range, holding the same samples,
have the same number of samples, score and label. -/
theorem corr_fields (E : externals T) (s s' : decision_tree T) (v : run_view E s)
    (v' : run_view E s') (hd : same_data s s') (k k' : Int) (kd kd' : node T)
    (hk : tree_at s.tree k = some kd) (hk' : tree_at s'.tree k' = some kd')
    (hkN : k < s.n_nodes) (hkN' : k' < s'.n_nodes)
    (hs : kd'.start_idx = kd.start_idx) (he : kd'.end_idx = kd.end_idx)
    (hperm : (seg s'.samples_idx kd.start_idx kd.end_idx).Perm
      (seg s.samples_idx kd.start_idx kd.end_idx)) :
    kd'.n_samples = kd.n_samples ∧ kd'.score = kd.score ∧ kd'.y_pred = kd.y_pred := by
  obtain ⟨k0, k1, k2, k3⟩ := v.inv.fit.range.hnode k kd hk hkN
  obtain ⟨j0, j1, j2, j3⟩ := v'.inv.fit.range.hnode k' kd' hk' hkN'
  have hc : range_counts s' kd.start_idx kd.end_idx = range_counts s kd.start_idx kd.end_idx :=
    count_class_occurences_congr s s' _ _ hd.y
      (by rw [v'.ok.hcc, v.ok.hcc, hd.n_class]) _ _ k0 k1 k2 (by omega) hperm
  have hn : kd'.n_samples = kd.n_samples := by rw [j3, k3, hs, he]
  refine ⟨hn, ?_, ?_⟩
  · rw [v'.score.hscore k' kd' hk' hkN', v.score.hscore k kd hk hkN, hs, he, hc, hn,
      hd.score_function, hd.n_class]
  · rw [v'.label k' kd' hk' hkN', v.label k kd hk hkN, hs, he, hc]

/-- Of two nodes in use of two fitted trees with the same range and depth, holding the
same samples, both roots or neither: when the one is internal, so is the other. -/
theorem corr_internal (E : externals T) (hE : E.conforms) (s s' : decision_tree T)
    (v : run_view E s) (v' : run_view E s') (hd : same_data s s') (k k' : Int)
    (kd kd' : node T) (hk : tree_at s.tree k = some kd) (hk' : tree_at s'.tree k' = some kd')
    (hkN : k < s.n_nodes) (hkN' : k' < s'.n_nodes)
    (hs : kd'.start_idx = kd.start_idx) (he : kd'.end_idx = kd.end_idx)
    (hdep : kd'.depth = kd.depth) (h0 : k = 0 ↔ k' = 0)
    (hperm : (seg s'.samples_idx kd.start_idx kd.end_idx).Perm
      (seg s.samples_idx kd.start_idx kd.end_idx))
    (hleaf : kd.is_leaf = false) : kd'.is_leaf = false := by
  obtain ⟨f1, f2, f3⟩ := corr_fields E s s' v v' hd k k' kd kd' hk hk' hkN hkN' hs he hperm
  have hnr := v.inv.fit.range.hnode k kd hk hkN
  have hnr' := v'.inv.fit.range.hnode k' kd' hk' hkN'
  have hal := as_leaf_congr kd kd' hs he hdep f1 f2 f3
  obtain ⟨l, r, hl, _⟩ := v.inv.fit.range.hkids k kd hk hkN hleaf
  have hsp := v.hist.hsplit k kd hk hkN hleaf l hl
  have htr := best_transfer E hE
    { st := s, sp := E.uninit_split, best_split := E.uninit_split }
    { st := s', sp := E.uninit_split, best_split := E.uninit_split } (as_leaf kd) v.ok v'.ok
    hd hnr
    (by
      show kd.end_idx < (s'.samples_idx.length : Int)
      have := hnr'.2.2.1
      omega) hperm
  cases hl' : kd'.is_leaf with
  | false => rfl
  | true =>
    exfalso
    rcases v'.hist.hleaf k' kd' hk' hkN' hl' with h | h | h | h
    · rw [v'.queue] at h
      exact absurd h (by simp)
    · apply h.2
      have hk0 : k ≠ 0 := fun e => h.1 (h0.mp e)
      have := v.inv.expand.hexp k kd hk hkN hk0 (Or.inr hleaf)
      unfold may_expand at this ⊢
      rw [hdep, f1, f2, hd.max_depth, hd.min_node_sample, hd.min_split_score]
      exact this
    · have hk0 : k = 0 := h0.mpr h.1
      rw [hk0] at hk
      have := v.inv.expand.hrootq kd hk (Or.inr hleaf)
      rw [hd.max_depth] at h
      exact h.2 this
    · rw [v'.hist.hform k' kd' hk' hkN' hl', hal] at h
      have e : (node_best E s' (as_leaf kd)).feat_idx = (node_best E s (as_leaf kd)).feat_idx :=
        htr.2.1
      rw [e] at h
      exact hsp.1 h

/-- Two nodes in use of two fitted trees with the same range and depth, holding the same
samples, both roots or neither, are the roots of the same binary tree. -/
theorem iso_build (E : externals T) (hE : E.conforms) (s s' : decision_tree T)
    (v : run_view E s) (v' : run_view E s') (hd : same_data s s') :
    ∀ (m : Nat) (k k' : Int) (kd kd' : node T), (kd.end_idx - kd.start_idx).toNat ≤ m →
      tree_at s.tree k = some kd → tree_at s'.tree k' = some kd' →
      k < s.n_nodes → k' < s'.n_nodes →
      kd'.start_idx = kd.start_idx → kd'.end_idx = kd.end_idx → kd'.depth = kd.depth →
      (k = 0 ↔ k' = 0) →
      (seg s'.samples_idx kd.start_idx kd.end_idx).Perm
        (seg s.samples_idx kd.start_idx kd.end_idx) →
      iso s s' k k' := by
  intro m
  induction m using Nat.strong_induction_on with
  | _ m ih =>
    intro k k' kd kd' hm hk hk' hkN hkN' hs he hdep h0 hperm
    obtain ⟨f1, f2, f3⟩ := corr_fields E s s' v v' hd k k' kd kd' hk hk' hkN hkN' hs he hperm
    cases hleaf : kd.is_leaf with
    | true =>
      have hl' : kd'.is_leaf = true := by
        cases hx : kd'.is_leaf with
        | true => rfl
        | false =>
          have hperm' : (seg s.samples_idx kd'.start_idx kd'.end_idx).Perm
              (seg s'.samples_idx kd'.start_idx kd'.end_idx) := by
            rw [hs, he]; exact hperm.symm
          have := corr_internal E hE s' s v' v (same_data_symm hd) k' k kd' kd hk' hk hkN'
            hkN hs.symm he.symm hdep.symm h0.symm hperm' hx
          rw [hleaf] at this
          exact absurd this (by simp)
      exact iso.leaf k k' kd kd' hk hk' hleaf
        ⟨hs, he, hdep, f1, f2, f3, by rw [hl', hleaf], hperm⟩
    | false =>
      have hl' := corr_internal E hE s s' v v' hd k k' kd kd' hk hk' hkN hkN' hs he hdep h0
        hperm hleaf
      obtain ⟨k0, k1, k2, k3⟩ := v.inv.fit.range.hnode k kd hk hkN
      obtain ⟨j0, j1, j2, j3⟩ := v'.inv.fit.range.hnode k' kd' hk' hkN'
      obtain ⟨l, r, hl, hr, a1, a2, a3, a4, a5, a6, a7⟩ :=
        v.inv.fit.range.hkids k kd hk hkN hleaf
      obtain ⟨l', r', hl2, hr2, b1, b2, b3, b4, b5, b6, b7⟩ :=
        v'.inv.fit.range.hkids k' kd' hk' hkN' hl'
      obtain ⟨c1, c2, c3⟩ := v.inv.fit.tree.hchild k kd hk hkN hleaf
      obtain ⟨d1, d2, d3⟩ := v'.inv.fit.tree.hchild k' kd' hk' hkN' hl'
      have hkb := (tree_at_bounds hk).1
      have hkb' := (tree_at_bounds hk').1
      have hsp := v.hist.hsplit k kd hk hkN hleaf l hl
      have hsp' := v'.hist.hsplit k' kd' hk' hkN' hl' l' hl2
      have hal := as_leaf_congr kd kd' hs he hdep f1 f2 f3
      have htr := best_transfer E hE
        { st := s, sp := E.uninit_split, best_split := E.uninit_split }
        { st := s', sp := E.uninit_split, best_split := E.uninit_split } (as_leaf kd) v.ok
        v'.ok hd ⟨k0, k1, k2, k3⟩
        (by
          show kd.end_idx < (s'.samples_idx.length : Int)
          omega) hperm
      have hbest : node_best E s' (as_leaf kd) = node_best E s (as_leaf kd) := htr.2.2 hsp.1
      rw [hal, hbest] at hsp'
      have hfeat : kd'.feature = kd.feature := by rw [hsp'.2.1, hsp.2.1]
      have hthr : kd'.x_threshold = kd.x_threshold := by rw [hsp'.2.2.1, hsp.2.2.1]
      have hle : l'.end_idx = l.end_idx := by rw [hsp'.2.2.2, hsp.2.2.2]
      have hp := v.inv.fit.part v.ok.hft v.ok.hm k kd l r hk hkN hleaf hl hr
      have hp' := v'.inv.fit.part v'.ok.hft v'.ok.hm k' kd' l' r' hk' hkN' hl' hl2 hr2
      have hfvs : ∀ idx, feat_val s' kd.feature idx = feat_val s kd.feature idx := fun idx =>
        feat_val_congr s s' hd.X hd.ldx _ _
      have hsides := sides_perm s.samples_idx s'.samples_idx kd.start_idx l.end_idx kd.end_idx
        (fun idx => decide (feat_val s kd.feature idx < kd.x_threshold)) k0 (by omega)
        (by omega) k2 (by omega) hperm
        (fun i hi1 hi2 => by
          rw [decide_eq_true_eq]
          exact hp.1 i (by omega) hi2)
        (fun i hi1 hi2 => by
          rw [decide_eq_false_iff_not]
          exact hp.2 i (by omega) (by omega))
        (fun i hi1 hi2 => by
          rw [decide_eq_true_eq, ← hfvs, ← hfeat, ← hthr]
          exact hp'.1 i (by omega) (by omega))
        (fun i hi1 hi2 => by
          rw [decide_eq_false_iff_not, ← hfvs, ← hfeat, ← hthr]
          exact hp'.2 i (by omega) (by omega))
      have hL := ih (l.end_idx - l.start_idx).toNat (by omega) kd.left_child_idx
        kd'.left_child_idx l l' (le_refl _) hl hl2 c3 d3 (by omega) hle (by omega)
        ⟨fun e => by omega, fun e => by omega⟩ (by rw [a1]; exact hsides.1)
      have hR := ih (r.end_idx - r.start_idx).toNat (by omega) kd.right_child_idx
        kd'.right_child_idx r r' (le_refl _) hr hr2 (by omega) (by omega) (by omega)
        (by omega) (by omega) ⟨fun e => by omega, fun e => by omega⟩
        (by rw [← a2, a3]; exact hsides.2)
      exact iso.node k k' kd kd' hk hk' hleaf
        ⟨hs, he, hdep, f1, f2, f3, by rw [hl', hleaf], hperm⟩ hfeat hthr hL hR

theorem seg_full (v : List Int) (b : Int) (h : v.length = (b + 1).toNat) : seg v 0 b = v := by
  unfold seg
  rw [← h]
  simp

/-- Two fitted trees on the same data, the samples of the one a rearrangement of those of
the other, are the same binary tree. -/
theorem iso_root (E : externals T) (hE : E.conforms) (s s' : decision_tree T)
    (v : run_view E s) (v' : run_view E s') (hd : same_data s s') (hobs : 0 ≤ s.n_obs)
    (hperm : s'.samples_idx.Perm s.samples_idx) : iso s s' 0 0 := by
  have hN := v.inv.fit.tree.ok.hN
  have hN' := v'.inv.fit.tree.ok.hN
  obtain ⟨rt, hrt⟩ := tree_at_of_bounds s.tree 0 (le_refl _) (by omega)
  obtain ⟨rt', hrt'⟩ := tree_at_of_bounds s'.tree 0 (le_refl _) (by omega)
  obtain ⟨r1, r2⟩ := v.inv.leaf.hroot rt hrt
  obtain ⟨q1, q2⟩ := v'.inv.leaf.hroot rt' hrt'
  have d1 := v.inv.expand.hroot rt hrt
  have d2 := v'.inv.expand.hroot rt' hrt'
  have hlen := v.inv.leaf.hlen
  have hlen' := v'.inv.leaf.hlen
  rw [hd.n_obs] at q2 hlen'
  apply iso_build E hE s s' v v' hd (rt.end_idx - rt.start_idx).toNat 0 0 rt rt' (le_refl _)
    hrt hrt' (by omega) (by omega) (by rw [q1, r1]) (by rw [q2, r2]) (by rw [d1, d2])
    ⟨fun _ => rfl, fun _ => rfl⟩
  rw [r1, r2, seg_full s.samples_idx _ (by rw [hlen]; omega),
    seg_full s'.samples_idx _ (by rw [hlen']; omega)]
  exact hperm

end two_runs

/-! ## What two trees that are the same binary tree share -/

section shared

variable {T : Type} [LinearOrderedField T]

theorem iso_agree (s s' : decision_tree T) (k k' : Int) (h : iso s s' k k') :
    ∃ nd nd', tree_at s.tree k = some nd ∧ tree_at s'.tree k' = some nd'
      ∧ node_agree s s' nd nd' := by
  cases h with
  | leaf _ _ nd nd' h h' _ ha => exact ⟨nd, nd', h, h', ha⟩
  | node _ _ nd nd' h h' _ ha _ _ _ _ => exact ⟨nd, nd', h, h', ha⟩

/-- A node below `k` in the one tree has its counterpart below `k'` in the other. -/
theorem iso_below (s s' : decision_tree T) (k j : Int) (hb : below s.tree k j) :
    ∀ k', iso s s' k k' → ∃ j', below s'.tree k' j' ∧ iso s s' j j' := by
  induction hb with
  | self k => exact fun k' h => ⟨k', below.self k', h⟩
  | left k j nd hk hl _ ih =>
    intro k' h
    cases h with
    | leaf _ _ nd0 nd0' h0 h0' hl0 ha =>
      rw [hk] at h0
      rw [Option.some.inj h0, hl0] at hl
      exact absurd hl (by simp)
    | node _ _ nd0 nd0' h0 h0' hl0 ha hf ht hleft hright =>
      rw [hk] at h0
      have e := Option.some.inj h0
      subst e
      obtain ⟨j', hb', hi'⟩ := ih _ hleft
      exact ⟨j', below.left k' j' nd0' h0' (by rw [ha.is_leaf, hl]) hb', hi'⟩
  | right k j nd hk hl _ ih =>
    intro k' h
    cases h with
    | leaf _ _ nd0 nd0' h0 h0' hl0 ha =>
      rw [hk] at h0
      rw [Option.some.inj h0, hl0] at hl
      exact absurd hl (by simp)
    | node _ _ nd0 nd0' h0 h0' hl0 ha hf ht hleft hright =>
      rw [hk] at h0
      have e := Option.some.inj h0
      subst e
      obtain ⟨j', hb', hi'⟩ := ih _ hright
      exact ⟨j', below.right k' j' nd0' h0' (by rw [ha.is_leaf, hl]) hb', hi'⟩

/-- The descent for a row ends in the two trees at leaves that are counterparts. -/
theorem iso_reaches (s s' : decision_tree T) (X_test : Int → T) (ldx_test i : Int)
    (k leaf : Int) (hr : reaches s.tree X_test ldx_test i k leaf) :
    ∀ k', iso s s' k k' →
      ∃ leaf', reaches s'.tree X_test ldx_test i k' leaf' ∧ iso s s' leaf leaf' := by
  induction hr with
  | at_leaf k nd h hl =>
    intro k' hi
    refine ⟨k', ?_, hi⟩
    cases hi with
    | leaf _ _ nd0 nd0' h0 h0' hl0 ha =>
      exact reaches.at_leaf k' nd0' h0' (by rw [ha.is_leaf, hl0])
    | node _ _ nd0 nd0' h0 h0' hl0 ha hf ht hleft hright =>
      rw [h] at h0
      rw [Option.some.inj h0, hl0] at hl
      exact absurd hl (by simp)
  | go_left k leaf nd h hl hlt _ ih =>
    intro k' hi
    cases hi with
    | leaf _ _ nd0 nd0' h0 h0' hl0 ha =>
      rw [h] at h0
      rw [Option.some.inj h0, hl0] at hl
      exact absurd hl (by simp)
    | node _ _ nd0 nd0' h0 h0' hl0 ha hf ht hleft hright =>
      rw [h] at h0
      have e := Option.some.inj h0
      subst e
      obtain ⟨leaf', hr', hi'⟩ := ih _ hleft
      exact ⟨leaf', reaches.go_left k' leaf' nd0' h0' (by rw [ha.is_leaf, hl])
        (by rw [hf, ht]; exact hlt) hr', hi'⟩
  | go_right k leaf nd h hl hge _ ih =>
    intro k' hi
    cases hi with
    | leaf _ _ nd0 nd0' h0 h0' hl0 ha =>
      rw [h] at h0
      rw [Option.some.inj h0, hl0] at hl
      exact absurd hl (by simp)
    | node _ _ nd0 nd0' h0 h0' hl0 ha hf ht hleft hright =>
      rw [h] at h0
      have e := Option.some.inj h0
      subst e
      obtain ⟨leaf', hr', hi'⟩ := ih _ hright
      exact ⟨leaf', reaches.go_right k' leaf' nd0' h0' (by rw [ha.is_leaf, hl])
        (by rw [hf, ht]; exact hge) hr', hi'⟩

/-- Two trees that are the same binary tree give every row the same label. -/
theorem label_same (s s' : decision_tree T) (h : tree_inv s) (h' : tree_inv s')
    (hi : iso s s' 0 0) (X_test : Int → T) (ldx_test i : Int) :
    label_of s' X_test ldx_test i = label_of s X_test ldx_test i := by
  obtain ⟨nd, _, hre, hnd, _, _, hlab⟩ := descend_root s h X_test ldx_test i
  obtain ⟨nd', _, hre', hnd', _, _, hlab'⟩ := descend_root s' h' X_test ldx_test i
  obtain ⟨leaf', hr2, hi2⟩ := iso_reaches s s' X_test ldx_test i 0 _ hre 0 hi
  have e := reaches_unique _ _ _ _ _ _ _ hre' hr2
  obtain ⟨x, x', hx, hx', ha⟩ := iso_agree s s' _ _ hi2
  rw [← e, hnd'] at hx'
  rw [hnd] at hx
  rw [hlab, hlab', Option.some.inj hx, Option.some.inj hx', ha.y_pred]

/-- Two trees that are the same binary tree give the same output of `predict`. -/
theorem predict_same (E : externals T) (s s' : decision_tree T) (h : tree_inv s)
    (h' : tree_inv s') (htr : s.model_trained = true) (htr' : s'.model_trained = true)
    (hnf : s'.n_features = s.n_features) (hi : iso s s' 0 0)
    (nsamp nfeat : Int) (X_test : Option (Int → T)) (ldx_test : Int) (buf : List Int)
    (mode : Int) (hfeat : nfeat = s.n_features)
    (hstore : (E.store_2D_array nsamp nfeat X_test ldx_test mode).1
      = da_status.da_status_success)
    (hbuf : nsamp ≤ buf.length) :
    ∃ out, predict E s nsamp nfeat X_test ldx_test (some buf) mode
        = outcome.done (da_status.da_status_success, some out)
      ∧ predict E s' nsamp nfeat X_test ldx_test (some buf) mode
        = outcome.done (da_status.da_status_success, some out) := by
  obtain ⟨out, e, hlen, hin, hout⟩ := predict_loop_spec s h
    (E.store_2D_array nsamp nfeat X_test ldx_test mode).2.1
    (E.store_2D_array nsamp nfeat X_test ldx_test mode).2.2 nsamp buf hbuf
  obtain ⟨out', e', hlen', hin', hout'⟩ := predict_loop_spec s' h'
    (E.store_2D_array nsamp nfeat X_test ldx_test mode).2.1
    (E.store_2D_array nsamp nfeat X_test ldx_test mode).2.2 nsamp buf hbuf
  have heq : out' = out := by
    apply list_eq_of_vec_get _ _ (by rw [hlen, hlen'])
    intro c hc0 hc1
    by_cases hcn : c < nsamp
    · rw [hin' c hc0 hcn, hin c hc0 hcn]
      exact label_same s s' h h' hi _ _ c
    · rw [hout' c (by omega), hout c (by omega)]
  refine ⟨out, ?_, ?_⟩
  · unfold predict
    simp only [ne_eq, hfeat, not_true_eq_false, if_false, htr]
    rw [hfeat] at hstore
    rw [if_neg (not_not.mpr hstore)]
    show (for_range_run 0 nsamp (predict_row s _ _) buf).and_then _ = _
    rw [← hfeat, e]
    rfl
  · unfold predict
    simp only [ne_eq, hfeat, hnf, not_true_eq_false, if_false, htr']
    rw [hfeat] at hstore
    rw [if_neg (not_not.mpr hstore)]
    show (for_range_run 0 nsamp (predict_row s' _ _) buf).and_then _ = _
    rw [← hfeat, e', heq]
    rfl

end shared

/-! ## The counters of two trees that are the same binary tree -/

section counters

variable {T : Type} [LinearOrderedField T]

/-- Every node in use of the one tree has a counterpart in use in the other. -/
theorem iso_in_use (E : externals T) (s s' : decision_tree T) (v : run_view E s)
    (v' : run_view E s') (hi : iso s s' 0 0) (k : Int) (hk0 : 0 ≤ k) (hkN : k < s.n_nodes) :
    ∃ k' nd nd', 0 ≤ k' ∧ k' < s'.n_nodes ∧ tree_at s.tree k = some nd
      ∧ tree_at s'.tree k' = some nd' ∧ node_agree s s' nd nd' := by
  obtain ⟨k', hb', hi'⟩ := iso_below s s' 0 k (v.reach k hk0 hkN) 0 hi
  obtain ⟨nd, nd', h1, h2, ha⟩ := iso_agree s s' k k' hi'
  have hN' := v'.inv.fit.tree.ok.hN
  obtain ⟨rt', hrt'⟩ := tree_at_of_bounds s'.tree 0 (le_refl _) (by omega)
  have := below_within s' v'.inv.fit 0 k' hb' rt' nd' hrt' (by omega) h2
  exact ⟨k', nd, nd', (tree_at_bounds h2).1, this.1, h1, h2, ha⟩

theorem depth_le_of_iso (E : externals T) (s s' : decision_tree T) (v : run_view E s)
    (v' : run_view E s') (hi : iso s s' 0 0) (d0 : Int) (hd : depth_inv d0 s)
    (hd' : depth_inv d0 s') : s.depth ≤ s'.depth := by
  rcases hd.hmax with h | ⟨k, nd, hk, hkN, hkd⟩
  · rw [h]; exact hd'.hmono
  · obtain ⟨k', x, x', _, hkN', h1, h2, ha⟩ := iso_in_use E s s' v v' hi k
      (tree_at_bounds hk).1 hkN
    rw [hk] at h1
    have := hd'.hle k' x' h2 hkN'
    rw [ha.depth, ← Option.some.inj h1, hkd] at this
    exact this

theorem length_leaf_starts (st : decision_tree T) :
    (leaf_starts st).length = leaf_count st := by
  unfold leaf_starts leaf_count
  rw [List.length_map, List.countP_eq_length_filter]

theorem mem_leaf_starts (st : decision_tree T) (p : Int) :
    p ∈ leaf_starts st ↔ ∃ k nd, 0 ≤ k ∧ k < st.n_nodes ∧ tree_at st.tree k = some nd
      ∧ nd.is_leaf = true ∧ nd.start_idx = p := by
  unfold leaf_starts
  rw [List.mem_map]
  constructor
  · rintro ⟨k, hk, e⟩
    rw [List.mem_filter, List.mem_range] at hk
    obtain ⟨hk1, hk2⟩ := hk
    unfold leaf_at at hk2
    unfold start_of at e
    cases hx : tree_at st.tree (k : Int) with
    | none => rw [hx] at hk2; exact absurd hk2 (by simp)
    | some nd =>
      rw [hx] at hk2 e
      exact ⟨k, nd, by omega, by omega, hx, hk2, e⟩
  · rintro ⟨k, nd, hk0, hkN, hk, hl, e⟩
    refine ⟨k.toNat, ?_, ?_⟩
    · rw [List.mem_filter, List.mem_range]
      refine ⟨by omega, ?_⟩
      unfold leaf_at
      rw [Int.toNat_of_nonneg hk0, hk]
      exact hl
    · unfold start_of
      rw [Int.toNat_of_nonneg hk0, hk]
      exact e

theorem nodup_leaf_starts (E : externals T) (st : decision_tree T) (v : run_view E st)
    (hobs : 1 ≤ st.n_obs) : (leaf_starts st).Nodup := by
  unfold leaf_starts
  apply List.Nodup.map_on
  · intro x hx y hy e
    rw [List.mem_filter, List.mem_range] at hx hy
    obtain ⟨hx1, hx2⟩ := hx
    obtain ⟨hy1, hy2⟩ := hy
    unfold leaf_at at hx2 hy2
    unfold start_of at e
    cases hxa : tree_at st.tree (x : Int) with
    | none => rw [hxa] at hx2; exact absurd hx2 (by simp)
    | some nd =>
      cases hya : tree_at st.tree (y : Int) with
      | none => rw [hya] at hy2; exact absurd hy2 (by simp)
      | some nd' =>
        rw [hxa] at hx2 e
        rw [hya] at hy2 e
        by_contra hne
        have hne' : (x : Int) ≠ (y : Int) := fun h => hne (by exact_mod_cast h)
        have n1 := v.inv.fit.nonempty hobs x nd hxa (by omega)
        have n2 := v.inv.fit.nonempty hobs y nd' hya (by omega)
        have e' : nd.start_idx = nd'.start_idx := e
        rcases v.inv.leaf.hdisj x y nd nd' hxa hya (by omega) (by omega) hx2 hy2 hne' with
          h | h <;> omega
  · exact (List.nodup_range _).filter _

theorem leaf_starts_subset (E : externals T) (s s' : decision_tree T) (v : run_view E s)
    (v' : run_view E s') (hi : iso s s' 0 0) (p : Int) (hp : p ∈ leaf_starts s) :
    p ∈ leaf_starts s' := by
  rw [mem_leaf_starts] at hp ⊢
  obtain ⟨k, nd, hk0, hkN, hk, hl, e⟩ := hp
  obtain ⟨k', x, x', hk0', hkN', h1, h2, ha⟩ := iso_in_use E s s' v v' hi k hk0 hkN
  rw [hk] at h1
  have ex := Option.some.inj h1
  exact ⟨k', x', hk0', hkN', h2, by rw [ha.is_leaf, ← ex, hl], by rw [ha.start_idx, ← ex, e]⟩

/-- Two fitted trees that are the same binary tree have as many leaves in use. -/
theorem leaf_count_same (E : externals T) (s s' : decision_tree T) (v : run_view E s)
    (v' : run_view E s') (hi : iso s s' 0 0) (hi' : iso s' s 0 0) (hobs : 1 ≤ s.n_obs)
    (hobs' : 1 ≤ s'.n_obs) : leaf_count s' = leaf_count s := by
  rw [← length_leaf_starts, ← length_leaf_starts]
  apply List.Perm.length_eq
  rw [List.perm_ext_iff_of_nodup (nodup_leaf_starts E s' v' hobs')
    (nodup_leaf_starts E s v hobs)]
  exact fun p => ⟨leaf_starts_subset E s' s v' v hi' p, leaf_starts_subset E s s' v v' hi p⟩

end counters

section c31

variable {T : Type} [LinearOrderedField T]

/-- The loop of `partition_samples` has ended once `tail_idx - head_idx` units of fuel are
used: more fuel does not change its result. -/
theorem partition_loop_extra_fuel (X : Int → T) (col : Int) (t : T) (extra : Nat) :
    ∀ (fuel : Nat) (v : List Int) (head tail : Int), (tail - head).toNat ≤ fuel →
      partition_loop X col t (fuel + extra) v head tail
        = partition_loop X col t fuel v head tail := by
  intro fuel
  induction fuel with
  | zero =>
    intro v head tail hf
    have hge : ¬ head < tail := by omega
    cases extra with
    | zero => rfl
    | succ e =>
      have e1 : partition_loop X col t (0 + (e + 1)) v head tail = v := by
        rw [Nat.zero_add, partition_loop]; exact if_neg hge
      rw [e1]; rfl
  | succ n ih =>
    intro v head tail hf
    have e0 : n + 1 + extra = (n + extra) + 1 := by omega
    rw [e0]
    by_cases hlt : head < tail
    · by_cases hp : X (col + vec_get v head 0) < t
      · have e1 : partition_loop X col t (n + extra + 1) v head tail
            = partition_loop X col t (n + extra) v (head + 1) tail := by
          rw [partition_loop, if_pos hlt]; exact if_pos hp
        have e2 : partition_loop X col t (n + 1) v head tail
            = partition_loop X col t n v (head + 1) tail := by
          rw [partition_loop, if_pos hlt]; exact if_pos hp
        rw [e1, e2]
        exact ih v (head + 1) tail (by omega)
      · have e1 : partition_loop X col t (n + extra + 1) v head tail
            = partition_loop X col t (n + extra)
                (vec_set (vec_set v head (vec_get v tail 0)) tail (vec_get v head 0))
                head (tail - 1) := by
          rw [partition_loop, if_pos hlt]; exact if_neg hp
        have e2 : partition_loop X col t (n + 1) v head tail
            = partition_loop X col t n
                (vec_set (vec_set v head (vec_get v tail 0)) tail (vec_get v head 0))
                head (tail - 1) := by
          rw [partition_loop, if_pos hlt]; exact if_neg hp
        rw [e1, e2]
        exact ih _ head (tail - 1) (by omega)
    · have e1 : partition_loop X col t (n + extra + 1) v head tail = v := by
        rw [partition_loop]; exact if_neg hlt
      have e2 : partition_loop X col t (n + 1) v head tail = v := by
        rw [partition_loop]; exact if_neg hlt
      rw [e1, e2]

/-- C31: for a node whose range `start_idx..end_idx` lies within `samples_idx`, the loop of
`partition_samples` ends within `end_idx - start_idx` iterations (more fuel does not change
the result), and it leaves `samples_idx` a rearrangement of the range with every entry
outside the range as it was, such that for `k = start_idx + c`, `c` being the number of
samples of the range whose value of the feature is below the threshold, the positions of
the range before `k` hold samples below the threshold and the positions from `k` on hold
samples at or above it. -/
theorem partition_samples_puts_lower_samples_first (st : decision_tree T) (nd : node T)
    (h0 : 0 ≤ nd.start_idx) (h1 : nd.start_idx ≤ nd.end_idx + 1)
    (hb : nd.end_idx < st.samples_idx.length) :
    (∀ extra : Nat,
        partition_loop st.X (st.ldx * nd.feature) nd.x_threshold
            ((nd.end_idx - nd.start_idx).toNat + extra) st.samples_idx nd.start_idx
            nd.end_idx
          = partition_samples st nd)
      ∧ (partition_samples st nd).length = st.samples_idx.length
      ∧ (seg (partition_samples st nd) nd.start_idx nd.end_idx).Perm
          (seg st.samples_idx nd.start_idx nd.end_idx)
      ∧ (∀ i : Int, i < nd.start_idx ∨ nd.end_idx < i →
          vec_get (partition_samples st nd) i 0 = vec_get st.samples_idx i 0)
      ∧ ∃ k : Int, nd.start_idx ≤ k ∧ k ≤ nd.end_idx + 1
          ∧ (k - nd.start_idx).toNat
              = (seg st.samples_idx nd.start_idx nd.end_idx).countP
                  (fun idx => decide (feat_val st nd.feature idx < nd.x_threshold))
          ∧ (∀ i, nd.start_idx ≤ i → i < k →
              feat_val st nd.feature (vec_get (partition_samples st nd) i 0)
                < nd.x_threshold)
          ∧ (∀ i, k ≤ i → i ≤ nd.end_idx →
              nd.x_threshold
                ≤ feat_val st nd.feature (vec_get (partition_samples st nd) i 0)) := by
  have hfuel : ∀ extra : Nat,
      partition_loop st.X (st.ldx * nd.feature) nd.x_threshold
          ((nd.end_idx - nd.start_idx).toNat + extra) st.samples_idx nd.start_idx
          nd.end_idx
        = partition_samples st nd := fun extra =>
    partition_loop_extra_fuel st.X (st.ldx * nd.feature) nd.x_threshold extra _ _ _ _
      (le_refl _)
  by_cases hne : nd.start_idx ≤ nd.end_idx
  · obtain ⟨hperm, hspec⟩ := partition_samples_spec st nd h0 hne hb
    obtain ⟨hL, hR⟩ := hspec _ rfl
    have hcle : ((seg st.samples_idx nd.start_idx nd.end_idx).countP
        (fun idx => decide (feat_val st nd.feature idx < nd.x_threshold)) : Int)
          ≤ nd.end_idx + 1 - nd.start_idx := by
      have h2 := List.countP_le_length
        (fun idx => decide (feat_val st nd.feature idx < nd.x_threshold))
        (l := seg st.samples_idx nd.start_idx nd.end_idx)
      rw [length_seg _ _ _ h0 h1 hb] at h2
      omega
    refine ⟨hfuel, perm_within_length hperm, perm_within_seg hperm h1,
      fun i hi => perm_within_get_outside hperm i 0 hi,
      nd.start_idx + ((seg st.samples_idx nd.start_idx nd.end_idx).countP
        (fun idx => decide (feat_val st nd.feature idx < nd.x_threshold)) : Nat),
      by omega, by omega, by simp, hL, fun i hi1 hi2 => not_lt.mp (hR i hi1 hi2)⟩
  · have he : (nd.end_idx - nd.start_idx).toNat = 0 := by omega
    have hid : partition_samples st nd = st.samples_idx := by
      unfold partition_samples
      rw [he]
      rfl
    have hempty : seg st.samples_idx nd.start_idx nd.end_idx = [] := by
      have := length_seg st.samples_idx nd.start_idx nd.end_idx h0 h1 hb
      have h3 : (nd.end_idx + 1 - nd.start_idx).toNat = 0 := by omega
      rw [h3] at this
      exact List.length_eq_zero.mp this
    refine ⟨hfuel, by rw [hid], by rw [hid], fun i _ => by rw [hid], nd.start_idx,
      le_refl _, h1, by rw [hempty]; simp, fun i hi1 hi2 => by omega,
      fun i hi1 hi2 => by omega⟩

end c31

set_option maxRecDepth 100000 in
/-- Witness of C31: the root of the fitted scenario instance, whose range `0..3` is
partitioned again against its threshold `3/2`. -/
theorem partition_samples_puts_lower_samples_first_witness :
    partition_samples scenario_fitted (scenario_fitted.tree.getD 0 fresh_node) = [0, 1, 2, 3]
      ∧ ∃ k : Int, (scenario_fitted.tree.getD 0 fresh_node).start_idx ≤ k
          ∧ k ≤ (scenario_fitted.tree.getD 0 fresh_node).end_idx + 1
          ∧ (k - (scenario_fitted.tree.getD 0 fresh_node).start_idx).toNat
              = (seg scenario_fitted.samples_idx
                  (scenario_fitted.tree.getD 0 fresh_node).start_idx
                  (scenario_fitted.tree.getD 0 fresh_node).end_idx).countP
                  (fun idx => decide
                    (feat_val scenario_fitted (scenario_fitted.tree.getD 0 fresh_node).feature
                      idx < (scenario_fitted.tree.getD 0 fresh_node).x_threshold))
          ∧ (∀ i, (scenario_fitted.tree.getD 0 fresh_node).start_idx ≤ i → i < k →
              feat_val scenario_fitted (scenario_fitted.tree.getD 0 fresh_node).feature
                  (vec_get (partition_samples scenario_fitted
                    (scenario_fitted.tree.getD 0 fresh_node)) i 0)
                < (scenario_fitted.tree.getD 0 fresh_node).x_threshold)
          ∧ (∀ i, k ≤ i → i ≤ (scenario_fitted.tree.getD 0 fresh_node).end_idx →
              (scenario_fitted.tree.getD 0 fresh_node).x_threshold
                ≤ feat_val scenario_fitted (scenario_fitted.tree.getD 0 fresh_node).feature
                    (vec_get (partition_samples scenario_fitted
                      (scenario_fitted.tree.getD 0 fresh_node)) i 0)) :=
  ⟨by decide!,
    (partition_samples_puts_lower_samples_first scenario_fitted
      (scenario_fitted.tree.getD 0 fresh_node) (by decide!) (by decide!)
      (by decide!)).2.2.2.2⟩

section c40

variable {T : Type} [LinearOrderedField T]

theorem max_label_spec (y : Int → Int) (n_samples : Int) (h : 1 ≤ n_samples) :
    (∀ i, 0 ≤ i → i < n_samples → y i ≤ max_label y n_samples)
      ∧ ∃ i, 0 ≤ i ∧ i < n_samples ∧ y i = max_label y n_samples := by
  unfold max_label
  exact for_range_ind
    (fun (k : Int) (m : Int) => (∀ i, 0 ≤ i → i < k → y i ≤ m) ∧ ∃ i, 0 ≤ i ∧ i < k ∧ y i = m)
    1 n_samples _ (y 0) h
    ⟨fun i h0 h1 => by
        have : i = 0 := by omega
        rw [this],
      0, le_refl _, by omega, rfl⟩
    (fun k m hk1 hk2 ih => by
      obtain ⟨ih1, j, hj0, hj1, hj2⟩ := ih
      by_cases hc : m < y k
      · simp only [if_pos hc]
        refine ⟨fun i h0 h1 => ?_, k, by omega, by omega, rfl⟩
        by_cases hik : i = k
        · rw [hik]
        · exact le_of_lt (lt_of_le_of_lt (ih1 i h0 (by omega)) hc)
      · simp only [if_neg hc]
        refine ⟨fun i h0 h1 => ?_, j, hj0, by omega, hj2⟩
        by_cases hik : i = k
        · rw [hik]; exact not_lt.mp hc
        · exact ih1 i h0 (by omega))

theorem vec_iota_eq (v : List Int) : vec_iota v = identity_order v.length := rfl

theorem vec_get_identity_order (n : Nat) (i : Int) (h0 : 0 ≤ i) (h1 : i < n) :
    vec_get (identity_order n) i 0 = i := by
  have h2 : i.toNat < (identity_order n).length := by
    unfold identity_order; simp; omega
  rw [vec_get_eq_getElem _ i 0 h0 h2]
  unfold identity_order
  simp
  omega

/-- What a call of `set_training_data` that succeeds leaves in the instance. -/
theorem set_training_data_success_fields (E : externals T) (st : decision_tree T)
    (n_samples n_features : Int) (X : Option (Int → T)) (ldx : Int) (y : Option (Int → Int))
    (n_class n_obs : Int) (samples_subset : Option (Int → Int))
    (h : (set_training_data E st n_samples n_features X ldx y n_class n_obs
      samples_subset).1 = da_status.da_status_success) :
    (0 ≤ n_obs ∧ n_obs ≤ n_samples)
      ∧ (set_training_data E st n_samples n_features X ldx y n_class n_obs
          samples_subset).2
        = { st with
            X := (E.store_2D_array n_samples n_features X ldx 0).2.1,
            ldx := (E.store_2D_array n_samples n_features X ldx 0).2.2,
            model_trained := false, tree := [],
            y := y.getD (fun _ => 0), n_samples := n_samples, n_features := n_features,
            n_class := if n_class ≤ 0 then max_label (y.getD (fun _ => 0)) n_samples + 1
              else n_class,
            n_obs := if n_obs = 0 then n_samples else n_obs,
            samples_subset := samples_subset,
            samples_idx := vec_resize st.samples_idx
              (if n_obs = 0 then n_samples else n_obs).toNat 0,
            count_classes := vec_resize st.count_classes
              (if n_class ≤ 0 then max_label (y.getD (fun _ => 0)) n_samples + 1
                else n_class).toNat 0,
            feature_values := vec_resize st.feature_values
              (if n_obs = 0 then n_samples else n_obs).toNat 0,
            count_left_classes := vec_resize st.count_left_classes
              (if n_class ≤ 0 then max_label (y.getD (fun _ => 0)) n_samples + 1
                else n_class).toNat 0,
            count_right_classes := vec_resize st.count_right_classes
              (if n_class ≤ 0 then max_label (y.getD (fun _ => 0)) n_samples + 1
                else n_class).toNat 0,
            features_idx := identity_order n_features.toNat } := by
  unfold set_training_data at h ⊢
  simp only at h ⊢
  by_cases h1 : (E.store_2D_array n_samples n_features X ldx 0).1
      ≠ da_status.da_status_success
  · rw [if_pos h1] at h
    exact absurd h h1
  · by_cases h2 : E.check_1D_array n_samples y ≠ da_status.da_status_success
    · rw [if_neg h1, if_pos h2] at h
      exact absurd h h2
    · by_cases h3 : n_obs > n_samples ∨ n_obs < 0
      · rw [if_neg h1, if_neg h2, if_pos h3] at h
        exact absurd h (by simp)
      · rw [if_neg h1, if_neg h2, if_neg h3]
        refine ⟨by omega, ?_⟩
        simp only [vec_iota_eq, length_vec_resize]
        by_cases hc : n_class ≤ 0 <;> by_cases ho : n_obs = 0
        · simp only [if_pos hc, if_pos ho, refresh, max_label]
        · simp only [if_pos hc, if_neg ho, refresh, max_label]
        · simp only [if_neg hc, if_pos ho, refresh]
        · simp only [if_neg hc, if_neg ho, refresh]

/-- Without bootstrap, `fit` hands the identity order to the initialisation of the root. -/
theorem configured_samples_identity (E : externals T) (st : decision_tree T)
    (hb : st.bootstrap = false) :
    (configured E st).samples_idx = identity_order st.samples_idx.length := by
  obtain ⟨sf, e1⟩ := select_score_frame E st
  obtain ⟨nf, e2⟩ := resolve_nfeat_frame (select_score E st)
  obtain ⟨sd, mt, e3⟩ := resolve_seed_frame E (resolve_nfeat (select_score E st))
  have e4 : (allocate (resolve_seed E (resolve_nfeat (select_score E st)))).samples_idx
      = st.samples_idx := by
    have : (allocate (resolve_seed E (resolve_nfeat (select_score E st)))).samples_idx
        = (resolve_seed E (resolve_nfeat (select_score E st))).samples_idx := by
      unfold allocate
      split
      · rfl
      · rfl
    rw [this, e3, e2, e1]
  have hb' : ¬ (allocate (resolve_seed E (resolve_nfeat (select_score E st)))).bootstrap
      = true := by
    rw [configured_bootstrap E st, hb]; simp
  unfold configured init_samples
  rw [if_pos hb']
  show vec_iota (allocate (resolve_seed E (resolve_nfeat (select_score E st)))).samples_idx
    = _
  rw [e4]
  rfl

/-- C40: a call of `set_training_data` that succeeds leaves a model that is not trained,
without a node array, with the sizes it was given; `n_obs = 0` is replaced by `n_samples`
and `n_class <= 0` by the largest label plus one; `samples_idx` and `feature_values` have
`n_obs` elements, the three class histograms `n_class` elements, and `features_idx` is
`0, 1, ..., n_features - 1`. Without bootstrap, the `fit` that follows starts from the
identity order `0, ..., n_obs - 1` of the samples with the root spanning all of it, and
ends with a rearrangement of that order. -/
theorem set_training_data_resets_and_resolves_defaults (E : externals T)
    (st : decision_tree T) (n_samples n_features : Int) (X : Option (Int → T)) (ldx : Int)
    (y : Option (Int → Int)) (n_class n_obs : Int) (samples_subset : Option (Int → Int))
    (h : (set_training_data E st n_samples n_features X ldx y n_class n_obs
      samples_subset).1 = da_status.da_status_success) :
    ∃ st', set_training_data E st n_samples n_features X ldx y n_class n_obs samples_subset
          = (da_status.da_status_success, st')
      ∧ st'.model_trained = false ∧ st'.tree = []
      ∧ st'.n_samples = n_samples ∧ st'.n_features = n_features
      ∧ (0 ≤ n_obs ∧ n_obs ≤ n_samples)
      ∧ (n_obs = 0 → st'.n_obs = n_samples) ∧ (n_obs ≠ 0 → st'.n_obs = n_obs)
      ∧ (n_class ≤ 0 → st'.n_class = max_label (y.getD (fun _ => 0)) n_samples + 1)
      ∧ (0 < n_class → st'.n_class = n_class)
      ∧ (1 ≤ n_samples →
          (∀ i, 0 ≤ i → i < n_samples →
            y.getD (fun _ => 0) i ≤ max_label (y.getD (fun _ => 0)) n_samples)
          ∧ ∃ i, 0 ≤ i ∧ i < n_samples
              ∧ y.getD (fun _ => 0) i = max_label (y.getD (fun _ => 0)) n_samples)
      ∧ st'.samples_idx.length = st'.n_obs.toNat
      ∧ st'.feature_values.length = st'.n_obs.toNat
      ∧ st'.count_classes.length = st'.n_class.toNat
      ∧ st'.count_left_classes.length = st'.n_class.toNat
      ∧ st'.count_right_classes.length = st'.n_class.toNat
      ∧ st'.features_idx = identity_order n_features.toNat
      ∧ (∀ i : Int, 0 ≤ i → i < n_features → vec_get st'.features_idx i 0 = i)
      ∧ (∀ (E' : externals T) (st1 : decision_tree T), read_options st' = some st1 →
          st.bootstrap = false →
          (queue_root (rooted (configured E' st1))).samples_idx
              = identity_order st'.n_obs.toNat
            ∧ (root_node (configured E' st1) fresh_node).start_idx = 0
            ∧ (root_node (configured E' st1) fresh_node).end_idx = st'.n_obs - 1)
      ∧ (∀ (E' : externals T) (fitted : decision_tree T), E'.conforms →
          st.nodes_to_treat = [] → st.bootstrap = false →
          fit E' st' = outcome.done (da_status.da_status_success, fitted) →
          fitted.samples_idx.Perm (identity_order st'.n_obs.toNat)) := by
  obtain ⟨hobs, e⟩ := set_training_data_success_fields E st n_samples n_features X ldx y
    n_class n_obs samples_subset h
  have hpair : set_training_data E st n_samples n_features X ldx y n_class n_obs
      samples_subset
      = (da_status.da_status_success,
        (set_training_data E st n_samples n_features X ldx y n_class n_obs
          samples_subset).2) := by
    rw [← h]
  refine ⟨_, hpair, ?_⟩
  generalize (set_training_data E st n_samples n_features X ldx y n_class n_obs
    samples_subset).2 = st' at e
  have hlen_s : ∀ (v : List Int) (n : Nat), (vec_resize v n 0).length = n :=
    fun v n => length_vec_resize v n 0
  have hlen_f : ∀ (v : List T) (n : Nat), (vec_resize v n 0).length = n :=
    fun v n => length_vec_resize v n 0
  have f_tr : st'.model_trained = false := by rw [e]
  have f_tree : st'.tree = [] := by rw [e]
  have f_ns : st'.n_samples = n_samples := by rw [e]
  have f_nf : st'.n_features = n_features := by rw [e]
  have f_no : st'.n_obs = if n_obs = 0 then n_samples else n_obs := by rw [e]
  have f_nc : st'.n_class
      = if n_class ≤ 0 then max_label (y.getD (fun _ => 0)) n_samples + 1 else n_class := by
    rw [e]
  have f_si : st'.samples_idx.length = st'.n_obs.toNat := by
    rw [f_no, e]; exact hlen_s _ _
  have f_fv : st'.feature_values.length = st'.n_obs.toNat := by
    rw [f_no, e]; exact hlen_f _ _
  have f_cc : st'.count_classes.length = st'.n_class.toNat := by
    rw [f_nc, e]; exact hlen_s _ _
  have f_cl : st'.count_left_classes.length = st'.n_class.toNat := by
    rw [f_nc, e]; exact hlen_s _ _
  have f_cr : st'.count_right_classes.length = st'.n_class.toNat := by
    rw [f_nc, e]; exact hlen_s _ _
  have f_fi : st'.features_idx = identity_order n_features.toNat := by rw [e]
  have f_q : st'.nodes_to_treat = st.nodes_to_treat := by rw [e]
  have f_b : st'.bootstrap = st.bootstrap := by rw [e]
  have hnn : 0 ≤ st'.n_obs := by
    rw [f_no]; split <;> omega
  have hentry : ∀ (E' : externals T) (st1 : decision_tree T),
      read_options st' = some st1 → st.bootstrap = false →
      (queue_root (rooted (configured E' st1))).samples_idx
          = identity_order st'.n_obs.toNat := by
    intro E' st1 ho hb
    obtain ⟨pp, md, me, mns, mss, bo, nf', sd', ft, mi, pt, sm, e1⟩ :=
      read_options_frame _ st1 ho
    have hb1 : st1.bootstrap = false := by rw [e1]; exact f_b.trans hb
    have hl1 : st1.samples_idx.length = st'.n_obs.toNat := by
      rw [e1]; exact f_si
    obtain ⟨queue, eq, _⟩ := queue_root_frame (rooted (configured E' st1))
    rw [eq]
    show (configured E' st1).samples_idx = _
    rw [configured_samples_identity E' st1 hb1, hl1]
  refine ⟨f_tr, f_tree, f_ns, f_nf, hobs, fun h0 => by rw [f_no, if_pos h0],
    fun h0 => by rw [f_no, if_neg h0],
    fun hc => by rw [f_nc, if_pos hc], fun hc => by rw [f_nc, if_neg (by omega)],
    fun hn => max_label_spec _ _ hn, f_si, f_fv, f_cc, f_cl, f_cr, f_fi, ?_, ?_, ?_⟩
  · intro i hi0 hi1
    rw [f_fi]
    exact vec_get_identity_order _ i hi0 (by omega)
  · intro E' st1 ho hb
    refine ⟨hentry E' st1 ho hb, rfl, ?_⟩
    obtain ⟨pp, md, me, mns, mss, bo, nf', sd', ft, mi, pt, sm, e1⟩ :=
      read_options_frame _ st1 ho
    show (configured E' st1).n_obs - 1 = _
    rw [(configured_settings E' st1).2.2.2.2.2.2.2.2.2.2.2.2.2.2.1, e1]
  · intro E' fitted hE' hq hb hf
    obtain ⟨st1, ho, _, _, _, _, _, _, _, hind⟩ := fit_induct E' hE' st' fitted
      ⟨f_tr, f_tree, f_q.trans hq, hnn, f_si, f_fv, f_cc⟩ hf
    obtain ⟨s, hP, _, _, _, es⟩ := hind
      (fun s => s.samples_idx.Perm (identity_order st'.n_obs.toNat))
      (by
        show (queue_root (rooted (configured E' st1))).samples_idx.Perm _
        rw [hentry E' st1 ho hb])
      (fun fr fr' hi hP hne hs => by
        obtain ⟨nd, _, _, hperm⟩ := fit_step_perm E' hE' fr fr' hi.fit hne hs
        exact hperm.1.trans hP)
    rw [es]
    exact hP

end c40

set_option maxRecDepth 100000 in
/-- Witness of C40: the call of `set_training_data` of the scenario, with `n_obs = 0` and
`n_class = 0`: four samples are used and two classes are found. -/
theorem set_training_data_resets_and_resolves_defaults_witness :
    (set_training_data reference_externals
        (decision_tree.mk_internal 1 1 gini 0 depth_first 0 42 stl_sort 0 (1 / 2) 0 false
          true)
        4 1 (some (fun i => (i : ℚ))) 4 (some (fun i => if i < 2 then 0 else 1)) 0 0
        none).1 = da_status.da_status_success
      ∧ ∃ st', set_training_data reference_externals
            (decision_tree.mk_internal 1 1 gini 0 depth_first 0 42 stl_sort 0 (1 / 2) 0 false
              true)
            4 1 (some (fun i => (i : ℚ))) 4 (some (fun i => if i < 2 then 0 else 1)) 0 0
            none = (da_status.da_status_success, st')
          ∧ st'.model_trained = false ∧ st'.tree = []
          ∧ st'.n_obs = 4 ∧ st'.n_class = 2 ∧ st'.samples_idx.length = 4
          ∧ st'.features_idx = [0] :=
  ⟨rfl,
    (set_training_data_resets_and_resolves_defaults reference_externals
      (decision_tree.mk_internal 1 1 gini 0 depth_first 0 42 stl_sort 0 (1 / 2) 0 false true)
      4 1 (some (fun i => (i : ℚ))) 4 (some (fun i => if i < 2 then 0 else 1)) 0 0 none
      rfl).imp
      (fun st' hh => ⟨hh.1, hh.2.1, hh.2.2.1,
        hh.2.2.2.2.2.2.1 rfl,
        (hh.2.2.2.2.2.2.2.2.1 (le_refl _)).trans (by decide!),
        hh.2.2.2.2.2.2.2.2.2.2.2.1.trans (by rw [hh.2.2.2.2.2.2.1 rfl]; rfl),
        hh.2.2.2.2.2.2.2.2.2.2.2.2.2.2.2.2.1⟩)⟩

section c33

variable {T : Type} [LinearOrderedField T]

/-- The counter `n_leaves` of a fitted tree: the number of internal nodes, plus one when
the root was put into the queue. -/
theorem fit_n_leaves (E : externals T) (hE : E.conforms) (st0 st : decision_tree T)
    (hr : fit_ready st0) (hf : fit E st0 = outcome.done (da_status.da_status_success, st)) :
    (0 < st.max_depth → st.n_leaves = (internal_count st : Int) + 1)
      ∧ (st.max_depth ≤ 0 → st.n_leaves = 0 ∧ st.n_nodes = 1)
      ∧ st.n_nodes = 2 * (internal_count st : Int) + 1
      ∧ leaf_count st = internal_count st + 1 := by
  obtain ⟨st1, ho, hp, ht1, hq1, _, _, _, _, hind⟩ := fit_induct E hE st0 st hr hf
  obtain ⟨hN, _, _, _, h0, hall⟩ := entry_nodes E st1 ht1 hq1 hp
  have hmd0 : (queue_root (rooted (configured E st1))).max_depth = st1.max_depth := by
    obtain ⟨queue, eq, _⟩ := queue_root_frame (rooted (configured E st1))
    rw [eq]
    exact (configured_settings E st1).1
  obtain ⟨s, hP, hinv, hqe, hss, es⟩ := hind
    (fun s => count_inv (if 0 < st1.max_depth then 1 else 0) s
      ∧ (¬ 0 < st1.max_depth → s.nodes_to_treat = [] ∧ s.n_nodes = 1))
    ⟨count_inv_entry E st1 ht1 hq1 hp, fun hc => by
      refine ⟨?_, hN⟩
      unfold queue_root
      rw [if_neg (by
        show ¬ (configured E st1).max_depth > 0
        rw [(configured_settings E st1).1]; exact hc)]
      show (configured E st1).nodes_to_treat = []
      rw [(configured_settings E st1).2.2.2.2.2.2.2.2.2.2.2.2.2.2.2.2.2.1]; exact hq1⟩
    (fun fr fr' hi hP hne hs =>
      ⟨count_inv_step E hE _ fr fr' hi.fit hP.1 hne hs,
        fun hc => absurd (hP.2 hc).1 hne⟩)
  have hmd : s.max_depth = st1.max_depth := hss.max_depth.trans hmd0
  have hcount := hinv.layout.hcount
  have hlc := leaf_count_add_internal s hinv.fit.tree.ok
  have e1 : st.n_leaves = s.n_leaves := by rw [es]
  have e2 : st.n_nodes = s.n_nodes := by rw [es]
  have e3 : st.max_depth = s.max_depth := by rw [es]
  have e4 : internal_count st = internal_count s := by rw [es]; rfl
  have e5 : leaf_count st = leaf_count s := by rw [es]; rfl
  have hc := hP.1
  unfold count_inv at hc
  rw [hqe] at hc
  simp only [List.length_nil, Nat.cast_zero, add_zero] at hc
  rw [e1, e2, e3, e4, e5, hmd]
  refine ⟨?_, ?_, hcount, ?_⟩
  · intro hpos
    rw [if_pos hpos] at hc
    omega
  · intro hle
    have hneg : ¬ 0 < st1.max_depth := by omega
    rw [if_neg hneg] at hc
    have := (hP.2 hneg).2
    omega
  · omega

end c33

set_option maxRecDepth 100000 in
/-- C33: the counter `n_leaves` of a fitted tree is the number of leaves among the nodes in
use when `max_depth > 0`; with `max_depth <= 0` the root is the only node and a leaf, and it
is never counted: `n_leaves` is `0` where the tree has one leaf. On the scenario data with
`max_depth = 0`, `fit` returns a tree of one node, a leaf, with `n_leaves = 0`. -/
theorem n_leaves_misses_root_leaf_when_max_depth_zero :
    (∀ (T : Type) [LinearOrderedField T] (E : externals T) (st0 st : decision_tree T),
        E.conforms → fit_ready st0 →
        fit E st0 = outcome.done (da_status.da_status_success, st) → 0 < st.max_depth →
        st.n_leaves = (leaf_count st : Int))
      ∧ (∀ (T : Type) [LinearOrderedField T] (E : externals T) (st0 st : decision_tree T),
        E.conforms → fit_ready st0 →
        fit E st0 = outcome.done (da_status.da_status_success, st) → st.max_depth ≤ 0 →
        st.n_leaves = 0 ∧ st.n_nodes = 1 ∧ leaf_count st = 1)
      ∧ is_success (fit reference_externals (scenario_instance (1 / 2) true 1 0)) = true
      ∧ (result_of (fit reference_externals (scenario_instance (1 / 2) true 1 0))
          (scenario_instance (1 / 2) true 1 0)).n_nodes = 1
      ∧ leaf_count (result_of (fit reference_externals (scenario_instance (1 / 2) true 1 0))
          (scenario_instance (1 / 2) true 1 0)) = 1
      ∧ (result_of (fit reference_externals (scenario_instance (1 / 2) true 1 0))
          (scenario_instance (1 / 2) true 1 0)).n_leaves = 0 := by
  refine ⟨?_, ?_, by decide!, by decide!, by decide!, by decide!⟩
  · intro T _ E st0 st hE hr hf hpos
    obtain ⟨h1, _, _, h4⟩ := fit_n_leaves E hE st0 st hr hf
    rw [h1 hpos, h4]
    push_cast
    rfl
  · intro T _ E st0 st hE hr hf hle
    obtain ⟨_, h2, h3, h4⟩ := fit_n_leaves E hE st0 st hr hf
    obtain ⟨ha, hb⟩ := h2 hle
    refine ⟨ha, hb, ?_⟩
    have : internal_count st = 0 := by omega
    rw [h4, this]

section c34

variable {T : Type} [LinearOrderedField T]

theorem descend_at_leaf (tree : List (node T)) (X_test : Int → T) (ldx_test i : Int)
    (fuel : Nat) (k : Int) (nd : node T) (h : tree_at tree k = some nd)
    (hl : nd.is_leaf = true) :
    descend tree X_test ldx_test i fuel k = outcome.done k := by
  cases fuel with
  | zero => simp [descend, h, hl]
  | succ n => simp [descend, h, hl]

/-- Along a descent the depth of the node grows by one at every step, so the descent from
a node to the leaf it reaches takes as many steps as the leaf is deeper than the node. -/
theorem descend_within_depth (st : decision_tree T) (hi : fit_inv st) (X_test : Int → T)
    (ldx_test i : Int) (k leaf : Int) (hr : reaches st.tree X_test ldx_test i k leaf) :
    k < st.n_nodes → ∀ kd, tree_at st.tree k = some kd →
      ∃ ld, tree_at st.tree leaf = some ld ∧ kd.depth ≤ ld.depth
        ∧ ∀ fuel : Nat, (ld.depth - kd.depth).toNat ≤ fuel →
            descend st.tree X_test ldx_test i fuel k = outcome.done leaf := by
  induction hr with
  | at_leaf k nd h hl =>
    intro _ kd hk
    rw [h] at hk
    have e := Option.some.inj hk
    refine ⟨nd, h, by rw [e], fun fuel _ => descend_at_leaf _ _ _ _ fuel k nd h hl⟩
  | go_left k leaf nd h hl hlt hr ih =>
    intro hkN kd hk
    rw [h] at hk
    have e := Option.some.inj hk
    obtain ⟨l, r, hl1, hr1, _, _, _, _, _, hld, _⟩ := hi.range.hkids k nd h hkN hl
    have hc := hi.tree.hchild k nd h hkN hl
    obtain ⟨ld, hld1, hle, hfuel⟩ := ih hc.2.2 l hl1
    refine ⟨ld, hld1, by rw [← e]; omega, ?_⟩
    intro fuel hf
    rw [← e] at hf
    cases fuel with
    | zero => omega
    | succ n =>
      have := hfuel n (by omega)
      simp [descend, h, hl, hlt, this]
  | go_right k leaf nd h hl hge hr ih =>
    intro hkN kd hk
    rw [h] at hk
    have e := Option.some.inj hk
    obtain ⟨l, r, hl1, hr1, _, _, _, _, _, _, hrd⟩ := hi.range.hkids k nd h hkN hl
    have hc := hi.tree.hchild k nd h hkN hl
    obtain ⟨ld, hld1, hle, hfuel⟩ := ih (by omega) r hr1
    refine ⟨ld, hld1, by rw [← e]; omega, ?_⟩
    intro fuel hf
    rw [← e] at hf
    cases fuel with
    | zero => omega
    | succ n =>
      have := hfuel n (by omega)
      simp [descend, h, hl, hge, this]

/-- The member `depth` of a fitted tree against the depths of its nodes. -/
theorem fit_depth_inv (E : externals T) (hE : E.conforms) (st0 st : decision_tree T)
    (hr : fit_ready st0) (hf : fit E st0 = outcome.done (da_status.da_status_success, st))
    (hd : 0 ≤ st0.depth) :
    depth_inv st0.depth st ∧ loop_inv st := by
  obtain ⟨st1, ho, hp, ht1, hq1, _, _, _, _, hind⟩ := fit_induct E hE st0 st hr hf
  obtain ⟨pp, md, me, mns, mss, bo, nf', sd', ft, mi, pt, sm, e1⟩ :=
    read_options_frame st0 st1 ho
  have hd1 : st1.depth = st0.depth := by rw [e1]
  obtain ⟨s, hP, hinv, hqe, hss, es⟩ := hind (fun s => depth_inv st0.depth s)
    (by rw [← hd1]; exact depth_inv_entry E st1 ht1 hq1 hp (by rw [hd1]; exact hd))
    (fun fr fr' hi hP hne hs => depth_inv_step E hE _ fr fr' hi.fit hP hne hs)
  rw [es]
  exact ⟨⟨hP.hle, hP.hnn, hP.hmono, hP.hmax⟩,
    ⟨fit_inv_trained s hinv.fit,
      ⟨hinv.expand.hexp, hinv.expand.hrootq, hinv.expand.hroot, hinv.expand.hdepth⟩,
      ⟨hinv.leaf.hlen, hinv.leaf.hroot, hinv.leaf.hdisj⟩,
      ⟨hinv.layout.hinj, hinv.layout.hcount⟩⟩⟩

/-- C34: in a fitted tree the two children of an internal node in use are nodes in use
with larger indices, one level deeper than the node; so for every query row the descent
from the root ends at a leaf in use after as many steps as the leaf is deep: fuel for
`depth(leaf)` steps is enough for `descend` to return the leaf, the depth of the leaf is at
most `max_depth`, and at most the member `depth` when that member was not negative on
entry of `fit`; the fuel that `predict` gives returns the same leaf. -/
theorem descent_ends_at_leaf_within_its_depth (E : externals T) (hE : E.conforms)
    (st0 st : decision_tree T) (hr : fit_ready st0)
    (hf : fit E st0 = outcome.done (da_status.da_status_success, st)) :
    (∀ k nd, tree_at st.tree k = some nd → k < st.n_nodes → nd.is_leaf = false →
        ∃ l r, tree_at st.tree nd.left_child_idx = some l
          ∧ tree_at st.tree nd.right_child_idx = some r
          ∧ k < nd.left_child_idx ∧ k < nd.right_child_idx
          ∧ nd.left_child_idx < st.n_nodes ∧ nd.right_child_idx < st.n_nodes
          ∧ l.depth = nd.depth + 1 ∧ r.depth = nd.depth + 1)
      ∧ ∀ (X_test : Int → T) (ldx_test i : Int),
          ∃ leaf ld, tree_at st.tree leaf = some ld ∧ ld.is_leaf = true
            ∧ leaf < st.n_nodes ∧ 0 ≤ ld.depth
            ∧ (0 ≤ st.max_depth → ld.depth ≤ st.max_depth)
            ∧ (0 ≤ st0.depth → ld.depth ≤ st.depth)
            ∧ (∀ fuel : Nat, ld.depth.toNat ≤ fuel →
                descend st.tree X_test ldx_test i fuel 0 = outcome.done leaf)
            ∧ descend st.tree X_test ldx_test i st.tree.length 0 = outcome.done leaf := by
  obtain ⟨hinv, _⟩ := fit_fitted E hE st0 st hr hf
  have hexp := fit_expand_inv E hE st0 st hr hf
  have hN := hinv.tree.ok.hN
  refine ⟨?_, ?_⟩
  · intro k nd hk hkN hl
    obtain ⟨l, r, hl1, hr1, _, _, _, _, _, hld, hrd⟩ := hinv.range.hkids k nd hk hkN hl
    have hc := hinv.tree.hchild k nd hk hkN hl
    exact ⟨l, r, hl1, hr1, by omega, hc.1, hc.2.2, by omega, hld, hrd⟩
  · intro X_test ldx_test i
    obtain ⟨leaf, nd, hd, hre, hnd, hl, _, hlt⟩ :=
      descend_spec st hinv.tree X_test ldx_test i st.tree.length 0 (le_refl _)
        (by omega) (by omega)
    obtain ⟨root, hroot⟩ := tree_at_of_bounds st.tree 0 (le_refl _) (by omega)
    have hr0 := hexp.hroot root hroot
    obtain ⟨ld, hld, hle, hfuel⟩ := descend_within_depth st hinv X_test ldx_test i 0 leaf hre
      (by omega) root hroot
    rw [hnd] at hld
    have e := Option.some.inj hld
    rw [← e, hr0] at hle hfuel
    refine ⟨leaf, nd, hnd, hl, hlt, hle, ?_, ?_, ?_, hd⟩
    · intro hmd
      by_cases h0 : leaf = 0
      · rw [h0, hroot] at hnd
        rw [← Option.some.inj hnd, hr0]
        exact hmd
      · exact hexp.hdepth leaf nd hnd hlt h0
    · intro hd0
      exact (fit_depth_inv E hE st0 st hr hf hd0).1.hle leaf nd hnd hlt
    · intro fuel hfl
      exact hfuel fuel (by simpa using hfl)

end c34

set_option maxRecDepth 100000 in
/-- Witness of C34: the fitted scenario instance and the query rows `[1/2]`, `[5/2]`: the
row `0` reaches the leaf `2` with fuel for one step. -/
theorem descent_ends_at_leaf_within_its_depth_witness :
    scenario_fitted.depth = 1
      ∧ descend scenario_fitted.tree scenario_query 2 0 1 0 = outcome.done 2
      ∧ ∀ (X_test : Int → ℚ) (ldx_test i : Int),
          ∃ leaf ld, tree_at scenario_fitted.tree leaf = some ld ∧ ld.is_leaf = true
            ∧ leaf < scenario_fitted.n_nodes ∧ 0 ≤ ld.depth
            ∧ (∀ fuel : Nat, ld.depth.toNat ≤ fuel →
                descend scenario_fitted.tree X_test ldx_test i fuel 0 = outcome.done leaf) :=
  ⟨by decide!, by decide!, fun X_test ldx_test i =>
    ((descent_ends_at_leaf_within_its_depth reference_externals reference_externals_conforms
      (scenario_instance (1 / 2) true 1 1) scenario_fitted (scenario_instance_ready _ _ _ _)
      scenario_fit_success).2 X_test ldx_test i).imp
      (fun _ h => h.imp (fun _ h' => ⟨h'.1, h'.2.1, h'.2.2.1, h'.2.2.2.1, h'.2.2.2.2.2.2.1⟩))⟩

section c35

variable {T : Type} [LinearOrderedField T]

end c35

set_option maxRecDepth 100000 in
/-- C35: the member `depth` is set in the constructor only: neither `refresh`, nor
`set_training_data`, nor `fit` resets it, and `add_node` only raises it. A `fit` on an
instance whose `depth` is `0` on entry ends with `depth` equal to the largest depth of a
node in use, at most `max_depth`; a `fit` on an instance with an older value never ends
below it. The fitted scenario instance (`depth = 1`), given labels of one class through
`set_training_data` and fitted again, is a tree of one node of depth `0` with `depth`
still `1`. -/
theorem depth_not_reset_between_fits :
    (∀ (T : Type) [LinearOrderedField T] (E : externals T) (st0 st : decision_tree T),
        E.conforms → fit_ready st0 → st0.depth = 0 →
        fit E st0 = outcome.done (da_status.da_status_success, st) → 0 ≤ st.max_depth →
        (∀ k nd, tree_at st.tree k = some nd → k < st.n_nodes → nd.depth ≤ st.depth)
          ∧ (∃ k nd, tree_at st.tree k = some nd ∧ k < st.n_nodes ∧ nd.depth = st.depth)
          ∧ st.depth ≤ st.max_depth)
      ∧ (∀ (T : Type) [LinearOrderedField T] (E : externals T) (st0 st : decision_tree T),
        E.conforms → fit_ready st0 → 0 ≤ st0.depth →
        fit E st0 = outcome.done (da_status.da_status_success, st) →
        st0.depth ≤ st.depth)
      ∧ (∀ (T : Type) [LinearOrderedField T] (st : decision_tree T),
        (refresh st).depth = st.depth)
      ∧ scenario_fitted.depth = 1
      ∧ fit_ready scenario_relabelled
      ∧ scenario_relabelled.depth = 1
      ∧ is_success (fit reference_externals scenario_relabelled) = true
      ∧ (result_of (fit reference_externals scenario_relabelled) scenario_relabelled).n_nodes
          = 1
      ∧ ((result_of (fit reference_externals scenario_relabelled)
          scenario_relabelled).tree.getD 0 fresh_node).depth = 0
      ∧ (result_of (fit reference_externals scenario_relabelled) scenario_relabelled).depth
          = 1 := by
  refine ⟨?_, ?_, fun T _ st => rfl, by decide!,
    ⟨rfl, rfl, by decide!, by decide!, by decide!, by decide!, by decide!⟩,
    by decide!, by decide!, by decide!, by decide!, by decide!⟩
  · intro T _ E st0 st hE hr hd0 hf hmd
    obtain ⟨hdi, hli⟩ := fit_depth_inv E hE st0 st hr hf (by omega)
    have hN := hli.fit.tree.ok.hN
    obtain ⟨root, hroot⟩ := tree_at_of_bounds st.tree 0 (le_refl _) (by omega)
    have hr0 := hli.expand.hroot root hroot
    have hex : ∃ k nd, tree_at st.tree k = some nd ∧ k < st.n_nodes
        ∧ nd.depth = st.depth := by
      rcases hdi.hmax with h1 | h1
      · exact ⟨0, root, hroot, by omega, by rw [hr0, h1, hd0]⟩
      · exact h1
    refine ⟨hdi.hle, hex, ?_⟩
    obtain ⟨k, nd, hk, hkN, hkd⟩ := hex
    rw [← hkd]
    by_cases h0 : k = 0
    · rw [h0, hroot] at hk
      rw [← Option.some.inj hk, hr0]
      exact hmd
    · exact hli.expand.hdepth k nd hk hkN h0
  · intro T _ E st0 st hE hr hd0 hf
    exact (fit_depth_inv E hE st0 st hr hf hd0).1.hmono

/-! ## The build order in `fit` -/

section order

variable {T : Type} [LinearOrderedField T]

theorem select_score_build_order (E : externals T) (st : decision_tree T) (b : Int) :
    select_score E { st with build_order := b }
      = { select_score E st with build_order := b } := by
  unfold select_score
  split_ifs <;> rfl

theorem resolve_nfeat_build_order (st : decision_tree T) (b : Int) :
    resolve_nfeat { st with build_order := b } = { resolve_nfeat st with build_order := b } := by
  unfold resolve_nfeat
  split_ifs <;> rfl

theorem resolve_seed_build_order (E : externals T) (st : decision_tree T) (b : Int) :
    resolve_seed E { st with build_order := b }
      = { resolve_seed E st with build_order := b } := by
  unfold resolve_seed
  simp only
  split_ifs <;> rfl

theorem allocate_build_order (st : decision_tree T) (b : Int) :
    allocate { st with build_order := b } = { allocate st with build_order := b } := by
  unfold allocate
  split_ifs <;> rfl

theorem init_samples_build_order (E : externals T) (st : decision_tree T) (b : Int) :
    init_samples E { st with build_order := b }
      = { init_samples E st with build_order := b } := by
  unfold init_samples
  split_ifs <;> first | rfl | (dsimp only; cases st.samples_subset <;> rfl)

/-- The preparation of `fit` does not read the build order. -/
theorem configured_build_order (E : externals T) (st : decision_tree T) (b : Int) :
    configured E { st with build_order := b } = { configured E st with build_order := b } := by
  unfold configured
  rw [select_score_build_order, resolve_nfeat_build_order, resolve_seed_build_order,
    allocate_build_order, init_samples_build_order]

/-- The members that `read_options` leaves as they are. -/
theorem read_options_rest (a b : decision_tree T) (h : read_options a = some b) :
    b.model_trained = a.model_trained ∧ b.tree = a.tree
      ∧ b.nodes_to_treat = a.nodes_to_treat ∧ b.n_obs = a.n_obs
      ∧ b.samples_idx = a.samples_idx ∧ b.feature_values = a.feature_values
      ∧ b.count_classes = a.count_classes ∧ b.n_class = a.n_class
      ∧ b.count_left_classes = a.count_left_classes
      ∧ b.count_right_classes = a.count_right_classes ∧ b.depth = a.depth := by
  obtain ⟨pp, md, me, mns, mss, bo, nf, sd, ft, mi, pt, sm, e⟩ := read_options_frame a b h
  rw [e]
  exact ⟨rfl, rfl, rfl, rfl, rfl, rfl, rfl, rfl, rfl, rfl, rfl⟩

/-- The settings of the search in a fitted instance are those that `fit` prepared. -/
theorem fit_settings (E : externals T) (hE : E.conforms) (st0 st : decision_tree T)
    (hr : fit_ready st0) (hf : fit E st0 = outcome.done (da_status.da_status_success, st)) :
    ∃ st1, read_options st0 = some st1
      ∧ st.feat_thresh = (configured E st1).feat_thresh
      ∧ st.sort_method = (configured E st1).sort_method
      ∧ st.nfeat_split = (configured E st1).nfeat_split
      ∧ st.n_features = (configured E st1).n_features
      ∧ st.n_obs = (configured E st1).n_obs := by
  obtain ⟨st1, ho, hp, ht1, hq1, hobs, hls, _, hlc, hind⟩ := fit_induct E hE st0 st hr hf
  obtain ⟨s, _, hinv, hqe, hss, es⟩ := hind (fun _ => True) trivial
    (fun _ _ _ _ _ _ => trivial)
  have hd := same_data_entry E st1
  rw [es]
  exact ⟨st1, ho, hss.feat_thresh.trans hd.feat_thresh,
    hss.sort_method.trans hd.sort_method, hss.nfeat_split.trans hd.nfeat_split,
    hss.n_features.trans hd.n_features, hss.n_obs.trans hd.n_obs⟩

end order

section c36

variable {T : Type} [LinearOrderedField T]

/-- C36: in a fitted tree with at least one class, the label `y_pred` of every node in use
is a class of `[0, n_class)` whose count among the samples
`samples_idx[start_idx..end_idx]` of the final arrangement is at least that of every class
of `[0, n_class)` and greater than that of every smaller class; with all labels in
`[0, n_class)` no label at all occurs more often. -/
theorem y_pred_is_first_majority_class (E : externals T) (hE : E.conforms)
    (st0 st : decision_tree T) (hr : fit_ready st0)
    (hf : fit E st0 = outcome.done (da_status.da_status_success, st))
    (hc : 1 ≤ st.n_class) :
    ∀ k nd, tree_at st.tree k = some nd → k < st.n_nodes →
      0 ≤ nd.y_pred ∧ nd.y_pred < st.n_class
        ∧ (∀ c, 0 ≤ c → c < st.n_class →
            class_count st nd.start_idx nd.end_idx c
              ≤ class_count st nd.start_idx nd.end_idx nd.y_pred)
        ∧ (∀ c, 0 ≤ c → c < nd.y_pred →
            class_count st nd.start_idx nd.end_idx c
              < class_count st nd.start_idx nd.end_idx nd.y_pred)
        ∧ ((∀ s, 0 ≤ st.y s ∧ st.y s < st.n_class) →
            ∀ c, class_count st nd.start_idx nd.end_idx c
              ≤ class_count st nd.start_idx nd.end_idx nd.y_pred) := by
  obtain ⟨hl, hinv⟩ := fit_label_inv E hE st0 st hr hf
  intro k nd hk hkN
  obtain ⟨k0, k1, k2, k3⟩ := hinv.fit.range.hnode k nd hk hkN
  have hcc := hinv.fit.range.hcc
  obtain ⟨l1, e1⟩ := count_class_occurences_spec st st.count_classes nd.start_idx nd.end_idx
    k0 k1 k2
  have hlen : ((range_counts st nd.start_idx nd.end_idx).length : Int) = st.n_class := by
    unfold range_counts
    rw [l1, hcc]
    omega
  obtain ⟨m0, m1, m2, m3⟩ := max_element_idx_spec (range_counts st nd.start_idx nd.end_idx)
    (by omega)
  rw [← hl k nd hk hkN] at m0 m1 m2 m3
  rw [hlen] at m1 m2
  have hget : ∀ c, 0 ≤ c → c < st.n_class →
      vec_get (range_counts st nd.start_idx nd.end_idx) c 0
        = class_count st nd.start_idx nd.end_idx c := fun c h0 h1 =>
    e1 c h0 (by rw [hcc]; omega)
  have hmax : ∀ c, 0 ≤ c → c < st.n_class → class_count st nd.start_idx nd.end_idx c
      ≤ class_count st nd.start_idx nd.end_idx nd.y_pred := by
    intro c h0 h1
    have := m2 c h0 h1
    rw [hget c h0 h1, hget _ m0 m1] at this
    exact_mod_cast this
  refine ⟨m0, m1, hmax, ?_, ?_⟩
  · intro c h0 h1
    have := m3 c h0 h1
    rw [hget c h0 (by omega), hget _ m0 m1] at this
    exact_mod_cast this
  · intro hy c
    by_cases hin : 0 ≤ c ∧ c < st.n_class
    · exact hmax c hin.1 hin.2
    · have : class_count st nd.start_idx nd.end_idx c = 0 := by
        unfold class_count
        rw [List.count_eq_zero]
        intro hm
        obtain ⟨s, _, e⟩ := List.mem_map.mp hm
        have := hy s
        rw [e] at this
        exact hin this
      rw [this]
      exact Nat.zero_le _

end c36

set_option maxRecDepth 100000 in
/-- Witness of C36: the root of the fitted scenario instance holds two samples of each of
the two classes and the label `0`. -/
theorem y_pred_is_first_majority_class_witness :
    (scenario_fitted.tree.getD 0 fresh_node).y_pred = 0
      ∧ class_count scenario_fitted 0 3 0 = 2 ∧ class_count scenario_fitted 0 3 1 = 2
      ∧ ∀ c, 0 ≤ c → c < scenario_fitted.n_class →
          class_count scenario_fitted (scenario_fitted.tree.getD 0 fresh_node).start_idx
              (scenario_fitted.tree.getD 0 fresh_node).end_idx c
            ≤ class_count scenario_fitted (scenario_fitted.tree.getD 0 fresh_node).start_idx
              (scenario_fitted.tree.getD 0 fresh_node).end_idx
              (scenario_fitted.tree.getD 0 fresh_node).y_pred :=
  ⟨by decide!, by decide!, by decide!,
    (y_pred_is_first_majority_class reference_externals reference_externals_conforms
      (scenario_instance (1 / 2) true 1 1) scenario_fitted (scenario_instance_ready _ _ _ _)
      scenario_fit_success (by decide!) 0 (scenario_fitted.tree.getD 0 fresh_node)
      (tree_at_getD _ 0 _ (by decide) (by decide!)) (by decide!)).2.2.1⟩

section c37

variable {T : Type} [LinearOrderedField T]

end c37

section c38

variable {T : Type} [LinearOrderedField T]

end c38

section c32

variable {T : Type} [LinearOrderedField T]

/-- C32: on two arrangements of the range of a node, each a rearrangement of the other and
both ascending by the value of the candidate feature (`feature_values` holding the values
of the samples in their order), in instances with the same data and the same histograms,
`find_best_split` with a positive `feat_thresh` returns the same `samp_idx`, `score`,
`threshold`, `left_score`, `right_score` and `feat_idx`. -/
theorem find_best_split_same_on_ascending_arrangements (st1 st2 : decision_tree T)
    (nd : node T) (f : Int) (ft ms : T) (sp : split T)
    (hnd : node_in_range st1.samples_idx.length nd)
    (hlen2 : nd.end_idx < st2.samples_idx.length)
    (hperm : (seg st2.samples_idx nd.start_idx nd.end_idx).Perm
      (seg st1.samples_idx nd.start_idx nd.end_idx))
    (hy : st2.y = st1.y) (hX : st2.X = st1.X) (hldx : st2.ldx = st1.ldx)
    (hk : st2.n_class = st1.n_class) (hsf : st2.score_function = st1.score_function)
    (hcc : st2.count_classes = st1.count_classes)
    (hcl : st2.count_left_classes.length = st1.count_left_classes.length)
    (hcr : st2.count_right_classes = st1.count_right_classes)
    (hfv1 : ∀ i, nd.start_idx ≤ i → i ≤ nd.end_idx →
      vec_get st1.feature_values i 0 = feat_val st1 f (vec_get st1.samples_idx i 0))
    (hfv2 : ∀ i, nd.start_idx ≤ i → i ≤ nd.end_idx →
      vec_get st2.feature_values i 0 = feat_val st2 f (vec_get st2.samples_idx i 0))
    (hasc1 : ∀ i j, nd.start_idx ≤ i → i ≤ j → j ≤ nd.end_idx →
      vec_get st1.feature_values i 0 ≤ vec_get st1.feature_values j 0)
    (hasc2 : ∀ i j, nd.start_idx ≤ i → i ≤ j → j ≤ nd.end_idx →
      vec_get st2.feature_values i 0 ≤ vec_get st2.feature_values j 0)
    (hft : 0 < ft) :
    (find_best_split st2 nd ft ms sp).2.samp_idx = (find_best_split st1 nd ft ms sp).2.samp_idx
      ∧ (find_best_split st2 nd ft ms sp).2.score = (find_best_split st1 nd ft ms sp).2.score
      ∧ (find_best_split st2 nd ft ms sp).2.threshold
          = (find_best_split st1 nd ft ms sp).2.threshold
      ∧ (find_best_split st2 nd ft ms sp).2.left_score
          = (find_best_split st1 nd ft ms sp).2.left_score
      ∧ (find_best_split st2 nd ft ms sp).2.right_score
          = (find_best_split st1 nd ft ms sp).2.right_score
      ∧ (find_best_split st2 nd ft ms sp).2.feat_idx
          = (find_best_split st1 nd ft ms sp).2.feat_idx :=
  sweep_same st1 st2 nd f ft ms sp hnd hlen2 hperm hy hX hldx hk hsf hcc hcl hcr hfv1 hfv2
    hasc1 hasc2 hft

/-- The split found does not depend on the sort method nor on the routines behind the two
methods, when they sort: `find_best_split` with a positive `feat_thresh` returns the same
split after `sort_samples` on the same instance with either method and either set of
routines. -/
theorem find_best_split_same_for_sort_methods (E1 E2 : externals T) (hE1 : E1.conforms)
    (hE2 : E2.conforms) (st : decision_tree T) (m1 m2 : Int)
    (hm1 : m1 = stl_sort ∨ m1 = boost_sort) (hm2 : m2 = stl_sort ∨ m2 = boost_sort)
    (nd : node T) (f : Int) (ft ms : T) (sp : split T)
    (hnd : node_in_range st.samples_idx.length nd)
    (hfv : st.feature_values.length = st.samples_idx.length) (hft : 0 < ft) :
    (find_best_split (sort_samples E2 { st with sort_method := m2 } nd f) nd ft ms sp).2
      = (find_best_split (sort_samples E1 { st with sort_method := m1 } nd f) nd ft ms sp).2 := by
  obtain ⟨h0, h1, h2, h3⟩ := hnd
  have p1 := sort_samples_perm_within E1 hE1 { st with sort_method := m1 } nd f ⟨h0, h1, h2, h3⟩
  have p2 := sort_samples_perm_within E2 hE2 { st with sort_method := m2 } nd f ⟨h0, h1, h2, h3⟩
  have l1 := perm_within_length p1
  have l2 := perm_within_length p2
  have key := sweep_same (sort_samples E1 { st with sort_method := m1 } nd f)
    (sort_samples E2 { st with sort_method := m2 } nd f) nd f ft ms sp
    ⟨h0, h1, by rw [l1]; exact h2, h3⟩ (by rw [l2]; exact h2)
    ((perm_within_seg p2 h1).trans (perm_within_seg p1 h1).symm)
    rfl rfl rfl rfl rfl rfl rfl rfl
    (fun i hi1 hi2 => sort_samples_feature_values E1 { st with sort_method := m1 } nd f h0
      (by show nd.end_idx < (st.feature_values.length : Int); rw [hfv]; exact h2) i hi1 hi2)
    (fun i hi1 hi2 => sort_samples_feature_values E2 { st with sort_method := m2 } nd f h0
      (by show nd.end_idx < (st.feature_values.length : Int); rw [hfv]; exact h2) i hi1 hi2)
    (fun i j hi hij hj => sort_samples_ascending E1 hE1 { st with sort_method := m1 } nd f
      ⟨h0, h1, h2, h3⟩ hfv hm1 i j hi hij hj)
    (fun i j hi hij hj => sort_samples_ascending E2 hE2 { st with sort_method := m2 } nd f
      ⟨h0, h1, h2, h3⟩ hfv hm2 i j hi hij hj)
    hft
  obtain ⟨k1, k2, k3, k4, k5, k6⟩ := key
  generalize (find_best_split (sort_samples E2 { st with sort_method := m2 } nd f) nd ft ms
    sp).2 = r2 at *
  generalize (find_best_split (sort_samples E1 { st with sort_method := m1 } nd f) nd ft ms
    sp).2 = r1 at *
  cases r1
  cases r2
  simp only at k1 k2 k3 k4 k5 k6
  simp only [k1, k2, k3, k4, k5, k6]

end c32

set_option maxRecDepth 100000 in
theorem tied_values (i : Int) (h0 : 0 ≤ i) (h1 : i ≤ 3) :
    vec_get tied_sorted.feature_values i 0
        = feat_val tied_sorted 0 (vec_get tied_sorted.samples_idx i 0)
      ∧ vec_get tied_swapped.feature_values i 0
        = feat_val tied_swapped 0 (vec_get tied_swapped.samples_idx i 0) := by
  interval_cases i <;> exact ⟨by decide!, by decide!⟩

set_option maxRecDepth 100000 in
theorem tied_ascending (i j : Int) (h0 : 0 ≤ i) (hij : i ≤ j) (h1 : j ≤ 3) :
    vec_get tied_sorted.feature_values i 0 ≤ vec_get tied_sorted.feature_values j 0 := by
  have hi : i ≤ 3 := by omega
  have hj : 0 ≤ j := by omega
  interval_cases i <;> interval_cases j <;> decide!

set_option maxRecDepth 100000 in
/-- Witness of C32: the root of `tied_instance` with its samples in the order `0, 1, 2, 3`
and in the order `1, 0, 3, 2`: the split after position `1` is found on both. -/
theorem find_best_split_same_on_ascending_arrangements_witness :
    tied_sorted.samples_idx = [0, 1, 2, 3] ∧ tied_swapped.samples_idx = [1, 0, 3, 2]
      ∧ tied_sorted.feature_values = [0, 0, 1, 1]
      ∧ (find_best_split tied_sorted tied_root (1 / 2) 1
          reference_externals.uninit_split).2.samp_idx = 1
      ∧ (find_best_split tied_swapped tied_root (1 / 2) 1
          reference_externals.uninit_split).2.samp_idx
        = (find_best_split tied_sorted tied_root (1 / 2) 1
          reference_externals.uninit_split).2.samp_idx
      ∧ (find_best_split tied_swapped tied_root (1 / 2) 1
          reference_externals.uninit_split).2.score
        = (find_best_split tied_sorted tied_root (1 / 2) 1
          reference_externals.uninit_split).2.score :=
  have e0 : tied_root.start_idx = 0 := rfl
  have e1 : tied_root.end_idx = 3 := by decide!
  have key := find_best_split_same_on_ascending_arrangements tied_sorted tied_swapped
    tied_root 0 (1 / 2) 1 reference_externals.uninit_split
    ⟨by decide!, by decide!, by decide!, by decide!⟩ (by decide!) (by decide!)
    rfl rfl rfl rfl rfl rfl rfl rfl
    (fun i hi1 hi2 => (tied_values i (by rw [e0] at hi1; exact hi1)
      (by rw [e1] at hi2; exact hi2)).1)
    (fun i hi1 hi2 => (tied_values i (by rw [e0] at hi1; exact hi1)
      (by rw [e1] at hi2; exact hi2)).2)
    (fun i j hi hij hj => tied_ascending i j (by rw [e0] at hi; exact hi) hij
      (by rw [e1] at hj; exact hj))
    (fun i j hi hij hj => tied_ascending i j (by rw [e0] at hi; exact hi) hij
      (by rw [e1] at hj; exact hj))
    (by norm_num)
  ⟨by decide!, rfl, by decide!, by decide!, key.1, key.2.1⟩

section c39

variable {T : Type} [LinearOrderedField T]

/-- C39: two instances ready for `fit` whose options, as `fit` reads them, differ in the
build order only, both fitted with success, with a positive `feat_thresh`, a sort method
whose routines sort, every feature tried at every node, at least one sample, histograms of
the size of `count_classes` and a member `depth` that is not negative on entry: the two
fitted instances have the same `n_nodes`, `n_leaves` and `depth`; their trees are the same
binary tree from the roots down (corresponding nodes have the same range, depth, number of
samples, score, label and kind, the same samples in their range, and when internal the
same feature and threshold, their left children and their right children corresponding in
turn); every query row gets the same label, and `predict` returns the same output. -/
theorem build_order_changes_only_layout (E : externals T) (hE : E.conforms)
    (st0 st0' st1 st st' : decision_tree T) (b' : Int) (hr : fit_ready st0)
    (ho : read_options st0 = some st1)
    (ho' : read_options st0' = some { st1 with build_order := b' })
    (hf : fit E st0 = outcome.done (da_status.da_status_success, st))
    (hf' : fit E st0' = outcome.done (da_status.da_status_success, st'))
    (hcl : st0.count_left_classes.length = st0.n_class.toNat)
    (hcr : st0.count_right_classes.length = st0.n_class.toNat)
    (hd0 : 0 ≤ st0.depth) (hobs : 1 ≤ st.n_obs)
    (hft : 0 < st.feat_thresh) (hm : valid_sort_method st)
    (hnf : st.nfeat_split = st.n_features) :
    st'.n_nodes = st.n_nodes ∧ st'.n_leaves = st.n_leaves ∧ st'.depth = st.depth
      ∧ iso st st' 0 0
      ∧ (∀ (X_test : Int → T) (ldx_test i : Int),
          label_of st' X_test ldx_test i = label_of st X_test ldx_test i)
      ∧ (∀ (nsamp nfeat : Int) (X_test : Option (Int → T)) (ldx_test : Int)
          (buf : List Int) (mode : Int), nfeat = st.n_features →
          (E.store_2D_array nsamp nfeat X_test ldx_test mode).1
            = da_status.da_status_success →
          nsamp ≤ buf.length →
          ∃ out, predict E st nsamp nfeat X_test ldx_test (some buf) mode
              = outcome.done (da_status.da_status_success, some out)
            ∧ predict E st' nsamp nfeat X_test ldx_test (some buf) mode
              = outcome.done (da_status.da_status_success, some out)) := by
  obtain ⟨a1, a2, a3, a4, a5, a6, a7, a8, a9, a10, a11⟩ := read_options_rest st0 st1 ho
  obtain ⟨b1, b2, b3, b4, b5, b6, b7, b8, b9, b10, b11⟩ :=
    read_options_rest st0' { st1 with build_order := b' } ho'
  have hr' : fit_ready st0' :=
    ⟨by rw [← b1]; exact a1.trans hr.untrained, by rw [← b2]; exact a2.trans hr.no_tree,
      by rw [← b3]; exact a3.trans hr.no_queue, by rw [← b4]; exact a4 ▸ hr.n_obs_nonneg,
      by rw [← b5, ← b4]; exact (congrArg List.length a5).trans (a4 ▸ hr.len_samples),
      by rw [← b6, ← b4]; exact (congrArg List.length a6).trans (a4 ▸ hr.len_values),
      by rw [← b7, ← b8]; exact (congrArg List.length a7).trans (a8 ▸ hr.len_counts)⟩
  have hcl' : st0'.count_left_classes.length = st0'.n_class.toNat := by
    rw [← b9, ← b8]; exact (congrArg List.length a9).trans (a8 ▸ hcl)
  have hcr' : st0'.count_right_classes.length = st0'.n_class.toNat := by
    rw [← b10, ← b8]; exact (congrArg List.length a10).trans (a8 ▸ hcr)
  have hd0' : st0'.depth = st0.depth := by rw [← b11]; exact a11
  have hnf1 : ¬ st.nfeat_split < st.n_features := by rw [hnf]; exact lt_irrefl _
  obtain ⟨x1, hx1, v, hd, hp⟩ := fit_run_view E hE st0 st hr hf hcl hcr hft hm hnf1
  rw [ho] at hx1
  have ex1 := Option.some.inj hx1
  subst ex1
  obtain ⟨x2, hx2, s1, s2, s3, s4, s5⟩ := fit_settings E hE st0' st' hr' hf'
  rw [ho'] at hx2
  have ex2 := Option.some.inj hx2
  subst ex2
  have hcb := configured_build_order E st1 b'
  have hft' : 0 < st'.feat_thresh := by
    rw [s1, hcb]
    show 0 < (configured E st1).feat_thresh
    rw [← hd.feat_thresh]; exact hft
  have hm' : valid_sort_method st' := by
    unfold valid_sort_method at hm ⊢
    rw [s2, hcb]
    show (configured E st1).sort_method = stl_sort ∨ (configured E st1).sort_method = boost_sort
    rw [← hd.sort_method]; exact hm
  have hnf' : ¬ st'.nfeat_split < st'.n_features := by
    rw [s3, s4, hcb]
    show ¬ (configured E st1).nfeat_split < (configured E st1).n_features
    rw [← hd.nfeat_split, ← hd.n_features]; exact hnf1
  have hobs' : 1 ≤ st'.n_obs := by
    rw [s5, hcb]
    show 1 ≤ (configured E st1).n_obs
    rw [← hd.n_obs]; exact hobs
  obtain ⟨x3, hx3, v', hd', hp'⟩ := fit_run_view E hE st0' st' hr' hf' hcl' hcr' hft' hm' hnf'
  rw [ho'] at hx3
  have ex3 := Option.some.inj hx3
  subst ex3
  rw [hcb] at hd' hp'
  have hdc : same_data (configured E st1)
      ({ configured E st1 with build_order := b' } : decision_tree T) :=
    ⟨rfl, rfl, rfl, rfl, rfl, rfl, rfl, rfl, rfl, rfl, rfl, rfl, rfl, rfl, rfl⟩
  have hdd : same_data st st' := same_data_trans (same_data_symm hd) (same_data_trans hdc hd')
  have hperm : st'.samples_idx.Perm st.samples_idx := hp'.trans hp.symm
  have hi := iso_root E hE st st' v v' hdd (by omega) hperm
  have hi' := iso_root E hE st' st v' v (same_data_symm hdd) (by omega) hperm.symm
  obtain ⟨n1, n2, n3, n4⟩ := fit_n_leaves E hE st0 st hr hf
  obtain ⟨m1, m2, m3, m4⟩ := fit_n_leaves E hE st0' st' hr' hf'
  have hlc := leaf_count_same E st st' v v' hi hi' hobs hobs'
  have hic : internal_count st' = internal_count st := by omega
  obtain ⟨t1, _⟩ := fit_depth_inv E hE st0 st hr hf hd0
  obtain ⟨t2, _⟩ := fit_depth_inv E hE st0' st' hr' hf' (by rw [hd0']; exact hd0)
  rw [hd0'] at t2
  obtain ⟨_, _, htr⟩ := fit_tree_inv E st0 st hr hf
  obtain ⟨_, _, htr'⟩ := fit_tree_inv E st0' st' hr' hf'
  refine ⟨by rw [m3, n3, hic], ?_, ?_, hi, ?_, ?_⟩
  · by_cases hmd : 0 < st.max_depth
    · rw [m1 (by rw [hdd.max_depth]; exact hmd), n1 hmd, hic]
    · rw [(m2 (by rw [hdd.max_depth]; omega)).1, (n2 (by omega)).1]
  · exact le_antisymm (depth_le_of_iso E st' st v' v hi' st0.depth t2 t1)
      (depth_le_of_iso E st st' v v' hi st0.depth t1 t2)
  · exact fun X_test ldx_test i =>
      label_same st st' v.inv.fit.tree v'.inv.fit.tree hi X_test ldx_test i
  · exact fun nsamp nfeat X_test ldx_test buf mode hfeat hstore hbuf =>
      predict_same E st st' v.inv.fit.tree v'.inv.fit.tree htr htr' hdd.n_features hi nsamp
        nfeat X_test ldx_test buf mode hfeat hstore hbuf

end c39

theorem order_instance_ready (bo : Int) : fit_ready (order_instance bo) :=
  ⟨rfl, rfl, rfl, by show (0 : Int) ≤ 5; decide, rfl, rfl, rfl⟩

set_option maxRecDepth 100000 in
theorem order_fit_success_depth_first :
    fit reference_externals (order_instance depth_first)
      = outcome.done (da_status.da_status_success, order_fitted depth_first) :=
  eq_done_of_is_success _ _ (by decide!)

set_option maxRecDepth 100000 in
theorem order_fit_success_breadth_first :
    fit reference_externals (order_instance breadth_first)
      = outcome.done (da_status.da_status_success, order_fitted breadth_first) :=
  eq_done_of_is_success _ _ (by decide!)

set_option maxRecDepth 100000 in
/-- Witness of C39: the instance `order_instance` fitted depth-first and breadth-first: two
trees of seven nodes, the children of node `1` at the indices `5`, `6` in the one and `3`,
`4` in the other, that are the same binary tree. -/
theorem build_order_changes_only_layout_witness :
    (order_fitted depth_first).n_nodes = 7
      ∧ ((order_fitted depth_first).tree.getD 1 fresh_node).right_child_idx = 5
      ∧ ((order_fitted breadth_first).tree.getD 1 fresh_node).right_child_idx = 3
      ∧ (order_fitted breadth_first).n_nodes = (order_fitted depth_first).n_nodes
      ∧ (order_fitted breadth_first).n_leaves = (order_fitted depth_first).n_leaves
      ∧ (order_fitted breadth_first).depth = (order_fitted depth_first).depth
      ∧ iso (order_fitted depth_first) (order_fitted breadth_first) 0 0 :=
  have key := build_order_changes_only_layout reference_externals
    reference_externals_conforms (order_instance depth_first) (order_instance breadth_first)
    (order_instance depth_first) (order_fitted depth_first) (order_fitted breadth_first)
    breadth_first (order_instance_ready _) rfl rfl order_fit_success_depth_first
    order_fit_success_breadth_first rfl rfl (by decide!) (by decide!) (by decide!)
    (Or.inl (by decide!)) (by decide!)
  ⟨by decide!, by decide!, by decide!, key.1, key.2.1, key.2.2.1, key.2.2.2.1⟩

end da_decision_forest
